import Mathlib

/-!
# RMDB B+ tree index: shallow embedding of `src/index/ix_index_handle.cpp`

Pages are addressed by page number in an arena (`IxIndexHandle.pages`); a node
handle of the source is a page number here, and every read or write through a
handle is a read or write of the arena at that page number.  A node's
`num_key` together with the first `num_key` entries of its `keys` and `rids`
arrays is the list `pairs`.  Page latches, pin counts and the root mutex have
no content in a serial execution; the transaction's latch bag and
deferred-delete bag are kept as lists of page numbers.  Keys are single-column
integer keys.  Loops and recursions over the arena take a `fuel` bound.
-/

namespace RMDB

/-- Record identifier `(page_no, slot_no)`; an internal node stores the child
page number in `page_no`. -/
structure Rid where
  page_no : Int
  slot_no : Int
deriving DecidableEq, Repr

/-- Index position `(page_no, slot_no)` used by scan cursors. -/
structure Iid where
  page_no : Int
  slot_no : Int
deriving DecidableEq, Repr

/-- Operation kinds passed to `find_leaf_page`, `internal_lookup`, `is_safe`. -/
inductive Operation where
  | FIND
  | FIND_LOWER
  | FIND_UPPER
  | INSERT
  | DELETE
deriving DecidableEq, Repr

/-- Errors: the exception thrown by `insert_pairs` / `get_rid`, and the
exhaustion of the loop bound of the embedding. -/
inductive IxError where
  | IndexEntryNotFoundError
  | OutOfFuel
deriving DecidableEq, Repr

/-- Equality of results is decidable when equality of errors and of values
is. -/
instance except_decidable_eq {ε α : Type} [DecidableEq ε] [DecidableEq α] :
    DecidableEq (Except ε α)
  | Except.error a, Except.error b =>
    if h : a = b then isTrue (by rw [h]) else isFalse (fun h2 => h (Except.error.inj h2))
  | Except.ok a, Except.ok b =>
    if h : a = b then isTrue (by rw [h]) else isFalse (fun h2 => h (Except.ok.inj h2))
  | Except.error _, Except.ok _ => isFalse (fun h => Except.noConfusion h)
  | Except.ok _, Except.error _ => isFalse (fun h => Except.noConfusion h)

/-- Modelled from the spec: the constant `IX_NO_PAGE` of the absent header
(`parent_page_no (i32, -1 = none)`). -/
def IX_NO_PAGE : Int := -1

/-- Modelled from the spec: the constant `IX_LEAF_HEADER_PAGE` of the absent
header (`Page 1: LeafHeader sentinel`). -/
def IX_LEAF_HEADER_PAGE : Int := 1

/-- Modelled from the spec: the comparator `ix_compare` of the absent header,
for a single integer column; returns -1, 0 or 1. -/
def ix_compare (a b : Int) : Int :=
  if a < b then -1 else if b < a then 1 else 0

/-- The page header and the live part of the key and rid arrays of one node
page. -/
structure IxNodeHandle where
  is_leaf : Bool
  parent : Int
  prev_leaf : Int
  next_leaf : Int
  pairs : List (Int × Rid)
deriving DecidableEq, Repr

/-- A page as `new_page` hands it out: zeroed. -/
def zero_node : IxNodeHandle :=
  { is_leaf := false, parent := 0, prev_leaf := 0, next_leaf := 0, pairs := [] }

/-- The file header fields the index code reads and writes. -/
structure IxFileHdr where
  btree_order : Nat
  num_pages : Int
  root_page : Int
  first_leaf : Int
  last_leaf : Int
deriving DecidableEq, Repr

namespace IxNodeHandle

/-- Accessor `get_size`: `page_hdr->num_key`. -/
def get_size (n : IxNodeHandle) : Int := n.pairs.length

/-- Modelled from the spec: accessor `get_key(i)` of the absent header; a read
outside `[0, num_key)` is a read of stale bytes in the source and yields 0
here. -/
def get_key (n : IxNodeHandle) (i : Int) : Int :=
  if i < 0 then 0 else (n.pairs.getD i.toNat (0, ⟨0, 0⟩)).1

/-- Modelled from the spec: accessor `get_rid(i)` of the absent header. -/
def get_rid (n : IxNodeHandle) (i : Int) : Rid :=
  if i < 0 then ⟨0, 0⟩ else (n.pairs.getD i.toNat (0, ⟨0, 0⟩)).2

/-- Modelled from the spec: accessor `value_at(i)` of the absent header, the
child page number stored in slot `i`. -/
def value_at (n : IxNodeHandle) (i : Int) : Int := (n.get_rid i).page_no

/-- Modelled from the spec: `is_root_page` of the absent header, the parent is
`IX_NO_PAGE`. -/
def is_root_page (n : IxNodeHandle) : Bool := n.parent == IX_NO_PAGE

/-- Modelled from the spec: `get_max_size` of the absent header, `btree_order
(max keys per node)`. -/
def get_max_size (hdr : IxFileHdr) : Int := hdr.btree_order

/-- Modelled from the spec: `get_min_size` of the absent header,
`min_size = ⌈max_size/2⌉`. -/
def get_min_size (hdr : IxFileHdr) : Int := (get_max_size hdr + 1) / 2

/-- Modelled from the spec: `is_full` of the absent header,
`num_keys == max_size`. -/
def is_full (hdr : IxFileHdr) (n : IxNodeHandle) : Bool :=
  n.get_size == get_max_size hdr

/-- Source `IxNodeHandle::is_safe`. -/
def is_safe (hdr : IxFileHdr) (n : IxNodeHandle) (operation : Operation) : Bool :=
  if operation = Operation.INSERT then
    decide (n.get_size + 1 < get_max_size hdr)
  else if operation = Operation.DELETE then
    if n.is_root_page then
      if n.is_leaf then decide (n.get_size > 1)
      else decide (n.get_size - 1 ≥ 2)
    else decide (n.get_size - 1 ≥ get_min_size hdr)
  else true

/-- The `while (left <= right)` loop of `IxNodeHandle::lower_bound`; the bound
`fuel` is the number of iterations allowed. -/
def lower_bound_loop (n : IxNodeHandle) (target : Int) : Nat → Int → Int → Int
  | 0, left, _ => left
  | fuel + 1, left, right =>
    if left ≤ right then
      let mid := (left + right) / 2
      if ix_compare (n.get_key mid) target < 0 then
        lower_bound_loop n target fuel (mid + 1) right
      else
        lower_bound_loop n target fuel left (mid - 1)
    else left

/-- Source `IxNodeHandle::lower_bound`. -/
def lower_bound (n : IxNodeHandle) (target : Int) : Int :=
  lower_bound_loop n target (n.pairs.length + 1) 0 (n.get_size - 1)

/-- The `while (left <= right)` loop of `IxNodeHandle::upper_bound`. -/
def upper_bound_loop (n : IxNodeHandle) (target : Int) : Nat → Int → Int → Int
  | 0, left, _ => left
  | fuel + 1, left, right =>
    if left ≤ right then
      let mid := (left + right) / 2
      if ix_compare (n.get_key mid) target ≤ 0 then
        upper_bound_loop n target fuel (mid + 1) right
      else
        upper_bound_loop n target fuel left (mid - 1)
    else left

/-- Source `IxNodeHandle::upper_bound`. -/
def upper_bound (n : IxNodeHandle) (target : Int) : Int :=
  upper_bound_loop n target (n.pairs.length + 1) 1 (n.get_size - 1)

/-- Source `IxNodeHandle::leaf_lookup`; `none` is the `false` return. -/
def leaf_lookup (n : IxNodeHandle) (key : Int) : Option Rid :=
  let pos := n.lower_bound key
  if pos = n.get_size ∨ ix_compare (n.get_key pos) key ≠ 0 then none
  else some (n.get_rid pos)

/-- Source `IxNodeHandle::internal_lookup`. -/
def internal_lookup (n : IxNodeHandle) (key : Int) (operation : Operation) : Int :=
  let pos :=
    if operation = Operation.FIND_LOWER ∨ operation = Operation.FIND then
      let pos := n.lower_bound key
      if pos > 0 then pos - 1 else pos
    else
      n.upper_bound key - 1
  n.value_at pos

/-- Source `IxNodeHandle::insert_pairs`; the `n` source pairs are the list
`kvs`. Like the source it checks `pos` only. The list of pairs after the call
is the content of the key and rid arrays of the page as long as it has at most
`max_size` pairs, the number of slots of the two arrays; for a longer list the
source has written behind the arrays (`insert_pairs_words` gives these writes
on the words of the page). -/
def insert_pairs (n : IxNodeHandle) (pos : Int) (kvs : List (Int × Rid)) :
    Except IxError IxNodeHandle :=
  if pos < 0 ∨ pos > n.get_size then
    Except.error IxError.IndexEntryNotFoundError
  else
    Except.ok { n with pairs := n.pairs.take pos.toNat ++ kvs ++ n.pairs.drop pos.toNat }

/-- Modelled from the spec: `insert_pair(pos, key, rid)` of the absent header,
`insert_pairs` with one pair. -/
def insert_pair (n : IxNodeHandle) (pos : Int) (key : Int) (rid : Rid) :
    Except IxError IxNodeHandle :=
  n.insert_pairs pos [(key, rid)]

/-- Source `IxNodeHandle::insert`; returns the node and the new `num_key`. -/
def insert (n : IxNodeHandle) (key : Int) (value : Rid) :
    Except IxError (IxNodeHandle × Int) :=
  let pos := n.lower_bound key
  if pos ≥ n.get_size ∨ ix_compare (n.get_key pos) key ≠ 0 then
    match n.insert_pairs pos [(key, value)] with
    | Except.error e => Except.error e
    | Except.ok m => Except.ok (m, m.get_size)
  else
    Except.ok (n, n.get_size)

/-- Source `IxNodeHandle::erase_pair`, for `pos` in `[0, num_key)`. Outside
this range the source calls `memmove` with a negative length and still
decrements `num_key`, which the list of pairs does not render. -/
def erase_pair (n : IxNodeHandle) (pos : Int) : IxNodeHandle :=
  { n with pairs := n.pairs.take pos.toNat ++ n.pairs.drop (pos.toNat + 1) }

/-- Source `IxNodeHandle::remove`; returns the node and the new `num_key`. -/
def remove (n : IxNodeHandle) (key : Int) : IxNodeHandle × Int :=
  let pos := n.lower_bound key
  if pos < n.get_size ∧ ix_compare (n.get_key pos) key = 0 then
    ((n.erase_pair pos), (n.erase_pair pos).get_size)
  else
    (n, n.get_size)

/-- Modelled from the spec: `find_child` of the absent header, a linear scan
of the rids for the child's page number. -/
def find_child (n : IxNodeHandle) (child_page_no : Int) : Int :=
  n.pairs.findIdx (fun e => e.2.page_no == child_page_no)

/-- Modelled from the spec: `set_key(i, key)` of the absent header. -/
def set_key (n : IxNodeHandle) (i : Int) (key : Int) : IxNodeHandle :=
  if i < 0 then n
  else { n with pairs := n.pairs.modify (fun e => (key, e.2)) i.toNat }

end IxNodeHandle

/-- The index handle: file header, the pages by page number, the allocation
cursor of the disk manager, and the transaction's latch bag and
deferred-delete bag. -/
structure IxIndexHandle where
  file_hdr : IxFileHdr
  pages : Int → IxNodeHandle
  next_page_no : Int
  latch_page_set : List Int
  deleted_page_set : List Int

namespace IxIndexHandle

/-- Source `IxIndexHandle::fetch_node`: the node stored in page `page_no`. -/
def fetch_node (ih : IxIndexHandle) (page_no : Int) : IxNodeHandle := ih.pages page_no

/-- A write through a node handle: page `page_no` becomes `f` of its content. -/
def modify_node (ih : IxIndexHandle) (page_no : Int) (f : IxNodeHandle → IxNodeHandle) :
    IxIndexHandle :=
  { ih with pages := Function.update ih.pages page_no (f (ih.pages page_no)) }

/-- Modelled from the spec: `is_empty` of the absent header, the root page
number is `IX_NO_PAGE`. -/
def is_empty (ih : IxIndexHandle) : Bool := ih.file_hdr.root_page == IX_NO_PAGE

/-- Modelled from the spec: `update_root_page_no` of the absent header. -/
def update_root_page_no (ih : IxIndexHandle) (root : Int) : IxIndexHandle :=
  { ih with file_hdr := { ih.file_hdr with root_page := root } }

/-- Source `IxIndexHandle::unlock_page_set`: the latch bag is released and
cleared. -/
def unlock_page_set (ih : IxIndexHandle) : IxIndexHandle :=
  { ih with latch_page_set := [] }

/-- Modelled from the spec: `append_index_latch_page_set` of the transaction
object, push into the latch bag. -/
def append_index_latch_page_set (ih : IxIndexHandle) (page_no : Int) : IxIndexHandle :=
  { ih with latch_page_set := ih.latch_page_set ++ [page_no] }

/-- Modelled from the spec: `append_index_deleted_page` of the transaction
object, push into the deferred-delete bag. -/
def append_index_deleted_page (ih : IxIndexHandle) (page_no : Int) : IxIndexHandle :=
  { ih with deleted_page_set := ih.deleted_page_set ++ [page_no] }

/-- The `while (!cur_nodeHandle->is_leaf_page())` loop of
`IxIndexHandle::find_leaf_page`, from the node `cur`. -/
def find_leaf_loop (key : Int) (operation : Operation) (find_first : Bool) :
    Nat → IxIndexHandle → Int → Bool → Except IxError (Int × Bool × IxIndexHandle)
  | 0, ih, cur, root_is_latched =>
    if (ih.fetch_node cur).is_leaf then Except.ok (cur, root_is_latched, ih)
    else Except.error IxError.OutOfFuel
  | fuel + 1, ih, cur, root_is_latched =>
    if (ih.fetch_node cur).is_leaf then Except.ok (cur, root_is_latched, ih)
    else
      let child :=
        if find_first then (ih.fetch_node cur).value_at 0
        else (ih.fetch_node cur).internal_lookup key operation
      if operation = Operation.INSERT ∨ operation = Operation.DELETE then
        if find_first = false ∧
            (ih.fetch_node child).is_safe ih.file_hdr operation = true then
          find_leaf_loop key operation find_first fuel
            (ih.unlock_page_set.append_index_latch_page_set child) child false
        else
          find_leaf_loop key operation find_first fuel
            (ih.append_index_latch_page_set child) child root_is_latched
      else
        find_leaf_loop key operation find_first fuel ih child root_is_latched

/-- Source `IxIndexHandle::find_leaf_page`: the leaf reached, whether the root
latch is still held, and the handle with the latch bag of the descent. -/
def find_leaf_page (fuel : Nat) (ih : IxIndexHandle) (key : Int) (operation : Operation)
    (find_first : Bool) : Except IxError (Int × Bool × IxIndexHandle) :=
  if operation = Operation.INSERT ∨ operation = Operation.DELETE then
    find_leaf_loop key operation find_first fuel
      (ih.append_index_latch_page_set ih.file_hdr.root_page) ih.file_hdr.root_page true
  else
    find_leaf_loop key operation find_first fuel ih ih.file_hdr.root_page false

/-- Source `IxIndexHandle::get_value`: the return flag and the result vector
after the call. -/
def get_value (fuel : Nat) (ih : IxIndexHandle) (key : Int) (result : List Rid) :
    Except IxError (Bool × List Rid) :=
  if ih.is_empty then Except.ok (false, result)
  else
    match ih.find_leaf_page fuel key Operation.FIND false with
    | Except.error e => Except.error e
    | Except.ok (leaf_node, _, _) =>
      match (ih.fetch_node leaf_node).leaf_lookup key with
      | some rid => Except.ok (true, result ++ [rid])
      | none =>
        if leaf_node ≠ ih.file_hdr.last_leaf then
          let next_leaf := ih.fetch_node (ih.fetch_node leaf_node).next_leaf
          if ix_compare (next_leaf.get_key 0) key = 0 then
            Except.ok (true, result ++ [next_leaf.get_rid 0])
          else Except.ok (false, result)
        else Except.ok (false, result)

/-- Source `IxIndexHandle::create_node`; the page comes zeroed from
`new_page`, its number from the allocation cursor. -/
def create_node (ih : IxIndexHandle) : IxIndexHandle × Int :=
  ({ ih with
      file_hdr := { ih.file_hdr with num_pages := ih.file_hdr.num_pages + 1 }
      pages := Function.update ih.pages ih.next_page_no zero_node
      next_page_no := ih.next_page_no + 1 },
    ih.next_page_no)

/-- Source `IxIndexHandle::release_node_handle`. -/
def release_node_handle (ih : IxIndexHandle) : IxIndexHandle :=
  { ih with file_hdr := { ih.file_hdr with num_pages := ih.file_hdr.num_pages - 1 } }

/-- Source `IxIndexHandle::maintain_child`. -/
def maintain_child (ih : IxIndexHandle) (node : Int) (child_idx : Int) : IxIndexHandle :=
  if (ih.fetch_node node).is_leaf = false then
    let child_page_no := (ih.fetch_node node).value_at child_idx
    ih.modify_node child_page_no (fun c => { c with parent := node })
  else ih

/-- Source `IxIndexHandle::erase_leaf`. -/
def erase_leaf (ih : IxIndexHandle) (leaf : Int) : IxIndexHandle :=
  let ih1 := ih.modify_node (ih.fetch_node leaf).prev_leaf
    (fun p => { p with next_leaf := (ih.fetch_node leaf).next_leaf })
  ih1.modify_node (ih1.fetch_node leaf).next_leaf
    (fun n => { n with prev_leaf := (ih1.fetch_node leaf).prev_leaf })

/-- Source `IxIndexHandle::maintain_parent`, the loop from `curr`. -/
def maintain_parent : Nat → IxIndexHandle → Int → Except IxError IxIndexHandle
  | 0, ih, curr =>
    if (ih.fetch_node curr).parent ≠ IX_NO_PAGE then Except.error IxError.OutOfFuel
    else Except.ok ih
  | fuel + 1, ih, curr =>
    if (ih.fetch_node curr).parent ≠ IX_NO_PAGE then
      let parent := (ih.fetch_node curr).parent
      let rank := (ih.fetch_node parent).find_child curr
      let parent_key := (ih.fetch_node parent).get_key rank
      let child_first_key := (ih.fetch_node curr).get_key 0
      if parent_key = child_first_key then Except.ok ih
      else
        maintain_parent fuel
          (ih.modify_node parent (fun p => p.set_key rank child_first_key)) parent
    else Except.ok ih

/-- Source `IxIndexHandle::split`: the handle after the split and the page
number of the new right sibling. -/
def split (ih0 : IxIndexHandle) (node : Int) : Except IxError (IxIndexHandle × Int) :=
  let new_node := ih0.create_node.2
  let ih1 := ih0.create_node.1
  let split_point := IxNodeHandle.get_min_size ih1.file_hdr
  let ih2 := ih1.modify_node new_node (fun n => { n with is_leaf := (ih1.fetch_node node).is_leaf })
  let ih3 := ih2.modify_node new_node (fun n => { n with parent := (ih2.fetch_node node).parent })
  let ih7 :=
    if (ih3.fetch_node new_node).is_leaf then
      let ih4 := ih3.modify_node new_node (fun n => { n with prev_leaf := node })
      let ih5 := ih4.modify_node new_node
        (fun n => { n with next_leaf := (ih4.fetch_node node).next_leaf })
      let ih6 := ih5.modify_node node (fun n => { n with next_leaf := new_node })
      ih6.modify_node (ih6.fetch_node new_node).next_leaf
        (fun n => { n with prev_leaf := new_node })
    else ih3
  match (ih7.fetch_node new_node).insert_pairs 0
      ((ih7.fetch_node node).pairs.drop split_point.toNat) with
  | Except.error e => Except.error e
  | Except.ok m =>
    let ih8 := ih7.modify_node new_node (fun _ => m)
    let node_size := (ih8.fetch_node node).get_size
    let ih9 :=
      ((List.range' split_point.toNat (node_size - split_point).toNat).reverse).foldl
        (fun s idx => s.modify_node node (fun n => n.erase_pair (idx : Nat))) ih8
    let ih10 := ih9.modify_node node
      (fun n => { n with pairs := n.pairs.take split_point.toNat })
    let ih11 :=
      if (ih10.fetch_node new_node).is_leaf = false then
        (List.range (ih10.fetch_node new_node).pairs.length).foldl
          (fun s child_idx => s.maintain_child new_node (child_idx : Nat)) ih10
      else ih10
    Except.ok (ih11, new_node)

/-- Source `IxIndexHandle::insert_into_parent`. -/
def insert_into_parent :
    Nat → IxIndexHandle → Int → Int → Int → Except IxError IxIndexHandle
  | 0, _, _, _, _ => Except.error IxError.OutOfFuel
  | fuel + 1, ih0, old_node, key, new_node =>
    if (ih0.fetch_node old_node).is_root_page then
      let new_root_node := ih0.create_node.2
      let ih1 := ih0.create_node.1
      let ih2 := ih1.modify_node new_root_node
        (fun n => { n with parent := (ih1.fetch_node old_node).parent })
      let ih3 := ih2.modify_node new_root_node (fun n => { n with is_leaf := false })
      let ih4 := ih3.modify_node old_node (fun n => { n with parent := new_root_node })
      let ih5 := ih4.modify_node new_node (fun n => { n with parent := new_root_node })
      let ih6 := ih5.update_root_page_no new_root_node
      match (ih6.fetch_node new_root_node).insert_pair 0
          ((ih6.fetch_node old_node).get_key 0) ⟨old_node, 0⟩ with
      | Except.error e => Except.error e
      | Except.ok r1 =>
        let ih7 := ih6.modify_node new_root_node (fun _ => r1)
        match (ih7.fetch_node new_root_node).insert_pair 1 key ⟨new_node, 0⟩ with
        | Except.error e => Except.error e
        | Except.ok r2 => Except.ok (ih7.modify_node new_root_node (fun _ => r2))
    else
      let parent_page_id := (ih0.fetch_node old_node).parent
      let rank := (ih0.fetch_node parent_page_id).find_child old_node
      match (ih0.fetch_node parent_page_id).insert_pair (rank + 1) key ⟨new_node, 0⟩ with
      | Except.error e => Except.error e
      | Except.ok p1 =>
        let ih1 := ih0.modify_node parent_page_id (fun _ => p1)
        if IxNodeHandle.is_full ih1.file_hdr (ih1.fetch_node parent_page_id) then
          match ih1.split parent_page_id with
          | Except.error e => Except.error e
          | Except.ok (ih2, new_parent_node) =>
            insert_into_parent fuel (ih2.append_index_latch_page_set new_parent_node)
              parent_page_id ((ih2.fetch_node new_parent_node).get_key 0) new_parent_node
        else Except.ok ih1

/-- Source `IxIndexHandle::create_new_tree`. -/
def create_new_tree (ih0 : IxIndexHandle) (key : Int) (rid : Rid) :
    Except IxError IxIndexHandle :=
  let new_root := ih0.create_node.2
  let ih1 := ih0.create_node.1
  let ih2 := ih1.modify_node new_root (fun n => { n with parent := IX_NO_PAGE })
  let ih3 := ih2.modify_node new_root (fun n => { n with is_leaf := true })
  let ih4 : IxIndexHandle :=
    { ih3 with file_hdr := { ih3.file_hdr with first_leaf := new_root, last_leaf := new_root } }
  let ih5 := ih4.modify_node IX_LEAF_HEADER_PAGE (fun n => { n with prev_leaf := new_root })
  let ih6 := ih5.modify_node IX_LEAF_HEADER_PAGE (fun n => { n with next_leaf := new_root })
  let ih7 := ih6.modify_node new_root (fun n => { n with prev_leaf := IX_LEAF_HEADER_PAGE })
  let ih8 := ih7.modify_node new_root (fun n => { n with next_leaf := IX_LEAF_HEADER_PAGE })
  let ih9 := ih8.update_root_page_no new_root
  match (ih9.fetch_node new_root).insert_pair 0 key rid with
  | Except.error e => Except.error e
  | Except.ok r => Except.ok (ih9.modify_node new_root (fun _ => r))

/-- Source `IxIndexHandle::insert_entry`: the returned page number and the
handle after the call. -/
def insert_entry (fuel : Nat) (ih0 : IxIndexHandle) (key : Int) (value : Rid) :
    Except IxError (Int × IxIndexHandle) :=
  if ih0.is_empty then
    match ih0.create_new_tree key value with
    | Except.error e => Except.error e
    | Except.ok ih1 => Except.ok (1, ih1)
  else
    let first_leaf := ih0.fetch_node ih0.file_hdr.first_leaf
    let cmp := ix_compare (first_leaf.get_key 0) key
    if cmp = 0 then Except.ok (-1, ih0)
    else
      let find_first := decide (cmp > 0)
      match ih0.find_leaf_page fuel key Operation.INSERT find_first with
      | Except.error e => Except.error e
      | Except.ok (leaf_node, _, ih1) =>
        let sz := (ih1.fetch_node leaf_node).get_size
        match (ih1.fetch_node leaf_node).insert key value with
        | Except.error e => Except.error e
        | Except.ok (m, new_sz) =>
          let ih2 := ih1.modify_node leaf_node (fun _ => m)
          if new_sz = sz then Except.ok (-1, ih2.unlock_page_set)
          else
            match maintain_parent fuel ih2 leaf_node with
            | Except.error e => Except.error e
            | Except.ok ih3 =>
              if IxNodeHandle.is_full ih3.file_hdr (ih3.fetch_node leaf_node) then
                match ih3.split leaf_node with
                | Except.error e => Except.error e
                | Except.ok (ih4, new_leaf_node) =>
                  match insert_into_parent fuel (ih4.append_index_latch_page_set new_leaf_node)
                      leaf_node ((ih4.fetch_node new_leaf_node).get_key 0) new_leaf_node with
                  | Except.error e => Except.error e
                  | Except.ok ih5 =>
                    let ih6 : IxIndexHandle :=
                      if (ih5.fetch_node new_leaf_node).next_leaf = IX_LEAF_HEADER_PAGE then
                        { ih5 with file_hdr := { ih5.file_hdr with last_leaf := new_leaf_node } }
                      else ih5
                    Except.ok (leaf_node, ih6.unlock_page_set)
              else Except.ok (leaf_node, ih3.unlock_page_set)

/-- Source `IxIndexHandle::adjust_root`: whether the root is to be deleted,
and the handle after the call. -/
def adjust_root (ih0 : IxIndexHandle) (old_root_node : Int) : Bool × IxIndexHandle :=
  if (ih0.fetch_node old_root_node).is_leaf = false ∧
      (ih0.fetch_node old_root_node).get_size = 1 then
    let child := (ih0.fetch_node old_root_node).value_at 0
    let ih1 := ih0.modify_node old_root_node (fun n => n.erase_pair 0)
    let ih2 := ih1.modify_node child (fun n => { n with parent := IX_NO_PAGE })
    let ih3 := ih2.update_root_page_no child
    (true, ih3.release_node_handle)
  else if (ih0.fetch_node old_root_node).is_leaf = true ∧
      (ih0.fetch_node old_root_node).get_size = 0 then
    let ih1 := ih0.erase_leaf old_root_node
    let ih2 := ih1.release_node_handle
    (true, ih2.update_root_page_no IX_NO_PAGE)
  else (false, ih0)

/-- Source `IxIndexHandle::redistribute`. -/
def redistribute (ih0 : IxIndexHandle) (neighbor_node node parent : Int) (index : Int) :
    Except IxError IxIndexHandle :=
  if index = 0 then
    match (ih0.fetch_node node).insert_pair (ih0.fetch_node node).get_size
        ((ih0.fetch_node neighbor_node).get_key 0) ((ih0.fetch_node neighbor_node).get_rid 0) with
    | Except.error e => Except.error e
    | Except.ok m =>
      let ih1 := ih0.modify_node node (fun _ => m)
      let ih2 := ih1.modify_node neighbor_node (fun n => n.erase_pair 0)
      let ih3 := ih2.modify_node parent
        (fun p => p.set_key (index + 1) ((ih2.fetch_node neighbor_node).get_key 0))
      Except.ok (ih3.maintain_child node ((ih3.fetch_node node).get_size - 1))
  else
    let end_idx := (ih0.fetch_node neighbor_node).get_size - 1
    match (ih0.fetch_node node).insert_pair 0
        ((ih0.fetch_node neighbor_node).get_key end_idx)
        ((ih0.fetch_node neighbor_node).get_rid end_idx) with
    | Except.error e => Except.error e
    | Except.ok m =>
      let ih1 := ih0.modify_node node (fun _ => m)
      let ih2 := ih1.modify_node neighbor_node (fun n => n.erase_pair end_idx)
      let ih3 := ih2.modify_node parent
        (fun p => p.set_key index ((ih2.fetch_node node).get_key 0))
      Except.ok (ih3.maintain_child node 0)

/-- Source `IxIndexHandle::coalesce`; `recurse` is the recursive call of
`coalesce_or_redistribute` on the parent. -/
def coalesce (recurse : IxIndexHandle → Int → Except IxError (Bool × IxIndexHandle))
    (ih0 : IxIndexHandle) (neighbor_node0 node0 parent : Int) (index0 : Int) :
    Except IxError (Bool × IxIndexHandle) :=
  let neighbor_node := if index0 = 0 then node0 else neighbor_node0
  let node := if index0 = 0 then neighbor_node0 else node0
  let index := if index0 = 0 then index0 + 1 else index0
  let prev_idx := (ih0.fetch_node neighbor_node).pairs.length
  match (ih0.fetch_node neighbor_node).insert_pairs (ih0.fetch_node neighbor_node).get_size
      (ih0.fetch_node node).pairs with
  | Except.error e => Except.error e
  | Except.ok m =>
    let ih1 := ih0.modify_node neighbor_node (fun _ => m)
    let ih2 :=
      (List.range' prev_idx ((ih1.fetch_node neighbor_node).pairs.length - prev_idx)).foldl
        (fun s child_idx => s.maintain_child neighbor_node (child_idx : Nat)) ih1
    let ih3 := if (ih2.fetch_node node).is_leaf then ih2.erase_leaf node else ih2
    let ih4 : IxIndexHandle :=
      if (ih3.fetch_node node).is_leaf = true ∧
          (ih3.fetch_node node).next_leaf = IX_LEAF_HEADER_PAGE then
        { ih3 with file_hdr := { ih3.file_hdr with last_leaf := neighbor_node } }
      else ih3
    let ih5 := ih4.append_index_deleted_page node
    let ih6 := ih5.release_node_handle
    let ih7 := ih6.modify_node parent (fun p => p.erase_pair index)
    if (ih7.fetch_node parent).get_size < IxNodeHandle.get_min_size ih7.file_hdr then
      recurse ih7 parent
    else Except.ok (false, ih7)

/-- Source `IxIndexHandle::coalesce_or_redistribute`. -/
def coalesce_or_redistribute :
    Nat → IxIndexHandle → Int → Except IxError (Bool × IxIndexHandle)
  | 0, _, _ => Except.error IxError.OutOfFuel
  | fuel + 1, ih0, node =>
    if (ih0.fetch_node node).is_root_page then
      let r := ih0.adjust_root node
      if r.1 then Except.ok (true, r.2.append_index_deleted_page node)
      else Except.ok (false, r.2)
    else if (ih0.fetch_node node).get_size ≥ IxNodeHandle.get_min_size ih0.file_hdr then
      Except.ok (false, ih0)
    else
      let parent := (ih0.fetch_node node).parent
      let node_rank := (ih0.fetch_node parent).find_child node
      let sibling_rank := if node_rank ≠ 0 then node_rank - 1 else node_rank + 1
      let sibling := (ih0.fetch_node parent).value_at sibling_rank
      if (ih0.fetch_node node).get_size + (ih0.fetch_node sibling).get_size ≥
          IxNodeHandle.get_min_size ih0.file_hdr * 2 then
        match ih0.redistribute sibling node parent node_rank with
        | Except.error e => Except.error e
        | Except.ok ih1 => Except.ok (false, ih1)
      else
        match coalesce (coalesce_or_redistribute fuel)
            (ih0.append_index_latch_page_set sibling) sibling node parent node_rank with
        | Except.error e => Except.error e
        | Except.ok (_, ih1) => Except.ok (true, ih1)

/-- Source `IxIndexHandle::delete_entry`: the returned flag and the handle
after the call. -/
def delete_entry (fuel : Nat) (ih0 : IxIndexHandle) (key : Int) :
    Except IxError (Bool × IxIndexHandle) :=
  if ih0.is_empty then Except.ok (false, ih0)
  else
    let first_leaf := ih0.fetch_node ih0.file_hdr.first_leaf
    let cmp := ix_compare (first_leaf.get_key 0) key
    if cmp > 0 then Except.ok (false, ih0)
    else
      let find_first := decide (cmp = 0)
      match ih0.find_leaf_page fuel key Operation.DELETE find_first with
      | Except.error e => Except.error e
      | Except.ok (leaf_node, _, ih1) =>
        let pre := (ih1.fetch_node leaf_node).get_size
        let r := (ih1.fetch_node leaf_node).remove key
        let ih2 := ih1.modify_node leaf_node (fun _ => r.1)
        if pre = r.2 then Except.ok (false, ih2.unlock_page_set)
        else
          match maintain_parent fuel ih2 leaf_node with
          | Except.error e => Except.error e
          | Except.ok ih3 =>
            match coalesce_or_redistribute fuel ih3 leaf_node with
            | Except.error e => Except.error e
            | Except.ok (_, ih4) =>
              let ih5 := ih4.unlock_page_set
              Except.ok (true, { ih5 with deleted_page_set := [] })

/-- Source `IxIndexHandle::leaf_end`. -/
def leaf_end (ih : IxIndexHandle) : Iid :=
  ⟨ih.file_hdr.last_leaf, (ih.fetch_node ih.file_hdr.last_leaf).get_size⟩

/-- Source `IxIndexHandle::leaf_begin`. -/
def leaf_begin (ih : IxIndexHandle) : Iid := ⟨ih.file_hdr.first_leaf, 0⟩

/-- Source `IxIndexHandle::lower_bound`. -/
def lower_bound (fuel : Nat) (ih : IxIndexHandle) (key : Int) : Except IxError Iid :=
  if ih.is_empty then Except.ok ⟨-1, -1⟩
  else
    match ih.find_leaf_page fuel key Operation.FIND_LOWER false with
    | Except.error e => Except.error e
    | Except.ok (leaf, _, _) =>
      let pos := (ih.fetch_node leaf).lower_bound key
      if pos = (ih.fetch_node leaf).get_size then
        if ih.file_hdr.last_leaf = leaf then Except.ok ih.leaf_end
        else Except.ok ⟨(ih.fetch_node leaf).next_leaf, 0⟩
      else Except.ok ⟨leaf, pos⟩

/-- Source `IxIndexHandle::upper_bound`. -/
def upper_bound (fuel : Nat) (ih : IxIndexHandle) (key : Int) : Except IxError Iid :=
  if ih.is_empty then Except.ok ⟨-1, -1⟩
  else
    match ih.find_leaf_page fuel key Operation.FIND_UPPER false with
    | Except.error e => Except.error e
    | Except.ok (leaf, _, _) =>
      let cmp := ix_compare ((ih.fetch_node leaf).get_key 0) key
      let pos0 := (ih.fetch_node leaf).upper_bound key
      let pos := if (cmp > 0 ∧ pos0 = 1) ∨ (ih.fetch_node leaf).get_size = 0 then 0 else pos0
      if pos = (ih.fetch_node leaf).get_size then
        if ih.file_hdr.last_leaf = leaf then Except.ok ih.leaf_end
        else Except.ok ⟨(ih.fetch_node leaf).next_leaf, 0⟩
      else Except.ok ⟨leaf, pos⟩

/-- Modelled from the spec: `IxScan::next` of the absent scan cursor, the
forward hand-over-hand step: the slot advances by one, and at the end of a
leaf other than the last leaf the cursor moves to slot 0 of the next leaf. -/
def scan_next (ih : IxIndexHandle) (iid : Iid) : Iid :=
  let slot := iid.slot_no + 1
  if iid.page_no ≠ ih.file_hdr.last_leaf ∧ slot = (ih.fetch_node iid.page_no).get_size then
    ⟨(ih.fetch_node iid.page_no).next_leaf, 0⟩
  else ⟨iid.page_no, slot⟩

/-- Source `IxIndexHandle::get_rid`. -/
def get_rid (ih : IxIndexHandle) (iid : Iid) : Except IxError Rid :=
  if iid.slot_no ≥ (ih.fetch_node iid.page_no).get_size then
    Except.error IxError.IndexEntryNotFoundError
  else Except.ok ((ih.fetch_node iid.page_no).get_rid iid.slot_no)

/-- Modelled from the spec: the forward scan of the absent scan cursor, the
rids from position `cur` up to and excluding position `upper`. -/
def scan : Nat → IxIndexHandle → Iid → Iid → Except IxError (List Rid)
  | 0, _, cur, upper => if cur = upper then Except.ok [] else Except.error IxError.OutOfFuel
  | fuel + 1, ih, cur, upper =>
    if cur = upper then Except.ok []
    else
      match ih.get_rid cur with
      | Except.error e => Except.error e
      | Except.ok rid =>
        match scan fuel ih (ih.scan_next cur) upper with
        | Except.error e => Except.error e
        | Except.ok rids => Except.ok (rid :: rids)

/-- The range scan of the spec: a forward scan from `lower_bound a` to
`upper_bound b`. -/
def range_scan (fuel : Nat) (ih : IxIndexHandle) (a b : Int) : Except IxError (List Rid) :=
  match ih.lower_bound fuel a with
  | Except.error e => Except.error e
  | Except.ok lower =>
    match ih.upper_bound fuel b with
    | Except.error e => Except.error e
    | Except.ok upper => scan fuel ih lower upper

/-- A serial sequence of inserts: the keys `ks` in order, key `k` with rid
`(k, 0)`. -/
def insert_keys (fuel : Nat) : IxIndexHandle → List Int → Except IxError IxIndexHandle
  | ih, [] => Except.ok ih
  | ih, k :: ks =>
    match ih.insert_entry fuel k ⟨k, 0⟩ with
    | Except.error e => Except.error e
    | Except.ok r => insert_keys fuel r.2 ks

end IxIndexHandle

/-! ## The data-model invariants, as predicates on the arena -/

/-- Invariant 2 for one node: its keys are strictly ascending. -/
def keys_sorted (n : IxNodeHandle) : Prop := (n.pairs.map Prod.fst).Pairwise (· < ·)

/-- Leaf pages of the subtree of height `h` rooted at page `p`, left to right. -/
def subtree_leaves (pages : Int → IxNodeHandle) : Nat → Int → List Int
  | 0, p => [p]
  | h + 1, p => (pages p).pairs.flatMap (fun e => subtree_leaves pages h e.2.page_no)

/-- Pages of all nodes of the subtree of height `h` rooted at page `p`. -/
def subtree_nodes (pages : Int → IxNodeHandle) : Nat → Int → List Int
  | 0, p => [p]
  | h + 1, p => p :: (pages p).pairs.flatMap (fun e => subtree_nodes pages h e.2.page_no)

/-- The (key, rid) pairs stored in the leaves of a list of leaf pages, in
order. -/
def leaves_entries (pages : Int → IxNodeHandle) (ls : List Int) : List (Int × Rid) :=
  ls.flatMap (fun l => (pages l).pairs)

/-- The (key, rid) pairs of the subtree of height `h` rooted at `p`, in leaf
order. -/
def subtree_entries (pages : Int → IxNodeHandle) (h : Nat) (p : Int) : List (Int × Rid) :=
  leaves_entries pages (subtree_leaves pages h p)

/-- Shape of the subtree of height `h` rooted at `p` with parent pointer
`par`: leaves exactly at depth `h`, every node non-empty, every child's
`parent` is its parent (invariant 5), and every `key[i]` of an internal node is
the first key of child `i` (invariant 3 in the form `maintain_parent` keeps it;
with sorted entries the first key of a node is the minimum key of its
subtree). -/
def wf_subtree (pages : Int → IxNodeHandle) : Nat → Int → Int → Prop
  | 0, p, par => (pages p).is_leaf = true ∧ (pages p).parent = par ∧ (pages p).pairs ≠ []
  | h + 1, p, par =>
    (pages p).is_leaf = false ∧ (pages p).parent = par ∧ (pages p).pairs ≠ [] ∧
      ∀ e ∈ (pages p).pairs, wf_subtree pages h e.2.page_no p ∧
        ((pages e.2.page_no).pairs.head?).map Prod.fst = some e.1

/-- Decision procedure for `wf_subtree`. -/
instance wf_subtree_decidable (pages : Int → IxNodeHandle) :
    ∀ (h : Nat) (p par : Int), Decidable (wf_subtree pages h p par)
  | 0, p, par =>
    inferInstanceAs
      (Decidable ((pages p).is_leaf = true ∧ (pages p).parent = par ∧ (pages p).pairs ≠ []))
  | h + 1, p, par =>
    have : ∀ e : Int × Rid, Decidable (wf_subtree pages h e.2.page_no p) :=
      fun e => wf_subtree_decidable pages h e.2.page_no p
    inferInstanceAs
      (Decidable ((pages p).is_leaf = false ∧ (pages p).parent = par ∧ (pages p).pairs ≠ [] ∧
        ∀ e ∈ (pages p).pairs, wf_subtree pages h e.2.page_no p ∧
          ((pages e.2.page_no).pairs.head?).map Prod.fst = some e.1))

/-- The pages `a`, then `ls` in order, then `z` are linked as neighbours by
`next_leaf` and back by `prev_leaf`. -/
def linked (pages : Int → IxNodeHandle) : Int → List Int → Int → Prop
  | a, [], z => (pages a).next_leaf = z ∧ (pages z).prev_leaf = a
  | a, b :: ls, z =>
    ((pages a).next_leaf = b ∧ (pages b).prev_leaf = a) ∧ linked pages b ls z

/-- Decision procedure for `linked`. -/
instance linked_decidable (pages : Int → IxNodeHandle) :
    ∀ (a : Int) (ls : List Int) (z : Int), Decidable (linked pages a ls z)
  | a, [], z =>
    inferInstanceAs (Decidable ((pages a).next_leaf = z ∧ (pages z).prev_leaf = a))
  | a, b :: ls, z =>
    have : Decidable (linked pages b ls z) := linked_decidable pages b ls z
    inferInstanceAs
      (Decidable (((pages a).next_leaf = b ∧ (pages b).prev_leaf = a) ∧ linked pages b ls z))

/-- The leaf ring (invariant 4): from the leaf-header sentinel through the
leaves `ls` and back to the sentinel, `next_leaf` and `prev_leaf` link
neighbours. -/
def leaf_ring (pages : Int → IxNodeHandle) (ls : List Int) : Prop :=
  linked pages IX_LEAF_HEADER_PAGE ls IX_LEAF_HEADER_PAGE

/-- Decision procedure for `leaf_ring`. -/
instance leaf_ring_decidable (pages : Int → IxNodeHandle) (ls : List Int) :
    Decidable (leaf_ring pages ls) :=
  inferInstanceAs (Decidable (linked pages IX_LEAF_HEADER_PAGE ls IX_LEAF_HEADER_PAGE))

/-- A valid non-empty tree of height `h`: the data-model invariants 2 to 5
(sorted keys, separator keys, leaf ring with `first_leaf` and `last_leaf`,
parent pointers), with all node pages distinct regular pages below the
allocation cursor. -/
def Valid (ih : IxIndexHandle) (h : Nat) : Prop :=
  ih.file_hdr.root_page ≠ IX_NO_PAGE ∧
  wf_subtree ih.pages h ih.file_hdr.root_page IX_NO_PAGE ∧
  ((subtree_entries ih.pages h ih.file_hdr.root_page).map Prod.fst).Pairwise (· < ·) ∧
  (subtree_nodes ih.pages h ih.file_hdr.root_page).Nodup ∧
  (∀ p ∈ subtree_nodes ih.pages h ih.file_hdr.root_page, 2 ≤ p ∧ p < ih.next_page_no) ∧
  leaf_ring ih.pages (subtree_leaves ih.pages h ih.file_hdr.root_page) ∧
  (subtree_leaves ih.pages h ih.file_hdr.root_page).head? = some ih.file_hdr.first_leaf ∧
  (subtree_leaves ih.pages h ih.file_hdr.root_page).getLast? = some ih.file_hdr.last_leaf

/-- Decision procedure for `Valid`. -/
instance Valid_decidable (ih : IxIndexHandle) (h : Nat) : Decidable (Valid ih h) :=
  inferInstanceAs (Decidable (_ ∧ _ ∧ _ ∧ _ ∧ _ ∧ _ ∧ _ ∧ _))

/-- Invariant 1: every non-root node of the subtree holds between `min_size`
and `max_size - 1` pairs (`root` tells whether `p` is the root). -/
def occupancy (hdr : IxFileHdr) (pages : Int → IxNodeHandle) : Nat → Int → Bool → Prop
  | 0, p, root =>
    root = true ∨ (IxNodeHandle.get_min_size hdr ≤ (pages p).get_size ∧
      (pages p).get_size ≤ IxNodeHandle.get_max_size hdr - 1)
  | h + 1, p, root =>
    (root = true ∨ (IxNodeHandle.get_min_size hdr ≤ (pages p).get_size ∧
      (pages p).get_size ≤ IxNodeHandle.get_max_size hdr - 1)) ∧
    ∀ e ∈ (pages p).pairs, occupancy hdr pages h e.2.page_no false

/-- Decision procedure for `occupancy`. -/
instance occupancy_decidable (hdr : IxFileHdr) (pages : Int → IxNodeHandle) :
    ∀ (h : Nat) (p : Int) (root : Bool), Decidable (occupancy hdr pages h p root)
  | 0, p, root =>
    inferInstanceAs
      (Decidable (root = true ∨ (IxNodeHandle.get_min_size hdr ≤ (pages p).get_size ∧
        (pages p).get_size ≤ IxNodeHandle.get_max_size hdr - 1)))
  | h + 1, p, root =>
    have : ∀ e : Int × Rid, Decidable (occupancy hdr pages h e.2.page_no false) :=
      fun e => occupancy_decidable hdr pages h e.2.page_no false
    inferInstanceAs
      (Decidable ((root = true ∨ (IxNodeHandle.get_min_size hdr ≤ (pages p).get_size ∧
        (pages p).get_size ≤ IxNodeHandle.get_max_size hdr - 1)) ∧
        ∀ e ∈ (pages p).pairs, occupancy hdr pages h e.2.page_no false))

/-- The leaf reached by the loop of `find_leaf_page` from `cur`, as a function
of the pages alone. -/
def leaf_reached (pages : Int → IxNodeHandle) (key : Int) (operation : Operation)
    (find_first : Bool) : Nat → Int → Option Int
  | 0, cur => if (pages cur).is_leaf then some cur else none
  | fuel + 1, cur =>
    if (pages cur).is_leaf then some cur
    else
      leaf_reached pages key operation find_first fuel
        (if find_first then (pages cur).value_at 0
         else (pages cur).internal_lookup key operation)

/-- The (key, rid) pairs stored in the tree of height `h`, in leaf order. -/
def tree_entries (ih : IxIndexHandle) (h : Nat) : List (Int × Rid) :=
  subtree_entries ih.pages h ih.file_hdr.root_page

/-- The leaf pages of the tree of height `h`, in leaf-chain order. -/
def tree_leaves (ih : IxIndexHandle) (h : Nat) : List Int :=
  subtree_leaves ih.pages h ih.file_hdr.root_page

/-- The positions of the pairs `es` of leaf `l`, from slot `i` on, each with
its pair. -/
def node_positions (l : Int) : Nat → List (Int × Rid) → List (Iid × (Int × Rid))
  | _, [] => []
  | i, e :: es => (⟨l, i⟩, e) :: node_positions l (i + 1) es

/-- Every entry of the leaves `ls` with its position, in leaf-chain order. -/
def leaf_positions (pages : Int → IxNodeHandle) (ls : List Int) : List (Iid × (Int × Rid)) :=
  ls.flatMap (fun l => node_positions l 0 (pages l).pairs)

/-- The position of the first entry, in leaf-chain order, whose key passes
`q`; `leaf_end` when no entry does. -/
def first_position (ih : IxIndexHandle) (h : Nat) (q : Int → Bool) : Iid :=
  match (leaf_positions ih.pages (tree_leaves ih h)).find? (fun pe => q pe.2.1) with
  | some pe => pe.1
  | none => ih.leaf_end

/-- The position at which the list of positions `ps` starts; `after` when it
is empty. -/
def start_or (after : Iid) : List (Iid × (Int × Rid)) → Iid
  | [] => after
  | m :: _ => m.1

/-- Along the positions `ps`, `get_rid` yields the rid of each position and
`scan_next` leads to the next position, from the last one to `after`. -/
def scan_linked (ih : IxIndexHandle) (after : Iid) : List (Iid × (Int × Rid)) → Prop
  | [] => True
  | m :: ps =>
    ih.get_rid m.1 = Except.ok m.2.2 ∧ ih.scan_next m.1 = start_or after ps ∧
      scan_linked ih after ps

/-- The node `p` sits at height `hp` inside the subtree of height `h` rooted at
`t`. -/
def sub_at (pages : Int → IxNodeHandle) (hp : Nat) (p : Int) : Nat → Int → Prop
  | 0, t => hp = 0 ∧ t = p
  | h + 1, t => (hp = h + 1 ∧ t = p) ∨ ∃ e ∈ (pages t).pairs, sub_at pages hp p h e.2.page_no

/-- The arena `pages` differs from `pages0` in keys only: every page keeps its
`is_leaf` flag and parent pointer and stays non-empty, and every internal node
keeps its rids. -/
def key_variant (pages0 pages : Int → IxNodeHandle) : Prop :=
  ∀ q, (pages q).is_leaf = (pages0 q).is_leaf ∧ (pages q).parent = (pages0 q).parent ∧
    ((pages0 q).pairs ≠ [] → (pages q).pairs ≠ []) ∧
    ((pages0 q).is_leaf = false →
      (pages q).pairs.map Prod.snd = (pages0 q).pairs.map Prod.snd)

/-- Every separator key of the internal nodes `nodes` is the first key of the
child it stands for, except possibly the separator of the child `ex`. -/
def seps_hold (pages : Int → IxNodeHandle) (nodes : List Int) (ex : Option Int) : Prop :=
  ∀ q ∈ nodes, (pages q).is_leaf = false → ∀ e ∈ (pages q).pairs, some e.2.page_no ≠ ex →
    ((pages e.2.page_no).pairs.head?).map Prod.fst = some e.1

/-- A handle that differs from `ih` in its latch bag only. -/
def same_tree (ih ih2 : IxIndexHandle) : Prop :=
  ih2.pages = ih.pages ∧ ih2.file_hdr = ih.file_hdr ∧ ih2.next_page_no = ih.next_page_no ∧
    ih2.deleted_page_set = ih.deleted_page_set

/-- A sample tree with `max_size = 4`: the root (page 4) with keys 5 and 30
over the leaves `[5, 10, 20]` (page 2) and `[30, 40]` (page 3). -/
def sample_tree : IxIndexHandle :=
  { file_hdr :=
      { btree_order := 4, num_pages := 5, root_page := 4, first_leaf := 2, last_leaf := 3 }
    pages := fun p =>
      if p = 1 then { zero_node with prev_leaf := 3, next_leaf := 2 }
      else if p = 2 then
        { is_leaf := true, parent := 4, prev_leaf := 1, next_leaf := 3,
          pairs := [(5, ⟨5, 0⟩), (10, ⟨10, 0⟩), (20, ⟨20, 0⟩)] }
      else if p = 3 then
        { is_leaf := true, parent := 4, prev_leaf := 2, next_leaf := 1,
          pairs := [(30, ⟨30, 0⟩), (40, ⟨40, 0⟩)] }
      else if p = 4 then
        { is_leaf := false, parent := -1, prev_leaf := 0, next_leaf := 0,
          pairs := [(5, ⟨2, 0⟩), (30, ⟨3, 0⟩)] }
      else zero_node
    next_page_no := 5
    latch_page_set := []
    deleted_page_set := [] }

/-- An index with no tree: header fields for an empty tree over the
leaf-header sentinel page alone. -/
def empty_index (max_size : Nat) : IxIndexHandle :=
  { file_hdr :=
      { btree_order := max_size, num_pages := 2, root_page := IX_NO_PAGE,
        first_leaf := IX_LEAF_HEADER_PAGE, last_leaf := IX_LEAF_HEADER_PAGE }
    pages := Function.update (fun _ => zero_node) IX_LEAF_HEADER_PAGE
      { zero_node with prev_leaf := IX_LEAF_HEADER_PAGE, next_leaf := IX_LEAF_HEADER_PAGE }
    next_page_no := 2
    latch_page_set := []
    deleted_page_set := [] }

end RMDB

namespace RMDB

/-- Two node pages agree in everything but their leaf links. -/
def same_content (a b : IxNodeHandle) : Prop :=
  a.is_leaf = b.is_leaf ∧ a.parent = b.parent ∧ a.pairs = b.pairs

/-- A valid non-empty tree of height `h` but for the `last_leaf` field of the
file header, which `insert_entry` brings up to date as its last step. -/
def valid_shape (ih : IxIndexHandle) (h : Nat) : Prop :=
  ih.file_hdr.root_page ≠ IX_NO_PAGE ∧
  wf_subtree ih.pages h ih.file_hdr.root_page IX_NO_PAGE ∧
  ((subtree_entries ih.pages h ih.file_hdr.root_page).map Prod.fst).Pairwise (· < ·) ∧
  (subtree_nodes ih.pages h ih.file_hdr.root_page).Nodup ∧
  (∀ p ∈ subtree_nodes ih.pages h ih.file_hdr.root_page, 2 ≤ p ∧ p < ih.next_page_no) ∧
  leaf_ring ih.pages (subtree_leaves ih.pages h ih.file_hdr.root_page) ∧
  (subtree_leaves ih.pages h ih.file_hdr.root_page).head? = some ih.file_hdr.first_leaf

/-- The pages after `split` of the node `p` at slot `sp`, the right sibling
being the fresh page `new`, as a function of the pages `P` before the call. -/
def split_pages (P : Int → IxNodeHandle) (p new : Int) (sp : Nat) (q : Int) : IxNodeHandle :=
  if q = new then
    { is_leaf := (P p).is_leaf, parent := (P p).parent,
      prev_leaf := if (P p).is_leaf then p else 0,
      next_leaf := if (P p).is_leaf then (P p).next_leaf else 0,
      pairs := (P p).pairs.drop sp }
  else if q = p then
    { P p with
      pairs := (P p).pairs.take sp
      next_leaf := if (P p).is_leaf then new else (P p).next_leaf }
  else if (P p).is_leaf then
    (if q = (P p).next_leaf then { P q with prev_leaf := new } else P q)
  else if q ∈ ((P p).pairs.drop sp).map (fun e => e.2.page_no) then
    { P q with parent := new }
  else P q

/-- Invariant 1 node by node: every node of the tree other than the root, and
other than the node `ex` that is about to be split or refilled, holds between
`min_size` and `max_size - 1` pairs. -/
def occ_nodes (ih : IxIndexHandle) (h : Nat) (ex : Option Int) : Prop :=
  ∀ x ∈ subtree_nodes ih.pages h ih.file_hdr.root_page, x ≠ ih.file_hdr.root_page →
    some x ≠ ex →
      IxNodeHandle.get_min_size ih.file_hdr ≤ (ih.pages x).get_size ∧
      (ih.pages x).get_size ≤ IxNodeHandle.get_max_size ih.file_hdr - 1

/-- The fill that lets `delete_entry` find a sibling for every node and leave
no node empty: every node of the tree other than `ex` holds at least two pairs,
a root that is a leaf apart. Invariant 1 gives it when `min_size` is at least
two. -/
def filled (ih : IxIndexHandle) (h : Nat) (ex : Option Int) : Prop :=
  ∀ x ∈ subtree_nodes ih.pages h ih.file_hdr.root_page, some x ≠ ex →
    (x = ih.file_hdr.root_page → h ≠ 0) → 2 ≤ (ih.pages x).pairs.length

/-- Decision procedure for `filled`. -/
instance filled_decidable (ih : IxIndexHandle) (h : Nat) (ex : Option Int) :
    Decidable (filled ih h ex) :=
  inferInstanceAs (Decidable (∀ x ∈ subtree_nodes ih.pages h ih.file_hdr.root_page,
    some x ≠ ex → (x = ih.file_hdr.root_page → h ≠ 0) → 2 ≤ (ih.pages x).pairs.length))

/-- Decision procedure for `occ_nodes`. -/
instance occ_nodes_decidable (ih : IxIndexHandle) (h : Nat) (ex : Option Int) :
    Decidable (occ_nodes ih h ex) :=
  inferInstanceAs (Decidable (∀ x ∈ subtree_nodes ih.pages h ih.file_hdr.root_page,
    x ≠ ih.file_hdr.root_page → some x ≠ ex →
      IxNodeHandle.get_min_size ih.file_hdr ≤ (ih.pages x).get_size ∧
      (ih.pages x).get_size ≤ IxNodeHandle.get_max_size ih.file_hdr - 1))

/-- The sample tree without key 30: the root (page 4) with keys 5 and 40 over
the leaves `[5, 10, 20]` (page 2) and `[40]` (page 3). -/
def sample_tree_rest : IxIndexHandle :=
  { sample_tree with
    pages := fun p =>
      if p = 3 then
        { is_leaf := true, parent := 4, prev_leaf := 2, next_leaf := 1,
          pairs := [(40, ⟨40, 0⟩)] }
      else if p = 4 then
        { is_leaf := false, parent := -1, prev_leaf := 0, next_leaf := 0,
          pairs := [(5, ⟨2, 0⟩), (40, ⟨3, 0⟩)] }
      else sample_tree.pages p }

/-- One call of a serial workload on the index. -/
inductive IndexOp where
  | insert (key : Int) (rid : Rid)
  | delete (key : Int)

/-- A serial sequence of `insert_entry` and `delete_entry` calls, each with the
loop budget `fuel`; the handle after the last call. -/
def run_ops (fuel : Nat) : IxIndexHandle → List IndexOp → Except IxError IxIndexHandle
  | ih, [] => Except.ok ih
  | ih, IndexOp.insert k r :: ops =>
    match ih.insert_entry fuel k r with
    | Except.error e => Except.error e
    | Except.ok res => run_ops fuel res.2 ops
  | ih, IndexOp.delete k :: ops =>
    match ih.delete_entry fuel k with
    | Except.error e => Except.error e
    | Except.ok res => run_ops fuel res.2 ops

/-- The state of the index between two calls of a serial workload with
`max_size = m`: no tree, or a valid tree of height at most `n` whose non-root
nodes hold between `min_size` and `max_size - 1` pairs and whose root, when it
is internal, has at least two children. -/
def workload_inv (m n : Nat) (ih : IxIndexHandle) : Prop :=
  ih.file_hdr.btree_order = m ∧ 2 ≤ ih.next_page_no ∧
    (ih.is_empty = true ∨
      ∃ h, h ≤ n ∧ Valid ih h ∧ occ_nodes ih h none ∧
        (h ≠ 0 → 2 ≤ (ih.pages ih.file_hdr.root_page).pairs.length))

end RMDB

namespace RMDB

/-- Decision procedure for `keys_sorted`. -/
instance keys_sorted_decidable (n : IxNodeHandle) : Decidable (keys_sorted n) :=
  inferInstanceAs (Decidable ((n.pairs.map Prod.fst).Pairwise (· < ·)))

namespace IxNodeHandle

/-- The `while (left <= right)` loop of `IxNodeHandle::lower_bound` with the
indices it passes to `get_key` recorded in order: `none` when the budget of
iterations is used up while `left <= right` still holds, else the recorded
indices and the value of `left` at the exit of the loop. -/
def lower_bound_trace (n : IxNodeHandle) (target : Int) :
    Nat → Int → Int → Option (List Int × Int)
  | 0, left, right => if left ≤ right then none else some ([], left)
  | fuel + 1, left, right =>
    if left ≤ right then
      let mid := (left + right) / 2
      let rest :=
        if ix_compare (n.get_key mid) target < 0 then
          lower_bound_trace n target fuel (mid + 1) right
        else
          lower_bound_trace n target fuel left (mid - 1)
      rest.map (fun t => (mid :: t.1, t.2))
    else some ([], left)

/-- The `while (left <= right)` loop of `IxNodeHandle::upper_bound` with the
indices it passes to `get_key` recorded in order; `none` when the budget of
iterations is used up while `left <= right` still holds. -/
def upper_bound_trace (n : IxNodeHandle) (target : Int) :
    Nat → Int → Int → Option (List Int × Int)
  | 0, left, right => if left ≤ right then none else some ([], left)
  | fuel + 1, left, right =>
    if left ≤ right then
      let mid := (left + right) / 2
      let rest :=
        if ix_compare (n.get_key mid) target ≤ 0 then
          upper_bound_trace n target fuel (mid + 1) right
        else
          upper_bound_trace n target fuel left (mid - 1)
      rest.map (fun t => (mid :: t.1, t.2))
    else some ([], left)

/-- Source `IxNodeHandle::leaf_lookup` with its out-parameter made explicit:
the return flag and the content of `*value` after the call, `value` being its
content before the call. -/
def leaf_lookup_out (n : IxNodeHandle) (key : Int) (value : Rid) : Bool × Rid :=
  let pos := n.lower_bound key
  if pos = n.get_size ∨ ix_compare (n.get_key pos) key ≠ 0 then (false, value)
  else (true, n.get_rid pos)

/-- The indices `IxNodeHandle::leaf_lookup` passes to `get_key`: those of the
binary search of `lower_bound`, then `pos`, unless `pos == num_key` cuts the
`||` short. -/
def leaf_lookup_reads (n : IxNodeHandle) (key : Int) : List Int :=
  let pos := n.lower_bound key
  (((n.lower_bound_trace key (n.pairs.length + 1) 0 (n.get_size - 1)).map Prod.fst).getD []) ++
    (if pos = n.get_size then [] else [pos])

end IxNodeHandle

/-- Invariant 3 as the data model words it, for the subtree of height `h`
rooted at `p`: every key of every internal node is the minimum of the keys
stored in the leaves below the child at the same slot. -/
def separators_min (pages : Int → IxNodeHandle) : Nat → Int → Prop
  | 0, _ => True
  | h + 1, p =>
    ∀ e ∈ (pages p).pairs,
      ((subtree_entries pages h e.2.page_no).map Prod.fst).min? = some e.1 ∧
        separators_min pages h e.2.page_no

/-- Decision procedure for `separators_min`. -/
instance separators_min_decidable (pages : Int → IxNodeHandle) :
    ∀ (h : Nat) (p : Int), Decidable (separators_min pages h p)
  | 0, _ => inferInstanceAs (Decidable True)
  | h + 1, p =>
    have : ∀ e : Int × Rid, Decidable (separators_min pages h e.2.page_no) :=
      fun e => separators_min_decidable pages h e.2.page_no
    inferInstanceAs
      (Decidable (∀ e ∈ (pages p).pairs,
        ((subtree_entries pages h e.2.page_no).map Prod.fst).min? = some e.1 ∧
          separators_min pages h e.2.page_no))

/-- Invariant 5 for the subtree of height `h` rooted at `p`: every child page
listed in the rids of an internal node has that node as its `parent`. -/
def parents_hold (pages : Int → IxNodeHandle) : Nat → Int → Prop
  | 0, _ => True
  | h + 1, p =>
    ∀ e ∈ (pages p).pairs,
      (pages e.2.page_no).parent = p ∧ parents_hold pages h e.2.page_no

/-- Decision procedure for `parents_hold`. -/
instance parents_hold_decidable (pages : Int → IxNodeHandle) :
    ∀ (h : Nat) (p : Int), Decidable (parents_hold pages h p)
  | 0, _ => inferInstanceAs (Decidable True)
  | h + 1, p =>
    have : ∀ e : Int × Rid, Decidable (parents_hold pages h e.2.page_no) :=
      fun e => parents_hold_decidable pages h e.2.page_no
    inferInstanceAs
      (Decidable (∀ e ∈ (pages p).pairs,
        (pages e.2.page_no).parent = p ∧ parents_hold pages h e.2.page_no))

/-- The walk along `next_leaf` from page `p` until the leaf-header sentinel is
reached: the pages visited before the sentinel, `none` when the sentinel is
not reached within `fuel` steps. -/
def follow_next (pages : Int → IxNodeHandle) : Nat → Int → Option (List Int)
  | 0, p => if p = IX_LEAF_HEADER_PAGE then some [] else none
  | fuel + 1, p =>
    if p = IX_LEAF_HEADER_PAGE then some []
    else (follow_next pages fuel (pages p).next_leaf).map (fun ls => p :: ls)

/-- The walk along `prev_leaf` from page `p` until the leaf-header sentinel is
reached. -/
def follow_prev (pages : Int → IxNodeHandle) : Nat → Int → Option (List Int)
  | 0, p => if p = IX_LEAF_HEADER_PAGE then some [] else none
  | fuel + 1, p =>
    if p = IX_LEAF_HEADER_PAGE then some []
    else (follow_prev pages fuel (pages p).prev_leaf).map (fun ls => p :: ls)

/-- One call of a serial workload of inserts, deletes and point lookups. -/
inductive IndexCall where
  | insert (key : Int) (rid : Rid)
  | delete (key : Int)
  | lookup (key : Int)

/-- A serial sequence of `insert_entry`, `delete_entry` and `get_value` calls,
each with the loop budget `fuel`; the handle after the last call. A lookup
leaves the handle as it is. -/
def run_calls (fuel : Nat) : IxIndexHandle → List IndexCall → Except IxError IxIndexHandle
  | ih, [] => Except.ok ih
  | ih, IndexCall.insert k r :: cs =>
    match ih.insert_entry fuel k r with
    | Except.error e => Except.error e
    | Except.ok res => run_calls fuel res.2 cs
  | ih, IndexCall.delete k :: cs =>
    match ih.delete_entry fuel k with
    | Except.error e => Except.error e
    | Except.ok res => run_calls fuel res.2 cs
  | ih, IndexCall.lookup k :: cs =>
    match ih.get_value fuel k [] with
    | Except.error e => Except.error e
    | Except.ok _ => run_calls fuel ih cs

end RMDB

namespace RMDB

namespace IxNodeHandle

end IxNodeHandle

/-- A root leaf that holds the single key 7, as `create_new_tree` leaves it. -/
def one_key_root : IxNodeHandle :=
  { is_leaf := true, parent := IX_NO_PAGE, prev_leaf := IX_LEAF_HEADER_PAGE,
    next_leaf := IX_LEAF_HEADER_PAGE, pairs := [(7, ⟨7, 0⟩)] }

end RMDB

namespace RMDB

/-- A tree that is a single leaf (page 2) with the one key 7, `max_size = 4`. -/
def one_key_tree : IxIndexHandle :=
  { file_hdr :=
      { btree_order := 4, num_pages := 3, root_page := 2, first_leaf := 2, last_leaf := 2 }
    pages := fun p =>
      if p = 1 then { zero_node with prev_leaf := 2, next_leaf := 2 }
      else if p = 2 then one_key_root
      else zero_node
    next_page_no := 3
    latch_page_set := []
    deleted_page_set := [] }

/-- The chain of parents above page `p`, nearest first, up to `n` steps and
up to the page whose parent pointer is `IX_NO_PAGE`. -/
def ancestors (pages : Int → IxNodeHandle) : Nat → Int → List Int
  | 0, _ => []
  | n + 1, p =>
    if (pages p).parent = IX_NO_PAGE then []
    else (pages p).parent :: ancestors pages n (pages p).parent

/-- The walk of `maintain_parent` as the spec words it, between the arena `P`
before and `P2` after the call: each page of the chain `visited`, which starts
at the parent of `c`, has been overwritten in the one entry at the rank of its
child on the chain, which held another key and now holds the first key of
that child; and the first page of `above`, the next ancestor, if there is
one, is the first whose entry already matched. -/
def walked (P P2 : Int → IxNodeHandle) : Int → List Int → List Int → Prop
  | _, [], [] => True
  | c, [], a :: _ => (P a).get_key ((P a).find_child c) = (P2 c).get_key 0
  | c, a :: as, above =>
    P2 a = (P a).set_key ((P a).find_child c) ((P2 c).get_key 0) ∧
    (P a).get_key ((P a).find_child c) ≠ (P2 c).get_key 0 ∧ walked P P2 a as above

/-- The nodes of the descent of `find_leaf_page` from `cur`, `cur` first: at
every internal node the routing rule picks the next node, child 0 when
`find_first` is set and `internal_lookup` otherwise; at most `fuel` levels
down. -/
def descent_path (pages : Int → IxNodeHandle) (key : Int) (operation : Operation)
    (find_first : Bool) : Nat → Int → List Int
  | 0, cur => [cur]
  | fuel + 1, cur =>
    if (pages cur).is_leaf then [cur]
    else
      cur :: descent_path pages key operation find_first fuel
        (if find_first then (pages cur).value_at 0
         else (pages cur).internal_lookup key operation)

/-- The part of a list of nodes from its last node that satisfies `safe` on;
`none` when no node does. -/
def suffix_from_last (safe : Int → Bool) : List Int → Option (List Int)
  | [] => none
  | c :: cs =>
    match suffix_from_last safe cs with
    | some s => some s
    | none => if safe c then some (c :: cs) else none

/-- The latch bag and the root-latched flag on return from a write descent
along `path` (root first) as the crab rule words them: with `find_first`
unset and a safe node below the root, the part of the path from the deepest
such node down to the leaf and the flag false; otherwise the whole path and
the flag true. -/
def latch_bag_spec (safe : Int → Bool) (find_first : Bool) (path : List Int) :
    List Int × Bool :=
  if find_first then (path, true)
  else
    match suffix_from_last safe path.tail with
    | some s => (s, false)
    | none => (path, true)

/-- The latch bag and the flag after a write descent through the nodes `below`
that starts with the bag `bag` and the flag `flag`. -/
def latch_bag_from (safe : Int → Bool) (find_first : Bool) (bag : List Int) (flag : Bool)
    (below : List Int) : List Int × Bool :=
  if find_first then (bag ++ below, flag)
  else
    match suffix_from_last safe below with
    | some s => (s, false)
    | none => (bag ++ below, flag)

/-- The sample tree after the first key of its right leaf changed from 30 to
35, the separator in the root still being 30. -/
def sample_tree_changed : IxIndexHandle :=
  sample_tree.modify_node 3 (fun n => { n with pairs := [(35, ⟨35, 0⟩), (40, ⟨40, 0⟩)] })

end RMDB

namespace RMDB

/-- Column metadata as `Analyze::check_column` reads it: the owning table and
the column name. -/
structure ColMeta where
  tab_name : String
  name : String
  deriving DecidableEq

/-- A column reference of a query: table name (empty when the query does not
give one) and column name. -/
structure TabCol where
  tab_name : String
  col_name : String
  deriving DecidableEq

/-- The errors `Analyze::check_column` throws, with the column name they
carry. -/
inductive AnalyzeError where
  | AmbiguousColumnError (col_name : String)
  | ColumnNotFoundError (col_name : String)
  deriving DecidableEq

/-- The first loop of `Analyze::check_column`, over the columns not yet
visited, `tab_name` being the local variable of that name (`empty()` is
equality with the empty string). -/
def infer_tab_name (col_name : String) : List ColMeta → String → Except AnalyzeError String
  | [], tab_name => Except.ok tab_name
  | col :: rest, tab_name =>
    if col.name = col_name then
      if tab_name ≠ "" then Except.error (AnalyzeError.AmbiguousColumnError col_name)
      else infer_tab_name col_name rest col.tab_name
    else infer_tab_name col_name rest tab_name

/-- The second loop of `Analyze::check_column` with its `break`: the value of
`is_find` after the loop. -/
def is_find_loop (target : TabCol) : List ColMeta → Bool → Bool
  | [], is_find => is_find
  | col :: rest, is_find =>
    if col.tab_name = target.tab_name ∧ col.name = target.col_name then false
    else is_find_loop target rest is_find

/-- Source `Analyze::check_column`: the error thrown, or the target after the
call. -/
def check_column (all_cols : List ColMeta) (target : TabCol) : Except AnalyzeError TabCol :=
  if target.tab_name = "" ∧ target.col_name = "" then Except.ok target
  else if target.tab_name = "" then
    match infer_tab_name target.col_name all_cols "" with
    | Except.error e => Except.error e
    | Except.ok tab_name =>
      if tab_name = "" then Except.error (AnalyzeError.ColumnNotFoundError target.col_name)
      else Except.ok { target with tab_name := tab_name }
  else
    if is_find_loop target all_cols true then
      Except.error (AnalyzeError.ColumnNotFoundError target.col_name)
    else Except.ok target

/-- Sample column metadata: tables `t` (columns `a`, `b`) and `u` (columns
`b`, `c`). -/
def sample_cols : List ColMeta :=
  [⟨"t", "a"⟩, ⟨"t", "b"⟩, ⟨"u", "b"⟩, ⟨"u", "c"⟩]

/-- Modelled from the spec: `RM_FIRST_RECORD_PAGE` of the absent header
`rm_defs.h`, the first page of a record file that holds records. -/
def RM_FIRST_RECORD_PAGE : Int := 1

/-- The header fields of a record file that `RmScan` reads. -/
structure RmFileHdr where
  num_pages : Int
  num_records_per_page : Int

/-- A record file as `RmScan` sees it: the file header and the slot bitmap of
every page, by page number and slot number. -/
structure RmFileHandle where
  file_hdr : RmFileHdr
  bitmap : Int → Int → Bool

/-- Modelled from the spec: the search of `Bitmap::next_bit` of the absent
header over the `k` indices from `i` on, the first of them whose bit is set
and `max_n` when none is. -/
def next_bit_loop (bits : Int → Bool) (max_n : Int) : Nat → Int → Int
  | 0, _ => max_n
  | k + 1, i => if bits i then i else next_bit_loop bits max_n k (i + 1)

/-- Modelled from the spec: `Bitmap::next_bit(true, bitmap, max_n, curr)` of
the absent header, the smallest index of a set bit that is greater than `curr`
and below `max_n`, and `max_n` when there is none. -/
def next_bit (bits : Int → Bool) (max_n curr : Int) : Int :=
  next_bit_loop bits max_n (max_n - (curr + 1)).toNat (curr + 1)

namespace RmScan

/-- Source `RmScan::next`, the `while` loop from the cursor `rid`: the cursor
after the call, `none` when `fuel` iterations do not end the loop. -/
def next (file : RmFileHandle) : Nat → Rid → Option Rid
  | 0, rid => if rid.page_no < file.file_hdr.num_pages then none else some rid
  | fuel + 1, rid =>
    if rid.page_no < file.file_hdr.num_pages then
      let slot_no := next_bit (file.bitmap rid.page_no) file.file_hdr.num_records_per_page
        rid.slot_no
      if slot_no < file.file_hdr.num_records_per_page then some ⟨rid.page_no, slot_no⟩
      else next file fuel ⟨rid.page_no + 1, -1⟩
    else some rid

/-- Source `RmScan::RmScan`, the constructor: the cursor after it. -/
def init (file : RmFileHandle) (fuel : Nat) : Option Rid :=
  next file fuel ⟨RM_FIRST_RECORD_PAGE, -1⟩

/-- Source `RmScan::is_end`. -/
def is_end (file : RmFileHandle) (rid : Rid) : Bool :=
  decide (rid.page_no ≥ file.file_hdr.num_pages)

/-- The cursors a scan passes through from the cursor `rid` until `is_end`
holds, `next` being called after each of them; at most `k` calls, each with
the loop budget `fuel`. -/
def rids_from (file : RmFileHandle) (fuel : Nat) : Nat → Rid → Option (List Rid)
  | 0, rid => if is_end file rid then some [] else none
  | k + 1, rid =>
    if is_end file rid then some []
    else
      match next file fuel rid with
      | none => none
      | some r => (rids_from file fuel k r).map (fun rs => rid :: rs)

/-- The cursors of a whole scan: the constructor, then `next` until `is_end`
holds. -/
def rids (file : RmFileHandle) (fuel k : Nat) : Option (List Rid) :=
  match init file fuel with
  | none => none
  | some r => rids_from file fuel k r

end RmScan

/-- The indices with a set bit among the `k` indices from `i` on, ascending. -/
def set_bits (bits : Int → Bool) : Nat → Int → List Int
  | 0, _ => []
  | k + 1, i => if bits i then i :: set_bits bits k (i + 1) else set_bits bits k (i + 1)

/-- The occupied slots of the `k` pages from page `p` on, after slot `s` of
page `p`, in (page_no, slot_no) order. -/
def occupied_after (file : RmFileHandle) : Nat → Int → Int → List Rid
  | 0, _, _ => []
  | k + 1, p, s =>
    (set_bits (file.bitmap p) (file.file_hdr.num_records_per_page - (s + 1)).toNat
        (s + 1)).map (fun i => (⟨p, i⟩ : Rid)) ++
      occupied_after file k (p + 1) (-1)

/-- The occupied slots of a record file on the pages from
`RM_FIRST_RECORD_PAGE` on, in (page_no, slot_no) order. -/
def occupied (file : RmFileHandle) : List Rid :=
  occupied_after file (file.file_hdr.num_pages - RM_FIRST_RECORD_PAGE).toNat
    RM_FIRST_RECORD_PAGE (-1)

/-- The (page_no, slot_no) order of record identifiers. -/
def rid_lt (a b : Rid) : Prop :=
  a.page_no < b.page_no ∨ (a.page_no = b.page_no ∧ a.slot_no < b.slot_no)

/-- A sample record file: header page 0, page 1 with slot 1 occupied, page 2
with no record, page 3 with slots 0 and 2 occupied; three slots a page. -/
def sample_file : RmFileHandle :=
  { file_hdr := { num_pages := 4, num_records_per_page := 3 }
    bitmap := fun p s =>
      decide ((p = 1 ∧ s = 1) ∨ (p = 3 ∧ s = 0) ∨ (p = 3 ∧ s = 2)) }

end RMDB

namespace RMDB

/-- An event of the latch protocol of the write path, in the order of the
calls of the source: `root_latch_.lock()` and `unlock()`; `RLatch`, `RUnlatch`,
`WLatch` and `WUnlatch` of a page; the `unpin_page` call of `unlock_page_set`
(the other pin and unpin calls of the write path are not recorded); a write
to a node page through a node handle (its keys, rids, `num_key`, `parent`,
`prev_leaf` or `next_leaf`); `append_index_deleted_page`; and `delete_page`
of the buffer pool. -/
inductive LatchEv where
  | root_lock
  | root_unlock
  | rlatch (p : Int)
  | runlatch (p : Int)
  | wlatch (p : Int)
  | wunlatch (p : Int)
  | unpin (p : Int)
  | write (p : Int)
  | defer (p : Int)
  | delete_page (p : Int)
  deriving DecidableEq

/-- What a sequence of latch events leaves behind: whether `root_latch_` is
held, the pages whose read latch and whose write latch is held, the pages
appended to the deferred-delete bag, the pages passed to `delete_page`, and
the pages written while their write latch was not held. -/
structure LatchState where
  root : Bool
  rheld : List Int
  wheld : List Int
  deferred : List Int
  deleted : List Int
  unlatched_writes : List Int
  deriving DecidableEq

namespace LatchState

/-- The state before the first event. -/
def init : LatchState :=
  { root := false, rheld := [], wheld := [], deferred := [], deleted := [],
    unlatched_writes := [] }

/-- The effect of one event. -/
def step (s : LatchState) : LatchEv → LatchState
  | LatchEv.root_lock => { s with root := true }
  | LatchEv.root_unlock => { s with root := false }
  | LatchEv.rlatch p => { s with rheld := p :: s.rheld }
  | LatchEv.runlatch p => { s with rheld := s.rheld.erase p }
  | LatchEv.wlatch p => { s with wheld := p :: s.wheld }
  | LatchEv.wunlatch p => { s with wheld := s.wheld.erase p }
  | LatchEv.unpin _ => s
  | LatchEv.write p =>
    if p ∈ s.wheld then s else { s with unlatched_writes := s.unlatched_writes ++ [p] }
  | LatchEv.defer p => { s with deferred := s.deferred ++ [p] }
  | LatchEv.delete_page p => { s with deleted := s.deleted ++ [p] }

/-- The effect of a sequence of events. -/
def run (s : LatchState) (evs : List LatchEv) : LatchState := evs.foldl step s

/-- The state of the latch protocol `s` matches the handle `ih` and the flag
`flag` of the operation under way: the pages whose write latch is held are
the pages of the latch bag, the pages deferred are those of the
deferred-delete bag, `root_latch_` is held exactly when the flag is set, no
read latch is held and no page has been deleted. -/
def tracks (s : LatchState) (ih : IxIndexHandle) (flag : Bool) : Prop :=
  s.wheld.Perm ih.latch_page_set ∧ s.deferred = ih.deleted_page_set ∧ s.root = flag ∧
    s.rheld = [] ∧ s.deleted = []

end LatchState

/-- Every event of the sequence is a write to a node page. -/
def only_writes (evs : List LatchEv) : Prop := ∀ e ∈ evs, ∃ p, e = LatchEv.write p

namespace IxIndexHandle

/-- The events of `unlock_page_set` on the latch bag `bag`: for each page its
`WUnlatch`, then its `unpin_page`. -/
def unlock_events (bag : List Int) : List LatchEv :=
  bag.flatMap (fun p => [LatchEv.wunlatch p, LatchEv.unpin p])

/-- The events of the loop of `find_leaf_page` for INSERT and DELETE, next to
`find_leaf_loop`: the child is write-latched; when it is safe and
`find_first` is unset the latch bag is released and `root_latch_` with it,
if still held. -/
def find_leaf_loop_events (key : Int) (operation : Operation) (find_first : Bool) :
    Nat → IxIndexHandle → Int → Bool → List LatchEv
  | 0, _, _, _ => []
  | fuel + 1, ih, cur, root_is_latched =>
    if (ih.fetch_node cur).is_leaf then []
    else
      let child :=
        if find_first then (ih.fetch_node cur).value_at 0
        else (ih.fetch_node cur).internal_lookup key operation
      if find_first = false ∧
          (ih.fetch_node child).is_safe ih.file_hdr operation = true then
        [LatchEv.wlatch child] ++ unlock_events ih.latch_page_set ++
          (if root_is_latched then [LatchEv.root_unlock] else []) ++
          find_leaf_loop_events key operation find_first fuel
            (ih.unlock_page_set.append_index_latch_page_set child) child false
      else
        LatchEv.wlatch child ::
          find_leaf_loop_events key operation find_first fuel
            (ih.append_index_latch_page_set child) child root_is_latched

/-- The events of `find_leaf_page` for INSERT and DELETE: `root_latch_` is
locked, the root is write-latched, then the loop runs. -/
def find_leaf_page_events (fuel : Nat) (ih : IxIndexHandle) (key : Int)
    (operation : Operation) (find_first : Bool) : List LatchEv :=
  [LatchEv.root_lock, LatchEv.wlatch ih.file_hdr.root_page] ++
    find_leaf_loop_events key operation find_first fuel
      (ih.append_index_latch_page_set ih.file_hdr.root_page) ih.file_hdr.root_page true

/-- The events of `maintain_parent`, next to `maintain_parent`: the `memcpy`
into the key of each parent whose entry differs. -/
def maintain_parent_events : Nat → IxIndexHandle → Int → List LatchEv
  | 0, _, _ => []
  | fuel + 1, ih, curr =>
    if (ih.fetch_node curr).parent ≠ IX_NO_PAGE then
      let parent := (ih.fetch_node curr).parent
      let rank := (ih.fetch_node parent).find_child curr
      let parent_key := (ih.fetch_node parent).get_key rank
      let child_first_key := (ih.fetch_node curr).get_key 0
      if parent_key = child_first_key then []
      else
        LatchEv.write parent ::
          maintain_parent_events fuel
            (ih.modify_node parent (fun p => p.set_key rank child_first_key)) parent
    else []

/-- The events of `maintain_child`: the write of the parent pointer of the
child. -/
def maintain_child_events (ih : IxIndexHandle) (node : Int) (child_idx : Int) :
    List LatchEv :=
  if (ih.fetch_node node).is_leaf = false then
    [LatchEv.write ((ih.fetch_node node).value_at child_idx)]
  else []

/-- The events of `erase_leaf`: the write of `next_leaf` of the previous leaf
and the write of `prev_leaf` of the next leaf. -/
def erase_leaf_events (ih : IxIndexHandle) (leaf : Int) : List LatchEv :=
  let ih1 := ih.modify_node (ih.fetch_node leaf).prev_leaf
    (fun p => { p with next_leaf := (ih.fetch_node leaf).next_leaf })
  [LatchEv.write (ih.fetch_node leaf).prev_leaf, LatchEv.write (ih1.fetch_node leaf).next_leaf]

/-- The events of `adjust_root`: for an internal root with one key the write
of the old root (`remove_and_return_only_child`) and of the parent pointer of
the new root; for an empty leaf root the events of `erase_leaf`. -/
def adjust_root_events (ih0 : IxIndexHandle) (old_root_node : Int) : List LatchEv :=
  if (ih0.fetch_node old_root_node).is_leaf = false ∧
      (ih0.fetch_node old_root_node).get_size = 1 then
    [LatchEv.write old_root_node, LatchEv.write ((ih0.fetch_node old_root_node).value_at 0)]
  else if (ih0.fetch_node old_root_node).is_leaf = true ∧
      (ih0.fetch_node old_root_node).get_size = 0 then
    ih0.erase_leaf_events old_root_node
  else []

/-- The events of `redistribute`, next to `redistribute`: the writes of the
node, of the neighbour and of the parent, then the events of
`maintain_child`. -/
def redistribute_events (ih0 : IxIndexHandle) (neighbor_node node parent : Int) (index : Int) :
    List LatchEv :=
  if index = 0 then
    match (ih0.fetch_node node).insert_pair (ih0.fetch_node node).get_size
        ((ih0.fetch_node neighbor_node).get_key 0) ((ih0.fetch_node neighbor_node).get_rid 0) with
    | Except.error _ => []
    | Except.ok m =>
      let ih1 := ih0.modify_node node (fun _ => m)
      let ih2 := ih1.modify_node neighbor_node (fun n => n.erase_pair 0)
      let ih3 := ih2.modify_node parent
        (fun p => p.set_key (index + 1) ((ih2.fetch_node neighbor_node).get_key 0))
      [LatchEv.write node, LatchEv.write neighbor_node, LatchEv.write parent] ++
        ih3.maintain_child_events node ((ih3.fetch_node node).get_size - 1)
  else
    let end_idx := (ih0.fetch_node neighbor_node).get_size - 1
    match (ih0.fetch_node node).insert_pair 0
        ((ih0.fetch_node neighbor_node).get_key end_idx)
        ((ih0.fetch_node neighbor_node).get_rid end_idx) with
    | Except.error _ => []
    | Except.ok m =>
      let ih1 := ih0.modify_node node (fun _ => m)
      let ih2 := ih1.modify_node neighbor_node (fun n => n.erase_pair end_idx)
      let ih3 := ih2.modify_node parent
        (fun p => p.set_key index ((ih2.fetch_node node).get_key 0))
      [LatchEv.write node, LatchEv.write neighbor_node, LatchEv.write parent] ++
        ih3.maintain_child_events node 0

/-- The handle in which `coalesce` returns or makes its recursive call:
`coalesce` with a `recurse` that hands its argument back. -/
def coalesce_state (ih0 : IxIndexHandle) (neighbor_node0 node0 parent : Int) (index0 : Int) :
    Except IxError IxIndexHandle :=
  match coalesce (fun s _ => Except.ok (false, s)) ih0 neighbor_node0 node0 parent index0 with
  | Except.error e => Except.error e
  | Except.ok res => Except.ok res.2

/-- The events of `coalesce`, next to `coalesce`: the write of the left node
(`insert_pairs`), the events of `maintain_child` for the pairs moved, the
events of `erase_leaf` for a leaf, `append_index_deleted_page` of the right
node, the write of the parent (`erase_pair`), and the events
`recurse_events` of the recursive call when the parent is left below
`min_size`. -/
def coalesce_events (recurse_events : IxIndexHandle → Int → List LatchEv)
    (ih0 : IxIndexHandle) (neighbor_node0 node0 parent : Int) (index0 : Int) :
    List LatchEv :=
  let neighbor_node := if index0 = 0 then node0 else neighbor_node0
  let node := if index0 = 0 then neighbor_node0 else node0
  let prev_idx := (ih0.fetch_node neighbor_node).pairs.length
  match (ih0.fetch_node neighbor_node).insert_pairs (ih0.fetch_node neighbor_node).get_size
      (ih0.fetch_node node).pairs with
  | Except.error _ => []
  | Except.ok m =>
    let ih1 := ih0.modify_node neighbor_node (fun _ => m)
    let children :=
      (List.range' prev_idx ((ih1.fetch_node neighbor_node).pairs.length - prev_idx)).foldl
        (fun (acc : IxIndexHandle × List LatchEv) child_idx =>
          (acc.1.maintain_child neighbor_node (child_idx : Nat),
            acc.2 ++ acc.1.maintain_child_events neighbor_node (child_idx : Nat)))
        (ih1, [])
    let ih2 := children.1
    [LatchEv.write neighbor_node] ++ children.2 ++
      (if (ih2.fetch_node node).is_leaf then ih2.erase_leaf_events node else []) ++
      [LatchEv.defer node, LatchEv.write parent] ++
      (match coalesce_state ih0 neighbor_node0 node0 parent index0 with
       | Except.error _ => []
       | Except.ok ih7 =>
         if (ih7.fetch_node parent).get_size < IxNodeHandle.get_min_size ih7.file_hdr then
           recurse_events ih7 parent
         else [])

/-- The events of `coalesce_or_redistribute`, next to
`coalesce_or_redistribute`: for the root the events of `adjust_root` and
`append_index_deleted_page` of the root when it is to be deleted; for an
underfull node the `WLatch` of the sibling, then either the events of
`redistribute` and the `WUnlatch` of the sibling, or the events of `coalesce`
with the sibling appended to the latch bag. -/
def coalesce_or_redistribute_events : Nat → IxIndexHandle → Int → List LatchEv
  | 0, _, _ => []
  | fuel + 1, ih0, node =>
    if (ih0.fetch_node node).is_root_page then
      ih0.adjust_root_events node ++
        (if (ih0.adjust_root node).1 then [LatchEv.defer node] else [])
    else if (ih0.fetch_node node).get_size ≥ IxNodeHandle.get_min_size ih0.file_hdr then []
    else
      let parent := (ih0.fetch_node node).parent
      let node_rank := (ih0.fetch_node parent).find_child node
      let sibling_rank := if node_rank ≠ 0 then node_rank - 1 else node_rank + 1
      let sibling := (ih0.fetch_node parent).value_at sibling_rank
      LatchEv.wlatch sibling ::
        (if (ih0.fetch_node node).get_size + (ih0.fetch_node sibling).get_size ≥
            IxNodeHandle.get_min_size ih0.file_hdr * 2 then
          ih0.redistribute_events sibling node parent node_rank ++ [LatchEv.wunlatch sibling]
        else
          coalesce_events (coalesce_or_redistribute_events fuel)
            (ih0.append_index_latch_page_set sibling) sibling node parent node_rank)

/-- The events of `delete_entry`, next to `delete_entry`: the read latch of
the probe of the first leaf; the events of `find_leaf_page`; the write of the
leaf by `remove` when the key is found; the events of `maintain_parent` and of
`coalesce_or_redistribute`; the events of `unlock_page_set`; `delete_page` for
every page of the deferred-delete bag; and `root_latch_.unlock()` when the
flag returned by `find_leaf_page` is set. -/
def delete_entry_events (fuel : Nat) (ih0 : IxIndexHandle) (key : Int) : List LatchEv :=
  if ih0.is_empty then []
  else
    let first_leaf := ih0.fetch_node ih0.file_hdr.first_leaf
    let cmp := ix_compare (first_leaf.get_key 0) key
    [LatchEv.rlatch ih0.file_hdr.first_leaf, LatchEv.runlatch ih0.file_hdr.first_leaf] ++
      (if cmp > 0 then []
       else
        let find_first := decide (cmp = 0)
        ih0.find_leaf_page_events fuel key Operation.DELETE find_first ++
          (match ih0.find_leaf_page fuel key Operation.DELETE find_first with
           | Except.error _ => []
           | Except.ok (leaf_node, is_root_latched, ih1) =>
             let pre := (ih1.fetch_node leaf_node).get_size
             let r := (ih1.fetch_node leaf_node).remove key
             let ih2 := ih1.modify_node leaf_node (fun _ => r.1)
             if pre = r.2 then
               unlock_events ih2.latch_page_set ++
                 (if is_root_latched then [LatchEv.root_unlock] else [])
             else
               LatchEv.write leaf_node :: maintain_parent_events fuel ih2 leaf_node ++
                 (match maintain_parent fuel ih2 leaf_node with
                  | Except.error _ => []
                  | Except.ok ih3 =>
                    coalesce_or_redistribute_events fuel ih3 leaf_node ++
                      (match coalesce_or_redistribute fuel ih3 leaf_node with
                       | Except.error _ => []
                       | Except.ok (_, ih4) =>
                         unlock_events ih4.latch_page_set ++
                           ih4.deleted_page_set.map LatchEv.delete_page ++
                           (if is_root_latched then [LatchEv.root_unlock] else [])))))

end IxIndexHandle

/-- An event of the pin protocol of the read path, in the order of the calls
of the source: `fetch_node` of a page (which pins it), `unpin_page`, and a
read of the keys, rids or header of a page through a node handle. -/
inductive PinEv where
  | fetch (p : Int)
  | unpin (p : Int)
  | read (p : Int)
  deriving DecidableEq

/-- What a sequence of pin events leaves behind: the pages pinned, once for
each pin not yet given back, and the pages read while the operation held no
pin on them. -/
structure PinState where
  pinned : List Int
  unpinned_reads : List Int
  deriving DecidableEq

namespace PinState

/-- The state before the first event. -/
def init : PinState := { pinned := [], unpinned_reads := [] }

/-- The effect of one event. -/
def step (s : PinState) : PinEv → PinState
  | PinEv.fetch p => { s with pinned := p :: s.pinned }
  | PinEv.unpin p => { s with pinned := s.pinned.erase p }
  | PinEv.read p =>
    if p ∈ s.pinned then s else { s with unpinned_reads := s.unpinned_reads ++ [p] }

/-- The effect of a sequence of events. -/
def run (s : PinState) (evs : List PinEv) : PinState := evs.foldl step s

end PinState

namespace IxIndexHandle

/-- The pin events of the loop of `find_leaf_page` for the read operations,
next to `find_leaf_loop`: `is_leaf_page` and the routing call read the
current node, the child is fetched, the parent is unpinned. -/
def find_leaf_loop_pins (key : Int) (operation : Operation) (find_first : Bool) :
    Nat → IxIndexHandle → Int → List PinEv
  | 0, _, cur => [PinEv.read cur]
  | fuel + 1, ih, cur =>
    if (ih.fetch_node cur).is_leaf then [PinEv.read cur]
    else
      let child :=
        if find_first then (ih.fetch_node cur).value_at 0
        else (ih.fetch_node cur).internal_lookup key operation
      [PinEv.read cur, PinEv.read cur, PinEv.fetch child, PinEv.unpin cur] ++
        find_leaf_loop_pins key operation find_first fuel ih child

/-- The pin events of `find_leaf_page` for the read operations. -/
def find_leaf_page_pins (fuel : Nat) (ih : IxIndexHandle) (key : Int) (operation : Operation)
    (find_first : Bool) : List PinEv :=
  PinEv.fetch ih.file_hdr.root_page ::
    find_leaf_loop_pins key operation find_first fuel ih ih.file_hdr.root_page

/-- The pin events of `get_value`, next to `get_value`: `leaf_lookup` reads
the leaf and the rid found is read through the pointer into the leaf; when
the key is not found in a leaf other than the last one, the next leaf is
fetched and unpinned, and then its first key, and its first rid when the
keys compare equal, are read. -/
def get_value_pins (fuel : Nat) (ih : IxIndexHandle) (key : Int) : List PinEv :=
  if ih.is_empty then []
  else
    ih.find_leaf_page_pins fuel key Operation.FIND false ++
      (match ih.find_leaf_page fuel key Operation.FIND false with
       | Except.error _ => []
       | Except.ok (leaf_node, _, _) =>
         PinEv.read leaf_node ::
           (match (ih.fetch_node leaf_node).leaf_lookup key with
            | some _ => [PinEv.read leaf_node, PinEv.unpin leaf_node]
            | none =>
              if leaf_node ≠ ih.file_hdr.last_leaf then
                let next_leaf := (ih.fetch_node leaf_node).next_leaf
                [PinEv.read leaf_node, PinEv.fetch next_leaf, PinEv.unpin next_leaf,
                  PinEv.read next_leaf] ++
                  (if ix_compare ((ih.fetch_node next_leaf).get_key 0) key = 0 then
                    [PinEv.read next_leaf, PinEv.unpin leaf_node]
                  else [PinEv.unpin leaf_node])
              else [PinEv.unpin leaf_node]))

/-- The pin events of `get_rid`, next to `get_rid`: the node is fetched and
`get_size` reads it; the throw leaves the function at once; otherwise the
page is unpinned and then `get_rid` reads the slot. -/
def get_rid_pins (ih : IxIndexHandle) (iid : Iid) : List PinEv :=
  [PinEv.fetch iid.page_no, PinEv.read iid.page_no] ++
    (if iid.slot_no ≥ (ih.fetch_node iid.page_no).get_size then []
     else [PinEv.unpin iid.page_no, PinEv.read iid.page_no])

/-- The pin events of `leaf_end`: the last leaf is fetched, `get_size` reads
it, the page is unpinned. -/
def leaf_end_pins (ih : IxIndexHandle) : List PinEv :=
  [PinEv.fetch ih.file_hdr.last_leaf, PinEv.read ih.file_hdr.last_leaf,
    PinEv.unpin ih.file_hdr.last_leaf]

/-- The pin events of `lower_bound`, next to `lower_bound`. -/
def lower_bound_pins (fuel : Nat) (ih : IxIndexHandle) (key : Int) : List PinEv :=
  if ih.is_empty then []
  else
    ih.find_leaf_page_pins fuel key Operation.FIND_LOWER false ++
      (match ih.find_leaf_page fuel key Operation.FIND_LOWER false with
       | Except.error _ => []
       | Except.ok (leaf, _, _) =>
         let pos := (ih.fetch_node leaf).lower_bound key
         [PinEv.read leaf, PinEv.read leaf] ++
           (if pos = (ih.fetch_node leaf).get_size then
              if ih.file_hdr.last_leaf = leaf then ih.leaf_end_pins
              else [PinEv.read leaf]
            else []) ++
           [PinEv.unpin leaf])

/-- The pin events of `upper_bound`, next to `upper_bound`. -/
def upper_bound_pins (fuel : Nat) (ih : IxIndexHandle) (key : Int) : List PinEv :=
  if ih.is_empty then []
  else
    ih.find_leaf_page_pins fuel key Operation.FIND_UPPER false ++
      (match ih.find_leaf_page fuel key Operation.FIND_UPPER false with
       | Except.error _ => []
       | Except.ok (leaf, _, _) =>
         let cmp := ix_compare ((ih.fetch_node leaf).get_key 0) key
         let pos0 := (ih.fetch_node leaf).upper_bound key
         let pos := if (cmp > 0 ∧ pos0 = 1) ∨ (ih.fetch_node leaf).get_size = 0 then 0 else pos0
         [PinEv.read leaf, PinEv.read leaf, PinEv.read leaf, PinEv.read leaf] ++
           (if pos = (ih.fetch_node leaf).get_size then
              if ih.file_hdr.last_leaf = leaf then ih.leaf_end_pins
              else [PinEv.read leaf]
            else []) ++
           [PinEv.unpin leaf])

end IxIndexHandle

/-- The sample tree with a third key in its right leaf: the root (page 4)
with keys 5 and 30 over the leaves `[5, 10, 20]` (page 2) and `[30, 40, 50]`
(page 3), `max_size = 4`. -/
def sample_tree_wide : IxIndexHandle :=
  sample_tree.modify_node 3
    (fun n => { n with pairs := [(30, ⟨30, 0⟩), (40, ⟨40, 0⟩), (50, ⟨50, 0⟩)] })

/-- The sample tree with two keys in each leaf: the root (page 4) with keys 5
and 30 over the leaves `[5, 10]` (page 2) and `[30, 40]` (page 3),
`max_size = 4`. -/
def sample_tree_small : IxIndexHandle :=
  sample_tree.modify_node 2 (fun n => { n with pairs := [(5, ⟨5, 0⟩), (10, ⟨10, 0⟩)] })

end RMDB

namespace RMDB

/-- The calls `insert_entry(k, (k, 0))` for the keys `ks`, in order. -/
def insert_keys (ks : List Int) : List IndexOp :=
  ks.map (fun k => IndexOp.insert k ⟨k, 0⟩)

/-- The C library call `memmove(dst, src, len)` on a memory of 4-byte words:
the `len` words from `src` on are copied to `dst` on, as if through a buffer,
so that the two regions may overlap. -/
def memmove (mem : Nat → Int) (dst src len : Nat) : Nat → Int := fun a =>
  if dst ≤ a ∧ a < dst + len then mem (src + (a - dst)) else mem a

namespace IxNodeHandle

/-- Modelled from the spec: the key and rid arrays of a node page for one
4-byte key column, in 4-byte words counted from the start of the key array
(`keys[0..max_size × key_total_len]`, behind it `rids[0..max_size × 8 bytes]`,
`4-byte page_no + 4-byte slot_no`): word `i` below `max_size` is key slot `i`,
the words `max_size + 2 i` and `max_size + 2 i + 1` are `page_no` and
`slot_no` of rid slot `i`. These are the words of a node that holds at most
`max_size` pairs; the slots from `num_key` on and the words behind the rid
array hold 0. -/
def page_words (max_size : Nat) (n : IxNodeHandle) : Nat → Int := fun a =>
  if a < max_size then (n.pairs.getD a (0, ⟨0, 0⟩)).1
  else if a < 3 * max_size then
    if (a - max_size) % 2 = 0 then (n.pairs.getD ((a - max_size) / 2) (0, ⟨0, 0⟩)).2.page_no
    else (n.pairs.getD ((a - max_size) / 2) (0, ⟨0, 0⟩)).2.slot_no
  else 0

/-- Modelled from the spec: the word read by `get_key(i)`, at `keys + i`
(one word for each key). -/
def words_key (mem : Nat → Int) (i : Nat) : Int := mem i

/-- Modelled from the spec: the rid read by `get_rid(i)`, at `rids + i` with
`rids` behind the `max_size` key slots. -/
def words_rid (max_size : Nat) (mem : Nat → Int) (i : Nat) : Rid :=
  ⟨mem (max_size + 2 * i), mem (max_size + 2 * i + 1)⟩

/-- The writes of source `IxNodeHandle::insert_pairs` for `n = 1` on the words
of a page that holds `num_key` pairs, once `pos` has passed the check: the
`memmove` of the keys from `pos` on, the `memmove` of the rids from `pos` on,
the `memcpy` of the key and the `memcpy` of the rid. As in the source no write
is checked against the `max_size` slots of the two arrays. -/
def insert_pairs_words (max_size num_key pos : Nat) (key : Int) (rid : Rid)
    (mem : Nat → Int) : Nat → Int :=
  let m1 := memmove mem (pos + 1) pos (num_key - pos)
  let m2 := memmove m1 (max_size + 2 * (pos + 1)) (max_size + 2 * pos) (2 * (num_key - pos))
  let m3 := Function.update m2 pos key
  Function.update (Function.update m3 (max_size + 2 * pos) rid.page_no)
    (max_size + 2 * pos + 1) rid.slot_no

end IxNodeHandle

end RMDB

open RMDB RMDB.IxNodeHandle

namespace RMDB

theorem ix_compare_lt (a b : Int) : ix_compare a b < 0 ↔ a < b := by
  unfold ix_compare; split_ifs <;> constructor <;> intro h <;> omega

theorem ix_compare_le (a b : Int) : ix_compare a b ≤ 0 ↔ a ≤ b := by
  unfold ix_compare; split_ifs <;> constructor <;> intro h <;> omega

theorem ix_compare_eq (a b : Int) : ix_compare a b = 0 ↔ a = b := by
  unfold ix_compare; split_ifs <;> simp <;> omega

theorem ix_compare_gt (a b : Int) : ix_compare a b > 0 ↔ b < a := by
  unfold ix_compare; split_ifs <;> constructor <;> intro h <;> omega


theorem get_key_lt_of_sorted (n : IxNodeHandle) (hs : keys_sorted n) (i j : Int)
    (hi : 0 ≤ i) (hij : i < j) (hj : j < n.get_size) : n.get_key i < n.get_key j := by
  unfold keys_sorted at hs
  unfold get_size at hj
  have hi' : i.toNat < n.pairs.length := by omega
  have hj' : j.toNat < n.pairs.length := by omega
  have h := (List.pairwise_iff_getElem.mp hs) i.toNat j.toNat (by simpa using hi') (by simpa using hj') (by omega)
  simp only [get_key]
  rw [if_neg (by omega), if_neg (by omega)]
  rw [List.getD_eq_getElem _ _ hi', List.getD_eq_getElem _ _ hj']
  simpa using h

theorem get_key_le_of_sorted (n : IxNodeHandle) (hs : keys_sorted n) (i j : Int)
    (hi : 0 ≤ i) (hij : i ≤ j) (hj : j < n.get_size) : n.get_key i ≤ n.get_key j := by
  rcases eq_or_lt_of_le hij with h | h
  · subst h; exact le_refl _
  · exact le_of_lt (get_key_lt_of_sorted n hs i j hi h hj)

theorem lower_bound_loop_spec (n : IxNodeHandle) (hs : keys_sorted n) (target : Int) :
    ∀ (fuel : Nat) (left right : Int), 0 ≤ left → left ≤ right + 1 → right < n.get_size →
      right - left + 1 ≤ fuel →
      (∀ i, 0 ≤ i → i < left → n.get_key i < target) →
      (∀ i, right < i → i < n.get_size → target ≤ n.get_key i) →
      let r := lower_bound_loop n target fuel left right
      0 ≤ r ∧ r ≤ n.get_size ∧ (∀ i, 0 ≤ i → i < r → n.get_key i < target) ∧
        (∀ i, r ≤ i → i < n.get_size → target ≤ n.get_key i) := by
  intro fuel
  induction fuel with
  | zero =>
    intro left right h0 h1 h2 h3 hl hr
    simp only [lower_bound_loop]
    have : left = right + 1 := by omega
    subst this
    exact ⟨h0, by omega, hl, fun i hi hi2 => hr i (by omega) hi2⟩
  | succ f ih =>
    intro left right h0 h1 h2 h3 hl hr
    simp only [lower_bound_loop]
    split_ifs with hle hc
    · apply ih
      · omega
      · omega
      · exact h2
      · omega
      · intro i hi0 hi
        rw [ix_compare_lt] at hc
        have := get_key_le_of_sorted n hs i ((left + right) / 2) hi0 (by omega) (by omega)
        omega
      · exact hr
    · apply ih
      · exact h0
      · omega
      · omega
      · omega
      · exact hl
      · intro i hi hi2
        rw [ix_compare_lt] at hc
        have := get_key_le_of_sorted n hs ((left + right) / 2) i (by omega) (by omega) hi2
        omega
    · have : left = right + 1 := by omega
      subst this
      exact ⟨h0, by omega, hl, fun i hi hi2 => hr i (by omega) hi2⟩

theorem lower_bound_spec (n : IxNodeHandle) (hs : keys_sorted n) (target : Int) :
    0 ≤ n.lower_bound target ∧ n.lower_bound target ≤ n.get_size ∧
      (∀ i, 0 ≤ i → i < n.lower_bound target → n.get_key i < target) ∧
      (∀ i, n.lower_bound target ≤ i → i < n.get_size → target ≤ n.get_key i) := by
  unfold lower_bound
  apply lower_bound_loop_spec n hs target
  · omega
  · unfold get_size; omega
  · omega
  · unfold get_size; omega
  · intro i h1 h2; omega
  · intro i h1 h2; omega

theorem upper_bound_loop_spec (n : IxNodeHandle) (hs : keys_sorted n) (target : Int) :
    ∀ (fuel : Nat) (left right : Int), 1 ≤ left → left ≤ right + 1 → (right < n.get_size ∨ right ≤ 0) →
      right - left + 1 ≤ fuel →
      (∀ i, 1 ≤ i → i < left → n.get_key i ≤ target) →
      (∀ i, right < i → i < n.get_size → target < n.get_key i) →
      let r := upper_bound_loop n target fuel left right
      1 ≤ r ∧ (r ≤ n.get_size ∨ r = 1) ∧ (∀ i, 1 ≤ i → i < r → n.get_key i ≤ target) ∧
        (∀ i, r ≤ i → i < n.get_size → target < n.get_key i) := by
  intro fuel
  induction fuel with
  | zero =>
    intro left right h0 h1 h2 h3 hl hr
    simp only [upper_bound_loop]
    have : left = right + 1 := by omega
    subst this
    exact ⟨h0, by omega, hl, fun i hi hi2 => hr i (by omega) hi2⟩
  | succ f ih =>
    intro left right h0 h1 h2 h3 hl hr
    simp only [upper_bound_loop]
    split_ifs with hle hc
    · apply ih
      · omega
      · omega
      · exact h2
      · omega
      · intro i hi0 hi
        rw [ix_compare_le] at hc
        have := get_key_le_of_sorted n hs i ((left + right) / 2) (by omega) (by omega) (by omega)
        omega
      · exact hr
    · apply ih
      · exact h0
      · omega
      · omega
      · omega
      · exact hl
      · intro i hi hi2
        rw [ix_compare_le] at hc
        have := get_key_le_of_sorted n hs ((left + right) / 2) i (by omega) (by omega) hi2
        omega
    · have : left = right + 1 := by omega
      subst this
      exact ⟨h0, by omega, hl, fun i hi hi2 => hr i (by omega) hi2⟩

theorem upper_bound_spec (n : IxNodeHandle) (hs : keys_sorted n) (target : Int) :
    1 ≤ n.upper_bound target ∧ (n.upper_bound target ≤ n.get_size ∨ n.upper_bound target = 1) ∧
      (∀ i, 1 ≤ i → i < n.upper_bound target → n.get_key i ≤ target) ∧
      (∀ i, n.upper_bound target ≤ i → i < n.get_size → target < n.get_key i) := by
  by_cases he : n.get_size = 0
  · have h1 : n.upper_bound target = 1 := by
      unfold upper_bound
      rw [he]
      simp [upper_bound_loop]
    rw [h1]
    refine ⟨le_refl _, Or.inr rfl, fun i a b => by omega, fun i a b => by omega⟩
  · have hpos : 0 < n.get_size := by unfold get_size at he ⊢; omega
    unfold upper_bound
    apply upper_bound_loop_spec n hs target
    · omega
    · omega
    · left; omega
    · unfold get_size; omega
    · intro i h1 h2; omega
    · intro i h1 h2; omega

end RMDB

open RMDB RMDB.IxNodeHandle RMDB.IxIndexHandle

namespace RMDB

theorem get_key_nat (n : IxNodeHandle) (i : Nat) (hi : i < n.pairs.length) :
    n.get_key (i : Int) = (n.pairs[i]).1 := by
  unfold get_key
  rw [if_neg (by omega)]
  simp [List.getElem?_eq_getElem hi]

theorem get_rid_nat (n : IxNodeHandle) (i : Nat) (hi : i < n.pairs.length) :
    n.get_rid (i : Int) = (n.pairs[i]).2 := by
  unfold IxNodeHandle.get_rid
  rw [if_neg (by omega)]
  simp [List.getElem?_eq_getElem hi]

theorem leaves_entries_append (pages : Int → IxNodeHandle) (a b : List Int) :
    leaves_entries pages (a ++ b) = leaves_entries pages a ++ leaves_entries pages b := by
  simp [leaves_entries]

theorem leaves_entries_cons (pages : Int → IxNodeHandle) (a : Int) (b : List Int) :
    leaves_entries pages (a :: b) = (pages a).pairs ++ leaves_entries pages b := by
  simp [leaves_entries]

theorem leaves_entries_nil (pages : Int → IxNodeHandle) :
    leaves_entries pages [] = [] := rfl

theorem subtree_entries_zero (pages : Int → IxNodeHandle) (p : Int) :
    subtree_entries pages 0 p = (pages p).pairs := by
  simp [subtree_entries, subtree_leaves, leaves_entries]

theorem leaves_entries_flatMap (pages : Int → IxNodeHandle) (h : Nat) (cs : List (Int × Rid)) :
    leaves_entries pages (cs.flatMap (fun e => subtree_leaves pages h e.2.page_no)) =
      cs.flatMap (fun e => subtree_entries pages h e.2.page_no) := by
  simp [leaves_entries, subtree_entries, List.flatMap_assoc]

theorem subtree_entries_succ (pages : Int → IxNodeHandle) (h : Nat) (p : Int) :
    subtree_entries pages (h + 1) p =
      (pages p).pairs.flatMap (fun e => subtree_entries pages h e.2.page_no) := by
  rw [← leaves_entries_flatMap]; rfl

theorem wf_entries_ne_nil (pages : Int → IxNodeHandle) :
    ∀ (h : Nat) (p par : Int), wf_subtree pages h p par → subtree_entries pages h p ≠ [] := by
  intro h
  induction h with
  | zero =>
    intro p par hw
    rw [subtree_entries_zero]
    exact hw.2.2
  | succ h ih =>
    intro p par hw
    obtain ⟨_, _, hne, hch⟩ := hw
    rw [subtree_entries_succ]
    obtain ⟨e, es, hes⟩ := List.exists_cons_of_ne_nil hne
    have := (hch e (by rw [hes]; simp)).1
    have := ih _ _ this
    rw [hes]
    simp [this]

theorem wf_leaf_mem (pages : Int → IxNodeHandle) :
    ∀ (h : Nat) (p par : Int), wf_subtree pages h p par → ∀ l ∈ subtree_leaves pages h p,
      (pages l).is_leaf = true ∧ (pages l).pairs ≠ [] := by
  intro h
  induction h with
  | zero =>
    intro p par hw l hl
    simp [subtree_leaves] at hl
    subst hl
    exact ⟨hw.1, hw.2.2⟩
  | succ h ih =>
    intro p par hw l hl
    obtain ⟨_, _, hne, hch⟩ := hw
    simp only [subtree_leaves, List.mem_flatMap] at hl
    obtain ⟨e, he, hl⟩ := hl
    exact ih _ _ (hch e he).1 l hl

/-- In a well-formed subtree the first key in leaf order is the first key of
the root of the subtree. -/
theorem wf_entries_head (pages : Int → IxNodeHandle) :
    ∀ (h : Nat) (p par : Int), wf_subtree pages h p par →
      ((subtree_entries pages h p).head?).map Prod.fst = ((pages p).pairs.head?).map Prod.fst := by
  intro h
  induction h with
  | zero =>
    intro p par _
    rw [subtree_entries_zero]
  | succ h ih =>
    intro p par hw
    obtain ⟨_, _, hne, hch⟩ := hw
    obtain ⟨e, es, hes⟩ := List.exists_cons_of_ne_nil hne
    have he := hch e (by rw [hes]; simp)
    have hne2 := wf_entries_ne_nil pages h _ _ he.1
    rw [subtree_entries_succ, hes]
    simp only [List.flatMap_cons, List.head?_cons, Option.map_some']
    obtain ⟨x, xs, hxs⟩ := List.exists_cons_of_ne_nil hne2
    rw [hxs, List.cons_append, List.head?_cons, Option.map_some']
    have := ih _ _ he.1
    rw [hxs, he.2] at this
    simpa using this

/-- The separator keys of a well-formed node are the first keys in leaf order
of the subtrees of its children. -/
theorem wf_child_head (pages : Int → IxNodeHandle) (h : Nat) (p par : Int)
    (hw : wf_subtree pages (h + 1) p par) :
    ∀ e ∈ (pages p).pairs,
      ((subtree_entries pages h e.2.page_no).head?).map Prod.fst = some e.1 := by
  intro e he
  obtain ⟨_, _, _, hch⟩ := hw
  rw [wf_entries_head pages h _ _ (hch e he).1, (hch e he).2]

/-- Sortedness of the in-order entries of an internal node, split by child. -/
theorem sorted_children (pages : Int → IxNodeHandle) (h : Nat) (p : Int)
    (hs : ((subtree_entries pages (h + 1) p).map Prod.fst).Pairwise (· < ·)) :
    (∀ e ∈ (pages p).pairs,
        ((subtree_entries pages h e.2.page_no).map Prod.fst).Pairwise (· < ·)) ∧
      (pages p).pairs.Pairwise (fun a b =>
        ∀ x ∈ subtree_entries pages h a.2.page_no, ∀ y ∈ subtree_entries pages h b.2.page_no,
          x.1 < y.1) := by
  rw [subtree_entries_succ, List.map_flatMap, List.pairwise_flatMap] at hs
  refine ⟨hs.1, ?_⟩
  refine hs.2.imp ?_
  intro a b hab x hx y hy
  exact hab x.1 (List.mem_map_of_mem _ hx) y.1 (List.mem_map_of_mem _ hy)

theorem head_le_of_sorted (l : List (Int × Rid)) (hs : (l.map Prod.fst).Pairwise (· < ·))
    (k : Int) (hk : (l.head?).map Prod.fst = some k) : ∀ y ∈ l, k ≤ y.1 := by
  cases l with
  | nil => simp at hk
  | cons a t =>
    simp at hk
    subst hk
    intro y hy
    simp only [List.map_cons, List.pairwise_cons] at hs
    rcases List.mem_cons.mp hy with h | h
    · subst h; exact le_refl _
    · exact le_of_lt (hs.1 y.1 (List.mem_map_of_mem _ h))

theorem head_mem_of_head (l : List (Int × Rid)) (k : Int)
    (hk : (l.head?).map Prod.fst = some k) : ∃ y ∈ l, y.1 = k := by
  cases l with
  | nil => simp at hk
  | cons a t =>
    simp at hk
    exact ⟨a, by simp, hk⟩

theorem wf_keys_sorted (pages : Int → IxNodeHandle) (h : Nat) (p par : Int)
    (hw : wf_subtree pages (h + 1) p par)
    (hs : ((subtree_entries pages (h + 1) p).map Prod.fst).Pairwise (· < ·)) :
    keys_sorted (pages p) := by
  have hch := fun e he => And.intro trivial (wf_child_head pages h p par hw e he)
  have h2 := (sorted_children pages h p hs).2
  unfold keys_sorted
  rw [List.pairwise_map]
  refine h2.imp_of_mem ?_
  intro a b ha hb hab
  obtain ⟨x, hx, hxk⟩ := head_mem_of_head _ _ (hch a ha).2
  obtain ⟨y, hy, hyk⟩ := head_mem_of_head _ _ (hch b hb).2
  have := hab x hx y hy
  omega

end RMDB

open RMDB RMDB.IxNodeHandle RMDB.IxIndexHandle

namespace RMDB

theorem value_at_nat (n : IxNodeHandle) (i : Nat) (hi : i < n.pairs.length) :
    n.value_at (i : Int) = (n.pairs[i]).2.page_no := by
  unfold value_at; rw [get_rid_nat n i hi]

/-- Routing of `internal_lookup` for FIND / FIND_LOWER on a sorted non-empty node. -/
theorem route_lower (n : IxNodeHandle) (key : Int) (op : Operation)
    (hop : op = Operation.FIND ∨ op = Operation.FIND_LOWER)
    (hs : keys_sorted n) (hne : n.pairs ≠ []) :
    ∃ (i : Nat) (hi : i < n.pairs.length),
      n.internal_lookup key op = (n.pairs[i]).2.page_no ∧
      (0 < i → (n.pairs[i]).1 < key) ∧
      (∀ (j : Nat) (hj : j < n.pairs.length), i < j → key ≤ (n.pairs[j]).1) := by
  obtain ⟨h0, h1, h2, h3⟩ := lower_bound_spec n hs key
  have hlen : 0 < n.pairs.length := List.length_pos.mpr hne
  have hsz : n.get_size = n.pairs.length := rfl
  unfold internal_lookup
  rw [if_pos (by rcases hop with h | h <;> simp [h])]
  by_cases hpos : n.lower_bound key > 0
  · refine ⟨(n.lower_bound key - 1).toNat, by omega, ?_, ?_, ?_⟩
    · simp only [hpos, if_true]
      rw [← value_at_nat n _ (by omega)]
      congr 1; omega
    · intro _
      rw [← get_key_nat n _ (by omega)]
      apply h2 <;> omega
    · intro j hj hij
      rw [← get_key_nat n j hj]
      apply h3 <;> omega
  · refine ⟨0, hlen, ?_, ?_, ?_⟩
    · simp only [hpos, if_false]
      have : n.lower_bound key = ((0 : Nat) : Int) := by omega
      rw [this, value_at_nat n 0 hlen]
    · intro h; omega
    · intro j hj hij
      rw [← get_key_nat n j hj]
      apply h3 <;> omega

/-- Routing of `internal_lookup` for INSERT / DELETE / FIND_UPPER on a sorted non-empty node. -/
theorem route_upper (n : IxNodeHandle) (key : Int) (op : Operation)
    (hop : op = Operation.INSERT ∨ op = Operation.DELETE ∨ op = Operation.FIND_UPPER)
    (hs : keys_sorted n) (hne : n.pairs ≠ []) :
    ∃ (i : Nat) (hi : i < n.pairs.length),
      n.internal_lookup key op = (n.pairs[i]).2.page_no ∧
      (0 < i → (n.pairs[i]).1 ≤ key) ∧
      (∀ (j : Nat) (hj : j < n.pairs.length), i < j → key < (n.pairs[j]).1) := by
  obtain ⟨h0, h1, h2, h3⟩ := upper_bound_spec n hs key
  have hlen : 0 < n.pairs.length := List.length_pos.mpr hne
  have hsz : n.get_size = n.pairs.length := rfl
  unfold internal_lookup
  rw [if_neg (by rcases hop with h | h | h <;> simp [h])]
  refine ⟨(n.upper_bound key - 1).toNat, by omega, ?_, ?_, ?_⟩
  · show n.value_at (n.upper_bound key - 1) = _
    rw [← value_at_nat n _ (by omega)]
    congr 1; omega
  · intro hi
    rw [← get_key_nat n _ (by omega)]
    apply h2 <;> omega
  · intro j hj hij
    rw [← get_key_nat n j hj]
    apply h3 <;> omega

/-- The descent of `find_leaf_page` on a well-formed sorted subtree ends in a
leaf that splits the leaves of the subtree: the entries to its left satisfy
`PA`, the entries to its right satisfy `PB`. -/
theorem descent_strong (pages : Int → IxNodeHandle) (key : Int) (op : Operation) (ff : Bool)
    (PA PA2 PB : Int → Prop)
    (hPA : ∀ x y, x < y → PA y → PA2 x) (hPB : ∀ x y, x ≤ y → PB x → PB y)
    (hroute : ∀ n : IxNodeHandle, keys_sorted n → n.pairs ≠ [] →
      ∃ (i : Nat) (hi : i < n.pairs.length),
        (if ff then n.value_at 0 else n.internal_lookup key op) = (n.pairs[i]).2.page_no ∧
        (0 < i → PA (n.pairs[i]).1) ∧
        (∀ (j : Nat) (hj : j < n.pairs.length), i < j → PB (n.pairs[j]).1)) :
    ∀ (h : Nat) (p par : Int), wf_subtree pages h p par →
      ((subtree_entries pages h p).map Prod.fst).Pairwise (· < ·) →
      ∀ fuel, h ≤ fuel →
      ∃ l A B, leaf_reached pages key op ff fuel p = some l ∧
        subtree_leaves pages h p = A ++ l :: B ∧
        (∀ x ∈ leaves_entries pages A, PA2 x.1) ∧ (∀ x ∈ leaves_entries pages B, PB x.1) ∧
        (A = [] ∨ ∃ e es, (pages l).pairs = e :: es ∧ PA e.1) := by
  intro h
  induction h with
  | zero =>
    intro p par hw hs fuel hf
    refine ⟨p, [], [], ?_, by simp [subtree_leaves], by simp [leaves_entries],
      by simp [leaves_entries], Or.inl rfl⟩
    cases fuel <;> simp [leaf_reached, hw.1]
  | succ h ih =>
    intro p par hw hs fuel hf
    have hks := wf_keys_sorted pages h p par hw hs
    obtain ⟨hsc, hpw⟩ := sorted_children pages h p hs
    have hhead := wf_child_head pages h p par hw
    obtain ⟨hleaf, hpar, hne, hch⟩ := hw
    obtain ⟨i, hi, hr, hA, hB⟩ := hroute (pages p) hks hne
    obtain ⟨f, rfl⟩ : ∃ f, fuel = f + 1 := ⟨fuel - 1, by omega⟩
    have hmem : (pages p).pairs[i] ∈ (pages p).pairs := List.getElem_mem _
    obtain ⟨l, A', B', hl, hsplit, hA', hB', hH'⟩ :=
      ih ((pages p).pairs[i]).2.page_no p (hch _ hmem).1 (hsc _ hmem) f (by omega)
    have hcs : (pages p).pairs =
        (pages p).pairs.take i ++ (pages p).pairs[i] :: (pages p).pairs.drop (i + 1) := by
      rw [← List.drop_eq_getElem_cons, List.take_append_drop]
    refine ⟨l, ((pages p).pairs.take i).flatMap (fun e => subtree_leaves pages h e.2.page_no) ++ A',
      B' ++ ((pages p).pairs.drop (i + 1)).flatMap (fun e => subtree_leaves pages h e.2.page_no),
      ?_, ?_, ?_, ?_, ?_⟩
    · simp only [leaf_reached, hleaf, Bool.false_eq_true, if_false]
      rw [hr]; exact hl
    · conv_lhs => rw [subtree_leaves, hcs]
      simp only [List.flatMap_append, List.flatMap_cons, hsplit, List.append_assoc,
        List.cons_append]
    · intro x hx
      rw [leaves_entries_append, List.mem_append] at hx
      rcases hx with hx | hx
      · rw [leaves_entries_flatMap, List.mem_flatMap] at hx
        obtain ⟨a, ha, hxa⟩ := hx
        have hi0 : 0 < i := by
          rcases Nat.eq_zero_or_pos i with h0 | h0
          · subst h0; simp at ha
          · exact h0
        rw [hcs, List.pairwise_append] at hpw
        obtain ⟨y, hy, hyk⟩ := head_mem_of_head _ _ (hhead _ hmem)
        have := hpw.2.2 a ha _ (List.mem_cons_self _ _) x hxa y hy
        exact hPA _ _ (by omega) (hA hi0)
      · exact hA' x hx
    · intro x hx
      rw [leaves_entries_append, List.mem_append] at hx
      rcases hx with hx | hx
      · exact hB' x hx
      · rw [leaves_entries_flatMap, List.mem_flatMap] at hx
        obtain ⟨b, hb, hxb⟩ := hx
        obtain ⟨j, hj, hbj⟩ := List.getElem_of_mem hb
        rw [List.getElem_drop] at hbj
        have hjl : i + 1 + j < (pages p).pairs.length := by
          rw [List.length_drop] at hj; omega
        have hbm : b ∈ (pages p).pairs := by rw [← hbj]; exact List.getElem_mem _
        have := head_le_of_sorted _ (hsc b hbm) b.1 (hhead b hbm) x hxb
        have hpb := hB (i + 1 + j) hjl (by omega)
        rw [hbj] at hpb
        exact hPB _ _ this hpb
    · rcases Nat.eq_zero_or_pos i with hi0 | hi0
      · rcases hH' with hH' | hH'
        · left
          subst hi0
          simp [hH']
        · exact Or.inr hH'
      · right
        rcases hH' with hH' | hH'
        · have hlne := (wf_leaf_mem pages h _ _ (hch _ hmem).1 l (by rw [hsplit]; simp)).2
          obtain ⟨e, es, hes⟩ := List.exists_cons_of_ne_nil hlne
          refine ⟨e, es, hes, ?_⟩
          have hh := hhead _ hmem
          unfold subtree_entries at hh
          rw [hsplit, hH', List.nil_append, leaves_entries_cons, hes] at hh
          simp only [List.cons_append, List.head?_cons, Option.map_some', Option.some.injEq] at hh
          rw [hh]
          exact hA hi0
        · exact hH'

/-- The descent of `find_leaf_page` on a well-formed sorted subtree ends in a
leaf that splits the leaves of the subtree: the entries to its left satisfy
`PA2`, the entries to its right satisfy `PB`. -/
theorem descent (pages : Int → IxNodeHandle) (key : Int) (op : Operation) (ff : Bool)
    (PA PA2 PB : Int → Prop)
    (hPA : ∀ x y, x < y → PA y → PA2 x) (hPB : ∀ x y, x ≤ y → PB x → PB y)
    (hroute : ∀ n : IxNodeHandle, keys_sorted n → n.pairs ≠ [] →
      ∃ (i : Nat) (hi : i < n.pairs.length),
        (if ff then n.value_at 0 else n.internal_lookup key op) = (n.pairs[i]).2.page_no ∧
        (0 < i → PA (n.pairs[i]).1) ∧
        (∀ (j : Nat) (hj : j < n.pairs.length), i < j → PB (n.pairs[j]).1)) :
    ∀ (h : Nat) (p par : Int), wf_subtree pages h p par →
      ((subtree_entries pages h p).map Prod.fst).Pairwise (· < ·) →
      ∀ fuel, h ≤ fuel →
      ∃ l A B, leaf_reached pages key op ff fuel p = some l ∧
        subtree_leaves pages h p = A ++ l :: B ∧
        (∀ x ∈ leaves_entries pages A, PA2 x.1) ∧ (∀ x ∈ leaves_entries pages B, PB x.1) := by
  intro h p par hw hs fuel hf
  obtain ⟨l, A, B, h1, h2, h3, h4, _⟩ :=
    descent_strong pages key op ff PA PA2 PB hPA hPB hroute h p par hw hs fuel hf
  exact ⟨l, A, B, h1, h2, h3, h4⟩

end RMDB

open RMDB RMDB.IxNodeHandle RMDB.IxIndexHandle

namespace RMDB

theorem find_leaf_loop_read (key : Int) (op : Operation) (ff : Bool)
    (hop : ¬(op = Operation.INSERT ∨ op = Operation.DELETE)) :
    ∀ (fuel : Nat) (ih : IxIndexHandle) (cur : Int) (r : Bool),
      find_leaf_loop key op ff fuel ih cur r =
        match leaf_reached ih.pages key op ff fuel cur with
        | some l => Except.ok (l, r, ih)
        | none => Except.error IxError.OutOfFuel := by
  intro fuel
  induction fuel with
  | zero =>
    intro ih cur r
    simp only [find_leaf_loop, leaf_reached, fetch_node]
    split_ifs <;> rfl
  | succ f ihf =>
    intro ih cur r
    by_cases h1 : (ih.pages cur).is_leaf = true
    · simp only [find_leaf_loop, leaf_reached, fetch_node, h1, if_true]
    · have h1f : (ih.pages cur).is_leaf = false := by simpa using h1
      simp only [find_leaf_loop, leaf_reached, fetch_node, h1f, Bool.false_eq_true, if_false]
      rw [if_neg hop, ihf]

theorem find_leaf_loop_write (key : Int) (op : Operation) (ff : Bool) :
    ∀ (fuel : Nat) (ih : IxIndexHandle) (cur : Int) (r : Bool) (l : Int),
      leaf_reached ih.pages key op ff fuel cur = some l →
      ∃ r2 ih2, find_leaf_loop key op ff fuel ih cur r = Except.ok (l, r2, ih2) ∧
          same_tree ih ih2 := by
  intro fuel
  induction fuel with
  | zero =>
    intro ih cur r l
    simp only [find_leaf_loop, leaf_reached, fetch_node]
    split_ifs
    · intro h; cases h
      exact ⟨r, ih, rfl, rfl, rfl, rfl, rfl⟩
    · intro h; cases h
  | succ f ihf =>
    intro ih cur r l
    by_cases h1 : (ih.pages cur).is_leaf = true
    · simp only [find_leaf_loop, leaf_reached, fetch_node, h1, if_true]
      intro h; cases h
      exact ⟨r, ih, rfl, rfl, rfl, rfl, rfl⟩
    · have h1f : (ih.pages cur).is_leaf = false := by simpa using h1
      simp only [find_leaf_loop, leaf_reached, fetch_node, h1f, Bool.false_eq_true, if_false]
      generalize (if ff = true then (ih.pages cur).value_at 0
        else (ih.pages cur).internal_lookup key op) = child
      intro hl
      split_ifs with h2 h3
      · obtain ⟨r2, ih2, he, hs⟩ :=
          ihf (ih.unlock_page_set.append_index_latch_page_set child) child false l hl
        exact ⟨r2, ih2, he, hs⟩
      · obtain ⟨r2, ih2, he, hs⟩ := ihf (ih.append_index_latch_page_set child) child r l hl
        exact ⟨r2, ih2, he, hs⟩
      · exact ihf ih child r l hl

theorem find_leaf_page_read (fuel : Nat) (ih : IxIndexHandle) (key : Int) (op : Operation)
    (ff : Bool) (hop : ¬(op = Operation.INSERT ∨ op = Operation.DELETE)) :
    ih.find_leaf_page fuel key op ff =
      match leaf_reached ih.pages key op ff fuel ih.file_hdr.root_page with
      | some l => Except.ok (l, false, ih)
      | none => Except.error IxError.OutOfFuel := by
  unfold find_leaf_page
  rw [if_neg hop, find_leaf_loop_read key op ff hop]

theorem find_leaf_page_write (fuel : Nat) (ih : IxIndexHandle) (key : Int) (op : Operation)
    (ff : Bool) (l : Int)
    (hl : leaf_reached ih.pages key op ff fuel ih.file_hdr.root_page = some l) :
    ∃ r2 ih2, ih.find_leaf_page fuel key op ff = Except.ok (l, r2, ih2) ∧ same_tree ih ih2 := by
  unfold find_leaf_page
  split_ifs with h
  · obtain ⟨r2, ih2, he, hs⟩ := find_leaf_loop_write key op ff fuel
      (ih.append_index_latch_page_set ih.file_hdr.root_page) ih.file_hdr.root_page true l hl
    exact ⟨r2, ih2, he, hs⟩
  · exact find_leaf_loop_write key op ff fuel ih ih.file_hdr.root_page false l hl

/-! ### The leaf ring and the leaves of the tree -/

theorem linked_split (pages : Int → IxNodeHandle) :
    ∀ (A : List Int) (a l : Int) (B : List Int) (z : Int),
      linked pages a (A ++ l :: B) z → linked pages l B z := by
  intro A
  induction A with
  | nil => intro a l B z h; exact h.2
  | cons x A ih => intro a l B z h; exact ih x l B z h.2

theorem linked_next (pages : Int → IxNodeHandle) (l : Int) (B : List Int) (z : Int)
    (h : linked pages l B z) : (pages l).next_leaf = (B ++ [z]).head! := by
  cases B with
  | nil => exact h.1
  | cons b B => exact h.1.1

theorem sublist_flatMap {α β : Type} (f g : α → List β) :
    ∀ (cs : List α), (∀ e ∈ cs, (f e).Sublist (g e)) → (cs.flatMap f).Sublist (cs.flatMap g) := by
  intro cs
  induction cs with
  | nil => intro _; simp
  | cons c cs ih =>
    intro h
    simp only [List.flatMap_cons]
    exact List.Sublist.append (h c (by simp)) (ih (fun e he => h e (by simp [he])))

theorem leaves_sublist_nodes (pages : Int → IxNodeHandle) :
    ∀ (h : Nat) (p : Int), (subtree_leaves pages h p).Sublist (subtree_nodes pages h p) := by
  intro h
  induction h with
  | zero => intro p; simp [subtree_leaves, subtree_nodes]
  | succ h ih =>
    intro p
    simp only [subtree_leaves, subtree_nodes]
    exact List.Sublist.cons _ (sublist_flatMap _ _ _ (fun e _ => ih e.2.page_no))

theorem valid_leaves_nodup (ih : IxIndexHandle) (h : Nat) (hv : Valid ih h) :
    (tree_leaves ih h).Nodup :=
  (leaves_sublist_nodes ih.pages h ih.file_hdr.root_page).nodup hv.2.2.2.1

/-- In a valid tree a leaf is `last_leaf` exactly when no leaf follows it. -/
theorem last_leaf_iff (ih : IxIndexHandle) (h : Nat) (hv : Valid ih h) (A B : List Int) (l : Int)
    (hs : tree_leaves ih h = A ++ l :: B) : l = ih.file_hdr.last_leaf ↔ B = [] := by
  have hnd := valid_leaves_nodup ih h hv
  have hlast : (tree_leaves ih h).getLast? = some ih.file_hdr.last_leaf := hv.2.2.2.2.2.2.2
  rw [hs] at hnd hlast
  constructor
  · intro hl
    by_contra hB
    have h1 : (A ++ l :: B).getLast? = B.getLast? := by
      rw [List.getLast?_append]
      cases B with
      | nil => exact absurd rfl hB
      | cons b B =>
        cases hb : (b :: B).getLast? with
        | none => simp at hb
        | some v => simp [hb]
    rw [h1] at hlast
    have hmem : ih.file_hdr.last_leaf ∈ B := List.mem_of_getLast?_eq_some hlast
    rw [← hl] at hmem
    rw [List.nodup_append] at hnd
    have := (List.nodup_cons.mp hnd.2.1).1
    exact this hmem
  · intro hB
    subst hB
    simp at hlast
    exact hlast

/-- In a valid tree the `next_leaf` of a leaf is the leaf that follows it. -/
theorem next_leaf_eq (ih : IxIndexHandle) (h : Nat) (hv : Valid ih h) (A B : List Int)
    (l b : Int) (hs : tree_leaves ih h = A ++ l :: b :: B) : (ih.pages l).next_leaf = b := by
  have hr : leaf_ring ih.pages (tree_leaves ih h) := hv.2.2.2.2.2.1
  unfold leaf_ring at hr
  rw [hs] at hr
  exact (linked_split ih.pages A _ l (b :: B) _ hr).1.1

end RMDB

open RMDB RMDB.IxNodeHandle RMDB.IxIndexHandle

namespace RMDB

theorem lookup_none (E : List (Int × Rid)) (k : Int) (h : ∀ x ∈ E, x.1 ≠ k) :
    E.lookup k = none := by
  induction E with
  | nil => rfl
  | cons a E ih =>
    obtain ⟨a1, a2⟩ := a
    have h1 : (k == a1) = false := by
      have := h (a1, a2) (by simp)
      simp at this ⊢
      omega
    rw [List.lookup_cons, h1]
    exact ih (fun x hx => h x (by simp [hx]))

theorem lookup_skip (E1 E2 : List (Int × Rid)) (k : Int) (h : ∀ x ∈ E1, x.1 ≠ k) :
    (E1 ++ E2).lookup k = E2.lookup k := by
  induction E1 with
  | nil => rfl
  | cons a E ih =>
    obtain ⟨a1, a2⟩ := a
    have h1 : (k == a1) = false := by
      have := h (a1, a2) (by simp)
      simp at this ⊢
      omega
    rw [List.cons_append, List.lookup_cons, h1]
    exact ih (fun x hx => h x (by simp [hx]))

theorem mem_pairs_get (n : IxNodeHandle) (x : Int × Rid) (hx : x ∈ n.pairs) :
    ∃ i : Nat, i < n.pairs.length ∧ n.get_key i = x.1 ∧ n.get_rid i = x.2 := by
  obtain ⟨i, hi, he⟩ := List.getElem_of_mem hx
  exact ⟨i, hi, by rw [get_key_nat n i hi, he], by rw [get_rid_nat n i hi, he]⟩

/-- On a node with ascending keys `leaf_lookup` is the lookup of the key among
the node's pairs. -/
theorem leaf_lookup_eq (n : IxNodeHandle) (hs : keys_sorted n) (key : Int) :
    n.leaf_lookup key = n.pairs.lookup key := by
  obtain ⟨h0, h1, h2, h3⟩ := lower_bound_spec n hs key
  have hsz : n.get_size = n.pairs.length := rfl
  unfold leaf_lookup
  simp only [ix_compare_eq, ne_eq]
  split_ifs with hc
  · symm
    apply lookup_none
    intro x hx hxk
    obtain ⟨i, hi, hk, _⟩ := mem_pairs_get n x hx
    rcases hc with hc | hc
    · have := h2 i (by omega) (by omega)
      omega
    · by_cases hlt : (i : Int) < n.lower_bound key
      · have := h2 i (by omega) hlt
        omega
      · rcases eq_or_lt_of_le (not_lt.mp hlt) with he | hl
        · rw [he] at hc; omega
        · have := get_key_lt_of_sorted n hs _ _ h0 hl (by omega)
          have := h3 (n.lower_bound key) (le_refl _) (by omega)
          omega
  · push_neg at hc
    obtain ⟨hc1, hc2⟩ := hc
    have hlt : (n.lower_bound key).toNat < n.pairs.length := by omega
    have hcs : n.pairs = n.pairs.take (n.lower_bound key).toNat ++
        n.pairs[(n.lower_bound key).toNat] :: n.pairs.drop ((n.lower_bound key).toNat + 1) := by
      rw [← List.drop_eq_getElem_cons, List.take_append_drop]
    have hcast : ((n.lower_bound key).toNat : Int) = n.lower_bound key := by omega
    have hk := get_key_nat n _ hlt
    have hr := get_rid_nat n _ hlt
    rw [hcast] at hk hr
    conv_rhs => rw [hcs]
    rw [lookup_skip]
    · generalize n.pairs[(n.lower_bound key).toNat] = e at hk hr
      obtain ⟨e1, e2⟩ := e
      simp only at hk hr
      rw [List.lookup_cons]
      have : (key == e1) = true := by simp; omega
      rw [this, hr]
    · intro x hx hxk
      obtain ⟨i, hi, he⟩ := List.getElem_of_mem hx
      rw [List.getElem_take] at he
      rw [List.length_take] at hi
      have := h2 i (by omega) (by omega)
      rw [get_key_nat n i (by omega), he] at this
      omega

end RMDB

open RMDB RMDB.IxNodeHandle RMDB.IxIndexHandle

namespace RMDB

theorem lookup_append (E1 E2 : List (Int × Rid)) (k : Int) :
    (E1 ++ E2).lookup k = (E1.lookup k).or (E2.lookup k) := by
  induction E1 with
  | nil => rfl
  | cons a E ih =>
    obtain ⟨a1, a2⟩ := a
    rw [List.cons_append, List.lookup_cons, List.lookup_cons]
    cases (k == a1)
    · exact ih
    · rfl

theorem get_key_zero (n : IxNodeHandle) (e : Int × Rid) (es : List (Int × Rid))
    (h : n.pairs = e :: es) : n.get_key 0 = e.1 ∧ n.get_rid 0 = e.2 := by
  unfold get_key IxNodeHandle.get_rid
  simp [h]

/-- The shape of a valid tree around the leaf found by a descent. -/
theorem valid_split_entries (ih : IxIndexHandle) (h : Nat) (A B : List Int) (l : Int)
    (hs : tree_leaves ih h = A ++ l :: B) :
    tree_entries ih h =
      leaves_entries ih.pages A ++ ((ih.pages l).pairs ++ leaves_entries ih.pages B) := by
  unfold tree_entries subtree_entries
  unfold tree_leaves at hs
  rw [hs, leaves_entries_append, leaves_entries_cons]

theorem valid_not_empty (ih : IxIndexHandle) (h : Nat) (hv : Valid ih h) :
    ih.is_empty = false := by
  have := hv.1
  unfold is_empty
  simpa using this

/-- Lookups descend to a leaf that splits the tree's leaves around `key`. -/
theorem descent_lower (ih : IxIndexHandle) (h : Nat) (hv : Valid ih h) (key : Int)
    (op : Operation) (hop : op = Operation.FIND ∨ op = Operation.FIND_LOWER)
    (fuel : Nat) (hf : h ≤ fuel) :
    ∃ l A B, leaf_reached ih.pages key op false fuel ih.file_hdr.root_page = some l ∧
      tree_leaves ih h = A ++ l :: B ∧
      (∀ x ∈ leaves_entries ih.pages A, x.1 < key) ∧
      (∀ x ∈ leaves_entries ih.pages B, key ≤ x.1) := by
  apply descent ih.pages key op false (fun x => x < key) (fun x => x < key) (fun x => key ≤ x)
    (fun x y hxy hy => lt_trans hxy hy) (fun x y hxy hx => le_trans hx hxy) ?_
    h _ _ hv.2.1 hv.2.2.1 fuel hf
  intro n hs hne
  simpa using route_lower n key op hop hs hne

theorem descent_upper (ih : IxIndexHandle) (h : Nat) (hv : Valid ih h) (key : Int)
    (op : Operation)
    (hop : op = Operation.INSERT ∨ op = Operation.DELETE ∨ op = Operation.FIND_UPPER)
    (fuel : Nat) (hf : h ≤ fuel) :
    ∃ l A B, leaf_reached ih.pages key op false fuel ih.file_hdr.root_page = some l ∧
      tree_leaves ih h = A ++ l :: B ∧
      (∀ x ∈ leaves_entries ih.pages A, x.1 < key) ∧
      (∀ x ∈ leaves_entries ih.pages B, key < x.1) := by
  apply descent ih.pages key op false (fun x => x ≤ key) (fun x => x < key) (fun x => key < x)
    (fun x y hxy hy => lt_of_lt_of_le hxy hy) (fun x y hxy hx => lt_of_lt_of_le hx hxy) ?_
    h _ _ hv.2.1 hv.2.2.1 fuel hf
  intro n hs hne
  simpa using route_upper n key op hop hs hne

theorem descent_first (ih : IxIndexHandle) (h : Nat) (hv : Valid ih h) (key : Int)
    (op : Operation) (fuel : Nat) (hf : h ≤ fuel) :
    ∃ l B, leaf_reached ih.pages key op true fuel ih.file_hdr.root_page = some l ∧
      tree_leaves ih h = l :: B := by
  have hroute : ∀ n : IxNodeHandle, keys_sorted n → n.pairs ≠ [] →
      ∃ (i : Nat) (hi : i < n.pairs.length),
        (if true then n.value_at 0 else n.internal_lookup key op) = (n.pairs[i]).2.page_no ∧
        (0 < i → (fun _ => False) (n.pairs[i]).1) ∧
        (∀ (j : Nat) (hj : j < n.pairs.length), i < j → (fun _ => True) (n.pairs[j]).1) := by
    intro n hs hne
    refine ⟨0, List.length_pos.mpr hne, ?_, fun h => absurd h (lt_irrefl 0), fun _ _ _ => trivial⟩
    simp only [if_true]
    exact value_at_nat n 0 (List.length_pos.mpr hne)
  obtain ⟨l, A, B, h1, h2, h3, _⟩ := descent ih.pages key op true (fun _ => False)
    (fun _ => False) (fun _ => True)
    (fun x y _ hy => hy) (fun x y _ _ => trivial) hroute
    h _ _ hv.2.1 hv.2.2.1 fuel hf
  refine ⟨l, B, h1, ?_⟩
  cases A with
  | nil => exact h2
  | cons a A =>
    exfalso
    have ha : a ∈ subtree_leaves ih.pages h ih.file_hdr.root_page := by rw [h2]; simp
    obtain ⟨_, hne⟩ := wf_leaf_mem ih.pages h _ _ hv.2.1 a ha
    obtain ⟨e, es, hes⟩ := List.exists_cons_of_ne_nil hne
    exact h3 e (by rw [leaves_entries_cons, hes]; simp)

theorem valid_entries_sorted (ih : IxIndexHandle) (h : Nat) (hv : Valid ih h) :
    ((tree_entries ih h).map Prod.fst).Pairwise (· < ·) := hv.2.2.1

/-- C1 core: in a valid tree `get_value` is the lookup of the key among the
stored pairs. -/
theorem get_value_valid (ih : IxIndexHandle) (h : Nat) (fuel : Nat) (key : Int)
    (result : List Rid) (hv : Valid ih h) (hf : h ≤ fuel) :
    ih.get_value fuel key result =
      Except.ok (match (tree_entries ih h).lookup key with
        | some rid => (true, result ++ [rid])
        | none => (false, result)) := by
  obtain ⟨l, A, B, hl, hsplit, hA, hB⟩ := descent_lower ih h hv key Operation.FIND (Or.inl rfl) fuel hf
  have hent := valid_split_entries ih h A B l hsplit
  have hsorted := valid_entries_sorted ih h hv
  rw [hent] at hsorted
  simp only [List.map_append, List.pairwise_append] at hsorted
  obtain ⟨_, ⟨hsl, hsB, hlB⟩, _⟩ := hsorted
  have hlook : (tree_entries ih h).lookup key =
      ((ih.pages l).pairs.lookup key).or ((leaves_entries ih.pages B).lookup key) := by
    rw [hent, lookup_skip _ _ _ (fun x hx => ne_of_lt (hA x hx)), lookup_append]
  unfold get_value
  rw [valid_not_empty ih h hv, find_leaf_page_read _ _ _ _ _ (by simp), hl]
  simp only [Bool.false_eq_true, if_false, fetch_node]
  rw [hlook, leaf_lookup_eq _ hsl]
  cases hlk : (ih.pages l).pairs.lookup key with
  | some rid => simp
  | none =>
    simp only [Option.or]
    have hiff := last_leaf_iff ih h hv A B l hsplit
    cases B with
    | nil =>
      have : l = ih.file_hdr.last_leaf := hiff.mpr rfl
      simp [this, leaves_entries_nil]
    | cons b B =>
      have hne : l ≠ ih.file_hdr.last_leaf := fun hc => by simpa using hiff.mp hc
      rw [if_pos hne, next_leaf_eq ih h hv A B l b hsplit]
      have hb : b ∈ tree_leaves ih h := by rw [hsplit]; simp
      obtain ⟨_, hbne⟩ := wf_leaf_mem ih.pages h _ _ hv.2.1 b hb
      obtain ⟨e, es, hes⟩ := List.exists_cons_of_ne_nil hbne
      obtain ⟨hk0, hr0⟩ := get_key_zero _ e es hes
      rw [hk0, hr0, leaves_entries_cons, hes]
      obtain ⟨e1, e2⟩ := e
      simp only [List.cons_append, List.lookup_cons, ix_compare_eq]
      by_cases hek : e1 = key
      · subst hek; simp
      · have h1 : (key == e1) = false := by simp; omega
        rw [if_neg hek, h1]
        rw [lookup_none]
        intro x hx hxk
        rw [leaves_entries_cons, hes] at hsB hB
        simp only [List.cons_append, List.map_cons, List.pairwise_cons] at hsB
        have := hsB.1 x.1 (List.mem_map_of_mem _ hx)
        have := hB (e1, e2) (by simp)
        simp only at this
        omega

end RMDB

open RMDB RMDB.IxNodeHandle RMDB.IxIndexHandle

namespace RMDB

theorem node_positions_find (l : Int) (q : Int → Bool) :
    ∀ (es : List (Int × Rid)) (s m : Nat), m ≤ es.length →
      (∀ (i : Nat) (hi : i < es.length), i < m → q (es[i]).1 = false) →
      (∀ hm : m < es.length, q (es[m]).1 = true) →
      ((node_positions l s es).find? (fun pe => q pe.2.1)).map Prod.fst =
        if m = es.length then none else some ⟨l, ((s + m : Nat) : Int)⟩ := by
  intro es
  induction es with
  | nil =>
    intro s m hm _ _
    simp at hm
    subst hm
    simp [node_positions]
  | cons e es ih =>
    intro s m hm h1 h2
    cases m with
    | zero =>
      have := h2 (by simp)
      simp only [List.getElem_cons_zero] at this
      simp [node_positions, List.find?_cons, this]
    | succ m =>
      have h0 := h1 0 (by simp) (by omega)
      simp only [List.getElem_cons_zero] at h0
      simp only [node_positions, List.find?_cons, h0]
      rw [ih (s + 1) m (by simpa using hm)
        (fun i hi him => by have := h1 (i + 1) (by simpa using hi) (by omega); simpa using this)
        (fun hm2 => by have := h2 (by simpa using hm2); simpa using this)]
      simp only [List.length_cons, Nat.add_right_cancel_iff]
      split_ifs
      · rfl
      · congr 3; omega

theorem mem_node_positions (l : Int) :
    ∀ (es : List (Int × Rid)) (s : Nat) (pe : Iid × (Int × Rid)),
      pe ∈ node_positions l s es → pe.2 ∈ es ∧ pe.1.page_no = l ∧
        (s : Int) ≤ pe.1.slot_no ∧ pe.1.slot_no < s + es.length := by
  intro es
  induction es with
  | nil => intro s pe h; simp [node_positions] at h
  | cons e es ih =>
    intro s pe h
    simp only [node_positions, List.mem_cons] at h
    rcases h with h | h
    · subst h
      simp
    · obtain ⟨h1, h2, h3, h4⟩ := ih (s + 1) pe h
      refine ⟨by simp [h1], h2, by omega, ?_⟩
      simp only [List.length_cons]
      push_cast at h4 ⊢
      omega

theorem leaf_positions_append (pages : Int → IxNodeHandle) (a b : List Int) :
    leaf_positions pages (a ++ b) = leaf_positions pages a ++ leaf_positions pages b := by
  simp [leaf_positions]

theorem leaf_positions_cons (pages : Int → IxNodeHandle) (a : Int) (b : List Int) :
    leaf_positions pages (a :: b) = node_positions a 0 (pages a).pairs ++ leaf_positions pages b := by
  simp [leaf_positions]

theorem mem_leaf_positions (pages : Int → IxNodeHandle) (ls : List Int)
    (pe : Iid × (Int × Rid)) (h : pe ∈ leaf_positions pages ls) :
    pe.2 ∈ leaves_entries pages ls := by
  simp only [leaf_positions, List.mem_flatMap] at h
  obtain ⟨l, hl, hpe⟩ := h
  simp only [leaves_entries, List.mem_flatMap]
  exact ⟨l, hl, (mem_node_positions l _ 0 pe hpe).1⟩

theorem find_none_of_all (ps : List (Iid × (Int × Rid))) (q : Int → Bool)
    (h : ∀ pe ∈ ps, q pe.2.1 = false) : ps.find? (fun pe => q pe.2.1) = none := by
  rw [List.find?_eq_none]
  intro pe hpe
  simp [h pe hpe]

/-- The position search behind `lower_bound` and `upper_bound` of the index:
with the leaves split as `A ++ l :: B` around the leaf `l` reached, the
entries of `A` failing `q`, those of `B` passing it, and slot `m` the first
slot of `l` passing it. -/
theorem position_search (ih : IxIndexHandle) (h : Nat) (hv : Valid ih h) (q : Int → Bool)
    (A B : List Int) (l : Int) (hsplit : tree_leaves ih h = A ++ l :: B)
    (hA : ∀ x ∈ leaves_entries ih.pages A, q x.1 = false)
    (hB : ∀ x ∈ leaves_entries ih.pages B, q x.1 = true)
    (m : Nat) (hm : m ≤ (ih.pages l).pairs.length)
    (h1 : ∀ (i : Nat) (hi : i < (ih.pages l).pairs.length), i < m → q ((ih.pages l).pairs[i]).1 = false)
    (h2 : ∀ hm : m < (ih.pages l).pairs.length, q ((ih.pages l).pairs[m]).1 = true) :
    first_position ih h q =
      if (m : Int) = (ih.pages l).get_size then
        if ih.file_hdr.last_leaf = l then ih.leaf_end else ⟨(ih.pages l).next_leaf, 0⟩
      else ⟨l, m⟩ := by
  have hnp := node_positions_find l q (ih.pages l).pairs 0 m hm h1 h2
  unfold first_position
  rw [hsplit, leaf_positions_append, leaf_positions_cons, List.find?_append,
    find_none_of_all _ q (fun pe hpe => hA _ (mem_leaf_positions _ _ pe hpe)), List.find?_append]
  simp only [Option.none_or]
  have hsz : (ih.pages l).get_size = (ih.pages l).pairs.length := rfl
  by_cases hml : m = (ih.pages l).pairs.length
  · rw [if_pos hml] at hnp
    rw [if_pos (by rw [hsz, hml])]
    have hn : (node_positions l 0 (ih.pages l).pairs).find? (fun pe => q pe.2.1) = none := by
      simpa using hnp
    rw [hn]
    simp only [Option.none_or]
    have hiff := last_leaf_iff ih h hv A B l hsplit
    cases B with
    | nil =>
      rw [if_pos (hiff.mpr rfl).symm]
      simp [leaf_positions]
    | cons b B =>
      have hne : ¬ ih.file_hdr.last_leaf = l := fun hc => by simpa using hiff.mp hc.symm
      rw [if_neg hne, next_leaf_eq ih h hv A B l b hsplit]
      have hb : b ∈ tree_leaves ih h := by rw [hsplit]; simp
      obtain ⟨_, hbne⟩ := wf_leaf_mem ih.pages h _ _ hv.2.1 b hb
      obtain ⟨e, es, hes⟩ := List.exists_cons_of_ne_nil hbne
      have hq : q e.1 = true := hB e (by rw [leaves_entries_cons, hes]; simp)
      rw [leaf_positions_cons, hes]
      simp [node_positions, List.find?_cons, hq]
  · rw [if_neg hml] at hnp
    rw [if_neg (by rw [hsz]; exact_mod_cast hml)]
    cases hf : (node_positions l 0 (ih.pages l).pairs).find? (fun pe => q pe.2.1) with
    | none => rw [hf] at hnp; simp at hnp
    | some pe =>
      rw [hf] at hnp
      simp only [Option.map_some', Option.some.injEq, Nat.zero_add] at hnp
      simp only [Option.or]
      exact hnp

end RMDB

open RMDB RMDB.IxNodeHandle RMDB.IxIndexHandle

namespace RMDB

theorem leaf_sorted_of_split (ih : IxIndexHandle) (h : Nat) (hv : Valid ih h)
    (A B : List Int) (l : Int) (hsplit : tree_leaves ih h = A ++ l :: B) :
    keys_sorted (ih.pages l) := by
  have hsorted := valid_entries_sorted ih h hv
  rw [valid_split_entries ih h A B l hsplit] at hsorted
  simp only [List.map_append, List.pairwise_append] at hsorted
  exact hsorted.2.1.1

theorem leaf_ne_of_split (ih : IxIndexHandle) (h : Nat) (hv : Valid ih h)
    (A B : List Int) (l : Int) (hsplit : tree_leaves ih h = A ++ l :: B) :
    (ih.pages l).pairs ≠ [] :=
  (wf_leaf_mem ih.pages h _ _ hv.2.1 l (by
    show l ∈ tree_leaves ih h
    rw [hsplit]; simp)).2

theorem get_key_zero_nat (n : IxNodeHandle) (hm : 0 < n.pairs.length) :
    n.get_key 0 = (n.pairs[0]).1 := by
  have := get_key_nat n 0 hm
  simpa using this

theorem lower_bound_valid (ih : IxIndexHandle) (h : Nat) (fuel : Nat) (key : Int)
    (hv : Valid ih h) (hf : h ≤ fuel) :
    ih.lower_bound fuel key =
      Except.ok (first_position ih h (fun x => decide (key ≤ x))) := by
  obtain ⟨l, A, B, hl, hsplit, hA, hB⟩ :=
    descent_lower ih h hv key Operation.FIND_LOWER (Or.inr rfl) fuel hf
  have hs := leaf_sorted_of_split ih h hv A B l hsplit
  obtain ⟨h0, h1, h2, h3⟩ := lower_bound_spec (ih.pages l) hs key
  have hsz : (ih.pages l).get_size = (ih.pages l).pairs.length := rfl
  have hcast : (((ih.pages l).lower_bound key).toNat : Int) = (ih.pages l).lower_bound key := by
    omega
  have := position_search ih h hv (fun x => decide (key ≤ x)) A B l hsplit
    (fun x hx => by have := hA x hx; simp; omega)
    (fun x hx => by have := hB x hx; simpa using this)
    ((ih.pages l).lower_bound key).toNat (by omega)
    (fun i hi him => by
      have := h2 i (by omega) (by omega)
      rw [get_key_nat _ i hi] at this
      simp; omega)
    (fun hm => by
      have := h3 (((ih.pages l).lower_bound key).toNat) (by omega) (by omega)
      rw [get_key_nat _ _ hm] at this
      simpa using this)
  rw [this, hcast]
  unfold IxIndexHandle.lower_bound
  rw [valid_not_empty ih h hv, find_leaf_page_read _ _ _ _ _ (by simp), hl]
  simp only [Bool.false_eq_true, if_false, fetch_node]
  split_ifs <;> rfl

theorem upper_bound_valid (ih : IxIndexHandle) (h : Nat) (fuel : Nat) (key : Int)
    (hv : Valid ih h) (hf : h ≤ fuel) :
    ih.upper_bound fuel key =
      Except.ok (first_position ih h (fun x => decide (key < x))) := by
  obtain ⟨l, A, B, hl, hsplit, hA, hB⟩ :=
    descent_upper ih h hv key Operation.FIND_UPPER (Or.inr (Or.inr rfl)) fuel hf
  have hs := leaf_sorted_of_split ih h hv A B l hsplit
  have hne := leaf_ne_of_split ih h hv A B l hsplit
  have hlen : 0 < (ih.pages l).pairs.length := List.length_pos.mpr hne
  obtain ⟨h0, h1, h2, h3⟩ := upper_bound_spec (ih.pages l) hs key
  have hsz : (ih.pages l).get_size = (ih.pages l).pairs.length := rfl
  unfold IxIndexHandle.upper_bound
  rw [valid_not_empty ih h hv, find_leaf_page_read _ _ _ _ _ (by simp), hl]
  simp only [Bool.false_eq_true, if_false, fetch_node, ix_compare_gt]
  by_cases hc : key < (ih.pages l).get_key 0
  · have hp1 : (ih.pages l).upper_bound key = 1 := by
      by_contra hcon
      have ha := h2 1 (le_refl _) (by omega)
      have hb := get_key_lt_of_sorted (ih.pages l) hs 0 1 (le_refl _) (by omega) (by omega)
      omega
    have := position_search ih h hv (fun x => decide (key < x)) A B l hsplit
      (fun x hx => by have := hA x hx; simp; omega)
      (fun x hx => by have := hB x hx; simpa using this)
      0 (by omega)
      (fun i hi him => by omega)
      (fun hm => by
        rw [get_key_zero_nat _ hm] at hc
        simpa using hc)
    rw [this]
    simp only [hc, hp1, and_self, true_or, if_true, Nat.cast_zero]
    split_ifs <;> rfl
  · have := position_search ih h hv (fun x => decide (key < x)) A B l hsplit
      (fun x hx => by have := hA x hx; simp; omega)
      (fun x hx => by have := hB x hx; simpa using this)
      ((ih.pages l).upper_bound key).toNat (by omega)
      (fun i hi him => by
        rcases Nat.eq_zero_or_pos i with hi0 | hi0
        · subst hi0
          rw [get_key_zero_nat _ hi] at hc
          simpa using hc
        · have := h2 i (by omega) (by omega)
          rw [get_key_nat _ i hi] at this
          simp; omega)
      (fun hm => by
        have := h3 (((ih.pages l).upper_bound key).toNat) (by omega) (by omega)
        rw [get_key_nat _ _ hm] at this
        simpa using this)
    rw [this]
    have hcast : (((ih.pages l).upper_bound key).toNat : Int) = (ih.pages l).upper_bound key := by
      omega
    have hsz0 : ¬ (ih.pages l).get_size = 0 := by omega
    simp only [hc, false_and, hsz0, or_self, if_false, hcast]
    split_ifs <;> rfl

end RMDB

open RMDB RMDB.IxNodeHandle RMDB.IxIndexHandle

namespace RMDB

theorem lower_bound_loop_nonneg (n : IxNodeHandle) (target : Int) :
    ∀ (fuel : Nat) (left right : Int), 0 ≤ left → 0 ≤ lower_bound_loop n target fuel left right := by
  intro fuel
  induction fuel with
  | zero => intro left right h; simpa [lower_bound_loop] using h
  | succ f ih =>
    intro left right h
    simp only [lower_bound_loop]
    split_ifs
    · exact ih _ _ (by omega)
    · exact ih _ _ h
    · exact h

theorem lower_bound_nonneg (n : IxNodeHandle) (target : Int) : 0 ≤ n.lower_bound target :=
  lower_bound_loop_nonneg n target _ 0 _ (le_refl _)

theorem get_key_mem (n : IxNodeHandle) (i : Int) (h0 : 0 ≤ i) (h1 : i < n.get_size) :
    ∃ e ∈ n.pairs, e.1 = n.get_key i := by
  have hlt : i.toNat < n.pairs.length := by unfold get_size at h1; omega
  refine ⟨n.pairs[i.toNat], List.getElem_mem _, ?_⟩
  rw [← get_key_nat n _ hlt]
  congr 1; omega

theorem remove_not_found (n : IxNodeHandle) (key : Int) (h : ∀ e ∈ n.pairs, e.1 ≠ key) :
    n.remove key = (n, n.get_size) := by
  unfold remove
  simp only [ix_compare_eq]
  rw [if_neg]
  rintro ⟨h1, h2⟩
  obtain ⟨e, he, hk⟩ := get_key_mem n _ (lower_bound_nonneg n key) h1
  exact h e he (by rw [hk, h2])

theorem modify_node_self (ih : IxIndexHandle) (p : Int) :
    ih.modify_node p (fun _ => ih.pages p) = ih := by
  unfold modify_node
  simp

theorem same_tree_eq (ih ih2 : IxIndexHandle) (h : same_tree ih ih2) :
    ih2.unlock_page_set = ih.unlock_page_set := by
  obtain ⟨h1, h2, h3, h4⟩ := h
  cases ih; cases ih2
  simp only at h1 h2 h3 h4
  subst h1 h2 h3 h4
  rfl

/-- Delete of a key that the DELETE descent does not find. -/
theorem delete_entry_not_found (fuel : Nat) (ih : IxIndexHandle) (key : Int) (l : Int)
    (he : ih.is_empty = false)
    (hc : ¬ key < (ih.fetch_node ih.file_hdr.first_leaf).get_key 0)
    (hl : leaf_reached ih.pages key Operation.DELETE
      (decide ((ih.fetch_node ih.file_hdr.first_leaf).get_key 0 = key)) fuel
      ih.file_hdr.root_page = some l)
    (hk : ∀ e ∈ (ih.pages l).pairs, e.1 ≠ key) :
    ih.delete_entry fuel key = Except.ok (false, ih.unlock_page_set) := by
  obtain ⟨r2, ih2, hf, hs⟩ := find_leaf_page_write fuel ih key Operation.DELETE _ l hl
  unfold delete_entry
  simp only [he, Bool.false_eq_true, if_false, ix_compare_gt, hc, ix_compare_eq, hf]
  have hp : ih2.pages = ih.pages := hs.1
  simp only [fetch_node, hp, remove_not_found _ key hk]
  rw [if_pos trivial]
  have : ih2.modify_node l (fun _ => ih.pages l) = ih2 := by
    rw [← hp]; exact modify_node_self ih2 l
  rw [this, same_tree_eq ih ih2 hs]

end RMDB

open RMDB RMDB.IxNodeHandle RMDB.IxIndexHandle

namespace RMDB

theorem lookup_of_mem_sorted (E : List (Int × Rid)) (hs : (E.map Prod.fst).Pairwise (· < ·))
    (k : Int) (r : Rid) (hm : (k, r) ∈ E) : E.lookup k = some r := by
  induction E with
  | nil => simp at hm
  | cons a E ih =>
    obtain ⟨a1, a2⟩ := a
    simp only [List.map_cons, List.pairwise_cons] at hs
    rw [List.lookup_cons]
    rcases List.mem_cons.mp hm with h | h
    · cases h
      simp
    · have := hs.1 k (List.mem_map_of_mem Prod.fst h)
      have h1 : (k == a1) = false := by simp; omega
      rw [h1]
      exact ih hs.2 h

theorem lookup_of_not_mem (E : List (Int × Rid)) (k : Int) (hm : ∀ r, (k, r) ∉ E) :
    E.lookup k = none := by
  apply lookup_none
  intro x hx hxk
  exact hm x.2 (by rw [← hxk]; exact hx)


theorem insert_dup (n : IxNodeHandle) (hs : keys_sorted n) (key : Int) (value : Rid)
    (hm : ∃ e ∈ n.pairs, e.1 = key) : n.insert key value = Except.ok (n, n.get_size) := by
  obtain ⟨h0, h1, h2, h3⟩ := lower_bound_spec n hs key
  obtain ⟨e, he, hek⟩ := hm
  obtain ⟨j, hj, hjk, _⟩ := mem_pairs_get n e he
  have hsz : n.get_size = n.pairs.length := rfl
  have hpj : n.lower_bound key ≤ j := by
    by_contra hcon
    have := h2 j (by omega) (by omega)
    omega
  have hle := get_key_le_of_sorted n hs _ _ h0 hpj (by omega)
  have hge := h3 _ (le_refl _) (by omega)
  unfold IxNodeHandle.insert
  dsimp only
  rw [if_neg]
  push_neg
  exact ⟨by omega, (ix_compare_eq _ _).mpr (by omega)⟩

/-- In a valid tree the first leaf is the head of the leaves and its first key
is the smallest stored key. -/
theorem valid_first (ih : IxIndexHandle) (h : Nat) (hv : Valid ih h) :
    ∃ (B : List Int) (e : Int × Rid) (es : List (Int × Rid)),
      tree_leaves ih h = ih.file_hdr.first_leaf :: B ∧
      (ih.pages ih.file_hdr.first_leaf).pairs = e :: es ∧
      (ih.fetch_node ih.file_hdr.first_leaf).get_key 0 = e.1 ∧
      e ∈ tree_entries ih h ∧ ∀ x ∈ tree_entries ih h, e.1 ≤ x.1 := by
  have hfirst : (tree_leaves ih h).head? = some ih.file_hdr.first_leaf := hv.2.2.2.2.2.2.1
  cases hL : tree_leaves ih h with
  | nil => rw [hL] at hfirst; simp at hfirst
  | cons a L =>
    rw [hL] at hfirst
    simp only [List.head?_cons, Option.some.injEq] at hfirst
    rw [← hfirst]
    have ha : a ∈ tree_leaves ih h := by rw [hL]; simp
    obtain ⟨_, hne⟩ := wf_leaf_mem ih.pages h _ _ hv.2.1 a ha
    obtain ⟨e, es, hes⟩ := List.exists_cons_of_ne_nil hne
    have hent := valid_split_entries ih h [] L a hL
    rw [leaves_entries_nil, List.nil_append, hes] at hent
    refine ⟨L, e, es, rfl, hes, (get_key_zero _ e es hes).1, by rw [hent]; simp, ?_⟩
    apply head_le_of_sorted _ (valid_entries_sorted ih h hv)
    rw [hent]; simp

/-- In a valid tree the write descent for a key above the smallest key ends in
the only leaf that can hold the key. -/
theorem descent_write_leaf (ih : IxIndexHandle) (h : Nat) (hv : Valid ih h) (key : Int)
    (op : Operation) (hop : op = Operation.INSERT ∨ op = Operation.DELETE)
    (fuel : Nat) (hf : h ≤ fuel) :
    ∃ l A B, leaf_reached ih.pages key op false fuel ih.file_hdr.root_page = some l ∧
      tree_leaves ih h = A ++ l :: B ∧
      (∀ x ∈ leaves_entries ih.pages A, x.1 < key) ∧
      (∀ x ∈ leaves_entries ih.pages B, key < x.1) ∧
      (∀ r, (key, r) ∈ tree_entries ih h ↔ (key, r) ∈ (ih.pages l).pairs) := by
  obtain ⟨l, A, B, hl, hsplit, hA, hB⟩ := descent_upper ih h hv key op
    (by rcases hop with h | h <;> simp [h]) fuel hf
  refine ⟨l, A, B, hl, hsplit, hA, hB, ?_⟩
  intro r
  rw [valid_split_entries ih h A B l hsplit]
  simp only [List.mem_append]
  constructor
  · rintro (hm | hm | hm)
    · exact absurd (hA _ hm) (lt_irrefl _)
    · exact hm
    · exact absurd (hB _ hm) (lt_irrefl _)
  · intro hm; exact Or.inr (Or.inl hm)

theorem valid_unlock (ih : IxIndexHandle) (h : Nat) (hv : Valid ih h) :
    Valid ih.unlock_page_set h := hv

/-- Insert of a key that the tree already stores. -/
theorem insert_entry_dup (ih : IxIndexHandle) (h fuel : Nat) (key : Int) (r0 r : Rid)
    (hv : Valid ih h) (hf : h ≤ fuel) (hm : (key, r0) ∈ tree_entries ih h) :
    (ih.fetch_node ih.file_hdr.first_leaf).get_key 0 = key ∧
        ih.insert_entry fuel key r = Except.ok (-1, ih) ∨
    (ih.fetch_node ih.file_hdr.first_leaf).get_key 0 ≠ key ∧
        ih.insert_entry fuel key r = Except.ok (-1, ih.unlock_page_set) := by
  obtain ⟨_, e, es, _, _, hk0, _, hmin⟩ := valid_first ih h hv
  have hne := valid_not_empty ih h hv
  by_cases hc : (ih.fetch_node ih.file_hdr.first_leaf).get_key 0 = key
  · left
    refine ⟨hc, ?_⟩
    unfold insert_entry
    simp only [hne, Bool.false_eq_true, if_false, ix_compare_eq, hc, if_true]
  · right
    refine ⟨hc, ?_⟩
    have hlt : (ih.fetch_node ih.file_hdr.first_leaf).get_key 0 < key := by
      have := hmin _ hm
      simp only at this
      omega
    obtain ⟨l, A, B, hl, hsplit, _, _, hiff⟩ :=
      descent_write_leaf ih h hv key Operation.INSERT (Or.inl rfl) fuel hf
    have hff : decide (ix_compare ((ih.fetch_node ih.file_hdr.first_leaf).get_key 0) key > 0)
        = false := by
      have := (ix_compare_gt ((ih.fetch_node ih.file_hdr.first_leaf).get_key 0) key).not.mpr
        (by omega)
      simpa using this
    obtain ⟨r2, ih2, hfl, hs⟩ := find_leaf_page_write fuel ih key Operation.INSERT false l hl
    unfold insert_entry
    simp only [hne, Bool.false_eq_true, if_false, ix_compare_eq, hc, hff, hfl]
    have hp : ih2.pages = ih.pages := hs.1
    have hsl := leaf_sorted_of_split ih h hv A B l hsplit
    simp only [fetch_node, hp, insert_dup _ hsl key r ⟨(key, r0), (hiff r0).mp hm, rfl⟩]
    rw [if_pos trivial]
    have : ih2.modify_node l (fun _ => ih.pages l) = ih2 := by
      rw [← hp]; exact modify_node_self ih2 l
    rw [this, same_tree_eq ih ih2 hs]

/-- Delete of a key that a valid tree does not store. -/
theorem delete_entry_absent (ih : IxIndexHandle) (h fuel : Nat) (key : Int)
    (hv : Valid ih h) (hf : h ≤ fuel) (hm : ∀ r, (key, r) ∉ tree_entries ih h) :
    ih.delete_entry fuel key = Except.ok (false, ih) ∨
      ih.delete_entry fuel key = Except.ok (false, ih.unlock_page_set) := by
  obtain ⟨_, e, es, _, _, hk0, he, hmin⟩ := valid_first ih h hv
  have hne := valid_not_empty ih h hv
  by_cases hc : key < (ih.fetch_node ih.file_hdr.first_leaf).get_key 0
  · left
    unfold delete_entry
    simp only [hne, Bool.false_eq_true, if_false, ix_compare_gt, hc, if_true]
  · right
    have hnk : (ih.fetch_node ih.file_hdr.first_leaf).get_key 0 ≠ key := by
      intro hcon
      rw [hk0] at hcon
      apply hm e.2
      rw [← hcon]
      exact he
    obtain ⟨l, A, B, hl, hsplit, _, _, hiff⟩ :=
      descent_write_leaf ih h hv key Operation.DELETE (Or.inr rfl) fuel hf
    apply delete_entry_not_found fuel ih key l hne hc
    · simp only [hnk, decide_False]; exact hl
    · intro x hx hxk
      apply hm x.2
      rw [hiff]
      rw [← hxk]
      exact hx

end RMDB

open RMDB RMDB.IxNodeHandle RMDB.IxIndexHandle

namespace RMDB

theorem start_or_append_cons (after : Iid) (m : Iid × (Int × Rid))
    (xs ys : List (Iid × (Int × Rid))) :
    start_or after ((m :: xs) ++ ys) = m.1 := rfl

theorem scan_linked_cons (ih : IxIndexHandle) (after : Iid) (m : Iid × (Int × Rid))
    (ps : List (Iid × (Int × Rid))) :
    scan_linked ih after (m :: ps) ↔
      (ih.get_rid m.1 = Except.ok m.2.2 ∧ ih.scan_next m.1 = start_or after ps ∧
        scan_linked ih after ps) := Iff.rfl

theorem start_or_cons (after : Iid) (m : Iid × (Int × Rid)) (ps : List (Iid × (Int × Rid))) :
    start_or after (m :: ps) = m.1 := rfl

theorem start_or_nil (after : Iid) : start_or after [] = after := rfl

theorem node_positions_linked (ih : IxIndexHandle) (l : Int) (after : Iid)
    (rest : List (Iid × (Int × Rid))) (hrest : scan_linked ih after rest)
    (hnext : ih.scan_next ⟨l, (ih.pages l).get_size - 1⟩ = start_or after rest) :
    ∀ (ys xs : List (Int × Rid)) (s : Nat), (ih.pages l).pairs = xs ++ ys → s = xs.length →
      scan_linked ih after (node_positions l s ys ++ rest) := by
  intro ys
  induction ys with
  | nil => intro xs s _ _; simpa [node_positions] using hrest
  | cons e ys ihy =>
    intro xs s hp hs
    have hlen : (ih.pages l).pairs.length = xs.length + (ys.length + 1) := by
      rw [hp]; simp
    have hsz : (ih.pages l).get_size = (ih.pages l).pairs.length := rfl
    rw [node_positions, List.cons_append, scan_linked_cons]
    refine ⟨?_, ?_, ?_⟩
    · unfold IxIndexHandle.get_rid
      simp only [fetch_node]
      rw [if_neg (by rw [hsz, hlen]; push_cast; omega)]
      rw [get_rid_nat _ s (by omega)]
      congr 2
      subst hs
      simp only [hp]
      rw [List.getElem_append_right (le_refl _)]
      simp
    · cases ys with
      | nil =>
        rw [node_positions, List.nil_append, ← hnext]
        congr 2
        rw [hsz, hlen]; push_cast; simp; omega
      | cons e2 ys2 =>
        rw [node_positions, List.cons_append, start_or_cons]
        unfold scan_next
        simp only [fetch_node]
        rw [if_neg]
        · push_cast; rfl
        · rintro ⟨_, h2⟩
          rw [hsz, hlen] at h2
          simp only [List.length_cons] at h2
          push_cast at h2
          omega
    · exact ihy (xs ++ [e]) (s + 1) (by rw [hp]; simp) (by simp [hs])

theorem leaf_positions_linked (ih : IxIndexHandle) (h : Nat) (hv : Valid ih h) :
    ∀ (B A : List Int), tree_leaves ih h = A ++ B →
      scan_linked ih ih.leaf_end (leaf_positions ih.pages B) := by
  intro B
  induction B with
  | nil => intro A _; simp [leaf_positions, scan_linked]
  | cons l B ihb =>
    intro A hs
    have hrest := ihb (A ++ [l]) (by rw [hs]; simp)
    rw [leaf_positions_cons]
    have hne := leaf_ne_of_split ih h hv A B l hs
    have hlen : 0 < (ih.pages l).pairs.length := List.length_pos.mpr hne
    have hsz : (ih.pages l).get_size = (ih.pages l).pairs.length := rfl
    apply node_positions_linked ih l ih.leaf_end _ hrest ?_ (ih.pages l).pairs [] 0 (by simp) rfl
    have hiff := last_leaf_iff ih h hv A B l hs
    unfold scan_next
    simp only [fetch_node, sub_add_cancel, and_true]
    cases B with
    | nil =>
      have hl : l = ih.file_hdr.last_leaf := hiff.mpr rfl
      rw [if_neg (by simpa using hl)]
      simp only [leaf_positions, List.flatMap_nil, start_or_nil, leaf_end, fetch_node]
      rw [← hl]
    | cons b B =>
      have hl : l ≠ ih.file_hdr.last_leaf := fun hc => by simpa using hiff.mp hc
      rw [if_pos hl, next_leaf_eq ih h hv A B l b hs]
      have hb : b ∈ tree_leaves ih h := by rw [hs]; simp
      obtain ⟨_, hbne⟩ := wf_leaf_mem ih.pages h _ _ hv.2.1 b hb
      obtain ⟨e, es, hes⟩ := List.exists_cons_of_ne_nil hbne
      rw [leaf_positions_cons, hes, node_positions, List.cons_append, start_or_cons]
      simp

theorem scan_linked_suffix (ih : IxIndexHandle) (after : Iid) :
    ∀ (P X : List (Iid × (Int × Rid))), scan_linked ih after (P ++ X) → scan_linked ih after X := by
  intro P
  induction P with
  | nil => intro X h; exact h
  | cons m P ihp => intro X h; exact ihp X h.2.2

theorem scan_of_linked (ih : IxIndexHandle) (after : Iid) (R : List (Iid × (Int × Rid))) :
    ∀ (M : List (Iid × (Int × Rid))) (fuel : Nat), scan_linked ih after (M ++ R) →
      (∀ m ∈ M, m.1 ≠ start_or after R) → M.length ≤ fuel →
      scan fuel ih (start_or after (M ++ R)) (start_or after R) =
        Except.ok (M.map (fun m => m.2.2)) := by
  intro M
  induction M with
  | nil =>
    intro fuel _ _ _
    cases fuel <;> simp [scan]
  | cons m M ihm =>
    intro fuel hl hne hf
    obtain ⟨f, rfl⟩ : ∃ f, fuel = f + 1 := ⟨fuel - 1, by simp at hf; omega⟩
    rw [List.cons_append, scan_linked_cons] at hl
    obtain ⟨h1, h2, h3⟩ := hl
    rw [List.cons_append, start_or_cons, scan]
    rw [if_neg (hne m (by simp)), h1]
    simp only
    rw [h2, ihm f h3 (fun x hx => hne x (by simp [hx])) (by simp at hf; omega)]
    simp

end RMDB

open RMDB RMDB.IxNodeHandle RMDB.IxIndexHandle

namespace RMDB

theorem node_positions_ids_nodup (l : Int) :
    ∀ (es : List (Int × Rid)) (s : Nat), ((node_positions l s es).map Prod.fst).Nodup := by
  intro es
  induction es with
  | nil => intro s; simp [node_positions]
  | cons e es ih =>
    intro s
    simp only [node_positions, List.map_cons, List.nodup_cons]
    refine ⟨?_, ih (s + 1)⟩
    intro hmem
    obtain ⟨pe, hpe, heq⟩ := List.mem_map.mp hmem
    obtain ⟨_, _, h3, _⟩ := mem_node_positions l es (s + 1) pe hpe
    rw [heq] at h3
    simp at h3

theorem positions_ids_nodup (pages : Int → IxNodeHandle) :
    ∀ (B : List Int), B.Nodup → ((leaf_positions pages B).map Prod.fst).Nodup := by
  intro B
  induction B with
  | nil => intro _; simp [leaf_positions]
  | cons l B ih =>
    intro hnd
    rw [List.nodup_cons] at hnd
    rw [leaf_positions_cons, List.map_append, List.nodup_append]
    refine ⟨node_positions_ids_nodup l _ 0, ih hnd.2, ?_⟩
    intro x hx hy
    obtain ⟨pe, hpe, heq⟩ := List.mem_map.mp hx
    obtain ⟨pe2, hpe2, heq2⟩ := List.mem_map.mp hy
    obtain ⟨_, h2, _, _⟩ := mem_node_positions l _ 0 pe hpe
    simp only [leaf_positions, List.mem_flatMap] at hpe2
    obtain ⟨l2, hl2, hpe2⟩ := hpe2
    obtain ⟨_, h3, _, _⟩ := mem_node_positions l2 _ 0 pe2 hpe2
    rw [heq] at h2
    rw [heq2] at h3
    rw [h2] at h3
    rw [h3] at hnd
    exact hnd.1 hl2

theorem leaf_end_not_position (ih : IxIndexHandle) (ls : List Int) :
    ∀ pe ∈ leaf_positions ih.pages ls, pe.1 ≠ ih.leaf_end := by
  intro pe hpe heq
  simp only [leaf_positions, List.mem_flatMap] at hpe
  obtain ⟨l, _, hpe⟩ := hpe
  obtain ⟨_, h2, _, h4⟩ := mem_node_positions l _ 0 pe hpe
  rw [heq] at h2 h4
  simp only [leaf_end, fetch_node] at h2 h4
  rw [h2] at h4
  unfold get_size at h4
  simp at h4

theorem node_positions_map_snd (l : Int) :
    ∀ (es : List (Int × Rid)) (s : Nat), (node_positions l s es).map Prod.snd = es := by
  intro es
  induction es with
  | nil => intro s; rfl
  | cons e es ih => intro s; simp [node_positions, ih]

theorem positions_map_snd (pages : Int → IxNodeHandle) :
    ∀ (B : List Int), (leaf_positions pages B).map Prod.snd = leaves_entries pages B := by
  intro B
  induction B with
  | nil => rfl
  | cons l B ih =>
    rw [leaf_positions_cons, leaves_entries_cons, List.map_append, node_positions_map_snd, ih]

theorem find_dropWhile {α : Type} (q : α → Bool) :
    ∀ (l : List α), l.find? q = (l.dropWhile (fun x => !q x)).head? := by
  intro l
  induction l with
  | nil => rfl
  | cons x l ih =>
    rw [List.find?_cons, List.dropWhile_cons]
    cases hq : q x
    · simpa using ih
    · simp

theorem first_position_dropWhile (ih : IxIndexHandle) (h : Nat) (q : Int → Bool) :
    first_position ih h q =
      start_or ih.leaf_end
        ((leaf_positions ih.pages (tree_leaves ih h)).dropWhile (fun pe => !q pe.2.1)) := by
  unfold first_position
  rw [find_dropWhile]
  cases (leaf_positions ih.pages (tree_leaves ih h)).dropWhile (fun pe => !q pe.2.1) <;> rfl

theorem dropWhile_dropWhile {α : Type} (p p2 : α → Bool) (himp : ∀ x, p x = true → p2 x = true) :
    ∀ (l : List α), (l.dropWhile p).dropWhile p2 = l.dropWhile p2 := by
  intro l
  induction l with
  | nil => rfl
  | cons x l ih =>
    cases hp : p x
    · rw [List.dropWhile_cons, hp]; rfl
    · rw [List.dropWhile_cons, hp, List.dropWhile_cons, himp x hp]
      simpa using ih

theorem filter_eq_takeWhile_sorted (b : Int) :
    ∀ (E : List (Int × Rid)), (E.map Prod.fst).Pairwise (· < ·) →
      E.filter (fun e => decide (e.1 ≤ b)) = E.takeWhile (fun e => decide (e.1 ≤ b)) := by
  intro E
  induction E with
  | nil => intro _; rfl
  | cons x E ih =>
    intro hs
    simp only [List.map_cons, List.pairwise_cons] at hs
    by_cases hx : x.1 ≤ b
    · rw [List.filter_cons, List.takeWhile_cons]
      simp only [hx, decide_True, if_true]
      rw [ih hs.2]
    · rw [List.filter_cons, List.takeWhile_cons]
      simp only [hx, decide_False, Bool.false_eq_true, if_false]
      rw [List.filter_eq_nil_iff]
      intro e he
      have := hs.1 e.1 (List.mem_map_of_mem _ he)
      simp; omega

theorem filter_range_sorted (a b : Int) :
    ∀ (E : List (Int × Rid)), (E.map Prod.fst).Pairwise (· < ·) →
      E.filter (fun e => decide (a ≤ e.1 ∧ e.1 ≤ b)) =
        (E.dropWhile (fun e => decide (e.1 < a))).takeWhile (fun e => decide (e.1 ≤ b)) := by
  intro E
  induction E with
  | nil => intro _; rfl
  | cons x E ih =>
    intro hs
    have hs2 := hs
    simp only [List.map_cons, List.pairwise_cons] at hs2
    by_cases hx : x.1 < a
    · rw [List.filter_cons, List.dropWhile_cons]
      have : ¬ (a ≤ x.1 ∧ x.1 ≤ b) := by omega
      simp only [this, decide_False, Bool.false_eq_true, if_false, hx, decide_True, if_true]
      exact ih hs2.2
    · rw [List.dropWhile_cons]
      simp only [hx, decide_False, Bool.false_eq_true, if_false]
      rw [← filter_eq_takeWhile_sorted b _ hs]
      apply List.filter_congr
      intro e he
      have hae : a ≤ e.1 := by
        rcases List.mem_cons.mp he with h | h
        · subst h; omega
        · have := hs2.1 e.1 (List.mem_map_of_mem _ h)
          omega
      simp [hae]

end RMDB

open RMDB RMDB.IxNodeHandle RMDB.IxIndexHandle

namespace RMDB

theorem tree_positions_map_snd (ih : IxIndexHandle) (h : Nat) :
    (leaf_positions ih.pages (tree_leaves ih h)).map Prod.snd = tree_entries ih h :=
  positions_map_snd ih.pages _

/-- On a valid tree, for `a ≤ b`, the scan from `lower_bound a` to
`upper_bound b` yields the rids of the entries with `a ≤ key ≤ b`, in leaf
order. -/
theorem range_scan_valid (ih : IxIndexHandle) (h fuel : Nat) (a b : Int)
    (hv : Valid ih h) (hf : h ≤ fuel) (hab : a ≤ b)
    (hn : ((tree_entries ih h).filter (fun e => decide (a ≤ e.1 ∧ e.1 ≤ b))).length ≤ fuel) :
    range_scan fuel ih a b =
      Except.ok (((tree_entries ih h).filter (fun e => decide (a ≤ e.1 ∧ e.1 ≤ b))).map
        Prod.snd) := by
  have hsorted := valid_entries_sorted ih h hv
  set Pos := leaf_positions ih.pages (tree_leaves ih h) with hPos
  set Da := Pos.dropWhile (fun pe => !decide (a ≤ pe.2.1)) with hDa
  set Db := Pos.dropWhile (fun pe => !decide (b < pe.2.1)) with hDb
  set M := Da.takeWhile (fun pe => !decide (b < pe.2.1)) with hM
  have hDab : Da.dropWhile (fun pe => !decide (b < pe.2.1)) = Db := by
    apply dropWhile_dropWhile
    intro x hx
    simp only [Bool.not_eq_true', decide_eq_false_iff_not, not_le, not_lt] at hx ⊢
    omega
  have hDaM : Da = M ++ Db := by
    rw [← hDab]; exact (List.takeWhile_append_dropWhile _ _).symm
  have hPosT : Pos = Pos.takeWhile (fun pe => !decide (a ≤ pe.2.1)) ++ (M ++ Db) := by
    rw [← hDaM]; exact (List.takeWhile_append_dropWhile _ _).symm
  have hlinked : scan_linked ih ih.leaf_end (M ++ Db) := by
    have := leaf_positions_linked ih h hv (tree_leaves ih h) [] rfl
    rw [← hPos, hPosT] at this
    exact scan_linked_suffix ih _ _ _ this
  have hnd : (Pos.map Prod.fst).Nodup := positions_ids_nodup ih.pages _ (valid_leaves_nodup ih h hv)
  have hdist : ∀ m ∈ M, m.1 ≠ start_or ih.leaf_end Db := by
    intro m hm
    have hmPos : m ∈ Pos := by rw [hPosT]; simp [hm]
    cases hDbc : Db with
    | nil => exact leaf_end_not_position ih _ m hmPos
    | cons d Dt =>
      rw [start_or_cons]
      rw [hPosT, hDbc, List.map_append, List.map_append, List.nodup_append] at hnd
      have h2 := hnd.2.1
      rw [List.nodup_append] at h2
      intro heq
      exact h2.2.2 (List.mem_map_of_mem Prod.fst hm) (by rw [heq]; simp)
  have hMent : M.map Prod.snd =
      (tree_entries ih h).filter (fun e => decide (a ≤ e.1 ∧ e.1 ≤ b)) := by
    rw [filter_range_sorted a b _ hsorted, ← tree_positions_map_snd, ← hPos]
    rw [hM, hDa]
    have h1 : ∀ (l : List (Iid × (Int × Rid))),
        (l.dropWhile (fun pe => !decide (a ≤ pe.2.1))).map Prod.snd =
          (l.map Prod.snd).dropWhile (fun e => decide (e.1 < a)) := by
      intro l
      induction l with
      | nil => rfl
      | cons x l ihl =>
        rw [List.map_cons, List.dropWhile_cons, List.dropWhile_cons]
        by_cases hx : a ≤ x.2.1
        · have : ¬ x.2.1 < a := by omega
          simp [hx, this]
        · have : x.2.1 < a := by omega
          simp [hx, this, ihl]
    have h2 : ∀ (l : List (Iid × (Int × Rid))),
        (l.takeWhile (fun pe => !decide (b < pe.2.1))).map Prod.snd =
          (l.map Prod.snd).takeWhile (fun e => decide (e.1 ≤ b)) := by
      intro l
      induction l with
      | nil => rfl
      | cons x l ihl =>
        rw [List.map_cons, List.takeWhile_cons, List.takeWhile_cons]
        by_cases hx : b < x.2.1
        · have : ¬ x.2.1 ≤ b := by omega
          simp [hx, this]
        · have : x.2.1 ≤ b := by omega
          simp [hx, this, ihl]
    rw [h2, h1]
  have hlen : M.length ≤ fuel := by
    have := congrArg List.length hMent
    rw [List.length_map] at this
    omega
  have hscan := scan_of_linked ih ih.leaf_end Db M fuel hlinked hdist hlen
  unfold range_scan
  rw [lower_bound_valid ih h fuel a hv hf, upper_bound_valid ih h fuel b hv hf]
  simp only
  rw [first_position_dropWhile, first_position_dropWhile, ← hPos, ← hDa, ← hDb, hDaM, hscan]
  congr 1
  rw [← hMent, List.map_map]
  rfl

end RMDB

open RMDB RMDB.IxNodeHandle RMDB.IxIndexHandle

namespace RMDB

/-! ### Writes through node handles -/

theorem modify_node_apply (ih : IxIndexHandle) (p : Int) (f : IxNodeHandle → IxNodeHandle)
    (q : Int) : (ih.modify_node p f).pages q = if q = p then f (ih.pages p) else ih.pages q := by
  simp [modify_node, Function.update_apply]

theorem modify_node_file_hdr (ih : IxIndexHandle) (p : Int) (f : IxNodeHandle → IxNodeHandle) :
    (ih.modify_node p f).file_hdr = ih.file_hdr := rfl

theorem modify_node_next_page_no (ih : IxIndexHandle) (p : Int)
    (f : IxNodeHandle → IxNodeHandle) :
    (ih.modify_node p f).next_page_no = ih.next_page_no := rfl

theorem flatMap_congr_mem {α β : Type} (f g : α → List β) :
    ∀ (l : List α), (∀ x ∈ l, f x = g x) → l.flatMap f = l.flatMap g := by
  intro l
  induction l with
  | nil => intro _; rfl
  | cons x l ih =>
    intro h
    rw [List.flatMap_cons, List.flatMap_cons, h x (by simp), ih (fun y hy => h y (by simp [hy]))]

theorem flatMap_snd {β : Type} (g : Rid → List β) (l : List (Int × Rid)) :
    l.flatMap (fun e => g e.2) = (l.map Prod.snd).flatMap g := by
  induction l with
  | nil => rfl
  | cons x l ih => simp [List.flatMap_cons, ih]

/-! ### Key variants of an arena -/

theorem key_variant_refl (pages : Int → IxNodeHandle) : key_variant pages pages :=
  fun _ => ⟨rfl, rfl, id, fun _ => rfl⟩

theorem key_variant_trans (p0 p1 p2 : Int → IxNodeHandle) (h1 : key_variant p0 p1)
    (h2 : key_variant p1 p2) : key_variant p0 p2 := by
  intro q
  obtain ⟨a1, a2, a3, a4⟩ := h1 q
  obtain ⟨b1, b2, b3, b4⟩ := h2 q
  refine ⟨b1.trans a1, b2.trans a2, fun h => b3 (a3 h), fun h => ?_⟩
  rw [b4 (by rw [a1]; exact h), a4 h]

theorem key_variant_subtree (pages0 pages : Int → IxNodeHandle) (hk : key_variant pages0 pages) :
    ∀ (h : Nat) (t par : Int), wf_subtree pages0 h t par →
      subtree_nodes pages h t = subtree_nodes pages0 h t ∧
      subtree_leaves pages h t = subtree_leaves pages0 h t := by
  intro h
  induction h with
  | zero => intro t par _; exact ⟨rfl, rfl⟩
  | succ h ih =>
    intro t par hw
    obtain ⟨hl, _, _, hch⟩ := hw
    have hr := (hk t).2.2.2 hl
    simp only [subtree_nodes, subtree_leaves]
    rw [flatMap_snd (fun r => subtree_nodes pages h r.page_no),
      flatMap_snd (fun r => subtree_nodes pages0 h r.page_no),
      flatMap_snd (fun r => subtree_leaves pages h r.page_no),
      flatMap_snd (fun r => subtree_leaves pages0 h r.page_no), hr]
    constructor
    · congr 1
      apply flatMap_congr_mem
      intro r hr2
      obtain ⟨e, he, rfl⟩ := List.mem_map.mp hr2
      exact (ih _ _ (hch e he).1).1
    · apply flatMap_congr_mem
      intro r hr2
      obtain ⟨e, he, rfl⟩ := List.mem_map.mp hr2
      exact (ih _ _ (hch e he).1).2

/-- A key variant of a well-formed subtree whose separators all hold is
well-formed. -/
theorem wf_rebuild (pages0 pages : Int → IxNodeHandle) (hk : key_variant pages0 pages) :
    ∀ (h : Nat) (t par : Int), wf_subtree pages0 h t par →
      seps_hold pages (subtree_nodes pages0 h t) none → wf_subtree pages h t par := by
  intro h
  induction h with
  | zero =>
    intro t par hw _
    obtain ⟨a1, a2, a3, _⟩ := hk t
    exact ⟨by rw [a1]; exact hw.1, by rw [a2]; exact hw.2.1, a3 hw.2.2⟩
  | succ h ih =>
    intro t par hw hs
    obtain ⟨a1, a2, a3, a4⟩ := hk t
    obtain ⟨hl, hp, hne, hch⟩ := hw
    refine ⟨by rw [a1]; exact hl, by rw [a2]; exact hp, a3 hne, ?_⟩
    intro e he
    have hmem : e.2 ∈ (pages0 t).pairs.map Prod.snd := by
      rw [← a4 hl]; exact List.mem_map_of_mem _ he
    obtain ⟨e0, he0, heq⟩ := List.mem_map.mp hmem
    constructor
    · rw [← heq]
      apply ih _ _ (hch e0 he0).1
      intro q hq
      apply hs q
      simp only [subtree_nodes, List.mem_cons, List.mem_flatMap]
      exact Or.inr ⟨e0, he0, hq⟩
    · exact hs t (by simp [subtree_nodes]) (by rw [a1]; exact hl) e he (by simp)

/-! ### Navigation in a well-formed subtree -/

theorem mem_subtree_nodes_self (pages : Int → IxNodeHandle) (h : Nat) (t : Int) :
    t ∈ subtree_nodes pages h t := by
  cases h <;> simp [subtree_nodes]

theorem sub_at_self (pages : Int → IxNodeHandle) (h : Nat) (t : Int) : sub_at pages h t h t := by
  cases h with
  | zero => exact ⟨rfl, rfl⟩
  | succ h => exact Or.inl ⟨rfl, rfl⟩

theorem sub_at_le (pages : Int → IxNodeHandle) (hp : Nat) (p : Int) :
    ∀ (h : Nat) (t : Int), sub_at pages hp p h t → hp ≤ h := by
  intro h
  induction h with
  | zero => intro t hs; exact le_of_eq hs.1
  | succ h ih =>
    intro t hs
    rcases hs with ⟨h1, _⟩ | ⟨e, _, h2⟩
    · exact le_of_eq h1
    · exact Nat.le_succ_of_le (ih _ h2)

theorem sub_at_nodes (pages : Int → IxNodeHandle) (hp : Nat) (p : Int) :
    ∀ (h : Nat) (t : Int), sub_at pages hp p h t →
      ∀ q ∈ subtree_nodes pages hp p, q ∈ subtree_nodes pages h t := by
  intro h
  induction h with
  | zero =>
    intro t hs q hq
    obtain ⟨h1, h2⟩ := hs
    subst h1 h2
    exact hq
  | succ h ih =>
    intro t hs q hq
    rcases hs with ⟨h1, h2⟩ | ⟨e, he, h2⟩
    · subst h1 h2; exact hq
    · simp only [subtree_nodes, List.mem_cons, List.mem_flatMap]
      exact Or.inr ⟨e, he, ih _ h2 q hq⟩

theorem sub_at_mem (pages : Int → IxNodeHandle) (hp : Nat) (p : Int) (h : Nat) (t : Int)
    (hs : sub_at pages hp p h t) : p ∈ subtree_nodes pages h t :=
  sub_at_nodes pages hp p h t hs p (mem_subtree_nodes_self pages hp p)

theorem mem_nodes_sub_at (pages : Int → IxNodeHandle) :
    ∀ (h : Nat) (t q : Int), q ∈ subtree_nodes pages h t → ∃ hq, sub_at pages hq q h t := by
  intro h
  induction h with
  | zero =>
    intro t q hq
    simp [subtree_nodes] at hq
    exact ⟨0, rfl, hq.symm⟩
  | succ h ih =>
    intro t q hq
    simp only [subtree_nodes, List.mem_cons, List.mem_flatMap] at hq
    rcases hq with hq | ⟨e, he, hq⟩
    · exact ⟨h + 1, Or.inl ⟨rfl, hq.symm⟩⟩
    · obtain ⟨k, hk⟩ := ih _ q hq
      exact ⟨k, Or.inr ⟨e, he, hk⟩⟩

theorem sub_at_wf (pages : Int → IxNodeHandle) (hp : Nat) (p : Int) :
    ∀ (h : Nat) (t par : Int), wf_subtree pages h t par → sub_at pages hp p h t →
      wf_subtree pages hp p (pages p).parent := by
  intro h
  induction h with
  | zero =>
    intro t par hw hs
    obtain ⟨h1, h2⟩ := hs
    subst h1 h2
    exact ⟨hw.1, rfl, hw.2.2⟩
  | succ h ih =>
    intro t par hw hs
    rcases hs with ⟨h1, h2⟩ | ⟨e, he, h2⟩
    · subst h1 h2
      exact ⟨hw.1, rfl, hw.2.2.1, hw.2.2.2⟩
    · exact ih _ _ (hw.2.2.2 e he).1 h2

/-- A node of a well-formed subtree other than its root has its parent in the
subtree, one level up, and the parent lists it. -/
theorem sub_at_parent (pages : Int → IxNodeHandle) (hp : Nat) (p : Int) :
    ∀ (h : Nat) (t par : Int), wf_subtree pages h t par → sub_at pages hp p h t →
      (hp = h ∧ p = t) ∨
      (sub_at pages (hp + 1) (pages p).parent h t ∧
        ∃ e ∈ (pages (pages p).parent).pairs, e.2.page_no = p) := by
  intro h
  induction h with
  | zero => intro t par _ hs; exact Or.inl ⟨hs.1, hs.2.symm⟩
  | succ h ih =>
    intro t par hw hs
    rcases hs with ⟨h1, h2⟩ | ⟨e, he, h2⟩
    · exact Or.inl ⟨h1, h2.symm⟩
    · right
      have hwc := (hw.2.2.2 e he).1
      rcases ih _ _ hwc h2 with ⟨h3, h4⟩ | ⟨h3, h4⟩
      · subst h3 h4
        have hpar : (pages e.2.page_no).parent = t := by
          cases hp with
          | zero => exact hwc.2.1
          | succ k => exact hwc.2.1
        rw [hpar]
        exact ⟨sub_at_self pages _ t, e, he, rfl⟩
      · exact ⟨Or.inr ⟨e, he, h3⟩, h4⟩

end RMDB

open RMDB RMDB.IxNodeHandle RMDB.IxIndexHandle

namespace RMDB

/-! ### Node operations on a node whose pairs are split around one entry -/

theorem find_child_decomp (n : IxNodeHandle) (P1 P2 : List (Int × Rid)) (e : Int × Rid)
    (c : Int) (hp : n.pairs = P1 ++ e :: P2) (he : e.2.page_no = c)
    (h1 : ∀ x ∈ P1, x.2.page_no ≠ c) : n.find_child c = P1.length := by
  unfold find_child
  rw [hp]
  congr 1
  rw [List.findIdx_append]
  have hno : ∀ x ∈ P1, (fun e : Int × Rid => e.2.page_no == c) x = false := by
    intro x hx
    simpa using h1 x hx
  rw [List.findIdx_eq_length_of_false hno, if_neg (lt_irrefl _), List.findIdx_cons]
  simp [he]

theorem get_key_decomp (n : IxNodeHandle) (P1 P2 : List (Int × Rid)) (e : Int × Rid)
    (hp : n.pairs = P1 ++ e :: P2) : n.get_key P1.length = e.1 := by
  rw [get_key_nat n P1.length (by rw [hp]; simp)]
  simp [hp, List.getElem_append_right]

theorem get_rid_decomp (n : IxNodeHandle) (P1 P2 : List (Int × Rid)) (e : Int × Rid)
    (hp : n.pairs = P1 ++ e :: P2) : n.get_rid P1.length = e.2 := by
  rw [get_rid_nat n P1.length (by rw [hp]; simp)]
  simp [hp, List.getElem_append_right]

theorem modify_decomp {α : Type} (f : α → α) (P1 P2 : List α) (e : α) :
    (P1 ++ e :: P2).modify f P1.length = P1 ++ f e :: P2 := by
  induction P1 with
  | nil => rfl
  | cons x P1 ih =>
    show x :: List.modify f P1.length (P1 ++ e :: P2) = x :: (P1 ++ f e :: P2)
    rw [ih]

theorem set_key_decomp (n : IxNodeHandle) (P1 P2 : List (Int × Rid)) (e : Int × Rid) (k : Int)
    (hp : n.pairs = P1 ++ e :: P2) :
    n.set_key P1.length k = { n with pairs := P1 ++ (k, e.2) :: P2 } := by
  unfold set_key
  rw [if_neg (by omega), hp]
  simp only [Int.toNat_ofNat]
  rw [modify_decomp]

theorem insert_pair_decomp (n : IxNodeHandle) (P1 P2 : List (Int × Rid)) (k : Int) (r : Rid)
    (hp : n.pairs = P1 ++ P2) :
    n.insert_pair P1.length k r = Except.ok { n with pairs := P1 ++ (k, r) :: P2 } := by
  unfold insert_pair insert_pairs
  rw [if_neg (by unfold get_size; rw [hp]; simp)]
  simp only [Int.toNat_ofNat, hp, List.take_left', List.drop_left']
  simp

theorem erase_pair_decomp (n : IxNodeHandle) (P1 P2 : List (Int × Rid)) (e : Int × Rid)
    (hp : n.pairs = P1 ++ e :: P2) :
    n.erase_pair P1.length = { n with pairs := P1 ++ P2 } := by
  unfold erase_pair
  simp only [Int.toNat_ofNat, hp, List.take_left']
  have h2 : (P1 ++ e :: P2).drop (P1.length + 1) = P2 := by
    have : P1.length + 1 = (P1 ++ [e]).length := by simp
    rw [this, show P1 ++ e :: P2 = (P1 ++ [e]) ++ P2 by simp]
    exact List.drop_left' rfl
  rw [h2]

theorem get_key_head (n : IxNodeHandle) (hne : n.pairs ≠ []) :
    (n.pairs.head?).map Prod.fst = some (n.get_key 0) := by
  obtain ⟨e, es, hes⟩ := List.exists_cons_of_ne_nil hne
  rw [(get_key_zero n e es hes).1, hes]
  rfl

/-! ### Children of a node of a tree with distinct pages -/

theorem nodup_map_of_flatMap {α β : Type} (f : α → List β) (g : α → β) :
    ∀ (l : List α), (l.flatMap f).Nodup → (∀ x ∈ l, g x ∈ f x) → (l.map g).Nodup := by
  intro l
  induction l with
  | nil => intro _ _; simp
  | cons x l ih =>
    intro hnd hg
    rw [List.flatMap_cons, List.nodup_append] at hnd
    rw [List.map_cons, List.nodup_cons]
    refine ⟨?_, ih hnd.2.1 (fun y hy => hg y (by simp [hy]))⟩
    intro hmem
    obtain ⟨y, hy, hgy⟩ := List.mem_map.mp hmem
    apply hnd.2.2 (hg x (by simp))
    rw [← hgy]
    exact List.mem_flatMap.mpr ⟨y, hy, hg y (by simp [hy])⟩

theorem children_nodup (pages : Int → IxNodeHandle) (h : Nat) (t : Int)
    (hnd : (subtree_nodes pages (h + 1) t).Nodup) :
    ((pages t).pairs.map (fun e => e.2.page_no)).Nodup := by
  simp only [subtree_nodes, List.nodup_cons] at hnd
  exact nodup_map_of_flatMap _ _ _ hnd.2 (fun e _ => mem_subtree_nodes_self pages h _)

theorem sub_at_nodup (pages : Int → IxNodeHandle) (hp : Nat) (p : Int) :
    ∀ (h : Nat) (t : Int), sub_at pages hp p h t → (subtree_nodes pages h t).Nodup →
      (subtree_nodes pages hp p).Nodup := by
  intro h
  induction h with
  | zero =>
    intro t hs hnd
    obtain ⟨h1, h2⟩ := hs
    subst h1 h2
    exact hnd
  | succ h ih =>
    intro t hs hnd
    rcases hs with ⟨h1, h2⟩ | ⟨e, he, h2⟩
    · subst h1 h2; exact hnd
    · apply ih _ h2
      simp only [subtree_nodes, List.nodup_cons] at hnd
      obtain ⟨P1, P2, hsplit⟩ := List.append_of_mem he
      have := hnd.2
      rw [hsplit, List.flatMap_append, List.flatMap_cons, List.nodup_append] at this
      rw [List.nodup_append] at this
      exact this.2.1.1

/-- An entry of a node with distinct children splits the pairs of the node
around itself, no other entry pointing to the same child. -/
theorem split_at_child (n : IxNodeHandle) (hnd : (n.pairs.map (fun e => e.2.page_no)).Nodup)
    (e : Int × Rid) (he : e ∈ n.pairs) :
    ∃ P1 P2, n.pairs = P1 ++ e :: P2 ∧ (∀ x ∈ P1, x.2.page_no ≠ e.2.page_no) ∧
      (∀ x ∈ P2, x.2.page_no ≠ e.2.page_no) := by
  obtain ⟨P1, P2, hsplit⟩ := List.append_of_mem he
  refine ⟨P1, P2, hsplit, ?_, ?_⟩
  · intro x hx heq
    rw [hsplit, List.map_append, List.map_cons, List.nodup_append] at hnd
    exact hnd.2.2 (List.mem_map_of_mem (fun e => e.2.page_no) hx) (by rw [heq]; simp)
  · intro x hx heq
    rw [hsplit, List.map_append, List.map_cons, List.nodup_append, List.nodup_cons] at hnd
    exact hnd.2.1.1 (by rw [← heq]; exact List.mem_map_of_mem (fun e => e.2.page_no) hx)

/-- A child listed by an internal node of a well-formed subtree points back to
that node. -/
theorem child_parent (pages : Int → IxNodeHandle) (h : Nat) (t par : Int)
    (hw : wf_subtree pages h t par) (q : Int) (hq : q ∈ subtree_nodes pages h t)
    (hl : (pages q).is_leaf = false) (e : Int × Rid) (he : e ∈ (pages q).pairs) :
    (pages e.2.page_no).parent = q ∧ e.2.page_no ∈ subtree_nodes pages h t := by
  obtain ⟨hq2, hs⟩ := mem_nodes_sub_at pages h t q hq
  have hwq := sub_at_wf pages hq2 q h t par hw hs
  cases hq2 with
  | zero => rw [hwq.1] at hl; cases hl
  | succ k =>
    have hc := (hwq.2.2.2 e he).1
    constructor
    · cases k with
      | zero => exact hc.2.1
      | succ k2 => exact hc.2.1
    · apply sub_at_nodes pages (k + 1) q h t hs
      simp only [subtree_nodes, List.mem_cons, List.mem_flatMap]
      exact Or.inr ⟨e, he, mem_subtree_nodes_self pages k _⟩

theorem wf_root_parent (pages : Int → IxNodeHandle) (h : Nat) (t par : Int)
    (hw : wf_subtree pages h t par) : (pages t).parent = par := by
  cases h with
  | zero => exact hw.2.1
  | succ k => exact hw.2.1

theorem wf_is_leaf (pages : Int → IxNodeHandle) (h : Nat) (t par : Int)
    (hw : wf_subtree pages h t par) : (pages t).is_leaf = decide (h = 0) := by
  cases h with
  | zero => simpa using hw.1
  | succ k => simpa using hw.1

theorem wf_ne_nil (pages : Int → IxNodeHandle) (h : Nat) (t par : Int)
    (hw : wf_subtree pages h t par) : (pages t).pairs ≠ [] := by
  cases h with
  | zero => exact hw.2.2
  | succ k => exact hw.2.2.1

end RMDB

open RMDB RMDB.IxNodeHandle RMDB.IxIndexHandle

namespace RMDB

theorem child_ne_self (pages : Int → IxNodeHandle) (k : Nat) (p : Int)
    (hnd : (subtree_nodes pages (k + 1) p).Nodup) (e : Int × Rid) (he : e ∈ (pages p).pairs) :
    e.2.page_no ≠ p := by
  intro heq
  simp only [subtree_nodes, List.nodup_cons] at hnd
  apply hnd.1
  rw [List.mem_flatMap]
  refine ⟨e, he, ?_⟩
  rw [← heq]
  exact mem_subtree_nodes_self pages k _

theorem sub_at_top (pages : Int → IxNodeHandle) (h : Nat) (p t : Int)
    (hs : sub_at pages h p h t) : p = t := by
  cases h with
  | zero => exact hs.2.symm
  | succ k =>
    rcases hs with ⟨_, h2⟩ | ⟨e, _, h2⟩
    · exact h2.symm
    · have := sub_at_le pages (k + 1) p k _ h2
      omega

theorem kv_entry (pages0 P : Int → IxNodeHandle) (hk : key_variant pages0 P) (q : Int)
    (hl : (pages0 q).is_leaf = false) (e : Int × Rid) (he : e ∈ (P q).pairs) :
    ∃ e0 ∈ (pages0 q).pairs, e0.2 = e.2 := by
  have := (hk q).2.2.2 hl
  have hm : e.2 ∈ (P q).pairs.map Prod.snd := List.mem_map_of_mem _ he
  rw [this] at hm
  obtain ⟨e0, h0, h1⟩ := List.mem_map.mp hm
  exact ⟨e0, h0, h1⟩

theorem kv_entry_back (pages0 P : Int → IxNodeHandle) (hk : key_variant pages0 P) (q : Int)
    (hl : (pages0 q).is_leaf = false) (e0 : Int × Rid) (he : e0 ∈ (pages0 q).pairs) :
    ∃ e ∈ (P q).pairs, e.2 = e0.2 := by
  have := (hk q).2.2.2 hl
  have hm : e0.2 ∈ (pages0 q).pairs.map Prod.snd := List.mem_map_of_mem _ he
  rw [← this] at hm
  obtain ⟨e, h0, h1⟩ := List.mem_map.mp hm
  exact ⟨e, h0, h1⟩

theorem kv_children_nodup (pages0 P : Int → IxNodeHandle) (hk : key_variant pages0 P)
    (k : Nat) (t : Int) (hl : (pages0 t).is_leaf = false)
    (hnd : (subtree_nodes pages0 (k + 1) t).Nodup) :
    ((P t).pairs.map (fun e => e.2.page_no)).Nodup := by
  have h1 := children_nodup pages0 k t hnd
  have h2 := (hk t).2.2.2 hl
  have e1 : (P t).pairs.map (fun e => e.2.page_no) =
      ((P t).pairs.map Prod.snd).map Rid.page_no := by simp
  have e2 : (pages0 t).pairs.map (fun e => e.2.page_no) =
      ((pages0 t).pairs.map Prod.snd).map Rid.page_no := by simp
  rw [e1, h2, ← e2]
  exact h1

/-- No entry of a node of the tree points to the root. -/
theorem no_entry_to_root (pages0 : Int → IxNodeHandle) (h : Nat) (root : Int)
    (hw : wf_subtree pages0 h root IX_NO_PAGE)
    (hr : ∀ p ∈ subtree_nodes pages0 h root, 2 ≤ p)
    (q : Int) (hq : q ∈ subtree_nodes pages0 h root) (hl : (pages0 q).is_leaf = false)
    (e : Int × Rid) (he : e ∈ (pages0 q).pairs) : e.2.page_no ≠ root := by
  intro heq
  have h1 := (child_parent pages0 h root _ hw q hq hl e he).1
  rw [heq, wf_root_parent pages0 h root _ hw] at h1
  have := hr q hq
  unfold IX_NO_PAGE at h1
  omega

/-- A node of the tree other than the root has its parent in the tree. -/
theorem parent_ne_no_page (pages0 : Int → IxNodeHandle) (h : Nat) (root : Int)
    (hw : wf_subtree pages0 h root IX_NO_PAGE)
    (hr : ∀ p ∈ subtree_nodes pages0 h root, 2 ≤ p)
    (hc : Nat) (curr : Int) (hs : sub_at pages0 hc curr h root)
    (hpar : (pages0 curr).parent = IX_NO_PAGE) : hc = h ∧ curr = root := by
  rcases sub_at_parent pages0 hc curr h root _ hw hs with h1 | ⟨h1, _⟩
  · exact h1
  · have := hr _ (sub_at_mem pages0 _ _ h root h1)
    rw [hpar] at this
    unfold IX_NO_PAGE at this
    omega

theorem maintain_parent_spec (pages0 : Int → IxNodeHandle) (h : Nat) (root : Int)
    (hw : wf_subtree pages0 h root IX_NO_PAGE)
    (hnd : (subtree_nodes pages0 h root).Nodup)
    (hr : ∀ p ∈ subtree_nodes pages0 h root, 2 ≤ p) :
    ∀ (fuel : Nat) (ih : IxIndexHandle) (hc : Nat) (curr : Int),
      key_variant pages0 ih.pages →
      seps_hold ih.pages (subtree_nodes pages0 h root) (some curr) →
      sub_at pages0 hc curr h root → h ≤ fuel + hc →
      ∃ ih2, maintain_parent fuel ih curr = Except.ok ih2 ∧
        key_variant pages0 ih2.pages ∧
        seps_hold ih2.pages (subtree_nodes pages0 h root) none ∧
        ih2.file_hdr = ih.file_hdr ∧ ih2.next_page_no = ih.next_page_no ∧
        ih2.latch_page_set = ih.latch_page_set ∧
        ih2.deleted_page_set = ih.deleted_page_set ∧
        ∀ q, ((pages0 q).is_leaf = true ∨ q ∉ subtree_nodes pages0 h root →
            ih2.pages q = ih.pages q) ∧
          (ih2.pages q).next_leaf = (ih.pages q).next_leaf ∧
          (ih2.pages q).prev_leaf = (ih.pages q).prev_leaf := by
  intro fuel
  induction fuel with
  | zero =>
    intro ih hc curr hk hsep hs hf
    have hle := sub_at_le pages0 hc curr h root hs
    have hhc : hc = h := by omega
    subst hhc
    have hcr := sub_at_top pages0 hc curr root hs
    subst hcr
    have hp : (ih.pages curr).parent = IX_NO_PAGE := by
      rw [(hk curr).2.1]; exact wf_root_parent pages0 hc curr _ hw
    refine ⟨ih, ?_, hk, ?_, rfl, rfl, rfl, rfl, fun q => ⟨fun _ => rfl, rfl, rfl⟩⟩
    · simp [maintain_parent, fetch_node, hp]
    · intro q hq hl e he _
      apply hsep q hq hl e he
      intro hcon
      have hl0 : (pages0 q).is_leaf = false := by rw [← (hk q).1]; exact hl
      obtain ⟨e0, he0, he02⟩ := kv_entry pages0 ih.pages hk q hl0 e he
      apply no_entry_to_root pages0 hc curr hw hr q hq hl0 e0 he0
      rw [he02]
      exact Option.some.inj hcon
  | succ fuel ihf =>
    intro ih hc curr hk hsep hs hf
    by_cases hp : (ih.pages curr).parent = IX_NO_PAGE
    · have hp0 : (pages0 curr).parent = IX_NO_PAGE := by rw [← (hk curr).2.1]; exact hp
      obtain ⟨h1, h2⟩ := parent_ne_no_page pages0 h root hw hr hc curr hs hp0
      subst h1 h2
      refine ⟨ih, ?_, hk, ?_, rfl, rfl, rfl, rfl, fun q => ⟨fun _ => rfl, rfl, rfl⟩⟩
      · simp [maintain_parent, fetch_node, hp]
      · intro q hq hl e he _
        apply hsep q hq hl e he
        intro hcon
        have hl0 : (pages0 q).is_leaf = false := by rw [← (hk q).1]; exact hl
        obtain ⟨e0, he0, he02⟩ := kv_entry pages0 ih.pages hk q hl0 e he
        apply no_entry_to_root pages0 hc curr hw hr q hq hl0 e0 he0
        rw [he02]
        exact Option.some.inj hcon
    · -- curr is not the root
      have hpeq : (ih.pages curr).parent = (pages0 curr).parent := (hk curr).2.1
      rcases sub_at_parent pages0 hc curr h root _ hw hs with ⟨h1, h2⟩ | ⟨hsp, e0, he0, he0c⟩
      · exfalso
        subst h2
        apply hp
        rw [hpeq]
        exact wf_root_parent pages0 h curr _ hw
      · set par := (pages0 curr).parent with hpar
        have hwp := sub_at_wf pages0 (hc + 1) par h root _ hw hsp
        have hlp0 : (pages0 par).is_leaf = false := hwp.1
        have hndp := sub_at_nodup pages0 (hc + 1) par h root hsp hnd
        have hparmem := sub_at_mem pages0 (hc + 1) par h root hsp
        obtain ⟨e, he, hee⟩ := kv_entry_back pages0 ih.pages hk par hlp0 e0 he0
        have hec : e.2.page_no = curr := by rw [hee]; exact he0c
        have hcn := kv_children_nodup pages0 ih.pages hk hc par hlp0 hndp
        obtain ⟨P1, P2, hsplit, hP1, hP2⟩ := split_at_child (ih.pages par) hcn e he
        rw [hec] at hP1 hP2
        have hfc := find_child_decomp (ih.pages par) P1 P2 e curr hsplit hec hP1
        have hgk := get_key_decomp (ih.pages par) P1 P2 e hsplit
        have hcne : (ih.pages curr).pairs ≠ [] :=
          (hk curr).2.2.1 (wf_ne_nil pages0 hc curr _ (sub_at_wf pages0 hc curr h root _ hw hs))
        have hhead := get_key_head (ih.pages curr) hcne
        have hcurrne : curr ≠ par := by
          rw [← he0c]
          exact child_ne_self pages0 hc par hndp e0 he0
        -- every entry pointing to curr sits in par
        have huniq : ∀ q ∈ subtree_nodes pages0 h root, (pages0 q).is_leaf = false →
            ∀ x ∈ (ih.pages q).pairs, x.2.page_no = curr → q = par := by
          intro q hq hl0 x hx hxc
          obtain ⟨x0, hx0, hx02⟩ := kv_entry pages0 ih.pages hk q hl0 x hx
          have := (child_parent pages0 h root _ hw q hq hl0 x0 hx0).1
          rw [hx02, hxc] at this
          exact this.symm
        by_cases hkey : e.1 = (ih.pages curr).get_key 0
        · refine ⟨ih, ?_, hk, ?_, rfl, rfl, rfl, rfl, fun q => ⟨fun _ => rfl, rfl, rfl⟩⟩
          · unfold maintain_parent
            simp only [fetch_node]
            rw [if_pos hp, hpeq, hfc, hgk, if_pos hkey]
          · intro q hq hl x hx _
            by_cases hxc : x.2.page_no = curr
            · have hl0 : (pages0 q).is_leaf = false := by rw [← (hk q).1]; exact hl
              have hqp := huniq q hq hl0 x hx hxc
              subst hqp
              have hxe : x = e := by
                rw [hsplit] at hx
                rcases List.mem_append.mp hx with h1 | h1
                · exact absurd hxc (hP1 x h1)
                · rcases List.mem_cons.mp h1 with h1 | h1
                  · exact h1
                  · exact absurd hxc (hP2 x h1)
              rw [hxc, hhead, hxe, hkey]
            · apply hsep q hq hl x hx
              intro hcon
              exact hxc (Option.some.inj hcon)
        · -- the parent key is rewritten and the walk continues at the parent
          set ih1 := ih.modify_node par (fun p => p.set_key (P1.length : Int)
            ((ih.pages curr).get_key 0)) with hih1
          have hpg : ∀ q, ih1.pages q = if q = par then
              { ih.pages par with pairs := P1 ++ ((ih.pages curr).get_key 0, e.2) :: P2 }
              else ih.pages q := by
            intro q
            rw [hih1, modify_node_apply, set_key_decomp (ih.pages par) P1 P2 e _ hsplit]
          have hk1 : key_variant pages0 ih1.pages := by
            intro q
            rw [hpg q]
            by_cases hq : q = par
            · subst hq
              rw [if_pos rfl]
              obtain ⟨a1, a2, a3, a4⟩ := hk par
              refine ⟨a1, a2, fun _ => by simp, fun hl => ?_⟩
              rw [← a4 hl, hsplit]
              simp
            · rw [if_neg hq]
              exact hk q
          have hsep1 : seps_hold ih1.pages (subtree_nodes pages0 h root) (some par) := by
            intro q hq hl x hx hxne
            have hxp : x.2.page_no ≠ par := fun hc2 => hxne (by rw [hc2])
            have hl0 : (pages0 q).is_leaf = false := by rw [← (hk1 q).1]; exact hl
            have hlq : (ih.pages q).is_leaf = false := by rw [(hk q).1]; exact hl0
            rw [hpg x.2.page_no, if_neg hxp]
            by_cases hqp : q = par
            · subst hqp
              rw [hpg, if_pos rfl] at hx
              simp only [List.mem_append, List.mem_cons] at hx
              rcases hx with h1 | h1 | h1
              · apply hsep par hq hlq x (by rw [hsplit]; simp [h1])
                intro hcon
                exact hP1 x h1 (Option.some.inj hcon)
              · rw [h1]
                show ((ih.pages e.2.page_no).pairs.head?).map Prod.fst = _
                rw [hec, hhead]
              · apply hsep par hq hlq x (by rw [hsplit]; simp [h1])
                intro hcon
                exact hP2 x h1 (Option.some.inj hcon)
            · rw [hpg, if_neg hqp] at hx
              apply hsep q hq hlq x hx
              intro hcon
              exact hqp (huniq q hq hl0 x hx (Option.some.inj hcon))
          obtain ⟨ih2, hm, hk2, hs2, g1, g2, g3, g4, g5⟩ :=
            ihf ih1 (hc + 1) par hk1 hsep1 hsp (by omega)
          refine ⟨ih2, ?_, hk2, hs2, g1, g2, g3, g4, ?_⟩
          · unfold maintain_parent
            simp only [fetch_node]
            rw [if_pos hp, hpeq, hfc, hgk, if_neg hkey]
            exact hm
          · intro q
            obtain ⟨f1, f2, f3⟩ := g5 q
            refine ⟨fun hq => ?_, ?_, ?_⟩
            · rw [f1 hq, hpg, if_neg]
              rintro rfl
              rcases hq with hq | hq
              · rw [hlp0] at hq; cases hq
              · exact hq hparmem
            · rw [f2, hpg]
              split_ifs with hq
              · rw [hq]
              · rfl
            · rw [f3, hpg]
              split_ifs with hq
              · rw [hq]
              · rfl

end RMDB

open RMDB RMDB.IxNodeHandle RMDB.IxIndexHandle

namespace RMDB

theorem leaf_sub_at (pages : Int → IxNodeHandle) :
    ∀ (h : Nat) (t l : Int), l ∈ subtree_leaves pages h t → sub_at pages 0 l h t := by
  intro h
  induction h with
  | zero =>
    intro t l hl
    simp [subtree_leaves] at hl
    exact ⟨rfl, hl.symm⟩
  | succ h ih =>
    intro t l hl
    simp only [subtree_leaves, List.mem_flatMap] at hl
    obtain ⟨e, he, hl2⟩ := hl
    exact Or.inr ⟨e, he, ih _ _ hl2⟩

theorem wf_seps (pages : Int → IxNodeHandle) (h : Nat) (t par : Int)
    (hw : wf_subtree pages h t par) : seps_hold pages (subtree_nodes pages h t) none := by
  intro q hq hl e he _
  obtain ⟨hq2, hs⟩ := mem_nodes_sub_at pages h t q hq
  have hwq := sub_at_wf pages hq2 q h t par hw hs
  cases hq2 with
  | zero => rw [hwq.1] at hl; cases hl
  | succ k => exact (hwq.2.2.2 e he).2

theorem linked_congr (P Q : Int → IxNodeHandle)
    (hq : ∀ q, (Q q).next_leaf = (P q).next_leaf ∧ (Q q).prev_leaf = (P q).prev_leaf) :
    ∀ (ls : List Int) (a z : Int), linked P a ls z → linked Q a ls z := by
  intro ls
  induction ls with
  | nil =>
    intro a z hl
    exact ⟨by rw [(hq a).1]; exact hl.1, by rw [(hq z).2]; exact hl.2⟩
  | cons b ls ih =>
    intro a z hl
    exact ⟨⟨by rw [(hq a).1]; exact hl.1.1, by rw [(hq b).2]; exact hl.1.2⟩, ih b z hl.2⟩

theorem leaves_entries_congr (P Q : Int → IxNodeHandle) (ls : List Int)
    (hq : ∀ q ∈ ls, (Q q).pairs = (P q).pairs) : leaves_entries Q ls = leaves_entries P ls := by
  unfold leaves_entries
  exact flatMap_congr_mem _ _ ls hq

/-- A leaf of a valid tree gets new pairs and `maintain_parent` runs from it:
the result is a valid tree of the same shape, provided the new pairs keep the
stored keys ascending. -/
theorem leaf_update_valid (ih0 : IxIndexHandle) (h : Nat) (hv : Valid ih0 h)
    (A B : List Int) (l : Int) (hL : tree_leaves ih0 h = A ++ l :: B)
    (np : List (Int × Rid)) (hnp : np ≠ [])
    (hsorted : ((leaves_entries ih0.pages A ++ np ++ leaves_entries ih0.pages B).map
      Prod.fst).Pairwise (· < ·))
    (ih2 : IxIndexHandle)
    (hpages : ih2.pages = Function.update ih0.pages l { ih0.pages l with pairs := np })
    (hhdr : ih2.file_hdr = ih0.file_hdr) (hnext : ih2.next_page_no = ih0.next_page_no)
    (fuel : Nat) (hf : h ≤ fuel) :
    ∃ ih3, maintain_parent fuel ih2 l = Except.ok ih3 ∧ Valid ih3 h ∧
      tree_entries ih3 h = leaves_entries ih0.pages A ++ np ++ leaves_entries ih0.pages B ∧
      tree_leaves ih3 h = tree_leaves ih0 h ∧
      subtree_nodes ih3.pages h ih3.file_hdr.root_page =
        subtree_nodes ih0.pages h ih0.file_hdr.root_page ∧
      ih3.pages l = { ih0.pages l with pairs := np } ∧
      ih3.file_hdr = ih0.file_hdr ∧ ih3.next_page_no = ih0.next_page_no ∧
      ih3.latch_page_set = ih2.latch_page_set ∧
      ih3.deleted_page_set = ih2.deleted_page_set ∧
      (∀ q, q ≠ l → (ih3.pages q).pairs.length = (ih0.pages q).pairs.length) := by
  obtain ⟨hroot, hw, hs, hnd, hr, hring, hfirst, hlast⟩ := hv
  have hlmem : l ∈ subtree_leaves ih0.pages h ih0.file_hdr.root_page := by
    have : l ∈ tree_leaves ih0 h := by rw [hL]; simp
    exact this
  have hlleaf := (wf_leaf_mem ih0.pages h _ _ hw l hlmem).1
  have hsub := leaf_sub_at ih0.pages h _ l hlmem
  have hpg : ∀ q, ih2.pages q = if q = l then { ih0.pages l with pairs := np }
      else ih0.pages q := by
    intro q
    rw [hpages, Function.update_apply]
  have hk : key_variant ih0.pages ih2.pages := by
    intro q
    rw [hpg q]
    by_cases hq : q = l
    · subst hq
      rw [if_pos rfl]
      exact ⟨rfl, rfl, fun _ => hnp, fun hl => by rw [hlleaf] at hl; cases hl⟩
    · rw [if_neg hq]
      exact ⟨rfl, rfl, id, fun _ => rfl⟩
  have hsep : seps_hold ih2.pages (subtree_nodes ih0.pages h ih0.file_hdr.root_page)
      (some l) := by
    intro q hq hl e he hne
    have hel : e.2.page_no ≠ l := fun hc => hne (by rw [hc])
    have hql : q ≠ l := by
      rintro rfl
      rw [(hk q).1, hlleaf] at hl
      cases hl
    rw [hpg, if_neg hel]
    rw [hpg, if_neg hql] at he hl
    exact wf_seps ih0.pages h _ _ hw q hq hl e he (by simp)
  obtain ⟨ih3, hm, hk3, hs3, g1, g2, g3, g4, g5⟩ :=
    maintain_parent_spec ih0.pages h _ hw hnd (fun p hp => (hr p hp).1) fuel ih2 0 l hk hsep
      hsub (by omega)
  have hw3 := wf_rebuild ih0.pages ih3.pages hk3 h _ _ hw hs3
  obtain ⟨hn3, hl3⟩ := key_variant_subtree ih0.pages ih3.pages hk3 h _ _ hw
  have hroot3 : ih3.file_hdr.root_page = ih0.file_hdr.root_page := by rw [g1, hhdr]
  have hnodupL : (A ++ l :: B).Nodup := by
    rw [← hL]
    exact (leaves_sublist_nodes ih0.pages h _).nodup hnd
  have hlA : l ∉ A := by
    intro hc
    have := List.nodup_append.mp hnodupL
    exact this.2.2 hc (by simp)
  have hlB : l ∉ B := by
    have := (List.nodup_append.mp hnodupL).2.1
    exact (List.nodup_cons.mp this).1
  have hleafpg : ∀ q ∈ A ++ l :: B, ih3.pages q = ih2.pages q := by
    intro q hq
    apply (g5 q).1
    left
    apply (wf_leaf_mem ih0.pages h _ _ hw q _).1
    show q ∈ tree_leaves ih0 h
    rw [hL]; exact hq
  have hl3pg : ih3.pages l = { ih0.pages l with pairs := np } := by
    rw [hleafpg l (by simp), hpg, if_pos rfl]
  have hent : tree_entries ih3 h =
      leaves_entries ih0.pages A ++ np ++ leaves_entries ih0.pages B := by
    unfold tree_entries subtree_entries
    rw [hroot3, hl3]
    show leaves_entries ih3.pages (tree_leaves ih0 h) = _
    rw [hL, leaves_entries_append, leaves_entries_cons, hl3pg]
    have e1 : leaves_entries ih3.pages A = leaves_entries ih0.pages A := by
      apply leaves_entries_congr
      intro q hq
      rw [hleafpg q (by simp [hq]), hpg, if_neg]
      rintro rfl; exact hlA hq
    have e2 : leaves_entries ih3.pages B = leaves_entries ih0.pages B := by
      apply leaves_entries_congr
      intro q hq
      rw [hleafpg q (by simp [hq]), hpg, if_neg]
      rintro rfl; exact hlB hq
    rw [e1, e2]
    simp
  refine ⟨ih3, hm, ⟨?_, ?_, ?_, ?_, ?_, ?_, ?_, ?_⟩, hent, ?_, ?_, hl3pg, by rw [g1, hhdr],
    by rw [g2, hnext], g3, g4, ?_⟩
  · rw [hroot3]; exact hroot
  · rw [hroot3]; exact hw3
  · have := hent
    unfold tree_entries at this
    rw [this]; exact hsorted
  · rw [hroot3, hn3]; exact hnd
  · rw [hroot3, hn3, g2, hnext]; exact hr
  · rw [hroot3, hl3]
    apply linked_congr ih0.pages ih3.pages _ _ _ _ hring
    intro q
    obtain ⟨_, f2, f3⟩ := g5 q
    rw [f2, f3, hpg]
    split_ifs with hq
    · rw [hq]; exact ⟨rfl, rfl⟩
    · exact ⟨rfl, rfl⟩
  · rw [hroot3, hl3, g1, hhdr]; exact hfirst
  · rw [hroot3, hl3, g1, hhdr]; exact hlast
  · unfold tree_leaves
    rw [hroot3, hl3]
  · rw [hroot3, hn3]
  · intro q hq
    by_cases hlq : (ih0.pages q).is_leaf = true ∨
        q ∉ subtree_nodes ih0.pages h ih0.file_hdr.root_page
    · rw [(g5 q).1 hlq, hpg, if_neg hq]
    · push_neg at hlq
      have hlf : (ih0.pages q).is_leaf = false := by simpa using hlq.1
      have := congrArg List.length ((hk3 q).2.2.2 hlf)
      simpa using this

end RMDB

open RMDB RMDB.IxNodeHandle RMDB.IxIndexHandle

namespace RMDB

theorem same_content_refl (a : IxNodeHandle) : same_content a a := ⟨rfl, rfl, rfl⟩

theorem nodup_child (P : Int → IxNodeHandle) (h : Nat) (c : Int)
    (hnd : (subtree_nodes P (h + 1) c).Nodup) (e : Int × Rid) (he : e ∈ (P c).pairs) :
    (subtree_nodes P h e.2.page_no).Nodup :=
  sub_at_nodup P h e.2.page_no (h + 1) c (Or.inr ⟨e, he, sub_at_self P h _⟩) hnd

theorem child_nodes_mem (P : Int → IxNodeHandle) (h : Nat) (c : Int) (e : Int × Rid)
    (he : e ∈ (P c).pairs) (y : Int) (hy : y ∈ subtree_nodes P h e.2.page_no) :
    y ∈ subtree_nodes P (h + 1) c := by
  simp only [subtree_nodes, List.mem_cons, List.mem_flatMap]
  exact Or.inr ⟨e, he, hy⟩

theorem child_nodes_ne (P : Int → IxNodeHandle) (h : Nat) (c : Int)
    (hnd : (subtree_nodes P (h + 1) c).Nodup) (e : Int × Rid)
    (he : e ∈ (P c).pairs) (y : Int) (hy : y ∈ subtree_nodes P h e.2.page_no) : y ≠ c := by
  rintro rfl
  simp only [subtree_nodes, List.nodup_cons] at hnd
  exact hnd.1 (List.mem_flatMap.mpr ⟨e, he, hy⟩)

/-- A subtree whose pages keep their content, but for the parent pointer of
its root, is again a well-formed subtree with the same nodes and leaves. -/
theorem wf_reparent (P F : Int → IxNodeHandle) :
    ∀ (h : Nat) (c par par2 : Int), wf_subtree P h c par → (subtree_nodes P h c).Nodup →
      (F c).is_leaf = (P c).is_leaf → (F c).pairs = (P c).pairs → (F c).parent = par2 →
      (∀ x ∈ subtree_nodes P h c, x ≠ c → same_content (F x) (P x)) →
      wf_subtree F h c par2 ∧ subtree_leaves F h c = subtree_leaves P h c ∧
        subtree_nodes F h c = subtree_nodes P h c := by
  intro h
  induction h with
  | zero =>
    intro c par par2 hw _ h1 h2 h3 _
    refine ⟨⟨by rw [h1]; exact hw.1, h3, by rw [h2]; exact hw.2.2⟩, rfl, rfl⟩
  | succ h ih =>
    intro c par par2 hw hnd h1 h2 h3 hsame
    obtain ⟨w1, w2, w3, w4⟩ := hw
    have hch : ∀ e ∈ (P c).pairs, wf_subtree F h e.2.page_no c ∧
        subtree_leaves F h e.2.page_no = subtree_leaves P h e.2.page_no ∧
        subtree_nodes F h e.2.page_no = subtree_nodes P h e.2.page_no ∧
        (F e.2.page_no).pairs = (P e.2.page_no).pairs := by
      intro e he
      have hxc : e.2.page_no ≠ c := child_ne_self P h c hnd e he
      have hsc := hsame e.2.page_no
        (child_nodes_mem P h c e he _ (mem_subtree_nodes_self P h _)) hxc
      obtain ⟨a, b, d⟩ := ih e.2.page_no c c (w4 e he).1 (nodup_child P h c hnd e he) hsc.1
        hsc.2.2 (by rw [hsc.2.1]; exact wf_root_parent P h _ _ (w4 e he).1)
        (fun y hy _ => hsame y (child_nodes_mem P h c e he y hy)
          (child_nodes_ne P h c hnd e he y hy))
      exact ⟨a, b, d, hsc.2.2⟩
    refine ⟨⟨by rw [h1]; exact w1, h3, by rw [h2]; exact w3, ?_⟩, ?_, ?_⟩
    · intro e he
      rw [h2] at he
      obtain ⟨a, _, _, d⟩ := hch e he
      exact ⟨a, by rw [d]; exact (w4 e he).2⟩
    · simp only [subtree_leaves, h2]
      exact flatMap_congr_mem _ _ _ (fun e he => (hch e he).2.1)
    · simp only [subtree_nodes, h2]
      rw [flatMap_congr_mem _ _ _ (fun e he => (hch e he).2.2.1)]

/-- A subtree whose pages keep their content is again a well-formed subtree
with the same nodes and leaves. -/
theorem wf_frame (P F : Int → IxNodeHandle) (h : Nat) (c par : Int)
    (hw : wf_subtree P h c par) (hnd : (subtree_nodes P h c).Nodup)
    (hsame : ∀ x ∈ subtree_nodes P h c, same_content (F x) (P x)) :
    wf_subtree F h c par ∧ subtree_leaves F h c = subtree_leaves P h c ∧
      subtree_nodes F h c = subtree_nodes P h c := by
  have hc := hsame c (mem_subtree_nodes_self P h c)
  exact wf_reparent P F h c par par hw hnd hc.1 hc.2.2
    (by rw [hc.2.1]; exact wf_root_parent P h c par hw) (fun x hx _ => hsame x hx)

theorem flatMap_disjoint_left {α β : Type} (f : α → List β) (P1 P2 : List α) (e : α)
    (hnd : ((P1 ++ e :: P2).flatMap f).Nodup) (x : α) (hx : x ∈ P1 ∨ x ∈ P2) (y : β)
    (hy : y ∈ f x) : y ∉ f e := by
  rw [List.flatMap_append, List.flatMap_cons, List.nodup_append] at hnd
  obtain ⟨_, h2, h3⟩ := hnd
  rw [List.nodup_append] at h2
  intro hye
  rcases hx with hx | hx
  · exact h3 (List.mem_flatMap.mpr ⟨x, hx, hy⟩) (List.mem_append_left _ hye)
  · exact h2.2.2 hye (List.mem_flatMap.mpr ⟨x, hx, hy⟩)

/-- Changes confined to the subtree of a node `q` of a tree, with the parent
pointer and the first key of `q` kept: the tree around `q` stays well formed,
and its leaves and nodes are those of before with the part of `q` replaced. -/
theorem subtree_replace (P F : Int → IxNodeHandle) (hq : Nat) (q : Int)
    (hwq : wf_subtree F hq q (P q).parent)
    (hhead : ((F q).pairs.head?).map Prod.fst = ((P q).pairs.head?).map Prod.fst) :
    ∀ (h : Nat) (t par : Int), sub_at P hq q h t → wf_subtree P h t par →
      (subtree_nodes P h t).Nodup →
      (∀ x ∈ subtree_nodes P h t, x ∉ subtree_nodes P hq q → same_content (F x) (P x)) →
      wf_subtree F h t par ∧
      ((F t).pairs.head?).map Prod.fst = ((P t).pairs.head?).map Prod.fst ∧
      ∃ A B A2 B2, subtree_leaves P h t = A ++ subtree_leaves P hq q ++ B ∧
        subtree_leaves F h t = A ++ subtree_leaves F hq q ++ B ∧
        subtree_nodes P h t = A2 ++ subtree_nodes P hq q ++ B2 ∧
        subtree_nodes F h t = A2 ++ subtree_nodes F hq q ++ B2 ∧
        (∀ x ∈ A ++ B, x ∉ subtree_nodes P hq q) ∧ sub_at F hq q h t := by
  intro h
  induction h with
  | zero =>
    intro t par hs hw _ _
    obtain ⟨h1, h2⟩ := hs
    subst h1 h2
    refine ⟨?_, hhead, [], [], [], [], by simp, by simp, by simp, by simp, by simp,
      sub_at_self F 0 t⟩
    rw [← wf_root_parent P 0 t par hw]
    exact hwq
  | succ h ih =>
    intro t par hs hw hnd hsame
    rcases hs with ⟨h1, h2⟩ | ⟨e, he, hs2⟩
    · subst h1 h2
      refine ⟨?_, hhead, [], [], [], [], by simp, by simp, by simp, by simp, by simp,
        sub_at_self F (h + 1) t⟩
      rw [← wf_root_parent P (h + 1) t par hw]
      exact hwq
    · have hqsub : ∀ y ∈ subtree_nodes P hq q, y ∈ subtree_nodes P h e.2.page_no :=
        sub_at_nodes P hq q h _ hs2
      have htq : t ∉ subtree_nodes P hq q := fun hc =>
        child_nodes_ne P h t hnd e he t (hqsub t hc) rfl
      have hst := hsame t (mem_subtree_nodes_self P (h + 1) t) htq
      obtain ⟨w1, w2, w3, w4⟩ := hw
      obtain ⟨P1, P2, hsplit⟩ := List.append_of_mem he
      have hndf : ((P1 ++ e :: P2).flatMap (fun e => subtree_nodes P h e.2.page_no)).Nodup := by
        have := hnd
        simp only [subtree_nodes, List.nodup_cons] at this
        rw [hsplit] at this
        exact this.2
      have hother : ∀ x, x ∈ P1 ∨ x ∈ P2 →
          wf_subtree F h x.2.page_no t ∧
          subtree_leaves F h x.2.page_no = subtree_leaves P h x.2.page_no ∧
          subtree_nodes F h x.2.page_no = subtree_nodes P h x.2.page_no ∧
          (F x.2.page_no).pairs = (P x.2.page_no).pairs ∧
          ∀ y ∈ subtree_nodes P h x.2.page_no, y ∉ subtree_nodes P hq q := by
        intro x hx
        have hxm : x ∈ (P t).pairs := by
          rw [hsplit]
          rcases hx with hx | hx
          · exact List.mem_append_left _ hx
          · exact List.mem_append_right _ (List.mem_cons_of_mem _ hx)
        have hdis : ∀ y ∈ subtree_nodes P h x.2.page_no, y ∉ subtree_nodes P hq q :=
          fun y hy hc => flatMap_disjoint_left _ P1 P2 e hndf x hx y hy (hqsub y hc)
        have hsx : ∀ y ∈ subtree_nodes P h x.2.page_no, same_content (F y) (P y) :=
          fun y hy => hsame y (child_nodes_mem P h t x hxm y hy) (hdis y hy)
        obtain ⟨a, b, c⟩ := wf_frame P F h x.2.page_no t (w4 x hxm).1
          (nodup_child P h t hnd x hxm) hsx
        exact ⟨a, b, c, (hsx _ (mem_subtree_nodes_self P h _)).2.2, hdis⟩
      obtain ⟨i1, i2, A, B, A2, B2, i3, i4, i5, i6, i7, i8⟩ := ih e.2.page_no t hs2 (w4 e he).1
        (nodup_child P h t hnd e he)
        (fun x hx hxq => hsame x (child_nodes_mem P h t e he x hx) hxq)
      refine ⟨⟨by rw [hst.1]; exact w1, by rw [hst.2.1]; exact w2,
        by rw [hst.2.2]; exact w3, ?_⟩, by rw [hst.2.2], ?_⟩
      · intro x hx
        rw [hst.2.2, hsplit] at hx
        rcases List.mem_append.mp hx with hx | hx
        · obtain ⟨a, _, _, d, _⟩ := hother x (Or.inl hx)
          exact ⟨a, by rw [d]; exact (w4 x (by rw [hsplit]; simp [hx])).2⟩
        · rcases List.mem_cons.mp hx with hx | hx
          · subst hx
            exact ⟨i1, by rw [i2]; exact (w4 x he).2⟩
          · obtain ⟨a, _, _, d, _⟩ := hother x (Or.inr hx)
            exact ⟨a, by rw [d]; exact (w4 x (by rw [hsplit]; simp [hx])).2⟩
      · have hl1 : P1.flatMap (fun e => subtree_leaves F h e.2.page_no) =
            P1.flatMap (fun e => subtree_leaves P h e.2.page_no) :=
          flatMap_congr_mem _ _ _ (fun x hx => (hother x (Or.inl hx)).2.1)
        have hl2 : P2.flatMap (fun e => subtree_leaves F h e.2.page_no) =
            P2.flatMap (fun e => subtree_leaves P h e.2.page_no) :=
          flatMap_congr_mem _ _ _ (fun x hx => (hother x (Or.inr hx)).2.1)
        have hn1 : P1.flatMap (fun e => subtree_nodes F h e.2.page_no) =
            P1.flatMap (fun e => subtree_nodes P h e.2.page_no) :=
          flatMap_congr_mem _ _ _ (fun x hx => (hother x (Or.inl hx)).2.2.1)
        have hn2 : P2.flatMap (fun e => subtree_nodes F h e.2.page_no) =
            P2.flatMap (fun e => subtree_nodes P h e.2.page_no) :=
          flatMap_congr_mem _ _ _ (fun x hx => (hother x (Or.inr hx)).2.2.1)
        refine ⟨P1.flatMap (fun e => subtree_leaves P h e.2.page_no) ++ A,
          B ++ P2.flatMap (fun e => subtree_leaves P h e.2.page_no),
          t :: P1.flatMap (fun e => subtree_nodes P h e.2.page_no) ++ A2,
          B2 ++ P2.flatMap (fun e => subtree_nodes P h e.2.page_no), ?_, ?_, ?_, ?_, ?_,
          Or.inr ⟨e, by rw [hst.2.2]; exact he, i8⟩⟩
        · simp only [subtree_leaves, hsplit, List.flatMap_append, List.flatMap_cons, i3]
          simp
        · simp only [subtree_leaves, hst.2.2, hsplit, List.flatMap_append, List.flatMap_cons,
            i4, hl1, hl2]
          simp
        · simp only [subtree_nodes, hsplit, List.flatMap_append, List.flatMap_cons, i5]
          simp
        · simp only [subtree_nodes, hst.2.2, hsplit, List.flatMap_append, List.flatMap_cons,
            i6, hn1, hn2]
          simp
        · intro x hx
          simp only [List.mem_append, List.mem_flatMap] at hx
          rcases hx with (⟨y, hy, hxy⟩ | hx) | (hx | ⟨y, hy, hxy⟩)
          · exact (hother y (Or.inl hy)).2.2.2.2 x
              ((leaves_sublist_nodes P h _).subset hxy)
          · exact i7 x (by simp [hx])
          · exact i7 x (by simp [hx])
          · exact (hother y (Or.inr hy)).2.2.2.2 x
              ((leaves_sublist_nodes P h _).subset hxy)

end RMDB

open RMDB RMDB.IxNodeHandle RMDB.IxIndexHandle

namespace RMDB

theorem linked_congr_on (P F : Int → IxNodeHandle) :
    ∀ (ls : List Int) (a z : Int), linked P a ls z →
      (F a).next_leaf = (P a).next_leaf →
      (∀ x ∈ ls, (F x).next_leaf = (P x).next_leaf ∧ (F x).prev_leaf = (P x).prev_leaf) →
      (F z).prev_leaf = (P z).prev_leaf → linked F a ls z := by
  intro ls
  induction ls with
  | nil =>
    intro a z hl ha _ hz
    exact ⟨by rw [ha]; exact hl.1, by rw [hz]; exact hl.2⟩
  | cons b ls ih =>
    intro a z hl ha hx hz
    refine ⟨⟨by rw [ha]; exact hl.1.1, by rw [(hx b (by simp)).2]; exact hl.1.2⟩, ?_⟩
    exact ih b z hl.2 (hx b (by simp)).1 (fun x hx2 => hx x (by simp [hx2])) hz

/-- A new leaf `new` is linked into the chain right after the leaf `p`; `D`
holds of the pages whose links are known. -/
theorem linked_insert (P F : Int → IxNodeHandle) (p new : Int) (D : Int → Prop)
    (hpn : (F p).next_leaf = new) (hnp : (F new).prev_leaf = p)
    (hnn : (F new).next_leaf = (P p).next_leaf)
    (hnx : (F (P p).next_leaf).prev_leaf = new)
    (hnext : ∀ x, D x → x ≠ p → x ≠ new → (F x).next_leaf = (P x).next_leaf)
    (hprev : ∀ x, D x → x ≠ new → x ≠ (P p).next_leaf → (F x).prev_leaf = (P x).prev_leaf)
    (z : Int) (hzn : z ≠ new) (hDz : D z) (Y : List Int) :
    ∀ (X : List Int) (a : Int), linked P a (X ++ p :: Y) z → (X ++ p :: Y).Nodup →
      z ∉ X ++ p :: Y → new ∉ X ++ p :: Y → a ≠ p → a ≠ new → D a →
      (∀ x ∈ X ++ p :: Y, D x) →
      linked F a (X ++ p :: new :: Y) z := by
  intro X
  induction X with
  | nil =>
    intro a hl hnd hz hnew hap han hDa hD
    simp only [List.nil_append] at hl hnd hz hnew hD ⊢
    obtain ⟨⟨l1, l2⟩, l3⟩ := hl
    have hpnew : p ≠ new := fun hc => hnew (by simp [hc])
    have hpz : p ≠ z := fun hc => hz (by simp [hc])
    have hDp : D p := hD p (by simp)
    cases Y with
    | nil =>
      obtain ⟨l4, l5⟩ := l3
      have hpx : p ≠ (P p).next_leaf := by rw [l4]; exact hpz
      refine ⟨⟨by rw [hnext a hDa hap han]; exact l1,
        by rw [hprev p hDp hpnew hpx]; exact l2⟩, ⟨hpn, hnp⟩, ?_⟩
      exact ⟨by rw [hnn]; exact l4, by rw [← l4]; exact hnx⟩
    | cons y Y =>
      obtain ⟨⟨l4, l5⟩, l6⟩ := l3
      have hpy : p ≠ y := by
        intro hc
        rw [List.nodup_cons] at hnd
        exact hnd.1 (by simp [hc])
      have hpx : p ≠ (P p).next_leaf := by rw [l4]; exact hpy
      have hnd2 : (y :: Y).Nodup := (List.nodup_cons.mp hnd).2
      refine ⟨⟨by rw [hnext a hDa hap han]; exact l1,
        by rw [hprev p hDp hpnew hpx]; exact l2⟩,
        ⟨hpn, hnp⟩, ⟨by rw [hnn]; exact l4, by rw [← l4]; exact hnx⟩, ?_⟩
      apply linked_congr_on P F Y y z l6
      · apply hnext y (hD y (by simp))
        · exact fun hc => hpy hc.symm
        · exact fun hc => hnew (by simp [hc])
      · intro x hx
        have hxp : x ≠ p := by
          rintro rfl
          exact (List.nodup_cons.mp hnd).1 (by simp [hx])
        have hxn : x ≠ new := fun hc => hnew (by simp [← hc, hx])
        have hxy : x ≠ y := by
          rintro rfl
          exact (List.nodup_cons.mp hnd2).1 hx
        have hDx : D x := hD x (by simp [hx])
        exact ⟨hnext x hDx hxp hxn, hprev x hDx hxn (by rw [l4]; exact hxy)⟩
      · apply hprev z hDz hzn
        rw [l4]
        exact fun hc => hz (by simp [hc])
  | cons x X ih =>
    intro a hl hnd hz hnew hap han hDa hD
    simp only [List.cons_append] at hl hnd hz hnew hD ⊢
    obtain ⟨⟨l1, l2⟩, l3⟩ := hl
    have hnd2 := (List.nodup_cons.mp hnd).2
    have hxnot := (List.nodup_cons.mp hnd).1
    have hxp : x ≠ p := fun hc => hxnot (by simp [hc])
    have hxn : x ≠ new := fun hc => hnew (by simp [hc])
    have hxz : x ≠ z := fun hc => hz (by simp [hc])
    have hDx : D x := hD x (by simp)
    have hnl : (P p).next_leaf = z ∨ (P p).next_leaf ∈ Y := by
      have := linked_split P X x p Y z l3
      cases Y with
      | nil => exact Or.inl this.1
      | cons y Y => exact Or.inr (by rw [this.1.1]; simp)
    have hxx : x ≠ (P p).next_leaf := by
      rcases hnl with h1 | h1
      · rw [h1]; exact hxz
      · intro hc
        exact hxnot (by rw [hc]; simp [h1])
    refine ⟨⟨by rw [hnext a hDa hap han]; exact l1,
      by rw [hprev x hDx hxn hxx]; exact l2⟩, ?_⟩
    exact ih x l3 hnd2 (fun hc => hz (by simp [hc])) (fun hc => hnew (by simp [hc])) hxp hxn
      hDx (fun y hy => hD y (by simp [hy]))

/-! ### The effect of `split` -/

theorem modify_node_comp (ih : IxIndexHandle) (p : Int) (f g : IxNodeHandle → IxNodeHandle) :
    (ih.modify_node p f).modify_node p g = ih.modify_node p (fun n => g (f n)) := by
  unfold modify_node
  simp

theorem erase_fold_modify (node : Int) :
    ∀ (idxs : List Nat) (ih : IxIndexHandle),
      idxs.foldl (fun s idx => s.modify_node node (fun n => n.erase_pair (idx : Nat))) ih =
        ih.modify_node node
          (fun n => idxs.foldl (fun m idx => m.erase_pair (idx : Nat)) n) := by
  intro idxs
  induction idxs with
  | nil =>
    intro ih
    simp only [List.foldl_nil]
    exact (modify_node_self ih node).symm
  | cons i idxs ihx =>
    intro ih
    simp only [List.foldl_cons]
    rw [ihx, modify_node_comp]

theorem take_erase (l : List (Int × Rid)) (idx sp : Nat) (h : sp ≤ idx) :
    (l.take idx ++ l.drop (idx + 1)).take sp = l.take sp := by
  by_cases hl : idx ≤ l.length
  · rw [List.take_append_of_le_length (by simp; omega), List.take_take]
    congr 1
    omega
  · have h1 : l.take idx = l := List.take_of_length_le (by omega)
    have h2 : l.drop (idx + 1) = [] := List.drop_of_length_le (by omega)
    rw [h1, h2]
    simp

theorem erase_fold_take (sp : Nat) :
    ∀ (idxs : List Nat) (n : IxNodeHandle), (∀ i ∈ idxs, sp ≤ i) →
      (idxs.foldl (fun m idx => m.erase_pair (idx : Nat)) n).is_leaf = n.is_leaf ∧
      (idxs.foldl (fun m idx => m.erase_pair (idx : Nat)) n).parent = n.parent ∧
      (idxs.foldl (fun m idx => m.erase_pair (idx : Nat)) n).prev_leaf = n.prev_leaf ∧
      (idxs.foldl (fun m idx => m.erase_pair (idx : Nat)) n).next_leaf = n.next_leaf ∧
      (idxs.foldl (fun m idx => m.erase_pair (idx : Nat)) n).pairs.take sp = n.pairs.take sp := by
  intro idxs
  induction idxs with
  | nil => intro n _; simp
  | cons i idxs ih =>
    intro n hi
    simp only [List.foldl_cons]
    obtain ⟨a, b, c, d, e⟩ := ih (n.erase_pair (i : Nat)) (fun j hj => hi j (by simp [hj]))
    refine ⟨a, b, c, d, ?_⟩
    rw [e]
    unfold erase_pair
    simp only [Int.toNat_ofNat]
    exact take_erase n.pairs i sp (hi i (by simp))

theorem range_map_value_at (n : IxNodeHandle) :
    (List.range n.pairs.length).map (fun i => n.value_at (i : Nat)) =
      n.pairs.map (fun e => e.2.page_no) := by
  apply List.ext_getElem
  · simp
  · intro i h1 h2
    simp only [List.getElem_map, List.getElem_range]
    unfold value_at
    rw [get_rid_nat n i (by simpa using h1)]

theorem maintain_child_fold (new : Int) :
    ∀ (idxs : List Nat) (ih : IxIndexHandle), (ih.pages new).is_leaf = false →
      (∀ i ∈ idxs, (ih.pages new).value_at (i : Nat) ≠ new) →
      (idxs.foldl (fun s i => s.maintain_child new (i : Nat)) ih).pages =
          (fun q => if q ∈ idxs.map (fun i => (ih.pages new).value_at (i : Nat)) then
            { ih.pages q with parent := new } else ih.pages q) ∧
        (idxs.foldl (fun s i => s.maintain_child new (i : Nat)) ih).file_hdr = ih.file_hdr ∧
        (idxs.foldl (fun s i => s.maintain_child new (i : Nat)) ih).next_page_no =
          ih.next_page_no ∧
        (idxs.foldl (fun s i => s.maintain_child new (i : Nat)) ih).latch_page_set =
          ih.latch_page_set ∧
        (idxs.foldl (fun s i => s.maintain_child new (i : Nat)) ih).deleted_page_set =
          ih.deleted_page_set := by
  intro idxs
  induction idxs with
  | nil => intro ih _ _; simp
  | cons i idxs ihx =>
    intro ih hl hne
    simp only [List.foldl_cons]
    have hc := hne i (by simp)
    have hmc : ih.maintain_child new (i : Nat) =
        ih.modify_node ((ih.pages new).value_at (i : Nat)) (fun c => { c with parent := new }) := by
      unfold maintain_child
      simp [fetch_node, hl]
    have hnew : (ih.maintain_child new (i : Nat)).pages new = ih.pages new := by
      rw [hmc, modify_node_apply, if_neg (fun h => hc h.symm)]
    obtain ⟨a, b, c, d, e⟩ := ihx (ih.maintain_child new (i : Nat)) (by rw [hnew]; exact hl)
      (by rw [hnew]; exact fun j hj => hne j (by simp [hj]))
    refine ⟨?_, by rw [b, hmc]; rfl, by rw [c, hmc]; rfl, by rw [d, hmc]; rfl,
      by rw [e, hmc]; rfl⟩
    rw [a, hnew]
    funext q
    rw [hmc, modify_node_apply]
    simp only [List.map_cons, List.mem_cons]
    by_cases h1 : q = (ih.pages new).value_at (i : Nat)
    · simp [h1]
    · simp [h1]

end RMDB

open RMDB RMDB.IxNodeHandle RMDB.IxIndexHandle
namespace RMDB

theorem insert_pairs_zero_empty (n : IxNodeHandle) (hn : n.pairs = []) (kvs : List (Int × Rid)) :
    n.insert_pairs 0 kvs = Except.ok { n with pairs := kvs } := by
  unfold insert_pairs
  simp [get_size, hn]

theorem create_node_pages (ih : IxIndexHandle) (q : Int) :
    ih.create_node.1.pages q = if q = ih.next_page_no then zero_node else ih.pages q := by
  simp [create_node, Function.update_apply]

theorem range_rev_ge (sp n : Nat) : ∀ i ∈ (List.range' sp n).reverse, sp ≤ i := by
  intro i hi
  rw [List.mem_reverse, List.mem_range'] at hi
  obtain ⟨j, _, hj⟩ := hi
  omega

theorem split_leaf_spec (ih0 : IxIndexHandle) (p : Int)
    (hpn : p ≠ ih0.next_page_no) (hl : (ih0.pages p).is_leaf = true)
    (hnx : (ih0.pages p).next_leaf ≠ p ∧ (ih0.pages p).next_leaf ≠ ih0.next_page_no) :
    ∃ ihS, ih0.split p = Except.ok (ihS, ih0.next_page_no) ∧
      ihS.pages = split_pages ih0.pages p ih0.next_page_no
        (get_min_size ih0.file_hdr).toNat ∧
      ihS.file_hdr = { ih0.file_hdr with num_pages := ih0.file_hdr.num_pages + 1 } ∧
      ihS.next_page_no = ih0.next_page_no + 1 ∧
      ihS.latch_page_set = ih0.latch_page_set ∧
      ihS.deleted_page_set = ih0.deleted_page_set := by
  have hnp : ih0.next_page_no ≠ p := fun h => hpn h.symm
  have key : ∀ r, ih0.split p = r → ∃ ihS, r = Except.ok (ihS, ih0.next_page_no) ∧
      ihS.pages = split_pages ih0.pages p ih0.next_page_no
        (get_min_size ih0.file_hdr).toNat ∧
      ihS.file_hdr = { ih0.file_hdr with num_pages := ih0.file_hdr.num_pages + 1 } ∧
      ihS.next_page_no = ih0.next_page_no + 1 ∧
      ihS.latch_page_set = ih0.latch_page_set ∧
      ihS.deleted_page_set = ih0.deleted_page_set := by
    intro r hr
    unfold split at hr
    lift_lets at hr
    extract_lets new_node ih1 sp ih2 ih3 ih4 ih5 ih6 ih7 at hr
    have hnew : new_node = ih0.next_page_no := rfl
    have hsp : sp = get_min_size ih0.file_hdr := rfl
    clear_value new_node
    subst hnew
    have h1 : ∀ q, ih1.pages q = if q = ih0.next_page_no then zero_node else ih0.pages q :=
      create_node_pages ih0
    have h3 : ∀ q, ih3.pages q = if q = ih0.next_page_no then
        { is_leaf := true, parent := (ih0.pages p).parent, prev_leaf := 0, next_leaf := 0,
          pairs := [] }
        else ih0.pages q := by
      intro q
      simp only [ih3, ih2, modify_node_apply, fetch_node, h1, if_neg hpn, if_true, hl]
      split_ifs <;> rfl
    have h6 : ∀ q, ih6.pages q =
        if q = p then { ih0.pages p with next_leaf := ih0.next_page_no }
        else if q = ih0.next_page_no then
          { is_leaf := true, parent := (ih0.pages p).parent, prev_leaf := p,
            next_leaf := (ih0.pages p).next_leaf, pairs := [] }
        else ih0.pages q := by
      intro q
      simp only [ih6, ih5, ih4, modify_node_apply, fetch_node, h3, if_neg hpn, if_true]
      split_ifs <;> rfl
    have e3 : (ih3.fetch_node ih0.next_page_no).is_leaf = true := by
      simp only [fetch_node, h3, if_true]
    have e6n : (ih6.fetch_node ih0.next_page_no).next_leaf = (ih0.pages p).next_leaf := by
      simp only [fetch_node, h6, if_neg hnp, if_true]
    have e7 : ih7 = ih6.modify_node (ih0.pages p).next_leaf
        (fun n => { n with prev_leaf := ih0.next_page_no }) := by
      show (if _ then _ else _) = _
      rw [if_pos e3, e6n]
    have h7 : ∀ q, ih7.pages q =
        if q = (ih0.pages p).next_leaf then { ih0.pages q with prev_leaf := ih0.next_page_no }
        else if q = p then { ih0.pages p with next_leaf := ih0.next_page_no }
        else if q = ih0.next_page_no then
          { is_leaf := true, parent := (ih0.pages p).parent, prev_leaf := p,
            next_leaf := (ih0.pages p).next_leaf, pairs := [] }
        else ih0.pages q := by
      intro q
      rw [e7, modify_node_apply]
      by_cases a : q = (ih0.pages p).next_leaf
      · rw [if_pos a, if_pos a, h6, if_neg hnx.1, if_neg hnx.2, a]
      · rw [if_neg a, if_neg a, h6]
    have hh7 : ih7.file_hdr = { ih0.file_hdr with num_pages := ih0.file_hdr.num_pages + 1 } ∧
        ih7.next_page_no = ih0.next_page_no + 1 ∧
        ih7.latch_page_set = ih0.latch_page_set ∧
        ih7.deleted_page_set = ih0.deleted_page_set := by
      rw [e7]
      exact ⟨rfl, rfl, rfl, rfl⟩
    have e7n : ih7.fetch_node ih0.next_page_no =
        { is_leaf := true, parent := (ih0.pages p).parent, prev_leaf := p,
          next_leaf := (ih0.pages p).next_leaf, pairs := [] } := by
      simp only [fetch_node, h7, if_neg (Ne.symm hnx.2), if_neg hnp, if_true]
    have e7p : ih7.fetch_node p = { ih0.pages p with next_leaf := ih0.next_page_no } := by
      simp only [fetch_node, h7, if_neg (Ne.symm hnx.1), if_true]
    rw [e7n, e7p, insert_pairs_zero_empty _ rfl] at hr
    simp only at hr
    generalize hg8 : ih7.modify_node ih0.next_page_no _ = ih8 at hr
    generalize hg9 : List.foldl _ ih8 _ = ih9 at hr
    generalize hg10 : ih9.modify_node p _ = ih10 at hr
    rw [erase_fold_modify] at hg9
    have e8p : ih8.pages p = { ih0.pages p with next_leaf := ih0.next_page_no } := by
      rw [← hg8, modify_node_apply, if_neg hpn]
      exact e7p
    have h10 : ∀ q, ih10.pages q =
        if q = p then
          { ih0.pages p with next_leaf := ih0.next_page_no,
                             pairs := (ih0.pages p).pairs.take sp.toNat }
        else if q = ih0.next_page_no then
          { is_leaf := true, parent := (ih0.pages p).parent, prev_leaf := p,
            next_leaf := (ih0.pages p).next_leaf, pairs := (ih0.pages p).pairs.drop sp.toNat }
        else ih7.pages q := by
      intro q
      rw [← hg10, modify_node_apply, ← hg9, modify_node_apply, modify_node_apply]
      by_cases hq : q = p
      · rw [if_pos hq, if_pos rfl, if_pos hq]
        generalize hidx : (List.range' sp.toNat _).reverse = idxs
        obtain ⟨a, b, c, d, e⟩ := erase_fold_take sp.toNat idxs (ih8.pages p)
          (by rw [← hidx]; exact range_rev_ge _ _)
        rw [a, b, c, d, e, e8p]
      · rw [if_neg hq, if_neg hq, if_neg hq, ← hg8, modify_node_apply]
    have hh10 : ih10.file_hdr = ih7.file_hdr ∧ ih10.next_page_no = ih7.next_page_no ∧
        ih10.latch_page_set = ih7.latch_page_set ∧
        ih10.deleted_page_set = ih7.deleted_page_set := by
      rw [← hg10, ← hg9, ← hg8]
      exact ⟨rfl, rfl, rfl, rfl⟩
    have e10 : (ih10.fetch_node ih0.next_page_no).is_leaf = true := by
      simp only [fetch_node, h10, if_neg hnp, if_true]
    rw [if_neg (by rw [e10]; simp)] at hr
    refine ⟨ih10, hr.symm, ?_, ?_⟩
    · funext q
      rw [h10, h7]
      unfold split_pages
      rw [← hsp]
      by_cases h1 : q = ih0.next_page_no
      · subst h1
        simp [hl, hnp]
      · by_cases h2 : q = p
        · subst h2
          simp [hl, h1]
        · simp [hl, h1, h2]
    · rw [hh10.1, hh10.2.1, hh10.2.2.1, hh10.2.2.2]
      exact hh7
  exact key _ rfl

theorem split_internal_spec (ih0 : IxIndexHandle) (p : Int)
    (hpn : p ≠ ih0.next_page_no) (hl : (ih0.pages p).is_leaf = false)
    (hch : ∀ e ∈ (ih0.pages p).pairs, e.2.page_no ≠ p ∧ e.2.page_no ≠ ih0.next_page_no) :
    ∃ ihS, ih0.split p = Except.ok (ihS, ih0.next_page_no) ∧
      ihS.pages = split_pages ih0.pages p ih0.next_page_no
        (get_min_size ih0.file_hdr).toNat ∧
      ihS.file_hdr = { ih0.file_hdr with num_pages := ih0.file_hdr.num_pages + 1 } ∧
      ihS.next_page_no = ih0.next_page_no + 1 ∧
      ihS.latch_page_set = ih0.latch_page_set ∧
      ihS.deleted_page_set = ih0.deleted_page_set := by
  have hnp : ih0.next_page_no ≠ p := fun h => hpn h.symm
  have key : ∀ r, ih0.split p = r → ∃ ihS, r = Except.ok (ihS, ih0.next_page_no) ∧
      ihS.pages = split_pages ih0.pages p ih0.next_page_no
        (get_min_size ih0.file_hdr).toNat ∧
      ihS.file_hdr = { ih0.file_hdr with num_pages := ih0.file_hdr.num_pages + 1 } ∧
      ihS.next_page_no = ih0.next_page_no + 1 ∧
      ihS.latch_page_set = ih0.latch_page_set ∧
      ihS.deleted_page_set = ih0.deleted_page_set := by
    intro r hr
    unfold split at hr
    lift_lets at hr
    extract_lets new_node ih1 sp ih2 ih3 ih4 ih5 ih6 ih7 at hr
    have hnew : new_node = ih0.next_page_no := rfl
    have hsp : sp = get_min_size ih0.file_hdr := rfl
    clear_value new_node
    subst hnew
    have h1 : ∀ q, ih1.pages q = if q = ih0.next_page_no then zero_node else ih0.pages q :=
      create_node_pages ih0
    have h3 : ∀ q, ih3.pages q = if q = ih0.next_page_no then
        { is_leaf := false, parent := (ih0.pages p).parent, prev_leaf := 0, next_leaf := 0,
          pairs := [] }
        else ih0.pages q := by
      intro q
      simp only [ih3, ih2, modify_node_apply, fetch_node, h1, if_neg hpn, if_true, hl]
      split_ifs <;> rfl
    have e3 : (ih3.fetch_node ih0.next_page_no).is_leaf = false := by
      simp only [fetch_node, h3, if_true]
    have e7 : ih7 = ih3 := by
      show (if _ then _ else _) = _
      rw [if_neg (by rw [e3]; simp)]
    have hh7 : ih7.file_hdr = { ih0.file_hdr with num_pages := ih0.file_hdr.num_pages + 1 } ∧
        ih7.next_page_no = ih0.next_page_no + 1 ∧
        ih7.latch_page_set = ih0.latch_page_set ∧
        ih7.deleted_page_set = ih0.deleted_page_set := by
      rw [e7]
      exact ⟨rfl, rfl, rfl, rfl⟩
    have e7n : ih7.fetch_node ih0.next_page_no =
        { is_leaf := false, parent := (ih0.pages p).parent, prev_leaf := 0,
          next_leaf := 0, pairs := [] } := by
      simp only [e7, fetch_node, h3, if_true]
    have e7p : ih7.fetch_node p = ih0.pages p := by
      simp only [e7, fetch_node, h3, if_neg hpn]
    rw [e7n, e7p, insert_pairs_zero_empty _ rfl] at hr
    simp only at hr
    generalize hg8 : ih7.modify_node ih0.next_page_no _ = ih8 at hr
    generalize hg9 : List.foldl _ ih8 _ = ih9 at hr
    generalize hg10 : ih9.modify_node p _ = ih10 at hr
    rw [erase_fold_modify] at hg9
    have e8p : ih8.pages p = ih0.pages p := by
      rw [← hg8, modify_node_apply, if_neg hpn]
      exact e7p
    have h10 : ∀ q, ih10.pages q =
        if q = p then { ih0.pages p with pairs := (ih0.pages p).pairs.take sp.toNat }
        else if q = ih0.next_page_no then
          { is_leaf := false, parent := (ih0.pages p).parent, prev_leaf := 0,
            next_leaf := 0, pairs := (ih0.pages p).pairs.drop sp.toNat }
        else ih0.pages q := by
      intro q
      rw [← hg10, modify_node_apply, ← hg9, modify_node_apply, modify_node_apply]
      by_cases hq : q = p
      · rw [if_pos hq, if_pos rfl, if_pos hq]
        generalize hidx : (List.range' sp.toNat _).reverse = idxs
        obtain ⟨a, b, c, d, e⟩ := erase_fold_take sp.toNat idxs (ih8.pages p)
          (by rw [← hidx]; exact range_rev_ge _ _)
        rw [a, b, c, d, e, e8p]
      · rw [if_neg hq, if_neg hq, if_neg hq, ← hg8, modify_node_apply, e7, h3]
        by_cases hq2 : q = ih0.next_page_no <;> simp [hq2]
    have hh10 : ih10.file_hdr = ih7.file_hdr ∧ ih10.next_page_no = ih7.next_page_no ∧
        ih10.latch_page_set = ih7.latch_page_set ∧
        ih10.deleted_page_set = ih7.deleted_page_set := by
      rw [← hg10, ← hg9, ← hg8]
      exact ⟨rfl, rfl, rfl, rfl⟩
    have e10n : ih10.pages ih0.next_page_no =
        { is_leaf := false, parent := (ih0.pages p).parent, prev_leaf := 0,
          next_leaf := 0, pairs := (ih0.pages p).pairs.drop sp.toNat } := by
      rw [h10, if_neg hnp, if_pos rfl]
    have e10 : (ih10.fetch_node ih0.next_page_no).is_leaf = false := by
      simp only [fetch_node, e10n]
    rw [if_pos e10] at hr
    have hmem : ∀ e ∈ (ih0.pages p).pairs.drop sp.toNat,
        e.2.page_no ≠ p ∧ e.2.page_no ≠ ih0.next_page_no :=
      fun e he => hch e (List.mem_of_mem_drop he)
    have hval : ∀ i ∈ List.range (ih10.pages ih0.next_page_no).pairs.length,
        (ih10.pages ih0.next_page_no).value_at (i : Nat) ≠ ih0.next_page_no := by
      intro i hi
      have h1 : (ih10.pages ih0.next_page_no).value_at (i : Nat) ∈
          (List.range (ih10.pages ih0.next_page_no).pairs.length).map
            (fun i => (ih10.pages ih0.next_page_no).value_at (i : Nat)) :=
        List.mem_map.mpr ⟨i, hi, rfl⟩
      rw [range_map_value_at] at h1
      obtain ⟨e, he, hee⟩ := List.mem_map.mp h1
      rw [e10n] at he
      intro hc
      exact (hmem e he).2 (hee.trans hc)
    obtain ⟨f1, f2, f3, f4, f5⟩ := maintain_child_fold ih0.next_page_no
      (List.range (ih10.pages ih0.next_page_no).pairs.length) ih10 e10 hval
    refine ⟨_, hr.symm, ?_, ?_⟩
    · simp only [fetch_node]
      rw [f1, range_map_value_at, e10n]
      funext q
      unfold split_pages
      rw [← hsp]
      simp only [h10]
      by_cases h1 : q = ih0.next_page_no
      · subst h1
        have : ih0.next_page_no ∉ List.map (fun e => e.2.page_no)
            (List.drop sp.toNat (ih0.pages p).pairs) := by
          intro hc
          obtain ⟨e, he, hee⟩ := List.mem_map.mp hc
          exact (hmem e he).2 hee
        rw [List.map_drop] at this
        simp [hl, hnp, this]
      · by_cases h2 : q = p
        · subst h2
          have : q ∉ List.map (fun e => e.2.page_no)
              (List.drop sp.toNat (ih0.pages q).pairs) := by
            intro hc
            obtain ⟨e, he, hee⟩ := List.mem_map.mp hc
            exact (hmem e he).1 hee
          rw [List.map_drop] at this
          simp [hl, h1, this]
        · simp [hl, h1, h2]
    · simp only [fetch_node]
      rw [f2, f3, f4, f5, hh10.1, hh10.2.1, hh10.2.2.1, hh10.2.2.2]
      exact hh7
  exact key _ rfl

theorem split_spec (ih0 : IxIndexHandle) (p : Int)
    (hpn : p ≠ ih0.next_page_no)
    (hnx : (ih0.pages p).is_leaf = true →
      (ih0.pages p).next_leaf ≠ p ∧ (ih0.pages p).next_leaf ≠ ih0.next_page_no)
    (hch : (ih0.pages p).is_leaf = false → ∀ e ∈ (ih0.pages p).pairs,
      e.2.page_no ≠ p ∧ e.2.page_no ≠ ih0.next_page_no) :
    ∃ ihS, ih0.split p = Except.ok (ihS, ih0.next_page_no) ∧
      ihS.pages = split_pages ih0.pages p ih0.next_page_no
        (get_min_size ih0.file_hdr).toNat ∧
      ihS.file_hdr = { ih0.file_hdr with num_pages := ih0.file_hdr.num_pages + 1 } ∧
      ihS.next_page_no = ih0.next_page_no + 1 ∧
      ihS.latch_page_set = ih0.latch_page_set ∧
      ihS.deleted_page_set = ih0.deleted_page_set := by
  by_cases hl : (ih0.pages p).is_leaf = true
  · exact split_leaf_spec ih0 p hpn hl (hnx hl)
  · have hl2 : (ih0.pages p).is_leaf = false := by simpa using hl
    exact split_internal_spec ih0 p hpn hl2 (hch hl2)

end RMDB

open RMDB RMDB.IxNodeHandle RMDB.IxIndexHandle

namespace RMDB

theorem flatMap_nodup_inj {α β : Type} (f : α → List β) :
    ∀ (l : List α), (l.flatMap f).Nodup → ∀ a ∈ l, ∀ b ∈ l, ∀ y, y ∈ f a → y ∈ f b → a = b := by
  intro l
  induction l with
  | nil => intro _ a ha; simp at ha
  | cons x l ih =>
    intro hnd a ha b hb y hya hyb
    rw [List.flatMap_cons, List.nodup_append] at hnd
    obtain ⟨_, h2, h3⟩ := hnd
    rcases List.mem_cons.mp ha with ha | ha <;> rcases List.mem_cons.mp hb with hb | hb
    · rw [ha, hb]
    · rw [ha] at hya
      exact absurd (List.mem_flatMap.mpr ⟨b, hb, hyb⟩) (fun hc => h3 hya hc)
    · rw [hb] at hyb
      exact absurd (List.mem_flatMap.mpr ⟨a, ha, hya⟩) (fun hc => h3 hyb hc)
    · exact ih h2 a ha b hb y hya hyb

/-- The two halves of a split node are well-formed subtrees under the common
parent pointer `par2`; their leaves and nodes are those of the node before the
split, with the new page added. -/
theorem split_halves (P F : Int → IxNodeHandle) (p new par2 : Int) (L R : List (Int × Rid))
    (hp : Nat) (par : Int) (hw : wf_subtree P hp p par)
    (hnd : (subtree_nodes P hp p).Nodup)
    (hpairs : (P p).pairs = L ++ R) (hL : L ≠ []) (hR : R ≠ [])
    (hp1 : (F p).is_leaf = (P p).is_leaf) (hp2 : (F p).pairs = L) (hp3 : (F p).parent = par2)
    (hn1 : (F new).is_leaf = (P p).is_leaf) (hn2 : (F new).pairs = R)
    (hn3 : (F new).parent = par2)
    (hrest : ∀ x ∈ subtree_nodes P hp p, x ≠ p →
      (F x).is_leaf = (P x).is_leaf ∧ (F x).pairs = (P x).pairs ∧
      (F x).parent = if (P p).is_leaf = false ∧ x ∈ R.map (fun e => e.2.page_no) then new
        else (P x).parent) :
    wf_subtree F hp p par2 ∧ wf_subtree F hp new par2 ∧
    subtree_leaves F hp p ++ subtree_leaves F hp new =
      (if hp = 0 then [p, new] else subtree_leaves P hp p) ∧
    (subtree_nodes F hp p ++ subtree_nodes F hp new).Perm (new :: subtree_nodes P hp p) := by
  cases hp with
  | zero =>
    refine ⟨⟨by rw [hp1]; exact hw.1, hp3, by rw [hp2]; exact hL⟩,
      ⟨by rw [hn1]; exact hw.1, hn3, by rw [hn2]; exact hR⟩, by simp [subtree_leaves], ?_⟩
    simp only [subtree_nodes, List.singleton_append]
    exact List.Perm.swap _ _ _
  | succ k =>
    obtain ⟨w1, w2, w3, w4⟩ := hw
    have hndf : ((L ++ R).flatMap (fun e => subtree_nodes P k e.2.page_no)).Nodup := by
      have := hnd
      simp only [subtree_nodes, List.nodup_cons, hpairs] at this
      exact this.2
    have hmemLR : ∀ e, e ∈ L ∨ e ∈ R → e ∈ (P p).pairs := by
      intro e he
      rw [hpairs]
      exact List.mem_append.mpr he
    -- entries of `L` and `R` are different entries
    have hLR : ∀ a ∈ L, ∀ b ∈ R, a ≠ b := by
      intro a ha b hb hab
      subst hab
      rw [List.flatMap_append, List.nodup_append] at hndf
      exact hndf.2.2 (List.mem_flatMap.mpr ⟨a, ha, mem_subtree_nodes_self P k _⟩)
        (List.mem_flatMap.mpr ⟨a, hb, mem_subtree_nodes_self P k _⟩)
    have hchild : ∀ e, e ∈ L ∨ e ∈ R →
        wf_subtree F k e.2.page_no (if e ∈ R then new else p) ∧
        subtree_leaves F k e.2.page_no = subtree_leaves P k e.2.page_no ∧
        subtree_nodes F k e.2.page_no = subtree_nodes P k e.2.page_no ∧
        (F e.2.page_no).pairs = (P e.2.page_no).pairs := by
      intro e he
      have hem := hmemLR e he
      have hec : e.2.page_no ≠ p := child_ne_self P k p hnd e hem
      have hein : e.2.page_no ∈ subtree_nodes P (k + 1) p :=
        child_nodes_mem P k p e hem _ (mem_subtree_nodes_self P k _)
      obtain ⟨r1, r2, r3⟩ := hrest _ hein hec
      have hpar : (F e.2.page_no).parent = if e ∈ R then new else p := by
        rw [r3]
        by_cases heR : e ∈ R
        · rw [if_pos ⟨w1, List.mem_map_of_mem _ heR⟩, if_pos heR]
        · rw [if_neg heR, if_neg]
          · exact wf_root_parent P k _ _ (w4 e hem).1
          · rintro ⟨_, hc⟩
            obtain ⟨b, hb, hbe⟩ := List.mem_map.mp hc
            have hbm := hmemLR b (Or.inr hb)
            have := flatMap_nodup_inj _ _ hndf b (by rw [← hpairs]; exact hbm) e
              (by rw [← hpairs]; exact hem) e.2.page_no
              (by rw [← hbe]; exact mem_subtree_nodes_self P k _)
              (mem_subtree_nodes_self P k _)
            exact heR (this ▸ hb)
      have hdesc : ∀ y ∈ subtree_nodes P k e.2.page_no, y ≠ e.2.page_no →
          same_content (F y) (P y) := by
        intro y hy hye
        have hyin := child_nodes_mem P k p e hem y hy
        have hyp := child_nodes_ne P k p hnd e hem y hy
        obtain ⟨s1, s2, s3⟩ := hrest y hyin hyp
        refine ⟨s1, ?_, s2⟩
        rw [s3, if_neg]
        rintro ⟨_, hc⟩
        obtain ⟨b, hb, hbe⟩ := List.mem_map.mp hc
        have hbm := hmemLR b (Or.inr hb)
        have := flatMap_nodup_inj _ _ hndf b (by rw [← hpairs]; exact hbm) e
          (by rw [← hpairs]; exact hem) y
          (by rw [← hbe]; exact mem_subtree_nodes_self P k _) hy
        exact hye (by rw [← hbe, this])
      obtain ⟨a, b, c⟩ := wf_reparent P F k e.2.page_no p _ (w4 e hem).1
        (nodup_child P k p hnd e hem) r1 r2 hpar hdesc
      exact ⟨a, b, c, r2⟩
    have hLl : L.flatMap (fun e => subtree_leaves F k e.2.page_no) =
        L.flatMap (fun e => subtree_leaves P k e.2.page_no) :=
      flatMap_congr_mem _ _ _ (fun e he => (hchild e (Or.inl he)).2.1)
    have hRl : R.flatMap (fun e => subtree_leaves F k e.2.page_no) =
        R.flatMap (fun e => subtree_leaves P k e.2.page_no) :=
      flatMap_congr_mem _ _ _ (fun e he => (hchild e (Or.inr he)).2.1)
    have hLn : L.flatMap (fun e => subtree_nodes F k e.2.page_no) =
        L.flatMap (fun e => subtree_nodes P k e.2.page_no) :=
      flatMap_congr_mem _ _ _ (fun e he => (hchild e (Or.inl he)).2.2.1)
    have hRn : R.flatMap (fun e => subtree_nodes F k e.2.page_no) =
        R.flatMap (fun e => subtree_nodes P k e.2.page_no) :=
      flatMap_congr_mem _ _ _ (fun e he => (hchild e (Or.inr he)).2.2.1)
    refine ⟨⟨by rw [hp1]; exact w1, hp3, by rw [hp2]; exact hL, ?_⟩,
      ⟨by rw [hn1]; exact w1, hn3, by rw [hn2]; exact hR, ?_⟩, ?_, ?_⟩
    · intro e he
      rw [hp2] at he
      obtain ⟨a, _, _, d⟩ := hchild e (Or.inl he)
      rw [if_neg (fun hc => hLR e he e hc rfl)] at a
      exact ⟨a, by rw [d]; exact (w4 e (hmemLR e (Or.inl he))).2⟩
    · intro e he
      rw [hn2] at he
      obtain ⟨a, _, _, d⟩ := hchild e (Or.inr he)
      rw [if_pos he] at a
      exact ⟨a, by rw [d]; exact (w4 e (hmemLR e (Or.inr he))).2⟩
    · simp only [subtree_leaves, hp2, hn2, hLl, hRl, hpairs, List.flatMap_append]
      simp
    · simp only [subtree_nodes, hp2, hn2, hLn, hRn, hpairs, List.flatMap_append]
      simp only [List.cons_append]
      refine List.Perm.trans ?_ (List.Perm.swap _ _ _)
      apply List.Perm.cons
      exact List.perm_middle

end RMDB

open RMDB RMDB.IxNodeHandle RMDB.IxIndexHandle

namespace RMDB

theorem split_pages_new (P : Int → IxNodeHandle) (p new : Int) (sp : Nat) :
    split_pages P p new sp new =
      { is_leaf := (P p).is_leaf, parent := (P p).parent,
        prev_leaf := if (P p).is_leaf then p else 0,
        next_leaf := if (P p).is_leaf then (P p).next_leaf else 0,
        pairs := (P p).pairs.drop sp } := by
  simp [split_pages]

theorem split_pages_self (P : Int → IxNodeHandle) (p new : Int) (sp : Nat) (hpn : p ≠ new) :
    split_pages P p new sp p =
      { P p with
        pairs := (P p).pairs.take sp
        next_leaf := if (P p).is_leaf then new else (P p).next_leaf } := by
  simp [split_pages, hpn]

theorem split_pages_other (P : Int → IxNodeHandle) (p new : Int) (sp : Nat) (x : Int)
    (hxn : x ≠ new) (hxp : x ≠ p) :
    (split_pages P p new sp x).is_leaf = (P x).is_leaf ∧
    (split_pages P p new sp x).pairs = (P x).pairs ∧
    (split_pages P p new sp x).parent =
      (if (P p).is_leaf = false ∧ x ∈ ((P p).pairs.drop sp).map (fun e => e.2.page_no) then new
        else (P x).parent) ∧
    (split_pages P p new sp x).next_leaf = (P x).next_leaf ∧
    (split_pages P p new sp x).prev_leaf =
      (if (P p).is_leaf = true ∧ x = (P p).next_leaf then new else (P x).prev_leaf) := by
  unfold split_pages
  rw [if_neg hxn, if_neg hxp]
  by_cases hl : (P p).is_leaf = true
  · rw [if_pos hl]
    by_cases hx : x = (P p).next_leaf
    · rw [if_pos hx]
      simp [hl, ← hx]
    · rw [if_neg hx]
      simp [hl, hx]
  · rw [if_neg hl]
    have hl2 : (P p).is_leaf = false := by simpa using hl
    by_cases hx : x ∈ ((P p).pairs.drop sp).map (fun e => e.2.page_no)
    · rw [if_pos hx]
      simp only [hl2, true_and, if_pos hx]
      simp
    · rw [if_neg hx]
      simp only [hl2, true_and, if_neg hx]
      simp

theorem head_take {α : Type} (l : List α) (n : Nat) (hn : 1 ≤ n) : (l.take n).head? = l.head? := by
  cases l with
  | nil => simp
  | cons a l =>
    obtain ⟨m, rfl⟩ : ∃ m, n = m + 1 := ⟨n - 1, by omega⟩
    simp

/-- In a tree with a leaf ring the successor of a leaf is another leaf or the
sentinel page. -/
theorem ring_next (P : Int → IxNodeHandle) (ls : List Int) (hring : leaf_ring P ls)
    (hnd : ls.Nodup) (l : Int) (hl : l ∈ ls) (h1 : IX_LEAF_HEADER_PAGE ∉ ls) :
    (P l).next_leaf ≠ l ∧ ((P l).next_leaf = IX_LEAF_HEADER_PAGE ∨ (P l).next_leaf ∈ ls) := by
  obtain ⟨A, B, hsplit⟩ := List.append_of_mem hl
  subst hsplit
  have := linked_split P A IX_LEAF_HEADER_PAGE l B IX_LEAF_HEADER_PAGE hring
  cases B with
  | nil =>
    rw [this.1]
    exact ⟨fun hc => h1 (by rw [hc]; simp), Or.inl rfl⟩
  | cons b B =>
    rw [this.1.1]
    refine ⟨?_, Or.inr (by simp)⟩
    rintro rfl
    have := (List.nodup_append.mp hnd).2.1
    simp at this

/-- The leaves after a split: entries, ring and first leaf. -/
theorem split_leaves_ok (P F : Int → IxNodeHandle) (p new : Int) (sp : Nat) (hp : Nat)
    (lvP lvF : List Int)
    (hcase : (hp = 0 ∧ ∃ X Y, lvP = X ++ p :: Y ∧ lvF = X ++ p :: new :: Y) ∨
      (hp ≠ 0 ∧ lvF = lvP))
    (hleafp : (P p).is_leaf = decide (hp = 0))
    (hleaves : ∀ x ∈ lvP, (P x).is_leaf = true)
    (hnd : lvP.Nodup) (h1 : IX_LEAF_HEADER_PAGE ∉ lvP) (hnew : new ∉ lvP)
    (hnew1 : new ≠ IX_LEAF_HEADER_PAGE) (hp1 : p ≠ IX_LEAF_HEADER_PAGE) (hpn : p ≠ new)
    (hring : leaf_ring P lvP)
    (hF : ∀ x, x ∈ lvP ∨ x = new ∨ x = IX_LEAF_HEADER_PAGE →
      (F x).pairs = (split_pages P p new sp x).pairs ∧
      (F x).next_leaf = (split_pages P p new sp x).next_leaf ∧
      (F x).prev_leaf = (split_pages P p new sp x).prev_leaf) :
    leaves_entries F lvF = leaves_entries P lvP ∧ leaf_ring F lvF ∧ lvF.head? = lvP.head? := by
  rcases hcase with ⟨h0, X, Y, hX, hY⟩ | ⟨h0, hsame⟩
  · subst h0
    have hlp : (P p).is_leaf = true := by simpa using hleafp
    have hpin : p ∈ lvP := by rw [hX]; simp
    obtain ⟨hn1, hn2⟩ := ring_next P lvP hring hnd p hpin h1
    have hnxn : (P p).next_leaf ≠ new := by
      rcases hn2 with h | h
      · rw [h]; exact fun hc => hnew1 hc.symm
      · exact fun hc => hnew (hc ▸ h)
    have hother : ∀ x, x ≠ p → x ∈ lvP ∨ x = IX_LEAF_HEADER_PAGE →
        (F x).pairs = (P x).pairs ∧ (F x).next_leaf = (P x).next_leaf ∧
        (F x).prev_leaf = (if x = (P p).next_leaf then new else (P x).prev_leaf) := by
      intro x hxp hx
      have hxn : x ≠ new := by
        rcases hx with hx | hx
        · exact fun hc => hnew (hc ▸ hx)
        · rw [hx]; exact fun hc => hnew1 hc.symm
      obtain ⟨a, b, c⟩ := hF x (by tauto)
      obtain ⟨_, s2, _, s4, s5⟩ := split_pages_other P p new sp x hxn hxp
      rw [a, b, c, s2, s4, s5]
      simp [hlp]
    obtain ⟨pa, pb, pc⟩ := hF p (Or.inl hpin)
    obtain ⟨na, nb, nc⟩ := hF new (Or.inr (Or.inl rfl))
    rw [split_pages_self P p new sp hpn] at pa pb pc
    rw [split_pages_new] at na nb nc
    simp only [hlp, if_true] at pa pb pc na nb nc
    subst hX hY
    have hXY : ∀ x, x ∈ X ∨ x ∈ Y → x ≠ p ∧ x ∈ X ++ p :: Y := by
      intro x hx
      constructor
      · rintro rfl
        have h2 := List.nodup_append.mp hnd
        rcases hx with hx | hx
        · exact h2.2.2 hx (by simp)
        · exact (List.nodup_cons.mp h2.2.1).1 hx
      · rcases hx with hx | hx <;> simp [hx]
    refine ⟨?_, ?_, ?_⟩
    · simp only [leaves_entries_append, leaves_entries_cons, pa, na]
      have e1 : leaves_entries F X = leaves_entries P X :=
        leaves_entries_congr P F X
          (fun q hq => (hother q (hXY q (Or.inl hq)).1 (Or.inl (hXY q (Or.inl hq)).2)).1)
      have e2 : leaves_entries F Y = leaves_entries P Y :=
        leaves_entries_congr P F Y
          (fun q hq => (hother q (hXY q (Or.inr hq)).1 (Or.inl (hXY q (Or.inr hq)).2)).1)
      rw [e1, e2, ← List.append_assoc ((P p).pairs.take sp), List.take_append_drop]
    · unfold leaf_ring at hring ⊢
      have hm : (P p).next_leaf ∈ X ++ p :: Y ∨ (P p).next_leaf = IX_LEAF_HEADER_PAGE := by
        tauto
      apply linked_insert P F p new (fun x => x ∈ X ++ p :: Y ∨ x = IX_LEAF_HEADER_PAGE)
        pb nc nb ?_ ?_ ?_ IX_LEAF_HEADER_PAGE
        (fun hc => hnew1 hc.symm) (Or.inr rfl) Y X IX_LEAF_HEADER_PAGE hring hnd h1 hnew
        (fun hc => hp1 hc.symm) (fun hc => hnew1 hc.symm) (Or.inr rfl) (fun x hx => Or.inl hx)
      · rw [(hother _ hn1 hm).2.2, if_pos rfl]
      · intro x hx hxp _
        exact (hother x hxp hx).2.1
      · intro x hx hxn hxx
        by_cases hxp : x = p
        · rw [hxp, pc]
        · rw [(hother x hxp hx).2.2, if_neg hxx]
    · cases X <;> simp
  · subst hsame
    have hlp : (P p).is_leaf = false := by rw [hleafp]; simp [h0]
    have hpl : p ∉ lvF := by
      intro hc
      rw [hleaves p hc] at hlp
      cases hlp
    have hother : ∀ x, x ∈ lvF ∨ x = IX_LEAF_HEADER_PAGE →
        (F x).pairs = (P x).pairs ∧ (F x).next_leaf = (P x).next_leaf ∧
        (F x).prev_leaf = (P x).prev_leaf := by
      intro x hx
      have hxn : x ≠ new := by
        rcases hx with hx | hx
        · exact fun hc => hnew (hc ▸ hx)
        · rw [hx]; exact fun hc => hnew1 hc.symm
      have hxp : x ≠ p := by
        rcases hx with hx | hx
        · exact fun hc => hpl (hc ▸ hx)
        · rw [hx]; exact fun hc => hp1 hc.symm
      obtain ⟨a, b, c⟩ := hF x (by tauto)
      obtain ⟨_, s2, _, s4, s5⟩ := split_pages_other P p new sp x hxn hxp
      rw [a, b, c, s2, s4, s5]
      simp [hlp]
    refine ⟨leaves_entries_congr P F lvF (fun q hq => (hother q (Or.inl hq)).1), ?_, rfl⟩
    unfold leaf_ring at hring ⊢
    exact linked_congr_on P F lvF _ _ hring (hother _ (Or.inr rfl)).2.1
      (fun x hx => (hother x (Or.inl hx)).2) (hother _ (Or.inr rfl)).2.2

end RMDB

open RMDB RMDB.IxNodeHandle RMDB.IxIndexHandle

namespace RMDB

theorem perm_ctx {α : Type} (A B NF NP : List α) (x : α) (h : NF.Perm (x :: NP)) :
    (A ++ NF ++ B).Perm (x :: (A ++ NP ++ B)) := by
  have h1 : (A ++ NF ++ B).Perm (A ++ (x :: NP) ++ B) :=
    List.Perm.append_right B (List.Perm.append_left A h)
  refine h1.trans ?_
  have : A ++ x :: NP ++ B = A ++ x :: (NP ++ B) := by simp
  rw [this, List.append_assoc]
  exact List.perm_middle

theorem rchild_mem_nodes (P : Int → IxNodeHandle) (hp : Nat) (p par : Int)
    (hw : wf_subtree P hp p par) (hl : (P p).is_leaf = false) (sp : Nat) (x : Int)
    (hx : x ∈ ((P p).pairs.drop sp).map (fun e => e.2.page_no)) :
    x ∈ subtree_nodes P hp p := by
  cases hp with
  | zero => rw [hw.1] at hl; cases hl
  | succ k =>
    obtain ⟨e, he, hee⟩ := List.mem_map.mp hx
    rw [← hee]
    exact child_nodes_mem P k p e (List.mem_of_mem_drop he) _ (mem_subtree_nodes_self P k _)

/-- Outside the subtree of the split node, and away from the new page, the
split leaves the content of every page as it was. -/
theorem split_pages_outside (P : Int → IxNodeHandle) (hp : Nat) (p par new : Int) (sp : Nat)
    (hw : wf_subtree P hp p par) (x : Int) (hxn : x ≠ new)
    (hx : x ∉ subtree_nodes P hp p) :
    same_content (split_pages P p new sp x) (P x) := by
  have hxp : x ≠ p := fun hc => hx (hc ▸ mem_subtree_nodes_self P hp p)
  obtain ⟨s1, s2, s3, _, _⟩ := split_pages_other P p new sp x hxn hxp
  refine ⟨s1, ?_, s2⟩
  rw [s3, if_neg]
  rintro ⟨hl, hc⟩
  exact hx (rchild_mem_nodes P hp p par hw hl sp x hc)

theorem take_ne_nil {α : Type} (l : List α) (n : Nat) (h1 : 1 ≤ n) (h2 : n < l.length) :
    l.take n ≠ [] ∧ l.drop n ≠ [] := by
  constructor
  · intro hc
    have := congrArg List.length hc
    rw [List.length_take] at this
    simp only [List.length_nil] at this
    omega
  · intro hc
    have := congrArg List.length hc
    rw [List.length_drop] at this
    simp only [List.length_nil] at this
    omega

/-- Split of a node other than the root, followed by the insertion of the new
sibling into the parent: the tree stays valid in shape, with the same
entries. -/
theorem split_link_nonroot (ih ih2 : IxIndexHandle) (h : Nat) (hv : valid_shape ih h)
    (hp : Nat) (p : Int) (hs : sub_at ih.pages hp p h ih.file_hdr.root_page)
    (hnr : (ih.pages p).parent ≠ IX_NO_PAGE)
    (sp : Nat) (hsp1 : 1 ≤ sp) (hsp2 : sp < (ih.pages p).pairs.length)
    (P1 P2 : List (Int × Rid)) (e : Int × Rid)
    (hpar : (ih.pages (ih.pages p).parent).pairs = P1 ++ e :: P2) (hep : e.2.page_no = p)
    (key : Int) (hkey : (((ih.pages p).pairs.drop sp).head?).map Prod.fst = some key)
    (hF : ∀ x, ih2.pages x = if x = (ih.pages p).parent then
        { split_pages ih.pages p ih.next_page_no sp x with
          pairs := P1 ++ e :: (key, ⟨ih.next_page_no, 0⟩) :: P2 }
        else split_pages ih.pages p ih.next_page_no sp x)
    (hroot : ih2.file_hdr.root_page = ih.file_hdr.root_page)
    (hfirst : ih2.file_hdr.first_leaf = ih.file_hdr.first_leaf)
    (hnext : ih2.next_page_no = ih.next_page_no + 1) :
    valid_shape ih2 h ∧ tree_entries ih2 h = tree_entries ih h ∧
      ((hp = 0 ∧ ∃ X Y, tree_leaves ih h = X ++ p :: Y ∧
          tree_leaves ih2 h = X ++ p :: ih.next_page_no :: Y) ∨
        (hp ≠ 0 ∧ tree_leaves ih2 h = tree_leaves ih h)) ∧
      sub_at ih2.pages (hp + 1) (ih.pages p).parent h ih2.file_hdr.root_page ∧
      (subtree_nodes ih2.pages h ih2.file_hdr.root_page).Perm
        (ih.next_page_no :: subtree_nodes ih.pages h ih.file_hdr.root_page) := by
  obtain ⟨hrootne, hw, hsorted, hnd, hrange, hring, hfirstl⟩ := hv
  generalize hP : ih.pages = P at *
  generalize hFF : ih2.pages = F at *
  generalize hnew : ih.next_page_no = new at *
  generalize hrt : ih.file_hdr.root_page = root at *
  generalize hpr : (P p).parent = par at *
  have hpmem := sub_at_mem P hp p h root hs
  have hp_ge := hrange p hpmem
  have hpn : p ≠ new := by omega
  rcases sub_at_parent P hp p h root _ hw hs with ⟨_, h2⟩ | ⟨hspar, _⟩
  · exfalso
    subst h2
    exact hnr (by rw [← hpr]; exact wf_root_parent P h p _ hw)
  rw [hpr] at hspar
  have hparmem := sub_at_mem P (hp + 1) par h root hspar
  have hpar_ge := hrange par hparmem
  have hparn : par ≠ new := by omega
  have hwpar := sub_at_wf P (hp + 1) par h root _ hw hspar
  have hndpar := sub_at_nodup P (hp + 1) par h root hspar hnd
  have hemem : e ∈ (P par).pairs := by rw [hpar]; simp
  have hwp : wf_subtree P hp p par := by
    have := (hwpar.2.2.2 e hemem).1
    rwa [hep] at this
  have hndp : (subtree_nodes P hp p).Nodup := by
    have := nodup_child P hp par hndpar e hemem
    rwa [hep] at this
  have hpar_notin_p : par ∉ subtree_nodes P hp p := by
    intro hc
    rw [← hep] at hc
    exact child_nodes_ne P hp par hndpar e hemem par hc rfl
  have hparp : par ≠ p := fun hc => hpar_notin_p (hc ▸ mem_subtree_nodes_self P hp p)
  have hnew_notin : new ∉ subtree_nodes P h root := fun hc => by
    have := hrange new hc
    omega
  have hp_sub_par : ∀ y ∈ subtree_nodes P hp p, y ∈ subtree_nodes P (hp + 1) par := by
    intro y hy
    rw [← hep] at hy
    exact child_nodes_mem P hp par e hemem y hy
  have hpar_sub_root := sub_at_nodes P (hp + 1) par h root hspar
  have hLR : (P p).pairs = (P p).pairs.take sp ++ (P p).pairs.drop sp :=
    (List.take_append_drop sp _).symm
  obtain ⟨hL, hR⟩ := take_ne_nil (P p).pairs sp hsp1 hsp2
  have hFx : ∀ x, x ≠ par → F x = split_pages P p new sp x := by
    intro x hx
    rw [hF, if_neg hx]
  have hFnew : F new = split_pages P p new sp new := hFx new (Ne.symm hparn)
  have hFp : F p = split_pages P p new sp p := hFx p (Ne.symm hparp)
  have hSpar := split_pages_outside P hp p par new sp hwp par hparn hpar_notin_p
  have hFpar1 : (F par).is_leaf = (P par).is_leaf := by
    rw [hF, if_pos rfl]; exact hSpar.1
  have hFpar2 : (F par).parent = (P par).parent := by
    rw [hF, if_pos rfl]; exact hSpar.2.1
  have hFpar3 : (F par).pairs = P1 ++ e :: (key, ⟨new, 0⟩) :: P2 := by
    rw [hF, if_pos rfl]
  have hout : ∀ x, x ≠ new → x ≠ par → x ∉ subtree_nodes P hp p → same_content (F x) (P x) := by
    intro x h1 h2 h3
    rw [hFx x h2]
    exact split_pages_outside P hp p par new sp hwp x h1 h3
  obtain ⟨wfp, wfn, hlv, hperm⟩ := split_halves P F p new par ((P p).pairs.take sp)
    ((P p).pairs.drop sp) hp par hwp hndp hLR hL hR
    (by rw [hFp, split_pages_self P p new sp hpn])
    (by rw [hFp, split_pages_self P p new sp hpn])
    (by rw [hFp, split_pages_self P p new sp hpn]; exact hpr)
    (by rw [hFnew, split_pages_new])
    (by rw [hFnew, split_pages_new])
    (by rw [hFnew, split_pages_new]; exact hpr)
    (by
      intro x hx hxp
      have hxpar : x ≠ par := fun hc => hpar_notin_p (hc ▸ hx)
      have hxn : x ≠ new := fun hc => hnew_notin (hpar_sub_root _ (hp_sub_par _ (hc ▸ hx)))
      rw [hFx x hxpar]
      obtain ⟨s1, s2, s3, _, _⟩ := split_pages_other P p new sp x hxn hxp
      exact ⟨s1, s2, s3⟩)
  have hndf : ((P1 ++ e :: P2).flatMap (fun e => subtree_nodes P hp e.2.page_no)).Nodup := by
    have := hndpar
    simp only [subtree_nodes, List.nodup_cons, hpar] at this
    exact this.2
  have hsib : ∀ x, x ∈ P1 ∨ x ∈ P2 →
      wf_subtree F hp x.2.page_no par ∧
      subtree_leaves F hp x.2.page_no = subtree_leaves P hp x.2.page_no ∧
      subtree_nodes F hp x.2.page_no = subtree_nodes P hp x.2.page_no ∧
      (F x.2.page_no).pairs = (P x.2.page_no).pairs := by
    intro x hx
    have hxm : x ∈ (P par).pairs := by
      rw [hpar]
      rcases hx with hx | hx
      · exact List.mem_append_left _ hx
      · exact List.mem_append_right _ (List.mem_cons_of_mem _ hx)
    have hsx : ∀ y ∈ subtree_nodes P hp x.2.page_no, same_content (F y) (P y) := by
      intro y hy
      apply hout y
      · intro hc
        rw [hc] at hy
        exact hnew_notin (hpar_sub_root _ (child_nodes_mem P hp par x hxm new hy))
      · exact child_nodes_ne P hp par hndpar x hxm y hy
      · have := flatMap_disjoint_left _ P1 P2 e hndf x hx y hy
        rwa [hep] at this
    obtain ⟨a, b, c⟩ := wf_frame P F hp x.2.page_no par (hwpar.2.2.2 x hxm).1
      (nodup_child P hp par hndpar x hxm) hsx
    exact ⟨a, b, c, (hsx _ (mem_subtree_nodes_self P hp _)).2.2⟩
  have hwparF : wf_subtree F (hp + 1) par (P par).parent := by
    refine ⟨by rw [hFpar1]; exact hwpar.1, hFpar2, by rw [hFpar3]; simp, ?_⟩
    intro x hx
    rw [hFpar3] at hx
    simp only [List.mem_append, List.mem_cons] at hx
    rcases hx with hx | hx | hx | hx
    · obtain ⟨a, _, _, d⟩ := hsib x (Or.inl hx)
      exact ⟨a, by rw [d]; exact (hwpar.2.2.2 x (by rw [hpar]; simp [hx])).2⟩
    · subst hx
      refine ⟨by rw [hep]; exact wfp, ?_⟩
      rw [hep, hFp, split_pages_self P p new sp hpn]
      simp only
      rw [head_take _ _ hsp1]
      have := (hwpar.2.2.2 x hemem).2
      rwa [hep] at this
    · subst hx
      refine ⟨wfn, ?_⟩
      show (((F new).pairs.head?).map Prod.fst) = some key
      rw [hFnew, split_pages_new]
      exact hkey
    · obtain ⟨a, _, _, d⟩ := hsib x (Or.inr hx)
      exact ⟨a, by rw [d]; exact (hwpar.2.2.2 x (by rw [hpar]; simp [hx])).2⟩
  have hheadpar : ((F par).pairs.head?).map Prod.fst = ((P par).pairs.head?).map Prod.fst := by
    rw [hFpar3, hpar]
    cases P1 <;> simp
  obtain ⟨wfF, _, A, B, A2, B2, l1, l2, n1, n2, hAB, hsubF⟩ :=
    subtree_replace P F (hp + 1) par hwparF hheadpar h root _ hspar hw hnd
      (fun x hx hxpar => hout x (fun hc => hnew_notin (hc ▸ hx))
        (fun hc => hxpar (hc ▸ mem_subtree_nodes_self P (hp + 1) par))
        (fun hc => hxpar (hp_sub_par x hc)))
  have hl1 : P1.flatMap (fun e => subtree_leaves F hp e.2.page_no) =
      P1.flatMap (fun e => subtree_leaves P hp e.2.page_no) :=
    flatMap_congr_mem _ _ _ (fun x hx => (hsib x (Or.inl hx)).2.1)
  have hl2 : P2.flatMap (fun e => subtree_leaves F hp e.2.page_no) =
      P2.flatMap (fun e => subtree_leaves P hp e.2.page_no) :=
    flatMap_congr_mem _ _ _ (fun x hx => (hsib x (Or.inr hx)).2.1)
  have hn1 : P1.flatMap (fun e => subtree_nodes F hp e.2.page_no) =
      P1.flatMap (fun e => subtree_nodes P hp e.2.page_no) :=
    flatMap_congr_mem _ _ _ (fun x hx => (hsib x (Or.inl hx)).2.2.1)
  have hn2 : P2.flatMap (fun e => subtree_nodes F hp e.2.page_no) =
      P2.flatMap (fun e => subtree_nodes P hp e.2.page_no) :=
    flatMap_congr_mem _ _ _ (fun x hx => (hsib x (Or.inr hx)).2.2.1)
  have lvP : subtree_leaves P (hp + 1) par =
      P1.flatMap (fun e => subtree_leaves P hp e.2.page_no) ++ subtree_leaves P hp p ++
        P2.flatMap (fun e => subtree_leaves P hp e.2.page_no) := by
    simp [subtree_leaves, hpar, hep]
  have lvF : subtree_leaves F (hp + 1) par =
      P1.flatMap (fun e => subtree_leaves P hp e.2.page_no) ++
        (subtree_leaves F hp p ++ subtree_leaves F hp new) ++
        P2.flatMap (fun e => subtree_leaves P hp e.2.page_no) := by
    simp only [subtree_leaves, hFpar3, List.flatMap_append, List.flatMap_cons, hl1, hl2, hep]
    simp
  have ndP : subtree_nodes P (hp + 1) par =
      par :: (P1.flatMap (fun e => subtree_nodes P hp e.2.page_no) ++ subtree_nodes P hp p ++
        P2.flatMap (fun e => subtree_nodes P hp e.2.page_no)) := by
    simp [subtree_nodes, hpar, hep]
  have ndF : subtree_nodes F (hp + 1) par =
      par :: (P1.flatMap (fun e => subtree_nodes P hp e.2.page_no) ++
        (subtree_nodes F hp p ++ subtree_nodes F hp new) ++
        P2.flatMap (fun e => subtree_nodes P hp e.2.page_no)) := by
    simp only [subtree_nodes, hFpar3, List.flatMap_append, List.flatMap_cons, hn1, hn2, hep]
    simp
  have hpermpar : (subtree_nodes F (hp + 1) par).Perm (new :: subtree_nodes P (hp + 1) par) := by
    rw [ndF, ndP]
    refine List.Perm.trans ?_ (List.Perm.swap _ _ _)
    exact List.Perm.cons _ (perm_ctx _ _ _ _ _ hperm)
  have hpermroot : (subtree_nodes F h root).Perm (new :: subtree_nodes P h root) := by
    rw [n2, n1]
    exact perm_ctx _ _ _ _ _ hpermpar
  have hcase : (hp = 0 ∧ ∃ X Y, subtree_leaves P h root = X ++ p :: Y ∧
        subtree_leaves F h root = X ++ p :: new :: Y) ∨
      (hp ≠ 0 ∧ subtree_leaves F h root = subtree_leaves P h root) := by
    by_cases h0 : hp = 0
    · left
      subst h0
      rw [if_pos rfl] at hlv
      refine ⟨rfl, A ++ P1.flatMap (fun e => subtree_leaves P 0 e.2.page_no),
        P2.flatMap (fun e => subtree_leaves P 0 e.2.page_no) ++ B, ?_, ?_⟩
      · rw [l1, lvP]
        simp [subtree_leaves]
      · rw [l2, lvF, hlv]
        simp
    · right
      rw [if_neg h0] at hlv
      exact ⟨h0, by rw [l2, lvF, hlv, l1, lvP]⟩
  have hleafmem : ∀ x ∈ subtree_leaves P h root, (P x).is_leaf = true :=
    fun x hx => (wf_leaf_mem P h root _ hw x hx).1
  have hlsub := (leaves_sublist_nodes P h root).subset
  have h1notin : IX_LEAF_HEADER_PAGE ∉ subtree_leaves P h root := by
    intro hc
    have := hrange _ (hlsub hc)
    unfold IX_LEAF_HEADER_PAGE at this
    omega
  obtain ⟨hent, hringF, hheadF⟩ := split_leaves_ok P F p new sp hp (subtree_leaves P h root)
    (subtree_leaves F h root) hcase (wf_is_leaf P hp p par hwp) hleafmem
    ((leaves_sublist_nodes P h root).nodup hnd) h1notin
    (fun hc => hnew_notin (hlsub hc))
    (by unfold IX_LEAF_HEADER_PAGE; omega) (by unfold IX_LEAF_HEADER_PAGE; omega) hpn hring
    (by
      intro x hx
      have hxpar : x ≠ par := by
        rcases hx with hx | hx | hx
        · intro hc
          rw [hc] at hx
          have := hleafmem par hx
          rw [hwpar.1] at this
          cases this
        · rw [hx]; exact Ne.symm hparn
        · rw [hx]; unfold IX_LEAF_HEADER_PAGE; omega
      rw [hFx x hxpar]
      exact ⟨rfl, rfl, rfl⟩)
  subst hFF hP hrt hnew hpr
  refine ⟨⟨by rw [hroot]; exact hrootne, by rw [hroot]; exact wfF, ?_, ?_, ?_,
    by rw [hroot]; exact hringF, ?_⟩, ?_, ?_, by rw [hroot]; exact hsubF,
    by rw [hroot]; exact hpermroot⟩
  · rw [hroot]
    unfold subtree_entries
    rw [hent]
    exact hsorted
  · rw [hroot]
    exact (List.Perm.nodup_iff hpermroot).mpr (List.nodup_cons.mpr ⟨hnew_notin, hnd⟩)
  · rw [hroot]
    intro x hx
    have := (List.Perm.mem_iff hpermroot).mp hx
    rcases List.mem_cons.mp this with h1 | h1
    · rw [h1, hnext]; omega
    · have := hrange x h1
      rw [hnext]; omega
  · rw [hroot, hheadF, hfirst]
    exact hfirstl
  · unfold tree_entries subtree_entries
    rw [hroot]
    exact hent
  · unfold tree_leaves
    rw [hroot]
    exact hcase

/-- Split of the root, followed by the creation of a new root over the two
halves: the tree, one level higher, stays valid in shape, with the same
entries. -/
theorem split_link_root (ih ih2 : IxIndexHandle) (h : Nat) (hv : valid_shape ih h)
    (sp : Nat) (hsp1 : 1 ≤ sp) (hsp2 : sp < (ih.pages ih.file_hdr.root_page).pairs.length)
    (k0 key : Int)
    (hk0 : ((ih.pages ih.file_hdr.root_page).pairs.head?).map Prod.fst = some k0)
    (hkey : (((ih.pages ih.file_hdr.root_page).pairs.drop sp).head?).map Prod.fst = some key)
    (hF : ∀ x, ih2.pages x =
      if x = ih.next_page_no + 1 then
        { is_leaf := false, parent := IX_NO_PAGE, prev_leaf := 0, next_leaf := 0,
          pairs := [(k0, ⟨ih.file_hdr.root_page, 0⟩), (key, ⟨ih.next_page_no, 0⟩)] }
      else if x = ih.file_hdr.root_page ∨ x = ih.next_page_no then
        { split_pages ih.pages ih.file_hdr.root_page ih.next_page_no sp x with
          parent := ih.next_page_no + 1 }
      else split_pages ih.pages ih.file_hdr.root_page ih.next_page_no sp x)
    (hroot : ih2.file_hdr.root_page = ih.next_page_no + 1)
    (hfirst : ih2.file_hdr.first_leaf = ih.file_hdr.first_leaf)
    (hnext : ih2.next_page_no = ih.next_page_no + 2) :
    valid_shape ih2 (h + 1) ∧ tree_entries ih2 (h + 1) = tree_entries ih h ∧
      ((h = 0 ∧ ∃ X Y, tree_leaves ih h = X ++ ih.file_hdr.root_page :: Y ∧
          tree_leaves ih2 (h + 1) = X ++ ih.file_hdr.root_page :: ih.next_page_no :: Y) ∨
        (h ≠ 0 ∧ tree_leaves ih2 (h + 1) = tree_leaves ih h)) ∧
      (subtree_nodes ih2.pages (h + 1) ih2.file_hdr.root_page).Perm
        ((ih.next_page_no + 1) :: ih.next_page_no ::
          subtree_nodes ih.pages h ih.file_hdr.root_page) := by
  obtain ⟨hrootne, hw, hsorted, hnd, hrange, hring, hfirstl⟩ := hv
  generalize hP : ih.pages = P at *
  generalize hFF : ih2.pages = F at *
  generalize hnew : ih.next_page_no = new at *
  generalize hrt : ih.file_hdr.root_page = p at *
  have hpmem := mem_subtree_nodes_self P h p
  have hp_ge := hrange p hpmem
  have hpn : p ≠ new := by omega
  have hnew_notin : new ∉ subtree_nodes P h p := fun hc => by
    have := hrange new hc
    omega
  have hnr_notin : new + 1 ∉ subtree_nodes P h p := fun hc => by
    have := hrange (new + 1) hc
    omega
  have hLR : (P p).pairs = (P p).pairs.take sp ++ (P p).pairs.drop sp :=
    (List.take_append_drop sp _).symm
  obtain ⟨hL, hR⟩ := take_ne_nil (P p).pairs sp hsp1 hsp2
  have hFnr : F (new + 1) =
      { is_leaf := false, parent := IX_NO_PAGE, prev_leaf := 0, next_leaf := 0,
        pairs := [(k0, ⟨p, 0⟩), (key, ⟨new, 0⟩)] } := by
    rw [hF, if_pos rfl]
  have hFp : F p = { split_pages P p new sp p with parent := new + 1 } := by
    rw [hF, if_neg (by omega), if_pos (Or.inl rfl)]
  have hFnew : F new = { split_pages P p new sp new with parent := new + 1 } := by
    rw [hF, if_neg (by omega), if_pos (Or.inr rfl)]
  have hFx : ∀ x, x ≠ new + 1 → x ≠ p → x ≠ new → F x = split_pages P p new sp x := by
    intro x h1 h2 h3
    rw [hF, if_neg h1, if_neg (by tauto)]
  obtain ⟨wfp, wfn, hlv, hperm⟩ := split_halves P F p new (new + 1) ((P p).pairs.take sp)
    ((P p).pairs.drop sp) h _ hw hnd hLR hL hR
    (by rw [hFp, split_pages_self P p new sp hpn])
    (by rw [hFp, split_pages_self P p new sp hpn])
    (by rw [hFp])
    (by rw [hFnew, split_pages_new])
    (by rw [hFnew, split_pages_new])
    (by rw [hFnew])
    (by
      intro x hx hxp
      have hxn : x ≠ new := fun hc => hnew_notin (hc ▸ hx)
      have hxr : x ≠ new + 1 := fun hc => hnr_notin (hc ▸ hx)
      rw [hFx x hxr hxp hxn]
      obtain ⟨s1, s2, s3, _, _⟩ := split_pages_other P p new sp x hxn hxp
      exact ⟨s1, s2, s3⟩)
  have hwF : wf_subtree F (h + 1) (new + 1) IX_NO_PAGE := by
    refine ⟨by rw [hFnr], by rw [hFnr], by rw [hFnr]; simp, ?_⟩
    intro x hx
    rw [hFnr] at hx
    simp only [List.mem_cons, List.mem_singleton, List.not_mem_nil, or_false] at hx
    rcases hx with hx | hx
    · subst hx
      refine ⟨wfp, ?_⟩
      show (((F p).pairs.head?).map Prod.fst) = some k0
      rw [hFp, split_pages_self P p new sp hpn]
      simp only
      rw [head_take _ _ hsp1]
      exact hk0
    · subst hx
      refine ⟨wfn, ?_⟩
      show (((F new).pairs.head?).map Prod.fst) = some key
      rw [hFnew, split_pages_new]
      exact hkey
  have lvF : subtree_leaves F (h + 1) (new + 1) =
      subtree_leaves F h p ++ subtree_leaves F h new := by
    simp [subtree_leaves, hFnr]
  have ndF : subtree_nodes F (h + 1) (new + 1) =
      (new + 1) :: (subtree_nodes F h p ++ subtree_nodes F h new) := by
    simp [subtree_nodes, hFnr]
  have hpermroot : (subtree_nodes F (h + 1) (new + 1)).Perm
      ((new + 1) :: new :: subtree_nodes P h p) := by
    rw [ndF]
    exact List.Perm.cons _ hperm
  have hcase : (h = 0 ∧ ∃ X Y, subtree_leaves P h p = X ++ p :: Y ∧
        subtree_leaves F (h + 1) (new + 1) = X ++ p :: new :: Y) ∨
      (h ≠ 0 ∧ subtree_leaves F (h + 1) (new + 1) = subtree_leaves P h p) := by
    by_cases h0 : h = 0
    · left
      subst h0
      rw [if_pos rfl] at hlv
      exact ⟨rfl, [], [], by simp [subtree_leaves], by rw [lvF, hlv]; simp⟩
    · right
      rw [if_neg h0] at hlv
      exact ⟨h0, by rw [lvF, hlv]⟩
  have hleafmem : ∀ x ∈ subtree_leaves P h p, (P x).is_leaf = true :=
    fun x hx => (wf_leaf_mem P h p _ hw x hx).1
  have hlsub := (leaves_sublist_nodes P h p).subset
  have h1notin : IX_LEAF_HEADER_PAGE ∉ subtree_leaves P h p := by
    intro hc
    have := hrange _ (hlsub hc)
    unfold IX_LEAF_HEADER_PAGE at this
    omega
  obtain ⟨hent, hringF, hheadF⟩ := split_leaves_ok P F p new sp h (subtree_leaves P h p)
    (subtree_leaves F (h + 1) (new + 1)) hcase (wf_is_leaf P h p _ hw) hleafmem
    ((leaves_sublist_nodes P h p).nodup hnd) h1notin
    (fun hc => hnew_notin (hlsub hc))
    (by unfold IX_LEAF_HEADER_PAGE; omega) (by unfold IX_LEAF_HEADER_PAGE; omega) hpn hring
    (by
      intro x hx
      have hxr : x ≠ new + 1 := by
        rcases hx with hx | hx | hx
        · exact fun hc => hnr_notin (hc ▸ hlsub hx)
        · rw [hx]; omega
        · rw [hx]; unfold IX_LEAF_HEADER_PAGE; omega
      by_cases hxp : x = p
      · rw [hxp, hFp]
        exact ⟨rfl, rfl, rfl⟩
      · by_cases hxn : x = new
        · rw [hxn, hFnew]
          exact ⟨rfl, rfl, rfl⟩
        · rw [hFx x hxr hxp hxn]
          exact ⟨rfl, rfl, rfl⟩)
  subst hFF hP hrt hnew
  refine ⟨⟨by rw [hroot]; unfold IX_NO_PAGE; omega, by rw [hroot]; exact hwF, ?_, ?_, ?_,
    by rw [hroot]; exact hringF, ?_⟩, ?_, ?_, by rw [hroot]; exact hpermroot⟩
  · rw [hroot]
    unfold subtree_entries
    rw [hent]
    exact hsorted
  · rw [hroot]
    refine (List.Perm.nodup_iff hpermroot).mpr ?_
    refine List.nodup_cons.mpr ⟨?_, List.nodup_cons.mpr ⟨hnew_notin, hnd⟩⟩
    intro hc
    rcases List.mem_cons.mp hc with h1 | h1
    · omega
    · exact hnr_notin h1
  · rw [hroot]
    intro x hx
    have := (List.Perm.mem_iff hpermroot).mp hx
    rcases List.mem_cons.mp this with h1 | h1
    · rw [h1, hnext]; omega
    · rcases List.mem_cons.mp h1 with h1 | h1
      · rw [h1, hnext]; omega
      · have := hrange x h1
        rw [hnext]; omega
  · rw [hroot, hheadF, hfirst]
    exact hfirstl
  · unfold tree_entries subtree_entries
    rw [hroot]
    exact hent
  · unfold tree_leaves
    rw [hroot]
    exact hcase

end RMDB

open RMDB RMDB.IxNodeHandle RMDB.IxIndexHandle

namespace RMDB

theorem insert_pair_one (n : IxNodeHandle) (a : Int × Rid) (hn : n.pairs = [a]) (k : Int)
    (r : Rid) : n.insert_pair 1 k r = Except.ok { n with pairs := [a, (k, r)] } := by
  have := insert_pair_decomp n [a] [] k r (by simp [hn])
  simpa using this

theorem insert_pair_zero (n : IxNodeHandle) (hn : n.pairs = []) (k : Int)
    (r : Rid) : n.insert_pair 0 k r = Except.ok { n with pairs := [(k, r)] } := by
  unfold insert_pair
  exact insert_pairs_zero_empty n hn _

/-- The root case of `insert_into_parent`: a new root over the two halves. -/
theorem insert_into_parent_root (fuel : Nat) (ih0 : IxIndexHandle) (old new key : Int)
    (hroot : (ih0.pages old).parent = IX_NO_PAGE) (hon : old ≠ ih0.next_page_no)
    (hnn : new ≠ ih0.next_page_no) :
    ∃ ih2, insert_into_parent (fuel + 1) ih0 old key new = Except.ok ih2 ∧
      (∀ x, ih2.pages x =
        if x = ih0.next_page_no then
          { is_leaf := false, parent := IX_NO_PAGE, prev_leaf := 0, next_leaf := 0,
            pairs := [((ih0.pages old).get_key 0, ⟨old, 0⟩), (key, ⟨new, 0⟩)] }
        else if x = old ∨ x = new then { ih0.pages x with parent := ih0.next_page_no }
        else ih0.pages x) ∧
      ih2.file_hdr = { ih0.file_hdr with
        num_pages := ih0.file_hdr.num_pages + 1
        root_page := ih0.next_page_no } ∧
      ih2.next_page_no = ih0.next_page_no + 1 ∧
      ih2.latch_page_set = ih0.latch_page_set ∧
      ih2.deleted_page_set = ih0.deleted_page_set := by
  have key2 : ∀ r, insert_into_parent (fuel + 1) ih0 old key new = r →
      ∃ ih2, r = Except.ok ih2 ∧
      (∀ x, ih2.pages x =
        if x = ih0.next_page_no then
          { is_leaf := false, parent := IX_NO_PAGE, prev_leaf := 0, next_leaf := 0,
            pairs := [((ih0.pages old).get_key 0, ⟨old, 0⟩), (key, ⟨new, 0⟩)] }
        else if x = old ∨ x = new then { ih0.pages x with parent := ih0.next_page_no }
        else ih0.pages x) ∧
      ih2.file_hdr = { ih0.file_hdr with
        num_pages := ih0.file_hdr.num_pages + 1
        root_page := ih0.next_page_no } ∧
      ih2.next_page_no = ih0.next_page_no + 1 ∧
      ih2.latch_page_set = ih0.latch_page_set ∧
      ih2.deleted_page_set = ih0.deleted_page_set := by
    intro r hr
    unfold insert_into_parent at hr
    have hrp : (ih0.fetch_node old).is_root_page = true := by
      simp [fetch_node, is_root_page, hroot]
    rw [if_pos hrp] at hr
    lift_lets at hr
    extract_lets nr ih1 ih2 ih3 ih4 ih5 ih6 at hr
    have hnew : nr = ih0.next_page_no := rfl
    clear_value nr
    subst hnew
    have h1 : ∀ q, ih1.pages q = if q = ih0.next_page_no then zero_node else ih0.pages q :=
      create_node_pages ih0
    have h3 : ∀ q, ih3.pages q = if q = ih0.next_page_no then
        { is_leaf := false, parent := IX_NO_PAGE, prev_leaf := 0, next_leaf := 0, pairs := [] }
        else ih0.pages q := by
      intro q
      simp only [ih3, ih2, modify_node_apply, fetch_node, h1, if_neg hon, if_true, hroot]
      split_ifs <;> rfl
    have h6 : ∀ q, ih6.pages q =
        if q = ih0.next_page_no then
          { is_leaf := false, parent := IX_NO_PAGE, prev_leaf := 0, next_leaf := 0, pairs := [] }
        else if q = old ∨ q = new then { ih0.pages q with parent := ih0.next_page_no }
        else ih0.pages q := by
      intro q
      show ih5.pages q = _
      simp only [ih5, ih4, modify_node_apply, h3]
      by_cases hq : q = ih0.next_page_no
      · subst hq
        simp [Ne.symm hon, Ne.symm hnn]
      · by_cases hq1 : q = new
        · subst hq1
          by_cases hq2 : q = old
          · subst hq2; simp [hq]
          · simp [hq, hq2]
        · by_cases hq2 : q = old
          · subst hq2; simp [hq, hq1]
          · simp [hq, hq1, hq2]
    have hh6 : ih6.file_hdr = { ih0.file_hdr with
          num_pages := ih0.file_hdr.num_pages + 1
          root_page := ih0.next_page_no } ∧
        ih6.next_page_no = ih0.next_page_no + 1 ∧
        ih6.latch_page_set = ih0.latch_page_set ∧
        ih6.deleted_page_set = ih0.deleted_page_set := ⟨rfl, rfl, rfl, rfl⟩
    have e6n : ih6.fetch_node ih0.next_page_no =
        { is_leaf := false, parent := IX_NO_PAGE, prev_leaf := 0, next_leaf := 0,
          pairs := [] } := by
      simp only [fetch_node, h6, if_true]
    have e6k : (ih6.fetch_node old).get_key 0 = (ih0.pages old).get_key 0 := by
      simp only [fetch_node, h6, if_neg hon, true_or, if_true]
      rfl
    rw [e6n, e6k, insert_pair_zero _ rfl] at hr
    simp only at hr
    generalize hg7 : ih6.modify_node ih0.next_page_no _ = ih7 at hr
    have e7n : ih7.fetch_node ih0.next_page_no =
        { is_leaf := false, parent := IX_NO_PAGE, prev_leaf := 0, next_leaf := 0,
          pairs := [((ih0.pages old).get_key 0, ⟨old, 0⟩)] } := by
      rw [← hg7]
      simp only [fetch_node, modify_node_apply, if_true]
    rw [e7n, insert_pair_one _ _ rfl] at hr
    simp only at hr
    refine ⟨_, hr.symm, ?_, ?_⟩
    · intro x
      rw [modify_node_apply, ← hg7, modify_node_apply, h6]
      by_cases hx : x = ih0.next_page_no
      · simp only [if_pos hx]
      · simp only [if_neg hx]
    · rw [← hg7]
      exact hh6
  exact key2 _ rfl

/-- The non-root case of `insert_into_parent`: the new sibling is inserted into
the parent right after the old node; a full parent is split in turn. -/
theorem insert_into_parent_link (fuel : Nat) (ih0 : IxIndexHandle) (old new key : Int)
    (hnr : (ih0.pages old).parent ≠ IX_NO_PAGE) (P1 P2 : List (Int × Rid)) (e : Int × Rid)
    (hpar : (ih0.pages (ih0.pages old).parent).pairs = P1 ++ e :: P2)
    (hep : e.2.page_no = old) (hP1 : ∀ x ∈ P1, x.2.page_no ≠ old) :
    insert_into_parent (fuel + 1) ih0 old key new =
      if IxNodeHandle.is_full ih0.file_hdr
          { ih0.pages (ih0.pages old).parent with
            pairs := P1 ++ e :: (key, ⟨new, 0⟩) :: P2 } then
        match (ih0.modify_node (ih0.pages old).parent (fun _ =>
            { ih0.pages (ih0.pages old).parent with
              pairs := P1 ++ e :: (key, ⟨new, 0⟩) :: P2 })).split (ih0.pages old).parent with
        | Except.error e => Except.error e
        | Except.ok (ih2, new_parent_node) =>
          insert_into_parent fuel (ih2.append_index_latch_page_set new_parent_node)
            (ih0.pages old).parent ((ih2.fetch_node new_parent_node).get_key 0) new_parent_node
      else
        Except.ok (ih0.modify_node (ih0.pages old).parent (fun _ =>
          { ih0.pages (ih0.pages old).parent with
            pairs := P1 ++ e :: (key, ⟨new, 0⟩) :: P2 })) := by
  have hrp : ¬ (ih0.fetch_node old).is_root_page = true := by
    simp [fetch_node, is_root_page, hnr]
  have hfc := find_child_decomp (ih0.pages (ih0.pages old).parent) P1 P2 e old hpar hep hP1
  have hip := insert_pair_decomp (ih0.pages (ih0.pages old).parent) (P1 ++ [e]) P2 key
    ⟨new, 0⟩ (by rw [hpar]; simp)
  have hlen : ((P1 ++ [e]).length : Int) = (P1.length : Int) + 1 := by simp
  rw [hlen] at hip
  conv => lhs; unfold insert_into_parent
  rw [if_neg hrp]
  simp only [fetch_node, hfc, hip, modify_node_apply, if_true, modify_node_file_hdr]
  simp only [List.append_assoc, List.singleton_append]

end RMDB

open RMDB RMDB.IxNodeHandle RMDB.IxIndexHandle

namespace RMDB

theorem full_split_point (hdr : IxFileHdr) (n : IxNodeHandle) (hfull : is_full hdr n = true)
    (h2 : 2 ≤ n.pairs.length) :
    1 ≤ (get_min_size hdr).toNat ∧ (get_min_size hdr).toNat < n.pairs.length ∧
      (hdr.btree_order : Int) = n.pairs.length := by
  unfold is_full get_size get_max_size at hfull
  have hb : (n.pairs.length : Int) = hdr.btree_order := by simpa using hfull
  unfold get_min_size get_max_size
  refine ⟨?_, ?_, hb.symm⟩
  · omega
  · omega

theorem sub_at_zero_leaf (pages : Int → IxNodeHandle) :
    ∀ (h : Nat) (t l : Int), sub_at pages 0 l h t → l ∈ subtree_leaves pages h t := by
  intro h
  induction h with
  | zero =>
    intro t l hs
    simp [subtree_leaves, hs.2]
  | succ h ih =>
    intro t l hs
    rcases hs with ⟨h1, _⟩ | ⟨e, he, h2⟩
    · omega
    · simp only [subtree_leaves, List.mem_flatMap]
      exact ⟨e, he, ih _ _ h2⟩

theorem occ_split_sizes (hdr : IxFileHdr) (n : Nat) (hb : (hdr.btree_order : Int) = n)
    (h2 : 2 ≤ n) (heven : 2 ∣ hdr.btree_order) :
    get_min_size hdr ≤ ((get_min_size hdr).toNat : Int) ∧
    ((get_min_size hdr).toNat : Int) ≤ get_max_size hdr - 1 ∧
    get_min_size hdr ≤ ((n - (get_min_size hdr).toNat : Nat) : Int) ∧
    ((n - (get_min_size hdr).toNat : Nat) : Int) ≤ get_max_size hdr - 1 := by
  unfold get_min_size get_max_size
  obtain ⟨k, hk⟩ := heven
  omega

/-- From a full node of a tree that is valid in shape, `split` followed by
`insert_into_parent` ends in a tree that is valid in shape, of the same height
or one level higher, with the same entries. -/
theorem insert_into_parent_valid :
    ∀ (fuel : Nat) (ih : IxIndexHandle) (h hp : Nat) (p : Int),
      valid_shape ih h → sub_at ih.pages hp p h ih.file_hdr.root_page →
      IxNodeHandle.is_full ih.file_hdr (ih.pages p) = true → 2 ≤ (ih.pages p).pairs.length →
      h < fuel + hp →
      ∃ ihS ih2 h2, ih.split p = Except.ok (ihS, ih.next_page_no) ∧
        insert_into_parent fuel (ihS.append_index_latch_page_set ih.next_page_no) p
          ((ihS.fetch_node ih.next_page_no).get_key 0) ih.next_page_no = Except.ok ih2 ∧
        valid_shape ih2 h2 ∧ h ≤ h2 ∧ h2 ≤ h + 1 ∧
        tree_entries ih2 h2 = tree_entries ih h ∧
        ((hp = 0 ∧ ∃ X Y, tree_leaves ih h = X ++ p :: Y ∧
            tree_leaves ih2 h2 = X ++ p :: ih.next_page_no :: Y) ∨
          (hp ≠ 0 ∧ tree_leaves ih2 h2 = tree_leaves ih h)) ∧
        ih2.file_hdr.first_leaf = ih.file_hdr.first_leaf ∧
        ih2.file_hdr.last_leaf = ih.file_hdr.last_leaf ∧
        ih2.file_hdr.btree_order = ih.file_hdr.btree_order ∧
        ih2.deleted_page_set = ih.deleted_page_set ∧
        (2 ∣ ih.file_hdr.btree_order → occ_nodes ih h (some p) → occ_nodes ih2 h2 none) ∧
        ((h ≠ 0 → p ≠ ih.file_hdr.root_page →
            2 ≤ (ih.pages ih.file_hdr.root_page).pairs.length) →
          h2 ≠ 0 → 2 ≤ (ih2.pages ih2.file_hdr.root_page).pairs.length) := by
  intro fuel
  induction fuel with
  | zero =>
    intro ih h hp p _ hs _ _ hf
    have := sub_at_le ih.pages hp p h _ hs
    omega
  | succ fuel ihf =>
    intro ih h hp p hv hs hfull h2 hf
    have hv0 := hv
    obtain ⟨hrootne, hw, hsorted, hnd, hrange, hring, hfirstl⟩ := hv
    have hpmem := sub_at_mem ih.pages hp p h _ hs
    have hp_ge := hrange p hpmem
    have hwp := sub_at_wf ih.pages hp p h _ _ hw hs
    have hndp := sub_at_nodup ih.pages hp p h _ hs hnd
    have hpsub := sub_at_nodes ih.pages hp p h _ hs
    have hlsub := (leaves_sublist_nodes ih.pages h ih.file_hdr.root_page).subset
    have h1notin : IX_LEAF_HEADER_PAGE ∉ subtree_leaves ih.pages h ih.file_hdr.root_page := by
      intro hc
      have := hrange _ (hlsub hc)
      unfold IX_LEAF_HEADER_PAGE at this
      omega
    obtain ⟨hsp1, hsp2, hbo⟩ := full_split_point ih.file_hdr (ih.pages p) hfull h2
    obtain ⟨ihS, hsplit, hSp, hSh, hSn, hSl, hSd⟩ := split_spec ih p (by omega)
      (by
        intro hl
        have hpl : p ∈ subtree_leaves ih.pages h ih.file_hdr.root_page := by
          have h0 : hp = 0 := by
            have := wf_is_leaf ih.pages hp p _ hwp
            rw [hl] at this
            simpa using this.symm
          subst h0
          exact sub_at_zero_leaf ih.pages h _ p hs
        obtain ⟨a, b⟩ := ring_next ih.pages _ hring
          ((leaves_sublist_nodes ih.pages h ih.file_hdr.root_page).nodup hnd) p hpl h1notin
        refine ⟨a, ?_⟩
        rcases b with b | b
        · rw [b]; unfold IX_LEAF_HEADER_PAGE; omega
        · have := hrange _ (hlsub b)
          omega)
      (by
        intro hl e he
        have hk : ∃ k, hp = k + 1 := by
          cases hp with
          | zero => rw [hwp.1] at hl; cases hl
          | succ k => exact ⟨k, rfl⟩
        obtain ⟨k, rfl⟩ := hk
        refine ⟨child_ne_self ih.pages k p hndp e he, ?_⟩
        have := hrange _ (hpsub _ (child_nodes_mem ih.pages k p e he _
          (mem_subtree_nodes_self ih.pages k _)))
        omega)
    generalize hspdef : (get_min_size ih.file_hdr).toNat = sp at *
    have hpn : p ≠ ih.next_page_no := by omega
    have hSnew : ihS.pages ih.next_page_no = split_pages ih.pages p ih.next_page_no sp
        ih.next_page_no := by rw [hSp]
    obtain ⟨hL, hR⟩ := take_ne_nil (ih.pages p).pairs sp hsp1 hsp2
    have hkey : (((ih.pages p).pairs.drop sp).head?).map Prod.fst =
        some ((ihS.fetch_node ih.next_page_no).get_key 0) := by
      have := get_key_head (ihS.pages ih.next_page_no)
        (by rw [hSnew, split_pages_new]; exact hR)
      rw [hSnew, split_pages_new] at this
      simp only at this
      rw [this]
      simp only [fetch_node, hSnew, split_pages_new]
    generalize hkeydef : (ihS.fetch_node ih.next_page_no).get_key 0 = key at *
    have hSpp : (ihS.pages p) = split_pages ih.pages p ih.next_page_no sp p := by rw [hSp]
    have hSparent : (ihS.pages p).parent = (ih.pages p).parent := by
      rw [hSpp, split_pages_self _ _ _ _ hpn]
    have hocc_new : 2 ∣ ih.file_hdr.btree_order →
        get_min_size ih.file_hdr ≤ (((ih.pages p).pairs.take sp).length : Int) ∧
        (((ih.pages p).pairs.take sp).length : Int) ≤ get_max_size ih.file_hdr - 1 ∧
        get_min_size ih.file_hdr ≤ (((ih.pages p).pairs.drop sp).length : Int) ∧
        (((ih.pages p).pairs.drop sp).length : Int) ≤ get_max_size ih.file_hdr - 1 := by
      intro heven
      have := occ_split_sizes ih.file_hdr (ih.pages p).pairs.length hbo h2 heven
      rw [hspdef] at this
      rw [List.length_take, List.length_drop, min_eq_left (by omega)]
      exact this
    by_cases hpar : (ih.pages p).parent = IX_NO_PAGE
    · -- the root is split
      obtain ⟨hhp, hproot⟩ := parent_ne_no_page ih.pages h _ hw (fun q hq => (hrange q hq).1)
        hp p hs hpar
      subst hhp
      subst hproot
      obtain ⟨ih2, hii, hpg, hh2, hn2, _, hd2⟩ := insert_into_parent_root fuel
        (ihS.append_index_latch_page_set ih.next_page_no) ih.file_hdr.root_page
        ih.next_page_no key
        (by show (ihS.pages ih.file_hdr.root_page).parent = _; rw [hSparent]; exact hpar)
        (by show ih.file_hdr.root_page ≠ ihS.next_page_no; rw [hSn]; omega)
        (by show ih.next_page_no ≠ ihS.next_page_no; rw [hSn]; omega)
      have hpg2 : ∀ x, ih2.pages x =
          if x = ih.next_page_no + 1 then
            { is_leaf := false, parent := IX_NO_PAGE, prev_leaf := 0, next_leaf := 0,
              pairs := [((ihS.pages ih.file_hdr.root_page).get_key 0,
                ⟨ih.file_hdr.root_page, 0⟩), (key, ⟨ih.next_page_no, 0⟩)] }
          else if x = ih.file_hdr.root_page ∨ x = ih.next_page_no then
            { split_pages ih.pages ih.file_hdr.root_page ih.next_page_no sp x with
              parent := ih.next_page_no + 1 }
          else split_pages ih.pages ih.file_hdr.root_page ih.next_page_no sp x := by
        intro x
        rw [hpg x]
        show (if x = ihS.next_page_no then _ else
          if x = ih.file_hdr.root_page ∨ x = ih.next_page_no then
          { ihS.pages x with parent := ihS.next_page_no } else ihS.pages x) = _
        have hap : (ihS.append_index_latch_page_set ih.next_page_no).pages = ihS.pages := rfl
        rw [hap, hSn, hSp]
      have hk0 : ((ih.pages ih.file_hdr.root_page).pairs.head?).map Prod.fst =
          some ((ihS.pages ih.file_hdr.root_page).get_key 0) := by
        have := get_key_head (ihS.pages ih.file_hdr.root_page)
          (by rw [hSpp, split_pages_self _ _ _ _ hpn]; exact hL)
        rw [← this, hSpp, split_pages_self _ _ _ _ hpn]
        simp only
        rw [head_take _ _ hsp1]
      have hroot2 : ih2.file_hdr.root_page = ih.next_page_no + 1 := by
        rw [hh2]
        show ihS.next_page_no = _
        rw [hSn]
      obtain ⟨v2, e2, l2, pm2⟩ := split_link_root ih ih2 hp hv0 sp hsp1 hsp2 _ key hk0 hkey hpg2
        hroot2
        (by rw [hh2]; show ihS.file_hdr.first_leaf = _; rw [hSh])
        (by rw [hn2]; show ihS.next_page_no + 1 = _; rw [hSn]; ring)
      refine ⟨ihS, ih2, hp + 1, hsplit, by rw [hkeydef]; exact hii, v2, by omega, le_refl _,
        e2, l2,
        by rw [hh2]; show ihS.file_hdr.first_leaf = _; rw [hSh],
        by rw [hh2]; show ihS.file_hdr.last_leaf = _; rw [hSh],
        by rw [hh2]; show ihS.file_hdr.btree_order = _; rw [hSh],
        by rw [hd2]; exact hSd, ?_, ?_⟩
      · intro heven hocc x hx hxr _
        have hx2 := (List.Perm.mem_iff pm2).mp hx
        have hmin : get_min_size ih2.file_hdr = get_min_size ih.file_hdr := by
          unfold get_min_size get_max_size
          rw [hh2]
          show ((ihS.file_hdr.btree_order : Int) + 1) / 2 = _
          rw [hSh]
        have hmax : get_max_size ih2.file_hdr = get_max_size ih.file_hdr := by
          unfold get_max_size
          rw [hh2]
          show (ihS.file_hdr.btree_order : Int) = _
          rw [hSh]
        rw [hmin, hmax]
        obtain ⟨o1, o2, o3, o4⟩ := hocc_new heven
        rw [hroot2] at hxr
        rcases List.mem_cons.mp hx2 with h1 | h1
        · exact absurd h1 hxr
        rcases List.mem_cons.mp h1 with h1 | h1
        · subst h1
          rw [hpg2, if_neg (by omega), if_pos (Or.inr rfl), split_pages_new]
          exact ⟨o3, o4⟩
        · by_cases hxp : x = ih.file_hdr.root_page
          · subst hxp
            rw [hpg2, if_neg hxr, if_pos (Or.inl rfl), split_pages_self _ _ _ _ hpn]
            exact ⟨o1, o2⟩
          · have hxn : x ≠ ih.next_page_no := by
              have := hrange x h1
              omega
            rw [hpg2, if_neg hxr, if_neg (by tauto)]
            have hsz := (split_pages_other ih.pages ih.file_hdr.root_page ih.next_page_no sp x
              hxn hxp).2.1
            unfold get_size
            rw [hsz]
            exact hocc x h1 hxp (fun hc => hxp (Option.some.inj hc))
      · intro _ _
        rw [hroot2, hpg2, if_pos rfl]
        exact le_refl 2
    · -- the new sibling goes into the parent
      rcases sub_at_parent ih.pages hp p h _ _ hw hs with ⟨_, h2r⟩ | ⟨hspar, e0, he0, he0p⟩
      · exfalso
        subst h2r
        exact hpar (wf_root_parent ih.pages h _ _ hw)
      have hwpar := sub_at_wf ih.pages (hp + 1) _ h _ _ hw hspar
      have hndpar := sub_at_nodup ih.pages (hp + 1) _ h _ hspar hnd
      have hcn := children_nodup ih.pages hp _ hndpar
      obtain ⟨P1, P2, hsplitpar, hP1, hP2⟩ := split_at_child (ih.pages (ih.pages p).parent)
        hcn e0 he0
      rw [he0p] at hP1 hP2
      have hparmem := sub_at_mem ih.pages (hp + 1) _ h _ hspar
      have hpar_ge := hrange _ hparmem
      have hpar_notin_p : (ih.pages p).parent ∉ subtree_nodes ih.pages hp p := by
        intro hc
        exact child_nodes_ne ih.pages hp _ hndpar e0 he0 (ih.pages p).parent
          (by rw [he0p]; exact hc) rfl
      have hparp : (ih.pages p).parent ≠ p :=
        fun hc => hpar_notin_p (by rw [hc]; exact mem_subtree_nodes_self ih.pages hp p)
      have hSpar : same_content (ihS.pages (ih.pages p).parent) (ih.pages (ih.pages p).parent) := by
        rw [hSp]
        exact split_pages_outside ih.pages hp p _ ih.next_page_no sp hwp _ (by omega)
          hpar_notin_p
      have hpar0 : ((ihS.append_index_latch_page_set ih.next_page_no).pages p).parent =
          (ih.pages p).parent := hSparent
      have hlink := insert_into_parent_link fuel
        (ihS.append_index_latch_page_set ih.next_page_no) p ih.next_page_no key
        (by rw [hpar0]; exact hpar) P1 P2 e0
        (by rw [hpar0]; show (ihS.pages _).pairs = _; rw [hSpar.2.2]; exact hsplitpar)
        he0p hP1
      rw [hpar0] at hlink
      generalize hih1 : (ihS.append_index_latch_page_set ih.next_page_no).modify_node
        (ih.pages p).parent (fun _ =>
          { (ihS.append_index_latch_page_set ih.next_page_no).pages (ih.pages p).parent with
            pairs := P1 ++ e0 :: (key, ⟨ih.next_page_no, 0⟩) :: P2 }) = ih1 at hlink
      have hpg1 : ∀ x, ih1.pages x = if x = (ih.pages p).parent then
          { split_pages ih.pages p ih.next_page_no sp x with
            pairs := P1 ++ e0 :: (key, ⟨ih.next_page_no, 0⟩) :: P2 }
          else split_pages ih.pages p ih.next_page_no sp x := by
        intro x
        rw [← hih1, modify_node_apply]
        have hap : (ihS.append_index_latch_page_set ih.next_page_no).pages = ihS.pages := rfl
        rw [hap, hSp]
        by_cases hx : x = (ih.pages p).parent
        · rw [if_pos hx, if_pos hx, hx]
        · rw [if_neg hx, if_neg hx]
      have hh1 : ih1.file_hdr = ihS.file_hdr := by rw [← hih1]; rfl
      have hn1 : ih1.next_page_no = ihS.next_page_no := by rw [← hih1]; rfl
      have hd1 : ih1.deleted_page_set = ihS.deleted_page_set := by rw [← hih1]; rfl
      obtain ⟨v1, e1, l1, s1, pm1⟩ := split_link_nonroot ih ih1 h hv0 hp p hs hpar sp hsp1 hsp2
        P1 P2 e0 hsplitpar he0p key hkey hpg1
        (by rw [hh1, hSh]) (by rw [hh1, hSh]) (by rw [hn1, hSn])
      have hroot1 : ih1.file_hdr.root_page = ih.file_hdr.root_page := by rw [hh1, hSh]
      have hproot : p ≠ ih.file_hdr.root_page := by
        intro hc
        apply hpar
        rw [hc]
        exact wf_root_parent ih.pages h _ _ hw
      have hrootsz : (ih.pages p).parent ≠ ih.file_hdr.root_page →
          (ih1.pages ih.file_hdr.root_page).pairs.length =
            (ih.pages ih.file_hdr.root_page).pairs.length := by
        intro hc
        rw [hpg1, if_neg (Ne.symm hc)]
        have hrn : ih.file_hdr.root_page ≠ ih.next_page_no := by
          have := hrange _ (mem_subtree_nodes_self ih.pages h ih.file_hdr.root_page)
          omega
        rw [(split_pages_other ih.pages p ih.next_page_no sp ih.file_hdr.root_page hrn
          (Ne.symm hproot)).2.1]
      have hmin : get_min_size ih1.file_hdr = get_min_size ih.file_hdr := by
        unfold get_min_size get_max_size
        rw [hh1, hSh]
      have hmax : get_max_size ih1.file_hdr = get_max_size ih.file_hdr := by
        unfold get_max_size
        rw [hh1, hSh]
      have hp1par : ih1.pages (ih.pages p).parent =
          { ihS.pages (ih.pages p).parent with
            pairs := P1 ++ e0 :: (key, ⟨ih.next_page_no, 0⟩) :: P2 } := by
        rw [← hih1, modify_node_apply, if_pos rfl]
        rfl
      have hocc1 : 2 ∣ ih.file_hdr.btree_order → occ_nodes ih h (some p) →
          occ_nodes ih1 h (some (ih.pages p).parent) := by
        intro heven hocc x hx hxr hxpar
        have hxpar2 : x ≠ (ih.pages p).parent := fun hc => hxpar (by rw [hc])
        rw [hroot1] at hx hxr
        rw [hmin, hmax]
        obtain ⟨o1, o2, o3, o4⟩ := hocc_new heven
        rw [hpg1, if_neg hxpar2]
        rcases List.mem_cons.mp ((List.Perm.mem_iff pm1).mp (by rw [hroot1]; exact hx))
          with h1 | h1
        · subst h1
          rw [split_pages_new]
          exact ⟨o3, o4⟩
        · by_cases hxp : x = p
          · subst hxp
            rw [split_pages_self _ _ _ _ hpn]
            exact ⟨o1, o2⟩
          · have hxn : x ≠ ih.next_page_no := by
              have := hrange x h1
              omega
            have hsz := (split_pages_other ih.pages p ih.next_page_no sp x hxn hxp).2.1
            unfold get_size
            rw [hsz]
            exact hocc x h1 hxr (fun hc => hxp (Option.some.inj hc))
      by_cases hfull1 : is_full (ihS.append_index_latch_page_set ih.next_page_no).file_hdr
          { (ihS.append_index_latch_page_set ih.next_page_no).pages (ih.pages p).parent with
            pairs := P1 ++ e0 :: (key, ⟨ih.next_page_no, 0⟩) :: P2 } = true
      · rw [if_pos hfull1] at hlink
        obtain ⟨ihS2, ih2, h2, hsp2', hii2, v2, g1, g2, g3, g4, g5, g6, g7, g8, g9, g10⟩ :=
          ihf ih1 h (hp + 1) (ih.pages p).parent v1 s1
            (by rw [hp1par, hh1]; exact hfull1)
            (by rw [hp1par]; simp only [List.length_append, List.length_cons]; omega)
            (by omega)
        rw [hsp2'] at hlink
        simp only at hlink
        refine ⟨ihS, ih2, h2, hsplit, by rw [hkeydef, hlink]; exact hii2, v2, g1, g2,
          by rw [g3, e1], ?_, by rw [g5, hh1, hSh], by rw [g6, hh1, hSh],
          by rw [g7, hh1, hSh], by rw [g8, hd1, hSd], ?_, ?_⟩
        · rcases g4 with ⟨hc, _⟩ | ⟨_, g4⟩
          · omega
          · rw [g4]
            exact l1
        · intro heven hocc
          exact g9 (by rw [hh1, hSh]; exact heven) (hocc1 heven hocc)
        · intro hR hh2
          refine g10 ?_ hh2
          intro h0 hc
          rw [hroot1] at hc ⊢
          rw [hrootsz hc]
          exact hR h0 hproot
      · rw [if_neg hfull1] at hlink
        refine ⟨ihS, ih1, h, hsplit, by rw [hkeydef, hlink], v1, le_refl _, by omega, e1, l1,
          by rw [hh1, hSh], by rw [hh1, hSh], by rw [hh1, hSh], by rw [hd1, hSd], ?_, ?_⟩
        · intro heven hocc x hx hxr _
          by_cases hxpar : x = (ih.pages p).parent
          · subst hxpar
            rw [hmin, hmax, hp1par]
            rw [hroot1] at hxr
            have := hocc _ hparmem hxr (fun hc => hparp (Option.some.inj hc))
            unfold get_size at this ⊢
            rw [hsplitpar] at this
            have hnf : ¬ ((P1 ++ e0 :: (key, (⟨ih.next_page_no, 0⟩ : Rid)) :: P2).length : Int) =
                get_max_size ih.file_hdr := by
              intro hc
              apply hfull1
              unfold is_full get_size
              simp only [beq_iff_eq]
              rw [hc]
              unfold get_max_size
              show (ih.file_hdr.btree_order : Int) = ihS.file_hdr.btree_order
              rw [hSh]
            simp only [List.length_append, List.length_cons] at this hnf ⊢
            push_cast at this hnf ⊢
            omega
          · exact hocc1 heven hocc x hx hxr (fun hc => hxpar (Option.some.inj hc))
        · intro hR hh0
          rw [hroot1]
          by_cases hc : (ih.pages p).parent = ih.file_hdr.root_page
          · rw [← hc, hp1par]
            simp only [List.length_append, List.length_cons]
            omega
          · rw [hrootsz hc]
            exact hR hh0 hproot

end RMDB

open RMDB RMDB.IxNodeHandle RMDB.IxIndexHandle

namespace RMDB

theorem pairwise_insert (X Y : List (Int × Rid)) (k : Int) (v : Rid)
    (hs : ((X ++ Y).map Prod.fst).Pairwise (· < ·)) (hX : ∀ x ∈ X, x.1 < k)
    (hY : ∀ y ∈ Y, k < y.1) : ((X ++ (k, v) :: Y).map Prod.fst).Pairwise (· < ·) := by
  rw [List.map_append, List.pairwise_append] at hs ⊢
  obtain ⟨h1, h2, h3⟩ := hs
  refine ⟨h1, ?_, ?_⟩
  · rw [List.map_cons, List.pairwise_cons]
    refine ⟨?_, h2⟩
    intro a ha
    obtain ⟨y, hy, rfl⟩ := List.mem_map.mp ha
    exact hY y hy
  · intro a ha b hb
    rw [List.map_cons, List.mem_cons] at hb
    rcases hb with hb | hb
    · obtain ⟨x, hx, rfl⟩ := List.mem_map.mp ha
      rw [hb]
      exact hX x hx
    · exact h3 a ha b hb

theorem leaf_insert_spec (n : IxNodeHandle) (hs : keys_sorted n) (key : Int) (value : Rid)
    (hnot : ∀ e ∈ n.pairs, e.1 ≠ key) :
    ∃ pos : Nat, pos ≤ n.pairs.length ∧
      n.insert key value = Except.ok
        ({ n with pairs := n.pairs.take pos ++ (key, value) :: n.pairs.drop pos },
          n.get_size + 1) ∧
      (∀ x ∈ n.pairs.take pos, x.1 < key) ∧ (∀ x ∈ n.pairs.drop pos, key < x.1) := by
  obtain ⟨h0, h1, h2, h3⟩ := lower_bound_spec n hs key
  have hsz : n.get_size = n.pairs.length := rfl
  refine ⟨(n.lower_bound key).toNat, by omega, ?_, ?_, ?_⟩
  · unfold IxNodeHandle.insert
    dsimp only
    have hcond : n.lower_bound key ≥ n.get_size ∨
        ix_compare (n.get_key (n.lower_bound key)) key ≠ 0 := by
      by_cases hlt : n.lower_bound key < n.get_size
      · right
        obtain ⟨e, he, hek⟩ := get_key_mem n _ h0 hlt
        have := hnot e he
        rw [Ne, ix_compare_eq]
        rw [hek] at this
        exact this
      · left; omega
    rw [if_pos hcond]
    unfold insert_pairs
    rw [if_neg (by omega)]
    simp only [List.append_assoc, List.singleton_append]
    congr 2
    unfold get_size
    simp only [List.length_append, List.length_take, List.length_cons, List.length_drop]
    omega
  · intro x hx
    obtain ⟨i, hi, hxi⟩ := List.mem_iff_getElem.mp hx
    have hi2 : i < (n.lower_bound key).toNat ∧ i < n.pairs.length := by
      simpa using hi
    have := h2 i (by omega) (by omega)
    rw [get_key_nat n i hi2.2] at this
    rw [← hxi, List.getElem_take]
    exact this
  · intro x hx
    obtain ⟨i, hi, hxi⟩ := List.mem_iff_getElem.mp hx
    have hi2 : (n.lower_bound key).toNat + i < n.pairs.length := by
      simp at hi; omega
    have hge := h3 (((n.lower_bound key).toNat + i : Nat) : Int) (by omega) (by omega)
    rw [get_key_nat n _ hi2] at hge
    rw [List.getElem_drop] at hxi
    have hne := hnot _ (List.getElem_mem hi2)
    rw [← hxi]
    omega

theorem filter_lt_split (X Y : List (Int × Rid)) (key : Int) (hX : ∀ x ∈ X, x.1 < key)
    (hY : ∀ y ∈ Y, key < y.1) :
    (X ++ Y).filter (fun e => decide (e.1 < key)) = X ∧
    (X ++ Y).filter (fun e => decide (key < e.1)) = Y := by
  constructor
  · have h1 : X.filter (fun e => decide (e.1 < key)) = X :=
      List.filter_eq_self.mpr (fun x hx => by simpa using hX x hx)
    have h2 : Y.filter (fun e => decide (e.1 < key)) = [] :=
      List.filter_eq_nil_iff.mpr (fun y hy => by have := hY y hy; simp; omega)
    rw [List.filter_append, h1, h2]
    simp
  · have h1 : X.filter (fun e => decide (key < e.1)) = [] :=
      List.filter_eq_nil_iff.mpr (fun x hx => by have := hX x hx; simp; omega)
    have h2 : Y.filter (fun e => decide (key < e.1)) = Y :=
      List.filter_eq_self.mpr (fun y hy => by simpa using hY y hy)
    rw [List.filter_append, h1, h2]
    simp

/-- The last step of `insert_entry` after a leaf split: `last_leaf` follows the
new leaf when the new leaf is the last one. -/
theorem valid_of_shape_last (ih5 : IxIndexHandle) (h2 : Nat) (hv : valid_shape ih5 h2)
    (X Y : List Int) (l new : Int) (hl : tree_leaves ih5 h2 = X ++ l :: new :: Y)
    (hlast : (X ++ l :: Y).getLast? = some ih5.file_hdr.last_leaf) :
    Valid (if (ih5.fetch_node new).next_leaf = IX_LEAF_HEADER_PAGE then
        { ih5 with file_hdr := { ih5.file_hdr with last_leaf := new } }
      else ih5) h2 := by
  obtain ⟨a, b, c, d, e, f, g⟩ := hv
  unfold tree_leaves at hl
  have hring := f
  unfold leaf_ring at hring
  rw [hl] at hring
  have hnew := linked_split ih5.pages (X ++ [l]) IX_LEAF_HEADER_PAGE new Y IX_LEAF_HEADER_PAGE
    (by simpa using hring)
  cases Y with
  | nil =>
    rw [if_pos (by exact hnew.1)]
    refine ⟨a, b, c, d, e, f, g, ?_⟩
    show (subtree_leaves ih5.pages h2 ih5.file_hdr.root_page).getLast? = some new
    rw [hl]
    simp
  | cons y Y =>
    have hy : y ∈ subtree_nodes ih5.pages h2 ih5.file_hdr.root_page := by
      apply (leaves_sublist_nodes ih5.pages h2 _).subset
      rw [hl]; simp
    have hy2 := (e y hy).1
    rw [if_neg (by
      show ¬ (ih5.pages new).next_leaf = IX_LEAF_HEADER_PAGE
      rw [hnew.1.1]
      unfold IX_LEAF_HEADER_PAGE
      omega)]
    refine ⟨a, b, c, d, e, f, g, ?_⟩
    rw [hl, ← hlast]
    simp [List.getLast?_append, List.getLast?_cons_cons]

end RMDB

open RMDB RMDB.IxNodeHandle RMDB.IxIndexHandle

namespace RMDB

/-- The INSERT descent of `insert_entry` for a key that is not stored ends in
the leaf around which the stored keys split. -/
theorem insert_descent (ih : IxIndexHandle) (h fuel : Nat) (key : Int)
    (hv : Valid ih h) (hf : h ≤ fuel) (hnot : ∀ r, (key, r) ∉ tree_entries ih h) :
    ix_compare ((ih.fetch_node ih.file_hdr.first_leaf).get_key 0) key ≠ 0 ∧
    ∃ l A B r2 ih1,
      ih.find_leaf_page fuel key Operation.INSERT
        (decide (ix_compare ((ih.fetch_node ih.file_hdr.first_leaf).get_key 0) key > 0)) =
        Except.ok (l, r2, ih1) ∧ same_tree ih ih1 ∧
      tree_leaves ih h = A ++ l :: B ∧
      (∀ x ∈ leaves_entries ih.pages A, x.1 < key) ∧
      (∀ x ∈ leaves_entries ih.pages B, key < x.1) ∧
      (∀ x ∈ (ih.pages l).pairs, x.1 ≠ key) := by
  obtain ⟨B0, e, es, hleaves0, hfp, hk0, hemem, hmin⟩ := valid_first ih h hv
  have hne : (ih.fetch_node ih.file_hdr.first_leaf).get_key 0 ≠ key := by
    intro hc
    apply hnot e.2
    rw [← hc, hk0]
    exact hemem
  have hleafne : ∀ l A B, tree_leaves ih h = A ++ l :: B →
      ∀ x ∈ (ih.pages l).pairs, x.1 ≠ key := by
    intro l A B hsplit x hx hc
    apply hnot x.2
    rw [← hc, valid_split_entries ih h A B l hsplit]
    simp [hx]
  refine ⟨by rw [Ne, ix_compare_eq]; exact hne, ?_⟩
  by_cases hlt : key < (ih.fetch_node ih.file_hdr.first_leaf).get_key 0
  · have hff : decide (ix_compare ((ih.fetch_node ih.file_hdr.first_leaf).get_key 0) key > 0)
        = true := by
      simpa using (ix_compare_gt _ _).mpr hlt
    rw [hff]
    obtain ⟨l, B, hl, hsplit⟩ := descent_first ih h hv key Operation.INSERT fuel hf
    obtain ⟨r2, ih1, hfl, hs⟩ := find_leaf_page_write fuel ih key Operation.INSERT true l hl
    refine ⟨l, [], B, r2, ih1, hfl, hs, hsplit, by simp [leaves_entries], ?_,
      hleafne l [] B hsplit⟩
    intro x hx
    have hxm : x ∈ tree_entries ih h := by
      rw [valid_split_entries ih h [] B l hsplit]
      simp [hx]
    have := hmin x hxm
    rw [hk0] at hlt
    omega
  · have hff : decide (ix_compare ((ih.fetch_node ih.file_hdr.first_leaf).get_key 0) key > 0)
        = false := by
      have := (ix_compare_gt ((ih.fetch_node ih.file_hdr.first_leaf).get_key 0) key).not.mpr
        hlt
      simpa using this
    rw [hff]
    obtain ⟨l, A, B, hl, hsplit, hA, hB, _⟩ :=
      descent_write_leaf ih h hv key Operation.INSERT (Or.inl rfl) fuel hf
    obtain ⟨r2, ih1, hfl, hs⟩ := find_leaf_page_write fuel ih key Operation.INSERT false l hl
    exact ⟨l, A, B, r2, ih1, hfl, hs, hsplit, hA, hB, hleafne l A B hsplit⟩

/-- Insert of a key that a valid tree does not store: the result is a valid
tree with the new pair at its place in key order. -/
theorem insert_entry_valid (ih : IxIndexHandle) (h fuel : Nat) (key : Int) (value : Rid)
    (hv : Valid ih h) (hf : h + 1 ≤ fuel) (hnot : ∀ r, (key, r) ∉ tree_entries ih h) :
    ∃ pn ih2 h2, ih.insert_entry fuel key value = Except.ok (pn, ih2) ∧ Valid ih2 h2 ∧
      h2 ≤ h + 1 ∧
      tree_entries ih2 h2 = (tree_entries ih h).filter (fun e => decide (e.1 < key)) ++
        (key, value) :: (tree_entries ih h).filter (fun e => decide (key < e.1)) ∧
      ih2.file_hdr.btree_order = ih.file_hdr.btree_order ∧
      (2 ∣ ih.file_hdr.btree_order → occ_nodes ih h none → occ_nodes ih2 h2 none) ∧
      ((h ≠ 0 → 2 ≤ (ih.pages ih.file_hdr.root_page).pairs.length) →
        h2 ≠ 0 → 2 ≤ (ih2.pages ih2.file_hdr.root_page).pairs.length) := by
  obtain ⟨hcmp, l, A, B, r2, ih1, hfl, hs, hsplit, hA, hB, hlne⟩ :=
    insert_descent ih h fuel key hv (by omega) hnot
  have hne := valid_not_empty ih h hv
  have hsl := leaf_sorted_of_split ih h hv A B l hsplit
  obtain ⟨pos, hpos, hins, hlt, hgt⟩ := leaf_insert_spec (ih.pages l) hsl key value hlne
  have hp1 : ih1.pages = ih.pages := hs.1
  generalize hnp : (ih.pages l).pairs.take pos ++ (key, value) :: (ih.pages l).pairs.drop pos
    = np at *
  have hnpne : np ≠ [] := by rw [← hnp]; simp
  have hent := valid_split_entries ih h A B l hsplit
  have hX : ∀ x ∈ leaves_entries ih.pages A ++ (ih.pages l).pairs.take pos, x.1 < key := by
    intro x hx
    rcases List.mem_append.mp hx with h1 | h1
    · exact hA x h1
    · exact hlt x h1
  have hY : ∀ x ∈ (ih.pages l).pairs.drop pos ++ leaves_entries ih.pages B, key < x.1 := by
    intro x hx
    rcases List.mem_append.mp hx with h1 | h1
    · exact hgt x h1
    · exact hB x h1
  have hXY : tree_entries ih h = (leaves_entries ih.pages A ++ (ih.pages l).pairs.take pos) ++
      ((ih.pages l).pairs.drop pos ++ leaves_entries ih.pages B) := by
    rw [hent]
    simp only [List.append_assoc]
    rw [← List.append_assoc ((ih.pages l).pairs.take pos), List.take_append_drop]
  have hnew : leaves_entries ih.pages A ++ np ++ leaves_entries ih.pages B =
      (leaves_entries ih.pages A ++ (ih.pages l).pairs.take pos) ++
        (key, value) :: ((ih.pages l).pairs.drop pos ++ leaves_entries ih.pages B) := by
    rw [← hnp]
    simp
  have hsorted : ((leaves_entries ih.pages A ++ np ++ leaves_entries ih.pages B).map
      Prod.fst).Pairwise (· < ·) := by
    rw [hnew]
    apply pairwise_insert _ _ key value _ hX hY
    rw [← hXY]
    exact valid_entries_sorted ih h hv
  obtain ⟨ih3, hmp, hv3, hent3, hlv3, hnd3, hpl3, hh3, hn3, hlatch3, hdel3, hlen3⟩ :=
    leaf_update_valid ih h hv A B l hsplit np hnpne hsorted
      (ih1.modify_node l (fun _ => { ih.pages l with pairs := np }))
      (by show Function.update ih1.pages l _ = _; rw [hp1])
      (by show ih1.file_hdr = _; exact hs.2.1)
      (by show ih1.next_page_no = _; exact hs.2.2.1) fuel (by omega)
  obtain ⟨f1, f2⟩ := filter_lt_split _ _ key hX hY
  have hentf : leaves_entries ih.pages A ++ np ++ leaves_entries ih.pages B =
      (tree_entries ih h).filter (fun e => decide (e.1 < key)) ++
        (key, value) :: (tree_entries ih h).filter (fun e => decide (key < e.1)) := by
    rw [hnew, hXY, f1, f2]
  have hstep : ih.insert_entry fuel key value =
      if IxNodeHandle.is_full ih3.file_hdr (ih3.fetch_node l) then
        match ih3.split l with
        | Except.error e => Except.error e
        | Except.ok (ih4, new_leaf_node) =>
          match insert_into_parent fuel (ih4.append_index_latch_page_set new_leaf_node)
              l ((ih4.fetch_node new_leaf_node).get_key 0) new_leaf_node with
          | Except.error e => Except.error e
          | Except.ok ih5 =>
            Except.ok (l, IxIndexHandle.unlock_page_set
              (if (ih5.fetch_node new_leaf_node).next_leaf = IX_LEAF_HEADER_PAGE then
                { ih5 with file_hdr := { ih5.file_hdr with last_leaf := new_leaf_node } }
              else ih5))
      else Except.ok (l, ih3.unlock_page_set) := by
    unfold insert_entry
    simp only [hne, Bool.false_eq_true, if_false, hcmp, hfl]
    simp only [fetch_node, hp1, hins]
    rw [if_neg (by omega), hmp]
  have hv3s : valid_shape ih3 h :=
    ⟨hv3.1, hv3.2.1, hv3.2.2.1, hv3.2.2.2.1, hv3.2.2.2.2.1, hv3.2.2.2.2.2.1,
      hv3.2.2.2.2.2.2.1⟩
  have hlleaf := wf_leaf_mem ih.pages h _ _ hv.2.1 l
    (by show l ∈ tree_leaves ih h; rw [hsplit]; simp)
  have hnplen : np.length = (ih.pages l).pairs.length + 1 := by
    rw [← hnp]
    simp only [List.length_append, List.length_take, List.length_cons, List.length_drop]
    omega
  have hocc3 : occ_nodes ih h none → occ_nodes ih3 h (some l) := by
    intro hocc x hx hxr hxl
    have hxl2 : x ≠ l := fun hc => hxl (by rw [hc])
    rw [hh3] at hx hxr ⊢
    rw [hh3] at hnd3
    rw [hnd3] at hx
    unfold get_size
    rw [hlen3 x hxl2]
    exact hocc x hx hxr (by simp)
  have hrootsz3 : h ≠ 0 → (ih3.pages ih3.file_hdr.root_page).pairs.length =
      (ih.pages ih.file_hdr.root_page).pairs.length := by
    intro h0
    rw [hh3]
    apply hlen3
    intro hc
    have h1 := wf_is_leaf ih.pages h _ _ hv.2.1
    rw [hc, hlleaf.1] at h1
    simp at h1
    exact h0 h1
  rw [hstep]
  by_cases hfull : IxNodeHandle.is_full ih3.file_hdr (ih3.fetch_node l) = true
  · rw [if_pos hfull]
    obtain ⟨ihS, ih5, h2, hsp, hii, v5, g1, g2, g3, g4, g5, g6, g7, g8, g9, g10⟩ :=
      insert_into_parent_valid fuel ih3 h 0 l hv3s
        (leaf_sub_at ih3.pages h _ l (by show l ∈ tree_leaves ih3 h; rw [hlv3, hsplit]; simp))
        hfull
        (by
          rw [hpl3]
          show 2 ≤ np.length
          have := List.length_pos.mpr hlleaf.2
          omega)
        (by omega)
    rw [hsp]
    simp only
    rw [hii]
    simp only
    rcases g4 with ⟨_, X, Y, hX3, hY5⟩ | ⟨hc, _⟩
    swap
    · exact absurd rfl hc
    have hvalid := valid_of_shape_last ih5 h2 v5 X Y l ih3.next_page_no hY5
      (by rw [← hX3, g6]; exact hv3.2.2.2.2.2.2.2)
    refine ⟨l, _, h2, rfl, valid_unlock _ _ hvalid, g2, ?_, ?_, ?_, ?_⟩
    · rw [← hentf, ← hent3, ← g3]
      split_ifs <;> rfl
    · rw [← hh3, ← g7]
      split_ifs <;> rfl
    · intro heven hocc
      have := g9 (by rw [hh3]; exact heven) (hocc3 hocc)
      split_ifs
      · exact this
      · exact this
    · intro hR hh2
      have := g10 (fun h0 _ => by rw [hrootsz3 h0]; exact hR h0) hh2
      split_ifs
      · exact this
      · exact this
  · rw [if_neg hfull]
    refine ⟨l, ih3.unlock_page_set, h, rfl, valid_unlock _ _ hv3, by omega,
      hent3.trans hentf, by show ih3.file_hdr.btree_order = _; rw [hh3], ?_, ?_⟩
    · intro heven hocc x hx hxr _
      by_cases hxl : x = l
      · subst hxl
        show get_min_size ih3.file_hdr ≤ (ih3.pages x).get_size ∧
          (ih3.pages x).get_size ≤ get_max_size ih3.file_hdr - 1
        have hx0 : x ∈ subtree_nodes ih.pages h ih.file_hdr.root_page := by
          rw [← hnd3]; exact hx
        have := hocc x hx0 (by rw [← hh3]; exact hxr) (by simp)
        have hnf : ¬ ((ih3.pages x).get_size = get_max_size ih3.file_hdr) := by
          intro hc
          apply hfull
          unfold is_full fetch_node
          simpa using hc
        rw [hh3] at hnf ⊢
        unfold get_size at this hnf ⊢
        rw [hpl3] at hnf ⊢
        simp only at hnf ⊢
        rw [hnplen] at hnf ⊢
        push_cast at hnf ⊢
        omega
      · exact hocc3 hocc x hx hxr (fun hc => hxl (Option.some.inj hc))
    · intro hR hh0
      show 2 ≤ (ih3.pages ih3.file_hdr.root_page).pairs.length
      rw [hrootsz3 hh0]
      exact hR hh0

end RMDB

open RMDB RMDB.IxNodeHandle RMDB.IxIndexHandle

namespace RMDB

/-- The first insert into an empty index creates a root leaf holding the
pair. -/
theorem create_new_tree_spec (ih0 : IxIndexHandle) (key : Int) (rid : Rid)
    (hn : 2 ≤ ih0.next_page_no) :
    ∃ ih2, ih0.create_new_tree key rid = Except.ok ih2 ∧
      (∀ x, ih2.pages x =
        if x = ih0.next_page_no then
          { is_leaf := true, parent := IX_NO_PAGE, prev_leaf := IX_LEAF_HEADER_PAGE,
            next_leaf := IX_LEAF_HEADER_PAGE, pairs := [(key, rid)] }
        else if x = IX_LEAF_HEADER_PAGE then
          { ih0.pages x with prev_leaf := ih0.next_page_no, next_leaf := ih0.next_page_no }
        else ih0.pages x) ∧
      ih2.file_hdr = { ih0.file_hdr with
        num_pages := ih0.file_hdr.num_pages + 1
        root_page := ih0.next_page_no
        first_leaf := ih0.next_page_no
        last_leaf := ih0.next_page_no } ∧
      ih2.next_page_no = ih0.next_page_no + 1 ∧
      ih2.latch_page_set = ih0.latch_page_set ∧
      ih2.deleted_page_set = ih0.deleted_page_set := by
  have key2 : ∀ r, ih0.create_new_tree key rid = r → ∃ ih2, r = Except.ok ih2 ∧
      (∀ x, ih2.pages x =
        if x = ih0.next_page_no then
          { is_leaf := true, parent := IX_NO_PAGE, prev_leaf := IX_LEAF_HEADER_PAGE,
            next_leaf := IX_LEAF_HEADER_PAGE, pairs := [(key, rid)] }
        else if x = IX_LEAF_HEADER_PAGE then
          { ih0.pages x with prev_leaf := ih0.next_page_no, next_leaf := ih0.next_page_no }
        else ih0.pages x) ∧
      ih2.file_hdr = { ih0.file_hdr with
        num_pages := ih0.file_hdr.num_pages + 1
        root_page := ih0.next_page_no
        first_leaf := ih0.next_page_no
        last_leaf := ih0.next_page_no } ∧
      ih2.next_page_no = ih0.next_page_no + 1 ∧
      ih2.latch_page_set = ih0.latch_page_set ∧
      ih2.deleted_page_set = ih0.deleted_page_set := by
    intro r hr
    have h1n : IX_LEAF_HEADER_PAGE ≠ ih0.next_page_no := by
      unfold IX_LEAF_HEADER_PAGE; omega
    unfold create_new_tree at hr
    lift_lets at hr
    extract_lets nr ih1 ih2 ih3 hdr3 ih4 ih5 ih6 ih7 ih8 ih9 at hr
    have hnew : nr = ih0.next_page_no := rfl
    clear_value nr
    subst hnew
    have h1 : ∀ q, ih1.pages q = if q = ih0.next_page_no then zero_node else ih0.pages q :=
      create_node_pages ih0
    have h4 : ∀ q, ih3.pages q = if q = ih0.next_page_no then
        { is_leaf := true, parent := IX_NO_PAGE, prev_leaf := 0, next_leaf := 0, pairs := [] }
        else ih0.pages q := by
      intro q
      simp only [ih3, ih2, modify_node_apply, h1, if_true]
      split_ifs <;> rfl
    have e4 : ih4.pages = ih3.pages := rfl
    have h6 : ∀ q, ih6.pages q =
        if q = IX_LEAF_HEADER_PAGE then
          { ih0.pages q with prev_leaf := ih0.next_page_no, next_leaf := ih0.next_page_no }
        else if q = ih0.next_page_no then
          { is_leaf := true, parent := IX_NO_PAGE, prev_leaf := 0, next_leaf := 0, pairs := [] }
        else ih0.pages q := by
      intro q
      simp only [ih6, ih5, modify_node_apply, e4, h4, if_true, if_neg h1n]
      by_cases hq : q = IX_LEAF_HEADER_PAGE
      · simp only [if_pos hq, hq, if_true]
      · simp only [if_neg hq]
    have h9 : ∀ q, ih9.pages q =
        if q = ih0.next_page_no then
          { is_leaf := true, parent := IX_NO_PAGE, prev_leaf := IX_LEAF_HEADER_PAGE,
            next_leaf := IX_LEAF_HEADER_PAGE, pairs := [] }
        else if q = IX_LEAF_HEADER_PAGE then
          { ih0.pages q with prev_leaf := ih0.next_page_no, next_leaf := ih0.next_page_no }
        else ih0.pages q := by
      intro q
      show ih8.pages q = _
      simp only [ih8, ih7, modify_node_apply, h6, if_true, if_neg (Ne.symm h1n)]
      by_cases hq : q = ih0.next_page_no
      · simp only [if_pos hq]
      · simp only [if_neg hq]
    have hh9 : ih9.file_hdr = { ih0.file_hdr with
          num_pages := ih0.file_hdr.num_pages + 1
          root_page := ih0.next_page_no
          first_leaf := ih0.next_page_no
          last_leaf := ih0.next_page_no } ∧
        ih9.next_page_no = ih0.next_page_no + 1 ∧
        ih9.latch_page_set = ih0.latch_page_set ∧
        ih9.deleted_page_set = ih0.deleted_page_set := ⟨rfl, rfl, rfl, rfl⟩
    have e9n : ih9.fetch_node ih0.next_page_no =
        { is_leaf := true, parent := IX_NO_PAGE, prev_leaf := IX_LEAF_HEADER_PAGE,
          next_leaf := IX_LEAF_HEADER_PAGE, pairs := [] } := by
      simp only [fetch_node, h9, if_true]
    rw [e9n, insert_pair_zero _ rfl] at hr
    simp only at hr
    refine ⟨_, hr.symm, ?_, hh9⟩
    intro x
    rw [modify_node_apply, h9]
    by_cases hx : x = ih0.next_page_no
    · simp only [if_pos hx]
    · simp only [if_neg hx]
  exact key2 _ rfl

/-- Insert into an empty index: the result is a valid tree of height 0 that
holds the one pair. -/
theorem insert_entry_empty (ih : IxIndexHandle) (fuel : Nat) (key : Int) (value : Rid)
    (he : ih.is_empty = true) (hn : 2 ≤ ih.next_page_no) :
    ∃ ih2, ih.insert_entry fuel key value = Except.ok (1, ih2) ∧ Valid ih2 0 ∧
      tree_entries ih2 0 = [(key, value)] ∧
      ih2.file_hdr.btree_order = ih.file_hdr.btree_order := by
  obtain ⟨ih2, hc, hpg, hh, hnn, _, _⟩ := create_new_tree_spec ih key value hn
  refine ⟨ih2, ?_, ?_, ?_, by rw [hh]⟩
  · unfold insert_entry
    rw [if_pos he, hc]
  · have hroot : ih2.file_hdr.root_page = ih.next_page_no := by rw [hh]
    have hpn : ih2.pages ih.next_page_no =
        { is_leaf := true, parent := IX_NO_PAGE, prev_leaf := IX_LEAF_HEADER_PAGE,
          next_leaf := IX_LEAF_HEADER_PAGE, pairs := [(key, value)] } := by
      rw [hpg, if_pos rfl]
    have hp1 : ih2.pages IX_LEAF_HEADER_PAGE =
        { ih.pages IX_LEAF_HEADER_PAGE with
          prev_leaf := ih.next_page_no, next_leaf := ih.next_page_no } := by
      rw [hpg, if_neg (by unfold IX_LEAF_HEADER_PAGE; omega), if_pos rfl]
    refine ⟨?_, ?_, ?_, ?_, ?_, ?_, ?_, ?_⟩
    · rw [hroot]; unfold IX_NO_PAGE; omega
    · rw [hroot]
      exact ⟨by rw [hpn], by rw [hpn], by rw [hpn]; simp⟩
    · rw [hroot]
      simp [subtree_entries, subtree_leaves, leaves_entries, hpn]
    · simp [subtree_nodes]
    · intro p hp
      rw [hroot] at hp
      simp only [subtree_nodes, List.mem_singleton] at hp
      rw [hp, hnn]
      omega
    · rw [hroot]
      show linked ih2.pages IX_LEAF_HEADER_PAGE [ih.next_page_no] IX_LEAF_HEADER_PAGE
      exact ⟨⟨by rw [hp1], by rw [hpn]⟩, by rw [hpn], by rw [hp1]⟩
    · rw [hroot, hh]
      rfl
    · rw [hroot, hh]
      rfl
  · unfold tree_entries
    have hroot : ih2.file_hdr.root_page = ih.next_page_no := by rw [hh]
    rw [hroot]
    simp [subtree_entries, subtree_leaves, leaves_entries, hpg]

end RMDB

open RMDB RMDB.IxNodeHandle RMDB.IxIndexHandle

namespace RMDB

/-- An internal node gets the pairs `T`, each the root of a subtree that is
well formed before and is moved under the node unchanged: the node is the root
of a well-formed subtree made of these subtrees. -/
theorem regroup_internal (P F : Int → IxNodeHandle) (t par2 : Int) (T : List (Int × Rid))
    (k : Nat) (hleaf : (F t).is_leaf = false) (hpar : (F t).parent = par2)
    (hpairs : (F t).pairs = T) (hT : T ≠ [])
    (hch : ∀ e ∈ T, ∃ q, wf_subtree P k e.2.page_no q ∧
      (subtree_nodes P k e.2.page_no).Nodup ∧
      (F e.2.page_no).is_leaf = (P e.2.page_no).is_leaf ∧
      (F e.2.page_no).pairs = (P e.2.page_no).pairs ∧
      (F e.2.page_no).parent = t ∧
      (∀ x ∈ subtree_nodes P k e.2.page_no, x ≠ e.2.page_no → same_content (F x) (P x)) ∧
      ((P e.2.page_no).pairs.head?).map Prod.fst = some e.1) :
    wf_subtree F (k + 1) t par2 ∧
    subtree_leaves F (k + 1) t = T.flatMap (fun e => subtree_leaves P k e.2.page_no) ∧
    subtree_nodes F (k + 1) t = t :: T.flatMap (fun e => subtree_nodes P k e.2.page_no) := by
  have hall : ∀ e ∈ T, wf_subtree F k e.2.page_no t ∧
      subtree_leaves F k e.2.page_no = subtree_leaves P k e.2.page_no ∧
      subtree_nodes F k e.2.page_no = subtree_nodes P k e.2.page_no ∧
      ((F e.2.page_no).pairs.head?).map Prod.fst = some e.1 := by
    intro e he
    obtain ⟨q, w, nd, f1, f2, f3, f4, f5⟩ := hch e he
    obtain ⟨a, b, c⟩ := wf_reparent P F k e.2.page_no q t w nd f1 f2 f3 f4
    exact ⟨a, b, c, by rw [f2]; exact f5⟩
  refine ⟨⟨hleaf, hpar, by rw [hpairs]; exact hT, ?_⟩, ?_, ?_⟩
  · intro e he
    rw [hpairs] at he
    exact ⟨(hall e he).1, (hall e he).2.2.2⟩
  · simp only [subtree_leaves, hpairs]
    exact flatMap_congr_mem _ _ _ (fun e he => (hall e he).2.1)
  · simp only [subtree_nodes, hpairs]
    rw [flatMap_congr_mem _ _ _ (fun e he => (hall e he).2.2.1)]

/-- A leaf is unlinked from the chain: its predecessor and its successor are
linked to each other. -/
theorem linked_remove (P F : Int → IxNodeHandle) (a b : Int) (D : Int → Prop)
    (han : (F a).next_leaf = (P b).next_leaf)
    (hnx : (F (P b).next_leaf).prev_leaf = a)
    (hnext : ∀ x, D x → x ≠ a → (F x).next_leaf = (P x).next_leaf)
    (hprev : ∀ x, D x → x ≠ (P b).next_leaf → (F x).prev_leaf = (P x).prev_leaf)
    (z : Int) (hDz : D z) (Y : List Int) :
    ∀ (X : List Int) (s : Int), linked P s (X ++ a :: b :: Y) z →
      (X ++ a :: b :: Y).Nodup → z ∉ X ++ a :: b :: Y → s ≠ a → D s →
      (∀ x ∈ X ++ a :: b :: Y, D x) →
      linked F s (X ++ a :: Y) z := by
  intro X
  induction X with
  | nil =>
    intro s hl hnd hz hsa hDs hD
    simp only [List.nil_append] at hl hnd hz hD ⊢
    obtain ⟨⟨l1, l2⟩, ⟨l3, l4⟩, l5⟩ := hl
    have hab : a ≠ b := by
      intro hc
      rw [List.nodup_cons] at hnd
      exact hnd.1 (by simp [hc])
    have hDa : D a := hD a (by simp)
    cases Y with
    | nil =>
      obtain ⟨l6, l7⟩ := l5
      have haz : a ≠ z := fun hc => hz (by simp [hc])
      refine ⟨⟨by rw [hnext s hDs hsa]; exact l1, ?_⟩, by rw [han]; exact l6,
        by rw [← l6]; exact hnx⟩
      rw [hprev a hDa (by rw [l6]; exact haz)]
      exact l2
    | cons y Y =>
      obtain ⟨⟨l6, l7⟩, l8⟩ := l5
      have hnd2 := (List.nodup_cons.mp hnd).2
      have hnd3 := (List.nodup_cons.mp hnd2).2
      have hay : a ≠ y := by
        intro hc
        exact (List.nodup_cons.mp hnd).1 (by simp [hc])
      refine ⟨⟨by rw [hnext s hDs hsa]; exact l1, ?_⟩, ⟨by rw [han]; exact l6,
        by rw [← l6]; exact hnx⟩, ?_⟩
      · rw [hprev a hDa (by rw [l6]; exact hay)]
        exact l2
      · apply linked_congr_on P F Y y z l8
        · exact hnext y (hD y (by simp)) (fun hc => hay hc.symm)
        · intro x hx
          have hxa : x ≠ a := by
            rintro rfl
            exact (List.nodup_cons.mp hnd).1 (by simp [hx])
          have hxy : x ≠ y := by
            rintro rfl
            exact (List.nodup_cons.mp hnd3).1 hx
          exact ⟨hnext x (hD x (by simp [hx])) hxa,
            hprev x (hD x (by simp [hx])) (by rw [l6]; exact hxy)⟩
        · apply hprev z hDz
          rw [l6]
          exact fun hc => hz (by simp [hc])
  | cons x X ih =>
    intro s hl hnd hz hsa hDs hD
    simp only [List.cons_append] at hl hnd hz hD ⊢
    obtain ⟨⟨l1, l2⟩, l3⟩ := hl
    have hnd2 := (List.nodup_cons.mp hnd).2
    have hxnot := (List.nodup_cons.mp hnd).1
    have hxa : x ≠ a := fun hc => hxnot (by simp [hc])
    have hxz : x ≠ z := fun hc => hz (by simp [hc])
    have hDx : D x := hD x (by simp)
    have hnl : (P b).next_leaf = z ∨ (P b).next_leaf ∈ Y := by
      have := linked_split P (X ++ [a]) x b Y z (by simpa using l3)
      cases Y with
      | nil => exact Or.inl this.1
      | cons y Y => exact Or.inr (by rw [this.1.1]; simp)
    have hxx : x ≠ (P b).next_leaf := by
      rcases hnl with h1 | h1
      · rw [h1]; exact hxz
      · intro hc
        exact hxnot (by rw [hc]; simp [h1])
    refine ⟨⟨by rw [hnext s hDs hsa]; exact l1, by rw [hprev x hDx hxx]; exact l2⟩, ?_⟩
    exact ih x l3 hnd2 (fun hc => hz (by simp [hc])) hxa hDx (fun y hy => hD y (by simp [hy]))

end RMDB

open RMDB RMDB.IxNodeHandle RMDB.IxIndexHandle

namespace RMDB

theorem nodup_pair (P : Int → IxNodeHandle) (hn : Nat) (par : Int) (Q1 Q2 : List (Int × Rid))
    (eL eR : Int × Rid) (hpar : (P par).pairs = Q1 ++ eL :: eR :: Q2)
    (hnd : (subtree_nodes P (hn + 1) par).Nodup) :
    (subtree_nodes P hn eL.2.page_no ++ subtree_nodes P hn eR.2.page_no).Nodup := by
  simp only [subtree_nodes, List.nodup_cons, hpar, List.flatMap_append, List.flatMap_cons] at hnd
  have h1 := (List.nodup_append.mp hnd.2).2.1
  rw [← List.append_assoc] at h1
  exact (List.nodup_append.mp h1).1

/-- The facts about two adjacent children `a`, `b` of a node `par` of a tree with
distinct pages. -/
theorem pair_facts (P : Int → IxNodeHandle) (hn : Nat) (par gp : Int)
    (Q1 Q2 : List (Int × Rid)) (eL eR : Int × Rid)
    (hpar : (P par).pairs = Q1 ++ eL :: eR :: Q2)
    (hw : wf_subtree P (hn + 1) par gp)
    (hnd : (subtree_nodes P (hn + 1) par).Nodup) :
    wf_subtree P hn eL.2.page_no par ∧ wf_subtree P hn eR.2.page_no par ∧
    ((P eL.2.page_no).pairs.head?).map Prod.fst = some eL.1 ∧
    ((P eR.2.page_no).pairs.head?).map Prod.fst = some eR.1 ∧
    (∀ x ∈ subtree_nodes P hn eL.2.page_no, x ≠ par ∧ x ∉ subtree_nodes P hn eR.2.page_no ∧
      x ∈ subtree_nodes P (hn + 1) par) ∧
    (∀ x ∈ subtree_nodes P hn eR.2.page_no, x ≠ par ∧ x ∉ subtree_nodes P hn eL.2.page_no ∧
      x ∈ subtree_nodes P (hn + 1) par) ∧
    (∀ q, q ∈ Q1 ∨ q ∈ Q2 → ∀ x ∈ subtree_nodes P hn q.2.page_no,
      x ≠ par ∧ x ∉ subtree_nodes P hn eL.2.page_no ∧ x ∉ subtree_nodes P hn eR.2.page_no ∧
      x ∈ subtree_nodes P (hn + 1) par) ∧
    (∀ q, q ∈ Q1 ∨ q ∈ Q2 → q ∈ (P par).pairs) := by
  have heL : eL ∈ (P par).pairs := by rw [hpar]; simp
  have heR : eR ∈ (P par).pairs := by rw [hpar]; simp
  have hpn := nodup_pair P hn par Q1 Q2 eL eR hpar hnd
  have hdis := (List.nodup_append.mp hpn).2.2
  have hndf : ((Q1 ++ eL :: eR :: Q2).flatMap (fun e => subtree_nodes P hn e.2.page_no)).Nodup := by
    have := hnd
    simp only [subtree_nodes, List.nodup_cons, hpar] at this
    exact this.2
  have hQm : ∀ q, q ∈ Q1 ∨ q ∈ Q2 → q ∈ (P par).pairs := by
    intro q hq
    rw [hpar]
    rcases hq with hq | hq
    · exact List.mem_append_left _ hq
    · exact List.mem_append_right _ (List.mem_cons_of_mem _ (List.mem_cons_of_mem _ hq))
  refine ⟨(hw.2.2.2 eL heL).1, (hw.2.2.2 eR heR).1, (hw.2.2.2 eL heL).2, (hw.2.2.2 eR heR).2,
    ?_, ?_, ?_, hQm⟩
  · intro x hx
    exact ⟨child_nodes_ne P hn par hnd eL heL x hx, fun hc => hdis hx hc,
      child_nodes_mem P hn par eL heL x hx⟩
  · intro x hx
    exact ⟨child_nodes_ne P hn par hnd eR heR x hx, fun hc => hdis hc hx,
      child_nodes_mem P hn par eR heR x hx⟩
  · intro q hq x hx
    refine ⟨child_nodes_ne P hn par hnd q (hQm q hq) x hx, ?_, ?_,
      child_nodes_mem P hn par q (hQm q hq) x hx⟩
    · have h1 : Q1 ++ eL :: eR :: Q2 = Q1 ++ eL :: (eR :: Q2) := rfl
      rw [h1] at hndf
      rcases hq with hq | hq
      · exact flatMap_disjoint_left _ Q1 (eR :: Q2) eL hndf q (Or.inl hq) x hx
      · exact flatMap_disjoint_left _ Q1 (eR :: Q2) eL hndf q
          (Or.inr (List.mem_cons_of_mem _ hq)) x hx
    · have h1 : Q1 ++ eL :: eR :: Q2 = (Q1 ++ [eL]) ++ eR :: Q2 := by simp
      rw [h1] at hndf
      rcases hq with hq | hq
      · exact flatMap_disjoint_left _ (Q1 ++ [eL]) Q2 eR hndf q
          (Or.inl (List.mem_append_left _ hq)) x hx
      · exact flatMap_disjoint_left _ (Q1 ++ [eL]) Q2 eR hndf q (Or.inr hq) x hx

/-- The grandchildren under two adjacent children, taken together: subtrees of
different entries share no page, and none of them holds `a`, `b` or `par`. -/
theorem grand_facts (P : Int → IxNodeHandle) (k : Nat) (par gp : Int)
    (Q1 Q2 : List (Int × Rid)) (eL eR : Int × Rid)
    (hpar : (P par).pairs = Q1 ++ eL :: eR :: Q2)
    (hw : wf_subtree P (k + 2) par gp)
    (hnd : (subtree_nodes P (k + 2) par).Nodup) :
    ∀ e ∈ (P eL.2.page_no).pairs ++ (P eR.2.page_no).pairs,
      (∃ q, wf_subtree P k e.2.page_no q) ∧ (subtree_nodes P k e.2.page_no).Nodup ∧
      ((P e.2.page_no).pairs.head?).map Prod.fst = some e.1 ∧
      (∀ x ∈ subtree_nodes P k e.2.page_no, x ≠ par ∧ x ≠ eL.2.page_no ∧ x ≠ eR.2.page_no ∧
        (x ∈ subtree_nodes P (k + 1) eL.2.page_no ∨ x ∈ subtree_nodes P (k + 1) eR.2.page_no) ∧
        ∀ e2 ∈ (P eL.2.page_no).pairs ++ (P eR.2.page_no).pairs,
          x ∈ subtree_nodes P k e2.2.page_no → e2 = e) := by
  obtain ⟨wa, wb, _, _, fa, fb, _, _⟩ := pair_facts P (k + 1) par gp Q1 Q2 eL eR hpar hw hnd
  have hpn := nodup_pair P (k + 1) par Q1 Q2 eL eR hpar hnd
  have hnda := (List.nodup_append.mp hpn).1
  have hndb := (List.nodup_append.mp hpn).2.1
  have hC : (((P eL.2.page_no).pairs ++ (P eR.2.page_no).pairs).flatMap
      (fun e => subtree_nodes P k e.2.page_no)).Nodup := by
    have h1 := hpn
    simp only [subtree_nodes, List.cons_append] at h1
    have h2 := (List.nodup_cons.mp h1).2
    have h3 : ((P eL.2.page_no).pairs.flatMap (fun e => subtree_nodes P k e.2.page_no) ++
        (P eR.2.page_no).pairs.flatMap (fun e => subtree_nodes P k e.2.page_no)).Nodup := by
      rw [List.nodup_append] at h2 ⊢
      refine ⟨h2.1, (List.nodup_cons.mp h2.2.1).2, ?_⟩
      intro x hx1 hx2
      exact h2.2.2 hx1 (List.mem_cons_of_mem _ hx2)
    rw [List.flatMap_append]
    exact h3
  intro e he
  have hside : (e ∈ (P eL.2.page_no).pairs ∧ wf_subtree P k e.2.page_no eL.2.page_no ∧
        (subtree_nodes P k e.2.page_no).Nodup ∧
        ((P e.2.page_no).pairs.head?).map Prod.fst = some e.1) ∨
      (e ∈ (P eR.2.page_no).pairs ∧ wf_subtree P k e.2.page_no eR.2.page_no ∧
        (subtree_nodes P k e.2.page_no).Nodup ∧
        ((P e.2.page_no).pairs.head?).map Prod.fst = some e.1) := by
    rcases List.mem_append.mp he with h1 | h1
    · exact Or.inl ⟨h1, (wa.2.2.2 e h1).1, nodup_child P k _ hnda e h1, (wa.2.2.2 e h1).2⟩
    · exact Or.inr ⟨h1, (wb.2.2.2 e h1).1, nodup_child P k _ hndb e h1, (wb.2.2.2 e h1).2⟩
  have hmemside : ∀ x ∈ subtree_nodes P k e.2.page_no,
      (e ∈ (P eL.2.page_no).pairs ∧ x ∈ subtree_nodes P (k + 1) eL.2.page_no ∧
        x ≠ eL.2.page_no) ∨
      (e ∈ (P eR.2.page_no).pairs ∧ x ∈ subtree_nodes P (k + 1) eR.2.page_no ∧
        x ≠ eR.2.page_no) := by
    intro x hx
    rcases hside with ⟨h1, _⟩ | ⟨h1, _⟩
    · exact Or.inl ⟨h1, child_nodes_mem P k _ e h1 x hx, child_nodes_ne P k _ hnda e h1 x hx⟩
    · exact Or.inr ⟨h1, child_nodes_mem P k _ e h1 x hx, child_nodes_ne P k _ hndb e h1 x hx⟩
  refine ⟨?_, ?_, ?_, ?_⟩
  · rcases hside with ⟨_, h2, _⟩ | ⟨_, h2, _⟩
    · exact ⟨_, h2⟩
    · exact ⟨_, h2⟩
  · rcases hside with ⟨_, _, h3, _⟩ | ⟨_, _, h3, _⟩ <;> exact h3
  · rcases hside with ⟨_, _, _, h4⟩ | ⟨_, _, _, h4⟩ <;> exact h4
  · intro x hx
    rcases hmemside x hx with ⟨_, h2, h3⟩ | ⟨_, h2, h3⟩
    · refine ⟨(fa x h2).1, h3, ?_, Or.inl h2, ?_⟩
      · intro hc
        exact (fa x h2).2.1 (hc ▸ mem_subtree_nodes_self P (k + 1) _)
      · intro e2 he2 hx2
        exact flatMap_nodup_inj _ _ hC e2 he2 e he x hx2 hx
    · refine ⟨(fb x h2).1, ?_, h3, Or.inr h2, ?_⟩
      · intro hc
        exact (fb x h2).2.1 (hc ▸ mem_subtree_nodes_self P (k + 1) _)
      · intro e2 he2 hx2
        exact flatMap_nodup_inj _ _ hC e2 he2 e he x hx2 hx


/-- Two adjacent children `a`, `b` of `par` whose pairs are regrouped into `A2`
and `B2` (same concatenation): both are well-formed again under `par`, with the
same leaves in order, the same pages, and the same stored pairs. -/
theorem pair_sub (P F : Int → IxNodeHandle) (hn : Nat) (par gp : Int)
    (Q1 Q2 : List (Int × Rid)) (eL eR : Int × Rid)
    (hpar : (P par).pairs = Q1 ++ eL :: eR :: Q2)
    (hw : wf_subtree P (hn + 1) par gp)
    (hnd : (subtree_nodes P (hn + 1) par).Nodup)
    (A2 B2 : List (Int × Rid))
    (hAB : A2 ++ B2 = (P eL.2.page_no).pairs ++ (P eR.2.page_no).pairs)
    (hA : A2 ≠ []) (hB : B2 ≠ [])
    (hFa : F eL.2.page_no = { P eL.2.page_no with pairs := A2 })
    (hFb : F eR.2.page_no = { P eR.2.page_no with pairs := B2 })
    (hFo : ∀ x, x ≠ par → x ≠ eL.2.page_no → x ≠ eR.2.page_no →
        (F x).is_leaf = (P x).is_leaf ∧ (F x).pairs = (P x).pairs ∧
        (hn ≠ 0 → ∀ e ∈ A2, x = e.2.page_no → (F x).parent = eL.2.page_no) ∧
        (hn ≠ 0 → ∀ e ∈ B2, x = e.2.page_no → (F x).parent = eR.2.page_no) ∧
        ((hn ≠ 0 → ∀ e ∈ A2 ++ B2, x ≠ e.2.page_no) → (F x).parent = (P x).parent)) :
    wf_subtree F hn eL.2.page_no par ∧ wf_subtree F hn eR.2.page_no par ∧
    subtree_leaves F hn eL.2.page_no ++ subtree_leaves F hn eR.2.page_no =
      subtree_leaves P hn eL.2.page_no ++ subtree_leaves P hn eR.2.page_no ∧
    (subtree_nodes F hn eL.2.page_no ++ subtree_nodes F hn eR.2.page_no).Perm
      (subtree_nodes P hn eL.2.page_no ++ subtree_nodes P hn eR.2.page_no) ∧
    leaves_entries F (subtree_leaves P hn eL.2.page_no ++ subtree_leaves P hn eR.2.page_no) =
      leaves_entries P (subtree_leaves P hn eL.2.page_no ++ subtree_leaves P hn eR.2.page_no) := by
  obtain ⟨wa, wb, _, _, fa, fb, _, _⟩ := pair_facts P hn par gp Q1 Q2 eL eR hpar hw hnd
  cases hn with
  | zero =>
    refine ⟨⟨?_, ?_, ?_⟩, ⟨?_, ?_, ?_⟩, rfl, List.Perm.refl _, ?_⟩
    · rw [hFa]; exact wa.1
    · rw [hFa]; exact wa.2.1
    · rw [hFa]; exact hA
    · rw [hFb]; exact wb.1
    · rw [hFb]; exact wb.2.1
    · rw [hFb]; exact hB
    · simp only [subtree_leaves, List.singleton_append, leaves_entries_cons, leaves_entries_nil,
        List.append_nil]
      rw [hFa, hFb]
      exact hAB
  | succ k =>
    have G := grand_facts P k par gp Q1 Q2 eL eR hpar hw hnd
    have hch : ∀ (T : List (Int × Rid)) (t : Int), (∀ e ∈ T, e ∈ A2 ++ B2) →
        (∀ x, x ≠ par → x ≠ eL.2.page_no → x ≠ eR.2.page_no →
          ∀ e ∈ T, x = e.2.page_no → (F x).parent = t) →
        ∀ e ∈ T, ∃ q, wf_subtree P k e.2.page_no q ∧
          (subtree_nodes P k e.2.page_no).Nodup ∧
          (F e.2.page_no).is_leaf = (P e.2.page_no).is_leaf ∧
          (F e.2.page_no).pairs = (P e.2.page_no).pairs ∧
          (F e.2.page_no).parent = t ∧
          (∀ x ∈ subtree_nodes P k e.2.page_no, x ≠ e.2.page_no → same_content (F x) (P x)) ∧
          ((P e.2.page_no).pairs.head?).map Prod.fst = some e.1 := by
      intro T t hT hTp e he
      have heC : e ∈ (P eL.2.page_no).pairs ++ (P eR.2.page_no).pairs := hAB ▸ hT e he
      obtain ⟨⟨q, wq⟩, ndq, hdq, hx⟩ := G e heC
      obtain ⟨x1, x2, x3, _, _⟩ := hx e.2.page_no (mem_subtree_nodes_self P k _)
      obtain ⟨o1, o2, _, _, _⟩ := hFo e.2.page_no x1 x2 x3
      refine ⟨q, wq, ndq, o1, o2, hTp e.2.page_no x1 x2 x3 e he rfl, ?_, hdq⟩
      intro x hxm hxne
      obtain ⟨y1, y2, y3, _, y5⟩ := hx x hxm
      obtain ⟨p1, p2, _, _, p5⟩ := hFo x y1 y2 y3
      refine ⟨p1, p5 ?_, p2⟩
      intro _ e2 he2 hc
      have he2C : e2 ∈ (P eL.2.page_no).pairs ++ (P eR.2.page_no).pairs := hAB ▸ he2
      have := y5 e2 he2C (hc ▸ mem_subtree_nodes_self P k _)
      exact hxne (by rw [hc, this])
    have ra := regroup_internal P F eL.2.page_no par A2 k (by rw [hFa]; exact wa.1)
      (by rw [hFa]; exact wa.2.1) (by rw [hFa]) hA
      (hch A2 eL.2.page_no (fun e he => List.mem_append_left _ he)
        (fun x x1 x2 x3 e he hxe => (hFo x x1 x2 x3).2.2.1 (by omega) e he hxe))
    have rb := regroup_internal P F eR.2.page_no par B2 k (by rw [hFb]; exact wb.1)
      (by rw [hFb]; exact wb.2.1) (by rw [hFb]) hB
      (hch B2 eR.2.page_no (fun e he => List.mem_append_right _ he)
        (fun x x1 x2 x3 e he hxe => (hFo x x1 x2 x3).2.2.2.1 (by omega) e he hxe))
    refine ⟨ra.1, rb.1, ?_, ?_, ?_⟩
    · rw [ra.2.1, rb.2.1, ← List.flatMap_append, hAB, List.flatMap_append]
      rfl
    · rw [ra.2.2, rb.2.2]
      simp only [subtree_nodes, List.cons_append]
      refine List.Perm.cons _ ?_
      refine (List.perm_middle).trans ?_
      refine List.Perm.trans ?_ (List.perm_middle).symm
      refine List.Perm.cons _ ?_
      rw [← List.flatMap_append, hAB, List.flatMap_append]
    · apply leaves_entries_congr
      intro l hl
      have hmem : ∃ e ∈ (P eL.2.page_no).pairs ++ (P eR.2.page_no).pairs,
          l ∈ subtree_nodes P k e.2.page_no := by
        simp only [subtree_leaves, ← List.flatMap_append] at hl
        obtain ⟨e, he, hle⟩ := List.mem_flatMap.mp hl
        exact ⟨e, he, (leaves_sublist_nodes P k e.2.page_no).subset hle⟩
      obtain ⟨e, he, hle⟩ := hmem
      obtain ⟨y1, y2, y3, _, _⟩ := (G e he).2.2.2 l hle
      exact (hFo l y1 y2 y3).2.1

end RMDB

open RMDB RMDB.IxNodeHandle RMDB.IxIndexHandle

namespace RMDB

theorem flatMap_pair {α β : Type} (f : α → List β) (Q1 Q2 : List α) (x y : α) :
    (Q1 ++ x :: y :: Q2).flatMap f = Q1.flatMap f ++ (f x ++ f y) ++ Q2.flatMap f := by
  simp

/-- Regrouping the pairs of two adjacent siblings (what `redistribute` does):
the tree keeps its shape, its leaves in order, its pages and its stored
pairs. -/
theorem pair_regroup (P F : Int → IxNodeHandle) (h : Nat) (root : Int)
    (hw : wf_subtree P h root IX_NO_PAGE)
    (hnd : (subtree_nodes P h root).Nodup)
    (hn : Nat) (par : Int) (hs : sub_at P (hn + 1) par h root)
    (Q1 Q2 : List (Int × Rid)) (eL eR : Int × Rid)
    (hpar : (P par).pairs = Q1 ++ eL :: eR :: Q2)
    (A2 B2 : List (Int × Rid))
    (hAB : A2 ++ B2 = (P eL.2.page_no).pairs ++ (P eR.2.page_no).pairs)
    (hA : A2 ≠ []) (hB : B2 ≠ [])
    (hhead : (A2.head?).map Prod.fst = ((P eL.2.page_no).pairs.head?).map Prod.fst)
    (kB : Int) (hkB : (B2.head?).map Prod.fst = some kB)
    (hFpar : F par = { P par with pairs := Q1 ++ eL :: (kB, eR.2) :: Q2 })
    (hFa : F eL.2.page_no = { P eL.2.page_no with pairs := A2 })
    (hFb : F eR.2.page_no = { P eR.2.page_no with pairs := B2 })
    (hFo : ∀ x, x ≠ par → x ≠ eL.2.page_no → x ≠ eR.2.page_no →
        (F x).is_leaf = (P x).is_leaf ∧ (F x).pairs = (P x).pairs ∧
        (hn ≠ 0 → ∀ e ∈ A2, x = e.2.page_no → (F x).parent = eL.2.page_no) ∧
        (hn ≠ 0 → ∀ e ∈ B2, x = e.2.page_no → (F x).parent = eR.2.page_no) ∧
        ((hn ≠ 0 → ∀ e ∈ A2 ++ B2, x ≠ e.2.page_no) → (F x).parent = (P x).parent)) :
    wf_subtree F h root IX_NO_PAGE ∧
    subtree_leaves F h root = subtree_leaves P h root ∧
    (subtree_nodes F h root).Perm (subtree_nodes P h root) ∧
    subtree_entries F h root = subtree_entries P h root := by
  have hwpar := sub_at_wf P (hn + 1) par h root IX_NO_PAGE hw hs
  have hndpar := sub_at_nodup P (hn + 1) par h root hs hnd
  obtain ⟨wa, wb, hha, hhb, fa, fb, fq, hQm⟩ :=
    pair_facts P hn par _ Q1 Q2 eL eR hpar hwpar hndpar
  obtain ⟨wFa, wFb, hlv, hndp, hent⟩ := pair_sub P F hn par _ Q1 Q2 eL eR hpar hwpar hndpar
    A2 B2 hAB hA hB hFa hFb hFo
  -- pages outside the two subtrees keep their content
  have hout : ∀ x, x ≠ par → x ∉ subtree_nodes P hn eL.2.page_no →
      x ∉ subtree_nodes P hn eR.2.page_no → same_content (F x) (P x) := by
    intro x x1 x2 x3
    have xa : x ≠ eL.2.page_no := fun hc => x2 (hc ▸ mem_subtree_nodes_self P hn _)
    have xb : x ≠ eR.2.page_no := fun hc => x3 (hc ▸ mem_subtree_nodes_self P hn _)
    obtain ⟨p1, p2, _, _, p5⟩ := hFo x x1 xa xb
    refine ⟨p1, p5 ?_, p2⟩
    intro hn0 e he hc
    have heC : e ∈ (P eL.2.page_no).pairs ++ (P eR.2.page_no).pairs := hAB ▸ he
    obtain ⟨k, hk⟩ : ∃ k, hn = k + 1 := ⟨hn - 1, by omega⟩
    subst hk
    rcases List.mem_append.mp heC with h1 | h1
    · exact x2 (hc ▸ child_nodes_mem P k _ e h1 _ (mem_subtree_nodes_self P k _))
    · exact x3 (hc ▸ child_nodes_mem P k _ e h1 _ (mem_subtree_nodes_self P k _))
  have hsib : ∀ q, q ∈ Q1 ∨ q ∈ Q2 → wf_subtree F hn q.2.page_no par ∧
      subtree_leaves F hn q.2.page_no = subtree_leaves P hn q.2.page_no ∧
      subtree_nodes F hn q.2.page_no = subtree_nodes P hn q.2.page_no ∧
      ((F q.2.page_no).pairs.head?).map Prod.fst = some q.1 ∧
      (∀ l ∈ subtree_nodes P hn q.2.page_no, (F l).pairs = (P l).pairs) := by
    intro q hq
    have hqm := hQm q hq
    have hsame : ∀ x ∈ subtree_nodes P hn q.2.page_no, same_content (F x) (P x) := by
      intro x hx
      obtain ⟨y1, y2, y3, _⟩ := fq q hq x hx
      exact hout x y1 y2 y3
    obtain ⟨r1, r2, r3⟩ := wf_frame P F hn q.2.page_no par (hwpar.2.2.2 q hqm).1
      (nodup_child P hn par hndpar q hqm) hsame
    refine ⟨r1, r2, r3, ?_, fun l hl => (hsame l hl).2.2⟩
    rw [(hsame _ (mem_subtree_nodes_self P hn _)).2.2]
    exact (hwpar.2.2.2 q hqm).2
  have hwFpar : wf_subtree F (hn + 1) par (P par).parent := by
    refine ⟨by rw [hFpar]; exact hwpar.1, by rw [hFpar], by rw [hFpar]; simp, ?_⟩
    intro e he
    rw [hFpar] at he
    simp only [List.mem_append, List.mem_cons] at he
    rcases he with h1 | h1 | h1 | h1
    · exact ⟨(hsib e (Or.inl h1)).1, (hsib e (Or.inl h1)).2.2.2.1⟩
    · subst h1
      refine ⟨wFa, ?_⟩
      rw [hFa]
      exact hhead.trans hha
    · subst h1
      refine ⟨wFb, ?_⟩
      show (((F eR.2.page_no).pairs.head?).map Prod.fst) = some kB
      rw [hFb]
      exact hkB
    · exact ⟨(hsib e (Or.inr h1)).1, (hsib e (Or.inr h1)).2.2.2.1⟩
  have hheadpar : ((F par).pairs.head?).map Prod.fst = ((P par).pairs.head?).map Prod.fst := by
    rw [hFpar, hpar]
    cases Q1 <;> simp
  have hsame : ∀ x ∈ subtree_nodes P h root, x ∉ subtree_nodes P (hn + 1) par →
      same_content (F x) (P x) := by
    intro x _ hx
    refine hout x (fun hc => hx (hc ▸ mem_subtree_nodes_self P _ _)) ?_ ?_
    · intro hc
      exact hx (fa x hc).2.2
    · intro hc
      exact hx (fb x hc).2.2
  obtain ⟨wF, _, A, B, NA, NB, e1, e2, e3, e4, hABout, _⟩ :=
    subtree_replace P F (hn + 1) par hwFpar hheadpar h root IX_NO_PAGE hs hw hnd hsame
  have hlvpar : subtree_leaves F (hn + 1) par = subtree_leaves P (hn + 1) par := by
    show (F par).pairs.flatMap _ = (P par).pairs.flatMap _
    rw [hFpar, hpar]
    show (Q1 ++ eL :: (kB, eR.2) :: Q2).flatMap _ = _
    rw [flatMap_pair, flatMap_pair]
    show _ ++ (subtree_leaves F hn eL.2.page_no ++ subtree_leaves F hn eR.2.page_no) ++ _ = _
    rw [hlv, flatMap_congr_mem _ (fun e => subtree_leaves P hn e.2.page_no) Q1
        (fun q hq => (hsib q (Or.inl hq)).2.1),
      flatMap_congr_mem _ (fun e => subtree_leaves P hn e.2.page_no) Q2
        (fun q hq => (hsib q (Or.inr hq)).2.1)]
  have hndspar : (subtree_nodes F (hn + 1) par).Perm (subtree_nodes P (hn + 1) par) := by
    show (par :: (F par).pairs.flatMap _).Perm (par :: (P par).pairs.flatMap _)
    rw [hFpar, hpar]
    show (par :: (Q1 ++ eL :: (kB, eR.2) :: Q2).flatMap _).Perm _
    rw [flatMap_pair, flatMap_pair]
    show (par :: (_ ++ (subtree_nodes F hn eL.2.page_no ++ subtree_nodes F hn eR.2.page_no)
      ++ _)).Perm _
    rw [flatMap_congr_mem _ (fun e => subtree_nodes P hn e.2.page_no) Q1
        (fun q hq => (hsib q (Or.inl hq)).2.2.1),
      flatMap_congr_mem _ (fun e => subtree_nodes P hn e.2.page_no) Q2
        (fun q hq => (hsib q (Or.inr hq)).2.2.1)]
    exact List.Perm.cons _ (List.Perm.append_right _ (List.Perm.append_left _ hndp))
  have hleaves : subtree_leaves F h root = subtree_leaves P h root := by
    rw [e2, e1, hlvpar]
  refine ⟨wF, hleaves, ?_, ?_⟩
  · rw [e4, e3]
    exact List.Perm.append_right _ (List.Perm.append_left _ hndspar)
  · show leaves_entries F (subtree_leaves F h root) = leaves_entries P (subtree_leaves P h root)
    rw [hleaves, e1]
    have hlp : subtree_leaves P (hn + 1) par =
        Q1.flatMap (fun e => subtree_leaves P hn e.2.page_no) ++
          (subtree_leaves P hn eL.2.page_no ++ subtree_leaves P hn eR.2.page_no) ++
          Q2.flatMap (fun e => subtree_leaves P hn e.2.page_no) := by
      show (P par).pairs.flatMap _ = _
      rw [hpar, flatMap_pair]
    rw [hlp]
    simp only [leaves_entries_append]
    have hAo : ∀ l ∈ A ++ B, (F l).pairs = (P l).pairs := by
      intro l hl
      have hl2 := hABout l hl
      have : l ∈ subtree_nodes P h root := by
        have : l ∈ subtree_leaves P h root := by
          rw [e1]
          simp only [List.mem_append] at hl ⊢
          tauto
        exact (leaves_sublist_nodes P h root).subset this
      exact (hsame l this hl2).2.2
    have hQo : ∀ Q : List (Int × Rid), (∀ q ∈ Q, q ∈ Q1 ∨ q ∈ Q2) →
        leaves_entries F (Q.flatMap (fun e => subtree_leaves P hn e.2.page_no)) =
        leaves_entries P (Q.flatMap (fun e => subtree_leaves P hn e.2.page_no)) := by
      intro Q hQ
      apply leaves_entries_congr
      intro l hl
      obtain ⟨q, hq, hlq⟩ := List.mem_flatMap.mp hl
      exact (hsib q (hQ q hq)).2.2.2.2 l ((leaves_sublist_nodes P hn _).subset hlq)
    rw [leaves_entries_congr P F A (fun l hl => hAo l (List.mem_append_left _ hl)),
      leaves_entries_congr P F B (fun l hl => hAo l (List.mem_append_right _ hl)),
      hQo Q1 (fun q hq => Or.inl hq), hQo Q2 (fun q hq => Or.inr hq)]
    rw [← leaves_entries_append F (subtree_leaves P hn eL.2.page_no), hent,
      leaves_entries_append]

end RMDB

open RMDB RMDB.IxNodeHandle RMDB.IxIndexHandle

namespace RMDB

theorem flatMap_one {α β : Type} (f : α → List β) (Q1 Q2 : List α) (x : α) :
    (Q1 ++ x :: Q2).flatMap f = Q1.flatMap f ++ f x ++ Q2.flatMap f := by
  simp

/-- The right one `b` of two adjacent children is merged into the left one
`a`: `a` is well-formed under `par` with the leaves, pages and pairs of both. -/
theorem merge_sub (P F : Int → IxNodeHandle) (hn : Nat) (par gp : Int)
    (Q1 Q2 : List (Int × Rid)) (eL eR : Int × Rid)
    (hpar : (P par).pairs = Q1 ++ eL :: eR :: Q2)
    (hw : wf_subtree P (hn + 1) par gp)
    (hnd : (subtree_nodes P (hn + 1) par).Nodup)
    (hFa1 : (F eL.2.page_no).is_leaf = (P eL.2.page_no).is_leaf)
    (hFa2 : (F eL.2.page_no).parent = (P eL.2.page_no).parent)
    (hFa3 : (F eL.2.page_no).pairs = (P eL.2.page_no).pairs ++ (P eR.2.page_no).pairs)
    (hFo : ∀ x, x ≠ par → x ≠ eL.2.page_no → x ≠ eR.2.page_no →
        (F x).is_leaf = (P x).is_leaf ∧ (F x).pairs = (P x).pairs ∧
        (hn ≠ 0 → ∀ e ∈ (P eR.2.page_no).pairs, x = e.2.page_no →
          (F x).parent = eL.2.page_no) ∧
        ((hn ≠ 0 → ∀ e ∈ (P eR.2.page_no).pairs, x ≠ e.2.page_no) →
          (F x).parent = (P x).parent)) :
    wf_subtree F hn eL.2.page_no par ∧
    (hn = 0 → subtree_leaves F hn eL.2.page_no = [eL.2.page_no] ∧
      subtree_leaves P hn eL.2.page_no = [eL.2.page_no] ∧
      subtree_leaves P hn eR.2.page_no = [eR.2.page_no]) ∧
    (hn ≠ 0 → subtree_leaves F hn eL.2.page_no =
      subtree_leaves P hn eL.2.page_no ++ subtree_leaves P hn eR.2.page_no) ∧
    (eR.2.page_no :: subtree_nodes F hn eL.2.page_no).Perm
      (subtree_nodes P hn eL.2.page_no ++ subtree_nodes P hn eR.2.page_no) ∧
    leaves_entries F (subtree_leaves F hn eL.2.page_no) =
      leaves_entries P (subtree_leaves P hn eL.2.page_no ++ subtree_leaves P hn eR.2.page_no) := by
  obtain ⟨wa, wb, _, _, fa, fb, _, _⟩ := pair_facts P hn par gp Q1 Q2 eL eR hpar hw hnd
  cases hn with
  | zero =>
    refine ⟨⟨?_, ?_, ?_⟩, fun _ => ⟨rfl, rfl, rfl⟩, fun hc => absurd rfl hc, ?_, ?_⟩
    · rw [hFa1]; exact wa.1
    · rw [hFa2]; exact wa.2.1
    · rw [hFa3]
      intro hc
      exact wa.2.2 (List.append_eq_nil.mp hc).1
    · simp only [subtree_nodes, List.singleton_append]
      exact List.Perm.swap _ _ _
    · simp only [subtree_leaves, List.singleton_append, leaves_entries_cons, leaves_entries_nil,
        List.append_nil]
      exact hFa3
  | succ k =>
    have G := grand_facts P k par gp Q1 Q2 eL eR hpar hw hnd
    have hnotboth : ∀ e, e ∈ (P eL.2.page_no).pairs → e ∈ (P eR.2.page_no).pairs → False := by
      intro e h1 h2
      have m1 := child_nodes_mem P k _ e h1 _ (mem_subtree_nodes_self P k _)
      have m2 := child_nodes_mem P k _ e h2 _ (mem_subtree_nodes_self P k _)
      exact (fa _ m1).2.1 m2
    have hch : ∀ e ∈ (P eL.2.page_no).pairs ++ (P eR.2.page_no).pairs,
        ∃ q, wf_subtree P k e.2.page_no q ∧
          (subtree_nodes P k e.2.page_no).Nodup ∧
          (F e.2.page_no).is_leaf = (P e.2.page_no).is_leaf ∧
          (F e.2.page_no).pairs = (P e.2.page_no).pairs ∧
          (F e.2.page_no).parent = eL.2.page_no ∧
          (∀ x ∈ subtree_nodes P k e.2.page_no, x ≠ e.2.page_no → same_content (F x) (P x)) ∧
          ((P e.2.page_no).pairs.head?).map Prod.fst = some e.1 := by
      intro e heC
      obtain ⟨⟨q, wq⟩, ndq, hdq, hx⟩ := G e heC
      obtain ⟨x1, x2, x3, _, x5⟩ := hx e.2.page_no (mem_subtree_nodes_self P k _)
      obtain ⟨o1, o2, o3, o4⟩ := hFo e.2.page_no x1 x2 x3
      refine ⟨q, wq, ndq, o1, o2, ?_, ?_, hdq⟩
      · rcases List.mem_append.mp heC with h1 | h1
        · rw [o4]
          · exact wf_root_parent P k _ _ (wa.2.2.2 e h1).1
          · intro _ e2 he2 hc
            have := x5 e2 (List.mem_append_right _ he2) (hc ▸ mem_subtree_nodes_self P k _)
            exact hnotboth e h1 (this ▸ he2)
        · exact o3 (by omega) e h1 rfl
      · intro x hxm hxne
        obtain ⟨y1, y2, y3, _, y5⟩ := hx x hxm
        obtain ⟨p1, p2, _, p4⟩ := hFo x y1 y2 y3
        refine ⟨p1, p4 ?_, p2⟩
        intro _ e2 he2 hc
        have := y5 e2 (List.mem_append_right _ he2) (hc ▸ mem_subtree_nodes_self P k _)
        exact hxne (by rw [hc, this])
    have ra := regroup_internal P F eL.2.page_no par _ k (by rw [hFa1]; exact wa.1)
      (by rw [hFa2]; exact wa.2.1) hFa3
      (by intro hc; exact wa.2.2.1 (List.append_eq_nil.mp hc).1) hch
    refine ⟨ra.1, fun hc => absurd hc (by omega), fun _ => ?_, ?_, ?_⟩
    · rw [ra.2.1, List.flatMap_append]
      rfl
    · rw [ra.2.2]
      simp only [subtree_nodes, List.cons_append, List.flatMap_append]
      refine (List.Perm.swap _ _ _).trans ?_
      refine List.Perm.cons _ ?_
      exact (List.perm_middle).symm
    · rw [ra.2.1, List.flatMap_append]
      apply leaves_entries_congr
      intro l hl
      have hmem : ∃ e ∈ (P eL.2.page_no).pairs ++ (P eR.2.page_no).pairs,
          l ∈ subtree_nodes P k e.2.page_no := by
        rw [← List.flatMap_append] at hl
        obtain ⟨e, he, hle⟩ := List.mem_flatMap.mp hl
        exact ⟨e, he, (leaves_sublist_nodes P k e.2.page_no).subset hle⟩
      obtain ⟨e, he, hle⟩ := hmem
      obtain ⟨y1, y2, y3, _, _⟩ := (G e he).2.2.2 l hle
      exact (hFo l y1 y2 y3).2.1


theorem perm_ctx2 {α : Type} (A B NF NP : List α) (x : α) (h : (x :: NF).Perm NP) :
    (x :: (A ++ NF ++ B)).Perm (A ++ NP ++ B) := by
  rw [List.append_assoc, List.append_assoc]
  refine (List.perm_middle).symm.trans ?_
  refine List.Perm.append_left _ ?_
  rw [← List.cons_append]
  exact List.Perm.append_right _ h

/-- Merging the right one of two adjacent siblings into the left one (what
`coalesce` does): the tree keeps its shape and its stored pairs, page `b`
leaves the tree. -/
theorem pair_merge (P F : Int → IxNodeHandle) (h : Nat) (root : Int)
    (hw : wf_subtree P h root IX_NO_PAGE)
    (hnd : (subtree_nodes P h root).Nodup)
    (hn : Nat) (par : Int) (hs : sub_at P (hn + 1) par h root)
    (Q1 Q2 : List (Int × Rid)) (eL eR : Int × Rid)
    (hpar : (P par).pairs = Q1 ++ eL :: eR :: Q2)
    (hFpar : F par = { P par with pairs := Q1 ++ eL :: Q2 })
    (hFa1 : (F eL.2.page_no).is_leaf = (P eL.2.page_no).is_leaf)
    (hFa2 : (F eL.2.page_no).parent = (P eL.2.page_no).parent)
    (hFa3 : (F eL.2.page_no).pairs = (P eL.2.page_no).pairs ++ (P eR.2.page_no).pairs)
    (hFo : ∀ x, x ≠ par → x ≠ eL.2.page_no → x ≠ eR.2.page_no →
        (F x).is_leaf = (P x).is_leaf ∧ (F x).pairs = (P x).pairs ∧
        (hn ≠ 0 → ∀ e ∈ (P eR.2.page_no).pairs, x = e.2.page_no →
          (F x).parent = eL.2.page_no) ∧
        ((hn ≠ 0 → ∀ e ∈ (P eR.2.page_no).pairs, x ≠ e.2.page_no) →
          (F x).parent = (P x).parent)) :
    wf_subtree F h root IX_NO_PAGE ∧
    (hn = 0 → ∃ X Y, subtree_leaves P h root = X ++ eL.2.page_no :: eR.2.page_no :: Y ∧
      subtree_leaves F h root = X ++ eL.2.page_no :: Y) ∧
    (hn ≠ 0 → subtree_leaves F h root = subtree_leaves P h root) ∧
    (eR.2.page_no :: subtree_nodes F h root).Perm (subtree_nodes P h root) ∧
    subtree_entries F h root = subtree_entries P h root ∧
    sub_at F (hn + 1) par h root := by
  have hwpar := sub_at_wf P (hn + 1) par h root IX_NO_PAGE hw hs
  have hndpar := sub_at_nodup P (hn + 1) par h root hs hnd
  obtain ⟨wa, wb, hha, hhb, fa, fb, fq, hQm⟩ :=
    pair_facts P hn par _ Q1 Q2 eL eR hpar hwpar hndpar
  obtain ⟨wFa, hlv0, hlv1, hndp, hent⟩ := merge_sub P F hn par _ Q1 Q2 eL eR hpar hwpar hndpar
    hFa1 hFa2 hFa3 hFo
  have hout : ∀ x, x ≠ par → x ∉ subtree_nodes P hn eL.2.page_no →
      x ∉ subtree_nodes P hn eR.2.page_no → same_content (F x) (P x) := by
    intro x x1 x2 x3
    have xa : x ≠ eL.2.page_no := fun hc => x2 (hc ▸ mem_subtree_nodes_self P hn _)
    have xb : x ≠ eR.2.page_no := fun hc => x3 (hc ▸ mem_subtree_nodes_self P hn _)
    obtain ⟨p1, p2, _, p5⟩ := hFo x x1 xa xb
    refine ⟨p1, p5 ?_, p2⟩
    intro hn0 e he hc
    obtain ⟨k, hk⟩ : ∃ k, hn = k + 1 := ⟨hn - 1, by omega⟩
    subst hk
    exact x3 (hc ▸ child_nodes_mem P k _ e he _ (mem_subtree_nodes_self P k _))
  have hsib : ∀ q, q ∈ Q1 ∨ q ∈ Q2 → wf_subtree F hn q.2.page_no par ∧
      subtree_leaves F hn q.2.page_no = subtree_leaves P hn q.2.page_no ∧
      subtree_nodes F hn q.2.page_no = subtree_nodes P hn q.2.page_no ∧
      ((F q.2.page_no).pairs.head?).map Prod.fst = some q.1 ∧
      (∀ l ∈ subtree_nodes P hn q.2.page_no, (F l).pairs = (P l).pairs) := by
    intro q hq
    have hqm := hQm q hq
    have hsame : ∀ x ∈ subtree_nodes P hn q.2.page_no, same_content (F x) (P x) := by
      intro x hx
      obtain ⟨y1, y2, y3, _⟩ := fq q hq x hx
      exact hout x y1 y2 y3
    obtain ⟨r1, r2, r3⟩ := wf_frame P F hn q.2.page_no par (hwpar.2.2.2 q hqm).1
      (nodup_child P hn par hndpar q hqm) hsame
    refine ⟨r1, r2, r3, ?_, fun l hl => (hsame l hl).2.2⟩
    rw [(hsame _ (mem_subtree_nodes_self P hn _)).2.2]
    exact (hwpar.2.2.2 q hqm).2
  have hPa : (P eL.2.page_no).pairs ≠ [] := wf_ne_nil P hn _ _ wa
  have hwFpar : wf_subtree F (hn + 1) par (P par).parent := by
    refine ⟨by rw [hFpar]; exact hwpar.1, by rw [hFpar], by rw [hFpar]; simp, ?_⟩
    intro e he
    rw [hFpar] at he
    simp only [List.mem_append, List.mem_cons] at he
    rcases he with h1 | h1 | h1
    · exact ⟨(hsib e (Or.inl h1)).1, (hsib e (Or.inl h1)).2.2.2.1⟩
    · subst h1
      refine ⟨wFa, ?_⟩
      rw [hFa3, ← hha, List.head?_append_of_ne_nil _ hPa]
    · exact ⟨(hsib e (Or.inr h1)).1, (hsib e (Or.inr h1)).2.2.2.1⟩
  have hheadpar : ((F par).pairs.head?).map Prod.fst = ((P par).pairs.head?).map Prod.fst := by
    rw [hFpar, hpar]
    cases Q1 <;> simp
  have hsame : ∀ x ∈ subtree_nodes P h root, x ∉ subtree_nodes P (hn + 1) par →
      same_content (F x) (P x) := by
    intro x _ hx
    refine hout x (fun hc => hx (hc ▸ mem_subtree_nodes_self P _ _)) ?_ ?_
    · intro hc
      exact hx (fa x hc).2.2
    · intro hc
      exact hx (fb x hc).2.2
  obtain ⟨wF, _, A, B, NA, NB, e1, e2, e3, e4, hABout, hsF⟩ :=
    subtree_replace P F (hn + 1) par hwFpar hheadpar h root IX_NO_PAGE hs hw hnd hsame
  have hlpF : subtree_leaves F (hn + 1) par =
      Q1.flatMap (fun e => subtree_leaves P hn e.2.page_no) ++
        subtree_leaves F hn eL.2.page_no ++
        Q2.flatMap (fun e => subtree_leaves P hn e.2.page_no) := by
    show (F par).pairs.flatMap _ = _
    rw [hFpar]
    show (Q1 ++ eL :: Q2).flatMap _ = _
    rw [flatMap_one]
    rw [flatMap_congr_mem _ (fun e => subtree_leaves P hn e.2.page_no) Q1
        (fun q hq => (hsib q (Or.inl hq)).2.1),
      flatMap_congr_mem _ (fun e => subtree_leaves P hn e.2.page_no) Q2
        (fun q hq => (hsib q (Or.inr hq)).2.1)]
  have hlp : subtree_leaves P (hn + 1) par =
      Q1.flatMap (fun e => subtree_leaves P hn e.2.page_no) ++
        (subtree_leaves P hn eL.2.page_no ++ subtree_leaves P hn eR.2.page_no) ++
        Q2.flatMap (fun e => subtree_leaves P hn e.2.page_no) := by
    show (P par).pairs.flatMap _ = _
    rw [hpar, flatMap_pair]
  have hndspar : (eR.2.page_no :: subtree_nodes F (hn + 1) par).Perm
      (subtree_nodes P (hn + 1) par) := by
    show (eR.2.page_no :: par :: (F par).pairs.flatMap _).Perm (par :: (P par).pairs.flatMap _)
    rw [hFpar, hpar]
    show (eR.2.page_no :: par :: (Q1 ++ eL :: Q2).flatMap _).Perm _
    rw [flatMap_pair, flatMap_one]
    rw [flatMap_congr_mem _ (fun e => subtree_nodes P hn e.2.page_no) Q1
        (fun q hq => (hsib q (Or.inl hq)).2.2.1),
      flatMap_congr_mem _ (fun e => subtree_nodes P hn e.2.page_no) Q2
        (fun q hq => (hsib q (Or.inr hq)).2.2.1)]
    refine (List.Perm.swap _ _ _).trans (List.Perm.cons _ ?_)
    exact perm_ctx2 _ _ _ _ _ hndp
  refine ⟨wF, ?_, ?_, ?_, ?_, hsF⟩
  · intro h0
    obtain ⟨l1, l2, l3⟩ := hlv0 h0
    refine ⟨A ++ Q1.flatMap (fun e => subtree_leaves P hn e.2.page_no),
      Q2.flatMap (fun e => subtree_leaves P hn e.2.page_no) ++ B, ?_, ?_⟩
    · rw [e1, hlp, l2, l3]
      simp
    · rw [e2, hlpF, l1]
      simp
  · intro h0
    rw [e2, e1, hlpF, hlp, hlv1 h0]
  · rw [e4, e3]
    exact perm_ctx2 _ _ _ _ _ hndspar
  · show leaves_entries F (subtree_leaves F h root) = leaves_entries P (subtree_leaves P h root)
    rw [e2, e1, hlpF, hlp]
    simp only [leaves_entries_append]
    have hAo : ∀ l ∈ A ++ B, (F l).pairs = (P l).pairs := by
      intro l hl
      have hl2 := hABout l hl
      have : l ∈ subtree_nodes P h root := by
        have : l ∈ subtree_leaves P h root := by
          rw [e1]
          simp only [List.mem_append] at hl ⊢
          tauto
        exact (leaves_sublist_nodes P h root).subset this
      exact (hsame l this hl2).2.2
    have hQo : ∀ Q : List (Int × Rid), (∀ q ∈ Q, q ∈ Q1 ∨ q ∈ Q2) →
        leaves_entries F (Q.flatMap (fun e => subtree_leaves P hn e.2.page_no)) =
        leaves_entries P (Q.flatMap (fun e => subtree_leaves P hn e.2.page_no)) := by
      intro Q hQ
      apply leaves_entries_congr
      intro l hl
      obtain ⟨q, hq, hlq⟩ := List.mem_flatMap.mp hl
      exact (hsib q (hQ q hq)).2.2.2.2 l ((leaves_sublist_nodes P hn _).subset hlq)
    rw [leaves_entries_congr P F A (fun l hl => hAo l (List.mem_append_left _ hl)),
      leaves_entries_congr P F B (fun l hl => hAo l (List.mem_append_right _ hl)),
      hQo Q1 (fun q hq => Or.inl hq), hQo Q2 (fun q hq => Or.inr hq), hent,
      leaves_entries_append]

end RMDB

open RMDB RMDB.IxNodeHandle RMDB.IxIndexHandle

namespace RMDB

theorem maintain_child_spec (ih : IxIndexHandle) (node : Int) (idx : Int) :
    (∀ x, (ih.maintain_child node idx).pages x =
      if (ih.pages node).is_leaf = false ∧ x = (ih.pages node).value_at idx then
        { ih.pages x with parent := node }
      else ih.pages x) ∧
    (ih.maintain_child node idx).file_hdr = ih.file_hdr ∧
    (ih.maintain_child node idx).next_page_no = ih.next_page_no ∧
    (ih.maintain_child node idx).latch_page_set = ih.latch_page_set ∧
    (ih.maintain_child node idx).deleted_page_set = ih.deleted_page_set := by
  unfold maintain_child
  by_cases hl : (ih.fetch_node node).is_leaf = false
  · rw [if_pos hl]
    have hl2 : (ih.pages node).is_leaf = false := hl
    refine ⟨?_, rfl, rfl, rfl, rfl⟩
    intro x
    simp only [modify_node_apply, fetch_node, hl2, true_and]
    by_cases hx : x = (ih.pages node).value_at idx
    · rw [if_pos hx, if_pos hx, hx]
    · rw [if_neg hx, if_neg hx]
  · rw [if_neg hl]
    have hl2 : ¬ (ih.pages node).is_leaf = false := hl
    refine ⟨?_, rfl, rfl, rfl, rfl⟩
    intro x
    rw [if_neg (fun hc => hl2 hc.1)]

/-- Source `redistribute` with `index = 0`: the first pair of the right
sibling moves to the end of the node. -/
theorem redistribute_left (ih0 : IxIndexHandle) (nb node par : Int)
    (Pa B2 Q2 : List (Int × Rid)) (m eL eR : Int × Rid)
    (hPa : (ih0.pages node).pairs = Pa) (hPb : (ih0.pages nb).pairs = m :: B2)
    (hPp : (ih0.pages par).pairs = eL :: eR :: Q2)
    (h1 : node ≠ nb) (h2 : node ≠ par) (h3 : nb ≠ par)
    (h4 : (ih0.pages node).is_leaf = false →
      m.2.page_no ≠ node ∧ m.2.page_no ≠ nb ∧ m.2.page_no ≠ par) :
    ∃ ih2, ih0.redistribute nb node par 0 = Except.ok ih2 ∧
      (∀ x, ih2.pages x =
        if x = par then
          { ih0.pages par with
            pairs := eL :: (({ ih0.pages nb with pairs := B2 } : IxNodeHandle).get_key 0,
              eR.2) :: Q2 }
        else if x = node then { ih0.pages node with pairs := Pa ++ [m] }
        else if x = nb then { ih0.pages nb with pairs := B2 }
        else if (ih0.pages node).is_leaf = false ∧ x = m.2.page_no then
          { ih0.pages x with parent := node }
        else ih0.pages x) ∧
      ih2.file_hdr = ih0.file_hdr ∧ ih2.next_page_no = ih0.next_page_no ∧
      ih2.latch_page_set = ih0.latch_page_set ∧
      ih2.deleted_page_set = ih0.deleted_page_set := by
  have e1 : (ih0.fetch_node node).insert_pair (ih0.fetch_node node).get_size
      ((ih0.fetch_node nb).get_key 0) ((ih0.fetch_node nb).get_rid 0) =
      Except.ok { ih0.pages node with pairs := Pa ++ [m] } := by
    have := insert_pair_decomp (ih0.pages node) Pa [] m.1 m.2 (by simp [hPa])
    have hk := get_key_zero (ih0.pages nb) m B2 hPb
    simp only [fetch_node, get_size, hPa, hk.1, hk.2]
    exact this
  have e2 : (ih0.pages nb).erase_pair 0 = { ih0.pages nb with pairs := B2 } := by
    have := erase_pair_decomp (ih0.pages nb) [] B2 m (by simp [hPb])
    simpa using this
  have e3 : ∀ k, (ih0.pages par).set_key (0 + 1) k =
      { ih0.pages par with pairs := eL :: (k, eR.2) :: Q2 } := by
    intro k
    have := set_key_decomp (ih0.pages par) [eL] Q2 eR k (by simp [hPp])
    simpa using this
  unfold redistribute
  rw [if_pos rfl, e1]
  simp only []
  have hp3 : ∀ x, ((((ih0.modify_node node (fun _ => { ih0.pages node with pairs := Pa ++ [m] })).modify_node
      nb (fun n => n.erase_pair 0)).modify_node par
      (fun p => p.set_key (0 + 1)
        ((((ih0.modify_node node (fun _ => { ih0.pages node with pairs := Pa ++ [m] })).modify_node
          nb (fun n => n.erase_pair 0)).fetch_node nb).get_key 0)))).pages x =
      if x = par then
        { ih0.pages par with
          pairs := eL :: (({ ih0.pages nb with pairs := B2 } : IxNodeHandle).get_key 0,
            eR.2) :: Q2 }
      else if x = node then { ih0.pages node with pairs := Pa ++ [m] }
      else if x = nb then { ih0.pages nb with pairs := B2 }
      else ih0.pages x := by
    intro x
    simp only [modify_node_apply, fetch_node, if_neg h3, if_neg (Ne.symm h2), if_neg (Ne.symm h1),
      if_neg (Ne.symm h3), if_neg h1, if_neg h2, if_true, e2, e3]
    by_cases hx1 : x = par
    · simp only [if_pos hx1]
    · simp only [if_neg hx1]
      by_cases hx2 : x = nb
      · subst hx2
        simp only [if_true, if_neg (Ne.symm h1)]
      · simp only [if_neg hx2]
  obtain ⟨m1, m2, m3, m4, m5⟩ := maintain_child_spec
    (((ih0.modify_node node (fun _ => { ih0.pages node with pairs := Pa ++ [m] })).modify_node
      nb (fun n => n.erase_pair 0)).modify_node par
      (fun p => p.set_key (0 + 1)
        ((((ih0.modify_node node (fun _ => { ih0.pages node with pairs := Pa ++ [m] })).modify_node
          nb (fun n => n.erase_pair 0)).fetch_node nb).get_key 0))) node
    (((((ih0.modify_node node (fun _ => { ih0.pages node with pairs := Pa ++ [m] })).modify_node
      nb (fun n => n.erase_pair 0)).modify_node par
      (fun p => p.set_key (0 + 1)
        ((((ih0.modify_node node (fun _ => { ih0.pages node with pairs := Pa ++ [m] })).modify_node
          nb (fun n => n.erase_pair 0)).fetch_node nb).get_key 0))).fetch_node node).get_size - 1)
  refine ⟨_, rfl, ?_, m2, m3, m4, m5⟩
  intro x
  rw [m1]
  have hval : ∀ ihx : IxIndexHandle,
      ihx.pages node = { ih0.pages node with pairs := Pa ++ [m] } →
      (ihx.pages node).value_at ((ihx.fetch_node node).get_size - 1) = m.2.page_no ∧
      (ihx.pages node).is_leaf = (ih0.pages node).is_leaf := by
    intro ihx hx
    refine ⟨?_, by rw [hx]⟩
    have hlen : ((ihx.fetch_node node).get_size - 1) = ((Pa.length : Nat) : Int) := by
      simp [fetch_node, get_size, hx]
    rw [hlen, value_at_nat _ _ (by rw [hx]; simp)]
    simp [hx]
  have hnode := hp3 node
  rw [if_neg h2, if_pos rfl] at hnode
  obtain ⟨v1, v2⟩ := hval _ hnode
  rw [v1, v2, hp3]
  by_cases hc : (ih0.pages node).is_leaf = false ∧ x = m.2.page_no
  · obtain ⟨c1, c2, c3⟩ := h4 hc.1
    have n1 : x ≠ par := by rw [hc.2]; exact c3
    have n2 : x ≠ node := by rw [hc.2]; exact c1
    have n3 : x ≠ nb := by rw [hc.2]; exact c2
    simp only [if_pos hc, if_neg n1, if_neg n2, if_neg n3]
  · rw [if_neg hc]
    by_cases hx1 : x = par
    · rw [if_pos hx1, if_pos hx1]
    · rw [if_neg hx1, if_neg hx1]
      by_cases hx2 : x = node
      · rw [if_pos hx2, if_pos hx2]
      · rw [if_neg hx2, if_neg hx2]
        by_cases hx3 : x = nb
        · rw [if_pos hx3, if_pos hx3]
        · rw [if_neg hx3, if_neg hx3, if_neg hc]


/-- Source `redistribute` with `index ≠ 0`: the last pair of the left sibling
moves to the front of the node. -/
theorem redistribute_right (ih0 : IxIndexHandle) (nb node par : Int)
    (A2 Pb Q1 Q2 : List (Int × Rid)) (m eL eR : Int × Rid)
    (hPa : (ih0.pages nb).pairs = A2 ++ [m]) (hPb : (ih0.pages node).pairs = Pb)
    (hPp : (ih0.pages par).pairs = Q1 ++ eL :: eR :: Q2)
    (h1 : node ≠ nb) (h2 : node ≠ par) (h3 : nb ≠ par)
    (h4 : (ih0.pages node).is_leaf = false →
      m.2.page_no ≠ node ∧ m.2.page_no ≠ nb ∧ m.2.page_no ≠ par) :
    ∃ ih2, ih0.redistribute nb node par ((Q1.length : Int) + 1) = Except.ok ih2 ∧
      (∀ x, ih2.pages x =
        if x = par then { ih0.pages par with pairs := Q1 ++ eL :: (m.1, eR.2) :: Q2 }
        else if x = node then { ih0.pages node with pairs := m :: Pb }
        else if x = nb then { ih0.pages nb with pairs := A2 }
        else if (ih0.pages node).is_leaf = false ∧ x = m.2.page_no then
          { ih0.pages x with parent := node }
        else ih0.pages x) ∧
      ih2.file_hdr = ih0.file_hdr ∧ ih2.next_page_no = ih0.next_page_no ∧
      ih2.latch_page_set = ih0.latch_page_set ∧
      ih2.deleted_page_set = ih0.deleted_page_set := by
  have hend : (ih0.fetch_node nb).get_size - 1 = ((A2.length : Nat) : Int) := by
    simp [fetch_node, get_size, hPa]
  have e1 : (ih0.fetch_node node).insert_pair 0
      ((ih0.fetch_node nb).get_key ((ih0.fetch_node nb).get_size - 1))
      ((ih0.fetch_node nb).get_rid ((ih0.fetch_node nb).get_size - 1)) =
      Except.ok { ih0.pages node with pairs := m :: Pb } := by
    have := insert_pair_decomp (ih0.pages node) [] Pb m.1 m.2 (by simp [hPb])
    rw [hend]
    simp only [fetch_node, get_key_decomp (ih0.pages nb) A2 [] m hPa,
      get_rid_decomp (ih0.pages nb) A2 [] m hPa]
    simpa using this
  have e2 : (ih0.pages nb).erase_pair ((A2.length : Nat) : Int) =
      { ih0.pages nb with pairs := A2 } := by
    have := erase_pair_decomp (ih0.pages nb) A2 [] m hPa
    simpa using this
  have e3 : ∀ k, (ih0.pages par).set_key ((Q1.length : Int) + 1) k =
      { ih0.pages par with pairs := Q1 ++ eL :: (k, eR.2) :: Q2 } := by
    intro k
    have := set_key_decomp (ih0.pages par) (Q1 ++ [eL]) Q2 eR k (by simp [hPp])
    simpa using this
  have hk0 : ({ ih0.pages node with pairs := m :: Pb } : IxNodeHandle).get_key 0 = m.1 :=
    (get_key_zero _ m Pb rfl).1
  have hidx : ¬ ((Q1.length : Int) + 1 = 0) := by omega
  unfold redistribute
  rw [if_neg hidx]
  simp only []
  rw [e1, hend]
  simp only []
  have hp3 : ∀ x, ((((ih0.modify_node node (fun _ => { ih0.pages node with pairs := m :: Pb })).modify_node
      nb (fun n => n.erase_pair ((A2.length : Nat) : Int))).modify_node par
      (fun p => p.set_key ((Q1.length : Int) + 1)
        ((((ih0.modify_node node (fun _ => { ih0.pages node with pairs := m :: Pb })).modify_node
          nb (fun n => n.erase_pair ((A2.length : Nat) : Int))).fetch_node node).get_key 0)))).pages x =
      if x = par then { ih0.pages par with pairs := Q1 ++ eL :: (m.1, eR.2) :: Q2 }
      else if x = node then { ih0.pages node with pairs := m :: Pb }
      else if x = nb then { ih0.pages nb with pairs := A2 }
      else ih0.pages x := by
    intro x
    simp only [modify_node_apply, fetch_node, if_neg h3, if_neg (Ne.symm h2), if_neg (Ne.symm h1),
      if_neg (Ne.symm h3), if_neg h1, if_neg h2, if_true, e2, e3, hk0]
    by_cases hx1 : x = par
    · simp only [if_pos hx1]
    · simp only [if_neg hx1]
      by_cases hx2 : x = nb
      · subst hx2
        simp only [if_true, if_neg (Ne.symm h1)]
      · simp only [if_neg hx2]
  obtain ⟨m1, m2, m3, m4, m5⟩ := maintain_child_spec
    (((ih0.modify_node node (fun _ => { ih0.pages node with pairs := m :: Pb })).modify_node
      nb (fun n => n.erase_pair ((A2.length : Nat) : Int))).modify_node par
      (fun p => p.set_key ((Q1.length : Int) + 1)
        ((((ih0.modify_node node (fun _ => { ih0.pages node with pairs := m :: Pb })).modify_node
          nb (fun n => n.erase_pair ((A2.length : Nat) : Int))).fetch_node node).get_key 0))) node 0
  refine ⟨_, rfl, ?_, m2, m3, m4, m5⟩
  intro x
  rw [m1]
  have hnode := hp3 node
  rw [if_neg h2, if_pos rfl] at hnode
  have v1 : ∀ n : IxNodeHandle, n = { ih0.pages node with pairs := m :: Pb } →
      n.value_at 0 = m.2.page_no ∧ n.is_leaf = (ih0.pages node).is_leaf := by
    intro n hn
    refine ⟨?_, by rw [hn]⟩
    have := value_at_nat n 0 (by rw [hn]; simp)
    simp only [Nat.cast_zero] at this
    rw [this]
    simp [hn]
  obtain ⟨v2, v3⟩ := v1 _ hnode
  rw [v2, v3, hp3]
  by_cases hc : (ih0.pages node).is_leaf = false ∧ x = m.2.page_no
  · obtain ⟨c1, c2, c3⟩ := h4 hc.1
    have n1 : x ≠ par := by rw [hc.2]; exact c3
    have n2 : x ≠ node := by rw [hc.2]; exact c1
    have n3 : x ≠ nb := by rw [hc.2]; exact c2
    simp only [if_pos hc, if_neg n1, if_neg n2, if_neg n3]
  · rw [if_neg hc]
    by_cases hx1 : x = par
    · rw [if_pos hx1, if_pos hx1]
    · rw [if_neg hx1, if_neg hx1]
      by_cases hx2 : x = node
      · rw [if_pos hx2, if_pos hx2]
      · rw [if_neg hx2, if_neg hx2]
        by_cases hx3 : x = nb
        · rw [if_pos hx3, if_pos hx3]
        · rw [if_neg hx3, if_neg hx3, if_neg hc]

end RMDB

open RMDB RMDB.IxNodeHandle RMDB.IxIndexHandle

namespace RMDB

theorem maintain_child_leaf (ih : IxIndexHandle) (a : Int) (hl : (ih.pages a).is_leaf = true)
    (i : Int) : ih.maintain_child a i = ih := by
  unfold maintain_child
  rw [if_neg (by simp [fetch_node, hl])]

theorem maintain_fold_leaf (a : Int) : ∀ (idxs : List Nat) (ih : IxIndexHandle),
    (ih.pages a).is_leaf = true →
    idxs.foldl (fun s i => s.maintain_child a (i : Nat)) ih = ih := by
  intro idxs
  induction idxs with
  | nil => intro ih _; rfl
  | cons i is ihl =>
    intro ih hl
    rw [List.foldl_cons, maintain_child_leaf ih a hl, ihl ih hl]

theorem insert_pairs_end (n : IxNodeHandle) (kvs : List (Int × Rid)) :
    n.insert_pairs n.get_size kvs = Except.ok { n with pairs := n.pairs ++ kvs } := by
  unfold insert_pairs
  rw [if_neg (by simp [get_size])]
  simp [get_size]

/-- Source `coalesce` on two adjacent leaves `a` (left) and `b` (right): the
handle passed on to the parent's check. -/
theorem coalesce_leaf_spec (recurse : IxIndexHandle → Int → Except IxError (Bool × IxIndexHandle))
    (ih0 : IxIndexHandle) (nb0 node0 par index0 a b : Int)
    (Q1 Q2 : List (Int × Rid)) (eL eR : Int × Rid)
    (hcase : (index0 = 0 ∧ node0 = a ∧ nb0 = b ∧ Q1 = []) ∨
      (index0 = (Q1.length : Int) + 1 ∧ node0 = b ∧ nb0 = a))
    (hPp : (ih0.pages par).pairs = Q1 ++ eL :: eR :: Q2)
    (hla : (ih0.pages a).is_leaf = true) (hlb : (ih0.pages b).is_leaf = true)
    (hprev : (ih0.pages b).prev_leaf = a)
    (hab : a ≠ b) (hap : a ≠ par) (hbp : b ≠ par)
    (hna : (ih0.pages b).next_leaf ≠ a) (hnb : (ih0.pages b).next_leaf ≠ b)
    (hnp : (ih0.pages b).next_leaf ≠ par) :
    ∃ ih7, coalesce recurse ih0 nb0 node0 par index0 =
        (if (ih7.fetch_node par).get_size < IxNodeHandle.get_min_size ih7.file_hdr then
          recurse ih7 par
        else Except.ok (false, ih7)) ∧
      (∀ x, ih7.pages x =
        if x = par then { ih0.pages par with pairs := Q1 ++ eL :: Q2 }
        else if x = a then
          { ih0.pages a with
            pairs := (ih0.pages a).pairs ++ (ih0.pages b).pairs
            next_leaf := (ih0.pages b).next_leaf }
        else if x = (ih0.pages b).next_leaf then { ih0.pages x with prev_leaf := a }
        else ih0.pages x) ∧
      ih7.file_hdr = { ih0.file_hdr with
        num_pages := ih0.file_hdr.num_pages - 1
        last_leaf := if (ih0.pages b).next_leaf = IX_LEAF_HEADER_PAGE then a
          else ih0.file_hdr.last_leaf } ∧
      ih7.next_page_no = ih0.next_page_no ∧
      ih7.latch_page_set = ih0.latch_page_set ∧
      ih7.deleted_page_set = ih0.deleted_page_set ++ [b] := by
  obtain ⟨ih1, h1⟩ : ∃ ih1, ih1 = ih0.modify_node a
      (fun _ => { ih0.pages a with pairs := (ih0.pages a).pairs ++ (ih0.pages b).pairs }) :=
    ⟨_, rfl⟩
  obtain ⟨ih3, h3⟩ : ∃ ih3, ih3 = ih1.erase_leaf b := ⟨_, rfl⟩
  obtain ⟨ih4, h4⟩ : ∃ ih4 : IxIndexHandle, ih4 =
      if (ih3.fetch_node b).is_leaf = true ∧
          (ih3.fetch_node b).next_leaf = IX_LEAF_HEADER_PAGE then
        { ih3 with file_hdr := { ih3.file_hdr with last_leaf := a } }
      else ih3 := ⟨_, rfl⟩
  obtain ⟨ih7, h7⟩ : ∃ ih7, ih7 =
      ((ih4.append_index_deleted_page b).release_node_handle).modify_node par
        (fun p => p.erase_pair ((Q1.length : Int) + 1)) := ⟨_, rfl⟩
  have p1 : ∀ x, ih1.pages x = if x = a then
      { ih0.pages a with pairs := (ih0.pages a).pairs ++ (ih0.pages b).pairs }
      else ih0.pages x := by
    intro x
    rw [h1, modify_node_apply]
  have p1b : ih1.pages b = ih0.pages b := by rw [p1, if_neg (Ne.symm hab)]
  have p3 : ∀ x, ih3.pages x =
      if x = (ih0.pages b).next_leaf then { ih0.pages x with prev_leaf := a }
      else if x = a then
        { ih0.pages a with
          pairs := (ih0.pages a).pairs ++ (ih0.pages b).pairs
          next_leaf := (ih0.pages b).next_leaf }
      else ih0.pages x := by
    intro x
    rw [h3]
    unfold erase_leaf
    simp only [modify_node_apply, fetch_node, p1b, hprev, if_neg (Ne.symm hab), p1, if_true,
      if_neg hna]
    by_cases hx : x = (ih0.pages b).next_leaf
    · subst hx
      simp only [if_true]
    · simp only [if_neg hx]
      by_cases hx2 : x = a
      · simp only [if_pos hx2]
      · simp only [if_neg hx2]
  have p3b : ih3.pages b = ih0.pages b := by
    rw [p3, if_neg (Ne.symm hnb), if_neg (Ne.symm hab)]
  have hh3 : ih3.file_hdr = ih0.file_hdr ∧ ih3.next_page_no = ih0.next_page_no ∧
      ih3.latch_page_set = ih0.latch_page_set ∧
      ih3.deleted_page_set = ih0.deleted_page_set := by
    rw [h3, h1]
    exact ⟨rfl, rfl, rfl, rfl⟩
  have p4 : ih4.pages = ih3.pages ∧
      ih4.file_hdr = { ih0.file_hdr with
        last_leaf := if (ih0.pages b).next_leaf = IX_LEAF_HEADER_PAGE then a
          else ih0.file_hdr.last_leaf } ∧
      ih4.next_page_no = ih0.next_page_no ∧
      ih4.latch_page_set = ih0.latch_page_set ∧
      ih4.deleted_page_set = ih0.deleted_page_set := by
    rw [h4]
    simp only [fetch_node, p3b, hlb, true_and]
    by_cases hc : (ih0.pages b).next_leaf = IX_LEAF_HEADER_PAGE
    · simp only [if_pos hc, hh3.1, hh3.2.1, hh3.2.2.1, hh3.2.2.2, and_self]
    · simp only [if_neg hc, hh3.1, hh3.2.1, hh3.2.2.1, hh3.2.2.2, and_self]
  have hep : (ih0.pages par).erase_pair ((Q1.length : Int) + 1) =
      { ih0.pages par with pairs := Q1 ++ eL :: Q2 } := by
    have := erase_pair_decomp (ih0.pages par) (Q1 ++ [eL]) Q2 eR (by simp [hPp])
    simpa using this
  refine ⟨ih7, ?_, ?_, ?_, ?_, ?_, ?_⟩
  · have hins := insert_pairs_end (ih0.pages a) (ih0.pages b).pairs
    have hfold : ∀ ihx : IxIndexHandle, ihx = ih1 → ∀ idxs : List Nat,
        idxs.foldl (fun s i => s.maintain_child a (i : Nat)) ihx = ih1 := by
      intro ihx hx idxs
      rw [hx]
      exact maintain_fold_leaf a idxs ih1 (by rw [p1, if_pos rfl]; exact hla)
    rcases hcase with ⟨c1, c2, c3, c4⟩ | ⟨c1, c2, c3⟩
    · subst c1 c2 c3 c4
      unfold coalesce
      simp only [if_true, fetch_node, hins]
      rw [hfold _ h1.symm]
      have hb1 : (ih1.pages nb0).is_leaf = true := by rw [p1b]; exact hlb
      simp only [fetch_node, hb1, if_true]
      rw [← h3]
      simp only [List.length_nil, Nat.cast_zero] at h7
      subst h7 h4
      rfl
    · subst c1 c2 c3
      have hidx : ¬ ((Q1.length : Int) + 1 = 0) := by omega
      unfold coalesce
      simp only [if_neg hidx, fetch_node, hins]
      rw [hfold _ h1.symm]
      have hb1 : (ih1.pages node0).is_leaf = true := by rw [p1b]; exact hlb
      simp only [fetch_node, hb1, if_true]
      rw [← h3]
      subst h7 h4
      rfl
  · intro x
    rw [h7, modify_node_apply]
    show (if x = par then (ih4.pages par).erase_pair _ else ih4.pages x) = _
    rw [p4.1, p3, p3, if_neg (Ne.symm hnp), if_neg (Ne.symm hap), hep]
    by_cases hx1 : x = par
    · simp only [if_pos hx1]
    · simp only [if_neg hx1]
      by_cases hx2 : x = a
      · subst hx2
        simp only [if_true, if_neg (Ne.symm hna)]
      · simp only [if_neg hx2]
  · rw [h7]
    show { ih4.file_hdr with num_pages := ih4.file_hdr.num_pages - 1 } = _
    rw [p4.2.1]
  · rw [h7]
    exact p4.2.2.1
  · rw [h7]
    exact p4.2.2.2.1
  · rw [h7]
    show ih4.deleted_page_set ++ [b] = _
    rw [p4.2.2.2.2]


theorem range_map_value_at2 (n : IxNodeHandle) (Pa Pb : List (Int × Rid))
    (hn : n.pairs = Pa ++ Pb) :
    (List.range' Pa.length Pb.length).map (fun i => n.value_at (i : Nat)) =
      Pb.map (fun e => e.2.page_no) := by
  apply List.ext_getElem
  · simp
  · intro i h1 h2
    simp only [List.length_map, List.length_range'] at h1
    simp only [List.getElem_map, List.getElem_range', Nat.one_mul]
    rw [value_at_nat n (Pa.length + i) (by rw [hn]; simp; omega)]
    simp [hn, List.getElem_append_right]

/-- Source `coalesce` on two adjacent internal nodes `a` (left) and `b`
(right): the handle passed on to the parent's check. -/
theorem coalesce_internal_spec
    (recurse : IxIndexHandle → Int → Except IxError (Bool × IxIndexHandle))
    (ih0 : IxIndexHandle) (nb0 node0 par index0 a b : Int)
    (Q1 Q2 : List (Int × Rid)) (eL eR : Int × Rid)
    (hcase : (index0 = 0 ∧ node0 = a ∧ nb0 = b ∧ Q1 = []) ∨
      (index0 = (Q1.length : Int) + 1 ∧ node0 = b ∧ nb0 = a))
    (hPp : (ih0.pages par).pairs = Q1 ++ eL :: eR :: Q2)
    (hla : (ih0.pages a).is_leaf = false) (hlb : (ih0.pages b).is_leaf = false)
    (hab : a ≠ b) (hap : a ≠ par) (hbp : b ≠ par)
    (hch : ∀ e ∈ (ih0.pages b).pairs, e.2.page_no ≠ a ∧ e.2.page_no ≠ b ∧ e.2.page_no ≠ par) :
    ∃ ih7, coalesce recurse ih0 nb0 node0 par index0 =
        (if (ih7.fetch_node par).get_size < IxNodeHandle.get_min_size ih7.file_hdr then
          recurse ih7 par
        else Except.ok (false, ih7)) ∧
      (∀ x, ih7.pages x =
        if x = par then { ih0.pages par with pairs := Q1 ++ eL :: Q2 }
        else if x = a then
          { ih0.pages a with pairs := (ih0.pages a).pairs ++ (ih0.pages b).pairs }
        else if x ∈ (ih0.pages b).pairs.map (fun e => e.2.page_no) then
          { ih0.pages x with parent := a }
        else ih0.pages x) ∧
      ih7.file_hdr = { ih0.file_hdr with num_pages := ih0.file_hdr.num_pages - 1 } ∧
      ih7.next_page_no = ih0.next_page_no ∧
      ih7.latch_page_set = ih0.latch_page_set ∧
      ih7.deleted_page_set = ih0.deleted_page_set ++ [b] := by
  obtain ⟨ih1, h1⟩ : ∃ ih1, ih1 = ih0.modify_node a
      (fun _ => { ih0.pages a with pairs := (ih0.pages a).pairs ++ (ih0.pages b).pairs }) :=
    ⟨_, rfl⟩
  obtain ⟨ih2, h2⟩ : ∃ ih2, ih2 =
      (List.range' (ih0.pages a).pairs.length
        ((ih1.fetch_node a).pairs.length - (ih0.pages a).pairs.length)).foldl
        (fun s child_idx => s.maintain_child a (child_idx : Nat)) ih1 := ⟨_, rfl⟩
  obtain ⟨ih7, h7⟩ : ∃ ih7, ih7 =
      ((ih2.append_index_deleted_page b).release_node_handle).modify_node par
        (fun p => p.erase_pair ((Q1.length : Int) + 1)) := ⟨_, rfl⟩
  have p1 : ∀ x, ih1.pages x = if x = a then
      { ih0.pages a with pairs := (ih0.pages a).pairs ++ (ih0.pages b).pairs }
      else ih0.pages x := by
    intro x
    rw [h1, modify_node_apply]
  have p1a : ih1.pages a =
      { ih0.pages a with pairs := (ih0.pages a).pairs ++ (ih0.pages b).pairs } := by
    rw [p1, if_pos rfl]
  have hlen : (ih1.fetch_node a).pairs.length - (ih0.pages a).pairs.length =
      (ih0.pages b).pairs.length := by
    simp [fetch_node, p1a]
  have hmap : (List.range' (ih0.pages a).pairs.length (ih0.pages b).pairs.length).map
      (fun i => (ih1.pages a).value_at (i : Nat)) =
      (ih0.pages b).pairs.map (fun e => e.2.page_no) :=
    range_map_value_at2 (ih1.pages a) _ _ (by rw [p1a])
  have hfold := maintain_child_fold a
    (List.range' (ih0.pages a).pairs.length (ih0.pages b).pairs.length) ih1
    (by rw [p1a]; exact hla)
    (by
      intro i hi
      have : (ih1.pages a).value_at (i : Nat) ∈
          (List.range' (ih0.pages a).pairs.length (ih0.pages b).pairs.length).map
            (fun i => (ih1.pages a).value_at (i : Nat)) := List.mem_map_of_mem _ hi
      rw [hmap] at this
      obtain ⟨e, he, hee⟩ := List.mem_map.mp this
      rw [← hee]
      exact (hch e he).1)
  rw [hmap] at hfold
  rw [hlen] at h2
  rw [← h2] at hfold
  obtain ⟨f1, f2, f3, f4, f5⟩ := hfold
  have p2 : ∀ x, ih2.pages x =
      if x ∈ (ih0.pages b).pairs.map (fun e => e.2.page_no) then
        { ih1.pages x with parent := a }
      else ih1.pages x := by
    intro x
    rw [f1]
  have hnotch : ∀ x, (x = a ∨ x = b ∨ x = par) →
      x ∉ (ih0.pages b).pairs.map (fun e => e.2.page_no) := by
    intro x hx hm
    obtain ⟨e, he, hee⟩ := List.mem_map.mp hm
    obtain ⟨c1, c2, c3⟩ := hch e he
    rcases hx with hx | hx | hx
    · exact c1 (hee.trans hx)
    · exact c2 (hee.trans hx)
    · exact c3 (hee.trans hx)
  have p2b : ih2.pages b = ih0.pages b := by
    rw [p2, if_neg (hnotch b (Or.inr (Or.inl rfl))), p1, if_neg (Ne.symm hab)]
  have hh1 : ih1.file_hdr = ih0.file_hdr ∧ ih1.next_page_no = ih0.next_page_no ∧
      ih1.latch_page_set = ih0.latch_page_set ∧
      ih1.deleted_page_set = ih0.deleted_page_set := by
    rw [h1]
    exact ⟨rfl, rfl, rfl, rfl⟩
  have hep : (ih0.pages par).erase_pair ((Q1.length : Int) + 1) =
      { ih0.pages par with pairs := Q1 ++ eL :: Q2 } := by
    have := erase_pair_decomp (ih0.pages par) (Q1 ++ [eL]) Q2 eR (by simp [hPp])
    simpa using this
  refine ⟨ih7, ?_, ?_, ?_, ?_, ?_, ?_⟩
  · have hins := insert_pairs_end (ih0.pages a) (ih0.pages b).pairs
    have hb2 : (ih2.pages b).is_leaf = false := by rw [p2b, hlb]
    rcases hcase with ⟨c1, c2, c3, c4⟩ | ⟨c1, c2, c3⟩
    · subst c1 c2 c3 c4
      unfold coalesce
      simp only [if_true, fetch_node, hins]
      rw [← h1]
      simp only [fetch_node] at hlen
      rw [hlen, ← h2]
      simp only [fetch_node, hb2, Bool.false_eq_true, if_false, false_and]
      simp only [List.length_nil, Nat.cast_zero] at h7
      subst h7
      rfl
    · subst c1 c2 c3
      have hidx : ¬ ((Q1.length : Int) + 1 = 0) := by omega
      unfold coalesce
      simp only [if_neg hidx, fetch_node, hins]
      rw [← h1]
      simp only [fetch_node] at hlen
      rw [hlen, ← h2]
      simp only [fetch_node, hb2, Bool.false_eq_true, if_false, false_and]
      subst h7
      rfl
  · intro x
    rw [h7, modify_node_apply]
    show (if x = par then (ih2.pages par).erase_pair _ else ih2.pages x) = _
    rw [p2, p2, if_neg (hnotch par (Or.inr (Or.inr rfl))), p1, p1, if_neg (Ne.symm hap), hep]
    by_cases hx1 : x = par
    · simp only [if_pos hx1]
    · simp only [if_neg hx1]
      by_cases hx2 : x = a
      · subst hx2
        simp only [if_true, if_neg (hnotch x (Or.inl rfl))]
      · simp only [if_neg hx2]
  · rw [h7]
    show { ih2.file_hdr with num_pages := ih2.file_hdr.num_pages - 1 } = _
    rw [f2, hh1.1]
  · rw [h7]
    show ih2.next_page_no = _
    rw [f3, hh1.2.1]
  · rw [h7]
    show ih2.latch_page_set = _
    rw [f4, hh1.2.2.1]
  · rw [h7]
    show ih2.deleted_page_set ++ [b] = _
    rw [f5, hh1.2.2.2]

end RMDB

open RMDB RMDB.IxNodeHandle RMDB.IxIndexHandle

namespace RMDB

/-- A handle whose pages regroup the pairs of two adjacent siblings of a valid
tree, all links kept, is a valid tree with the same stored pairs. -/
theorem regroup_valid (ih ih2 : IxIndexHandle) (h : Nat) (hv : Valid ih h)
    (hn : Nat) (par : Int) (hs : sub_at ih.pages (hn + 1) par h ih.file_hdr.root_page)
    (Q1 Q2 : List (Int × Rid)) (eL eR : Int × Rid)
    (hpar : (ih.pages par).pairs = Q1 ++ eL :: eR :: Q2)
    (A2 B2 : List (Int × Rid))
    (hAB : A2 ++ B2 = (ih.pages eL.2.page_no).pairs ++ (ih.pages eR.2.page_no).pairs)
    (hA : A2 ≠ []) (hB : B2 ≠ [])
    (hhead : (A2.head?).map Prod.fst = ((ih.pages eL.2.page_no).pairs.head?).map Prod.fst)
    (kB : Int) (hkB : (B2.head?).map Prod.fst = some kB)
    (hFpar : ih2.pages par = { ih.pages par with pairs := Q1 ++ eL :: (kB, eR.2) :: Q2 })
    (hFa : ih2.pages eL.2.page_no = { ih.pages eL.2.page_no with pairs := A2 })
    (hFb : ih2.pages eR.2.page_no = { ih.pages eR.2.page_no with pairs := B2 })
    (hFo : ∀ x, x ≠ par → x ≠ eL.2.page_no → x ≠ eR.2.page_no →
        (ih2.pages x).is_leaf = (ih.pages x).is_leaf ∧
        (ih2.pages x).pairs = (ih.pages x).pairs ∧
        (hn ≠ 0 → ∀ e ∈ A2, x = e.2.page_no → (ih2.pages x).parent = eL.2.page_no) ∧
        (hn ≠ 0 → ∀ e ∈ B2, x = e.2.page_no → (ih2.pages x).parent = eR.2.page_no) ∧
        ((hn ≠ 0 → ∀ e ∈ A2 ++ B2, x ≠ e.2.page_no) →
          (ih2.pages x).parent = (ih.pages x).parent))
    (hlinks : ∀ x, (ih2.pages x).next_leaf = (ih.pages x).next_leaf ∧
      (ih2.pages x).prev_leaf = (ih.pages x).prev_leaf)
    (hhdr : ih2.file_hdr = ih.file_hdr) (hnext : ih2.next_page_no = ih.next_page_no) :
    Valid ih2 h ∧ tree_entries ih2 h = tree_entries ih h ∧
      (subtree_nodes ih2.pages h ih2.file_hdr.root_page).Perm
        (subtree_nodes ih.pages h ih.file_hdr.root_page) := by
  obtain ⟨v1, v2, v3, v4, v5, v6, v7, v8⟩ := hv
  obtain ⟨r1, r2, r3, r4⟩ := pair_regroup ih.pages ih2.pages h ih.file_hdr.root_page v2 v4
    hn par hs Q1 Q2 eL eR hpar A2 B2 hAB hA hB hhead kB hkB hFpar hFa hFb hFo
  refine ⟨⟨?_, ?_, ?_, ?_, ?_, ?_, ?_, ?_⟩, ?_, ?_⟩
  · rw [hhdr]; exact v1
  · rw [hhdr]; exact r1
  · rw [hhdr, r4]; exact v3
  · rw [hhdr]; exact (List.Perm.nodup_iff r3).mpr v4
  · rw [hhdr, hnext]
    intro p hp
    exact v5 p (r3.subset hp)
  · rw [hhdr, r2]
    exact linked_congr ih.pages ih2.pages hlinks _ _ _ v6
  · rw [hhdr, r2]; exact v7
  · rw [hhdr, r2]; exact v8
  · show subtree_entries ih2.pages h ih2.file_hdr.root_page = _
    rw [hhdr, r4]
    rfl
  · rw [hhdr]; exact r3


/-- Facts about the children of two adjacent internal siblings `a`, `b`. -/
theorem grand_children (P : Int → IxNodeHandle) (hn : Nat) (par gp : Int)
    (Q1 Q2 : List (Int × Rid)) (eL eR : Int × Rid)
    (hpar : (P par).pairs = Q1 ++ eL :: eR :: Q2)
    (hw : wf_subtree P (hn + 1) par gp)
    (hnd : (subtree_nodes P (hn + 1) par).Nodup) (h0 : hn ≠ 0) :
    ∀ e ∈ (P eL.2.page_no).pairs ++ (P eR.2.page_no).pairs,
      e.2.page_no ≠ par ∧ e.2.page_no ≠ eL.2.page_no ∧ e.2.page_no ≠ eR.2.page_no ∧
      (e ∈ (P eL.2.page_no).pairs → (P e.2.page_no).parent = eL.2.page_no) ∧
      (e ∈ (P eR.2.page_no).pairs → (P e.2.page_no).parent = eR.2.page_no) ∧
      ∀ e2 ∈ (P eL.2.page_no).pairs ++ (P eR.2.page_no).pairs,
        e2.2.page_no = e.2.page_no → e2 = e := by
  obtain ⟨k, hk⟩ : ∃ k, hn = k + 1 := ⟨hn - 1, by omega⟩
  subst hk
  obtain ⟨wa, wb, _, _, _, _, _, _⟩ := pair_facts P (k + 1) par gp Q1 Q2 eL eR hpar hw hnd
  have G := grand_facts P k par gp Q1 Q2 eL eR hpar hw hnd
  intro e he
  obtain ⟨x1, x2, x3, _, x5⟩ := (G e he).2.2.2 e.2.page_no (mem_subtree_nodes_self P k _)
  refine ⟨x1, x2, x3, ?_, ?_, ?_⟩
  · intro h1
    exact wf_root_parent P k _ _ (wa.2.2.2 e h1).1
  · intro h1
    exact wf_root_parent P k _ _ (wb.2.2.2 e h1).1
  · intro e2 he2 hc
    exact x5 e2 he2 (hc ▸ mem_subtree_nodes_self P k _)

/-- Source `redistribute` between two adjacent siblings of a valid tree keeps
the tree valid with the same stored pairs; one pair moves from the sibling to
the node. -/
theorem redistribute_valid (ih : IxIndexHandle) (h : Nat) (hv : Valid ih h)
    (hn : Nat) (par : Int) (hs : sub_at ih.pages (hn + 1) par h ih.file_hdr.root_page)
    (Q1 Q2 : List (Int × Rid)) (eL eR : Int × Rid)
    (hpar : (ih.pages par).pairs = Q1 ++ eL :: eR :: Q2)
    (node nb index : Int)
    (hcase : (index = 0 ∧ node = eL.2.page_no ∧ nb = eR.2.page_no ∧ Q1 = []) ∨
      (index = (Q1.length : Int) + 1 ∧ node = eR.2.page_no ∧ nb = eL.2.page_no))
    (hsz : 2 ≤ (ih.pages nb).pairs.length) :
    ∃ ih2, ih.redistribute nb node par index = Except.ok ih2 ∧ Valid ih2 h ∧
      tree_entries ih2 h = tree_entries ih h ∧
      (subtree_nodes ih2.pages h ih2.file_hdr.root_page).Perm
        (subtree_nodes ih.pages h ih.file_hdr.root_page) ∧
      ih2.file_hdr = ih.file_hdr ∧ ih2.next_page_no = ih.next_page_no ∧
      (∀ x, ((ih2.pages x).pairs.length : Int) =
        if x = node then ((ih.pages x).pairs.length : Int) + 1
        else if x = nb then ((ih.pages x).pairs.length : Int) - 1
        else ((ih.pages x).pairs.length : Int)) := by
  have hwpar := sub_at_wf ih.pages (hn + 1) par h _ IX_NO_PAGE hv.2.1 hs
  have hndpar := sub_at_nodup ih.pages (hn + 1) par h _ hs hv.2.2.2.1
  obtain ⟨wa, wb, hha, hhb, fa, fb, _, _⟩ :=
    pair_facts ih.pages hn par _ Q1 Q2 eL eR hpar hwpar hndpar
  have hab : eL.2.page_no ≠ eR.2.page_no := by
    intro hc
    exact (fa _ (mem_subtree_nodes_self _ hn _)).2.1 (hc ▸ mem_subtree_nodes_self _ hn _)
  have hap : eL.2.page_no ≠ par := (fa _ (mem_subtree_nodes_self _ hn _)).1
  have hbp : eR.2.page_no ≠ par := (fb _ (mem_subtree_nodes_self _ hn _)).1
  have hla := wf_is_leaf ih.pages hn _ _ wa
  have hlb := wf_is_leaf ih.pages hn _ _ wb
  have hint : ∀ q, (ih.pages q).is_leaf = decide (hn = 0) → ((ih.pages q).is_leaf = false ↔ hn ≠ 0) := by
    intro q hq
    rw [hq]
    simp
  have hG : hn ≠ 0 → _ := grand_children ih.pages hn par _ Q1 Q2 eL eR hpar hwpar hndpar
  have hPa := wf_ne_nil ih.pages hn _ _ wa
  have hPb := wf_ne_nil ih.pages hn _ _ wb
  have hlinks_of : ∀ (ih2 : IxIndexHandle) (A2 B2 : List (Int × Rid)) (k : Int) (c tgt : Int)
      (f : Prop) [Decidable f],
      (∀ x, ih2.pages x =
        if x = par then { ih.pages par with pairs := Q1 ++ eL :: (k, eR.2) :: Q2 }
        else if x = eL.2.page_no then { ih.pages eL.2.page_no with pairs := A2 }
        else if x = eR.2.page_no then { ih.pages eR.2.page_no with pairs := B2 }
        else if f ∧ x = c then { ih.pages x with parent := tgt }
        else ih.pages x) →
      ∀ x, (ih2.pages x).next_leaf = (ih.pages x).next_leaf ∧
        (ih2.pages x).prev_leaf = (ih.pages x).prev_leaf := by
    intro ih2 A2 B2 k c tgt f _ hp x
    rw [hp]
    split_ifs with c1 c2 c3 c4
    · subst c1; exact ⟨rfl, rfl⟩
    · subst c2; exact ⟨rfl, rfl⟩
    · subst c3; exact ⟨rfl, rfl⟩
    · exact ⟨rfl, rfl⟩
    · exact ⟨rfl, rfl⟩
  rcases hcase with ⟨c1, c2, c3, c4⟩ | ⟨c1, c2, c3⟩
  · subst c1 c2 c3 c4
    obtain ⟨m, B2, hPbm, hB2⟩ : ∃ m B2, (ih.pages eR.2.page_no).pairs = m :: B2 ∧ B2 ≠ [] := by
      match hm : (ih.pages eR.2.page_no).pairs with
      | [] => rw [hm] at hsz; simp at hsz
      | [_] => rw [hm] at hsz; simp at hsz
      | m :: m2 :: rest => exact ⟨m, m2 :: rest, rfl, by simp⟩
    have hmC : m ∈ (ih.pages eL.2.page_no).pairs ++ (ih.pages eR.2.page_no).pairs := by
      rw [hPbm]; simp
    obtain ⟨ih2, heq, hp, hh, hnx, _, _⟩ := redistribute_left ih eR.2.page_no eL.2.page_no par
      (ih.pages eL.2.page_no).pairs B2 Q2 m eL eR rfl hPbm (by simpa using hpar) hab hap hbp
      (by
        intro hl
        obtain ⟨g1, g2, g3, _⟩ := hG ((hint _ hla).mp hl) m hmC
        exact ⟨g2, g3, g1⟩)
    have hp2 : ∀ x, ih2.pages x =
        if x = par then
          { ih.pages par with
            pairs := [] ++ eL :: (({ ih.pages eR.2.page_no with pairs := B2 } :
              IxNodeHandle).get_key 0, eR.2) :: Q2 }
        else if x = eL.2.page_no then
          { ih.pages eL.2.page_no with pairs := (ih.pages eL.2.page_no).pairs ++ [m] }
        else if x = eR.2.page_no then { ih.pages eR.2.page_no with pairs := B2 }
        else if (ih.pages eL.2.page_no).is_leaf = false ∧ x = m.2.page_no then
          { ih.pages x with parent := eL.2.page_no }
        else ih.pages x := hp
    have hFo : ∀ x, x ≠ par → x ≠ eL.2.page_no → x ≠ eR.2.page_no →
        (ih2.pages x).is_leaf = (ih.pages x).is_leaf ∧
        (ih2.pages x).pairs = (ih.pages x).pairs ∧
        (hn ≠ 0 → ∀ e ∈ (ih.pages eL.2.page_no).pairs ++ [m], x = e.2.page_no →
          (ih2.pages x).parent = eL.2.page_no) ∧
        (hn ≠ 0 → ∀ e ∈ B2, x = e.2.page_no → (ih2.pages x).parent = eR.2.page_no) ∧
        ((hn ≠ 0 → ∀ e ∈ ((ih.pages eL.2.page_no).pairs ++ [m]) ++ B2, x ≠ e.2.page_no) →
          (ih2.pages x).parent = (ih.pages x).parent) := by
      intro x x1 x2 x3
      rw [hp, if_neg x1, if_neg x2, if_neg x3]
      by_cases hc : (ih.pages eL.2.page_no).is_leaf = false ∧ x = m.2.page_no
      · rw [if_pos hc]
        have h0 := (hint _ hla).mp hc.1
        refine ⟨rfl, rfl, fun _ _ _ _ => rfl, ?_, ?_⟩
        · intro _ e he hxe
          exfalso
          have heC : e ∈ (ih.pages eL.2.page_no).pairs ++ (ih.pages eR.2.page_no).pairs := by
            rw [hPbm]; simp [he]
          have := (hG h0 m hmC).2.2.2.2.2 e heC (hxe.symm.trans hc.2)
          have hnd2 := children_nodup ih.pages (hn - 1) eR.2.page_no
            (by
              have : hn - 1 + 1 = hn := by omega
              rw [this]
              exact (List.nodup_append.mp (nodup_pair ih.pages hn par [] Q2 eL eR
                hpar hndpar)).2.1)
          rw [hPbm, List.map_cons, List.nodup_cons] at hnd2
          exact hnd2.1 (this ▸ List.mem_map_of_mem _ he)
        · intro hx
          exfalso
          exact hx h0 m (by simp) hc.2
      · rw [if_neg hc]
        refine ⟨rfl, rfl, ?_, ?_, fun _ => rfl⟩
        · intro h0 e he hxe
          have hem : e ≠ m := by
            intro hem
            exact hc ⟨(hint _ hla).mpr h0, by rw [hxe, hem]⟩
          have he1 : e ∈ (ih.pages eL.2.page_no).pairs := by
            simpa [hem] using he
          rw [hxe]
          exact (hG h0 e (List.mem_append_left _ he1)).2.2.2.1 he1
        · intro h0 e he hxe
          have he1 : e ∈ (ih.pages eR.2.page_no).pairs := by
            rw [hPbm]; exact List.mem_cons_of_mem _ he
          rw [hxe]
          exact (hG h0 e (List.mem_append_right _ he1)).2.2.2.2.1 he1
    obtain ⟨r1, r2, r3⟩ := regroup_valid ih ih2 h hv hn par hs [] Q2 eL eR hpar
      ((ih.pages eL.2.page_no).pairs ++ [m]) B2 (by rw [hPbm]; simp) (by simp) hB2
      (by rw [List.head?_append_of_ne_nil _ hPa])
      (({ ih.pages eR.2.page_no with pairs := B2 } : IxNodeHandle).get_key 0)
      (get_key_head { ih.pages eR.2.page_no with pairs := B2 } hB2)
      (by rw [hp2, if_pos rfl])
      (by rw [hp2, if_neg hap, if_pos rfl])
      (by rw [hp2, if_neg hbp, if_neg (Ne.symm hab), if_pos rfl])
      hFo (hlinks_of ih2 _ _ _ _ _ _ hp2) hh hnx
    refine ⟨ih2, heq, r1, r2, r3, hh, hnx, ?_⟩
    intro x
    rw [hp2]
    by_cases y1 : x = eL.2.page_no
    · rw [y1]
      simp [hap, hab]
    · by_cases y2 : x = eR.2.page_no
      · rw [y2]
        simp [hbp, Ne.symm hab, hPbm]
      · by_cases y3 : x = par
        · rw [y3]
          simp [Ne.symm hap, Ne.symm hbp, hpar]
        · simp only [if_neg y3, if_neg y1, if_neg y2]
          split_ifs <;> rfl
  · subst c1 c2 c3
    obtain ⟨A2, m, hPam, hA2⟩ : ∃ A2 m, (ih.pages eL.2.page_no).pairs = A2 ++ [m] ∧ A2 ≠ [] := by
      refine ⟨(ih.pages eL.2.page_no).pairs.dropLast, (ih.pages eL.2.page_no).pairs.getLast hPa,
        (List.dropLast_append_getLast hPa).symm, ?_⟩
      intro hc
      have := congrArg List.length hc
      rw [List.length_dropLast] at this
      simp only [List.length_nil] at this
      omega
    have hmC : m ∈ (ih.pages eL.2.page_no).pairs ++ (ih.pages eR.2.page_no).pairs := by
      rw [hPam]; simp
    obtain ⟨ih2, heq, hp, hh, hnx, _, _⟩ := redistribute_right ih eL.2.page_no eR.2.page_no par
      A2 (ih.pages eR.2.page_no).pairs Q1 Q2 m eL eR hPam rfl hpar (Ne.symm hab) hbp hap
      (by
        intro hl
        obtain ⟨g1, g2, g3, _⟩ := hG ((hint _ hlb).mp hl) m hmC
        exact ⟨g3, g2, g1⟩)
    have hp2 : ∀ x, ih2.pages x =
        if x = par then { ih.pages par with pairs := Q1 ++ eL :: (m.1, eR.2) :: Q2 }
        else if x = eL.2.page_no then { ih.pages eL.2.page_no with pairs := A2 }
        else if x = eR.2.page_no then
          { ih.pages eR.2.page_no with pairs := m :: (ih.pages eR.2.page_no).pairs }
        else if (ih.pages eR.2.page_no).is_leaf = false ∧ x = m.2.page_no then
          { ih.pages x with parent := eR.2.page_no }
        else ih.pages x := by
      intro x
      rw [hp]
      by_cases y1 : x = par
      · rw [if_pos y1, if_pos y1]
      · rw [if_neg y1, if_neg y1]
        by_cases y2 : x = eL.2.page_no
        · rw [if_pos y2, if_neg (y2 ▸ hab), if_pos y2]
        · rw [if_neg y2, if_neg y2]
    have hFo : ∀ x, x ≠ par → x ≠ eL.2.page_no → x ≠ eR.2.page_no →
        (ih2.pages x).is_leaf = (ih.pages x).is_leaf ∧
        (ih2.pages x).pairs = (ih.pages x).pairs ∧
        (hn ≠ 0 → ∀ e ∈ A2, x = e.2.page_no → (ih2.pages x).parent = eL.2.page_no) ∧
        (hn ≠ 0 → ∀ e ∈ m :: (ih.pages eR.2.page_no).pairs, x = e.2.page_no →
          (ih2.pages x).parent = eR.2.page_no) ∧
        ((hn ≠ 0 → ∀ e ∈ A2 ++ m :: (ih.pages eR.2.page_no).pairs, x ≠ e.2.page_no) →
          (ih2.pages x).parent = (ih.pages x).parent) := by
      intro x x1 x2 x3
      rw [hp2, if_neg x1, if_neg x2, if_neg x3]
      by_cases hc : (ih.pages eR.2.page_no).is_leaf = false ∧ x = m.2.page_no
      · rw [if_pos hc]
        have h0 := (hint _ hlb).mp hc.1
        refine ⟨rfl, rfl, ?_, fun _ _ _ _ => rfl, ?_⟩
        · intro _ e he hxe
          exfalso
          have heC : e ∈ (ih.pages eL.2.page_no).pairs ++ (ih.pages eR.2.page_no).pairs := by
            rw [hPam]; simp [he]
          have := (hG h0 m hmC).2.2.2.2.2 e heC (hxe.symm.trans hc.2)
          have hnd2 := children_nodup ih.pages (hn - 1) eL.2.page_no
            (by
              have : hn - 1 + 1 = hn := by omega
              rw [this]
              exact (List.nodup_append.mp (nodup_pair ih.pages hn par Q1 Q2 eL eR
                hpar hndpar)).1)
          rw [hPam, List.map_append, List.nodup_append] at hnd2
          exact hnd2.2.2 (List.mem_map_of_mem _ he) (by rw [this]; simp)
        · intro hx
          exfalso
          exact hx h0 m (by simp) hc.2
      · rw [if_neg hc]
        refine ⟨rfl, rfl, ?_, ?_, fun _ => rfl⟩
        · intro h0 e he hxe
          have he1 : e ∈ (ih.pages eL.2.page_no).pairs := by
            rw [hPam]; exact List.mem_append_left _ he
          rw [hxe]
          exact (hG h0 e (List.mem_append_left _ he1)).2.2.2.1 he1
        · intro h0 e he hxe
          have hem : e ≠ m := by
            intro hem
            exact hc ⟨(hint _ hlb).mpr h0, by rw [hxe, hem]⟩
          have he1 : e ∈ (ih.pages eR.2.page_no).pairs := by
            simpa [hem] using he
          rw [hxe]
          exact (hG h0 e (List.mem_append_right _ he1)).2.2.2.2.1 he1
    obtain ⟨r1, r2, r3⟩ := regroup_valid ih ih2 h hv hn par hs Q1 Q2 eL eR hpar
      A2 (m :: (ih.pages eR.2.page_no).pairs) (by rw [hPam]; simp) hA2 (by simp)
      (by rw [hPam, List.head?_append_of_ne_nil _ hA2])
      m.1 (by simp)
      (by rw [hp2, if_pos rfl])
      (by rw [hp2, if_neg hap, if_pos rfl])
      (by rw [hp2, if_neg hbp, if_neg (Ne.symm hab), if_pos rfl])
      hFo (hlinks_of ih2 _ _ _ _ _ _ hp2) hh hnx
    refine ⟨ih2, heq, r1, r2, r3, hh, hnx, ?_⟩
    intro x
    rw [hp2]
    by_cases y1 : x = eR.2.page_no
    · rw [y1]
      simp [hbp, Ne.symm hab]
    · by_cases y2 : x = eL.2.page_no
      · rw [y2]
        simp [hap, hab, hPam]
      · by_cases y3 : x = par
        · rw [y3]
          simp [Ne.symm hap, Ne.symm hbp, hpar]
        · simp only [if_neg y3, if_neg y1, if_neg y2]
          split_ifs <;> rfl

end RMDB

open RMDB RMDB.IxNodeHandle RMDB.IxIndexHandle

namespace RMDB

theorem getLast_drop_second {α : Type} (X Y : List α) (a b : α) (hY : Y ≠ []) :
    (X ++ a :: Y).getLast? = (X ++ a :: b :: Y).getLast? := by
  obtain ⟨y, Y2, rfl⟩ := List.exists_cons_of_ne_nil hY
  rw [List.getLast?_append_of_ne_nil _ (by simp), List.getLast?_append_of_ne_nil _ (by simp)]
  simp [List.getLast?_cons_cons]

/-- Source `coalesce` on two adjacent siblings of a valid tree: page `b` is
merged into `a` and leaves the tree, which stays valid with the same stored
pairs; the parent has lost the pair of `b`. -/
theorem coalesce_valid (recurse : IxIndexHandle → Int → Except IxError (Bool × IxIndexHandle))
    (ih : IxIndexHandle) (h : Nat) (hv : Valid ih h)
    (hn : Nat) (par : Int) (hs : sub_at ih.pages (hn + 1) par h ih.file_hdr.root_page)
    (Q1 Q2 : List (Int × Rid)) (eL eR : Int × Rid)
    (hpar : (ih.pages par).pairs = Q1 ++ eL :: eR :: Q2)
    (node0 nb0 index0 : Int)
    (hcase : (index0 = 0 ∧ node0 = eL.2.page_no ∧ nb0 = eR.2.page_no ∧ Q1 = []) ∨
      (index0 = (Q1.length : Int) + 1 ∧ node0 = eR.2.page_no ∧ nb0 = eL.2.page_no)) :
    ∃ ih7, coalesce recurse ih nb0 node0 par index0 =
        (if (ih7.fetch_node par).get_size < IxNodeHandle.get_min_size ih7.file_hdr then
          recurse ih7 par
        else Except.ok (false, ih7)) ∧
      Valid ih7 h ∧ tree_entries ih7 h = tree_entries ih h ∧
      sub_at ih7.pages (hn + 1) par h ih7.file_hdr.root_page ∧
      (eR.2.page_no :: subtree_nodes ih7.pages h ih7.file_hdr.root_page).Perm
        (subtree_nodes ih.pages h ih.file_hdr.root_page) ∧
      ih7.file_hdr.root_page = ih.file_hdr.root_page ∧
      ih7.file_hdr.btree_order = ih.file_hdr.btree_order ∧
      ih7.next_page_no = ih.next_page_no ∧
      (∀ x, ((ih7.pages x).pairs.length : Int) =
        if x = par then ((ih.pages x).pairs.length : Int) - 1
        else if x = eL.2.page_no then
          ((ih.pages eL.2.page_no).pairs.length : Int) + (ih.pages eR.2.page_no).pairs.length
        else ((ih.pages x).pairs.length : Int)) := by
  have hwpar := sub_at_wf ih.pages (hn + 1) par h _ IX_NO_PAGE hv.2.1 hs
  have hndpar := sub_at_nodup ih.pages (hn + 1) par h _ hs hv.2.2.2.1
  obtain ⟨wa, wb, hha, hhb, fa, fb, _, _⟩ :=
    pair_facts ih.pages hn par _ Q1 Q2 eL eR hpar hwpar hndpar
  have hab : eL.2.page_no ≠ eR.2.page_no := by
    intro hc
    exact (fa _ (mem_subtree_nodes_self _ hn _)).2.1 (hc ▸ mem_subtree_nodes_self _ hn _)
  have hap : eL.2.page_no ≠ par := (fa _ (mem_subtree_nodes_self _ hn _)).1
  have hbp : eR.2.page_no ≠ par := (fb _ (mem_subtree_nodes_self _ hn _)).1
  have hla := wf_is_leaf ih.pages hn _ _ wa
  have hlb := wf_is_leaf ih.pages hn _ _ wb
  have hG : hn ≠ 0 → _ := grand_children ih.pages hn par _ Q1 Q2 eL eR hpar hwpar hndpar
  obtain ⟨v1, v2, v3, v4, v5, v6, v7, v8⟩ := hv
  by_cases h0 : hn = 0
  · -- two leaves
    subst h0
    have hla2 : (ih.pages eL.2.page_no).is_leaf = true := by rw [hla]; simp
    have hlb2 : (ih.pages eR.2.page_no).is_leaf = true := by rw [hlb]; simp
    -- the leaf list around a, b
    have hpm0 := pair_merge ih.pages
      (fun x => if x = par then { ih.pages par with pairs := Q1 ++ eL :: Q2 }
        else if x = eL.2.page_no then
          { ih.pages eL.2.page_no with
            pairs := (ih.pages eL.2.page_no).pairs ++ (ih.pages eR.2.page_no).pairs
            next_leaf := (ih.pages eR.2.page_no).next_leaf }
        else if x = (ih.pages eR.2.page_no).next_leaf then
          { ih.pages x with prev_leaf := eL.2.page_no }
        else ih.pages x)
      h ih.file_hdr.root_page v2 v4 0 par hs Q1 Q2 eL eR hpar
      (by simp only [if_true])
      (by simp only [if_neg hap, if_true])
      (by simp only [if_neg hap, if_true])
      (by simp only [if_neg hap, if_true])
      (by
        intro x x1 x2 x3
        simp only [if_neg x1, if_neg x2]
        refine ⟨?_, ?_, fun hc => absurd rfl hc, fun _ => ?_⟩ <;> split_ifs <;> rfl)
    obtain ⟨wF, hlv0, _, hndF, hentF, hsF⟩ := hpm0
    obtain ⟨X, Y, hL, hLF⟩ := hlv0 rfl
    have hring : linked ih.pages IX_LEAF_HEADER_PAGE (X ++ eL.2.page_no :: eR.2.page_no :: Y)
        IX_LEAF_HEADER_PAGE := by
      have := v6
      unfold leaf_ring at this
      rw [hL] at this
      exact this
    have hlnd : (X ++ eL.2.page_no :: eR.2.page_no :: Y).Nodup := by
      rw [← hL]
      exact List.Sublist.nodup (leaves_sublist_nodes ih.pages h _) v4
    have hlmem : ∀ l ∈ X ++ eL.2.page_no :: eR.2.page_no :: Y, 2 ≤ l ∧
        (ih.pages l).is_leaf = true := by
      intro l hl
      rw [← hL] at hl
      exact ⟨(v5 l ((leaves_sublist_nodes ih.pages h _).subset hl)).1,
        (wf_leaf_mem ih.pages h _ _ v2 l hl).1⟩
    have hlab := linked_split ih.pages X IX_LEAF_HEADER_PAGE eL.2.page_no (eR.2.page_no :: Y)
      IX_LEAF_HEADER_PAGE hring
    obtain ⟨⟨_, hprev⟩, hlb3⟩ := hlab
    have hnext := linked_next ih.pages eR.2.page_no Y IX_LEAF_HEADER_PAGE hlb3
    have hpar2 : 2 ≤ par := (v5 par (sub_at_mem ih.pages (0 + 1) par h _ hs)).1
    have hparl : (ih.pages par).is_leaf = false := hwpar.1
    -- the page after b
    have hn_cases : ((ih.pages eR.2.page_no).next_leaf = IX_LEAF_HEADER_PAGE ∧ Y = []) ∨
        ((ih.pages eR.2.page_no).next_leaf ≠ IX_LEAF_HEADER_PAGE ∧ Y ≠ [] ∧
          (ih.pages eR.2.page_no).next_leaf ∈ Y) := by
      cases Y with
      | nil => left; exact ⟨by rw [hnext]; rfl, rfl⟩
      | cons y Y2 =>
        right
        have hy : (ih.pages eR.2.page_no).next_leaf = y := by rw [hnext]; rfl
        refine ⟨?_, by simp, by rw [hy]; simp⟩
        rw [hy]
        have := (hlmem y (by simp)).1
        unfold IX_LEAF_HEADER_PAGE
        omega
    have hna : (ih.pages eR.2.page_no).next_leaf ≠ eL.2.page_no ∧
        (ih.pages eR.2.page_no).next_leaf ≠ eR.2.page_no ∧
        (ih.pages eR.2.page_no).next_leaf ≠ par := by
      rcases hn_cases with ⟨c1, _⟩ | ⟨_, _, c3⟩
      · rw [c1]
        have ha2 := (hlmem eL.2.page_no (by simp)).1
        have hb2 := (hlmem eR.2.page_no (by simp)).1
        unfold IX_LEAF_HEADER_PAGE
        refine ⟨by omega, by omega, by omega⟩
      · have hnd2 := hlnd
        rw [List.nodup_append] at hnd2
        have hnd3 := hnd2.2.1
        rw [List.nodup_cons, List.nodup_cons] at hnd3
        refine ⟨?_, ?_, ?_⟩
        · intro hc
          exact hnd3.1 (List.mem_cons_of_mem _ (hc ▸ c3))
        · intro hc
          exact hnd3.2.1 (hc ▸ c3)
        · intro hc
          have := (hlmem _ (List.mem_append_right _ (List.mem_cons_of_mem _
            (List.mem_cons_of_mem _ c3)))).2
          rw [hc, hparl] at this
          exact absurd this (by simp)
    obtain ⟨ih7, heq, hp, hh, hnx, _, _⟩ := coalesce_leaf_spec recurse ih nb0 node0 par index0
      eL.2.page_no eR.2.page_no Q1 Q2 eL eR hcase hpar hla2 hlb2 hprev hab hap hbp
      hna.1 hna.2.1 hna.2.2
    have hpF : ih7.pages = (fun x => if x = par then { ih.pages par with pairs := Q1 ++ eL :: Q2 }
        else if x = eL.2.page_no then
          { ih.pages eL.2.page_no with
            pairs := (ih.pages eL.2.page_no).pairs ++ (ih.pages eR.2.page_no).pairs
            next_leaf := (ih.pages eR.2.page_no).next_leaf }
        else if x = (ih.pages eR.2.page_no).next_leaf then
          { ih.pages x with prev_leaf := eL.2.page_no }
        else ih.pages x) := funext hp
    rw [← hpF] at wF hLF hndF hentF hsF
    have hroot : ih7.file_hdr.root_page = ih.file_hdr.root_page := by rw [hh]
    have hlinkF : linked ih7.pages IX_LEAF_HEADER_PAGE (X ++ eL.2.page_no :: Y)
        IX_LEAF_HEADER_PAGE := by
      refine linked_remove ih.pages ih7.pages eL.2.page_no eR.2.page_no (fun _ => True)
        ?_ ?_ ?_ ?_ IX_LEAF_HEADER_PAGE trivial Y X IX_LEAF_HEADER_PAGE hring hlnd ?_ ?_ trivial
        (fun _ _ => trivial)
      · rw [hp, if_neg hap, if_pos rfl]
      · rw [hp, if_neg hna.2.2, if_neg hna.1, if_pos rfl]
      · intro x _ hx
        rw [hp]
        by_cases y1 : x = par
        · rw [if_pos y1, y1]
        · rw [if_neg y1, if_neg hx]
          split_ifs <;> rfl
      · intro x _ hx
        rw [hp]
        by_cases y1 : x = par
        · rw [if_pos y1, y1]
        · rw [if_neg y1]
          by_cases y2 : x = eL.2.page_no
          · rw [if_pos y2, y2]
          · rw [if_neg y2, if_neg hx]
      · intro hc
        have := (hlmem _ hc).1
        unfold IX_LEAF_HEADER_PAGE at this
        omega
      · intro hc
        have := (hlmem eL.2.page_no (by simp)).1
        rw [← hc] at this
        unfold IX_LEAF_HEADER_PAGE at this
        omega
    refine ⟨ih7, heq, ⟨?_, ?_, ?_, ?_, ?_, ?_, ?_, ?_⟩, ?_, ?_, ?_, hroot, by rw [hh],
      hnx, ?_⟩
    · rw [hroot]; exact v1
    · rw [hroot]; exact wF
    · rw [hroot, hentF]; exact v3
    · rw [hroot]
      exact (List.nodup_cons.mp ((List.Perm.nodup_iff hndF).mpr v4)).2
    · rw [hroot, hnx]
      intro p hp2
      exact v5 p (hndF.subset (List.mem_cons_of_mem _ hp2))
    · unfold leaf_ring
      rw [hroot, hLF]
      exact hlinkF
    · rw [hroot, hLF, hh]
      rw [hL] at v7
      cases X with
      | nil => simpa using v7
      | cons x X2 => simpa using v7
    · rw [hroot, hLF, hh]
      rw [hL] at v8
      show _ = some (if (ih.pages eR.2.page_no).next_leaf = IX_LEAF_HEADER_PAGE then eL.2.page_no
          else ih.file_hdr.last_leaf)
      rcases hn_cases with ⟨c1, c2⟩ | ⟨c1, c2, _⟩
      · rw [if_pos c1, c2]
        simp
      · rw [if_neg c1, getLast_drop_second X Y _ eR.2.page_no c2]
        exact v8
    · show subtree_entries ih7.pages h ih7.file_hdr.root_page = _
      rw [hroot, hentF]
      rfl
    · rw [hroot]; exact hsF
    · rw [hroot]; exact hndF
    · intro x
      rw [hp]
      by_cases y1 : x = par
      · rw [y1]
        simp [hpar]
        omega
      · simp only [if_neg y1]
        by_cases y2 : x = eL.2.page_no
        · rw [y2]
          simp
        · simp only [if_neg y2]
          split_ifs <;> rfl
  · -- two internal nodes
    have hla2 : (ih.pages eL.2.page_no).is_leaf = false := by rw [hla]; simp [h0]
    have hlb2 : (ih.pages eR.2.page_no).is_leaf = false := by rw [hlb]; simp [h0]
    have hch : ∀ e ∈ (ih.pages eR.2.page_no).pairs,
        e.2.page_no ≠ eL.2.page_no ∧ e.2.page_no ≠ eR.2.page_no ∧ e.2.page_no ≠ par := by
      intro e he
      obtain ⟨g1, g2, g3, _⟩ := hG h0 e (List.mem_append_right _ he)
      exact ⟨g2, g3, g1⟩
    obtain ⟨ih7, heq, hp, hh, hnx, _, _⟩ := coalesce_internal_spec recurse ih nb0 node0 par
      index0 eL.2.page_no eR.2.page_no Q1 Q2 eL eR hcase hpar hla2 hlb2 hab hap hbp hch
    have hroot : ih7.file_hdr.root_page = ih.file_hdr.root_page := by rw [hh]
    obtain ⟨wF, _, hlv1, hndF, hentF, hsF⟩ := pair_merge ih.pages ih7.pages
      h ih.file_hdr.root_page v2 v4 hn par hs Q1 Q2 eL eR hpar
      (by rw [hp, if_pos rfl])
      (by rw [hp, if_neg hap, if_pos rfl])
      (by rw [hp, if_neg hap, if_pos rfl])
      (by rw [hp, if_neg hap, if_pos rfl])
      (by
        intro x x1 x2 x3
        rw [hp, if_neg x1, if_neg x2]
        by_cases hc : x ∈ (ih.pages eR.2.page_no).pairs.map (fun e => e.2.page_no)
        · rw [if_pos hc]
          refine ⟨rfl, rfl, fun _ _ _ _ => rfl, ?_⟩
          intro hx
          exfalso
          obtain ⟨e, he, hee⟩ := List.mem_map.mp hc
          exact hx h0 e he hee.symm
        · rw [if_neg hc]
          refine ⟨rfl, rfl, ?_, fun _ => rfl⟩
          intro _ e he hxe
          exfalso
          exact hc (List.mem_map.mpr ⟨e, he, hxe.symm⟩))
    have hLF := hlv1 h0
    have hlinks : ∀ x, (ih7.pages x).next_leaf = (ih.pages x).next_leaf ∧
        (ih7.pages x).prev_leaf = (ih.pages x).prev_leaf := by
      intro x
      rw [hp]
      split_ifs with c1 c2 c3
      · subst c1; exact ⟨rfl, rfl⟩
      · subst c2; exact ⟨rfl, rfl⟩
      · exact ⟨rfl, rfl⟩
      · exact ⟨rfl, rfl⟩
    refine ⟨ih7, heq, ⟨?_, ?_, ?_, ?_, ?_, ?_, ?_, ?_⟩, ?_, ?_, ?_, hroot, by rw [hh],
      hnx, ?_⟩
    · rw [hroot]; exact v1
    · rw [hroot]; exact wF
    · rw [hroot, hentF]; exact v3
    · rw [hroot]
      exact (List.nodup_cons.mp ((List.Perm.nodup_iff hndF).mpr v4)).2
    · rw [hroot, hnx]
      intro p hp2
      exact v5 p (hndF.subset (List.mem_cons_of_mem _ hp2))
    · unfold leaf_ring
      rw [hroot, hLF]
      exact linked_congr ih.pages ih7.pages hlinks _ _ _ v6
    · rw [hroot, hLF, hh]
      exact v7
    · rw [hroot, hLF, hh]
      exact v8
    · show subtree_entries ih7.pages h ih7.file_hdr.root_page = _
      rw [hroot, hentF]
      rfl
    · rw [hroot]; exact hsF
    · rw [hroot]; exact hndF
    · intro x
      rw [hp]
      by_cases y1 : x = par
      · rw [y1]
        simp [hpar]
        omega
      · simp only [if_neg y1]
        by_cases y2 : x = eL.2.page_no
        · rw [y2]
          simp
        · simp only [if_neg y2]
          split_ifs <;> rfl

end RMDB

open RMDB RMDB.IxNodeHandle RMDB.IxIndexHandle

namespace RMDB

/-- A node of a valid tree that is not the root has a sibling next to it in
its parent: the one `coalesce_or_redistribute` picks. -/
theorem sibling_decomp (ih : IxIndexHandle) (h : Nat) (hv : Valid ih h) (hn : Nat) (node : Int)
    (hs : sub_at ih.pages hn node h ih.file_hdr.root_page)
    (hnr : (ih.pages node).parent ≠ IX_NO_PAGE) (hfill : filled ih h (some node)) :
    ∃ Q1 Q2 eL eR, sub_at ih.pages (hn + 1) (ih.pages node).parent h ih.file_hdr.root_page ∧
      (ih.pages (ih.pages node).parent).pairs = Q1 ++ eL :: eR :: Q2 ∧
      (((ih.pages (ih.pages node).parent).find_child node = 0 ∧ node = eL.2.page_no ∧
          (ih.pages (ih.pages node).parent).value_at (0 + 1) = eR.2.page_no ∧ Q1 = []) ∨
        ((ih.pages (ih.pages node).parent).find_child node = (Q1.length : Int) + 1 ∧
          node = eR.2.page_no ∧
          (ih.pages (ih.pages node).parent).value_at ((Q1.length : Int) + 1 - 1) =
            eL.2.page_no)) := by
  obtain ⟨v1, v2, v3, v4, v5, v6, v7, v8⟩ := hv
  rcases sub_at_parent ih.pages hn node h _ IX_NO_PAGE v2 hs with ⟨_, c2⟩ | ⟨hsp, e, he, hep⟩
  · exfalso
    rw [c2] at hnr
    exact hnr (wf_root_parent ih.pages h _ _ v2)
  · have hndpar := sub_at_nodup ih.pages (hn + 1) _ h _ hsp v4
    obtain ⟨P1, P2, hP, hP1, _⟩ := split_at_child (ih.pages (ih.pages node).parent)
      (children_nodup ih.pages hn _ hndpar) e he
    rw [hep] at hP1
    have hfc := find_child_decomp (ih.pages (ih.pages node).parent) P1 P2 e node hP hep hP1
    have hpm := sub_at_mem ih.pages (hn + 1) _ h _ hsp
    have hpne : (ih.pages node).parent ≠ node := by
      intro hc
      have := child_ne_self ih.pages hn _ hndpar e he
      rw [hep] at this
      exact this hc.symm
    have hle := sub_at_le ih.pages (hn + 1) _ h _ hsp
    have hsz := hfill _ hpm (by intro hc; exact hpne (Option.some.inj hc)) (fun _ => by omega)
    rw [hP] at hsz
    cases P1 with
    | nil =>
      cases P2 with
      | nil => simp at hsz
      | cons eS Q2 =>
        refine ⟨[], Q2, e, eS, hsp, hP, Or.inl ⟨by simpa using hfc, hep.symm, ?_, rfl⟩⟩
        have := value_at_nat (ih.pages (ih.pages node).parent) 1 (by rw [hP]; simp)
        simp only [Nat.cast_one] at this
        rw [show ((0 : Int) + 1) = 1 by rfl, this]
        simp [hP]
    | cons p1 P1t =>
      have hne : (p1 :: P1t) ≠ [] := by simp
      obtain ⟨Q1, eS, hQ⟩ : ∃ Q1 eS, p1 :: P1t = Q1 ++ [eS] :=
        ⟨_, _, (List.dropLast_append_getLast hne).symm⟩
      rw [hQ] at hP hfc
      refine ⟨Q1, P2, eS, e, hsp, by simpa using hP, Or.inr ⟨by simpa using hfc, hep.symm, ?_⟩⟩
      have := value_at_nat (ih.pages (ih.pages node).parent) Q1.length (by rw [hP]; simp)
      rw [show ((Q1.length : Int) + 1 - 1) = ((Q1.length : Nat) : Int) by omega, this]
      simp [hP, List.getElem_append_right]


/-- Source `adjust_root` on the root of a valid tree, as
`coalesce_or_redistribute` calls it: an internal root with one child hands the
root over to that child, any other root is kept. -/
theorem adjust_root_valid (ih : IxIndexHandle) (h : Nat) (hv : Valid ih h)
    (hfill : filled ih h (some ih.file_hdr.root_page)) :
    ∃ b ih2 h2,
      (if (ih.adjust_root ih.file_hdr.root_page).1 = true then
        (Except.ok (true, (ih.adjust_root ih.file_hdr.root_page).2.append_index_deleted_page
          ih.file_hdr.root_page) : Except IxError (Bool × IxIndexHandle))
      else Except.ok (false, (ih.adjust_root ih.file_hdr.root_page).2)) = Except.ok (b, ih2) ∧
      Valid ih2 h2 ∧ h2 ≤ h ∧ tree_entries ih2 h2 = tree_entries ih h ∧
      ih2.file_hdr.btree_order = ih.file_hdr.btree_order ∧
      ih2.next_page_no = ih.next_page_no ∧
      (h2 ≠ 0 → 2 ≤ (ih2.pages ih2.file_hdr.root_page).pairs.length) ∧
      (occ_nodes ih h (some ih.file_hdr.root_page) → occ_nodes ih2 h2 none) := by
  have hkeep : (ih.adjust_root ih.file_hdr.root_page) = (false, ih) →
      (h ≠ 0 → 2 ≤ (ih.pages ih.file_hdr.root_page).pairs.length) →
      ∃ b ih2 h2,
      (if (ih.adjust_root ih.file_hdr.root_page).1 = true then
        (Except.ok (true, (ih.adjust_root ih.file_hdr.root_page).2.append_index_deleted_page
          ih.file_hdr.root_page) : Except IxError (Bool × IxIndexHandle))
      else Except.ok (false, (ih.adjust_root ih.file_hdr.root_page).2)) = Except.ok (b, ih2) ∧
      Valid ih2 h2 ∧ h2 ≤ h ∧ tree_entries ih2 h2 = tree_entries ih h ∧
      ih2.file_hdr.btree_order = ih.file_hdr.btree_order ∧
      ih2.next_page_no = ih.next_page_no ∧
      (h2 ≠ 0 → 2 ≤ (ih2.pages ih2.file_hdr.root_page).pairs.length) ∧
      (occ_nodes ih h (some ih.file_hdr.root_page) → occ_nodes ih2 h2 none) := by
    intro hr h2
    refine ⟨false, ih, h, ?_, hv, le_refl _, rfl, rfl, rfl, h2, ?_⟩
    · rw [hr]
      simp
    · intro ho x hx hxr _
      exact ho x hx hxr (by intro hc; exact hxr (Option.some.inj hc))
  obtain ⟨v1, v2, v3, v4, v5, v6, v7, v8⟩ := hv
  cases h with
  | zero =>
    apply hkeep
    · unfold adjust_root
      have hl : (ih.fetch_node ih.file_hdr.root_page).is_leaf = true := v2.1
      have hne : ¬ (ih.fetch_node ih.file_hdr.root_page).get_size = 0 := by
        have := v2.2.2
        simp only [fetch_node, get_size]
        intro hc
        exact this (List.length_eq_zero.mp (by exact_mod_cast hc))
      rw [if_neg (by rw [hl]; simp), if_neg (fun hc => hne hc.2)]
    · intro hc
      exact absurd rfl hc
  | succ k =>
    have hl : (ih.fetch_node ih.file_hdr.root_page).is_leaf = false := v2.1
    by_cases hsz : (ih.pages ih.file_hdr.root_page).pairs.length = 1
    · obtain ⟨e, he⟩ := List.length_eq_one.mp hsz
      have hem : e ∈ (ih.pages ih.file_hdr.root_page).pairs := by rw [he]; simp
      have hcr : e.2.page_no ≠ ih.file_hdr.root_page := child_ne_self ih.pages k _ v4 e hem
      have hval : (ih.fetch_node ih.file_hdr.root_page).value_at 0 = e.2.page_no := by
        have := value_at_nat (ih.pages ih.file_hdr.root_page) 0 (by rw [he]; simp)
        simp only [Nat.cast_zero] at this
        rw [fetch_node, this]
        simp [he]
      have hadj : ih.adjust_root ih.file_hdr.root_page =
          (true, ((((ih.modify_node ih.file_hdr.root_page (fun n => n.erase_pair 0)).modify_node
            e.2.page_no (fun n => { n with parent := IX_NO_PAGE })).update_root_page_no
            e.2.page_no).release_node_handle)) := by
        unfold adjust_root
        have hgs : (ih.fetch_node ih.file_hdr.root_page).get_size = 1 := by
          simp [fetch_node, get_size, hsz]
        rw [if_pos ⟨hl, hgs⟩, hval]
      obtain ⟨ih2, hih2⟩ : ∃ ih2, ih2 =
          (((((ih.modify_node ih.file_hdr.root_page (fun n => n.erase_pair 0)).modify_node
            e.2.page_no (fun n => { n with parent := IX_NO_PAGE })).update_root_page_no
            e.2.page_no).release_node_handle).append_index_deleted_page
            ih.file_hdr.root_page) := ⟨_, rfl⟩
      have hp : ∀ x, ih2.pages x = if x = e.2.page_no then
          { ih.pages e.2.page_no with parent := IX_NO_PAGE }
          else if x = ih.file_hdr.root_page then (ih.pages ih.file_hdr.root_page).erase_pair 0
          else ih.pages x := by
        intro x
        rw [hih2]
        show ((ih.modify_node ih.file_hdr.root_page (fun n => n.erase_pair 0)).modify_node
          e.2.page_no (fun n => { n with parent := IX_NO_PAGE })).pages x = _
        simp only [modify_node_apply, if_neg hcr]
      have hroot2 : ih2.file_hdr.root_page = e.2.page_no := by rw [hih2]; rfl
      have hwc := (v2.2.2.2 e hem).1
      have hndc := nodup_child ih.pages k _ v4 e hem
      have hsame : ∀ x ∈ subtree_nodes ih.pages k e.2.page_no, x ≠ e.2.page_no →
          ih2.pages x = ih.pages x := by
        intro x hx hxc
        rw [hp, if_neg hxc, if_neg (child_nodes_ne ih.pages k _ v4 e hem x hx)]
      obtain ⟨w1, w2, w3⟩ := wf_reparent ih.pages ih2.pages k e.2.page_no _ IX_NO_PAGE hwc hndc
        (by rw [hp, if_pos rfl]) (by rw [hp, if_pos rfl]) (by rw [hp, if_pos rfl])
        (fun x hx hxc => by rw [hsame x hx hxc]; exact same_content_refl _)
      have hlv : subtree_leaves ih.pages (k + 1) ih.file_hdr.root_page =
          subtree_leaves ih.pages k e.2.page_no := by
        simp [subtree_leaves, he]
      have hnds : subtree_nodes ih.pages (k + 1) ih.file_hdr.root_page =
          ih.file_hdr.root_page :: subtree_nodes ih.pages k e.2.page_no := by
        simp [subtree_nodes, he]
      have hcm : e.2.page_no ∈ subtree_nodes ih.pages (k + 1) ih.file_hdr.root_page := by
        rw [hnds]
        exact List.mem_cons_of_mem _ (mem_subtree_nodes_self ih.pages k _)
      have hpairs : ∀ l ∈ subtree_nodes ih.pages k e.2.page_no,
          (ih2.pages l).pairs = (ih.pages l).pairs := by
        intro l hl2
        by_cases hlc : l = e.2.page_no
        · rw [hlc, hp, if_pos rfl]
        · rw [hsame l hl2 hlc]
      have hlinks : ∀ x, (ih2.pages x).next_leaf = (ih.pages x).next_leaf ∧
          (ih2.pages x).prev_leaf = (ih.pages x).prev_leaf := by
        intro x
        rw [hp]
        by_cases y1 : x = e.2.page_no
        · rw [if_pos y1, y1]
          exact ⟨rfl, rfl⟩
        · rw [if_neg y1]
          by_cases y2 : x = ih.file_hdr.root_page
          · rw [if_pos y2, y2]
            exact ⟨rfl, rfl⟩
          · rw [if_neg y2]
            exact ⟨rfl, rfl⟩
      have hent : subtree_entries ih2.pages k e.2.page_no =
          subtree_entries ih.pages (k + 1) ih.file_hdr.root_page := by
        show leaves_entries _ (subtree_leaves ih2.pages k e.2.page_no) =
          leaves_entries _ (subtree_leaves ih.pages (k + 1) ih.file_hdr.root_page)
        rw [w2, hlv]
        apply leaves_entries_congr
        intro l hl2
        exact hpairs l ((leaves_sublist_nodes ih.pages k _).subset hl2)
      refine ⟨true, ih2, k, ?_, ⟨?_, ?_, ?_, ?_, ?_, ?_, ?_, ?_⟩, by omega, ?_, ?_, ?_, ?_, ?_⟩
      · rw [hadj, hih2]
        simp
      · rw [hroot2]
        have := (v5 e.2.page_no hcm).1
        unfold IX_NO_PAGE
        omega
      · rw [hroot2]; exact w1
      · rw [hroot2, hent]; exact v3
      · rw [hroot2, w3]; exact hndc
      · rw [hroot2, w3]
        intro p hpm
        have := v5 p (by rw [hnds]; exact List.mem_cons_of_mem _ hpm)
        rw [hih2]
        exact this
      · unfold leaf_ring
        rw [hroot2, w2, ← hlv]
        exact linked_congr ih.pages ih2.pages hlinks _ _ _ v6
      · rw [hroot2, w2, ← hlv, hih2]
        exact v7
      · rw [hroot2, w2, ← hlv, hih2]
        exact v8
      · show subtree_entries ih2.pages k ih2.file_hdr.root_page = _
        rw [hroot2, hent]
        rfl
      · rw [hih2]; rfl
      · rw [hih2]; rfl
      · intro hk
        rw [hroot2, hpairs _ (mem_subtree_nodes_self ih.pages k _)]
        refine hfill e.2.page_no hcm ?_ (fun hc => absurd hc hcr)
        intro hc
        exact hcr (Option.some.inj hc)
      · intro ho x hx hxr _
        rw [hroot2, w3] at hx
        rw [hroot2] at hxr
        have hxroot := child_nodes_ne ih.pages k _ v4 e hem x hx
        have := ho x (by rw [hnds]; exact List.mem_cons_of_mem _ hx) hxroot
          (by intro hc; exact hxroot (Option.some.inj hc))
        have hsz2 : (ih2.pages x).get_size = (ih.pages x).get_size := by
          unfold get_size
          rw [hpairs x hx]
        have hhdr : IxNodeHandle.get_min_size ih2.file_hdr = IxNodeHandle.get_min_size ih.file_hdr ∧
            IxNodeHandle.get_max_size ih2.file_hdr = IxNodeHandle.get_max_size ih.file_hdr := by
          rw [hih2]
          exact ⟨rfl, rfl⟩
        rw [hsz2, hhdr.1, hhdr.2]
        exact this
    · apply hkeep
      · unfold adjust_root
        have hgs : ¬ (ih.fetch_node ih.file_hdr.root_page).get_size = 1 := by
          simp only [fetch_node, get_size]
          intro hc
          exact hsz (by exact_mod_cast hc)
        rw [if_neg (fun hc => hgs hc.2), if_neg (by rw [hl]; simp)]
      · intro _
        have := v2.2.2.1
        have h3 : (ih.pages ih.file_hdr.root_page).pairs.length ≠ 0 := by
          intro hc
          exact this (List.length_eq_zero.mp hc)
        omega

end RMDB

open RMDB RMDB.IxNodeHandle RMDB.IxIndexHandle

namespace RMDB

theorem even_min_max (hdr : IxFileHdr) (m : Nat) (hm : hdr.btree_order = 2 * m) :
    IxNodeHandle.get_min_size hdr = (m : Int) ∧ IxNodeHandle.get_max_size hdr = 2 * (m : Int) := by
  unfold IxNodeHandle.get_min_size IxNodeHandle.get_max_size
  rw [hm]
  push_cast
  omega

/-- Source `coalesce_or_redistribute` from a node of a valid, filled tree up
to the root: the result is a valid tree with the same stored pairs, of the
same height or one less. For an even `max_size` the node-wise occupancy is
restored. -/
theorem coalesce_or_redistribute_valid : ∀ (fuel : Nat) (ih : IxIndexHandle) (h hn : Nat)
    (node : Int), Valid ih h → sub_at ih.pages hn node h ih.file_hdr.root_page →
    filled ih h (some node) → h < fuel + hn →
    ∃ b ih2 h2, coalesce_or_redistribute fuel ih node = Except.ok (b, ih2) ∧
      Valid ih2 h2 ∧ h2 ≤ h ∧ tree_entries ih2 h2 = tree_entries ih h ∧
      ih2.file_hdr.btree_order = ih.file_hdr.btree_order ∧
      ih2.next_page_no = ih.next_page_no ∧
      (h2 ≠ 0 → 2 ≤ (ih2.pages ih2.file_hdr.root_page).pairs.length) ∧
      (2 ∣ ih.file_hdr.btree_order → occ_nodes ih h (some node) →
        (node ≠ ih.file_hdr.root_page →
          IxNodeHandle.get_min_size ih.file_hdr - 1 ≤ (ih.pages node).get_size ∧
          (ih.pages node).get_size ≤ IxNodeHandle.get_max_size ih.file_hdr - 1) →
        occ_nodes ih2 h2 none) := by
  intro fuel
  induction fuel with
  | zero =>
    intro ih h hn node _ hs _ hf
    have := sub_at_le ih.pages hn node h _ hs
    omega
  | succ fuel IH =>
    intro ih h hn node hv hs hfill hf
    have hle := sub_at_le ih.pages hn node h _ hs
    unfold coalesce_or_redistribute
    by_cases hroot : (ih.pages node).parent = IX_NO_PAGE
    · -- the node is the root
      have hrp : (ih.fetch_node node).is_root_page = true := by
        simp [fetch_node, is_root_page, hroot]
      rw [if_pos hrp]
      obtain ⟨e1, e2⟩ := parent_ne_no_page ih.pages h _ hv.2.1
        (fun p hp => (hv.2.2.2.2.1 p hp).1) hn node hs hroot
      subst e2
      obtain ⟨b, ih2, h2, heq, r1, r2, r3, r4, r5, r6, r7⟩ := adjust_root_valid ih h hv hfill
      exact ⟨b, ih2, h2, heq, r1, r2, r3, r4, r5, r6, fun _ ho _ => r7 ho⟩
    · have hrp : ¬ (ih.fetch_node node).is_root_page = true := by
        simp [fetch_node, is_root_page, hroot]
      rw [if_neg hrp]
      have hnroot : node ≠ ih.file_hdr.root_page := by
        intro hc
        rw [hc] at hroot
        exact hroot (wf_root_parent ih.pages h _ _ hv.2.1)
      have hrootm : ih.file_hdr.root_page ∈ subtree_nodes ih.pages h ih.file_hdr.root_page :=
        mem_subtree_nodes_self ih.pages h _
      by_cases hsz : (ih.fetch_node node).get_size ≥ IxNodeHandle.get_min_size ih.file_hdr
      · rw [if_pos hsz]
        refine ⟨false, ih, h, rfl, hv, le_refl _, rfl, rfl, rfl, ?_, ?_⟩
        · intro h0
          exact hfill _ hrootm (by intro hc; exact hnroot (Option.some.inj hc).symm)
            (fun _ => h0)
        · intro _ ho hb x hx hxr _
          by_cases hxn : x = node
          · rw [hxn]
            exact ⟨hsz, (hb hnroot).2⟩
          · exact ho x hx hxr (by intro hc; exact hxn (Option.some.inj hc))
      · rw [if_neg hsz]
        obtain ⟨Q1, Q2, eL, eR, hsp, hP, hcase⟩ := sibling_decomp ih h hv hn node hs hroot hfill
        obtain ⟨index, nb, hfc, hsib, hcase2⟩ : ∃ index nb,
            (ih.fetch_node (ih.fetch_node node).parent).find_child node = index ∧
            (ih.fetch_node (ih.fetch_node node).parent).value_at
              (if index ≠ 0 then index - 1 else index + 1) = nb ∧
            ((index = 0 ∧ node = eL.2.page_no ∧ nb = eR.2.page_no ∧ Q1 = []) ∨
              (index = (Q1.length : Int) + 1 ∧ node = eR.2.page_no ∧ nb = eL.2.page_no)) := by
          rcases hcase with ⟨c1, c2, c3, c4⟩ | ⟨c1, c2, c3⟩
          · refine ⟨0, eR.2.page_no, c1, ?_, Or.inl ⟨rfl, c2, rfl, c4⟩⟩
            rw [if_neg (by simp)]
            exact c3
          · refine ⟨(Q1.length : Int) + 1, eL.2.page_no, c1, ?_, Or.inr ⟨rfl, c2, rfl⟩⟩
            rw [if_pos (by omega)]
            exact c3
        simp only []
        rw [hfc, hsib]
        -- facts about the pair of siblings
        have hwpar := sub_at_wf ih.pages (hn + 1) _ h _ IX_NO_PAGE hv.2.1 hsp
        have hndpar := sub_at_nodup ih.pages (hn + 1) _ h _ hsp hv.2.2.2.1
        obtain ⟨wa, wb, _, _, fa, fb, _, _⟩ :=
          pair_facts ih.pages hn _ _ Q1 Q2 eL eR hP hwpar hndpar
        have hab : eL.2.page_no ≠ eR.2.page_no := by
          intro hc
          exact (fa _ (mem_subtree_nodes_self _ hn _)).2.1 (hc ▸ mem_subtree_nodes_self _ hn _)
        have hap : eL.2.page_no ≠ (ih.pages node).parent :=
          (fa _ (mem_subtree_nodes_self _ hn _)).1
        have hbp : eR.2.page_no ≠ (ih.pages node).parent :=
          (fb _ (mem_subtree_nodes_self _ hn _)).1
        have ham : eL.2.page_no ∈ subtree_nodes ih.pages h ih.file_hdr.root_page :=
          sub_at_nodes ih.pages (hn + 1) _ h _ hsp _
            ((fa _ (mem_subtree_nodes_self _ hn _)).2.2)
        have hbm : eR.2.page_no ∈ subtree_nodes ih.pages h ih.file_hdr.root_page :=
          sub_at_nodes ih.pages (hn + 1) _ h _ hsp _
            ((fb _ (mem_subtree_nodes_self _ hn _)).2.2)
        have hpm := sub_at_mem ih.pages (hn + 1) _ h _ hsp
        have haroot : eL.2.page_no ≠ ih.file_hdr.root_page := by
          intro hc
          have := wf_root_parent ih.pages hn _ _ wa
          rw [hc, wf_root_parent ih.pages h _ _ hv.2.1] at this
          exact hroot this.symm
        have hbroot : eR.2.page_no ≠ ih.file_hdr.root_page := by
          intro hc
          have := wf_root_parent ih.pages hn _ _ wb
          rw [hc, wf_root_parent ih.pages h _ _ hv.2.1] at this
          exact hroot this.symm
        have hnbnode : nb ≠ node := by
          rcases hcase2 with ⟨_, c2, c3, _⟩ | ⟨_, c2, c3⟩
          · rw [c2, c3]; exact Ne.symm hab
          · rw [c2, c3]; exact hab
        have hnbm : nb ∈ subtree_nodes ih.pages h ih.file_hdr.root_page := by
          rcases hcase2 with ⟨_, _, c3, _⟩ | ⟨_, _, c3⟩
          · rw [c3]; exact hbm
          · rw [c3]; exact ham
        have hnbroot : nb ≠ ih.file_hdr.root_page := by
          rcases hcase2 with ⟨_, _, c3, _⟩ | ⟨_, _, c3⟩
          · rw [c3]; exact hbroot
          · rw [c3]; exact haroot
        have hnbsz : 2 ≤ (ih.pages nb).pairs.length :=
          hfill nb hnbm (by intro hc; exact hnbnode (Option.some.inj hc))
            (fun hc => absurd hc hnbroot)
        have hnodesz : 1 ≤ (ih.pages node).pairs.length := by
          have : (ih.pages node).pairs ≠ [] := by
            rcases hcase2 with ⟨_, c2, _, _⟩ | ⟨_, c2, _⟩
            · rw [c2]; exact wf_ne_nil ih.pages hn _ _ wa
            · rw [c2]; exact wf_ne_nil ih.pages hn _ _ wb
          have h3 : (ih.pages node).pairs.length ≠ 0 := fun hc => this (List.length_eq_zero.mp hc)
          omega
        have hh0 : h ≠ 0 := by
          have := sub_at_le ih.pages (hn + 1) _ h _ hsp
          omega
        have hsz2 : (ih.pages node).get_size < IxNodeHandle.get_min_size ih.file_hdr := by
          have : ¬ (ih.pages node).get_size ≥ IxNodeHandle.get_min_size ih.file_hdr := hsz
          omega
        have hgs : ∀ q : Int, (ih.pages q).get_size = ((ih.pages q).pairs.length : Int) :=
          fun _ => rfl
        by_cases hred : (ih.fetch_node node).get_size + (ih.fetch_node nb).get_size ≥
            IxNodeHandle.get_min_size ih.file_hdr * 2
        · -- redistribute
          rw [if_pos hred]
          obtain ⟨ih2, heq, r1, r2, r3, r4, r5, r6⟩ := redistribute_valid ih h hv hn _ hsp
            Q1 Q2 eL eR hP node nb index hcase2 hnbsz
          rw [show (ih.fetch_node node).parent = (ih.pages node).parent from rfl, heq]
          refine ⟨false, ih2, h, rfl, r1, le_refl _, r2, by rw [r4], r5, ?_, ?_⟩
          · intro _
            rw [r4]
            have := r6 ih.file_hdr.root_page
            rw [if_neg (Ne.symm hnroot), if_neg (Ne.symm hnbroot)] at this
            have h2 := hfill _ hrootm (by intro hc; exact hnroot (Option.some.inj hc).symm)
              (fun _ => hh0)
            omega
          · intro hev ho hb x hx hxr _
            have hx2 := r3.subset hx
            rw [r4] at hxr ⊢
            have hs6 := r6 x
            have hred3 : (ih.pages node).get_size + (ih.pages nb).get_size ≥
                IxNodeHandle.get_min_size ih.file_hdr * 2 := hred
            have hb2 := hb hnroot
            have honb := ho nb hnbm hnbroot (by intro hc; exact hnbnode (Option.some.inj hc))
            obtain ⟨m, hm⟩ := hev
            obtain ⟨hmin, hmax⟩ := even_min_max ih.file_hdr m hm
            rw [hmin] at hb2 hsz2 hred3 honb ⊢
            rw [hmax] at hb2 honb ⊢
            simp only [IxNodeHandle.get_size] at hb2 hsz2 hred3 honb ⊢
            by_cases y1 : x = node
            · rw [if_pos y1] at hs6
              rw [y1] at hs6 ⊢
              omega
            · rw [if_neg y1] at hs6
              by_cases y2 : x = nb
              · rw [if_pos y2] at hs6
                rw [y2] at hs6 ⊢
                omega
              · rw [if_neg y2] at hs6
                have := ho x hx2 hxr (by intro hc; exact y1 (Option.some.inj hc))
                rw [hmin, hmax] at this
                simp only [IxNodeHandle.get_size] at this
                omega
        · -- coalesce
          rw [if_neg hred]
          have hred2 : ¬ ((ih.pages node).get_size + (ih.pages nb).get_size ≥
                IxNodeHandle.get_min_size ih.file_hdr * 2) := hred
          have hvL : Valid (ih.append_index_latch_page_set nb) h := hv
          obtain ⟨ih7, heq, r1, r2, r3, r4, r5, r6, r7, r8⟩ := coalesce_valid
            (coalesce_or_redistribute fuel) (ih.append_index_latch_page_set nb) h hvL hn _ hsp
            Q1 Q2 eL eR hP node nb index hcase2
          have r2b : tree_entries ih7 h = tree_entries ih h := r2
          have r4b : (eR.2.page_no :: subtree_nodes ih7.pages h ih7.file_hdr.root_page).Perm
              (subtree_nodes ih.pages h ih.file_hdr.root_page) := r4
          have r5b : ih7.file_hdr.root_page = ih.file_hdr.root_page := r5
          have r6b : ih7.file_hdr.btree_order = ih.file_hdr.btree_order := r6
          have r7b : ih7.next_page_no = ih.next_page_no := r7
          have r8b : ∀ x, ((ih7.pages x).pairs.length : Int) =
              if x = (ih.pages node).parent then ((ih.pages x).pairs.length : Int) - 1
              else if x = eL.2.page_no then
                ((ih.pages eL.2.page_no).pairs.length : Int) + (ih.pages eR.2.page_no).pairs.length
              else ((ih.pages x).pairs.length : Int) := r8
          have hmin7 : IxNodeHandle.get_min_size ih7.file_hdr =
              IxNodeHandle.get_min_size ih.file_hdr := by
            unfold IxNodeHandle.get_min_size IxNodeHandle.get_max_size
            rw [r6b]
          have hmax7 : IxNodeHandle.get_max_size ih7.file_hdr =
              IxNodeHandle.get_max_size ih.file_hdr := by
            unfold IxNodeHandle.get_max_size
            rw [r6b]
          have hbnot : eR.2.page_no ∉ subtree_nodes ih7.pages h ih7.file_hdr.root_page :=
            (List.nodup_cons.mp ((List.Perm.nodup_iff r4b).mpr hv.2.2.2.1)).1
          have hsub7 : ∀ x ∈ subtree_nodes ih7.pages h ih7.file_hdr.root_page,
              x ∈ subtree_nodes ih.pages h ih.file_hdr.root_page ∧ x ≠ eR.2.page_no := by
            intro x hx
            exact ⟨r4b.subset (List.mem_cons_of_mem _ hx), fun hc => hbnot (hc ▸ hx)⟩
          have hnode_ab : node = eL.2.page_no ∨ node = eR.2.page_no := by
            rcases hcase2 with ⟨_, c2, _, _⟩ | ⟨_, c2, _⟩
            · exact Or.inl c2
            · exact Or.inr c2
          have hsum : ((ih.pages eL.2.page_no).pairs.length : Int) +
              (ih.pages eR.2.page_no).pairs.length =
              (ih.pages node).pairs.length + (ih.pages nb).pairs.length := by
            rcases hcase2 with ⟨_, c2, c3, _⟩ | ⟨_, c2, c3⟩
            · rw [c2, c3]
            · rw [c2, c3]; omega
          have hpnode : (ih.pages node).parent ≠ node := by
            rcases hnode_ab with c | c
            · rw [c] at hap ⊢
              exact Ne.symm hap
            · rw [c] at hbp ⊢
              exact Ne.symm hbp
          have hother : ∀ x ∈ subtree_nodes ih7.pages h ih7.file_hdr.root_page,
              x ≠ eL.2.page_no → x ≠ node := by
            intro x hx hxa
            rcases hnode_ab with c | c
            · rw [c]; exact hxa
            · rw [c]; exact (hsub7 x hx).2
          rw [show (ih.fetch_node node).parent = (ih.pages node).parent from rfl, heq]
          have hfill7 : filled ih7 h (some (ih.pages node).parent) := by
            intro x hx hxp hxr
            have hs8 := r8b x
            rw [if_neg (by intro hc; exact hxp (by rw [hc]))] at hs8
            by_cases y1 : x = eL.2.page_no
            · rw [if_pos y1, hsum] at hs8
              omega
            · rw [if_neg y1] at hs8
              have := hfill x (hsub7 x hx).1
                (by intro hc; exact hother x hx y1 (Option.some.inj hc))
                (fun hc => by rw [r5b] at hxr; exact hxr hc)
              omega
          have hocc7 : 2 ∣ ih.file_hdr.btree_order → occ_nodes ih h (some node) →
              (IxNodeHandle.get_min_size ih.file_hdr - 1 ≤ (ih.pages node).get_size ∧
                (ih.pages node).get_size ≤ IxNodeHandle.get_max_size ih.file_hdr - 1) →
              ∀ x ∈ subtree_nodes ih7.pages h ih7.file_hdr.root_page,
                x ≠ ih7.file_hdr.root_page →
                (x ≠ (ih.pages node).parent →
                  IxNodeHandle.get_min_size ih.file_hdr ≤ (ih7.pages x).get_size) ∧
                IxNodeHandle.get_min_size ih.file_hdr - 1 ≤ (ih7.pages x).get_size ∧
                (ih7.pages x).get_size ≤ IxNodeHandle.get_max_size ih.file_hdr - 1 := by
            intro hev ho hb2 x hx hxr
            rw [r5b] at hxr
            have hs8 := r8b x
            have honb := ho nb hnbm hnbroot (by intro hc; exact hnbnode (Option.some.inj hc))
            obtain ⟨m, hm⟩ := hev
            obtain ⟨hmin, hmax⟩ := even_min_max ih.file_hdr m hm
            rw [hmin] at hb2 hsz2 hred2 honb ⊢
            rw [hmax] at hb2 honb ⊢
            simp only [IxNodeHandle.get_size] at hb2 hsz2 hred2 honb ⊢
            by_cases y0 : x = (ih.pages node).parent
            · rw [if_pos y0] at hs8
              have := ho x (hsub7 x hx).1 hxr
                (by intro hc; exact hpnode ((Option.some.inj hc).symm.trans y0).symm)
              rw [hmin, hmax] at this
              simp only [IxNodeHandle.get_size] at this
              refine ⟨fun hc => absurd y0 hc, ?_, ?_⟩ <;> omega
            · rw [if_neg y0] at hs8
              by_cases y1 : x = eL.2.page_no
              · rw [if_pos y1, hsum] at hs8
                refine ⟨fun _ => ?_, ?_, ?_⟩ <;> omega
              · rw [if_neg y1] at hs8
                have := ho x (hsub7 x hx).1 hxr
                  (by intro hc; exact hother x hx y1 (Option.some.inj hc))
                rw [hmin, hmax] at this
                simp only [IxNodeHandle.get_size] at this
                refine ⟨fun _ => ?_, ?_, ?_⟩ <;> omega
          by_cases hrec : (ih7.fetch_node (ih.pages node).parent).get_size <
              IxNodeHandle.get_min_size ih7.file_hdr
          · rw [if_pos hrec]
            obtain ⟨b, ih2, h2, heq2, s1, s2, s3, s4, s5, s6, s7⟩ :=
              IH ih7 h (hn + 1) _ r1 r3 hfill7 (by omega)
            rw [heq2]
            refine ⟨true, ih2, h2, rfl, s1, s2, by rw [s3, r2b], by rw [s4, r6b],
              by rw [s5, r7b], s6, ?_⟩
            intro hev ho hb
            refine s7 (by rw [r6b]; exact hev) ?_ ?_
            · intro x hx hxr hxp
              have := hocc7 hev ho (hb hnroot) x hx hxr
              rw [hmin7, hmax7]
              exact ⟨this.1 (by intro hc; exact hxp (by rw [hc])), this.2.2⟩
            · intro hpr
              have := hocc7 hev ho (hb hnroot) _
                (sub_at_mem ih7.pages (hn + 1) _ h _ r3) hpr
              rw [hmin7, hmax7]
              exact this.2
          · rw [if_neg hrec]
            refine ⟨true, ih7, h, rfl, r1, le_refl _, r2b, r6b, r7b, ?_, ?_⟩
            · intro _
              rw [r5b]
              have hs8 := r8b ih.file_hdr.root_page
              by_cases y0 : ih.file_hdr.root_page = (ih.pages node).parent
              · have hrec2 : ¬ ((ih7.pages (ih.pages node).parent).pairs.length : Int) <
                    IxNodeHandle.get_min_size ih.file_hdr := by
                  rw [← hmin7]
                  exact hrec
                simp only [IxNodeHandle.get_size] at hsz2
                rw [y0]
                omega
              · rw [if_neg y0, if_neg (Ne.symm haroot)] at hs8
                have := hfill _ hrootm (by intro hc; exact hnroot (Option.some.inj hc).symm)
                  (fun _ => hh0)
                omega
            · intro hev ho hb x hx hxr _
              have := hocc7 hev ho (hb hnroot) x hx hxr
              rw [hmin7, hmax7]
              refine ⟨?_, this.2.2⟩
              by_cases y0 : x = (ih.pages node).parent
              · rw [y0, ← hmin7]
                have hrec2 : ¬ (ih7.pages (ih.pages node).parent).get_size <
                    IxNodeHandle.get_min_size ih7.file_hdr := hrec
                omega
              · exact this.1 y0

end RMDB

open RMDB RMDB.IxNodeHandle RMDB.IxIndexHandle

namespace RMDB

/-- Source `IxNodeHandle::remove` of a stored key from a sorted node. -/
theorem leaf_remove_spec (n : IxNodeHandle) (hs : keys_sorted n) (key : Int) (r : Rid)
    (hin : (key, r) ∈ n.pairs) :
    ∃ X Y, n.pairs = X ++ (key, r) :: Y ∧ (∀ x ∈ X, x.1 < key) ∧ (∀ y ∈ Y, key < y.1) ∧
      n.remove key = ({ n with pairs := X ++ Y }, n.get_size - 1) := by
  obtain ⟨X, Y, hXY⟩ := List.append_of_mem hin
  have hsort := hs
  unfold keys_sorted at hsort
  rw [hXY, List.map_append, List.map_cons, List.pairwise_append, List.pairwise_cons] at hsort
  obtain ⟨_, ⟨hY, _⟩, hX⟩ := hsort
  have hX2 : ∀ x ∈ X, x.1 < key := fun x hx =>
    hX x.1 (List.mem_map_of_mem _ hx) key (by simp)
  have hY2 : ∀ y ∈ Y, key < y.1 := fun y hy => hY y.1 (List.mem_map_of_mem _ hy)
  obtain ⟨h0, h1, h2, h3⟩ := lower_bound_spec n hs key
  have hsz : n.get_size = ((X.length + 1 + Y.length : Nat) : Int) := by
    unfold get_size
    rw [hXY]
    simp
    omega
  have hkX := get_key_decomp n X Y (key, r) hXY
  have hlb : n.lower_bound key = (X.length : Int) := by
    by_contra hne
    rcases lt_or_gt_of_ne hne with hlt | hgt
    · have hi : (n.lower_bound key).toNat < X.length := by omega
      have := h3 (n.lower_bound key) (le_refl _) (by omega)
      have hdne : X.drop (n.lower_bound key).toNat ≠ [] := by
        intro hc
        have := congrArg List.length hc
        simp only [List.length_drop, List.length_nil] at this
        omega
      obtain ⟨e, X2, he⟩ := List.exists_cons_of_ne_nil hdne
      have hXd : X = X.take (n.lower_bound key).toNat ++ e :: X2 := by
        rw [← he, List.take_append_drop]
      have hem : e ∈ X := by
        rw [hXd]
        simp
      have hp2 : n.pairs = X.take (n.lower_bound key).toNat ++ e :: (X2 ++ (key, r) :: Y) := by
        rw [hXY]
        nth_rewrite 1 [hXd]
        simp
      have hg := get_key_decomp n _ _ e hp2
      rw [List.length_take, Nat.min_eq_left (by omega), Int.toNat_of_nonneg h0] at hg
      have := hX2 e hem
      omega
    · have := h2 (X.length : Int) (by omega) hgt
      rw [hkX] at this
      simp at this
  refine ⟨X, Y, hXY, hX2, hY2, ?_⟩
  unfold IxNodeHandle.remove
  dsimp only
  rw [hlb, if_pos ⟨by omega, by rw [hkX]; exact (ix_compare_eq _ _).mpr rfl⟩,
    erase_pair_decomp n X Y (key, r) hXY]
  simp only [Prod.mk.injEq, true_and]
  unfold get_size
  rw [hXY]
  simp
  omega


theorem filter_around (X Y : List (Int × Rid)) (key : Int) (r : Rid)
    (hX : ∀ x ∈ X, x.1 < key) (hY : ∀ y ∈ Y, key < y.1) :
    (X ++ (key, r) :: Y).filter (fun e => decide (e.1 < key)) = X ∧
    (X ++ (key, r) :: Y).filter (fun e => decide (key < e.1)) = Y := by
  obtain ⟨f1, f2⟩ := filter_lt_split X Y key hX hY
  rw [List.filter_append] at f1 f2
  constructor
  · rw [List.filter_append, List.filter_cons_of_neg (by simp)]
    exact f1
  · rw [List.filter_append, List.filter_cons_of_neg (by simp)]
    exact f2

/-- The DELETE descent for a stored key ends in the leaf that holds it. -/
theorem delete_descent (ih : IxIndexHandle) (h fuel : Nat) (key : Int) (r : Rid)
    (hv : Valid ih h) (hf : h ≤ fuel) (hin : (key, r) ∈ tree_entries ih h) :
    ¬ key < (ih.fetch_node ih.file_hdr.first_leaf).get_key 0 ∧
    ∃ l A B r2 ih1,
      ih.find_leaf_page fuel key Operation.DELETE
        (decide ((ih.fetch_node ih.file_hdr.first_leaf).get_key 0 = key)) =
        Except.ok (l, r2, ih1) ∧ same_tree ih ih1 ∧
      tree_leaves ih h = A ++ l :: B ∧
      (∀ x ∈ leaves_entries ih.pages A, x.1 < key) ∧
      (∀ x ∈ leaves_entries ih.pages B, key < x.1) ∧
      (key, r) ∈ (ih.pages l).pairs := by
  obtain ⟨B0, e, es, hleaves0, hfp, hk0, hemem, hmin⟩ := valid_first ih h hv
  have hle := hmin (key, r) hin
  refine ⟨by rw [hk0]; simp only at hle; omega, ?_⟩
  by_cases heq : (ih.fetch_node ih.file_hdr.first_leaf).get_key 0 = key
  · have hff : decide ((ih.fetch_node ih.file_hdr.first_leaf).get_key 0 = key) = true := by
      simpa using heq
    rw [hff]
    obtain ⟨l, B, hl, hsplit⟩ := descent_first ih h hv key Operation.DELETE fuel hf
    obtain ⟨r2, ih1, hfl, hs⟩ := find_leaf_page_write fuel ih key Operation.DELETE true l hl
    have hlf : l = ih.file_hdr.first_leaf := by
      rw [hleaves0] at hsplit
      exact (List.cons.inj hsplit).1.symm
    have hent := valid_split_entries ih h [] B l hsplit
    rw [leaves_entries_nil, List.nil_append, hlf, hfp] at hent
    have hsorted := valid_entries_sorted ih h hv
    rw [hent] at hsorted
    simp only [List.cons_append, List.map_cons, List.pairwise_cons] at hsorted
    have hB : ∀ x ∈ leaves_entries ih.pages B, key < x.1 := by
      intro x hx
      have := hsorted.1 x.1 (by
        rw [List.map_append]
        exact List.mem_append_right _ (List.mem_map_of_mem _ hx))
      rw [← heq, hk0]
      exact this
    refine ⟨l, [], B, r2, ih1, hfl, hs, hsplit, by simp [leaves_entries], hB, ?_⟩
    rw [hent] at hin
    rw [hlf, hfp]
    rcases List.mem_append.mp (by simpa using hin : (key, r) ∈ (e :: es) ++
      leaves_entries ih.pages B) with h1 | h1
    · exact h1
    · have := hB _ h1
      simp at this
  · have hff : decide ((ih.fetch_node ih.file_hdr.first_leaf).get_key 0 = key) = false := by
      simpa using heq
    rw [hff]
    obtain ⟨l, A, B, hl, hsplit, hA, hB, hiff⟩ :=
      descent_write_leaf ih h hv key Operation.DELETE (Or.inr rfl) fuel hf
    obtain ⟨r2, ih1, hfl, hs⟩ := find_leaf_page_write fuel ih key Operation.DELETE false l hl
    exact ⟨l, A, B, r2, ih1, hfl, hs, hsplit, hA, hB, (hiff r).mp hin⟩

theorem maintain_parent_root (fuel : Nat) (ih : IxIndexHandle) (l : Int)
    (hp : (ih.pages l).parent = IX_NO_PAGE) : maintain_parent fuel ih l = Except.ok ih := by
  cases fuel with
  | zero =>
    unfold maintain_parent
    rw [if_neg (by simp [fetch_node, hp])]
  | succ f =>
    unfold maintain_parent
    rw [if_neg (by simp [fetch_node, hp])]

end RMDB

open RMDB RMDB.IxNodeHandle RMDB.IxIndexHandle

namespace RMDB

/-- Delete of a stored key from a valid, filled tree: `delete_entry` returns
true and leaves either the empty index (the key was the only one) or a valid
tree with the other pairs in order. -/
theorem delete_entry_valid (ih : IxIndexHandle) (h fuel : Nat) (key : Int) (r : Rid)
    (hv : Valid ih h) (hfill : filled ih h none) (hf : h + 1 ≤ fuel)
    (hin : (key, r) ∈ tree_entries ih h) :
    ∃ ih2, ih.delete_entry fuel key = Except.ok (true, ih2) ∧
      ih2.file_hdr.btree_order = ih.file_hdr.btree_order ∧
      ih2.next_page_no = ih.next_page_no ∧
      ((ih2.is_empty = true ∧ tree_entries ih h = [(key, r)] ∧ leaf_ring ih2.pages []) ∨
       ∃ h2, h2 ≤ h ∧ Valid ih2 h2 ∧
         tree_entries ih2 h2 = (tree_entries ih h).filter (fun e => decide (e.1 < key)) ++
           (tree_entries ih h).filter (fun e => decide (key < e.1)) ∧
         (h2 ≠ 0 → 2 ≤ (ih2.pages ih2.file_hdr.root_page).pairs.length) ∧
         (2 ∣ ih.file_hdr.btree_order → occ_nodes ih h none → occ_nodes ih2 h2 none)) := by
  obtain ⟨hc, l, A, B, r2, ih1, hfl, hs, hsplit, hA, hB, hmem⟩ :=
    delete_descent ih h fuel key r hv (by omega) hin
  obtain ⟨hp, hh, hnx, _⟩ := hs
  have hne := valid_not_empty ih h hv
  have hv1 : Valid ih1 h := by
    unfold Valid
    rw [hp, hh, hnx]
    exact hv
  have hsorted_l := leaf_sorted_of_split ih h hv A B l hsplit
  obtain ⟨X, Y, hXY, hX, hY, hrem⟩ := leaf_remove_spec (ih.pages l) hsorted_l key r hmem
  have hent := valid_split_entries ih h A B l hsplit
  rw [hXY] at hent
  have hent2 : tree_entries ih h =
      (leaves_entries ih.pages A ++ X) ++ (key, r) :: (Y ++ leaves_entries ih.pages B) := by
    rw [hent]
    simp
  obtain ⟨hfl1, hfl2⟩ := filter_around (leaves_entries ih.pages A ++ X)
    (Y ++ leaves_entries ih.pages B) key r
    (by
      intro x hx
      rcases List.mem_append.mp hx with h1 | h1
      · exact hA x h1
      · exact hX x h1)
    (by
      intro x hx
      rcases List.mem_append.mp hx with h1 | h1
      · exact hY x h1
      · exact hB x h1)
  rw [← hent2] at hfl1 hfl2
  have hlm : l ∈ subtree_leaves ih.pages h ih.file_hdr.root_page := by
    show l ∈ tree_leaves ih h
    rw [hsplit]
    simp
  have hlnode : l ∈ subtree_nodes ih.pages h ih.file_hdr.root_page :=
    (leaves_sublist_nodes ih.pages h _).subset hlm
  have hsz : (ih.pages l).get_size = ((X ++ Y).length : Int) + 1 := by
    unfold get_size
    rw [hXY]
    simp
    omega
  unfold delete_entry
  simp only [hne, Bool.false_eq_true, if_false, ix_compare_gt, hc, ix_compare_eq, hfl]
  simp only [fetch_node, hp, hrem]
  rw [if_neg (by omega)]
  obtain ⟨ih2, hih2⟩ : ∃ ih2, ih2 = ih1.modify_node l
      (fun _ => { ih.pages l with pairs := X ++ Y }) := ⟨_, rfl⟩
  rw [← hih2]
  by_cases hnp : X ++ Y = []
  · -- the last key of the tree
    have hXn : X = [] := (List.append_eq_nil.mp hnp).1
    have hYn : Y = [] := (List.append_eq_nil.mp hnp).2
    have hlen1 : (ih.pages l).pairs.length = 1 := by rw [hXY, hXn, hYn]; rfl
    have hh0 : h = 0 := by
      by_contra hh
      have := hfill l hlnode (by simp) (fun _ => hh)
      omega
    subst hh0
    have hlroot : l = ih.file_hdr.root_page := by
      simpa [subtree_leaves] using hlm
    have hAB : A = [] ∧ B = [] := by
      have : tree_leaves ih 0 = [ih.file_hdr.root_page] := rfl
      rw [this] at hsplit
      cases A with
      | nil =>
        simp only [List.nil_append, List.cons.injEq] at hsplit
        exact ⟨rfl, hsplit.2.symm⟩
      | cons a A2 =>
        simp only [List.cons_append, List.cons.injEq] at hsplit
        have := hsplit.2
        cases A2 <;> simp at this
    have hpar : (ih2.pages l).parent = IX_NO_PAGE := by
      rw [hih2, modify_node_apply, if_pos rfl]
      show (ih.pages l).parent = _
      rw [hlroot]
      exact hv.2.1.2.1
    rw [maintain_parent_root fuel ih2 l hpar]
    simp only []
    obtain ⟨f, hfu⟩ : ∃ f, fuel = f + 1 := ⟨fuel - 1, by omega⟩
    subst hfu
    unfold coalesce_or_redistribute
    have hrp : (ih2.fetch_node l).is_root_page = true := by
      simp [fetch_node, is_root_page, hpar]
    have hleaf : (ih2.fetch_node l).is_leaf = true := by
      rw [fetch_node, hih2, modify_node_apply, if_pos rfl]
      show (ih.pages l).is_leaf = true
      rw [hlroot]
      exact hv.2.1.1
    have hsz0 : (ih2.fetch_node l).get_size = 0 := by
      rw [fetch_node, hih2, modify_node_apply, if_pos rfl]
      simp [get_size, hnp]
    rw [if_pos hrp]
    have hadj : ih2.adjust_root l =
        (true, ((ih2.erase_leaf l).release_node_handle).update_root_page_no IX_NO_PAGE) := by
      unfold adjust_root
      rw [if_neg (by rw [hleaf]; simp), if_pos ⟨hleaf, hsz0⟩]
    simp only [hadj, if_true]
    refine ⟨_, rfl, ?_, ?_, Or.inl ⟨?_, ?_, ?_⟩⟩
    · show ih2.file_hdr.btree_order = _
      rw [hih2]
      show ih1.file_hdr.btree_order = _
      rw [hh]
    · show ih2.next_page_no = _
      rw [hih2]
      exact hnx
    · rfl
    · rw [hent, hAB.1, hAB.2, hXn, hYn]
      rfl
    · have hr : leaf_ring ih.pages [l] := by
        have := hv.2.2.2.2.2.1
        rw [← hlroot] at this
        exact this
      obtain ⟨⟨a1, a2⟩, a3, a4⟩ := hr
      have hl2 := (hv.2.2.2.2.1 l hlnode).1
      have hl1 : l ≠ IX_LEAF_HEADER_PAGE := by unfold IX_LEAF_HEADER_PAGE; omega
      have e1 : (ih2.pages l).prev_leaf = IX_LEAF_HEADER_PAGE := by
        rw [hih2, modify_node_apply, if_pos rfl]
        exact a2
      have e2 : (ih2.pages l).next_leaf = IX_LEAF_HEADER_PAGE := by
        rw [hih2, modify_node_apply, if_pos rfl]
        exact a3
      show linked (ih2.erase_leaf l).pages IX_LEAF_HEADER_PAGE [] IX_LEAF_HEADER_PAGE
      unfold erase_leaf
      simp only [linked, fetch_node, modify_node_apply, e1, e2, if_neg hl1, if_true]
      exact ⟨trivial, trivial⟩
  · -- the leaf keeps a key
    have hsorted : ((leaves_entries ih1.pages A ++ (X ++ Y) ++ leaves_entries ih1.pages B).map
        Prod.fst).Pairwise (· < ·) := by
      have hso := valid_entries_sorted ih h hv
      rw [hent] at hso
      rw [hp]
      refine List.Pairwise.sublist ?_ hso
      apply List.Sublist.map
      rw [List.append_assoc]
      refine List.Sublist.append_left ?_ _
      simp only [List.append_assoc, List.cons_append]
      exact List.Sublist.append_left (List.sublist_cons_self _ _) _
    obtain ⟨ih3, hmp, hv3, hent3, hlv3, hnd3, hpl3, hh3, hnx3, _, _, hlen3⟩ :=
      leaf_update_valid ih1 h hv1 A B l
        (by show subtree_leaves ih1.pages h ih1.file_hdr.root_page = _
            rw [hp, hh]; exact hsplit)
        (X ++ Y) hnp hsorted ih2
        (by rw [hih2]
            show Function.update ih1.pages l _ = _
            rw [hp])
        (by rw [hih2]; rfl) (by rw [hih2]; rfl) fuel (by omega)
    rw [hmp]
    simp only []
    have hroot3 : ih3.file_hdr.root_page = ih.file_hdr.root_page := by rw [hh3, hh]
    have hnodes3 : subtree_nodes ih3.pages h ih3.file_hdr.root_page =
        subtree_nodes ih.pages h ih.file_hdr.root_page := by
      rw [hnd3, hp, hh]
    have hl3 : l ∈ subtree_leaves ih3.pages h ih3.file_hdr.root_page := by
      have : tree_leaves ih3 h = tree_leaves ih1 h := hlv3
      show l ∈ tree_leaves ih3 h
      rw [this]
      show l ∈ subtree_leaves ih1.pages h ih1.file_hdr.root_page
      rw [hp, hh]
      exact hlm
    have hlen3b : ∀ q, q ≠ l → (ih3.pages q).pairs.length = (ih.pages q).pairs.length := by
      intro q hq
      rw [hlen3 q hq, hp]
    have hfill3 : filled ih3 h (some l) := by
      intro x hx hxl hxr
      rw [hnodes3] at hx
      have hxl2 : x ≠ l := fun hc => hxl (by rw [hc])
      rw [hlen3b x hxl2]
      exact hfill x hx (by simp) (fun hc => hxr (by rw [hroot3]; exact hc))
    obtain ⟨b, ih4, h2, heq4, t1, t2, t3, t4, t5, t6, t7⟩ :=
      coalesce_or_redistribute_valid fuel ih3 h 0 l hv3
        (leaf_sub_at ih3.pages h _ l hl3) hfill3 (by omega)
    rw [heq4]
    simp only []
    have hord3 : ih3.file_hdr.btree_order = ih.file_hdr.btree_order := by rw [hh3, hh]
    refine ⟨_, rfl, ?_, ?_, Or.inr ⟨h2, t2, t1, ?_, t6, ?_⟩⟩
    · show ih4.file_hdr.btree_order = _
      rw [t4, hord3]
    · show ih4.next_page_no = _
      rw [t5, hnx3, hnx]
    · show tree_entries ih4 h2 = _
      rw [t3, hent3, hp, hfl1, hfl2]
      simp
    · intro hev ho
      have hmin3 : IxNodeHandle.get_min_size ih3.file_hdr =
          IxNodeHandle.get_min_size ih.file_hdr := by rw [hh3, hh]
      have hmax3 : IxNodeHandle.get_max_size ih3.file_hdr =
          IxNodeHandle.get_max_size ih.file_hdr := by rw [hh3, hh]
      refine t7 (by rw [hord3]; exact hev) ?_ ?_
      · intro x hx hxr hxl
        rw [hnodes3] at hx
        rw [hroot3] at hxr
        have hxl2 : x ≠ l := fun hc => hxl (by rw [hc])
        have := ho x hx hxr (by simp)
        rw [hmin3, hmax3]
        unfold get_size at this ⊢
        rw [hlen3b x hxl2]
        exact this
      · intro hlr
        rw [hroot3] at hlr
        have := ho l hlnode hlr (by simp)
        rw [hmin3, hmax3]
        rw [hsz] at this
        unfold get_size
        rw [hpl3]
        show _ ≤ ((X ++ Y).length : Int) ∧ ((X ++ Y).length : Int) ≤ _
        omega

end RMDB

open RMDB RMDB.IxNodeHandle RMDB.IxIndexHandle

namespace RMDB

/-- Invariant 1 with `min_size` at least two, and a root with two children,
give the fill that `delete_entry` relies on. -/
theorem filled_of_occ (ih : IxIndexHandle) (h : Nat) (ho : occ_nodes ih h none)
    (hm : 3 ≤ ih.file_hdr.btree_order)
    (hr : h ≠ 0 → 2 ≤ (ih.pages ih.file_hdr.root_page).pairs.length) : filled ih h none := by
  intro x hx _ hxr
  by_cases hc : x = ih.file_hdr.root_page
  · rw [hc]
    exact hr (hxr hc)
  · have := (ho x hx hc (by simp)).1
    unfold get_min_size get_max_size get_size at this
    omega

/-- Node-wise occupancy gives the recursive form of invariant 1. -/
theorem occupancy_of_nodes (hdr : IxFileHdr) (pages : Int → IxNodeHandle) :
    ∀ (h : Nat) (t : Int) (root : Bool), (subtree_nodes pages h t).Nodup →
      (∀ x ∈ subtree_nodes pages h t, (x = t ∧ root = true) ∨
        (IxNodeHandle.get_min_size hdr ≤ (pages x).get_size ∧
          (pages x).get_size ≤ IxNodeHandle.get_max_size hdr - 1)) →
      occupancy hdr pages h t root := by
  intro h
  induction h with
  | zero =>
    intro t root _ hall
    rcases hall t (mem_subtree_nodes_self pages 0 t) with ⟨_, h1⟩ | h1
    · exact Or.inl h1
    · exact Or.inr h1
  | succ k ihk =>
    intro t root hnd hall
    refine ⟨?_, ?_⟩
    · rcases hall t (mem_subtree_nodes_self pages (k + 1) t) with ⟨_, h1⟩ | h1
      · exact Or.inl h1
      · exact Or.inr h1
    · intro e he
      apply ihk e.2.page_no false (nodup_child pages k t hnd e he)
      intro x hx
      rcases hall x (child_nodes_mem pages k t e he x hx) with ⟨h1, _⟩ | h1
      · exact absurd h1 (child_nodes_ne pages k t hnd e he x hx)
      · exact Or.inr h1

theorem occupancy_of_occ_nodes (ih : IxIndexHandle) (h : Nat) (hv : Valid ih h)
    (ho : occ_nodes ih h none) :
    occupancy ih.file_hdr ih.pages h ih.file_hdr.root_page true := by
  apply occupancy_of_nodes ih.file_hdr ih.pages h _ true hv.2.2.2.1
  intro x hx
  by_cases hc : x = ih.file_hdr.root_page
  · exact Or.inl ⟨hc, rfl⟩
  · exact Or.inr (ho x hx hc (by simp))

/-- The recursive form of invariant 1 gives the bounds node by node. -/
theorem nodes_of_occupancy (hdr : IxFileHdr) (pages : Int → IxNodeHandle) :
    ∀ (h : Nat) (t : Int) (root : Bool), occupancy hdr pages h t root →
      ∀ x ∈ subtree_nodes pages h t, (x = t ∧ root = true) ∨
        (IxNodeHandle.get_min_size hdr ≤ (pages x).get_size ∧
          (pages x).get_size ≤ IxNodeHandle.get_max_size hdr - 1) := by
  intro h
  induction h with
  | zero =>
    intro t root ho x hx
    simp only [subtree_nodes, List.mem_singleton] at hx
    rw [hx]
    rcases ho with h1 | h1
    · exact Or.inl ⟨rfl, h1⟩
    · exact Or.inr h1
  | succ k ihk =>
    intro t root ho x hx
    simp only [subtree_nodes, List.mem_cons, List.mem_flatMap] at hx
    rcases hx with hx | ⟨e, he, hx⟩
    · rw [hx]
      rcases ho.1 with h1 | h1
      · exact Or.inl ⟨rfl, h1⟩
      · exact Or.inr h1
    · rcases ihk e.2.page_no false (ho.2 e he) x hx with ⟨_, h1⟩ | h1
      · cases h1
      · exact Or.inr h1

/-- Invariant 1 as the spec states it, for `max_size` at least three, gives
the fill assumed for `delete_entry`. -/
theorem filled_of_invariant (ih : IxIndexHandle) (h : Nat)
    (ho : occupancy ih.file_hdr ih.pages h ih.file_hdr.root_page true)
    (hm : 3 ≤ ih.file_hdr.btree_order)
    (hr : h ≠ 0 → 2 ≤ (ih.pages ih.file_hdr.root_page).pairs.length) : filled ih h none := by
  apply filled_of_occ ih h _ hm hr
  intro x hx hxr _
  rcases nodes_of_occupancy ih.file_hdr ih.pages h _ true ho x hx with ⟨h1, _⟩ | h1
  · exact absurd h1 hxr
  · exact h1

/-- The pairs after `delete_entry key` and then `insert_entry key r` on a
valid, filled tree: the pairs with other keys and the new pair, in key
order. -/
theorem delete_then_insert (ih : IxIndexHandle) (h fuel : Nat) (key : Int) (r : Rid)
    (hv : Valid ih h) (hfill : filled ih h none) (hf : h + 1 ≤ fuel) :
    ∃ b ih1 pn ih2 h2, ih.delete_entry fuel key = Except.ok (b, ih1) ∧
      ih1.insert_entry fuel key r = Except.ok (pn, ih2) ∧ Valid ih2 h2 ∧ h2 ≤ h + 1 ∧
      tree_entries ih2 h2 = (tree_entries ih h).filter (fun e => decide (e.1 < key)) ++
        (key, r) :: (tree_entries ih h).filter (fun e => decide (key < e.1)) := by
  by_cases hst : ∃ r0, (key, r0) ∈ tree_entries ih h
  · obtain ⟨r0, hr0⟩ := hst
    obtain ⟨ih1, hd, _, hnx, hcase⟩ := delete_entry_valid ih h fuel key r0 hv hfill hf hr0
    rcases hcase with ⟨he, hE, _⟩ | ⟨h1, hh1, hv1, hent1, _, _⟩
    · have hn2 : 2 ≤ ih1.next_page_no := by
        rw [hnx]
        have := hv.2.2.2.2.1 _ (mem_subtree_nodes_self ih.pages h ih.file_hdr.root_page)
        omega
      obtain ⟨ih2, hi, hv2, hent2, _⟩ := insert_entry_empty ih1 fuel key r he hn2
      refine ⟨true, ih1, 1, ih2, 0, hd, hi, hv2, by omega, ?_⟩
      rw [hent2, hE]
      simp
    · have hX : ∀ x ∈ (tree_entries ih h).filter (fun e => decide (e.1 < key)), x.1 < key := by
        intro x hx
        simpa using (List.mem_filter.mp hx).2
      have hY : ∀ x ∈ (tree_entries ih h).filter (fun e => decide (key < e.1)), key < x.1 := by
        intro x hx
        simpa using (List.mem_filter.mp hx).2
      obtain ⟨pn, ih2, h2, hi, hv2, hh2, hent2, _⟩ := insert_entry_valid ih1 h1 fuel key r hv1
        (by omega)
        (by
          intro r1 hc
          rw [hent1] at hc
          rcases List.mem_append.mp hc with c | c
          · have := hX _ c
            simp at this
          · have := hY _ c
            simp at this)
      obtain ⟨f1, f2⟩ := filter_lt_split _ _ key hX hY
      refine ⟨true, ih1, pn, ih2, h2, hd, hi, hv2, by omega, ?_⟩
      rw [hent2, hent1, f1, f2]
  · have hnot : ∀ r0, (key, r0) ∉ tree_entries ih h := fun r0 hc => hst ⟨r0, hc⟩
    obtain ⟨pn, ih2, h2, hi, hv2, hh2, hent2, _⟩ := insert_entry_valid ih h fuel key r hv hf hnot
    rcases delete_entry_absent ih h fuel key hv (by omega) hnot with hd | hd
    · exact ⟨false, ih, pn, ih2, h2, hd, hi, hv2, hh2, hent2⟩
    · obtain ⟨pn3, ih3, h3, hi3, hv3, hh3, hent3, _⟩ := insert_entry_valid ih.unlock_page_set h
        fuel key r (valid_unlock ih h hv) hf hnot
      exact ⟨false, ih.unlock_page_set, pn3, ih3, h3, hd, hi3, hv3, hh3, hent3⟩

/-- The pairs after `insert_entry key r` on a tree, or an empty index, that
holds the pairs `D` and not the key. -/
theorem insert_on_rest (ih : IxIndexHandle) (h fuel : Nat) (key : Int) (r : Rid)
    (E : List (Int × Rid))
    (hT : (Valid ih h ∧ tree_entries ih h = E.filter (fun e => decide (e.1 ≠ key))) ∨
      (ih.is_empty = true ∧ 2 ≤ ih.next_page_no ∧
        E.filter (fun e => decide (e.1 ≠ key)) = []))
    (hf : h + 1 ≤ fuel) :
    ∃ pn ih2 h2, ih.insert_entry fuel key r = Except.ok (pn, ih2) ∧ Valid ih2 h2 ∧
      tree_entries ih2 h2 = E.filter (fun e => decide (e.1 < key)) ++
        (key, r) :: E.filter (fun e => decide (key < e.1)) := by
  have hf1 : ∀ D : List (Int × Rid), (D.filter (fun e => decide (e.1 ≠ key))).filter
      (fun e => decide (e.1 < key)) = D.filter (fun e => decide (e.1 < key)) := by
    intro D
    rw [List.filter_filter]
    apply List.filter_congr
    intro x _
    by_cases hx : x.1 < key
    · simp [hx]; omega
    · simp [hx]
  have hf2 : ∀ D : List (Int × Rid), (D.filter (fun e => decide (e.1 ≠ key))).filter
      (fun e => decide (key < e.1)) = D.filter (fun e => decide (key < e.1)) := by
    intro D
    rw [List.filter_filter]
    apply List.filter_congr
    intro x _
    by_cases hx : key < x.1
    · simp [hx]; omega
    · simp [hx]
  rcases hT with ⟨hv, hent⟩ | ⟨he, hn, hnil⟩
  · obtain ⟨pn, ih2, h2, hi, hv2, _, hent2, _⟩ := insert_entry_valid ih h fuel key r hv hf
      (by
        intro r0 hc
        rw [hent] at hc
        have := (List.mem_filter.mp hc).2
        simp at this)
    refine ⟨pn, ih2, h2, hi, hv2, ?_⟩
    rw [hent2, hent, hf1, hf2]
  · obtain ⟨ih2, hi, hv2, hent2, _⟩ := insert_entry_empty ih fuel key r he hn
    refine ⟨1, ih2, 0, hi, hv2, ?_⟩
    rw [hent2, ← hf1, ← hf2, hnil]
    rfl

end RMDB

open RMDB RMDB.IxNodeHandle RMDB.IxIndexHandle

namespace RMDB

theorem workload_inv_of_valid (m n : Nat) (ih : IxIndexHandle) (h : Nat) (hv : Valid ih h)
    (hord : ih.file_hdr.btree_order = m) (hn : h ≤ n) (ho : occ_nodes ih h none)
    (hr : h ≠ 0 → 2 ≤ (ih.pages ih.file_hdr.root_page).pairs.length) :
    workload_inv m n ih := by
  refine ⟨hord, ?_, Or.inr ⟨h, hn, hv, ho, hr⟩⟩
  have := hv.2.2.2.2.1 _ (mem_subtree_nodes_self ih.pages h ih.file_hdr.root_page)
  omega

/-- One `insert_entry` call keeps the workload invariant for an even
`max_size`; the tree grows by at most one level. -/
theorem workload_insert (m n : Nat) (hev : 2 ∣ m) (ih : IxIndexHandle)
    (hinv : workload_inv m n ih) (fuel : Nat) (hf : n + 1 ≤ fuel) (key : Int) (r : Rid) :
    ∃ res, ih.insert_entry fuel key r = Except.ok res ∧ workload_inv m (n + 1) res.2 ∧
      res.2.is_empty = false := by
  obtain ⟨hord, hn2, hcase⟩ := hinv
  rcases hcase with he | ⟨h, hh, hv, ho, hr⟩
  · obtain ⟨ih2, hi, hv2, _, hord2⟩ := insert_entry_empty ih fuel key r he hn2
    refine ⟨(1, ih2), hi, workload_inv_of_valid m (n + 1) ih2 0 hv2 (by rw [hord2, hord])
      (by omega) ?_ (fun hc => absurd rfl hc), valid_not_empty ih2 0 hv2⟩
    intro x hx hxr _
    simp only [subtree_nodes, List.mem_singleton] at hx
    exact absurd hx hxr
  · by_cases hst : ∃ r0, (key, r0) ∈ tree_entries ih h
    · obtain ⟨r0, hr0⟩ := hst
      rcases insert_entry_dup ih h fuel key r0 r hv (by omega) hr0 with ⟨_, hi⟩ | ⟨_, hi⟩
      · exact ⟨(-1, ih), hi, workload_inv_of_valid m (n + 1) ih h hv hord (by omega) ho hr,
          valid_not_empty ih h hv⟩
      · exact ⟨(-1, ih.unlock_page_set), hi,
          workload_inv_of_valid m (n + 1) ih.unlock_page_set h (valid_unlock ih h hv) hord
            (by omega) ho hr, valid_not_empty _ h (valid_unlock ih h hv)⟩
    · obtain ⟨pn, ih2, h2, hi, hv2, hh2, _, hord2, ho2, hr2⟩ :=
        insert_entry_valid ih h fuel key r hv (by omega) (fun r0 hc => hst ⟨r0, hc⟩)
      exact ⟨(pn, ih2), hi, workload_inv_of_valid m (n + 1) ih2 h2 hv2 (by rw [hord2, hord])
        (by omega) (ho2 (by rw [hord]; exact hev) ho) (hr2 hr), valid_not_empty ih2 h2 hv2⟩

/-- One `delete_entry` call keeps the workload invariant for an even
`max_size` of at least four. -/
theorem workload_delete (m n : Nat) (hev : 2 ∣ m) (h4 : 4 ≤ m) (ih : IxIndexHandle)
    (hinv : workload_inv m n ih) (fuel : Nat) (hf : n + 1 ≤ fuel) (key : Int) :
    ∃ res, ih.delete_entry fuel key = Except.ok res ∧ workload_inv m n res.2 ∧
      ((ih.is_empty = true → leaf_ring ih.pages []) →
        res.2.is_empty = true → leaf_ring res.2.pages []) := by
  obtain ⟨hord, hn2, hcase⟩ := hinv
  rcases hcase with he | ⟨h, hh, hv, ho, hr⟩
  · refine ⟨(false, ih), ?_, ⟨hord, hn2, Or.inl he⟩, fun hring _ => hring he⟩
    unfold delete_entry
    rw [if_pos he]
  · by_cases hst : ∃ r0, (key, r0) ∈ tree_entries ih h
    · obtain ⟨r0, hr0⟩ := hst
      obtain ⟨ih2, hd, hord2, hnx2, hcase2⟩ := delete_entry_valid ih h fuel key r0 hv
        (filled_of_occ ih h ho (by rw [hord]; omega) hr) (by omega) hr0
      refine ⟨(true, ih2), hd, ?_⟩
      rcases hcase2 with ⟨he2, _, hring2⟩ | ⟨h2, hh2, hv2, _, hr2, ho2⟩
      · exact ⟨⟨by rw [hord2, hord], by rw [hnx2]; exact hn2, Or.inl he2⟩, fun _ _ => hring2⟩
      · refine ⟨workload_inv_of_valid m n ih2 h2 hv2 (by rw [hord2, hord]) (by omega)
          (ho2 (by rw [hord]; exact hev) ho) hr2, fun _ hc => ?_⟩
        rw [valid_not_empty ih2 h2 hv2] at hc
        exact absurd hc (by simp)
    · rcases delete_entry_absent ih h fuel key hv (by omega) (fun r0 hc => hst ⟨r0, hc⟩)
        with hd | hd
      · refine ⟨(false, ih), hd, workload_inv_of_valid m n ih h hv hord hh ho hr,
          fun _ hc => ?_⟩
        rw [valid_not_empty ih h hv] at hc
        exact absurd hc (by simp)
      · refine ⟨(false, ih.unlock_page_set), hd,
          workload_inv_of_valid m n ih.unlock_page_set h (valid_unlock ih h hv) hord hh ho hr,
          fun _ hc => ?_⟩
        rw [valid_not_empty _ h (valid_unlock ih h hv)] at hc
        exact absurd hc (by simp)

/-- A serial workload keeps the workload invariant for an even `max_size` of
at least four, given a loop budget above the number of calls. -/
theorem workload_run (m : Nat) (hev : 2 ∣ m) (h4 : 4 ≤ m) (fuel : Nat) :
    ∀ (ops : List IndexOp) (n : Nat) (ih : IxIndexHandle), workload_inv m n ih →
      n + ops.length + 1 ≤ fuel →
      ∃ ih2, run_ops fuel ih ops = Except.ok ih2 ∧ workload_inv m (n + ops.length) ih2 := by
  intro ops
  induction ops with
  | nil =>
    intro n ih hinv _
    exact ⟨ih, rfl, hinv⟩
  | cons op ops IH =>
    intro n ih hinv hf
    simp only [List.length_cons] at hf
    cases op with
    | insert k r =>
      obtain ⟨res, hi, hinv2, _⟩ := workload_insert m n hev ih hinv fuel (by omega) k r
      obtain ⟨ih2, hrun, hinv3⟩ := IH (n + 1) res.2 hinv2 (by omega)
      refine ⟨ih2, ?_, ?_⟩
      · unfold run_ops
        rw [hi]
        exact hrun
      · simp only [List.length_cons]
        have : n + (ops.length + 1) = n + 1 + ops.length := by omega
        rw [this]
        exact hinv3
    | delete k =>
      obtain ⟨res, hd, hinv2, _⟩ := workload_delete m n hev h4 ih hinv fuel (by omega) k
      obtain ⟨ih2, hrun, hinv3⟩ := IH n res.2 hinv2 (by omega)
      refine ⟨ih2, ?_, ?_⟩
      · unfold run_ops
        rw [hd]
        exact hrun
      · obtain ⟨a, b, c⟩ := hinv3
        refine ⟨a, b, ?_⟩
        rcases c with c | ⟨h, hh, c⟩
        · exact Or.inl c
        · exact Or.inr ⟨h, by simp only [List.length_cons]; omega, c⟩

theorem workload_inv_empty (m : Nat) : workload_inv m 0 (empty_index m) :=
  ⟨rfl, le_refl 2, Or.inl rfl⟩

end RMDB

open RMDB RMDB.IxNodeHandle RMDB.IxIndexHandle

namespace RMDB

/-- The recorded loop of `lower_bound` exits within `right - left + 1`
iterations with the result of the loop, and reads only indices between `left`
and `right`. -/
theorem lower_bound_trace_spec (n : IxNodeHandle) (target : Int) :
    ∀ (fuel : Nat) (left right : Int), right - left + 1 ≤ fuel →
      ∃ rs, n.lower_bound_trace target fuel left right =
          some (rs, lower_bound_loop n target fuel left right) ∧
        ∀ i ∈ rs, left ≤ i ∧ i ≤ right := by
  intro fuel
  induction fuel with
  | zero =>
    intro left right hf
    refine ⟨[], ?_, fun i hi => by simp at hi⟩
    simp only [lower_bound_trace, lower_bound_loop]
    rw [if_neg (by omega)]
  | succ f ih =>
    intro left right hf
    simp only [lower_bound_trace, lower_bound_loop]
    by_cases hle : left ≤ right
    · simp only [if_pos hle]
      by_cases hc : ix_compare (n.get_key ((left + right) / 2)) target < 0
      · simp only [if_pos hc]
        obtain ⟨rs, h1, h2⟩ := ih ((left + right) / 2 + 1) right (by omega)
        refine ⟨(left + right) / 2 :: rs, by rw [h1]; rfl, ?_⟩
        intro i hi
        rcases List.mem_cons.mp hi with h | h
        · subst h; omega
        · have := h2 i h; omega
      · simp only [if_neg hc]
        obtain ⟨rs, h1, h2⟩ := ih left ((left + right) / 2 - 1) (by omega)
        refine ⟨(left + right) / 2 :: rs, by rw [h1]; rfl, ?_⟩
        intro i hi
        rcases List.mem_cons.mp hi with h | h
        · subst h; omega
        · have := h2 i h; omega
    · simp only [if_neg hle]
      exact ⟨[], rfl, fun i hi => by simp at hi⟩

/-- The recorded loop of `upper_bound` exits within `right - left + 1`
iterations with the result of the loop, and reads only indices between `left`
and `right`. -/
theorem upper_bound_trace_spec (n : IxNodeHandle) (target : Int) :
    ∀ (fuel : Nat) (left right : Int), right - left + 1 ≤ fuel →
      ∃ rs, n.upper_bound_trace target fuel left right =
          some (rs, upper_bound_loop n target fuel left right) ∧
        ∀ i ∈ rs, left ≤ i ∧ i ≤ right := by
  intro fuel
  induction fuel with
  | zero =>
    intro left right hf
    refine ⟨[], ?_, fun i hi => by simp at hi⟩
    simp only [upper_bound_trace, upper_bound_loop]
    rw [if_neg (by omega)]
  | succ f ih =>
    intro left right hf
    simp only [upper_bound_trace, upper_bound_loop]
    by_cases hle : left ≤ right
    · simp only [if_pos hle]
      by_cases hc : ix_compare (n.get_key ((left + right) / 2)) target ≤ 0
      · simp only [if_pos hc]
        obtain ⟨rs, h1, h2⟩ := ih ((left + right) / 2 + 1) right (by omega)
        refine ⟨(left + right) / 2 :: rs, by rw [h1]; rfl, ?_⟩
        intro i hi
        rcases List.mem_cons.mp hi with h | h
        · subst h; omega
        · have := h2 i h; omega
      · simp only [if_neg hc]
        obtain ⟨rs, h1, h2⟩ := ih left ((left + right) / 2 - 1) (by omega)
        refine ⟨(left + right) / 2 :: rs, by rw [h1]; rfl, ?_⟩
        intro i hi
        rcases List.mem_cons.mp hi with h | h
        · subst h; omega
        · have := h2 i h; omega
    · simp only [if_neg hle]
      exact ⟨[], rfl, fun i hi => by simp at hi⟩

/-- The reads of `lower_bound` on a node: the loop exits and reads inside
`[0, num_key)`. -/
theorem lower_bound_reads_in_range (n : IxNodeHandle) (target : Int) :
    ∃ rs, n.lower_bound_trace target (n.pairs.length + 1) 0 (n.get_size - 1) =
        some (rs, n.lower_bound target) ∧
      ∀ i ∈ rs, 0 ≤ i ∧ i < n.get_size := by
  obtain ⟨rs, h1, h2⟩ := lower_bound_trace_spec n target (n.pairs.length + 1) 0 (n.get_size - 1)
    (by unfold get_size; push_cast; omega)
  exact ⟨rs, h1, fun i hi => by have := h2 i hi; omega⟩

/-- The reads of `upper_bound` on a node: the loop exits and reads inside
`[1, num_key)`. -/
theorem upper_bound_reads_in_range (n : IxNodeHandle) (target : Int) :
    ∃ rs, n.upper_bound_trace target (n.pairs.length + 1) 1 (n.get_size - 1) =
        some (rs, n.upper_bound target) ∧
      ∀ i ∈ rs, 1 ≤ i ∧ i < n.get_size := by
  obtain ⟨rs, h1, h2⟩ := upper_bound_trace_spec n target (n.pairs.length + 1) 1 (n.get_size - 1)
    (by unfold get_size; push_cast; omega)
  exact ⟨rs, h1, fun i hi => by have := h2 i hi; omega⟩

/-- On a node with ascending keys `lower_bound` of a stored key is its slot. -/
theorem lower_bound_of_key (n : IxNodeHandle) (hs : keys_sorted n) (i : Int) (h0 : 0 ≤ i)
    (hi : i < n.get_size) : n.lower_bound (n.get_key i) = i := by
  obtain ⟨a, b, c, d⟩ := lower_bound_spec n hs (n.get_key i)
  by_contra hne
  rcases lt_or_gt_of_ne hne with hlt | hgt
  · have h1 := d (n.lower_bound (n.get_key i)) (le_refl _) (by omega)
    have h2 := get_key_lt_of_sorted n hs _ _ a hlt hi
    omega
  · have := c i h0 hgt
    omega

/-- The out-parameter form of `leaf_lookup` against its option form. -/
theorem leaf_lookup_out_eq (n : IxNodeHandle) (key : Int) (value : Rid) :
    n.leaf_lookup_out key value =
      match n.leaf_lookup key with
      | some r => (true, r)
      | none => (false, value) := by
  unfold leaf_lookup_out leaf_lookup
  simp only []
  split_ifs <;> rfl

end RMDB

open RMDB RMDB.IxNodeHandle RMDB.IxIndexHandle

namespace RMDB

theorem min_of_mem_le (l : List Int) (a : Int) (h1 : a ∈ l) (h2 : ∀ b ∈ l, a ≤ b) :
    l.min? = some a := by
  haveI : Std.Antisymm (fun (x1 x2 : Int) => x1 ≤ x2) := ⟨fun h1 h2 => le_antisymm h1 h2⟩
  rw [List.min?_eq_some_iff]
  · exact ⟨h1, h2⟩
  · intro a; exact le_refl a
  · intro a b; exact min_choice a b
  · intro a b c; exact le_min_iff

/-- In a well-formed subtree with ascending entries every separator key is the
minimum key of the subtree of its child. -/
theorem separators_of_wf (pages : Int → IxNodeHandle) :
    ∀ (h : Nat) (p par : Int), wf_subtree pages h p par →
      ((subtree_entries pages h p).map Prod.fst).Pairwise (· < ·) →
      separators_min pages h p := by
  intro h
  induction h with
  | zero => intro p par _ _; exact trivial
  | succ h ih =>
    intro p par hw hs e he
    have hhead := wf_child_head pages h p par hw e he
    have hsc := (sorted_children pages h p hs).1 e he
    obtain ⟨_, _, _, hch⟩ := hw
    refine ⟨?_, ih _ _ (hch e he).1 hsc⟩
    apply min_of_mem_le
    · obtain ⟨y, hy, hyk⟩ := head_mem_of_head _ _ hhead
      exact List.mem_map.mpr ⟨y, hy, hyk⟩
    · intro b hb
      obtain ⟨y, hy, hyk⟩ := List.mem_map.mp hb
      rw [← hyk]
      exact head_le_of_sorted _ hsc e.1 hhead y hy

/-- In a well-formed subtree every child has its parent in `parent`. -/
theorem parents_of_wf (pages : Int → IxNodeHandle) :
    ∀ (h : Nat) (p par : Int), wf_subtree pages h p par → parents_hold pages h p := by
  intro h
  induction h with
  | zero => intro p par _; exact trivial
  | succ h ih =>
    intro p par hw e he
    obtain ⟨_, _, _, hch⟩ := hw
    exact ⟨wf_root_parent pages h _ _ (hch e he).1, ih _ _ (hch e he).1⟩

/-- Along linked leaves the walk by `next_leaf` from the first one reaches the
sentinel after visiting them in order. -/
theorem follow_next_linked (pages : Int → IxNodeHandle) :
    ∀ (ls : List Int) (a : Int), linked pages a ls IX_LEAF_HEADER_PAGE →
      (∀ x ∈ ls, x ≠ IX_LEAF_HEADER_PAGE) →
      follow_next pages ls.length (pages a).next_leaf = some ls := by
  intro ls
  induction ls with
  | nil =>
    intro a hl _
    simp only [linked] at hl
    simp [follow_next, hl.1]
  | cons b ls ih =>
    intro a hl hne
    obtain ⟨⟨h1, _⟩, h2⟩ := hl
    have hb : b ≠ IX_LEAF_HEADER_PAGE := hne b (by simp)
    rw [h1]
    simp only [List.length_cons, follow_next, if_neg hb]
    rw [ih b h2 (fun x hx => hne x (by simp [hx]))]
    rfl

/-- Along linked leaves the walk by `prev_leaf` from the last one visits them
in reverse order. -/
theorem follow_prev_linked (pages : Int → IxNodeHandle) :
    ∀ (ls : List Int) (a z : Int), linked pages a ls z →
      (∀ x ∈ ls, x ≠ IX_LEAF_HEADER_PAGE) → ∀ fuel,
      follow_prev pages (ls.length + fuel) (pages z).prev_leaf =
        (follow_prev pages fuel a).map (fun t => ls.reverse ++ t) := by
  intro ls
  induction ls with
  | nil =>
    intro a z hl _ fuel
    simp only [linked] at hl
    simp [hl.2]
  | cons b ls ih =>
    intro a z hl hne fuel
    obtain ⟨⟨_, h1⟩, h2⟩ := hl
    have hb : b ≠ IX_LEAF_HEADER_PAGE := hne b (by simp)
    have := ih b z h2 (fun x hx => hne x (by simp [hx])) (fuel + 1)
    have hlen : (b :: ls).length + fuel = ls.length + (fuel + 1) := by
      simp only [List.length_cons]; omega
    rw [hlen, this]
    simp only [follow_prev, if_neg hb, h1, Option.map_map]
    congr 1
    funext t
    simp

/-- The ring of a valid tree, as walks from the sentinel and with the header
fields. -/
theorem valid_ring_walk (ih : IxIndexHandle) (h : Nat) (hv : Valid ih h) :
    follow_next ih.pages (tree_leaves ih h).length
        (ih.pages IX_LEAF_HEADER_PAGE).next_leaf = some (tree_leaves ih h) ∧
      follow_prev ih.pages (tree_leaves ih h).length
        (ih.pages IX_LEAF_HEADER_PAGE).prev_leaf = some (tree_leaves ih h).reverse ∧
      ih.file_hdr.first_leaf = (ih.pages IX_LEAF_HEADER_PAGE).next_leaf ∧
      ih.file_hdr.last_leaf = (ih.pages IX_LEAF_HEADER_PAGE).prev_leaf := by
  obtain ⟨_, _, _, _, v5, v6, v7, v8⟩ := hv
  have hne : ∀ x ∈ tree_leaves ih h, x ≠ IX_LEAF_HEADER_PAGE := by
    intro x hx
    have := (v5 x ((leaves_sublist_nodes ih.pages h _).subset hx)).1
    unfold IX_LEAF_HEADER_PAGE
    omega
  have hn := follow_next_linked ih.pages (tree_leaves ih h) IX_LEAF_HEADER_PAGE v6 hne
  have hp := follow_prev_linked ih.pages (tree_leaves ih h) IX_LEAF_HEADER_PAGE
    IX_LEAF_HEADER_PAGE v6 hne 0
  refine ⟨hn, ?_, ?_, ?_⟩
  · rw [Nat.add_zero] at hp
    rw [hp]
    simp [follow_prev]
  · have v7b : (tree_leaves ih h).head? = some ih.file_hdr.first_leaf := v7
    cases hls : tree_leaves ih h with
    | nil => rw [hls] at v7b; simp at v7b
    | cons b ls =>
      rw [hls] at v7b hn
      simp only [List.head?_cons, Option.some.injEq] at v7b
      have v6b : linked ih.pages IX_LEAF_HEADER_PAGE (tree_leaves ih h) IX_LEAF_HEADER_PAGE := v6
      rw [hls] at v6b
      rw [← v7b, v6b.1.1]
  · have v8b : (tree_leaves ih h).getLast? = some ih.file_hdr.last_leaf := v8
    rw [Nat.add_zero] at hp
    cases hls : (tree_leaves ih h).reverse with
    | nil =>
      have : tree_leaves ih h = [] := by simpa using hls
      rw [this] at v8b
      simp at v8b
    | cons b ls =>
      have hrev : tree_leaves ih h = ls.reverse ++ [b] := by
        have := congrArg List.reverse hls
        simpa using this
      rw [hrev] at v8b
      have v8c : b = ih.file_hdr.last_leaf := by simpa using v8b
      have hlen : (tree_leaves ih h).length = ls.length + 1 := by rw [hrev]; simp
      rw [hlen, hls] at hp
      simp only [follow_prev] at hp
      by_cases hz : (ih.pages IX_LEAF_HEADER_PAGE).prev_leaf = IX_LEAF_HEADER_PAGE
      · rw [if_pos hz] at hp
        simp at hp
      · rw [if_neg hz] at hp
        cases hw : follow_prev ih.pages ls.length
            (ih.pages (ih.pages IX_LEAF_HEADER_PAGE).prev_leaf).prev_leaf with
        | none => rw [hw] at hp; simp at hp
        | some t =>
          rw [hw] at hp
          simp only [Option.map_some', follow_prev, if_true, Option.some.injEq,
            List.append_nil, List.cons.injEq] at hp
          rw [← v8c, hp.1]

theorem workload_inv_mono (m n n2 : Nat) (ih : IxIndexHandle) (hn : n ≤ n2)
    (hinv : workload_inv m n ih) : workload_inv m n2 ih := by
  obtain ⟨a, b, c⟩ := hinv
  refine ⟨a, b, ?_⟩
  rcases c with c | ⟨h, hh, c⟩
  · exact Or.inl c
  · exact Or.inr ⟨h, by omega, c⟩

/-- A point lookup returns on every state of the workload. -/
theorem workload_lookup (m n : Nat) (ih : IxIndexHandle) (hinv : workload_inv m n ih)
    (fuel : Nat) (hf : n ≤ fuel) (key : Int) :
    ∃ res, ih.get_value fuel key [] = Except.ok res := by
  obtain ⟨_, _, hcase⟩ := hinv
  rcases hcase with he | ⟨h, hh, hv, _, _⟩
  · refine ⟨(false, []), ?_⟩
    unfold get_value
    rw [if_pos he]
  · exact ⟨_, get_value_valid ih h fuel key [] hv (by omega)⟩

/-- A serial workload of inserts, deletes and lookups keeps the workload
invariant for an even `max_size` of at least four, and an index without a tree
has its sentinel linked to itself. -/
theorem workload_calls (m : Nat) (hev : 2 ∣ m) (h4 : 4 ≤ m) (fuel : Nat) :
    ∀ (cs : List IndexCall) (n : Nat) (ih : IxIndexHandle), workload_inv m n ih →
      (ih.is_empty = true → leaf_ring ih.pages []) →
      n + cs.length + 1 ≤ fuel →
      ∃ ih2, run_calls fuel ih cs = Except.ok ih2 ∧ workload_inv m (n + cs.length) ih2 ∧
        (ih2.is_empty = true → leaf_ring ih2.pages []) := by
  intro cs
  induction cs with
  | nil =>
    intro n ih hinv hring _
    exact ⟨ih, rfl, hinv, hring⟩
  | cons c cs IH =>
    intro n ih hinv hring hf
    simp only [List.length_cons] at hf
    cases c with
    | insert k r =>
      obtain ⟨res, hi, hinv2, hne⟩ := workload_insert m n hev ih hinv fuel (by omega) k r
      obtain ⟨ih2, hrun, hinv3, hring3⟩ := IH (n + 1) res.2 hinv2
        (fun hc => by rw [hne] at hc; exact absurd hc (by simp)) (by omega)
      refine ⟨ih2, ?_, ?_, hring3⟩
      · unfold run_calls
        rw [hi]
        exact hrun
      · simp only [List.length_cons]
        have : n + (cs.length + 1) = n + 1 + cs.length := by omega
        rw [this]
        exact hinv3
    | delete k =>
      obtain ⟨res, hd, hinv2, hr2⟩ := workload_delete m n hev h4 ih hinv fuel (by omega) k
      obtain ⟨ih2, hrun, hinv3, hring3⟩ := IH n res.2 hinv2 (hr2 hring) (by omega)
      refine ⟨ih2, ?_, ?_, hring3⟩
      · unfold run_calls
        rw [hd]
        exact hrun
      · exact workload_inv_mono m _ _ ih2 (by simp only [List.length_cons]; omega) hinv3
    | lookup k =>
      obtain ⟨res, hg⟩ := workload_lookup m n ih hinv fuel (by omega) k
      obtain ⟨ih2, hrun, hinv3, hring3⟩ := IH n ih hinv hring (by omega)
      refine ⟨ih2, ?_, ?_, hring3⟩
      · unfold run_calls
        rw [hg]
        exact hrun
      · exact workload_inv_mono m _ _ ih2 (by simp only [List.length_cons]; omega) hinv3

theorem empty_index_ring (m : Nat) : leaf_ring (empty_index m).pages [] := by
  unfold leaf_ring linked empty_index
  simp [Function.update]

end RMDB

open RMDB RMDB.IxNodeHandle RMDB.IxIndexHandle

namespace RMDB

/-- On a node with ascending keys `upper_bound` of the key at a slot `i >= 1`
is `i + 1`. -/
theorem upper_bound_of_key (n : IxNodeHandle) (hs : keys_sorted n) (i : Int) (h1 : 1 ≤ i)
    (hi : i < n.get_size) : n.upper_bound (n.get_key i) = i + 1 := by
  obtain ⟨a, b, c, d⟩ := upper_bound_spec n hs (n.get_key i)
  have hb : n.upper_bound (n.get_key i) ≤ n.get_size := by omega
  by_contra hne
  rcases lt_or_gt_of_ne hne with hlt | hgt
  · have h2 := d i (by omega) hi
    omega
  · have h2 := c (i + 1) (by omega) hgt
    have h3 := get_key_lt_of_sorted n hs i (i + 1) (by omega) (by omega) (by omega)
    omega

/-- The slot chosen by the FIND branch and the slot chosen by the INSERT
branch of `internal_lookup` are the same unless the target is a key at a slot
`i >= 1`. -/
theorem lookup_positions_agree (n : IxNodeHandle) (hs : keys_sorted n) (target : Int)
    (hno : ∀ i, 1 ≤ i → i < n.get_size → n.get_key i ≠ target) :
    (if n.lower_bound target > 0 then n.lower_bound target - 1 else n.lower_bound target) =
      n.upper_bound target - 1 := by
  obtain ⟨a, b, c, d⟩ := lower_bound_spec n hs target
  obtain ⟨a2, b2, c2, d2⟩ := upper_bound_spec n hs target
  by_cases hpos : n.lower_bound target > 0
  · rw [if_pos hpos]
    have : n.upper_bound target = n.lower_bound target := by
      by_contra hne
      rcases lt_or_gt_of_ne hne with hlt | hgt
      · have h1 := d2 (n.upper_bound target) (le_refl _) (by omega)
        have h2 := c (n.upper_bound target) (by omega) hlt
        omega
      · have hsz : n.lower_bound target < n.get_size := by omega
        have h1 := c2 (n.lower_bound target) (by omega) hgt
        have h2 := d (n.lower_bound target) (le_refl _) hsz
        exact hno _ (by omega) hsz (by omega)
    omega
  · rw [if_neg hpos]
    have h0 : n.lower_bound target = 0 := by omega
    have : n.upper_bound target = 1 := by
      by_contra hne
      have hsz : 1 < n.get_size := by omega
      have h1 := c2 1 (le_refl _) (by omega)
      have h2 := d 1 (by omega) hsz
      exact hno 1 (le_refl _) hsz (by omega)
    omega

end RMDB

open RMDB RMDB.IxNodeHandle RMDB.IxIndexHandle

namespace RMDB

theorem list_decomp_at {α : Type} (l : List α) (i : Nat) (hi : i < l.length) :
    l = l.take i ++ l[i] :: l.drop (i + 1) := by
  rw [← List.drop_eq_getElem_cons, List.take_append_drop]

theorem list_decomp_two {α : Type} (l : List α) (i : Nat) (hi : i + 1 < l.length) :
    l = l.take i ++ l[i] :: l[i + 1] :: l.drop (i + 2) := by
  have h1 := list_decomp_at l i (by omega)
  have h2 : l.drop (i + 1) = l[i + 1] :: l.drop (i + 2) := by
    rw [← List.drop_eq_getElem_cons]
  rw [h2] at h1
  exact h1

theorem two_of_length {α : Type} (l : List α) (h : 1 < l.length) :
    ∃ a b t, l = a :: b :: t := by
  cases l with
  | nil => simp at h
  | cons a t =>
    cases t with
    | nil => simp at h
    | cons b t2 => exact ⟨a, b, t2, rfl⟩

/-- Two nodes whose pairs differ in one slot have the same key in every other
slot. -/
theorem get_key_replace_ne (a b : IxNodeHandle) (P1 P2 : List (Int × Rid)) (e e2 : Int × Rid)
    (ha : a.pairs = P1 ++ e :: P2) (hb : b.pairs = P1 ++ e2 :: P2) (i : Int)
    (hi : i ≠ (P1.length : Int)) : a.get_key i = b.get_key i := by
  unfold get_key
  by_cases hneg : i < 0
  · rw [if_pos hneg, if_pos hneg]
  · rw [if_neg hneg, if_neg hneg, ha, hb]
    have hn : i.toNat ≠ P1.length := by omega
    rcases Nat.lt_or_gt_of_ne hn with hlt | hgt
    · simp [List.getD_eq_getElem?_getD, List.getElem?_append_left hlt]
    · have h1 : P1.length ≤ i.toNat := by omega
      simp only [List.getD_eq_getElem?_getD, List.getElem?_append_right h1]
      obtain ⟨k, hk⟩ : ∃ k, i.toNat - P1.length = k + 1 := ⟨i.toNat - P1.length - 1, by omega⟩
      rw [hk]
      simp

theorem value_at_decomp (n : IxNodeHandle) (P1 P2 : List (Int × Rid)) (e : Int × Rid)
    (hp : n.pairs = P1 ++ e :: P2) : n.value_at P1.length = e.2.page_no := by
  unfold value_at
  rw [get_rid_decomp n P1 P2 e hp]

end RMDB

open RMDB RMDB.IxNodeHandle RMDB.IxIndexHandle

namespace RMDB

end RMDB

open RMDB RMDB.IxNodeHandle RMDB.IxIndexHandle

namespace RMDB

theorem flatMap_nodup_same {α β : Type} (f : α → List β) :
    ∀ (l : List α), (l.flatMap f).Nodup → ∀ x ∈ l, ∀ y ∈ l, ∀ a, a ∈ f x → a ∈ f y →
      f x = f y := by
  intro l
  induction l with
  | nil => intro _ x hx; simp at hx
  | cons z l ih =>
    intro hnd x hx y hy a hax hay
    rw [List.flatMap_cons, List.nodup_append] at hnd
    rcases List.mem_cons.mp hx with h1 | h1 <;> rcases List.mem_cons.mp hy with h2 | h2
    · rw [h1, h2]
    · subst h1
      exact absurd (List.mem_flatMap.mpr ⟨y, h2, hay⟩) (fun hm => hnd.2.2 hax hm)
    · subst h2
      exact absurd (List.mem_flatMap.mpr ⟨x, h1, hax⟩) (fun hm => hnd.2.2 hay hm)
    · exact ih hnd.2.1 x h1 y h2 a hax hay

theorem flatMap_nodup_part {α β : Type} (f : α → List β) :
    ∀ (l : List α), (l.flatMap f).Nodup → ∀ x ∈ l, (f x).Nodup := by
  intro l
  induction l with
  | nil => intro _ x hx; simp at hx
  | cons z l ih =>
    intro hnd x hx
    rw [List.flatMap_cons, List.nodup_append] at hnd
    rcases List.mem_cons.mp hx with h1 | h1
    · rw [h1]; exact hnd.1
    · exact ih hnd.2.1 x h1

/-- In a tree with distinct pages a page sits at one height only. -/
theorem sub_at_unique (pages : Int → IxNodeHandle) :
    ∀ (h : Nat) (t : Int), (subtree_nodes pages h t).Nodup →
      ∀ (q : Int) (h1 h2 : Nat), sub_at pages h1 q h t → sub_at pages h2 q h t → h1 = h2 := by
  intro h
  induction h with
  | zero =>
    intro t _ q h1 h2 a b
    rw [a.1, b.1]
  | succ h ih =>
    intro t hnd q h1 h2 a b
    have hnd0 := hnd
    simp only [subtree_nodes, List.nodup_cons] at hnd
    have htop : ∀ k e, e ∈ (pages t).pairs → sub_at pages k q h e.2.page_no → t ≠ q := by
      intro k e he hs heq
      apply hnd.1
      have hm := sub_at_mem pages k q h _ hs
      rw [← heq] at hm
      exact List.mem_flatMap.mpr ⟨e, he, hm⟩
    rcases a with ⟨a1, a2⟩ | ⟨e, he, a2⟩ <;> rcases b with ⟨b1, b2⟩ | ⟨e2, he2, b2⟩
    · rw [a1, b1]
    · exact absurd a2 (htop _ e2 he2 b2)
    · exact absurd b2 (htop _ e he a2)
    · have hsame := flatMap_nodup_same (fun e : Int × Rid => subtree_nodes pages h e.2.page_no)
        (pages t).pairs hnd.2 e he e2 he2 q (sub_at_mem pages h1 q h _ a2)
        (sub_at_mem pages h2 q h _ b2)
      have hpe : e.2.page_no = e2.2.page_no := by
        have h3 : (subtree_nodes pages h e.2.page_no).head? =
            (subtree_nodes pages h e2.2.page_no).head? := by
          simp only at hsame
          rw [hsame]
        cases h with
        | zero => simpa [subtree_nodes] using h3
        | succ k => simpa [subtree_nodes] using h3
      rw [← hpe] at b2
      exact ih _ (flatMap_nodup_part _ _ hnd.2 e he) q h1 h2 a2 b2

/-- The pages of the parent chain of a node sit above it in the tree. -/
theorem ancestors_above (pages0 : Int → IxNodeHandle) (h : Nat) (root : Int)
    (hw : wf_subtree pages0 h root IX_NO_PAGE) :
    ∀ (k hc : Nat) (c : Int), sub_at pages0 hc c h root →
      ∀ a ∈ ancestors pages0 k c, ∃ ha, hc < ha ∧ sub_at pages0 ha a h root := by
  intro k
  induction k with
  | zero => intro hc c _ a ha; simp [ancestors] at ha
  | succ k ihk =>
    intro hc c hs a ha
    unfold ancestors at ha
    by_cases hp : (pages0 c).parent = IX_NO_PAGE
    · rw [if_pos hp] at ha; simp at ha
    · rw [if_neg hp] at ha
      rcases sub_at_parent pages0 hc c h root _ hw hs with ⟨_, h2⟩ | ⟨hsp, _⟩
      · exfalso
        apply hp
        rw [h2]
        exact wf_root_parent pages0 h root _ hw
      · rcases List.mem_cons.mp ha with h1 | h1
        · exact ⟨hc + 1, by omega, by rw [h1]; exact hsp⟩
        · obtain ⟨ha2, hlt, hsa⟩ := ihk (hc + 1) _ hsp a h1
          exact ⟨ha2, by omega, hsa⟩

theorem ancestors_ne (pages0 : Int → IxNodeHandle) (h : Nat) (root : Int)
    (hw : wf_subtree pages0 h root IX_NO_PAGE)
    (hnd : (subtree_nodes pages0 h root).Nodup)
    (k hc : Nat) (c : Int) (hs : sub_at pages0 hc c h root)
    (q : Int) (hq : Nat) (hsq : sub_at pages0 hq q h root) (hle : hq ≤ hc) :
    q ∉ ancestors pages0 k c := by
  intro hm
  obtain ⟨ha, hlt, hsa⟩ := ancestors_above pages0 h root hw k hc c hs q hm
  have := sub_at_unique pages0 h root hnd q hq ha hsq hsa
  omega

theorem walked_congr (P P' P2 : Int → IxNodeHandle) :
    ∀ (as above : List Int) (c : Int), (∀ a ∈ as ++ above, P' a = P a) →
      walked P P2 c as above → walked P' P2 c as above := by
  intro as
  induction as with
  | nil =>
    intro above c hag hwk
    cases above with
    | nil => trivial
    | cons a rest =>
      simp only [walked] at hwk ⊢
      rw [hag a (by simp)]
      exact hwk
  | cons a as ih =>
    intro above c hag hwk
    simp only [walked] at hwk ⊢
    rw [hag a (by simp)]
    exact ⟨hwk.1, hwk.2.1, ih above a (fun x hx => hag x (by simp at hx ⊢; tauto)) hwk.2.2⟩

theorem set_key_parent (n : IxNodeHandle) (i k : Int) : (n.set_key i k).parent = n.parent := by
  unfold set_key
  split_ifs <;> rfl

/-- The effect of `maintain_parent` page by page: the first `n` pages of the
parent chain are rewritten at the rank of their child, no other page
changes, and the walk ends at the root or at the first entry that matches. -/
theorem maintain_parent_chain (pages0 : Int → IxNodeHandle) (h : Nat) (root : Int)
    (hw : wf_subtree pages0 h root IX_NO_PAGE)
    (hnd : (subtree_nodes pages0 h root).Nodup) :
    ∀ (fuel : Nat) (ih : IxIndexHandle) (hc : Nat) (curr : Int),
      (∀ q, (ih.pages q).parent = (pages0 q).parent) →
      sub_at pages0 hc curr h root →
      ∀ ih2, maintain_parent fuel ih curr = Except.ok ih2 →
        ∃ n, n ≤ (ancestors pages0 fuel curr).length ∧
          (∀ q, q ∉ (ancestors pages0 fuel curr).take n → ih2.pages q = ih.pages q) ∧
          walked ih.pages ih2.pages curr ((ancestors pages0 fuel curr).take n)
            ((ancestors pages0 fuel curr).drop n) := by
  intro fuel
  induction fuel with
  | zero =>
    intro ih hc curr hpar hs ih2 hm
    unfold maintain_parent at hm
    split_ifs at hm
    cases hm
    exact ⟨0, by simp, fun _ _ => rfl, by simp [ancestors, walked]⟩
  | succ fuel ihf =>
    intro ih hc curr hpar hs ih2 hm
    unfold maintain_parent at hm
    simp only [fetch_node] at hm
    by_cases hp : (ih.pages curr).parent = IX_NO_PAGE
    · rw [if_neg (by simpa using hp)] at hm
      cases hm
      have hp0 : (pages0 curr).parent = IX_NO_PAGE := by rw [← hpar]; exact hp
      exact ⟨0, by simp, fun _ _ => rfl, by simp [ancestors, hp0, walked]⟩
    · rw [if_pos hp] at hm
      have hp0 : (pages0 curr).parent ≠ IX_NO_PAGE := by rw [← hpar]; exact hp
      have hanc : ancestors pages0 (fuel + 1) curr =
          (pages0 curr).parent :: ancestors pages0 fuel (pages0 curr).parent := by
        rw [ancestors, if_neg hp0]
      have hpe : (ih.pages curr).parent = (pages0 curr).parent := hpar curr
      rw [hpe] at hm
      set par := (pages0 curr).parent with hpar_def
      by_cases hkey : (ih.pages par).get_key ((ih.pages par).find_child curr) =
          (ih.pages curr).get_key 0
      · rw [if_pos hkey] at hm
        cases hm
        refine ⟨0, by simp, fun _ _ => rfl, ?_⟩
        rw [hanc]
        simp only [List.take_zero, List.drop_zero, walked]
        exact hkey
      · rw [if_neg hkey] at hm
        have hsp : sub_at pages0 (hc + 1) par h root := by
          rcases sub_at_parent pages0 hc curr h root _ hw hs with ⟨_, h2⟩ | ⟨hsp, _⟩
          · exfalso
            apply hp0
            rw [hpar_def, h2]
            exact wf_root_parent pages0 h root _ hw
          · exact hsp
        set ih1 := ih.modify_node par (fun p => p.set_key ((ih.pages par).find_child curr)
          ((ih.pages curr).get_key 0)) with hih1
        have hpg : ∀ q, ih1.pages q = if q = par then
            (ih.pages par).set_key ((ih.pages par).find_child curr) ((ih.pages curr).get_key 0)
            else ih.pages q := by
          intro q
          rw [hih1, modify_node_apply]
        have hpar1 : ∀ q, (ih1.pages q).parent = (pages0 q).parent := by
          intro q
          rw [hpg q]
          split_ifs with hq
          · rw [set_key_parent, hq]; exact hpar par
          · exact hpar q
        obtain ⟨n, hn, hframe, hwalk⟩ := ihf ih1 (hc + 1) par hpar1 hsp ih2 hm
        have hparno : par ∉ ancestors pages0 fuel par :=
          ancestors_ne pages0 h root hw hnd fuel (hc + 1) par hsp par (hc + 1) hsp le_rfl
        have hcurrno : curr ∉ ancestors pages0 fuel par :=
          ancestors_ne pages0 h root hw hnd fuel (hc + 1) par hsp curr hc hs (by omega)
        have hcp : curr ≠ par := by
          intro heq
          have := sub_at_unique pages0 h root hnd curr hc (hc + 1) hs (by rw [heq]; exact hsp)
          omega
        have h2par : ih2.pages par = ih1.pages par :=
          hframe par (fun hm2 => hparno (List.mem_of_mem_take hm2))
        have h2curr : ih2.pages curr = ih.pages curr := by
          rw [hframe curr (fun hm2 => hcurrno (List.mem_of_mem_take hm2)), hpg, if_neg hcp]
        refine ⟨n + 1, by rw [hanc]; simp; omega, ?_, ?_⟩
        · intro q hq
          rw [hanc, List.take_succ_cons, List.mem_cons, not_or] at hq
          rw [hframe q hq.2, hpg, if_neg hq.1]
        · rw [hanc, List.take_succ_cons, List.drop_succ_cons]
          simp only [walked]
          refine ⟨?_, ?_, ?_⟩
          · rw [h2par, hpg, if_pos rfl, h2curr]
          · rw [h2curr]; exact hkey
          · apply walked_congr ih1.pages ih.pages ih2.pages _ _ par ?_ hwalk
            intro a ha
            rw [List.take_append_drop] at ha
            have hne : a ≠ par := by
              intro heq
              rw [heq] at ha
              exact hparno ha
            rw [hpg, if_neg hne]

/-- In a tree whose separators hold, the entry of a parent at the rank of a
child is the first key of the child. -/
theorem parent_entry_key (pages0 P : Int → IxNodeHandle) (h : Nat) (root : Int)
    (hw : wf_subtree pages0 h root IX_NO_PAGE)
    (hnd : (subtree_nodes pages0 h root).Nodup)
    (hk : key_variant pages0 P) (ex : Option Int)
    (hsep : seps_hold P (subtree_nodes pages0 h root) ex)
    (hc : Nat) (c : Int) (hs : sub_at pages0 hc c h root)
    (hp : (pages0 c).parent ≠ IX_NO_PAGE) (hex : some c ≠ ex) :
    (P (pages0 c).parent).get_key ((P (pages0 c).parent).find_child c) = (P c).get_key 0 := by
  rcases sub_at_parent pages0 hc c h root _ hw hs with ⟨_, h2⟩ | ⟨hsp, e0, he0, he0c⟩
  · exfalso
    apply hp
    rw [h2]
    exact wf_root_parent pages0 h root _ hw
  · set par := (pages0 c).parent with hpar
    have hwp := sub_at_wf pages0 (hc + 1) par h root _ hw hsp
    have hlp0 : (pages0 par).is_leaf = false := hwp.1
    have hndp := sub_at_nodup pages0 (hc + 1) par h root hsp hnd
    have hparmem := sub_at_mem pages0 (hc + 1) par h root hsp
    obtain ⟨e, he, hee⟩ := kv_entry_back pages0 P hk par hlp0 e0 he0
    have hec : e.2.page_no = c := by rw [hee]; exact he0c
    have hcn := kv_children_nodup pages0 P hk hc par hlp0 hndp
    obtain ⟨P1, P2, hsplit, hP1, hP2⟩ := split_at_child (P par) hcn e he
    rw [hec] at hP1 hP2
    have hfc := find_child_decomp (P par) P1 P2 e c hsplit hec hP1
    have hgk := get_key_decomp (P par) P1 P2 e hsplit
    have hcne : (P c).pairs ≠ [] :=
      (hk c).2.2.1 (wf_ne_nil pages0 hc c _ (sub_at_wf pages0 hc c h root _ hw hs))
    have hhead := get_key_head (P c) hcne
    have hlp : (P par).is_leaf = false := by rw [(hk par).1]; exact hlp0
    have := hsep par hparmem hlp e he (by rw [hec]; exact hex)
    rw [hec, hhead] at this
    rw [hfc, hgk]
    exact (Option.some.inj this).symm

end RMDB

open RMDB RMDB.IxNodeHandle RMDB.IxIndexHandle

namespace RMDB

/-- With every separator in place `maintain_parent` writes nothing. -/
theorem maintain_parent_noop (pages0 : Int → IxNodeHandle) (h : Nat) (root : Int)
    (hw : wf_subtree pages0 h root IX_NO_PAGE)
    (hnd : (subtree_nodes pages0 h root).Nodup)
    (ih : IxIndexHandle) (hk : key_variant pages0 ih.pages)
    (hsep : seps_hold ih.pages (subtree_nodes pages0 h root) none)
    (hc : Nat) (c : Int) (hs : sub_at pages0 hc c h root)
    (fuel : Nat) (hf : h ≤ fuel + hc) : maintain_parent fuel ih c = Except.ok ih := by
  have hpe : (ih.pages c).parent = (pages0 c).parent := (hk c).2.1
  cases fuel with
  | zero =>
    have hle := sub_at_le pages0 hc c h root hs
    have hhc : hc = h := by omega
    subst hhc
    have hcr := sub_at_top pages0 hc c root hs
    subst hcr
    have hp : (ih.pages c).parent = IX_NO_PAGE := by
      rw [hpe]; exact wf_root_parent pages0 hc c _ hw
    simp [maintain_parent, fetch_node, hp]
  | succ fuel =>
    by_cases hp : (ih.pages c).parent = IX_NO_PAGE
    · simp [maintain_parent, fetch_node, hp]
    · have hp0 : (pages0 c).parent ≠ IX_NO_PAGE := by rw [← hpe]; exact hp
      have hkey := parent_entry_key pages0 ih.pages h root hw hnd hk none hsep hc c hs hp0
        (by simp)
      unfold maintain_parent
      simp only [fetch_node]
      rw [if_pos hp, hpe, if_pos hkey]

theorem insert_size_le (n : IxNodeHandle) (key : Int) (value : Rid) (m : IxNodeHandle)
    (sz : Int) (hi : n.insert key value = Except.ok (m, sz)) :
    m.get_size ≤ n.get_size + 1 ∧ sz = m.get_size := by
  unfold IxNodeHandle.insert at hi
  simp only at hi
  split_ifs at hi with h1
  · unfold insert_pairs at hi
    split_ifs at hi with h2
    · simp only [Except.ok.injEq, Prod.mk.injEq] at hi
      obtain ⟨hm, hsz⟩ := hi
      subst hm
      refine ⟨?_, hsz.symm⟩
      simp only [get_size, List.length_append, List.length_take, List.length_drop,
        List.length_cons, List.length_nil]
      omega
  · simp only [Except.ok.injEq, Prod.mk.injEq] at hi
    obtain ⟨hm, hsz⟩ := hi
    subst hm
    exact ⟨by omega, hsz.symm⟩

theorem remove_size_ge (n : IxNodeHandle) (key : Int) :
    n.get_size - 1 ≤ (n.remove key).1.get_size ∧ (n.remove key).1.get_size ≤ n.get_size ∧
      (n.remove key).1.parent = n.parent := by
  unfold remove
  by_cases h1 : n.lower_bound key < n.get_size ∧
      ix_compare (n.get_key (n.lower_bound key)) key = 0
  · simp only [if_pos h1]
    have h0 := lower_bound_nonneg n key
    have h2 := h1.1
    simp only [erase_pair, get_size, List.length_append, List.length_take, List.length_drop]
      at h2 ⊢
    refine ⟨by omega, by omega, trivial⟩
  · simp only [if_neg h1]
    exact ⟨by omega, le_rfl, trivial⟩

/-- The INSERT descent for a key above the first key of the first leaf ends in
a leaf whose first key the insert leaves in place, so that `maintain_parent`
writes nothing. -/
theorem insert_descent_keeps_first (ih : IxIndexHandle) (h fuel : Nat) (key : Int)
    (hv : Valid ih h) (hf : h ≤ fuel)
    (hgt : (ih.fetch_node ih.file_hdr.first_leaf).get_key 0 < key) :
    ∃ l flag ih1, ih.find_leaf_page fuel key Operation.INSERT false = Except.ok (l, flag, ih1) ∧
      ∀ value, ∃ m sz, (ih1.fetch_node l).insert key value = Except.ok (m, sz) ∧
        m.get_key 0 = (ih.fetch_node l).get_key 0 ∧
        maintain_parent fuel (ih1.modify_node l (fun _ => m)) l =
          Except.ok (ih1.modify_node l (fun _ => m)) := by
  obtain ⟨hroot, hw, hsorted, hnd, hr, hring, hfirst, hlast⟩ := hv
  have hv : Valid ih h := ⟨hroot, hw, hsorted, hnd, hr, hring, hfirst, hlast⟩
  obtain ⟨l, A, B, hl, hsplit, hA, hB, hAl⟩ :=
    descent_strong ih.pages key Operation.INSERT false (fun x => x ≤ key) (fun x => x < key)
      (fun x => key < x) (fun x y hxy hy => lt_of_lt_of_le hxy hy)
      (fun x y hxy hx => lt_of_lt_of_le hx hxy)
      (by
        intro n hs hne
        simpa using route_upper n key Operation.INSERT (Or.inl rfl) hs hne)
      h _ _ hw hsorted fuel hf
  have hsplit2 : tree_leaves ih h = A ++ l :: B := hsplit
  obtain ⟨flag, ih1, hfl, hst⟩ := find_leaf_page_write fuel ih key Operation.INSERT false l hl
  obtain ⟨hpages, hhdr, hnext, hdel⟩ := hst
  have hls := leaf_sorted_of_split ih h hv A B l hsplit2
  -- the first pair of the leaf lies at or below the key
  have hhead : ∃ e es, (ih.pages l).pairs = e :: es ∧ e.1 ≤ key := by
    rcases hAl with hA0 | ⟨e, es, hes, hle⟩
    · obtain ⟨B0, e, es, hleaves, hfp, hk0, _, _⟩ := valid_first ih h hv
      rw [hsplit2, hA0] at hleaves
      have hlf : l = ih.file_hdr.first_leaf := (List.cons.inj hleaves).1
      rw [hk0] at hgt
      exact ⟨e, es, by rw [hlf]; exact hfp, le_of_lt hgt⟩
    · exact ⟨e, es, hes, hle⟩
  obtain ⟨e, es, hes, hle⟩ := hhead
  have hlmem : l ∈ subtree_leaves ih.pages h ih.file_hdr.root_page := by
    have : l ∈ tree_leaves ih h := by rw [hsplit2]; simp
    exact this
  have hlleaf := (wf_leaf_mem ih.pages h _ _ hw l hlmem).1
  have hsub := leaf_sub_at ih.pages h _ l hlmem
  refine ⟨l, flag, ih1, hfl, ?_⟩
  intro value
  have hfetch : ih1.fetch_node l = ih.pages l := by
    unfold fetch_node
    rw [hpages]
  -- the node after the insert keeps its first pair
  have hins : ∃ m sz, (ih.pages l).insert key value = Except.ok (m, sz) ∧
      ∃ ms, m = { ih.pages l with pairs := e :: ms } := by
    by_cases hin : ∃ x ∈ (ih.pages l).pairs, x.1 = key
    · refine ⟨_, _, insert_dup (ih.pages l) hls key value hin, es, ?_⟩
      rw [← hes]
    · have hnot : ∀ x ∈ (ih.pages l).pairs, x.1 ≠ key := fun x hx hxk => hin ⟨x, hx, hxk⟩
      obtain ⟨pos, hpos, hi, hlt, hgt2⟩ := leaf_insert_spec (ih.pages l) hls key value hnot
      have hek : e.1 < key := lt_of_le_of_ne hle (hnot e (by rw [hes]; simp))
      cases pos with
      | zero =>
        exfalso
        have := hgt2 e (by rw [hes]; simp)
        omega
      | succ p =>
        refine ⟨_, _, hi, es.take p ++ (key, value) :: (ih.pages l).pairs.drop (p + 1), ?_⟩
        rw [hes]
        simp
  obtain ⟨m, sz, hi, ms, hm⟩ := hins
  refine ⟨m, sz, by rw [hfetch]; exact hi, ?_, ?_⟩
  · rw [(get_key_zero m e ms (by rw [hm])).1]
    unfold fetch_node
    rw [(get_key_zero (ih.pages l) e es hes).1]
  · set ih2 := ih1.modify_node l (fun _ => m) with hih2
    have hpg : ∀ q, ih2.pages q = if q = l then m else ih.pages q := by
      intro q
      rw [hih2, modify_node_apply, hpages]
    have hk : key_variant ih.pages ih2.pages := by
      intro q
      rw [hpg q]
      split_ifs with hq
      · subst hq
        rw [hm]
        refine ⟨rfl, rfl, fun _ => by simp, fun hl2 => ?_⟩
        rw [hlleaf] at hl2
        cases hl2
      · exact ⟨rfl, rfl, id, fun _ => rfl⟩
    have hsep : seps_hold ih2.pages (subtree_nodes ih.pages h ih.file_hdr.root_page) none := by
      intro q hq hlq x hx _
      have hql : q ≠ l := by
        intro heq
        rw [hpg q, if_pos heq, hm] at hlq
        simp only at hlq
        rw [hlleaf] at hlq
        cases hlq
      rw [hpg q, if_neg hql] at hx hlq
      have := wf_seps ih.pages h _ _ hw q hq hlq x hx (by simp)
      rw [hpg x.2.page_no]
      split_ifs with hxl
      · rw [hxl, hes] at this
        rw [hm]
        exact this
      · exact this
    exact maintain_parent_noop ih.pages h _ hw hnd ih2 hk hsep 0 l hsub fuel (by omega)

end RMDB

open RMDB RMDB.IxNodeHandle RMDB.IxIndexHandle

namespace RMDB

theorem descent_path_head (pages : Int → IxNodeHandle) (key : Int) (op : Operation)
    (ff : Bool) (fuel : Nat) (cur : Int) :
    ∃ t, descent_path pages key op ff fuel cur = cur :: t := by
  cases fuel with
  | zero => exact ⟨[], rfl⟩
  | succ f =>
    by_cases h : (pages cur).is_leaf = true
    · exact ⟨[], by simp [descent_path, h]⟩
    · exact ⟨_, by rw [descent_path, if_neg h]⟩

/-- The leaf reached by the loop of `find_leaf_page` is the last node of the
descent path, when that node is a leaf. -/
theorem leaf_reached_path (pages : Int → IxNodeHandle) (key : Int) (op : Operation)
    (ff : Bool) :
    ∀ (fuel : Nat) (cur : Int),
      ∃ l, (descent_path pages key op ff fuel cur).getLast? = some l ∧
        leaf_reached pages key op ff fuel cur =
          if (pages l).is_leaf then some l else none := by
  intro fuel
  induction fuel with
  | zero =>
    intro cur
    exact ⟨cur, rfl, rfl⟩
  | succ f ihf =>
    intro cur
    by_cases h1 : (pages cur).is_leaf = true
    · refine ⟨cur, ?_, ?_⟩
      · simp [descent_path, h1]
      · simp [leaf_reached, h1]
    · obtain ⟨l, hl, hr⟩ := ihf (if ff then (pages cur).value_at 0
        else (pages cur).internal_lookup key op)
      obtain ⟨t, ht⟩ := descent_path_head pages key op ff f (if ff then (pages cur).value_at 0
        else (pages cur).internal_lookup key op)
      refine ⟨l, ?_, ?_⟩
      · rw [descent_path, if_neg h1, ht, List.getLast?_cons_cons, ← ht]
        exact hl
      · rw [leaf_reached, if_neg h1]
        exact hr

/-- The loop of `find_leaf_page` on a write descent: the leaf is the last node
of the descent path, and the latch bag and the flag follow the crab rule. -/
theorem find_leaf_loop_bag (key : Int) (op : Operation) (ff : Bool)
    (hop : op = Operation.INSERT ∨ op = Operation.DELETE) :
    ∀ (fuel : Nat) (ih : IxIndexHandle) (cur : Int) (flag : Bool) (l : Int),
      (descent_path ih.pages key op ff fuel cur).getLast? = some l →
      (ih.pages l).is_leaf = true →
      find_leaf_loop key op ff fuel ih cur flag =
        Except.ok (l,
          (latch_bag_from (fun c => (ih.pages c).is_safe ih.file_hdr op) ff ih.latch_page_set
            flag (descent_path ih.pages key op ff fuel cur).tail).2,
          { ih with latch_page_set :=
            (latch_bag_from (fun c => (ih.pages c).is_safe ih.file_hdr op) ff ih.latch_page_set
              flag (descent_path ih.pages key op ff fuel cur).tail).1 }) := by
  intro fuel
  induction fuel with
  | zero =>
    intro ih cur flag l hl hleaf
    simp only [descent_path, List.getLast?_singleton, Option.some.injEq] at hl
    subst hl
    simp only [find_leaf_loop, fetch_node, hleaf, if_true, descent_path, List.tail_cons,
      latch_bag_from, suffix_from_last, List.append_nil]
    cases ff <;> rfl
  | succ f ihf =>
    intro ih cur flag l hl hleaf
    by_cases h1 : (ih.pages cur).is_leaf = true
    · simp only [descent_path, h1, if_true, List.getLast?_singleton, Option.some.injEq] at hl
      subst hl
      simp only [find_leaf_loop, fetch_node, h1, if_true, descent_path, List.tail_cons,
        latch_bag_from, suffix_from_last, List.append_nil]
      cases ff <;> rfl
    · set child := (if ff then (ih.pages cur).value_at 0
        else (ih.pages cur).internal_lookup key op) with hchild
      obtain ⟨t, ht⟩ := descent_path_head ih.pages key op ff f child
      have hpath : descent_path ih.pages key op ff (f + 1) cur =
          cur :: descent_path ih.pages key op ff f child := by
        rw [descent_path, if_neg h1]
      have hl2 : (descent_path ih.pages key op ff f child).getLast? = some l := by
        rw [hpath, ht, List.getLast?_cons_cons, ← ht] at hl
        exact hl
      rw [hpath, List.tail_cons]
      unfold find_leaf_loop
      simp only [fetch_node]
      rw [if_neg h1, if_pos hop, ← hchild]
      by_cases hs : ff = false ∧ (ih.pages child).is_safe ih.file_hdr op = true
      · rw [if_pos hs]
        have := ihf (ih.unlock_page_set.append_index_latch_page_set child) child false l hl2 hleaf
        rw [this]
        obtain ⟨hff, hsafe⟩ := hs
        subst hff
        simp only [unlock_page_set, append_index_latch_page_set, List.nil_append, ht,
          List.tail_cons, latch_bag_from, suffix_from_last, hsafe, if_true, Bool.false_eq_true,
          if_false]
        cases suffix_from_last (fun c => (ih.pages c).is_safe ih.file_hdr op) t <;> rfl
      · rw [if_neg hs]
        have := ihf (ih.append_index_latch_page_set child) child flag l hl2 hleaf
        rw [this]
        rcases Bool.eq_false_or_eq_true ff with hff | hff
        · subst hff
          simp only [append_index_latch_page_set, ht, List.tail_cons, latch_bag_from,
            if_true, List.append_assoc, List.singleton_append]
        · subst hff
          have hns : (ih.pages child).is_safe ih.file_hdr op = false := by
            cases hb : (ih.pages child).is_safe ih.file_hdr op with
            | true => exact absurd ⟨rfl, hb⟩ hs
            | false => rfl
          simp only [append_index_latch_page_set, ht, List.tail_cons, latch_bag_from,
            suffix_from_last, hns, Bool.false_eq_true, if_false, List.append_assoc,
            List.singleton_append]
          cases suffix_from_last (fun c => (ih.pages c).is_safe ih.file_hdr op) t <;> rfl

end RMDB

open RMDB

namespace RMDB

/-- The first loop of `check_column` by the number of columns with the name
looked for, when every column has a table name. -/
theorem infer_tab_name_spec (col_name : String) :
    ∀ (cols : List ColMeta) (acc : String), (∀ c ∈ cols, c.tab_name ≠ "") →
      (cols.filter (fun c => decide (c.name = col_name)) = [] →
        infer_tab_name col_name cols acc = Except.ok acc) ∧
      (acc ≠ "" → cols.filter (fun c => decide (c.name = col_name)) ≠ [] →
        infer_tab_name col_name cols acc =
          Except.error (AnalyzeError.AmbiguousColumnError col_name)) ∧
      (acc = "" → ∀ c, cols.filter (fun c => decide (c.name = col_name)) = [c] →
        infer_tab_name col_name cols acc = Except.ok c.tab_name) ∧
      (acc = "" → 2 ≤ (cols.filter (fun c => decide (c.name = col_name))).length →
        infer_tab_name col_name cols acc =
          Except.error (AnalyzeError.AmbiguousColumnError col_name)) := by
  intro cols
  induction cols with
  | nil =>
    intro acc _
    refine ⟨fun _ => rfl, fun _ h => absurd rfl h, fun _ c h => by simp at h,
      fun _ h => by simp at h⟩
  | cons col rest ih =>
    intro acc hne
    have hne2 : ∀ c ∈ rest, c.tab_name ≠ "" := fun c hc => hne c (List.mem_cons_of_mem _ hc)
    have hcol : col.tab_name ≠ "" := hne col (List.mem_cons_self _ _)
    by_cases hn : col.name = col_name
    · have hf : (col :: rest).filter (fun c => decide (c.name = col_name)) =
          col :: rest.filter (fun c => decide (c.name = col_name)) :=
        List.filter_cons_of_pos (by simpa using hn)
      rw [hf]
      obtain ⟨i1, i2, _, _⟩ := ih col.tab_name hne2
      refine ⟨fun h => by simp at h, ?_, ?_, ?_⟩
      · intro hacc _
        rw [infer_tab_name, if_pos hn, if_pos hacc]
      · intro hacc c hc
        rw [infer_tab_name, if_pos hn, if_neg (by simpa using hacc)]
        simp only [List.cons.injEq] at hc
        rw [← hc.1]
        exact i1 hc.2
      · intro hacc hlen
        rw [infer_tab_name, if_pos hn, if_neg (by simpa using hacc)]
        apply i2 hcol
        intro h0
        rw [h0] at hlen
        simp at hlen
    · have hf : (col :: rest).filter (fun c => decide (c.name = col_name)) =
          rest.filter (fun c => decide (c.name = col_name)) :=
        List.filter_cons_of_neg (by simpa using hn)
      rw [hf]
      obtain ⟨i1, i2, i3, i4⟩ := ih acc hne2
      refine ⟨?_, ?_, ?_, ?_⟩
      · intro h; rw [infer_tab_name, if_neg hn]; exact i1 h
      · intro h1 h2; rw [infer_tab_name, if_neg hn]; exact i2 h1 h2
      · intro h1 c h2; rw [infer_tab_name, if_neg hn]; exact i3 h1 c h2
      · intro h1 h2; rw [infer_tab_name, if_neg hn]; exact i4 h1 h2

/-- The second loop of `check_column`: `is_find` stays true exactly when no
column matches the target. -/
theorem is_find_loop_spec (target : TabCol) :
    ∀ (cols : List ColMeta),
      is_find_loop target cols true = true ↔
        ¬ ∃ c ∈ cols, c.tab_name = target.tab_name ∧ c.name = target.col_name := by
  intro cols
  induction cols with
  | nil => simp [is_find_loop]
  | cons col rest ih =>
    by_cases hc : col.tab_name = target.tab_name ∧ col.name = target.col_name
    · rw [is_find_loop, if_pos hc]
      simp only [Bool.false_eq_true, false_iff, not_not]
      exact ⟨col, List.mem_cons_self _ _, hc⟩
    · rw [is_find_loop, if_neg hc, ih]
      constructor
      · rintro h ⟨c, hcm, hcc⟩
        rcases List.mem_cons.mp hcm with h1 | h1
        · exact hc (by rw [← h1]; exact hcc)
        · exact h ⟨c, h1, hcc⟩
      · rintro h ⟨c, hcm, hcc⟩
        exact h ⟨c, List.mem_cons_of_mem _ hcm, hcc⟩

end RMDB

open RMDB

namespace RMDB

theorem set_bits_mem (bits : Int → Bool) :
    ∀ (k : Nat) (i j : Int), j ∈ set_bits bits k i ↔ (i ≤ j ∧ j < i + k ∧ bits j = true) := by
  intro k
  induction k with
  | zero =>
    intro i j
    simp only [set_bits, List.not_mem_nil, false_iff]
    rintro ⟨h1, h2, _⟩
    simp at h2
    omega
  | succ k ih =>
    intro i j
    unfold set_bits
    by_cases hb : bits i = true
    · rw [if_pos hb, List.mem_cons, ih]
      constructor
      · rintro (h | ⟨h1, h2, h3⟩)
        · subst h
          exact ⟨le_rfl, by push_cast; omega, hb⟩
        · exact ⟨by omega, by push_cast; omega, h3⟩
      · rintro ⟨h1, h2, h3⟩
        by_cases hji : j = i
        · exact Or.inl hji
        · exact Or.inr ⟨by omega, by push_cast at h2; omega, h3⟩
    · rw [if_neg hb, ih]
      constructor
      · rintro ⟨h1, h2, h3⟩
        exact ⟨by omega, by push_cast; omega, h3⟩
      · rintro ⟨h1, h2, h3⟩
        have hji : j ≠ i := by
          intro h
          rw [h] at h3
          exact hb h3
        exact ⟨by omega, by push_cast at h2; omega, h3⟩

theorem set_bits_sorted (bits : Int → Bool) :
    ∀ (k : Nat) (i : Int), (set_bits bits k i).Pairwise (· < ·) := by
  intro k
  induction k with
  | zero => intro i; simp [set_bits]
  | succ k ih =>
    intro i
    unfold set_bits
    split_ifs
    · rw [List.pairwise_cons]
      refine ⟨?_, ih (i + 1)⟩
      intro j hj
      have := ((set_bits_mem bits k (i + 1) j).mp hj).1
      omega
    · exact ih (i + 1)

/-- The search of `next_bit` returns the first set bit of its range, `max_n`
when the range has none. -/
theorem next_bit_loop_eq (bits : Int → Bool) (max_n : Int) :
    ∀ (k : Nat) (i : Int),
      next_bit_loop bits max_n k i = ((set_bits bits k i).head?).getD max_n := by
  intro k
  induction k with
  | zero => intro i; rfl
  | succ k ih =>
    intro i
    unfold next_bit_loop set_bits
    split_ifs
    · rfl
    · exact ih (i + 1)

/-- After the first set bit of a range the set bits are those of the rest of
the range. -/
theorem set_bits_tail (bits : Int → Bool) :
    ∀ (k : Nat) (i j : Int) (rest : List Int), set_bits bits k i = j :: rest →
      rest = set_bits bits (k - 1 - (j - i).toNat) (j + 1) := by
  intro k
  induction k with
  | zero => intro i j rest h; simp [set_bits] at h
  | succ k ih =>
    intro i j rest h
    unfold set_bits at h
    by_cases hb : bits i = true
    · rw [if_pos hb] at h
      obtain ⟨h1, h2⟩ := List.cons.inj h
      subst h1
      rw [← h2]
      simp
    · rw [if_neg hb] at h
      have hm : j ∈ set_bits bits k (i + 1) := by rw [h]; simp
      obtain ⟨h1, h2, _⟩ := (set_bits_mem bits k (i + 1) j).mp hm
      rw [ih (i + 1) j rest h]
      congr 1
      omega

theorem set_bits_after (bits : Int → Bool) (n s j : Int) (rest : List Int)
    (h : set_bits bits (n - (s + 1)).toNat (s + 1) = j :: rest) :
    s < j ∧ j < n ∧ bits j = true ∧ rest = set_bits bits (n - (j + 1)).toNat (j + 1) := by
  have hm : j ∈ set_bits bits (n - (s + 1)).toNat (s + 1) := by rw [h]; simp
  obtain ⟨h1, h2, h3⟩ := (set_bits_mem bits _ _ j).mp hm
  refine ⟨by omega, by omega, h3, ?_⟩
  rw [set_bits_tail bits _ _ j rest h]
  congr 1
  omega

/-- The members of the list of occupied slots. -/
theorem occupied_after_mem (file : RmFileHandle) :
    ∀ (k : Nat) (p s : Int) (r : Rid), -1 ≤ s →
      (r ∈ occupied_after file k p s ↔
        (p ≤ r.page_no ∧ r.page_no < p + k ∧ 0 ≤ r.slot_no ∧
          r.slot_no < file.file_hdr.num_records_per_page ∧
          file.bitmap r.page_no r.slot_no = true ∧ (r.page_no = p → s < r.slot_no))) := by
  intro k
  induction k with
  | zero =>
    intro p s r _
    simp only [occupied_after, List.not_mem_nil, false_iff]
    rintro ⟨h1, h2, _⟩
    simp at h2
    omega
  | succ k ih =>
    intro p s r hs
    unfold occupied_after
    rw [List.mem_append, List.mem_map, ih (p + 1) (-1) r le_rfl]
    constructor
    · rintro (⟨i, hi, hr⟩ | ⟨h1, h2, h3, h4, h5, _⟩)
      · obtain ⟨a1, a2, a3⟩ := (set_bits_mem _ _ _ i).mp hi
        subst hr
        exact ⟨le_rfl, by push_cast; omega, by simp only; omega, by simp only; omega, a3,
          fun _ => by simp only; omega⟩
      · exact ⟨by omega, by push_cast; omega, h3, h4, h5, fun h => by omega⟩
    · rintro ⟨h1, h2, h3, h4, h5, h6⟩
      by_cases hp : r.page_no = p
      · left
        refine ⟨r.slot_no, (set_bits_mem _ _ _ _).mpr ⟨by have := h6 hp; omega, by omega, ?_⟩, ?_⟩
        · rw [← hp]; exact h5
        · rw [← hp]
      · right
        exact ⟨by omega, by push_cast at h2; omega, h3, h4, h5, fun _ => by omega⟩

/-- The list of occupied slots ascends in (page_no, slot_no) order. -/
theorem occupied_after_sorted (file : RmFileHandle) :
    ∀ (k : Nat) (p s : Int), (occupied_after file k p s).Pairwise rid_lt := by
  intro k
  induction k with
  | zero => intro p s; simp [occupied_after]
  | succ k ih =>
    intro p s
    unfold occupied_after
    rw [List.pairwise_append]
    refine ⟨?_, ih (p + 1) (-1), ?_⟩
    · rw [List.pairwise_map]
      exact (set_bits_sorted _ _ _).imp (fun h => Or.inr ⟨rfl, h⟩)
    · intro a ha b hb
      obtain ⟨i, _, hi⟩ := List.mem_map.mp ha
      have := ((occupied_after_mem file k (p + 1) (-1) b le_rfl).mp hb).1
      subst hi
      exact Or.inl (by simp only; omega)

/-- The step of the scan: `next` from slot `s` of page `p` moves the cursor to
the first occupied slot after it, or to the end of the file. -/
theorem next_spec (file : RmFileHandle) :
    ∀ (fuel : Nat) (p s : Int), (file.file_hdr.num_pages - p).toNat ≤ fuel →
      RmScan.next file fuel ⟨p, s⟩ =
        some (((occupied_after file (file.file_hdr.num_pages - p).toNat p s).head?).getD
          ⟨max p file.file_hdr.num_pages, if p < file.file_hdr.num_pages then -1 else s⟩) := by
  intro fuel
  induction fuel with
  | zero =>
    intro p s hf
    have hp : ¬ p < file.file_hdr.num_pages := by omega
    have hk : (file.file_hdr.num_pages - p).toNat = 0 := by omega
    simp only [RmScan.next, if_neg hp, hk, occupied_after, List.head?_nil, Option.getD_none]
    congr 2
    omega
  | succ fuel ih =>
    intro p s hf
    by_cases hp : p < file.file_hdr.num_pages
    · obtain ⟨k, hk⟩ : ∃ k, (file.file_hdr.num_pages - p).toNat = k + 1 :=
        ⟨(file.file_hdr.num_pages - p).toNat - 1, by omega⟩
      have hk2 : (file.file_hdr.num_pages - (p + 1)).toNat = k := by omega
      unfold RmScan.next
      simp only [if_pos hp, next_bit, next_bit_loop_eq, hk, occupied_after]
      cases hsb : set_bits (file.bitmap p) (file.file_hdr.num_records_per_page - (s + 1)).toNat
          (s + 1) with
      | nil =>
        simp only [List.head?_nil, Option.getD_none, lt_irrefl, if_false, List.map_nil,
          List.nil_append]
        rw [ih (p + 1) (-1) (by omega), hk2]
        by_cases hp2 : p + 1 < file.file_hdr.num_pages
        · simp only [if_pos hp2]
          congr 3
          omega
        · have hk0 : k = 0 := by omega
          subst hk0
          simp only [occupied_after, List.head?_nil, Option.getD_none, if_neg hp2]
          congr 2
          omega
      | cons j rest =>
        obtain ⟨_, h2, _, _⟩ := set_bits_after _ _ _ _ _ hsb
        simp only [List.head?_cons, Option.getD_some, if_pos h2, List.map_cons,
          List.cons_append]
    · have hk : (file.file_hdr.num_pages - p).toNat = 0 := by omega
      simp only [RmScan.next, if_neg hp, hk, occupied_after, List.head?_nil, Option.getD_none]
      congr 2
      omega

/-- After the first of the occupied slots the list goes on with the occupied
slots after it. -/
theorem occupied_after_tail (file : RmFileHandle) :
    ∀ (k : Nat) (p s : Int) (r : Rid) (rest : List Rid),
      k = (file.file_hdr.num_pages - p).toNat → occupied_after file k p s = r :: rest →
      r.page_no < file.file_hdr.num_pages ∧
      rest = occupied_after file (file.file_hdr.num_pages - r.page_no).toNat r.page_no
        r.slot_no := by
  intro k
  induction k with
  | zero => intro p s r rest _ h; simp [occupied_after] at h
  | succ k ih =>
    intro p s r rest hk h
    unfold occupied_after at h
    cases hsb : set_bits (file.bitmap p) (file.file_hdr.num_records_per_page - (s + 1)).toNat
        (s + 1) with
    | nil =>
      rw [hsb, List.map_nil, List.nil_append] at h
      exact ih (p + 1) (-1) r rest (by omega) h
    | cons j js =>
      rw [hsb, List.map_cons, List.cons_append] at h
      obtain ⟨h1, h2⟩ := List.cons.inj h
      obtain ⟨_, _, _, h3⟩ := set_bits_after _ _ _ _ _ hsb
      subst h1
      refine ⟨by simp only; omega, ?_⟩
      simp only
      rw [← hk, occupied_after, ← h3, ← h2]

/-- The scan from the first of the occupied slots that remain visits all of
them. -/
theorem rids_from_spec (file : RmFileHandle) (fuel : Nat)
    (hf : (file.file_hdr.num_pages - RM_FIRST_RECORD_PAGE).toNat ≤ fuel) :
    ∀ (rest : List Rid) (k : Nat) (r : Rid), rest.length < k →
      RM_FIRST_RECORD_PAGE ≤ r.page_no → r.page_no < file.file_hdr.num_pages →
      rest = occupied_after file (file.file_hdr.num_pages - r.page_no).toNat r.page_no
        r.slot_no →
      RmScan.rids_from file fuel k r = some (r :: rest) := by
  intro rest
  induction rest with
  | nil =>
    intro k r hk h1 h2 hrest
    obtain ⟨k, rfl⟩ : ∃ k2, k = k2 + 1 := ⟨k - 1, by simp at hk; omega⟩
    have he : RmScan.is_end file r = false := by simp [RmScan.is_end]; omega
    have hn := next_spec file fuel r.page_no r.slot_no (by omega)
    rw [← hrest] at hn
    simp only [List.head?_nil, Option.getD_none, if_pos h2] at hn
    unfold RmScan.rids_from
    rw [he]
    simp only [Bool.false_eq_true, if_false]
    rw [hn]
    have he2 : RmScan.is_end file
        ⟨max r.page_no file.file_hdr.num_pages, -1⟩ = true := by
      simp [RmScan.is_end]
    cases k with
    | zero => simp [RmScan.rids_from, he2]
    | succ k => simp [RmScan.rids_from, he2]
  | cons r2 rest2 ih =>
    intro k r hk h1 h2 hrest
    obtain ⟨k, rfl⟩ : ∃ k2, k = k2 + 1 := ⟨k - 1, by simp at hk; omega⟩
    have he : RmScan.is_end file r = false := by simp [RmScan.is_end]; omega
    have hn := next_spec file fuel r.page_no r.slot_no (by omega)
    rw [← hrest] at hn
    simp only [List.head?_cons, Option.getD_some] at hn
    obtain ⟨h3, h4⟩ := occupied_after_tail file _ r.page_no r.slot_no r2 rest2 rfl hrest.symm
    have hm : r2 ∈ occupied_after file (file.file_hdr.num_pages - r.page_no).toNat r.page_no
        r.slot_no := by rw [← hrest]; simp
    have h5 : r.page_no ≤ r2.page_no := by
      cases hk0 : (file.file_hdr.num_pages - r.page_no).toNat with
      | zero => rw [hk0] at hm; simp [occupied_after] at hm
      | succ k0 =>
        rw [hk0] at hm
        unfold occupied_after at hm
        rcases List.mem_append.mp hm with hm1 | hm1
        · obtain ⟨i, _, hi⟩ := List.mem_map.mp hm1
          rw [← hi]
        · have := ((occupied_after_mem file k0 (r.page_no + 1) (-1) r2 le_rfl).mp hm1).1
          omega
    unfold RmScan.rids_from
    rw [he]
    simp only [Bool.false_eq_true, if_false]
    rw [hn]
    simp only
    rw [ih k r2 (by simp at hk; omega) (by omega) h3 h4]
    rfl

end RMDB

open RMDB RMDB.IxNodeHandle RMDB.IxIndexHandle

namespace RMDB

/-! ### The latch protocol of the write path -/

theorem run_nil (s : LatchState) : s.run [] = s := rfl

theorem run_cons (s : LatchState) (e : LatchEv) (es : List LatchEv) :
    s.run (e :: es) = (s.step e).run es := rfl

theorem run_append (s : LatchState) (a b : List LatchEv) :
    s.run (a ++ b) = (s.run a).run b := by
  unfold LatchState.run
  rw [List.foldl_append]

theorem only_writes_nil : only_writes [] := by
  intro e he
  simp at he

theorem only_writes_cons (p : Int) (es : List LatchEv) (h : only_writes es) :
    only_writes (LatchEv.write p :: es) := by
  intro e he
  rcases List.mem_cons.mp he with h1 | h1
  · exact ⟨p, h1⟩
  · exact h e h1

theorem only_writes_append (a b : List LatchEv) (ha : only_writes a) (hb : only_writes b) :
    only_writes (a ++ b) := by
  intro e he
  rcases List.mem_append.mp he with h1 | h1
  · exact ha e h1
  · exact hb e h1

/-- Writes change neither the latches held nor the two bags. -/
theorem run_only_writes :
    ∀ (es : List LatchEv) (s : LatchState), only_writes es →
      (s.run es).root = s.root ∧ (s.run es).rheld = s.rheld ∧ (s.run es).wheld = s.wheld ∧
      (s.run es).deferred = s.deferred ∧ (s.run es).deleted = s.deleted := by
  intro es
  induction es with
  | nil => intro s _; exact ⟨rfl, rfl, rfl, rfl, rfl⟩
  | cons e es ih =>
    intro s h
    obtain ⟨p, hp⟩ := h e (List.mem_cons_self _ _)
    subst hp
    rw [run_cons]
    obtain ⟨a1, a2, a3, a4, a5⟩ := ih (s.step (LatchEv.write p))
      (fun x hx => h x (List.mem_cons_of_mem _ hx))
    have hs : (s.step (LatchEv.write p)).root = s.root ∧
        (s.step (LatchEv.write p)).rheld = s.rheld ∧
        (s.step (LatchEv.write p)).wheld = s.wheld ∧
        (s.step (LatchEv.write p)).deferred = s.deferred ∧
        (s.step (LatchEv.write p)).deleted = s.deleted := by
      simp only [LatchState.step]
      split_ifs <;> exact ⟨rfl, rfl, rfl, rfl, rfl⟩
    exact ⟨a1.trans hs.1, a2.trans hs.2.1, a3.trans hs.2.2.1, a4.trans hs.2.2.2.1,
      a5.trans hs.2.2.2.2⟩

theorem tracks_writes (es : List LatchEv) (s : LatchState) (ih ih2 : IxIndexHandle)
    (flag : Bool) (h : only_writes es) (hl : ih2.latch_page_set = ih.latch_page_set)
    (hd : ih2.deleted_page_set = ih.deleted_page_set) (ht : s.tracks ih flag) :
    (s.run es).tracks ih2 flag := by
  obtain ⟨a1, a2, a3, a4, a5⟩ := run_only_writes es s h
  obtain ⟨t1, t2, t3, t4, t5⟩ := ht
  exact ⟨by rw [a3, hl]; exact t1, by rw [a4, hd]; exact t2, by rw [a1]; exact t3,
    by rw [a2]; exact t4, by rw [a5]; exact t5⟩

theorem unlock_events_cons (p : Int) (bag : List Int) :
    unlock_events (p :: bag) =
      LatchEv.wunlatch p :: LatchEv.unpin p :: unlock_events bag := by
  simp [unlock_events]

/-- The events of `unlock_page_set` release the write latches of the bag and
nothing else. -/
theorem run_unlock :
    ∀ (bag : List Int) (s : LatchState) (X : List Int), s.wheld.Perm (bag ++ X) →
      ((s.run (unlock_events bag)).wheld.Perm X) ∧
      (s.run (unlock_events bag)).root = s.root ∧
      (s.run (unlock_events bag)).rheld = s.rheld ∧
      (s.run (unlock_events bag)).deferred = s.deferred ∧
      (s.run (unlock_events bag)).deleted = s.deleted := by
  intro bag
  induction bag with
  | nil =>
    intro s X h
    exact ⟨by simpa [unlock_events, run_nil] using h, rfl, rfl, rfl, rfl⟩
  | cons p bag ih =>
    intro s X h
    rw [unlock_events_cons, run_cons, run_cons]
    have h1 : (((s.step (LatchEv.wunlatch p)).step (LatchEv.unpin p)).wheld).Perm (bag ++ X) := by
      have := List.Perm.erase p h
      simpa [LatchState.step] using this
    obtain ⟨a1, a2, a3, a4, a5⟩ := ih _ X h1
    exact ⟨a1, a2, a3, a4, a5⟩

/-- The loop of `find_leaf_page` on a write descent keeps the latches held in
step with the latch bag, and `root_latch_` with the flag. -/
theorem find_leaf_loop_tracks (key : Int) (op : Operation) (ff : Bool)
    (hop : op = Operation.INSERT ∨ op = Operation.DELETE) :
    ∀ (fuel : Nat) (ih : IxIndexHandle) (cur : Int) (flag : Bool) (l : Int) (flag2 : Bool)
      (ih1 : IxIndexHandle) (s : LatchState),
      find_leaf_loop key op ff fuel ih cur flag = Except.ok (l, flag2, ih1) →
      s.tracks ih flag →
      (s.run (find_leaf_loop_events key op ff fuel ih cur flag)).tracks ih1 flag2 := by
  intro fuel
  induction fuel with
  | zero =>
    intro ih cur flag l flag2 ih1 s hr ht
    unfold find_leaf_loop at hr
    split_ifs at hr
    simp only [Except.ok.injEq, Prod.mk.injEq] at hr
    obtain ⟨_, h2, h3⟩ := hr
    subst h2 h3
    exact ht
  | succ f ihf =>
    intro ih cur flag l flag2 ih1 s hr ht
    unfold find_leaf_loop at hr
    unfold find_leaf_loop_events
    by_cases h1 : (ih.fetch_node cur).is_leaf = true
    · rw [if_pos h1] at hr
      rw [if_pos h1]
      simp only [Except.ok.injEq, Prod.mk.injEq] at hr
      obtain ⟨_, h2, h3⟩ := hr
      subst h2 h3
      exact ht
    · rw [if_neg h1] at hr
      rw [if_neg h1]
      simp only [if_pos hop] at hr
      obtain ⟨t1, t2, t3, t4, t5⟩ := ht
      by_cases hs : ff = false ∧ (ih.fetch_node (if ff = true then (ih.fetch_node cur).value_at 0
          else (ih.fetch_node cur).internal_lookup key op)).is_safe ih.file_hdr op = true
      · rw [if_pos hs] at hr
        simp only [if_pos hs]
        rw [run_append, run_append, run_append]
        apply ihf _ _ _ _ _ _ _ hr
        set child := (if ff = true then (ih.fetch_node cur).value_at 0
          else (ih.fetch_node cur).internal_lookup key op)
        have hw : ((s.run [LatchEv.wlatch child]).wheld).Perm (ih.latch_page_set ++ [child]) := by
          simp only [LatchState.run, List.foldl_cons, List.foldl_nil, LatchState.step]
          exact (List.Perm.cons child t1).trans (List.perm_append_singleton child _).symm
        obtain ⟨a1, a2, a3, a4, a5⟩ := run_unlock ih.latch_page_set
          (s.run [LatchEv.wlatch child]) [child] hw
        have b2 : (s.run [LatchEv.wlatch child]).root = flag := t3
        have b3 : (s.run [LatchEv.wlatch child]).rheld = [] := t4
        have b4 : (s.run [LatchEv.wlatch child]).deferred = ih.deleted_page_set := t2
        have b5 : (s.run [LatchEv.wlatch child]).deleted = [] := t5
        rw [b2] at a2
        rw [b3] at a3
        rw [b4] at a4
        rw [b5] at a5
        cases flag with
        | true =>
          simp only [if_true, LatchState.run, List.foldl_cons, List.foldl_nil]
          exact ⟨a1, a4, rfl, a3, a5⟩
        | false =>
          simp only [Bool.false_eq_true, if_false, run_nil]
          exact ⟨a1, a4, a2, a3, a5⟩
      · rw [if_neg hs] at hr
        simp only [if_neg hs]
        rw [run_cons]
        apply ihf _ _ _ _ _ _ _ hr
        refine ⟨?_, t2, t3, t4, t5⟩
        simp only [LatchState.step, append_index_latch_page_set]
        exact (List.Perm.cons _ t1).trans (List.perm_append_singleton _ _).symm

/-- `maintain_parent` only writes. -/
theorem maintain_parent_events_writes :
    ∀ (fuel : Nat) (ih : IxIndexHandle) (curr : Int),
      only_writes (maintain_parent_events fuel ih curr) := by
  intro fuel
  induction fuel with
  | zero => intro ih curr; exact only_writes_nil
  | succ f ihf =>
    intro ih curr
    unfold maintain_parent_events
    by_cases hp : (ih.fetch_node curr).parent ≠ IX_NO_PAGE
    · rw [if_pos hp]
      simp only
      split_ifs
      · exact only_writes_nil
      · exact only_writes_cons _ _ (ihf _ _)
    · rw [if_neg hp]
      exact only_writes_nil

/-- `maintain_parent` leaves the two bags as they are. -/
theorem maintain_parent_bags :
    ∀ (fuel : Nat) (ih : IxIndexHandle) (curr : Int) (ih2 : IxIndexHandle),
      maintain_parent fuel ih curr = Except.ok ih2 →
      ih2.latch_page_set = ih.latch_page_set ∧ ih2.deleted_page_set = ih.deleted_page_set := by
  intro fuel
  induction fuel with
  | zero =>
    intro ih curr ih2 h
    unfold maintain_parent at h
    split_ifs at h
    cases h
    exact ⟨rfl, rfl⟩
  | succ f ihf =>
    intro ih curr ih2 h
    unfold maintain_parent at h
    by_cases hp : (ih.fetch_node curr).parent ≠ IX_NO_PAGE
    · rw [if_pos hp] at h
      simp only at h
      split_ifs at h
      · cases h; exact ⟨rfl, rfl⟩
      · have h2 := ihf _ _ _ h
        exact ⟨h2.1, h2.2⟩
    · rw [if_neg hp] at h
      cases h
      exact ⟨rfl, rfl⟩

theorem maintain_child_events_writes (ih : IxIndexHandle) (node : Int) (idx : Int) :
    only_writes (ih.maintain_child_events node idx) := by
  unfold maintain_child_events
  split_ifs
  · exact only_writes_cons _ _ only_writes_nil
  · exact only_writes_nil

theorem maintain_child_bags (ih : IxIndexHandle) (node : Int) (idx : Int) :
    (ih.maintain_child node idx).latch_page_set = ih.latch_page_set ∧
    (ih.maintain_child node idx).deleted_page_set = ih.deleted_page_set ∧
    (ih.maintain_child node idx).file_hdr = ih.file_hdr := by
  unfold maintain_child
  split_ifs <;> exact ⟨rfl, rfl, rfl⟩

theorem erase_leaf_events_writes (ih : IxIndexHandle) (leaf : Int) :
    only_writes (ih.erase_leaf_events leaf) :=
  only_writes_cons _ _ (only_writes_cons _ _ only_writes_nil)

theorem adjust_root_events_writes (ih : IxIndexHandle) (node : Int) :
    only_writes (ih.adjust_root_events node) := by
  unfold adjust_root_events
  split_ifs
  · exact only_writes_cons _ _ (only_writes_cons _ _ only_writes_nil)
  · exact erase_leaf_events_writes _ _
  · exact only_writes_nil

theorem adjust_root_bags (ih : IxIndexHandle) (node : Int) :
    (ih.adjust_root node).2.latch_page_set = ih.latch_page_set ∧
    (ih.adjust_root node).2.deleted_page_set = ih.deleted_page_set := by
  unfold adjust_root
  split_ifs <;> exact ⟨rfl, rfl⟩

theorem redistribute_events_writes (ih : IxIndexHandle) (nb node par : Int) (index : Int) :
    only_writes (ih.redistribute_events nb node par index) := by
  unfold redistribute_events
  split_ifs
  · split
    · exact only_writes_nil
    · exact only_writes_cons _ _ (only_writes_cons _ _ (only_writes_cons _ _
        (maintain_child_events_writes _ _ _)))
  · simp only
    split
    · exact only_writes_nil
    · exact only_writes_cons _ _ (only_writes_cons _ _ (only_writes_cons _ _
        (maintain_child_events_writes _ _ _)))

theorem redistribute_bags (ih : IxIndexHandle) (nb node par : Int) (index : Int)
    (ih1 : IxIndexHandle) (h : ih.redistribute nb node par index = Except.ok ih1) :
    ih1.latch_page_set = ih.latch_page_set ∧ ih1.deleted_page_set = ih.deleted_page_set := by
  unfold redistribute at h
  split_ifs at h
  · split at h
    · cases h
    · simp only [Except.ok.injEq] at h
      subst h
      exact ⟨(maintain_child_bags _ _ _).1, (maintain_child_bags _ _ _).2.1⟩
  · simp only at h
    split at h
    · cases h
    · simp only [Except.ok.injEq] at h
      subst h
      exact ⟨(maintain_child_bags _ _ _).1, (maintain_child_bags _ _ _).2.1⟩

end RMDB

open RMDB RMDB.IxNodeHandle RMDB.IxIndexHandle

namespace RMDB

theorem coalesce_eq (recurse : IxIndexHandle → Int → Except IxError (Bool × IxIndexHandle))
    (ih0 : IxIndexHandle) (nb node par : Int) (idx : Int) :
    coalesce recurse ih0 nb node par idx =
      match coalesce_state ih0 nb node par idx with
      | Except.error e => Except.error e
      | Except.ok ih7 =>
        if (ih7.fetch_node par).get_size < IxNodeHandle.get_min_size ih7.file_hdr then
          recurse ih7 par
        else Except.ok (false, ih7) := by
  unfold coalesce_state coalesce
  lift_lets
  extract_lets a b c d
  cases hip : (ih0.fetch_node a).insert_pairs (ih0.fetch_node a).get_size (ih0.fetch_node b).pairs with
  | error e => rfl
  | ok m =>
    simp only
    generalize hS : IxIndexHandle.modify_node _ par _ = S
    by_cases hc : (S.fetch_node par).get_size < IxNodeHandle.get_min_size S.file_hdr
    · simp only [if_pos hc]
    · simp only [if_neg hc]

theorem fold_maintain_child_bags (nb : Int) :
    ∀ (l : List Nat) (s : IxIndexHandle),
      (l.foldl (fun s child_idx => s.maintain_child nb (child_idx : Nat)) s).latch_page_set =
        s.latch_page_set ∧
      (l.foldl (fun s child_idx => s.maintain_child nb (child_idx : Nat)) s).deleted_page_set =
        s.deleted_page_set := by
  intro l
  induction l with
  | nil => intro s; exact ⟨rfl, rfl⟩
  | cons a l ih =>
    intro s
    rw [List.foldl_cons]
    obtain ⟨h1, h2⟩ := ih (s.maintain_child nb (a : Nat))
    obtain ⟨b1, b2, _⟩ := maintain_child_bags s nb (a : Nat)
    exact ⟨h1.trans b1, h2.trans b2⟩

theorem coalesce_state_bags (ih0 : IxIndexHandle) (nb node par : Int) (idx : Int)
    (ih7 : IxIndexHandle) (h : coalesce_state ih0 nb node par idx = Except.ok ih7) :
    ih7.latch_page_set = ih0.latch_page_set ∧
    ih7.deleted_page_set = ih0.deleted_page_set ++ [if idx = 0 then nb else node] := by
  unfold coalesce_state coalesce at h
  lift_lets at h
  extract_lets a b c d at h
  cases hip : (ih0.fetch_node a).insert_pairs (ih0.fetch_node a).get_size
      (ih0.fetch_node b).pairs with
  | error e =>
    rw [hip] at h
    cases h
  | ok m =>
    rw [hip] at h
    simp only at h
    have hf := fold_maintain_child_bags a
      (List.range' d (((ih0.modify_node a (fun _ => m)).fetch_node a).pairs.length - d))
      (ih0.modify_node a (fun _ => m))
    generalize List.foldl _ _ _ = F at h hf
    have hF1 : F.latch_page_set = ih0.latch_page_set := hf.1
    have hF2 : F.deleted_page_set = ih0.deleted_page_set := hf.2
    split_ifs at h <;> simp only [Except.ok.injEq] at h <;> subst h <;>
      simp only [modify_node, release_node_handle, append_index_deleted_page, erase_leaf,
        fetch_node] <;>
      exact ⟨hF1, by rw [hF2]⟩

theorem fold_children_writes (nb : Int) :
    ∀ (l : List Nat) (acc : IxIndexHandle × List LatchEv), only_writes acc.2 →
      only_writes (l.foldl
        (fun (acc : IxIndexHandle × List LatchEv) child_idx =>
          (acc.1.maintain_child nb (child_idx : Nat),
            acc.2 ++ acc.1.maintain_child_events nb (child_idx : Nat))) acc).2 := by
  intro l
  induction l with
  | nil => intro acc h; exact h
  | cons a l ih =>
    intro acc h
    rw [List.foldl_cons]
    exact ih _ (only_writes_append _ _ h (maintain_child_events_writes _ _ _))

/-- The events of `coalesce`: writes, then the right node is deferred and the
parent written, then the events of the recursive call if there is one. -/
theorem coalesce_events_shape (rec_ev : IxIndexHandle → Int → List LatchEv)
    (ih0 : IxIndexHandle) (nb node par : Int) (idx : Int) (ih7 : IxIndexHandle)
    (h : coalesce_state ih0 nb node par idx = Except.ok ih7) :
    ∃ W, only_writes W ∧
      coalesce_events rec_ev ih0 nb node par idx =
        W ++ [LatchEv.defer (if idx = 0 then nb else node), LatchEv.write par] ++
          (if (ih7.fetch_node par).get_size < IxNodeHandle.get_min_size ih7.file_hdr then
            rec_ev ih7 par
          else []) := by
  unfold coalesce_events
  lift_lets
  extract_lets a b d
  cases hip : (ih0.fetch_node a).insert_pairs (ih0.fetch_node a).get_size
      (ih0.fetch_node b).pairs with
  | error e =>
    exfalso
    unfold coalesce_state coalesce at h
    lift_lets at h
    extract_lets a2 b2 c2 d2 at h
    rw [hip] at h
    cases h
  | ok m =>
    simp only
    rw [h]
    simp only
    refine ⟨_, ?_, rfl⟩
    apply only_writes_append
    · apply only_writes_cons
      exact fold_children_writes a _ _ only_writes_nil
    · split_ifs
      · exact erase_leaf_events_writes _ _
      · exact only_writes_nil

theorem tracks_defer (s : LatchState) (ih ih2 : IxIndexHandle) (flag : Bool) (p : Int)
    (hl : ih2.latch_page_set = ih.latch_page_set)
    (hd : ih2.deleted_page_set = ih.deleted_page_set ++ [p]) (ht : s.tracks ih flag) :
    (s.step (LatchEv.defer p)).tracks ih2 flag := by
  obtain ⟨t1, t2, t3, t4, t5⟩ := ht
  exact ⟨by rw [hl]; exact t1, by rw [hd, ← t2]; rfl, t3, t4, t5⟩

theorem tracks_wlatch (s : LatchState) (ih : IxIndexHandle) (flag : Bool) (p : Int)
    (ht : s.tracks ih flag) :
    (s.step (LatchEv.wlatch p)).tracks (ih.append_index_latch_page_set p) flag := by
  obtain ⟨t1, t2, t3, t4, t5⟩ := ht
  exact ⟨(List.Perm.cons p t1).trans (List.perm_append_singleton p _).symm, t2, t3, t4, t5⟩

/-- `coalesce_or_redistribute` keeps the latches held in step with the latch
bag and the pages deferred in step with the deferred-delete bag. -/
theorem coalesce_or_redistribute_tracks :
    ∀ (fuel : Nat) (ih : IxIndexHandle) (node : Int) (r : Bool) (ih2 : IxIndexHandle)
      (s : LatchState) (flag : Bool),
      coalesce_or_redistribute fuel ih node = Except.ok (r, ih2) → s.tracks ih flag →
      (s.run (coalesce_or_redistribute_events fuel ih node)).tracks ih2 flag := by
  intro fuel
  induction fuel with
  | zero =>
    intro ih node r ih2 s flag h _
    unfold coalesce_or_redistribute at h
    cases h
  | succ f ihf =>
    intro ih node r ih2 s flag h ht
    unfold coalesce_or_redistribute at h
    unfold coalesce_or_redistribute_events
    by_cases hroot : (ih.fetch_node node).is_root_page = true
    · rw [if_pos hroot] at h
      rw [if_pos hroot, run_append]
      obtain ⟨b1, b2⟩ := adjust_root_bags ih node
      have ht1 := tracks_writes _ s ih (ih.adjust_root node).2 flag
        (adjust_root_events_writes ih node) b1 b2 ht
      simp only at h
      by_cases hr1 : (ih.adjust_root node).1 = true
      · rw [if_pos hr1] at h
        rw [if_pos hr1]
        simp only [Except.ok.injEq, Prod.mk.injEq] at h
        obtain ⟨_, h2⟩ := h
        subst h2
        exact tracks_defer _ (ih.adjust_root node).2 _ flag node rfl rfl ht1
      · rw [if_neg hr1] at h
        rw [if_neg hr1]
        simp only [Except.ok.injEq, Prod.mk.injEq] at h
        obtain ⟨_, h2⟩ := h
        subst h2
        exact ht1
    · rw [if_neg hroot] at h
      rw [if_neg hroot]
      by_cases hsz : (ih.fetch_node node).get_size ≥ IxNodeHandle.get_min_size ih.file_hdr
      · rw [if_pos hsz] at h
        rw [if_pos hsz]
        simp only [Except.ok.injEq, Prod.mk.injEq] at h
        obtain ⟨_, h2⟩ := h
        subst h2
        exact ht
      · rw [if_neg hsz] at h
        rw [if_neg hsz]
        simp only at h ⊢
        generalize (ih.fetch_node node).parent = parent at h ⊢
        generalize (ih.fetch_node parent).find_child node = node_rank at h ⊢
        generalize (ih.fetch_node parent).value_at _ = sibling at h ⊢
        rw [run_cons]
        have ht1 := tracks_wlatch s ih flag sibling ht
        by_cases hc : (ih.fetch_node node).get_size + (ih.fetch_node sibling).get_size ≥
            IxNodeHandle.get_min_size ih.file_hdr * 2
        · rw [if_pos hc] at h
          rw [if_pos hc, run_append]
          cases hred : ih.redistribute sibling node parent node_rank with
          | error e =>
            rw [hred] at h
            cases h
          | ok ih1 =>
            rw [hred] at h
            simp only [Except.ok.injEq, Prod.mk.injEq] at h
            obtain ⟨_, h2⟩ := h
            subst h2
            obtain ⟨b1, b2⟩ := redistribute_bags ih sibling node parent node_rank ih1 hred
            obtain ⟨a1, a2, a3, a4, a5⟩ := run_only_writes
              (ih.redistribute_events sibling node parent node_rank)
              (s.step (LatchEv.wlatch sibling)) (redistribute_events_writes _ _ _ _ _)
            obtain ⟨t1, t2, t3, t4, t5⟩ := ht
            rw [run_cons, run_nil]
            refine ⟨?_, ?_, ?_, ?_, ?_⟩
            · show (List.erase (LatchState.wheld (LatchState.run _ _)) sibling).Perm _
              rw [a3, b1]
              simpa [LatchState.step] using t1
            · show LatchState.deferred (LatchState.run _ _) = _
              rw [a4, b2]
              exact t2
            · show LatchState.root (LatchState.run _ _) = _
              rw [a1]
              exact t3
            · show LatchState.rheld (LatchState.run _ _) = _
              rw [a2]
              exact t4
            · show LatchState.deleted (LatchState.run _ _) = _
              rw [a5]
              exact t5
        · rw [if_neg hc] at h
          rw [if_neg hc]
          rw [coalesce_eq] at h
          cases hcs : coalesce_state (ih.append_index_latch_page_set sibling) sibling node
              parent node_rank with
          | error e =>
            rw [hcs] at h
            cases h
          | ok ih7 =>
            rw [hcs] at h
            simp only at h
            obtain ⟨W, hW, hshape⟩ := coalesce_events_shape (coalesce_or_redistribute_events f)
              (ih.append_index_latch_page_set sibling) sibling node parent node_rank ih7 hcs
            obtain ⟨b1, b2⟩ := coalesce_state_bags _ _ _ _ _ ih7 hcs
            rw [hshape, run_append, run_append, run_cons, run_cons, run_nil]
            have ht2 := tracks_writes W _ _ (ih.append_index_latch_page_set sibling) flag hW
              rfl rfl ht1
            have ht3 := tracks_defer _ _ ih7 flag _ b1 b2 ht2
            have ht4 := tracks_writes [LatchEv.write parent] _ ih7 ih7 flag
              (only_writes_cons _ _ only_writes_nil) rfl rfl ht3
            by_cases hu : (ih7.fetch_node parent).get_size <
                IxNodeHandle.get_min_size ih7.file_hdr
            · rw [if_pos hu] at h
              rw [if_pos hu]
              cases hrec : coalesce_or_redistribute f ih7 parent with
              | error e =>
                rw [hrec] at h
                cases h
              | ok res =>
                obtain ⟨x, ih1⟩ := res
                rw [hrec] at h
                simp only [Except.ok.injEq, Prod.mk.injEq] at h
                obtain ⟨_, h2⟩ := h
                subst h2
                exact ihf ih7 parent x ih1 _ flag hrec ht4
            · rw [if_neg hu] at h
              rw [if_neg hu, run_nil]
              simp only [Except.ok.injEq, Prod.mk.injEq] at h
              obtain ⟨_, h2⟩ := h
              subst h2
              exact ht4

/-- The `delete_page` calls add to the pages deleted and change nothing
else. -/
theorem run_delete_pages :
    ∀ (D : List Int) (s : LatchState),
      (s.run (D.map LatchEv.delete_page)).deleted = s.deleted ++ D ∧
      (s.run (D.map LatchEv.delete_page)).wheld = s.wheld ∧
      (s.run (D.map LatchEv.delete_page)).rheld = s.rheld ∧
      (s.run (D.map LatchEv.delete_page)).root = s.root ∧
      (s.run (D.map LatchEv.delete_page)).deferred = s.deferred := by
  intro D
  induction D with
  | nil => intro s; exact ⟨by simp [run_nil], rfl, rfl, rfl, rfl⟩
  | cons p D ih =>
    intro s
    rw [List.map_cons, run_cons]
    obtain ⟨a1, a2, a3, a4, a5⟩ := ih (s.step (LatchEv.delete_page p))
    refine ⟨?_, a2, a3, a4, a5⟩
    rw [a1]
    simp [LatchState.step]

end RMDB

open RMDB RMDB.IxNodeHandle RMDB.IxIndexHandle

namespace RMDB

/-- Slot `i` of a list after one element was put in at `pos`. -/
theorem getD_insert_at {α : Type} (l : List α) (pos : Nat) (x d : α) (hpos : pos ≤ l.length)
    (i : Nat) :
    (l.take pos ++ [x] ++ l.drop pos).getD i d =
      if i < pos then l.getD i d else if i = pos then x else l.getD (i - 1) d := by
  have hlen : (l.take pos).length = pos := by simp [hpos]
  simp only [List.getD_eq_getElem?_getD, List.append_assoc]
  by_cases h1 : i < pos
  · rw [if_pos h1, List.getElem?_append_left (by rw [hlen]; exact h1), List.getElem?_take_of_lt h1]
  · rw [if_neg h1, List.getElem?_append_right (by rw [hlen]; omega), hlen]
    by_cases h2 : i = pos
    · rw [if_pos h2, h2]
      simp
    · rw [if_neg h2]
      have h3 : i - pos = (i - pos - 1) + 1 := by omega
      rw [h3]
      simp only [List.singleton_append, List.getElem?_cons_succ, List.getElem?_drop]
      congr 2
      omega

/-- A `memmove` by `d` words towards higher addresses, read at word `a`. -/
theorem memmove_shift (mem : Nat → Int) (dst src len d a : Nat) (hd : dst = src + d) :
    memmove mem dst src len a = if dst ≤ a ∧ a < dst + len then mem (a - d) else mem a := by
  unfold memmove
  split_ifs with h
  · congr 1
    omega
  · rfl

/-- The words after the writes of `insert_pairs`, read at word `a`. -/
theorem insert_pairs_words_apply (max_size k pos : Nat) (key : Int) (rid : Rid)
    (mem : Nat → Int) (a : Nat) :
    insert_pairs_words max_size k pos key rid mem a =
      if a = max_size + 2 * pos + 1 then rid.slot_no
      else if a = max_size + 2 * pos then rid.page_no
      else if a = pos then key
      else if max_size + 2 * (pos + 1) ≤ a ∧ a < max_size + 2 * (pos + 1) + 2 * (k - pos) then
        (if pos + 1 ≤ a - 2 ∧ a - 2 < pos + 1 + (k - pos) then mem (a - 2 - 1) else mem (a - 2))
      else if pos + 1 ≤ a ∧ a < pos + 1 + (k - pos) then mem (a - 1) else mem a := by
  simp only [insert_pairs_words, Function.update_apply]
  rw [memmove_shift _ _ _ _ 2 a (by omega), memmove_shift _ _ _ _ 1 (a - 2) rfl,
    memmove_shift _ _ _ _ 1 a rfl]

/-- Within the page capacity the writes of `insert_pairs` on the words of the
page are the insertion into the list of pairs: for a node that holds fewer
than `max_size` pairs, the words after the two `memmove`s and the two
`memcpy`s of the source are the words of the node that `insert_pairs` of the
list model returns. -/
theorem insert_pairs_words_fits (max_size : Nat) (n m : IxNodeHandle) (pos : Nat) (key : Int)
    (rid : Rid) (hfit : n.pairs.length + 1 ≤ max_size)
    (hm : n.insert_pairs pos [(key, rid)] = Except.ok m) :
    insert_pairs_words max_size n.pairs.length pos key rid (page_words max_size n) =
      page_words max_size m := by
  unfold insert_pairs at hm
  by_cases hc : (pos : Int) < 0 ∨ (pos : Int) > n.get_size
  · rw [if_pos hc] at hm
    cases hm
  rw [if_neg hc] at hm
  have hpos : pos ≤ n.pairs.length := by
    unfold get_size at hc
    omega
  have hmp : m.pairs = n.pairs.take pos ++ [(key, rid)] ++ n.pairs.drop pos := by
    injection hm with hm
    rw [← hm]
    simp
  have hout : ∀ i, n.pairs.length ≤ i → n.pairs.getD i (0, (⟨0, 0⟩ : Rid)) = (0, ⟨0, 0⟩) := by
    intro i hi
    rw [List.getD_eq_getElem?_getD, List.getElem?_eq_none hi]
    rfl
  have hidx : ∀ i j : ℕ, i = j →
      n.pairs.getD i (0, (⟨0, 0⟩ : Rid)) = n.pairs.getD j (0, ⟨0, 0⟩) := by
    intro i j hij
    rw [hij]
  funext a
  rw [insert_pairs_words_apply]
  have hnew : ∀ i, m.pairs.getD i (0, (⟨0, 0⟩ : Rid)) =
      if i < pos then n.pairs.getD i (0, ⟨0, 0⟩)
      else if i = pos then (key, rid) else n.pairs.getD (i - 1) (0, ⟨0, 0⟩) := by
    intro i
    rw [hmp]
    exact getD_insert_at n.pairs pos (key, rid) (0, ⟨0, 0⟩) hpos i
  by_cases ha : a < max_size
  · -- a key slot
    have hR : page_words max_size m a = (m.pairs.getD a (0, ⟨0, 0⟩)).1 := by
      unfold page_words
      rw [if_pos ha]
    rw [hR, hnew, if_neg (by omega), if_neg (by omega)]
    by_cases h1 : a = pos
    · rw [if_pos h1, if_neg (by omega), if_pos h1]
    · rw [if_neg h1, if_neg (by omega)]
      by_cases h2 : a < pos
      · rw [if_neg (by omega), if_pos h2]
        unfold page_words
        rw [if_pos ha]
      · rw [if_neg h2, if_neg h1]
        by_cases h3 : a < n.pairs.length + 1
        · rw [if_pos (by omega)]
          unfold page_words
          rw [if_pos (by omega)]
        · rw [if_neg (by omega)]
          unfold page_words
          rw [if_pos ha, hout a (by omega), hout (a - 1) (by omega)]
  · by_cases hb : a < 3 * max_size
    · -- a word of a rid slot
      have hR : page_words max_size m a =
          if (a - max_size) % 2 = 0 then (m.pairs.getD ((a - max_size) / 2) (0, ⟨0, 0⟩)).2.page_no
          else (m.pairs.getD ((a - max_size) / 2) (0, ⟨0, 0⟩)).2.slot_no := by
        unfold page_words
        rw [if_neg ha, if_pos hb]
      have hN : ∀ b, max_size ≤ b → b < 3 * max_size → page_words max_size n b =
          if (b - max_size) % 2 = 0 then (n.pairs.getD ((b - max_size) / 2) (0, ⟨0, 0⟩)).2.page_no
          else (n.pairs.getD ((b - max_size) / 2) (0, ⟨0, 0⟩)).2.slot_no := by
        intro b hb1 hb2
        unfold page_words
        rw [if_neg (by omega), if_pos hb2]
      rw [hR, hnew]
      by_cases h1 : (a - max_size) / 2 = pos
      · by_cases hp : (a - max_size) % 2 = 0
        · rw [if_neg (by omega), if_pos (by omega), if_pos hp, if_neg (by omega), if_pos h1]
        · rw [if_pos (by omega), if_neg hp, if_neg (by omega), if_pos h1]
      · rw [if_neg (by omega), if_neg (by omega), if_neg (by omega)]
        by_cases h2 : (a - max_size) / 2 < pos
        · rw [if_neg (by omega), if_neg (by omega), hN a (by omega) hb, if_pos h2]
        · rw [if_neg h2, if_neg h1]
          by_cases h3 : (a - max_size) / 2 < n.pairs.length + 1
          · rw [if_pos (by omega), if_neg (by omega), hN (a - 2) (by omega) (by omega)]
            have he : (a - 2 - max_size) / 2 = (a - max_size) / 2 - 1 := by omega
            have hq : (a - 2 - max_size) % 2 = (a - max_size) % 2 := by omega
            rw [he, hq]
          · rw [if_neg (by omega), if_neg (by omega), hN a (by omega) hb,
              hout ((a - max_size) / 2) (by omega), hout ((a - max_size) / 2 - 1) (by omega)]
    · rw [if_neg (by omega), if_neg (by omega), if_neg (by omega), if_neg (by omega),
        if_neg (by omega)]
      unfold page_words
      rw [if_neg ha, if_neg hb, if_neg ha, if_neg hb]

/-- Beyond the page capacity: on a node that already holds `max_size` pairs,
the writes of `insert_pairs` at a slot `pos ≥ 1` put a key into the word of
`page_no` of rid slot 0, which lies right behind key slot `max_size - 1`: the
new key when `pos = max_size`, the key moved up from slot `max_size - 1`
otherwise. -/
theorem insert_pairs_words_overrun (max_size : Nat) (n : IxNodeHandle) (pos : Nat) (key : Int)
    (rid : Rid) (hfull : n.pairs.length = max_size) (h1 : 1 ≤ pos) (hpos : pos ≤ max_size) :
    (words_rid max_size
      (insert_pairs_words max_size n.pairs.length pos key rid (page_words max_size n)) 0).page_no =
      if pos = max_size then key else (n.pairs.getD (max_size - 1) (0, ⟨0, 0⟩)).1 := by
  unfold words_rid
  simp only [Nat.mul_zero, Nat.add_zero]
  rw [insert_pairs_words_apply, if_neg (by omega), if_neg (by omega)]
  by_cases hp : pos = max_size
  · rw [if_pos hp.symm, if_pos hp]
  · rw [if_neg (by omega), if_neg (by omega), if_pos (by omega), if_neg hp]
    unfold page_words
    rw [if_pos (by omega)]

end RMDB

open RMDB RMDB.IxNodeHandle RMDB.IxIndexHandle

namespace RMDB

/-- C1: point lookup is correct on every valid tree.  On an empty tree
`get_value` returns false and appends nothing; on a valid non-empty tree it
returns true and appends exactly the rid stored with the key when the key is
stored (also when the key equals a separator key of an internal node and the
rid is taken from slot 0 of the next leaf), and returns false and appends
nothing when the key is not stored. -/
theorem get_value_correct (ih : IxIndexHandle) (h fuel : Nat) (key : Int) (result : List Rid)
    (hv : ih.is_empty = true ∨ Valid ih h) (hf : h ≤ fuel) :
    (ih.is_empty = true → ih.get_value fuel key result = Except.ok (false, result)) ∧
    (ih.is_empty = false →
      (∀ rid, (key, rid) ∈ tree_entries ih h →
        ih.get_value fuel key result = Except.ok (true, result ++ [rid])) ∧
      ((∀ rid, (key, rid) ∉ tree_entries ih h) →
        ih.get_value fuel key result = Except.ok (false, result))) := by
  constructor
  · intro he
    unfold get_value
    rw [if_pos he]
  · intro he
    rcases hv with hv | hv
    · rw [hv] at he; cases he
    · rw [get_value_valid ih h fuel key result hv hf]
      constructor
      · intro rid hm
        rw [lookup_of_mem_sorted _ (valid_entries_sorted ih h hv) key rid hm]
      · intro hm
        rw [lookup_of_not_mem _ key hm]

/-- Witness for C1 on the sample tree: key 30 equals the separator key of the
root, the descent ends in the left leaf and the rid comes from the next
leaf. -/
theorem get_value_correct_witness :
    Valid sample_tree 1 ∧ sample_tree.get_value 1 30 [] = Except.ok (true, [⟨30, 0⟩]) :=
  ⟨by decide,
    ((get_value_correct sample_tree 1 1 30 [] (Or.inr (by decide)) (by decide)).2
      (by decide)).1 ⟨30, 0⟩ (by decide)⟩

/-- The pair listed with a position by `node_positions` is the pair stored
in that slot. -/
theorem node_positions_key (l : Int) :
    ∀ (es : List (Int × Rid)) (s : Nat) (pe : Iid × (Int × Rid)),
      pe ∈ node_positions l s es → es[pe.1.slot_no.toNat - s]? = some pe.2 := by
  intro es
  induction es with
  | nil => intro s pe h; simp [node_positions] at h
  | cons e es ih =>
    intro s pe h
    simp only [node_positions, List.mem_cons] at h
    rcases h with h | h
    · subst h
      simp
    · have h2 := ih (s + 1) pe h
      obtain ⟨_, _, h3, _⟩ := mem_node_positions l es (s + 1) pe h
      have hsub : pe.1.slot_no.toNat - s = (pe.1.slot_no.toNat - (s + 1)) + 1 := by omega
      rw [hsub, List.getElem?_cons_succ]
      exact h2

/-- C7: on a valid non-empty tree the index-level `lower_bound` returns the
position (page, slot) of the first entry in leaf-chain order whose key is at
least `key`: when the entries before the pair `pe` all have smaller keys and
the key of `pe` is at least `key`, the result is the position of `pe`, a slot
of its leaf that holds the key of `pe`. When no entry has a key that is at
least `key`, the result is `leaf_end()`, the pair of `last_leaf` of the file
header, which is the last leaf of the chain, and the size of that leaf. The
returned slot is a slot of its leaf (never the size of the leaf) unless the
position is on the last leaf. -/
theorem lower_bound_correct (ih : IxIndexHandle) (h fuel : Nat) (key : Int)
    (hv : Valid ih h) (hf : h ≤ fuel) :
    ih.lower_bound fuel key = Except.ok (first_position ih h (fun x => decide (key ≤ x))) ∧
    (∀ before pe after,
      leaf_positions ih.pages (tree_leaves ih h) = before ++ pe :: after →
      (∀ x ∈ before, x.2.1 < key) → key ≤ pe.2.1 →
        ih.lower_bound fuel key = Except.ok pe.1 ∧
        0 ≤ pe.1.slot_no ∧ pe.1.slot_no < (ih.pages pe.1.page_no).get_size ∧
        (ih.pages pe.1.page_no).get_key pe.1.slot_no = pe.2.1) ∧
    ((∀ e ∈ tree_entries ih h, e.1 < key) →
      ih.lower_bound fuel key =
        Except.ok ⟨ih.file_hdr.last_leaf, (ih.pages ih.file_hdr.last_leaf).get_size⟩ ∧
      ih.leaf_end = ⟨ih.file_hdr.last_leaf, (ih.pages ih.file_hdr.last_leaf).get_size⟩ ∧
      (tree_leaves ih h).getLast? = some ih.file_hdr.last_leaf) ∧
    (∀ iid, ih.lower_bound fuel key = Except.ok iid → iid.page_no ≠ ih.file_hdr.last_leaf →
      0 ≤ iid.slot_no ∧ iid.slot_no < (ih.pages iid.page_no).get_size) := by
  have hlb := lower_bound_valid ih h fuel key hv hf
  have hslot : ∀ pe ∈ leaf_positions ih.pages (tree_leaves ih h),
      0 ≤ pe.1.slot_no ∧ pe.1.slot_no < (ih.pages pe.1.page_no).get_size ∧
      (ih.pages pe.1.page_no).get_key pe.1.slot_no = pe.2.1 := by
    intro pe hmem
    simp only [leaf_positions, List.mem_flatMap] at hmem
    obtain ⟨l, _, hpe⟩ := hmem
    obtain ⟨_, h2, h3, h4⟩ := mem_node_positions l _ 0 pe hpe
    have h5 := node_positions_key l _ 0 pe hpe
    rw [h2]
    refine ⟨by omega, by unfold get_size; omega, ?_⟩
    unfold get_key
    rw [if_neg (by omega)]
    simp only [Nat.sub_zero] at h5
    rw [List.getD_eq_getElem?_getD, h5]
    rfl
  refine ⟨hlb, ?_, ?_, ?_⟩
  · intro before pe after hdec hbefore hpe
    have hfp : first_position ih h (fun x => decide (key ≤ x)) = pe.1 := by
      unfold first_position
      rw [hdec, List.find?_append,
        find_none_of_all before (fun x => decide (key ≤ x))
          (fun x hx => by simpa using hbefore x hx)]
      simp [List.find?_cons, hpe]
    rw [hlb, hfp]
    exact ⟨rfl, hslot pe (by rw [hdec]; simp)⟩
  · intro hall
    have hfp : first_position ih h (fun x => decide (key ≤ x)) = ih.leaf_end := by
      unfold first_position
      rw [find_none_of_all _ (fun x => decide (key ≤ x))
        (fun pe hpe => by
          have := hall pe.2 (mem_leaf_positions _ _ pe hpe)
          simpa using this)]
    rw [hlb, hfp]
    exact ⟨rfl, rfl, hv.2.2.2.2.2.2.2⟩
  · intro iid hiid
    rw [hlb] at hiid
    have hiid2 : first_position ih h (fun x => decide (key ≤ x)) = iid := by
      injection hiid
    rw [← hiid2]
    unfold first_position
    cases hfind : (leaf_positions ih.pages (tree_leaves ih h)).find?
        (fun pe => decide (key ≤ pe.2.1)) with
    | none =>
      intro hne
      exact absurd rfl hne
    | some pe =>
      intro _
      have h3 := hslot pe (List.mem_of_find?_eq_some hfind)
      exact ⟨h3.1, h3.2.1⟩

/-- Witness for C7 on the sample tree: the first entry with key at least 21 is
slot 0 of the second leaf; no entry has a key of 99 or more, and the result is
the last leaf (page 3) with its size 2. -/
theorem lower_bound_correct_witness :
    Valid sample_tree 1 ∧ sample_tree.lower_bound 1 21 = Except.ok ⟨3, 0⟩ ∧
    sample_tree.lower_bound 1 99 = Except.ok ⟨3, 2⟩ :=
  ⟨by decide, (lower_bound_correct sample_tree 1 1 21 (by decide) (by decide)).1,
    ((lower_bound_correct sample_tree 1 1 99 (by decide) (by decide)).2.2.1 (by decide)).1⟩

/-- C8: on a valid non-empty tree the index-level `upper_bound` returns the
position of the first entry in leaf-chain order whose key is strictly greater
than `key`, and `leaf_end` when there is none; when `key` is below every
stored key this is slot 0 of the first leaf. -/
theorem upper_bound_correct (ih : IxIndexHandle) (h fuel : Nat) (key : Int)
    (hv : Valid ih h) (hf : h ≤ fuel) :
    ih.upper_bound fuel key = Except.ok (first_position ih h (fun x => decide (key < x))) ∧
    ((∀ e ∈ tree_entries ih h, key < e.1) →
      ih.upper_bound fuel key = Except.ok ih.leaf_begin) := by
  refine ⟨upper_bound_valid ih h fuel key hv hf, ?_⟩
  intro hall
  rw [upper_bound_valid ih h fuel key hv hf]
  congr 1
  have hfirst : (tree_leaves ih h).head? = some ih.file_hdr.first_leaf := hv.2.2.2.2.2.2.1
  cases hL : tree_leaves ih h with
  | nil => rw [hL] at hfirst; simp at hfirst
  | cons a L =>
    rw [hL] at hfirst
    simp only [List.head?_cons, Option.some.injEq] at hfirst
    have ha : a ∈ tree_leaves ih h := by rw [hL]; simp
    obtain ⟨_, hne⟩ := wf_leaf_mem ih.pages h _ _ hv.2.1 a ha
    obtain ⟨e, es, hes⟩ := List.exists_cons_of_ne_nil hne
    have hq : key < e.1 := hall e (by
      unfold tree_entries subtree_entries
      have : subtree_leaves ih.pages h ih.file_hdr.root_page = a :: L := hL
      rw [this, leaves_entries_cons, hes]; simp)
    unfold first_position leaf_begin
    rw [hL, leaf_positions_cons, hes]
    simp [node_positions, List.find?_cons, hq, hfirst]

/-- Witness for C8 on the sample tree: the first entry with key above 20 is
slot 0 of the second leaf. -/
theorem upper_bound_correct_witness :
    Valid sample_tree 1 ∧ sample_tree.upper_bound 1 20 = Except.ok ⟨3, 0⟩ :=
  ⟨by decide, (upper_bound_correct sample_tree 1 1 20 (by decide) (by decide)).1⟩

end RMDB

open RMDB RMDB.IxNodeHandle RMDB.IxIndexHandle

namespace RMDB

/-- C3: a duplicate insert is an ignored no-op.  On a valid tree that stores
`key` with rid `r0`, `insert_entry key r` returns the sentinel -1 without an
error and leaves every page and the file header unchanged, and `get_value key`
still yields `[r0]`; when `key` is the smallest stored key the first-leaf probe
catches it and the handle is returned as it was, otherwise the leaf insert
catches it and only the latch bag is released. -/
theorem insert_duplicate_ignored (ih : IxIndexHandle) (h fuel : Nat) (key : Int) (r0 r : Rid)
    (hv : Valid ih h) (hf : h ≤ fuel) (hm : (key, r0) ∈ tree_entries ih h) :
    ∃ ih2, ih.insert_entry fuel key r = Except.ok (-1, ih2) ∧
      ih2.pages = ih.pages ∧ ih2.file_hdr = ih.file_hdr ∧
      ih2.get_value fuel key [] = Except.ok (true, [r0]) ∧
      ((ih.fetch_node ih.file_hdr.first_leaf).get_key 0 = key → ih2 = ih) ∧
      ((ih.fetch_node ih.file_hdr.first_leaf).get_key 0 ≠ key → ih2 = ih.unlock_page_set) := by
  have hg : ih.get_value fuel key [] = Except.ok (true, [r0]) := by
    rw [get_value_valid ih h fuel key [] hv hf,
      lookup_of_mem_sorted _ (valid_entries_sorted ih h hv) key r0 hm]
    rfl
  have hg2 : ih.unlock_page_set.get_value fuel key [] = Except.ok (true, [r0]) := by
    rw [get_value_valid ih.unlock_page_set h fuel key [] (valid_unlock ih h hv) hf]
    have : tree_entries ih.unlock_page_set h = tree_entries ih h := rfl
    rw [this, lookup_of_mem_sorted _ (valid_entries_sorted ih h hv) key r0 hm]
    rfl
  rcases insert_entry_dup ih h fuel key r0 r hv hf hm with ⟨hc, he⟩ | ⟨hc, he⟩
  · exact ⟨ih, he, rfl, rfl, hg, fun _ => rfl, fun hn => absurd hc hn⟩
  · exact ⟨ih.unlock_page_set, he, rfl, rfl, hg2, fun hn => absurd hn hc, fun _ => rfl⟩

/-- Witness for C3 on the sample tree: key 30 is stored in the second leaf and
is caught by the leaf insert. -/
theorem insert_duplicate_ignored_witness :
    Valid sample_tree 1 ∧
    ∃ ih2, sample_tree.insert_entry 1 30 ⟨99, 9⟩ = Except.ok (-1, ih2) ∧
      ih2.pages = sample_tree.pages ∧ ih2.file_hdr = sample_tree.file_hdr ∧
      ih2.get_value 1 30 [] = Except.ok (true, [⟨30, 0⟩]) :=
  ⟨by decide,
    match insert_duplicate_ignored sample_tree 1 1 30 ⟨30, 0⟩ ⟨99, 9⟩
      (by decide) (by decide) (by decide) with
    | ⟨ih2, h1, h2, h3, h4, _⟩ => ⟨ih2, h1, h2, h3, h4⟩⟩

/-- C5: delete of a missing key is a normal false return that changes
nothing.  `delete_entry` returns false without an error when the tree is
empty, when the key is smaller than the first key of the first leaf, and when
the key is not among the pairs of the leaf reached by the DELETE descent; in
each case every page and the file header are unchanged.  On a valid tree these
three cases cover every key that is not stored. -/
theorem delete_missing_unchanged (ih : IxIndexHandle) (fuel : Nat) (key : Int) :
    (ih.is_empty = true → ih.delete_entry fuel key = Except.ok (false, ih)) ∧
    (ih.is_empty = false → key < (ih.fetch_node ih.file_hdr.first_leaf).get_key 0 →
      ih.delete_entry fuel key = Except.ok (false, ih)) ∧
    (∀ l, ih.is_empty = false → ¬ key < (ih.fetch_node ih.file_hdr.first_leaf).get_key 0 →
      leaf_reached ih.pages key Operation.DELETE
        (decide ((ih.fetch_node ih.file_hdr.first_leaf).get_key 0 = key)) fuel
        ih.file_hdr.root_page = some l →
      (∀ e ∈ (ih.pages l).pairs, e.1 ≠ key) →
      ∃ ih2, ih.delete_entry fuel key = Except.ok (false, ih2) ∧
        ih2.pages = ih.pages ∧ ih2.file_hdr = ih.file_hdr) ∧
    (∀ h, Valid ih h → h ≤ fuel → (∀ r, (key, r) ∉ tree_entries ih h) →
      ∃ ih2, ih.delete_entry fuel key = Except.ok (false, ih2) ∧
        ih2.pages = ih.pages ∧ ih2.file_hdr = ih.file_hdr) := by
  refine ⟨?_, ?_, ?_, ?_⟩
  · intro he
    unfold delete_entry
    rw [if_pos he]
  · intro he hc
    unfold delete_entry
    simp only [he, Bool.false_eq_true, if_false, ix_compare_gt, hc, if_true]
  · intro l he hc hl hk
    exact ⟨ih.unlock_page_set, delete_entry_not_found fuel ih key l he hc hl hk, rfl, rfl⟩
  · intro h hv hf hm
    rcases delete_entry_absent ih h fuel key hv hf hm with he | he
    · exact ⟨ih, he, rfl, rfl⟩
    · exact ⟨ih.unlock_page_set, he, rfl, rfl⟩

end RMDB

open RMDB RMDB.IxNodeHandle RMDB.IxIndexHandle

namespace RMDB

/-- C9 as stated fails: after inserting 10, 20, 30, 40, 5 into an empty tree
with `max_size = 4` the tree is valid, and the scan from `lower_bound 10` to
`upper_bound 30` yields the rids of the keys 10, 20 and 30, while the entries
with `10 ≤ key < 30` are those of the keys 10 and 20 only. -/
theorem range_scan_counterexample :
    (IxIndexHandle.insert_keys 3 (empty_index 4) [10, 20, 30, 40, 5]).map
      (fun ih => (decide (Valid ih 1), range_scan 3 ih 10 30,
        ((tree_entries ih 1).filter (fun e => decide (10 ≤ e.1 ∧ e.1 < 30))).map Prod.snd)) =
    Except.ok (true, Except.ok [⟨10, 0⟩, ⟨20, 0⟩, ⟨30, 0⟩], [⟨10, 0⟩, ⟨20, 0⟩]) := by
  decide!

/-- C9 (amended): on a valid tree, for `a ≤ b`, walking the leaf chain forward
from `lower_bound a` up to and excluding `upper_bound b` yields exactly the
rids of the entries with `a ≤ key ≤ b` (the upper key included), each once, in
ascending key order. -/
theorem range_scan_correct (ih : IxIndexHandle) (h fuel : Nat) (a b : Int)
    (hv : Valid ih h) (hf : h ≤ fuel) (hab : a ≤ b)
    (hn : ((tree_entries ih h).filter (fun e => decide (a ≤ e.1 ∧ e.1 ≤ b))).length ≤ fuel) :
    range_scan fuel ih a b =
      Except.ok (((tree_entries ih h).filter (fun e => decide (a ≤ e.1 ∧ e.1 ≤ b))).map
        Prod.snd) ∧
    (((tree_entries ih h).filter (fun e => decide (a ≤ e.1 ∧ e.1 ≤ b))).map
        Prod.fst).Pairwise (· < ·) := by
  refine ⟨range_scan_valid ih h fuel a b hv hf hab hn, ?_⟩
  have hs := valid_entries_sorted ih h hv
  rw [List.pairwise_map] at hs ⊢
  exact hs.sublist (List.filter_sublist _)

/-- Witness for the amended C9 on the sample tree: the scan for `10 ≤ key ≤ 30`
crosses from the first leaf to the second. -/
theorem range_scan_correct_witness :
    Valid sample_tree 1 ∧
      range_scan 3 sample_tree 10 30 = Except.ok [⟨10, 0⟩, ⟨20, 0⟩, ⟨30, 0⟩] :=
  ⟨by decide,
    (range_scan_correct sample_tree 1 3 10 30 (by decide) (by decide) (by decide)
      (by decide)).1⟩

/-- C10 as stated fails for odd `max_size`: with `max_size = 5` (so
`min_size = 3`) inserting 1, 2, 3, 4, 5 into an empty tree splits the full leaf
into a left half of 3 pairs and a right half (page 3) of 2 pairs, a non-root
node below `min_size`; all other invariants hold. -/
theorem occupancy_counterexample :
    (IxIndexHandle.insert_keys 3 (empty_index 5) [1, 2, 3, 4, 5]).map
      (fun ih => (decide (Valid ih 1), (ih.pages 2).get_size, (ih.pages 3).get_size,
        IxNodeHandle.get_min_size ih.file_hdr,
        decide (occupancy ih.file_hdr ih.pages 1 ih.file_hdr.root_page true))) =
    Except.ok (true, 3, 2, 3, false) := by
  decide!

end RMDB

open RMDB RMDB.IxNodeHandle RMDB.IxIndexHandle

namespace RMDB

end RMDB

open RMDB RMDB.IxNodeHandle RMDB.IxIndexHandle

namespace RMDB

/-- C4: delete of a stored key.  On a valid tree (invariants 2 to 5, `Valid`)
that is filled as invariant 1 fills it when `max_size` is at least three (every
internal node and every leaf other than a root leaf holds at least two pairs,
`filled`, see `filled_of_invariant`), `delete_entry key` for a stored `key`
returns true without an
error, and `get_value key` on the resulting index returns false with an empty
result list.  The resulting index is either empty (the key was the only one)
or a valid tree of the same height or one level less that holds exactly the
other pairs, in order.  The statement covers every path of the removal: no
structural change, a redistribute with the left or the right sibling, a chain
of coalesces up the tree, and the hand-over of the root to its only child. -/
theorem delete_stored_lookup (ih : IxIndexHandle) (h fuel : Nat) (key : Int) (r : Rid)
    (hv : Valid ih h) (hfill : filled ih h none) (hf : h + 1 ≤ fuel)
    (hin : (key, r) ∈ tree_entries ih h) :
    ∃ ih2, ih.delete_entry fuel key = Except.ok (true, ih2) ∧
      ih2.get_value fuel key [] = Except.ok (false, []) ∧
      ((ih2.is_empty = true ∧ tree_entries ih h = [(key, r)]) ∨
        ∃ h2, h2 ≤ h ∧ Valid ih2 h2 ∧
          tree_entries ih2 h2 = (tree_entries ih h).filter (fun e => decide (e.1 ≠ key))) := by
  obtain ⟨ih2, hd, _, _, hcase⟩ := delete_entry_valid ih h fuel key r hv hfill hf hin
  have hsorted := valid_entries_sorted ih h hv
  have hfilter : (tree_entries ih h).filter (fun e => decide (e.1 < key)) ++
      (tree_entries ih h).filter (fun e => decide (key < e.1)) =
      (tree_entries ih h).filter (fun e => decide (e.1 ≠ key)) := by
    generalize tree_entries ih h = E at hsorted
    induction E with
    | nil => rfl
    | cons e E ihE =>
      rw [List.map_cons, List.pairwise_cons] at hsorted
      have hrec := ihE hsorted.2
      by_cases h1 : e.1 < key
      · rw [List.filter_cons_of_pos (by simpa using h1),
          List.filter_cons_of_neg (by simp; omega),
          List.filter_cons_of_pos (by simp; omega), List.cons_append, hrec]
      · by_cases h2 : key < e.1
        · have hnone : E.filter (fun e => decide (e.1 < key)) = [] := by
            apply List.filter_eq_nil_iff.mpr
            intro x hx
            have := hsorted.1 x.1 (List.mem_map_of_mem _ hx)
            simp
            omega
          rw [hnone] at hrec
          rw [List.filter_cons_of_neg (by simpa using h1),
            List.filter_cons_of_pos (by simpa using h2),
            List.filter_cons_of_pos (by simp; omega), hnone, List.nil_append, ← hrec,
            List.nil_append]
        · rw [List.filter_cons_of_neg (by simpa using h1),
            List.filter_cons_of_neg (by simpa using h2),
            List.filter_cons_of_neg (by simp; omega), hrec]
  refine ⟨ih2, hd, ?_, ?_⟩
  · rcases hcase with ⟨he, _⟩ | ⟨h2, hh2, hv2, hent, _, _⟩
    · unfold get_value
      rw [if_pos he]
    · rw [get_value_valid ih2 h2 fuel key [] hv2 (by omega), hent, lookup_none]
      intro x hx
      rcases List.mem_append.mp hx with h1 | h1
      · have := (List.mem_filter.mp h1).2
        simp at this
        omega
      · have := (List.mem_filter.mp h1).2
        simp at this
        omega
  · rcases hcase with ⟨he, h1, _⟩ | ⟨h2, hh2, hv2, hent, _, _⟩
    · exact Or.inl ⟨he, h1⟩
    · exact Or.inr ⟨h2, hh2, hv2, by rw [hent, hfilter]⟩

/-- Witness for C4 on the sample tree: key 30 leaves the second leaf with one
key, which is refilled from the first leaf by a redistribute. -/
theorem delete_stored_lookup_witness :
    (Valid sample_tree 1 ∧ filled sample_tree 1 none ∧
      (30, (⟨30, 0⟩ : Rid)) ∈ tree_entries sample_tree 1) ∧
    ∃ ih2, sample_tree.delete_entry 2 30 = Except.ok (true, ih2) ∧
      ih2.get_value 2 30 [] = Except.ok (false, []) :=
  ⟨by decide,
    match delete_stored_lookup sample_tree 1 2 30 ⟨30, 0⟩ (by decide) (by decide)
      (by decide) (by decide) with
    | ⟨ih2, h1, h2, _⟩ => ⟨ih2, h1, h2⟩⟩

end RMDB

open RMDB RMDB.IxNodeHandle RMDB.IxIndexHandle

namespace RMDB

/-- Delete-then-insert equivalence of C6 on the lists of pairs, which is the
content of the pages as long as no node is given more than `max_size` pairs.
Let `ih` be a valid, filled tree (or an empty index) and `ih'` an index with
the same content except for `key`: a valid tree whose pairs are the pairs of
`ih` with other keys, or an empty index when `ih` holds no other key.  Then
`delete_entry key` followed by `insert_entry key r` on `ih`, and
`insert_entry key r` alone on the other index, both return without an error
and end in valid trees with the same ordered leaf-chain sequence of pairs, and
`get_value` gives the same result on both for every key.  The key may or may
not be stored in `ih` before the calls. -/
theorem delete_insert_equivalence (ih ih' : IxIndexHandle) (h h' fuel fuel' : Nat)
    (key : Int) (r : Rid)
    (hT : (Valid ih h ∧ filled ih h none ∧
        ((Valid ih' h' ∧
            tree_entries ih' h' = (tree_entries ih h).filter (fun e => decide (e.1 ≠ key))) ∨
          (ih'.is_empty = true ∧ 2 ≤ ih'.next_page_no ∧
            (tree_entries ih h).filter (fun e => decide (e.1 ≠ key)) = []))) ∨
      (ih.is_empty = true ∧ 2 ≤ ih.next_page_no ∧
        ih'.is_empty = true ∧ 2 ≤ ih'.next_page_no))
    (hf : h + 1 ≤ fuel) (hf' : h' + 1 ≤ fuel') :
    ∃ b ih1 pn ih2 pn' ih2' h2 h2',
      ih.delete_entry fuel key = Except.ok (b, ih1) ∧
      ih1.insert_entry fuel key r = Except.ok (pn, ih2) ∧
      ih'.insert_entry fuel' key r = Except.ok (pn', ih2') ∧
      Valid ih2 h2 ∧ Valid ih2' h2' ∧
      tree_entries ih2 h2 = tree_entries ih2' h2' ∧
      (key, r) ∈ tree_entries ih2 h2 ∧
      (∀ k g g', h2 ≤ g → h2' ≤ g' → ih2.get_value g k [] = ih2'.get_value g' k []) := by
  have hfin : ∀ (ih2 ih2' : IxIndexHandle) (h2 h2' : Nat), Valid ih2 h2 → Valid ih2' h2' →
      tree_entries ih2 h2 = tree_entries ih2' h2' →
      ∀ k g g', h2 ≤ g → h2' ≤ g' → ih2.get_value g k [] = ih2'.get_value g' k [] := by
    intro ih2 ih2' h2 h2' hv2 hv2' he k g g' hg hg'
    rw [get_value_valid ih2 h2 g k [] hv2 hg, get_value_valid ih2' h2' g' k [] hv2' hg', he]
  rcases hT with ⟨hv, hfill, hrest⟩ | ⟨he, hn, he', hn'⟩
  · obtain ⟨b, ih1, pn, ih2, h2, hd, hi, hv2, _, hent2⟩ :=
      delete_then_insert ih h fuel key r hv hfill hf
    obtain ⟨pn', ih2', h2', hi', hv2', hent2'⟩ :=
      insert_on_rest ih' h' fuel' key r (tree_entries ih h) hrest hf'
    have heq : tree_entries ih2 h2 = tree_entries ih2' h2' := by rw [hent2, hent2']
    exact ⟨b, ih1, pn, ih2, pn', ih2', h2, h2', hd, hi, hi', hv2, hv2', heq,
      by rw [hent2]; simp, hfin ih2 ih2' h2 h2' hv2 hv2' heq⟩
  · obtain ⟨ih2, hi, hv2, hent2, _⟩ := insert_entry_empty ih fuel key r he hn
    obtain ⟨ih2', hi', hv2', hent2', _⟩ := insert_entry_empty ih' fuel' key r he' hn'
    have heq : tree_entries ih2 0 = tree_entries ih2' 0 := by rw [hent2, hent2']
    have hd : ih.delete_entry fuel key = Except.ok (false, ih) := by
      unfold delete_entry
      rw [if_pos he]
    exact ⟨false, ih, 1, ih2, 1, ih2', 0, 0, hd, hi, hi', hv2, hv2', heq,
      by rw [hent2]; simp, hfin ih2 ih2' 0 0 hv2 hv2' heq⟩

/-- An instance of `delete_insert_equivalence` on the sample tree
(`max_size = 4`) and key 30, against the sample tree without key 30. -/
theorem delete_insert_equivalence_witness :
    (Valid sample_tree 1 ∧ filled sample_tree 1 none ∧
      Valid sample_tree_rest 1 ∧
      tree_entries sample_tree_rest 1 =
        (tree_entries sample_tree 1).filter (fun e => decide (e.1 ≠ 30))) ∧
    ∃ b ih1 pn ih2 pn' ih2' h2 h2',
      sample_tree.delete_entry 2 30 = Except.ok (b, ih1) ∧
      ih1.insert_entry 2 30 ⟨77, 7⟩ = Except.ok (pn, ih2) ∧
      sample_tree_rest.insert_entry 2 30 ⟨77, 7⟩ = Except.ok (pn', ih2') ∧
      Valid ih2 h2 ∧ Valid ih2' h2' ∧
      tree_entries ih2 h2 = tree_entries ih2' h2' :=
  ⟨by decide,
    match delete_insert_equivalence sample_tree sample_tree_rest 1 1 2 2 30 ⟨77, 7⟩
      (Or.inl (by decide)) (by decide) (by decide) with
    | ⟨b, ih1, pn, ih2, pn', ih2', h2, h2', a1, a2, a3, a4, a5, a6, _⟩ =>
      ⟨b, ih1, pn, ih2, pn', ih2', h2, h2', a1, a2, a3, a4, a5, a6⟩⟩

end RMDB

open RMDB RMDB.IxNodeHandle RMDB.IxIndexHandle

namespace RMDB

/-- C10, amended to an even `max_size` of at least four: after every serial
sequence of `insert_entry` and `delete_entry` calls that starts from the empty
index, with any keys and rids and with a loop budget above the number of
calls, no call has failed and the index is either empty or a valid tree in
which every non-root node holds at least `min_size = max_size / 2` and at most
`max_size - 1` pairs (`occupancy`), and whose root, when it is internal, has at
least two children.  Both halves of every split and the node left by every
coalesce are within these bounds. -/
theorem occupancy_even_max_size (m : Nat) (hev : 2 ∣ m) (h4 : 4 ≤ m) (ops : List IndexOp)
    (fuel : Nat) (hf : ops.length + 1 ≤ fuel) :
    ∃ ih, run_ops fuel (empty_index m) ops = Except.ok ih ∧
      ih.file_hdr.btree_order = m ∧
      (ih.is_empty = true ∨
        ∃ h, Valid ih h ∧ occupancy ih.file_hdr ih.pages h ih.file_hdr.root_page true ∧
          (h ≠ 0 → 2 ≤ (ih.pages ih.file_hdr.root_page).pairs.length)) := by
  obtain ⟨ih, hrun, hord, _, hcase⟩ := workload_run m hev h4 fuel ops 0 (empty_index m)
    (workload_inv_empty m) (by omega)
  refine ⟨ih, hrun, hord, ?_⟩
  rcases hcase with he | ⟨h, _, hv, ho, hr⟩
  · exact Or.inl he
  · exact Or.inr ⟨h, hv, occupancy_of_occ_nodes ih h hv ho, hr⟩

/-- Witness for the amended C10 with `max_size = 4`: four inserts fill and
split the root leaf, the delete of key 1 makes the left leaf underflow so that
the two leaves are merged and the root is handed back to the merged leaf. -/
theorem occupancy_even_max_size_witness :
    (2 ∣ 4 ∧ 4 ≤ 4) ∧
    ∃ ih, run_ops 6 (empty_index 4)
        [IndexOp.insert 1 ⟨1, 0⟩, IndexOp.insert 2 ⟨2, 0⟩, IndexOp.insert 3 ⟨3, 0⟩,
          IndexOp.insert 4 ⟨4, 0⟩, IndexOp.delete 1] = Except.ok ih ∧
      ih.file_hdr.btree_order = 4 ∧
      (ih.is_empty = true ∨
        ∃ h, Valid ih h ∧ occupancy ih.file_hdr ih.pages h ih.file_hdr.root_page true ∧
          (h ≠ 0 → 2 ≤ (ih.pages ih.file_hdr.root_page).pairs.length)) :=
  ⟨by decide,
    occupancy_even_max_size 4 (by decide) (by decide)
      [IndexOp.insert 1 ⟨1, 0⟩, IndexOp.insert 2 ⟨2, 0⟩, IndexOp.insert 3 ⟨3, 0⟩,
        IndexOp.insert 4 ⟨4, 0⟩, IndexOp.delete 1] 6 (by decide)⟩

end RMDB

open RMDB RMDB.IxNodeHandle RMDB.IxIndexHandle

namespace RMDB

/-- C16: on a node whose keys are strictly ascending (any number of keys, none
included), `IxNodeHandle::lower_bound(target)` returns an index `r` in
`[0, num_key]` such that every key before `r` is smaller than `target` and
every key from `r` on is at least `target`, so `r` is the smallest index with
`key[r] >= target`, and `r = num_key` when every key is smaller than `target`;
the binary search leaves its loop within `num_key + 1` iterations and passes
only indices in `[0, num_key)` to `get_key`. -/
theorem node_lower_bound_correct (n : IxNodeHandle) (hs : keys_sorted n) (target : Int) :
    0 ≤ n.lower_bound target ∧ n.lower_bound target ≤ n.get_size ∧
      (∀ i, 0 ≤ i → i < n.lower_bound target → n.get_key i < target) ∧
      (∀ i, n.lower_bound target ≤ i → i < n.get_size → target ≤ n.get_key i) ∧
      ((∀ i, 0 ≤ i → i < n.get_size → n.get_key i < target) →
        n.lower_bound target = n.get_size) ∧
      ∃ rs, n.lower_bound_trace target (n.pairs.length + 1) 0 (n.get_size - 1) =
          some (rs, n.lower_bound target) ∧
        ∀ i ∈ rs, 0 ≤ i ∧ i < n.get_size := by
  obtain ⟨a, b, c, d⟩ := lower_bound_spec n hs target
  refine ⟨a, b, c, d, ?_, lower_bound_reads_in_range n target⟩
  intro hall
  by_contra hne
  have h1 := d (n.lower_bound target) (le_refl _) (by omega)
  have h2 := hall (n.lower_bound target) a (by omega)
  omega

/-- Witness for C16 on the first leaf of the sample tree, keys 5, 10, 20:
`lower_bound(10)` is slot 1. -/
theorem node_lower_bound_correct_witness :
    keys_sorted (sample_tree.pages 2) ∧ (sample_tree.pages 2).lower_bound 10 = 1 ∧
      (sample_tree.pages 2).lower_bound 10 ≤ (sample_tree.pages 2).get_size :=
  ⟨by decide, by decide,
    (node_lower_bound_correct (sample_tree.pages 2) (by decide) 10).2.1⟩

/-- C17 as stated fails on an empty node: `upper_bound` starts its search at
index 1 and returns 1 on a node without keys, which is neither inside
`[1, num_key]` nor equal to `num_key = 0`. -/
theorem node_upper_bound_counterexample :
    keys_sorted zero_node ∧ zero_node.get_size = 0 ∧ zero_node.upper_bound 7 = 1 ∧
      ¬ (1 ≤ zero_node.upper_bound 7 ∧ zero_node.upper_bound 7 ≤ zero_node.get_size) ∧
      zero_node.upper_bound 7 ≠ zero_node.get_size := by
  decide

/-- C17 (amended to nodes with at least one key): on a node with
`num_key >= 1` whose keys are strictly ascending, `IxNodeHandle::upper_bound
(target)` returns an index `r` in `[1, num_key]` such that every key at an
index in `[1, r)` is at most `target` and every key from `r` on is greater
than `target`, so `r` is the smallest index `i >= 1` with `key[i] > target`,
and `r = num_key` when there is no such index; the binary search leaves its
loop within `num_key + 1` iterations and passes only indices in `[1, num_key)`
to `get_key`, so `key[0]` is never compared. -/
theorem node_upper_bound_correct (n : IxNodeHandle) (hs : keys_sorted n)
    (hne : 1 ≤ n.get_size) (target : Int) :
    1 ≤ n.upper_bound target ∧ n.upper_bound target ≤ n.get_size ∧
      (∀ i, 1 ≤ i → i < n.upper_bound target → n.get_key i ≤ target) ∧
      (∀ i, n.upper_bound target ≤ i → i < n.get_size → target < n.get_key i) ∧
      ((∀ i, 1 ≤ i → i < n.get_size → n.get_key i ≤ target) →
        n.upper_bound target = n.get_size) ∧
      ∃ rs, n.upper_bound_trace target (n.pairs.length + 1) 1 (n.get_size - 1) =
          some (rs, n.upper_bound target) ∧
        ∀ i ∈ rs, 1 ≤ i ∧ i < n.get_size := by
  obtain ⟨a, b, c, d⟩ := upper_bound_spec n hs target
  have hb : n.upper_bound target ≤ n.get_size := by omega
  refine ⟨a, hb, c, d, ?_, upper_bound_reads_in_range n target⟩
  intro hall
  by_contra hcon
  have h1 := d (n.upper_bound target) (le_refl _) (by omega)
  have h2 := hall (n.upper_bound target) a (by omega)
  omega

/-- Witness for the amended C17 on the first leaf of the sample tree, keys 5,
10, 20: `upper_bound(10)` is slot 2. -/
theorem node_upper_bound_correct_witness :
    (keys_sorted (sample_tree.pages 2) ∧ 1 ≤ (sample_tree.pages 2).get_size) ∧
      (sample_tree.pages 2).upper_bound 10 = 2 ∧
      (sample_tree.pages 2).upper_bound 10 ≤ (sample_tree.pages 2).get_size :=
  ⟨by decide, by decide,
    (node_upper_bound_correct (sample_tree.pages 2) (by decide) (by decide) 10).2.1⟩

/-- C18: on a leaf whose keys are strictly ascending, `leaf_lookup(key)`
returns true exactly when `key` is stored in the leaf; for a stored pair
`(key, r)` it returns true with the output set to `r`, for a key that is not
stored it returns false with the output as it was before the call; every
index it passes to `get_key` lies in `[0, num_key)`, so `key[num_key]` is never
read. -/
theorem leaf_lookup_single_leaf (n : IxNodeHandle) (hs : keys_sorted n) (key : Int)
    (value : Rid) :
    ((n.leaf_lookup_out key value).1 = true ↔ key ∈ n.pairs.map Prod.fst) ∧
      (∀ r, (key, r) ∈ n.pairs → n.leaf_lookup_out key value = (true, r)) ∧
      (key ∉ n.pairs.map Prod.fst → n.leaf_lookup_out key value = (false, value)) ∧
      (∀ i ∈ n.leaf_lookup_reads key, 0 ≤ i ∧ i < n.get_size) := by
  have hin : ∀ r, (key, r) ∈ n.pairs → n.leaf_lookup_out key value = (true, r) := by
    intro r hr
    rw [leaf_lookup_out_eq, leaf_lookup_eq n hs, lookup_of_mem_sorted n.pairs hs key r hr]
  have hout : key ∉ n.pairs.map Prod.fst → n.leaf_lookup_out key value = (false, value) := by
    intro hk
    rw [leaf_lookup_out_eq, leaf_lookup_eq n hs, lookup_none]
    intro x hx hxk
    exact hk (List.mem_map.mpr ⟨x, hx, hxk⟩)
  refine ⟨?_, hin, hout, ?_⟩
  · constructor
    · intro ht
      by_contra hk
      rw [hout hk] at ht
      exact absurd ht (by simp)
    · intro hk
      obtain ⟨x, hx, hxk⟩ := List.mem_map.mp hk
      obtain ⟨k, r⟩ := x
      simp only at hxk
      subst hxk
      rw [hin r hx]
  · obtain ⟨a, b, _⟩ := lower_bound_spec n hs key
    obtain ⟨rs, h1, h2⟩ := lower_bound_reads_in_range n key
    intro i hi
    unfold leaf_lookup_reads at hi
    simp only [h1, Option.map_some', Option.getD_some] at hi
    rcases List.mem_append.mp hi with h | h
    · exact h2 i h
    · by_cases hp : n.lower_bound key = n.get_size
      · rw [if_pos hp] at h
        simp at h
      · rw [if_neg hp] at h
        simp only [List.mem_singleton] at h
        subst h
        omega

/-- Witness for C18 on the first leaf of the sample tree, keys 5, 10, 20:
`leaf_lookup(10)` returns true with the rid stored with 10, whatever the
output held before. -/
theorem leaf_lookup_single_leaf_witness :
    keys_sorted (sample_tree.pages 2) ∧
      (sample_tree.pages 2).leaf_lookup_out 10 ⟨0, 0⟩ = (true, ⟨10, 0⟩) :=
  ⟨by decide,
    (leaf_lookup_single_leaf (sample_tree.pages 2) (by decide) 10 ⟨0, 0⟩).2.1 ⟨10, 0⟩
      (by decide)⟩

end RMDB

open RMDB RMDB.IxNodeHandle RMDB.IxIndexHandle

namespace RMDB

/-- C19: on an internal node with `num_key >= 1` and strictly ascending keys,
`internal_lookup(target, op)` for `op` one of INSERT, DELETE, FIND_UPPER
returns the child at `pos = upper_bound(target) - 1`; this is `child[0]` when
`num_key = 1` or `target < key[1]`, and `child[i]` for every `i >= 1` with
`key[i] <= target` and `target < key[i+1]` (no upper limit for the last slot);
when the first case does not apply such an `i` exists, and since the second
case fixes the same returned slot for every such `i`, it is unique. -/
theorem internal_lookup_upper (n : IxNodeHandle) (hs : keys_sorted n) (hne : 1 ≤ n.get_size)
    (target : Int) (op : Operation)
    (hop : op = Operation.INSERT ∨ op = Operation.DELETE ∨ op = Operation.FIND_UPPER) :
    n.internal_lookup target op = n.value_at (n.upper_bound target - 1) ∧
      ((n.get_size = 1 ∨ target < n.get_key 1) → n.upper_bound target - 1 = 0 ∧
        n.internal_lookup target op = n.value_at 0) ∧
      (∀ i, 1 ≤ i → i < n.get_size → n.get_key i ≤ target →
        (i + 1 < n.get_size → target < n.get_key (i + 1)) →
        n.upper_bound target - 1 = i ∧ n.internal_lookup target op = n.value_at i) ∧
      (¬ (n.get_size = 1 ∨ target < n.get_key 1) →
        ∃ i, 1 ≤ i ∧ i < n.get_size ∧ n.get_key i ≤ target ∧
          (i + 1 < n.get_size → target < n.get_key (i + 1))) := by
  obtain ⟨a, b, c, d⟩ := upper_bound_spec n hs target
  have hb : n.upper_bound target ≤ n.get_size := by omega
  have hpos : n.internal_lookup target op = n.value_at (n.upper_bound target - 1) := by
    unfold internal_lookup
    rw [if_neg (by rcases hop with h | h | h <;> simp [h])]
  refine ⟨hpos, ?_, ?_, ?_⟩
  · intro h01
    have h1 : n.upper_bound target = 1 := by
      rcases h01 with h | h
      · omega
      · by_contra hcon
        have := c 1 (le_refl _) (by omega)
        omega
    rw [hpos, h1]
    exact ⟨rfl, rfl⟩
  · intro i hi1 hi2 hk hk2
    have h1 : n.upper_bound target = i + 1 := by
      by_contra hcon
      rcases lt_or_gt_of_ne hcon with hlt | hgt
      · have := d i (by omega) hi2
        omega
      · have := c (i + 1) (by omega) hgt
        have := hk2 (by omega)
        omega
    rw [hpos, h1]
    exact ⟨by omega, by congr 1; omega⟩
  · intro hnot
    push_neg at hnot
    obtain ⟨hn1, hn2⟩ := hnot
    have h2 : 2 ≤ n.upper_bound target := by
      by_contra hcon
      have h1 : n.upper_bound target = 1 := by omega
      have := d 1 (by omega) (by omega)
      omega
    refine ⟨n.upper_bound target - 1, by omega, by omega, c _ (by omega) (by omega), ?_⟩
    intro hlt
    have := d (n.upper_bound target) (le_refl _) (by omega)
    have he : n.upper_bound target - 1 + 1 = n.upper_bound target := by omega
    rw [he]
    exact this

/-- Witness for C19 on the root of the sample tree, keys 5 and 30 over the
pages 2 and 3: an insert of 30 is routed to page 3, the child at slot 1. -/
theorem internal_lookup_upper_witness :
    (keys_sorted (sample_tree.pages 4) ∧ 1 ≤ (sample_tree.pages 4).get_size) ∧
      (sample_tree.pages 4).internal_lookup 30 Operation.INSERT = 3 ∧
      (sample_tree.pages 4).internal_lookup 30 Operation.INSERT =
        (sample_tree.pages 4).value_at ((sample_tree.pages 4).upper_bound 30 - 1) :=
  ⟨by decide, by decide,
    (internal_lookup_upper (sample_tree.pages 4) (by decide) (by decide) 30 Operation.INSERT
      (Or.inl rfl)).1⟩

/-- C20 as stated fails: in the valid sample tree the root (page 4) has
`key[1] = 30` over `child[1]` = page 3, whose leaf stores 30; for the target 30
`internal_lookup` with FIND and with FIND_LOWER returns page 2 = `child[0]`,
whose leaf does not store 30. -/
theorem internal_lookup_find_counterexample :
    Valid sample_tree 1 ∧ (sample_tree.pages 4).get_key 1 = 30 ∧
      (sample_tree.pages 4).value_at 0 = 2 ∧ (sample_tree.pages 4).value_at 1 = 3 ∧
      (sample_tree.pages 4).internal_lookup 30 Operation.FIND = 2 ∧
      (sample_tree.pages 4).internal_lookup 30 Operation.FIND_LOWER = 2 ∧
      30 ∉ (subtree_entries sample_tree.pages 0 2).map Prod.fst ∧
      30 ∈ (subtree_entries sample_tree.pages 0 3).map Prod.fst := by
  decide

/-- C20 (amended): on a node with strictly ascending keys, which every
internal node of a valid tree is, and for a target equal to the key at slot
`i`, `internal_lookup` with FIND and with FIND_LOWER has `lower_bound(target)
= i` and returns `child[i - 1]` when `i >= 1`, the child to the left of the
one whose subtree holds the target, and `child[0]` when `i = 0`. -/
theorem internal_lookup_find_equal_key (n : IxNodeHandle) (hs : keys_sorted n) (i : Int)
    (h0 : 0 ≤ i) (hi : i < n.get_size) (op : Operation)
    (hop : op = Operation.FIND ∨ op = Operation.FIND_LOWER) :
    n.lower_bound (n.get_key i) = i ∧
      n.internal_lookup (n.get_key i) op = n.value_at (if i = 0 then 0 else i - 1) := by
  have hl := lower_bound_of_key n hs i h0 hi
  refine ⟨hl, ?_⟩
  unfold internal_lookup
  rw [if_pos (by rcases hop with h | h <;> simp [h])]
  simp only [hl]
  by_cases hz : i = 0
  · rw [if_neg (by omega), if_pos hz, hz]
  · rw [if_pos (by omega), if_neg hz]

/-- Witness for the amended C20 on the root of the sample tree: the target 30
is the key at slot 1 and a FIND is routed to the child at slot 0. -/
theorem internal_lookup_find_equal_key_witness :
    (keys_sorted (sample_tree.pages 4) ∧ (0 : Int) ≤ 1 ∧ 1 < (sample_tree.pages 4).get_size) ∧
      (sample_tree.pages 4).internal_lookup ((sample_tree.pages 4).get_key 1) Operation.FIND =
        (sample_tree.pages 4).value_at (if (1 : Int) = 0 then 0 else 1 - 1) :=
  ⟨by decide,
    (internal_lookup_find_equal_key (sample_tree.pages 4) (by decide) 1 (by decide) (by decide)
      Operation.FIND (Or.inl rfl)).2⟩

end RMDB

open RMDB RMDB.IxNodeHandle RMDB.IxIndexHandle

namespace RMDB

/-- C14, the code at the failing inputs (`max_size = 4`).  First insert into
the empty index: `insert_entry(10, r)` returns 1, the `return true` of the
empty-tree branch and the page number of the leaf-header sentinel, while the
pair is stored in the new root leaf, page 2.  Insert with a split: after 10,
20, 30 the call `insert_entry(40, r)` fills and splits the root leaf (page 2)
and returns page 2, which keeps the keys 10 and 20, while 40 is stored in the
new right leaf, page 3. -/
theorem insert_entry_return_page :
    (IxIndexHandle.insert_entry 3 (empty_index 4) 10 ⟨10, 0⟩).map
        (fun res => (res.1, res.2.file_hdr.root_page, (res.2.pages 2).is_leaf,
          (res.2.pages 2).pairs.map Prod.fst, (res.2.pages 1).pairs.map Prod.fst)) =
      Except.ok (1, 2, true, [10], []) ∧
    ((IxIndexHandle.insert_keys 3 (empty_index 4) [10, 20, 30]).bind
        (fun ih => ih.insert_entry 3 40 ⟨40, 0⟩)).map
        (fun res => (res.1, (res.2.pages 2).pairs.map Prod.fst,
          (res.2.pages 3).is_leaf, (res.2.pages 3).pairs.map Prod.fst)) =
      Except.ok (2, [10, 20], true, [30, 40]) := by
  decide!

/-- C15 as stated fails: with `max_size = 4`, inserting 10, 20, 30, 40 and then
5 into the empty index leaves the root with the keys 5 and 30, not 5 and 25,
over the leaves `[5, 10, 20]` and `[30, 40]`, not `[25, 30, 40]`; the key 25 was
never inserted and is stored nowhere. -/
theorem scenario_two_counterexample :
    (IxIndexHandle.insert_keys 3 (empty_index 4) [10, 20, 30, 40, 5]).map
      (fun ih => ((ih.pages ih.file_hdr.root_page).pairs.map Prod.fst,
        (ih.pages 3).pairs.map Prod.fst,
        decide ((ih.pages ih.file_hdr.root_page).pairs.map Prod.fst = [5, 25]),
        decide (25 ∈ (tree_entries ih 1).map Prod.fst))) =
    Except.ok ([5, 30], [30, 40], false, false) := by
  decide!

/-- C15 (amended to the keys that were inserted): with `max_size = 4`,
inserting 10, 20, 30, 40 and then 5 into the empty index produces a valid tree
of height 1 whose internal root (page 4) has the keys 5 and 30 over the
children 2 and 3, the leaves being `[5, 10, 20]` (page 2) and `[30, 40]`
(page 3), linked to each other and to the leaf header in this order; and
`get_value(5)` returns true with the rid inserted with 5. -/
theorem scenario_two :
    (IxIndexHandle.insert_keys 3 (empty_index 4) [10, 20, 30, 40, 5]).map
      (fun ih => decide (Valid ih 1 ∧ ih.file_hdr.root_page = 4 ∧
        (ih.pages 4).is_leaf = false ∧
        (ih.pages 4).pairs.map (fun e => (e.1, e.2.page_no)) = [(5, 2), (30, 3)] ∧
        (ih.pages 2).is_leaf = true ∧ (ih.pages 2).pairs.map Prod.fst = [5, 10, 20] ∧
        (ih.pages 3).is_leaf = true ∧ (ih.pages 3).pairs.map Prod.fst = [30, 40] ∧
        leaf_ring ih.pages [2, 3] ∧
        ih.get_value 3 5 [] = Except.ok (true, [⟨5, 0⟩]))) =
    Except.ok true := by
  decide!

end RMDB

open RMDB RMDB.IxNodeHandle RMDB.IxIndexHandle

namespace RMDB

/-- The separator invariant of C11 within the page capacity, for an even
`max_size` of at least four (the sizes for which invariant 1 is kept, so that
no merge fills a node): after every serial sequence of
`insert_entry` and `delete_entry` calls that starts from the empty index, with
any keys and rids and a loop budget above the number of calls, no call has
failed and the index is either empty or a valid tree in which every key
`key[i]`, `i >= 0`, of every internal node is the minimum of the keys stored in
the subtree of `child[i]` (`separators_min`).  The sequence is arbitrary, so
this covers inserts of a new global minimum, deletes of the first key of any
leaf, and every split, redistribute and coalesce. -/
theorem separator_invariant (m : Nat) (hev : 2 ∣ m) (h4 : 4 ≤ m) (ops : List IndexOp)
    (fuel : Nat) (hf : ops.length + 1 ≤ fuel) :
    ∃ ih, run_ops fuel (empty_index m) ops = Except.ok ih ∧
      (ih.is_empty = true ∨
        ∃ h, Valid ih h ∧ separators_min ih.pages h ih.file_hdr.root_page) := by
  obtain ⟨ih, hrun, _, _, hcase⟩ := workload_run m hev h4 fuel ops 0 (empty_index m)
    (workload_inv_empty m) (by omega)
  refine ⟨ih, hrun, ?_⟩
  rcases hcase with he | ⟨h, _, hv, _, _⟩
  · exact Or.inl he
  · exact Or.inr ⟨h, hv, separators_of_wf ih.pages h _ _ hv.2.1 hv.2.2.1⟩

/-- An instance of `separator_invariant` with `max_size = 4`: the inserts 10,
20, 30, 40 split the root leaf, the insert of 5 is a new global minimum, the delete of 30 removes
the first key of the second leaf and makes it underflow. -/
theorem separator_invariant_witness :
    (2 ∣ 4 ∧ 4 ≤ 4 ∧ 6 + 1 ≤ 7) ∧
    ∃ ih, run_ops 7 (empty_index 4)
        [IndexOp.insert 10 ⟨10, 0⟩, IndexOp.insert 20 ⟨20, 0⟩, IndexOp.insert 30 ⟨30, 0⟩,
          IndexOp.insert 40 ⟨40, 0⟩, IndexOp.insert 5 ⟨5, 0⟩, IndexOp.delete 30] =
          Except.ok ih ∧
      (ih.is_empty = true ∨
        ∃ h, Valid ih h ∧ separators_min ih.pages h ih.file_hdr.root_page) :=
  ⟨by decide,
    separator_invariant 4 (by decide) (by decide)
      [IndexOp.insert 10 ⟨10, 0⟩, IndexOp.insert 20 ⟨20, 0⟩, IndexOp.insert 30 ⟨30, 0⟩,
        IndexOp.insert 40 ⟨40, 0⟩, IndexOp.insert 5 ⟨5, 0⟩, IndexOp.delete 30] 7 (by decide)⟩

/-- C12, the code at the failing input (`max_size = 4`): `insert_entry(1)`
and then `delete_entry(1)` on the empty index. The delete empties the root
leaf, page 2; `adjust_root` unlinks it with `erase_leaf` and sets the root to
`IX_NO_PAGE`, but leaves `first_leaf` and `last_leaf` of the file header as
they were. Afterwards the index is empty and the sentinel (page 1) is linked to
itself, while the two header fields still hold page 2: they are not the
sentinel's `next_leaf` and `prev_leaf`, and `leaf_begin()` and `leaf_end()`,
which read the two fields without a test of `is_empty()`, return positions on
the released page (`leaf_end()` after a `fetch_node` of it). In the index before the first insert both fields are the
sentinel. The other path that removes a leaf keeps the header up to date:
after the inserts of 1 to 4 and `delete_entry(4)`, `coalesce` has removed the
last leaf, page 3, and `last_leaf` is page 2, the sentinel's `prev_leaf`. -/
theorem leaf_ring_stale_header :
    (run_calls 3 (empty_index 4) [IndexCall.insert 1 ⟨1, 0⟩, IndexCall.delete 1]).map
      (fun ih => (ih.is_empty, ih.file_hdr.first_leaf, ih.file_hdr.last_leaf,
        (ih.pages IX_LEAF_HEADER_PAGE).next_leaf, (ih.pages IX_LEAF_HEADER_PAGE).prev_leaf)) =
      Except.ok (true, 2, 2, 1, 1) ∧
    (run_calls 3 (empty_index 4) [IndexCall.insert 1 ⟨1, 0⟩, IndexCall.delete 1]).map
      (fun ih => (ih.leaf_begin, ih.leaf_end.page_no)) = Except.ok (⟨2, 0⟩, 2) ∧
    ((empty_index 4).is_empty, (empty_index 4).file_hdr.first_leaf,
      (empty_index 4).file_hdr.last_leaf) = (true, 1, 1) ∧
    (run_calls 6 (empty_index 4)
        [IndexCall.insert 1 ⟨1, 0⟩, IndexCall.insert 2 ⟨2, 0⟩, IndexCall.insert 3 ⟨3, 0⟩,
          IndexCall.insert 4 ⟨4, 0⟩]).map
      (fun ih => (ih.file_hdr.last_leaf, (ih.pages IX_LEAF_HEADER_PAGE).prev_leaf)) =
      Except.ok (3, 3) ∧
    (run_calls 6 (empty_index 4)
        [IndexCall.insert 1 ⟨1, 0⟩, IndexCall.insert 2 ⟨2, 0⟩, IndexCall.insert 3 ⟨3, 0⟩,
          IndexCall.insert 4 ⟨4, 0⟩, IndexCall.delete 4]).map
      (fun ih => (ih.file_hdr.last_leaf, (ih.pages IX_LEAF_HEADER_PAGE).prev_leaf)) =
      Except.ok (2, 2) := by
  refine ⟨?_, ?_, ?_, ?_, ?_⟩ <;> decide!

/-- The leaf ring of C12 on every index that holds a tree, for an even
`max_size` of at least four: after every serial sequence of `insert_entry`,
`delete_entry` and `get_value` calls that starts from the empty index, no call
has failed, and either the index is empty and the sentinel is linked to
itself, or the index is a valid tree and the walk along `next_leaf` from the
sentinel visits the leaves of the tree in key order, each once, and comes back
to the sentinel; the walk along `prev_leaf` visits them in the reverse order,
`prev_leaf` being the inverse of `next_leaf` on every link (`leaf_ring`); the
keys of the leaves in that order are strictly ascending; and `first_leaf` and
`last_leaf` of the file header are the sentinel's `next_leaf` and
`prev_leaf`. -/
theorem leaf_ring_invariant (m : Nat) (hev : 2 ∣ m) (h4 : 4 ≤ m) (cs : List IndexCall)
    (fuel : Nat) (hf : cs.length + 1 ≤ fuel) :
    ∃ ih, run_calls fuel (empty_index m) cs = Except.ok ih ∧
      ((ih.is_empty = true ∧ leaf_ring ih.pages []) ∨
        ∃ h, Valid ih h ∧
          follow_next ih.pages (tree_leaves ih h).length
            (ih.pages IX_LEAF_HEADER_PAGE).next_leaf = some (tree_leaves ih h) ∧
          follow_prev ih.pages (tree_leaves ih h).length
            (ih.pages IX_LEAF_HEADER_PAGE).prev_leaf = some (tree_leaves ih h).reverse ∧
          (tree_leaves ih h).Nodup ∧
          leaf_ring ih.pages (tree_leaves ih h) ∧
          ((leaves_entries ih.pages (tree_leaves ih h)).map Prod.fst).Pairwise (· < ·) ∧
          ih.file_hdr.first_leaf = (ih.pages IX_LEAF_HEADER_PAGE).next_leaf ∧
          ih.file_hdr.last_leaf = (ih.pages IX_LEAF_HEADER_PAGE).prev_leaf) := by
  obtain ⟨ih, hrun, ⟨_, _, hcase⟩, hring⟩ := workload_calls m hev h4 fuel cs 0 (empty_index m)
    (workload_inv_empty m) (fun _ => empty_index_ring m) (by omega)
  refine ⟨ih, hrun, ?_⟩
  rcases hcase with he | ⟨h, _, hv, _, _⟩
  · exact Or.inl ⟨he, hring he⟩
  · obtain ⟨w1, w2, w3, w4⟩ := valid_ring_walk ih h hv
    exact Or.inr ⟨h, hv, w1, w2, valid_leaves_nodup ih h hv, hv.2.2.2.2.2.1, hv.2.2.1, w3, w4⟩

/-- An instance of `leaf_ring_invariant` with `max_size = 4`: inserts that
split the root leaf, lookups in between, and a delete that merges the two leaves. -/
theorem leaf_ring_invariant_witness :
    (2 ∣ 4 ∧ 4 ≤ 4 ∧ 7 + 1 ≤ 8) ∧
    ∃ ih, run_calls 8 (empty_index 4)
        [IndexCall.insert 1 ⟨1, 0⟩, IndexCall.insert 2 ⟨2, 0⟩, IndexCall.lookup 2,
          IndexCall.insert 3 ⟨3, 0⟩, IndexCall.insert 4 ⟨4, 0⟩, IndexCall.lookup 9,
          IndexCall.delete 1] = Except.ok ih ∧
      ((ih.is_empty = true ∧ leaf_ring ih.pages []) ∨
        ∃ h, Valid ih h ∧
          follow_next ih.pages (tree_leaves ih h).length
            (ih.pages IX_LEAF_HEADER_PAGE).next_leaf = some (tree_leaves ih h) ∧
          follow_prev ih.pages (tree_leaves ih h).length
            (ih.pages IX_LEAF_HEADER_PAGE).prev_leaf = some (tree_leaves ih h).reverse ∧
          (tree_leaves ih h).Nodup ∧
          leaf_ring ih.pages (tree_leaves ih h) ∧
          ((leaves_entries ih.pages (tree_leaves ih h)).map Prod.fst).Pairwise (· < ·) ∧
          ih.file_hdr.first_leaf = (ih.pages IX_LEAF_HEADER_PAGE).next_leaf ∧
          ih.file_hdr.last_leaf = (ih.pages IX_LEAF_HEADER_PAGE).prev_leaf) :=
  ⟨by decide,
    leaf_ring_invariant 4 (by decide) (by decide)
      [IndexCall.insert 1 ⟨1, 0⟩, IndexCall.insert 2 ⟨2, 0⟩, IndexCall.lookup 2,
        IndexCall.insert 3 ⟨3, 0⟩, IndexCall.insert 4 ⟨4, 0⟩, IndexCall.lookup 9,
        IndexCall.delete 1] 8 (by decide)⟩

/-- The parent pointers of C13 within the page capacity, for an even
`max_size` of at least four: after every serial sequence of `insert_entry` and
`delete_entry` calls that starts from the empty index, no call has failed and
the index is either empty or a valid tree whose root has
`parent = IX_NO_PAGE` and in which every child page listed in the rids of an
internal node has that node's page number as its `parent` (`parents_hold`).
The sequence is arbitrary, so this covers the children moved by an internal
split, redistribute or coalesce and a child promoted to root. -/
theorem parent_pointer_invariant (m : Nat) (hev : 2 ∣ m) (h4 : 4 ≤ m) (ops : List IndexOp)
    (fuel : Nat) (hf : ops.length + 1 ≤ fuel) :
    ∃ ih, run_ops fuel (empty_index m) ops = Except.ok ih ∧
      (ih.is_empty = true ∨
        ∃ h, Valid ih h ∧ (ih.pages ih.file_hdr.root_page).parent = IX_NO_PAGE ∧
          parents_hold ih.pages h ih.file_hdr.root_page) := by
  obtain ⟨ih, hrun, _, _, hcase⟩ := workload_run m hev h4 fuel ops 0 (empty_index m)
    (workload_inv_empty m) (by omega)
  refine ⟨ih, hrun, ?_⟩
  rcases hcase with he | ⟨h, _, hv, _, _⟩
  · exact Or.inl he
  · exact Or.inr ⟨h, hv, wf_root_parent ih.pages h _ _ hv.2.1,
      parents_of_wf ih.pages h _ _ hv.2.1⟩

/-- An instance of `parent_pointer_invariant` with `max_size = 4`: four
inserts split the root leaf under a new root, the delete of key 1 merges the leaves and promotes the
merged leaf to root. -/
theorem parent_pointer_invariant_witness :
    (2 ∣ 4 ∧ 4 ≤ 4 ∧ 5 + 1 ≤ 6) ∧
    ∃ ih, run_ops 6 (empty_index 4)
        [IndexOp.insert 1 ⟨1, 0⟩, IndexOp.insert 2 ⟨2, 0⟩, IndexOp.insert 3 ⟨3, 0⟩,
          IndexOp.insert 4 ⟨4, 0⟩, IndexOp.delete 1] = Except.ok ih ∧
      (ih.is_empty = true ∨
        ∃ h, Valid ih h ∧ (ih.pages ih.file_hdr.root_page).parent = IX_NO_PAGE ∧
          parents_hold ih.pages h ih.file_hdr.root_page) :=
  ⟨by decide,
    parent_pointer_invariant 4 (by decide) (by decide)
      [IndexOp.insert 1 ⟨1, 0⟩, IndexOp.insert 2 ⟨2, 0⟩, IndexOp.insert 3 ⟨3, 0⟩,
        IndexOp.insert 4 ⟨4, 0⟩, IndexOp.delete 1] 6 (by decide)⟩

end RMDB

open RMDB RMDB.IxNodeHandle RMDB.IxIndexHandle

namespace RMDB

/-- C21: on a node with strictly ascending keys, for every target, the FIND /
FIND_LOWER branch of `internal_lookup` returns the child at
`max(lower_bound - 1, 0)` and the INSERT / DELETE / FIND_UPPER branch returns
the child at `upper_bound - 1`; the two slots differ exactly when the target
equals the key at some slot `i >= 1`, so the two returned children differ only
if the target equals some key of the node. -/
theorem internal_lookup_branches_agree (n : IxNodeHandle) (hs : keys_sorted n) (target : Int)
    (opL opU : Operation) (hL : opL = Operation.FIND ∨ opL = Operation.FIND_LOWER)
    (hU : opU = Operation.INSERT ∨ opU = Operation.DELETE ∨ opU = Operation.FIND_UPPER) :
    n.internal_lookup target opL =
        n.value_at (if n.lower_bound target > 0 then n.lower_bound target - 1
          else n.lower_bound target) ∧
      n.internal_lookup target opU = n.value_at (n.upper_bound target - 1) ∧
      ((if n.lower_bound target > 0 then n.lower_bound target - 1 else n.lower_bound target) ≠
          n.upper_bound target - 1 ↔
        ∃ i, 1 ≤ i ∧ i < n.get_size ∧ n.get_key i = target) ∧
      (n.internal_lookup target opL ≠ n.internal_lookup target opU →
        ∃ i, 0 ≤ i ∧ i < n.get_size ∧ n.get_key i = target) := by
  have h1 : n.internal_lookup target opL =
      n.value_at (if n.lower_bound target > 0 then n.lower_bound target - 1
        else n.lower_bound target) := by
    unfold internal_lookup
    rw [if_pos (by rcases hL with h | h <;> simp [h])]
  have h2 : n.internal_lookup target opU = n.value_at (n.upper_bound target - 1) := by
    unfold internal_lookup
    rw [if_neg (by rcases hU with h | h | h <;> simp [h])]
  have h3 : (if n.lower_bound target > 0 then n.lower_bound target - 1
        else n.lower_bound target) ≠ n.upper_bound target - 1 →
      ∃ i, 1 ≤ i ∧ i < n.get_size ∧ n.get_key i = target := by
    intro hne
    by_contra hcon
    push_neg at hcon
    exact hne (lookup_positions_agree n hs target hcon)
  refine ⟨h1, h2, ⟨h3, ?_⟩, ?_⟩
  · rintro ⟨i, hi1, hi2, hk⟩
    rw [← hk, lower_bound_of_key n hs i (by omega) hi2, upper_bound_of_key n hs i hi1 hi2,
      if_pos (by omega)]
    omega
  · intro hne
    rw [h1, h2] at hne
    obtain ⟨i, hi1, hi2, hk⟩ := h3 (fun hc => hne (by rw [hc]))
    exact ⟨i, by omega, hi2, hk⟩

/-- Witness for C21 on the root of the sample tree, keys 5 and 30: for the
target 30, a separator, FIND goes to page 2 and INSERT to page 3; for the
target 20, not a key of the node, both go to page 2. -/
theorem internal_lookup_branches_agree_witness :
    keys_sorted (sample_tree.pages 4) ∧
      (sample_tree.pages 4).internal_lookup 20 Operation.FIND =
        (sample_tree.pages 4).internal_lookup 20 Operation.INSERT ∧
      (sample_tree.pages 4).internal_lookup 30 Operation.FIND ≠
        (sample_tree.pages 4).internal_lookup 30 Operation.INSERT ∧
      ∃ i, 0 ≤ i ∧ i < (sample_tree.pages 4).get_size ∧ (sample_tree.pages 4).get_key i = 30 :=
  ⟨by decide, by decide, by decide,
    (internal_lookup_branches_agree (sample_tree.pages 4) (by decide) 30 Operation.FIND
      Operation.INSERT (Or.inl rfl) (Or.inl rfl)).2.2.2 (by decide)⟩

/-- C25: for a node that is not the root, `is_safe(INSERT)` holds exactly when
`num_key + 1 < max_size`, `is_safe(DELETE)` exactly when
`num_key - 1 >= min_size`, and `is_safe` holds for FIND, FIND_LOWER and
FIND_UPPER; the INSERT condition is the same for every node, the root
included. -/
theorem is_safe_non_root (hdr : IxFileHdr) (n : IxNodeHandle) (hnr : n.is_root_page = false) :
    (n.is_safe hdr Operation.INSERT = true ↔ n.get_size + 1 < get_max_size hdr) ∧
      (n.is_safe hdr Operation.DELETE = true ↔ n.get_size - 1 ≥ get_min_size hdr) ∧
      n.is_safe hdr Operation.FIND = true ∧ n.is_safe hdr Operation.FIND_LOWER = true ∧
      n.is_safe hdr Operation.FIND_UPPER = true ∧
      (∀ r : IxNodeHandle,
        (r.is_safe hdr Operation.INSERT = true ↔ r.get_size + 1 < get_max_size hdr)) := by
  refine ⟨?_, ?_, ?_, ?_, ?_, ?_⟩
  · simp [is_safe]
  · simp [is_safe, hnr]
  · simp [is_safe]
  · simp [is_safe]
  · simp [is_safe]
  · intro r
    simp [is_safe]

/-- Witness for C25 on the first leaf of the sample tree (`max_size = 4`, three
keys): not safe for INSERT, safe for DELETE. -/
theorem is_safe_non_root_witness :
    (sample_tree.pages 2).is_root_page = false ∧
      (sample_tree.pages 2).is_safe sample_tree.file_hdr Operation.INSERT = false ∧
      ((sample_tree.pages 2).is_safe sample_tree.file_hdr Operation.DELETE = true ↔
        (sample_tree.pages 2).get_size - 1 ≥ get_min_size sample_tree.file_hdr) :=
  ⟨by decide, by decide,
    (is_safe_non_root sample_tree.file_hdr (sample_tree.pages 2) (by decide)).2.1⟩

/-- C26 as stated fails: the root of the sample tree is internal with two
children and `is_safe(DELETE)` is false on it; a root leaf with one key also
has `is_safe(DELETE)` false. -/
theorem is_safe_root_counterexample :
    ((sample_tree.pages 4).is_root_page = true ∧ (sample_tree.pages 4).is_leaf = false ∧
        (sample_tree.pages 4).get_size = 2 ∧
        (sample_tree.pages 4).is_safe sample_tree.file_hdr Operation.DELETE = false) ∧
      (one_key_root.is_root_page = true ∧ one_key_root.is_leaf = true ∧
        one_key_root.get_size = 1 ∧
        one_key_root.is_safe sample_tree.file_hdr Operation.DELETE = false) := by
  decide

/-- C26 (amended to the thresholds of the code): for a root node,
`is_safe(DELETE)` holds exactly when the root is internal with
`num_key >= 3`, so that at least two children remain after one is removed, or
the root is a leaf with `num_key >= 2`, so that at least one key remains. -/
theorem is_safe_root_delete (hdr : IxFileHdr) (n : IxNodeHandle) (hr : n.is_root_page = true) :
    n.is_safe hdr Operation.DELETE = true ↔
      ((n.is_leaf = false ∧ n.get_size ≥ 3) ∨ (n.is_leaf = true ∧ n.get_size ≥ 2)) := by
  cases hl : n.is_leaf
  · simp [is_safe, hr, hl]
    constructor <;> intro h <;> omega
  · simp [is_safe, hr, hl]
    constructor <;> intro h <;> omega

/-- Witness for the amended C26 on the root of the sample tree: internal with
two children, not safe for DELETE. -/
theorem is_safe_root_delete_witness :
    (sample_tree.pages 4).is_root_page = true ∧
      ((sample_tree.pages 4).is_safe sample_tree.file_hdr Operation.DELETE = true ↔
        (((sample_tree.pages 4).is_leaf = false ∧ (sample_tree.pages 4).get_size ≥ 3) ∨
          ((sample_tree.pages 4).is_leaf = true ∧ (sample_tree.pages 4).get_size ≥ 2))) :=
  ⟨by decide, is_safe_root_delete sample_tree.file_hdr (sample_tree.pages 4) (by decide)⟩

/-- C27, the code on every slot: `IxIndexHandle::get_rid` returns the rid at
the slot when `0 <= slot_no < num_key` and throws `IndexEntryNotFoundError`
when `slot_no >= num_key`; when `slot_no < 0` it does not throw, the only test
being `slot_no >= num_key`, and hands back what `get_rid(slot_no)` reads in
front of the rid array. On the first leaf of the sample tree the slot `-1`
gives no error. -/
theorem get_rid_bounds (ih : IxIndexHandle) (iid : Iid) :
    (∀ (i : Nat) (hi : i < (ih.pages iid.page_no).pairs.length), iid.slot_no = i →
        ih.get_rid iid = Except.ok ((ih.pages iid.page_no).pairs.get ⟨i, hi⟩).2) ∧
      (iid.slot_no ≥ (ih.pages iid.page_no).get_size →
        ih.get_rid iid = Except.error IxError.IndexEntryNotFoundError) ∧
      (iid.slot_no < 0 →
        ih.get_rid iid = Except.ok ((ih.pages iid.page_no).get_rid iid.slot_no)) ∧
      sample_tree.get_rid ⟨2, -1⟩ ≠ Except.error IxError.IndexEntryNotFoundError := by
  refine ⟨?_, ?_, ?_, by decide⟩
  · intro i hi hs
    unfold IxIndexHandle.get_rid
    rw [if_neg (by simp only [fetch_node, get_size]; omega), hs]
    simp only [fetch_node]
    rw [get_rid_nat _ i hi]
    rfl
  · intro h
    unfold IxIndexHandle.get_rid
    simp only [fetch_node]
    rw [if_pos h]
  · intro h
    unfold IxIndexHandle.get_rid
    rw [if_neg (by simp only [fetch_node, get_size]; omega)]
    rfl

end RMDB

open RMDB RMDB.IxNodeHandle RMDB.IxIndexHandle

namespace RMDB

/-- C28: for a node `p` holding at least `min_size` pairs, with the page
handed out by `create_node` fresh (not `p`, not the next leaf of `p`, not a
child of `p`) and `p` neither its own next leaf nor its own child, `split(p)`
returns that new page; `p` keeps exactly its first `min_size` pairs, the new
page holds the other pairs in the same order from slot 0, so the pairs of `p`
followed by those of the new page are the original sequence; the new page
copies `is_leaf` and `parent` of `p`; and for a leaf the new page is linked
right after `p` in the leaf ring: `new.prev = p`, `new.next` is the old next
leaf of `p`, whose `prev` is now the new page, and `p.next = new`. -/
theorem split_partitions (ih0 : IxIndexHandle) (p : Int)
    (hsz : get_min_size ih0.file_hdr ≤ (ih0.pages p).get_size)
    (hpn : p ≠ ih0.next_page_no)
    (hnx : (ih0.pages p).is_leaf = true →
      (ih0.pages p).next_leaf ≠ p ∧ (ih0.pages p).next_leaf ≠ ih0.next_page_no)
    (hch : (ih0.pages p).is_leaf = false → ∀ e ∈ (ih0.pages p).pairs,
      e.2.page_no ≠ p ∧ e.2.page_no ≠ ih0.next_page_no) :
    ∃ ihS, ih0.split p = Except.ok (ihS, ih0.next_page_no) ∧
      (ihS.pages p).pairs = (ih0.pages p).pairs.take (get_min_size ih0.file_hdr).toNat ∧
      (ihS.pages ih0.next_page_no).pairs =
        (ih0.pages p).pairs.drop (get_min_size ih0.file_hdr).toNat ∧
      (ihS.pages p).pairs ++ (ihS.pages ih0.next_page_no).pairs = (ih0.pages p).pairs ∧
      (ihS.pages p).get_size = get_min_size ih0.file_hdr ∧
      (ihS.pages ih0.next_page_no).get_size =
        (ih0.pages p).get_size - get_min_size ih0.file_hdr ∧
      (ihS.pages ih0.next_page_no).is_leaf = (ih0.pages p).is_leaf ∧
      (ihS.pages ih0.next_page_no).parent = (ih0.pages p).parent ∧
      (ihS.pages p).is_leaf = (ih0.pages p).is_leaf ∧
      (ihS.pages p).parent = (ih0.pages p).parent ∧
      ((ih0.pages p).is_leaf = true →
        (ihS.pages ih0.next_page_no).prev_leaf = p ∧
        (ihS.pages ih0.next_page_no).next_leaf = (ih0.pages p).next_leaf ∧
        (ihS.pages (ih0.pages p).next_leaf).prev_leaf = ih0.next_page_no ∧
        (ihS.pages p).next_leaf = ih0.next_page_no ∧
        (ihS.pages p).prev_leaf = (ih0.pages p).prev_leaf) := by
  obtain ⟨ihS, hs, hpages, _⟩ := split_spec ih0 p hpn hnx hch
  have hmin0 : 0 ≤ get_min_size ih0.file_hdr := by
    unfold get_min_size get_max_size
    omega
  have hnew : ihS.pages ih0.next_page_no =
      { is_leaf := (ih0.pages p).is_leaf, parent := (ih0.pages p).parent,
        prev_leaf := if (ih0.pages p).is_leaf then p else 0,
        next_leaf := if (ih0.pages p).is_leaf then (ih0.pages p).next_leaf else 0,
        pairs := (ih0.pages p).pairs.drop (get_min_size ih0.file_hdr).toNat } := by
    rw [hpages]
    unfold split_pages
    rw [if_pos rfl]
  have hold : ihS.pages p =
      { ih0.pages p with
        pairs := (ih0.pages p).pairs.take (get_min_size ih0.file_hdr).toNat
        next_leaf := if (ih0.pages p).is_leaf then ih0.next_page_no
          else (ih0.pages p).next_leaf } := by
    rw [hpages]
    unfold split_pages
    rw [if_neg hpn, if_pos rfl]
  refine ⟨ihS, hs, ?_, ?_, ?_, ?_, ?_, ?_, ?_, ?_, ?_, ?_⟩
  · rw [hold]
  · rw [hnew]
  · rw [hold, hnew]
    exact List.take_append_drop _ _
  · rw [hold]
    unfold get_size at hsz ⊢
    simp only [List.length_take]
    omega
  · rw [hnew]
    unfold get_size at hsz ⊢
    simp only [List.length_drop]
    omega
  · rw [hnew]
  · rw [hnew]
  · rw [hold]
  · rw [hold]
  · intro hl
    obtain ⟨n1, n2⟩ := hnx hl
    refine ⟨?_, ?_, ?_, ?_, ?_⟩
    · rw [hnew]
      simp [hl]
    · rw [hnew]
      simp [hl]
    · rw [hpages]
      unfold split_pages
      rw [if_neg n2, if_neg n1]
      simp [hl]
    · rw [hold]
      simp [hl]
    · rw [hold]

/-- Witness for C28 on the first leaf of the sample tree (`max_size = 4`,
`min_size = 2`, pairs 5, 10, 20, next leaf page 3): the split keeps 5, 10 and
moves 20 to the new page 5. -/
theorem split_partitions_witness :
    (get_min_size sample_tree.file_hdr ≤ (sample_tree.pages 2).get_size ∧
      (2 : Int) ≠ sample_tree.next_page_no) ∧
    ∃ ihS, sample_tree.split 2 = Except.ok (ihS, sample_tree.next_page_no) ∧
      (ihS.pages 2).pairs =
        (sample_tree.pages 2).pairs.take (get_min_size sample_tree.file_hdr).toNat ∧
      (ihS.pages sample_tree.next_page_no).pairs =
        (sample_tree.pages 2).pairs.drop (get_min_size sample_tree.file_hdr).toNat :=
  ⟨by decide,
    match split_partitions sample_tree 2 (by decide) (by decide) (by decide) (by decide) with
    | ⟨ihS, h1, h2, h3, _⟩ => ⟨ihS, h1, h2, h3⟩⟩

end RMDB

open RMDB RMDB.IxNodeHandle RMDB.IxIndexHandle

namespace RMDB

/-- C29: let `node` be the child at slot `index` of `par` and `nb` its sibling
(at slot 1 when `index = 0`, else at slot `index - 1`), the three pages
distinct, `node` below `min_size` and `node.size + nb.size >= 2 * min_size`.
Then `redistribute(nb, node, par, index)` succeeds; the pairs of the left
child followed by those of the right child are the same sequence as before;
`node` has one pair more and `nb` one pair fewer, both at least `min_size`
when `node` had `min_size - 1`; the key of `par` at the slot of the right-hand
child (slot 1 when `index = 0`, else slot `index`) is the new first key of
that child, which is still the child at that slot; every other key and every
rid of `par` is as before; and for internal nodes the child that moved (the
first child of `nb` when `index = 0`, else its last child) has `node` as its
parent. -/
theorem redistribute_moves_one (ih0 : IxIndexHandle) (nb node par : Int) (index : Int)
    (h0 : 0 ≤ index) (hlt : index < (ih0.pages par).get_size)
    (h01 : index = 0 → 1 < (ih0.pages par).get_size)
    (hnode : (ih0.pages par).value_at index = node)
    (hnb : (ih0.pages par).value_at (if index = 0 then 1 else index - 1) = nb)
    (h1 : node ≠ nb) (h2 : node ≠ par) (h3 : nb ≠ par)
    (hu : (ih0.pages node).get_size < get_min_size ih0.file_hdr)
    (hsz : (ih0.pages node).get_size + (ih0.pages nb).get_size ≥ get_min_size ih0.file_hdr * 2)
    (hch : (ih0.pages node).is_leaf = false → ∀ e ∈ (ih0.pages nb).pairs,
      e.2.page_no ≠ node ∧ e.2.page_no ≠ nb ∧ e.2.page_no ≠ par) :
    ∃ ih2, ih0.redistribute nb node par index = Except.ok ih2 ∧
      (if index = 0 then
        (ih2.pages node).pairs ++ (ih2.pages nb).pairs =
          (ih0.pages node).pairs ++ (ih0.pages nb).pairs
      else
        (ih2.pages nb).pairs ++ (ih2.pages node).pairs =
          (ih0.pages nb).pairs ++ (ih0.pages node).pairs) ∧
      (ih2.pages node).get_size = (ih0.pages node).get_size + 1 ∧
      (ih2.pages nb).get_size = (ih0.pages nb).get_size - 1 ∧
      ((ih0.pages node).get_size = get_min_size ih0.file_hdr - 1 →
        get_min_size ih0.file_hdr ≤ (ih2.pages node).get_size ∧
        get_min_size ih0.file_hdr ≤ (ih2.pages nb).get_size) ∧
      (ih2.pages par).get_key (if index = 0 then 1 else index) =
        (ih2.pages (if index = 0 then nb else node)).get_key 0 ∧
      (ih2.pages par).value_at (if index = 0 then 1 else index) =
        (if index = 0 then nb else node) ∧
      (∀ i, i ≠ (if index = 0 then 1 else index) →
        (ih2.pages par).get_key i = (ih0.pages par).get_key i) ∧
      (ih2.pages par).pairs.map Prod.snd = (ih0.pages par).pairs.map Prod.snd ∧
      ((ih0.pages node).is_leaf = false →
        (ih2.pages ((ih0.pages nb).value_at
          (if index = 0 then 0 else (ih0.pages nb).get_size - 1))).parent = node) := by
  have hnbsz : 2 ≤ (ih0.pages nb).pairs.length := by
    simp only [get_size] at hu hsz
    have : 0 ≤ ((ih0.pages node).pairs.length : Int) := by omega
    omega
  by_cases hz : index = 0
  · subst hz
    have hpl : 1 < (ih0.pages par).pairs.length := by
      have := h01 rfl
      simp only [get_size] at this
      omega
    obtain ⟨eL, eR, Q2, hPp⟩ := two_of_length (ih0.pages par).pairs hpl
    obtain ⟨m, B2, hPb⟩ : ∃ m B2, (ih0.pages nb).pairs = m :: B2 := by
      cases hb : (ih0.pages nb).pairs with
      | nil => rw [hb] at hnbsz; simp at hnbsz
      | cons m B2 => exact ⟨m, B2, rfl⟩
    obtain ⟨ih2, hr, hpg, _⟩ := redistribute_left ih0 nb node par (ih0.pages node).pairs B2 Q2
      m eL eR rfl hPb hPp h1 h2 h3 (fun hl => hch hl m (by rw [hPb]; simp))
    have hN : ih2.pages node =
        { ih0.pages node with pairs := (ih0.pages node).pairs ++ [m] } := by
      rw [hpg, if_neg h2, if_pos rfl]
    have hB : ih2.pages nb = { ih0.pages nb with pairs := B2 } := by
      rw [hpg, if_neg h3, if_neg (Ne.symm h1), if_pos rfl]
    have hP : ih2.pages par = { ih0.pages par with
        pairs := eL :: (({ ih0.pages nb with pairs := B2 } : IxNodeHandle).get_key 0,
          eR.2) :: Q2 } := by
      rw [hpg, if_pos rfl]
    have hP2 : (ih2.pages par).pairs =
        [eL] ++ (({ ih0.pages nb with pairs := B2 } : IxNodeHandle).get_key 0, eR.2) :: Q2 := by
      rw [hP]
      rfl
    have hv1 : (ih0.pages par).value_at 1 = eR.2.page_no := by
      have := value_at_decomp (ih0.pages par) [eL] Q2 eR (by simp [hPp])
      simpa using this
    simp only [if_true] at hnb ⊢
    refine ⟨ih2, hr, ?_, ?_, ?_, ?_, ?_, ?_, ?_, ?_, ?_⟩
    · rw [hN, hB, hPb]
      simp
    · rw [hN]
      simp [get_size]
    · rw [hB]
      simp [get_size, hPb]
    · intro he
      rw [hN, hB]
      simp only [get_size] at he hsz ⊢
      rw [hPb] at hsz
      simp only [List.length_append, List.length_cons, List.length_nil] at hsz ⊢
      push_cast at hsz ⊢
      omega
    · rw [hB]
      have := get_key_decomp (ih2.pages par) [eL] Q2 _ hP2
      simpa using this
    · have := value_at_decomp (ih2.pages par) [eL] Q2 _ hP2
      simp only [List.length_singleton, Nat.cast_one] at this
      rw [this, ← hv1, hnb]
    · intro i hi
      exact get_key_replace_ne (ih2.pages par) (ih0.pages par) [eL] Q2 _ eR hP2
        (by simp [hPp]) i (by simpa using hi)
    · rw [hP, hPp]
      simp
    · intro hl
      have hm := hch hl m (by rw [hPb]; simp)
      have hv0 : (ih0.pages nb).value_at 0 = m.2.page_no := by
        have := value_at_decomp (ih0.pages nb) [] B2 m (by simp [hPb])
        simpa using this
      rw [hv0, hpg, if_neg hm.2.2, if_neg hm.1, if_neg hm.2.1, if_pos ⟨hl, rfl⟩]
  · have hidx : 1 ≤ index := by omega
    have hpl : index.toNat < (ih0.pages par).pairs.length := by
      simp only [get_size] at hlt
      omega
    obtain ⟨Q1, eL, eR, Q2, hPp, hQ1⟩ : ∃ Q1 eL eR Q2,
        (ih0.pages par).pairs = Q1 ++ eL :: eR :: Q2 ∧ index = (Q1.length : Int) + 1 := by
      have := list_decomp_two (ih0.pages par).pairs (index.toNat - 1) (by omega)
      refine ⟨_, _, _, _, this, ?_⟩
      simp only [List.length_take]
      omega
    obtain ⟨A2, m, hPa⟩ : ∃ A2 m, (ih0.pages nb).pairs = A2 ++ [m] := by
      have hne : (ih0.pages nb).pairs ≠ [] := by
        intro hc
        rw [hc] at hnbsz
        simp at hnbsz
      exact ⟨_, _, (List.dropLast_append_getLast hne).symm⟩
    subst hQ1
    obtain ⟨ih2, hr, hpg, _⟩ := redistribute_right ih0 nb node par A2 (ih0.pages node).pairs
      Q1 Q2 m eL eR hPa rfl hPp h1 h2 h3 (fun hl => hch hl m (by rw [hPa]; simp))
    have hN : ih2.pages node = { ih0.pages node with pairs := m :: (ih0.pages node).pairs } := by
      rw [hpg, if_neg h2, if_pos rfl]
    have hB : ih2.pages nb = { ih0.pages nb with pairs := A2 } := by
      rw [hpg, if_neg h3, if_neg (Ne.symm h1), if_pos rfl]
    have hP : ih2.pages par = { ih0.pages par with pairs := Q1 ++ eL :: (m.1, eR.2) :: Q2 } := by
      rw [hpg, if_pos rfl]
    have hPp2 : (ih0.pages par).pairs = (Q1 ++ [eL]) ++ eR :: Q2 := by simp [hPp]
    have hP2 : (ih2.pages par).pairs = (Q1 ++ [eL]) ++ (m.1, eR.2) :: Q2 := by simp [hP]
    have hlen : ((Q1 ++ [eL]).length : Int) = (Q1.length : Int) + 1 := by simp
    simp only [if_neg hz] at hnb ⊢
    refine ⟨ih2, hr, ?_, ?_, ?_, ?_, ?_, ?_, ?_, ?_, ?_⟩
    · rw [hN, hB, hPa]
      simp
    · rw [hN]
      simp [get_size]
    · rw [hB]
      simp [get_size, hPa]
    · intro he
      rw [hN, hB]
      simp only [get_size] at he hsz ⊢
      rw [hPa] at hsz
      simp only [List.length_append, List.length_cons, List.length_nil] at hsz ⊢
      push_cast at hsz ⊢
      omega
    · have := get_key_decomp (ih2.pages par) (Q1 ++ [eL]) Q2 _ hP2
      rw [hlen] at this
      rw [this, hN]
      exact (get_key_zero _ m (ih0.pages node).pairs rfl).1.symm
    · have := value_at_decomp (ih2.pages par) (Q1 ++ [eL]) Q2 _ hP2
      rw [hlen] at this
      have h4 := value_at_decomp (ih0.pages par) (Q1 ++ [eL]) Q2 _ hPp2
      rw [hlen] at h4
      rw [this, ← h4, hnode]
    · intro i hi
      exact get_key_replace_ne (ih2.pages par) (ih0.pages par) (Q1 ++ [eL]) Q2 _ eR hP2 hPp2 i
        (by rw [hlen]; exact hi)
    · rw [hP, hPp]
      simp
    · intro hl
      have hm := hch hl m (by rw [hPa]; simp)
      have hv0 : (ih0.pages nb).value_at ((ih0.pages nb).get_size - 1) = m.2.page_no := by
        have := value_at_decomp (ih0.pages nb) A2 [] m hPa
        have hs : (ih0.pages nb).get_size - 1 = (A2.length : Int) := by
          simp [get_size, hPa]
        rw [hs, this]
      rw [hv0, hpg, if_neg hm.2.2, if_neg hm.1, if_neg hm.2.1, if_pos ⟨hl, rfl⟩]

/-- Witness for C29 on the sample tree without key 30 (`min_size = 2`): the
second leaf (page 3, one pair) at slot 1 of the root takes the last pair of the
first leaf (page 2, three pairs). -/
theorem redistribute_moves_one_witness :
    ((0 : Int) ≤ 1 ∧ 1 < (sample_tree_rest.pages 4).get_size ∧
      (sample_tree_rest.pages 4).value_at 1 = 3 ∧
      (sample_tree_rest.pages 3).get_size < get_min_size sample_tree_rest.file_hdr ∧
      (sample_tree_rest.pages 3).get_size + (sample_tree_rest.pages 2).get_size ≥
        get_min_size sample_tree_rest.file_hdr * 2) ∧
    ∃ ih2, sample_tree_rest.redistribute 2 3 4 1 = Except.ok ih2 ∧
      (if (1 : Int) = 0 then
        (ih2.pages 3).pairs ++ (ih2.pages 2).pairs =
          (sample_tree_rest.pages 3).pairs ++ (sample_tree_rest.pages 2).pairs
      else
        (ih2.pages 2).pairs ++ (ih2.pages 3).pairs =
          (sample_tree_rest.pages 2).pairs ++ (sample_tree_rest.pages 3).pairs) ∧
      (ih2.pages 3).get_size = (sample_tree_rest.pages 3).get_size + 1 :=
  ⟨by decide,
    match redistribute_moves_one sample_tree_rest 2 3 4 1 (by decide) (by decide) (by decide)
      (by decide) (by decide) (by decide) (by decide) (by decide) (by decide) (by decide)
      (by decide) with
    | ⟨ih2, a, b, c, _⟩ => ⟨ih2, a, b, c⟩⟩

end RMDB

open RMDB RMDB.IxNodeHandle RMDB.IxIndexHandle

namespace RMDB

/-- C30: let `L` and `R` be adjacent children of `par`, `R` at the slot right
of `L`, the three pages distinct, both leaves or both internal, and let
`coalesce` be called as `coalesce_or_redistribute` calls it: with the
underfull node at rank 0 and its right sibling (`node = L`, `neighbor = R`,
which the function swaps), or with the underfull node `R` at a rank above 0
and its left sibling `L`. Then the merge succeeds, and in the state in which
`coalesce` returns, or which it hands to the recursive
`coalesce_or_redistribute` when the parent is left below `min_size`: `L` holds
its old pairs followed by all pairs of `R` in order; `par` has lost exactly
the entry at the rank of `R` and keeps the others, the entry of `L` included;
`R` is appended to the deferred-delete bag; the children of an internal `R`
have `parent = L`; and for leaves `R` is unlinked from the ring (`L.next` is
the old `R.next`, whose `prev` is `L`) and `last_leaf` is `L` when `R` was the
last leaf (`R.next` is the leaf header), else unchanged. -/
theorem coalesce_merges (recurse : IxIndexHandle → Int → Except IxError (Bool × IxIndexHandle))
    (ih0 : IxIndexHandle) (nb0 node0 par L R : Int) (index0 : Int)
    (hcase : (index0 = 0 ∧ node0 = L ∧ nb0 = R) ∨ (0 < index0 ∧ node0 = R ∧ nb0 = L))
    (hlt : (if index0 = 0 then 1 else index0) < (ih0.pages par).get_size)
    (hR : (ih0.pages par).value_at (if index0 = 0 then 1 else index0) = R)
    (hL : (ih0.pages par).value_at ((if index0 = 0 then 1 else index0) - 1) = L)
    (hLR : L ≠ R) (hLp : L ≠ par) (hRp : R ≠ par)
    (hkind : (ih0.pages L).is_leaf = (ih0.pages R).is_leaf)
    (hleaf : (ih0.pages R).is_leaf = true →
      (ih0.pages R).prev_leaf = L ∧ (ih0.pages R).next_leaf ≠ L ∧
        (ih0.pages R).next_leaf ≠ R ∧ (ih0.pages R).next_leaf ≠ par)
    (hint : (ih0.pages R).is_leaf = false → ∀ e ∈ (ih0.pages R).pairs,
      e.2.page_no ≠ L ∧ e.2.page_no ≠ R ∧ e.2.page_no ≠ par) :
    ∃ ih7, coalesce recurse ih0 nb0 node0 par index0 =
        (if (ih7.fetch_node par).get_size < IxNodeHandle.get_min_size ih7.file_hdr then
          recurse ih7 par
        else Except.ok (false, ih7)) ∧
      (ih7.pages L).pairs = (ih0.pages L).pairs ++ (ih0.pages R).pairs ∧
      (ih7.pages par).pairs =
        (ih0.pages par).pairs.take (if index0 = 0 then 1 else index0).toNat ++
          (ih0.pages par).pairs.drop ((if index0 = 0 then 1 else index0).toNat + 1) ∧
      (∃ e, e.2.page_no = R ∧ (ih0.pages par).pairs =
        (ih7.pages par).pairs.take (if index0 = 0 then 1 else index0).toNat ++
          e :: (ih7.pages par).pairs.drop (if index0 = 0 then 1 else index0).toNat) ∧
      (ih7.pages par).value_at ((if index0 = 0 then 1 else index0) - 1) = L ∧
      ih7.deleted_page_set = ih0.deleted_page_set ++ [R] ∧
      ((ih0.pages R).is_leaf = false →
        ∀ e ∈ (ih0.pages R).pairs, (ih7.pages e.2.page_no).parent = L) ∧
      ((ih0.pages R).is_leaf = true →
        (ih7.pages L).next_leaf = (ih0.pages R).next_leaf ∧
        (ih7.pages (ih0.pages R).next_leaf).prev_leaf = L ∧
        (ih7.pages L).prev_leaf = (ih0.pages L).prev_leaf ∧
        ih7.file_hdr.last_leaf =
          (if (ih0.pages R).next_leaf = IX_LEAF_HEADER_PAGE then L
            else ih0.file_hdr.last_leaf)) := by
  obtain ⟨r, hr⟩ : ∃ r, r = (if index0 = 0 then 1 else index0) := ⟨_, rfl⟩
  rw [← hr] at hlt hR hL ⊢
  have hr1 : 1 ≤ r := by
    rcases hcase with ⟨h, _⟩ | ⟨h, _⟩
    · rw [hr, if_pos h]
    · rw [hr, if_neg (by omega)]
      omega
  have hpl : r.toNat - 1 + 1 < (ih0.pages par).pairs.length := by
    simp only [get_size] at hlt
    omega
  obtain ⟨Q1, eL, eR, Q2, hPp, hQ1⟩ : ∃ Q1 eL eR Q2,
      (ih0.pages par).pairs = Q1 ++ eL :: eR :: Q2 ∧ r = (Q1.length : Int) + 1 := by
    have := list_decomp_two (ih0.pages par).pairs (r.toNat - 1) hpl
    refine ⟨_, _, _, _, this, ?_⟩
    simp only [List.length_take]
    omega
  have hcase2 : (index0 = 0 ∧ node0 = L ∧ nb0 = R ∧ Q1 = []) ∨
      (index0 = (Q1.length : Int) + 1 ∧ node0 = R ∧ nb0 = L) := by
    rcases hcase with ⟨h, h1, h2⟩ | ⟨h, h1, h2⟩
    · refine Or.inl ⟨h, h1, h2, ?_⟩
      rw [hr, if_pos h] at hQ1
      exact List.length_eq_zero.mp (by omega)
    · refine Or.inr ⟨?_, h1, h2⟩
      rw [hr, if_neg (by omega)] at hQ1
      exact hQ1
  have hPp2 : (ih0.pages par).pairs = (Q1 ++ [eL]) ++ eR :: Q2 := by simp [hPp]
  have hrt : r.toNat = (Q1 ++ [eL]).length := by
    simp only [List.length_append, List.length_singleton]
    omega
  have herase : (ih0.pages par).pairs.take r.toNat ++ (ih0.pages par).pairs.drop (r.toNat + 1) =
      Q1 ++ eL :: Q2 := by
    have := erase_pair_decomp (ih0.pages par) (Q1 ++ [eL]) Q2 eR hPp2
    have h2 := congrArg IxNodeHandle.pairs this
    unfold erase_pair at h2
    simp only [Int.toNat_ofNat] at h2
    rw [hrt, h2]
    simp
  have hvL : ∀ P : IxNodeHandle, P.pairs = Q1 ++ eL :: Q2 → P.value_at (r - 1) = eL.2.page_no := by
    intro P hP
    have := value_at_decomp P Q1 Q2 eL hP
    have he : r - 1 = (Q1.length : Int) := by omega
    rw [he, this]
  have hL2 : eL.2.page_no = L := by
    have := value_at_decomp (ih0.pages par) Q1 (eR :: Q2) eL hPp
    have he : r - 1 = (Q1.length : Int) := by omega
    rw [he, this] at hL
    exact hL
  have hR2 : eR.2.page_no = R := by
    have := value_at_decomp (ih0.pages par) (Q1 ++ [eL]) Q2 eR hPp2
    have he : r = ((Q1 ++ [eL]).length : Int) := by omega
    rw [he, this] at hR
    exact hR
  have hlost : ∀ P : IxNodeHandle, P.pairs = Q1 ++ eL :: Q2 →
      ∃ e, e.2.page_no = R ∧ (ih0.pages par).pairs =
        P.pairs.take r.toNat ++ e :: P.pairs.drop r.toNat := by
    intro P hP
    refine ⟨eR, hR2, ?_⟩
    have hP2 : P.pairs = (Q1 ++ [eL]) ++ Q2 := by simp [hP]
    rw [hP2, hrt, List.take_left', List.drop_left', hPp2] <;> rfl
  cases hlf : (ih0.pages R).is_leaf with
  | true =>
    obtain ⟨p1, p2, p3, p4⟩ := hleaf hlf
    obtain ⟨ih7, hco, hpg, hhdr, _, _, hdel⟩ := coalesce_leaf_spec recurse ih0 nb0 node0 par
      index0 L R Q1 Q2 eL eR hcase2 hPp (by rw [hkind, hlf]) hlf p1 hLR hLp hRp p2 p3 p4
    have hLpg : ih7.pages L = { ih0.pages L with
        pairs := (ih0.pages L).pairs ++ (ih0.pages R).pairs
        next_leaf := (ih0.pages R).next_leaf } := by
      rw [hpg, if_neg hLp, if_pos rfl]
    have hPpg : (ih7.pages par).pairs = Q1 ++ eL :: Q2 := by
      rw [hpg, if_pos rfl]
    refine ⟨ih7, hco, ?_, ?_, hlost _ hPpg, ?_, hdel, ?_, ?_⟩
    · rw [hLpg]
    · rw [hPpg, herase]
    · rw [hvL _ hPpg, hL2]
    · intro hc
      exact absurd hc (by simp)
    · intro _
      refine ⟨?_, ?_, ?_, ?_⟩
      · rw [hLpg]
      · rw [hpg, if_neg p4, if_neg p2, if_pos rfl]
      · rw [hLpg]
      · rw [hhdr]
  | false =>
    obtain ⟨ih7, hco, hpg, _, _, _, hdel⟩ := coalesce_internal_spec recurse ih0 nb0 node0 par
      index0 L R Q1 Q2 eL eR hcase2 hPp (by rw [hkind, hlf]) hlf hLR hLp hRp (hint hlf)
    have hLpg : ih7.pages L = { ih0.pages L with
        pairs := (ih0.pages L).pairs ++ (ih0.pages R).pairs } := by
      rw [hpg, if_neg hLp, if_pos rfl]
    have hPpg : (ih7.pages par).pairs = Q1 ++ eL :: Q2 := by
      rw [hpg, if_pos rfl]
    refine ⟨ih7, hco, ?_, ?_, hlost _ hPpg, ?_, hdel, ?_, ?_⟩
    · rw [hLpg]
    · rw [hPpg, herase]
    · rw [hvL _ hPpg, hL2]
    · intro _ e he
      obtain ⟨q1, q2, q3⟩ := hint hlf e he
      rw [hpg, if_neg q3, if_neg q1,
        if_pos (List.mem_map.mpr ⟨e, he, rfl⟩)]
    · intro hc
      exact absurd hc (by simp)

/-- Witness for C30 on the sample tree without key 30, called with the
underfull second leaf (page 3, rank 1) and its left sibling (page 2): page 2
takes all pairs and page 3 goes to the deferred-delete bag. -/
theorem coalesce_merges_witness :
    ((if (1 : Int) = 0 then 1 else 1) < (sample_tree_rest.pages 4).get_size ∧
      (sample_tree_rest.pages 4).value_at (if (1 : Int) = 0 then 1 else 1) = 3 ∧
      (sample_tree_rest.pages 2).is_leaf = (sample_tree_rest.pages 3).is_leaf) ∧
    ∃ ih7, coalesce (fun ih _ => Except.ok (false, ih)) sample_tree_rest 2 3 4 1 =
        (if (ih7.fetch_node 4).get_size < IxNodeHandle.get_min_size ih7.file_hdr then
          (fun ih _ => Except.ok (false, ih)) ih7 4
        else Except.ok (false, ih7)) ∧
      (ih7.pages 2).pairs = (sample_tree_rest.pages 2).pairs ++ (sample_tree_rest.pages 3).pairs :=
  ⟨by decide,
    match coalesce_merges (fun ih _ => Except.ok (false, ih)) sample_tree_rest 2 3 4 2 3 1
      (Or.inr ⟨by decide, rfl, rfl⟩) (by decide) (by decide) (by decide) (by decide)
      (by decide) (by decide) (by decide) (by decide) (by decide) with
    | ⟨ih7, a, b, _⟩ => ⟨ih7, a, b⟩⟩

end RMDB

open RMDB RMDB.IxNodeHandle RMDB.IxIndexHandle

namespace RMDB

end RMDB

open RMDB RMDB.IxNodeHandle RMDB.IxIndexHandle

namespace RMDB

/-- C31: the cases of `adjust_root`, for every handle `ih0` and node `root`.
When the node is internal with one key, the call returns true, the only child
becomes the root page of the file header and its parent pointer is `NO_PAGE`.
When the node is a leaf with no key, the call returns true and the root page
is `NO_PAGE` (the tree is empty), and when the leaf was linked to the leaf
header on both sides, as the only leaf of a tree is, the leaf header is left
with `prev = next = itself`. In every other case the call returns false and
the handle is unchanged. In particular, on a valid tree `ih` that is one leaf
with the one pair `(key, r)`, `delete_entry key` returns true and leaves an
empty tree with the leaf header linked to itself, and a later
`insert_entry key2 r2` builds a valid single-leaf tree holding `(key2, r2)`
only. -/
theorem adjust_root_cases (ih0 : IxIndexHandle) (root : Int) (ih : IxIndexHandle)
    (fuel : Nat) (key key2 : Int) (r r2 : Rid)
    (hv : Valid ih 0) (hone : tree_entries ih 0 = [(key, r)]) (hf : 1 ≤ fuel) :
    ((ih0.fetch_node root).is_leaf = false ∧ (ih0.fetch_node root).get_size = 1 →
      (ih0.adjust_root root).1 = true ∧
      (ih0.adjust_root root).2.file_hdr.root_page = (ih0.fetch_node root).value_at 0 ∧
      ((ih0.adjust_root root).2.pages ((ih0.fetch_node root).value_at 0)).parent =
        IX_NO_PAGE) ∧
    ((ih0.fetch_node root).is_leaf = true ∧ (ih0.fetch_node root).get_size = 0 →
      (ih0.adjust_root root).1 = true ∧
      (ih0.adjust_root root).2.file_hdr.root_page = IX_NO_PAGE ∧
      (ih0.adjust_root root).2.is_empty = true ∧
      ((ih0.fetch_node root).prev_leaf = IX_LEAF_HEADER_PAGE →
        (ih0.fetch_node root).next_leaf = IX_LEAF_HEADER_PAGE →
        ((ih0.adjust_root root).2.pages IX_LEAF_HEADER_PAGE).prev_leaf = IX_LEAF_HEADER_PAGE ∧
        ((ih0.adjust_root root).2.pages IX_LEAF_HEADER_PAGE).next_leaf =
          IX_LEAF_HEADER_PAGE)) ∧
    (¬((ih0.fetch_node root).is_leaf = false ∧ (ih0.fetch_node root).get_size = 1) →
      ¬((ih0.fetch_node root).is_leaf = true ∧ (ih0.fetch_node root).get_size = 0) →
      ih0.adjust_root root = (false, ih0)) ∧
    ∃ ih1 ih2, ih.delete_entry fuel key = Except.ok (true, ih1) ∧
      ih1.is_empty = true ∧ leaf_ring ih1.pages [] ∧
      ih1.insert_entry fuel key2 r2 = Except.ok (1, ih2) ∧ Valid ih2 0 ∧
      tree_entries ih2 0 = [(key2, r2)] := by
  refine ⟨?_, ?_, ?_, ?_⟩
  · intro hc
    unfold adjust_root
    rw [if_pos hc]
    refine ⟨rfl, rfl, ?_⟩
    simp only [release_node_handle, update_root_page_no, modify_node, Function.update_same]
  · intro hc
    have hc1 : ¬((ih0.fetch_node root).is_leaf = false ∧ (ih0.fetch_node root).get_size = 1) := by
      rintro ⟨h1, _⟩
      rw [hc.1] at h1
      cases h1
    unfold adjust_root
    rw [if_neg hc1, if_pos hc]
    refine ⟨rfl, rfl, ?_, ?_⟩
    · simp [is_empty, update_root_page_no]
    · intro hp hn
      simp only [fetch_node] at hp hn
      simp only [update_root_page_no, release_node_handle, erase_leaf, fetch_node, hp, hn]
      by_cases hr : root = IX_LEAF_HEADER_PAGE
      · subst hr
        simp [modify_node, Function.update_same, hp, hn]
      · simp [modify_node, Function.update_same, Function.update_noteq hr, hp, hn]
  · intro h1 h2
    unfold adjust_root
    rw [if_neg h1, if_neg h2]
  · have hfill : filled ih 0 none := by
      intro x hx _ hroot
      simp only [subtree_nodes, List.mem_singleton] at hx
      exact absurd rfl (hroot hx)
    have hin : (key, r) ∈ tree_entries ih 0 := by rw [hone]; simp
    obtain ⟨ih1, hd, _, hnext, hcase⟩ := delete_entry_valid ih 0 fuel key r hv hfill hf hin
    have hn2 : 2 ≤ ih.next_page_no := by
      have := hv.2.2.2.2.1 ih.file_hdr.root_page (by simp [subtree_nodes])
      omega
    rcases hcase with ⟨hemp, _, hring⟩ | ⟨h2, _, hv2, hent, _⟩
    · obtain ⟨ih2, hi, hv3, hent3, _⟩ :=
        insert_entry_empty ih1 fuel key2 r2 hemp (by rw [hnext]; exact hn2)
      exact ⟨ih1, ih2, hd, hemp, hring, hi, hv3, hent3⟩
    · exfalso
      obtain ⟨_, e, _, _, _, _, hmem, _⟩ := valid_first ih1 h2 hv2
      rw [hent, hone] at hmem
      simp at hmem

/-- Witness for C31 on the single-leaf tree with the key 7: the key is
deleted, then key 9 is inserted. -/
theorem adjust_root_cases_witness :
    (Valid one_key_tree 0 ∧ tree_entries one_key_tree 0 = [(7, ⟨7, 0⟩)]) ∧
    ∃ ih1 ih2, one_key_tree.delete_entry 1 7 = Except.ok (true, ih1) ∧
      ih1.is_empty = true ∧ leaf_ring ih1.pages [] ∧
      ih1.insert_entry 1 9 ⟨9, 0⟩ = Except.ok (1, ih2) ∧ Valid ih2 0 ∧
      tree_entries ih2 0 = [(9, ⟨9, 0⟩)] :=
  ⟨by decide,
    (adjust_root_cases one_key_tree 2 one_key_tree 1 7 9 ⟨7, 0⟩ ⟨9, 0⟩ (by decide) (by decide)
      (by decide)).2.2.2⟩

end RMDB

open RMDB RMDB.IxNodeHandle RMDB.IxIndexHandle

namespace RMDB

/-- C32: `maintain_parent` restores the first-key copies and stops early. Let
`pages0` hold a well-formed tree of height `h` with distinct pages and correct
parent pointers, let the arena of `ih` differ from it in keys only, and let
every separator of `ih` be the first key of its child except possibly the
separator of the node `curr`, whose first key has just changed. Then
`maintain_parent` from `curr` returns, given a loop budget of the number of
levels above `curr`; afterwards every separator of the tree is the first key
of its child, so for every node on the path from `curr` to the root the entry
of its parent at the rank of the node is the first key of the node; and for
some `n` the first `n` pages of the parent chain of `curr` have each been
overwritten in the one entry at the rank of their child on the chain, which
held another key, no other page has changed, and the next page of the chain,
when there is one, is the first whose entry already matched the first key of
its child: neither it nor any page above it is touched. -/
theorem maintain_parent_restores (pages0 : Int → IxNodeHandle) (h : Nat) (root : Int)
    (fuel : Nat) (ih : IxIndexHandle) (hc : Nat) (curr : Int)
    (hw : wf_subtree pages0 h root IX_NO_PAGE)
    (hnd : (subtree_nodes pages0 h root).Nodup)
    (hr : ∀ p ∈ subtree_nodes pages0 h root, 2 ≤ p)
    (hk : key_variant pages0 ih.pages)
    (hsep : seps_hold ih.pages (subtree_nodes pages0 h root) (some curr))
    (hs : sub_at pages0 hc curr h root) (hf : h ≤ fuel + hc) :
    ∃ ih2 n, maintain_parent fuel ih curr = Except.ok ih2 ∧
      seps_hold ih2.pages (subtree_nodes pages0 h root) none ∧
      (∀ c ∈ curr :: ancestors pages0 fuel curr, (pages0 c).parent ≠ IX_NO_PAGE →
        (ih2.pages (pages0 c).parent).get_key ((ih2.pages (pages0 c).parent).find_child c) =
          (ih2.pages c).get_key 0) ∧
      n ≤ (ancestors pages0 fuel curr).length ∧
      (∀ q, q ∉ (ancestors pages0 fuel curr).take n → ih2.pages q = ih.pages q) ∧
      walked ih.pages ih2.pages curr ((ancestors pages0 fuel curr).take n)
        ((ancestors pages0 fuel curr).drop n) := by
  obtain ⟨ih2, hm, hk2, hsep2, _⟩ :=
    maintain_parent_spec pages0 h root hw hnd hr fuel ih hc curr hk hsep hs hf
  obtain ⟨n, hn, hframe, hwalk⟩ := maintain_parent_chain pages0 h root hw hnd fuel ih hc curr
    (fun q => (hk q).2.1) hs ih2 hm
  refine ⟨ih2, n, hm, hsep2, ?_, hn, hframe, hwalk⟩
  intro c hcm hp
  have hsc : ∃ k, sub_at pages0 k c h root := by
    rcases List.mem_cons.mp hcm with h1 | h1
    · exact ⟨hc, by rw [h1]; exact hs⟩
    · obtain ⟨k, _, hk3⟩ := ancestors_above pages0 h root hw fuel hc curr hs c h1
      exact ⟨k, hk3⟩
  obtain ⟨k, hk3⟩ := hsc
  exact parent_entry_key pages0 ih2.pages h root hw hnd hk2 none hsep2 k c hk3 hp (by simp)

/-- Witness for C32: the sample tree after the first key of its right leaf
(page 3) changed from 30 to 35. -/
theorem maintain_parent_restores_witness :
    ∃ ih2 n, maintain_parent 1 sample_tree_changed 3 = Except.ok ih2 ∧
      seps_hold ih2.pages (subtree_nodes sample_tree.pages 1 4) none ∧
      (∀ c ∈ 3 :: ancestors sample_tree.pages 1 3, (sample_tree.pages c).parent ≠ IX_NO_PAGE →
        (ih2.pages (sample_tree.pages c).parent).get_key
            ((ih2.pages (sample_tree.pages c).parent).find_child c) =
          (ih2.pages c).get_key 0) ∧
      n ≤ (ancestors sample_tree.pages 1 3).length ∧
      (∀ q, q ∉ (ancestors sample_tree.pages 1 3).take n →
        ih2.pages q = sample_tree_changed.pages q) ∧
      walked sample_tree_changed.pages ih2.pages 3 ((ancestors sample_tree.pages 1 3).take n)
        ((ancestors sample_tree.pages 1 3).drop n) :=
  maintain_parent_restores sample_tree.pages 1 4 1 sample_tree_changed 0 3
    (by decide) (by decide) (by decide)
    (by
      intro q
      by_cases hq : q = 3
      · subst hq
        decide
      · have : sample_tree_changed.pages q = sample_tree.pages q := by
          simp [sample_tree_changed, modify_node_apply, hq]
        rw [this]
        exact ⟨rfl, rfl, fun x => x, fun _ => rfl⟩)
    (by unfold seps_hold; decide)
    (Or.inr ⟨(30, ⟨3, 0⟩), by decide, ⟨rfl, rfl⟩⟩) (by decide)

end RMDB

open RMDB RMDB.IxNodeHandle RMDB.IxIndexHandle

namespace RMDB

/-- C37: `is_safe` is sound for the early latch release. Let `ih` be a valid
tree. For every node that is `is_safe(INSERT)`, the node that `insert` of one
pair returns is not full, so `insert_entry` does not split it and does not
call `insert_into_parent`. For every non-root node that is `is_safe(DELETE)`,
the node that `remove` of one key returns holds at least `min_size` pairs, and
`coalesce_or_redistribute` on it returns false and leaves the handle as it
is. And for a key above the first key of the first leaf, the INSERT descent
with `find_first = false` returns a leaf whose first key the insert leaves in
place, and `maintain_parent` from that leaf returns the handle unchanged: no
ancestor is modified. -/
theorem is_safe_sound (ih : IxIndexHandle) (h fuel : Nat) (key : Int)
    (hv : Valid ih h) (hf : h ≤ fuel)
    (hgt : (ih.fetch_node ih.file_hdr.first_leaf).get_key 0 < key) :
    (∀ node k value m sz,
        (ih.fetch_node node).is_safe ih.file_hdr Operation.INSERT = true →
        (ih.fetch_node node).insert k value = Except.ok (m, sz) →
        IxNodeHandle.is_full ih.file_hdr m = false) ∧
    (∀ node k g, (ih.fetch_node node).is_root_page = false →
        (ih.fetch_node node).is_safe ih.file_hdr Operation.DELETE = true →
        IxNodeHandle.get_min_size ih.file_hdr ≤ ((ih.fetch_node node).remove k).1.get_size ∧
        coalesce_or_redistribute (g + 1)
            (ih.modify_node node (fun _ => ((ih.fetch_node node).remove k).1)) node =
          Except.ok (false, ih.modify_node node (fun _ => ((ih.fetch_node node).remove k).1))) ∧
    ∃ l flag ih1, ih.find_leaf_page fuel key Operation.INSERT false = Except.ok (l, flag, ih1) ∧
      ∀ value, ∃ m sz, (ih1.fetch_node l).insert key value = Except.ok (m, sz) ∧
        m.get_key 0 = (ih.fetch_node l).get_key 0 ∧
        maintain_parent fuel (ih1.modify_node l (fun _ => m)) l =
          Except.ok (ih1.modify_node l (fun _ => m)) := by
  refine ⟨?_, ?_, insert_descent_keeps_first ih h fuel key hv hf hgt⟩
  · intro node k value m sz hsafe hi
    have hsz := (insert_size_le _ k value m sz hi).1
    simp only [is_safe, if_true, decide_eq_true_eq] at hsafe
    simp only [is_full, beq_eq_false_iff_ne, ne_eq]
    omega
  · intro node k g hnr hsafe
    have hop : ¬ (Operation.DELETE = Operation.INSERT) := by decide
    simp only [is_safe, if_neg hop, if_true, hnr, Bool.false_eq_true, if_false,
      decide_eq_true_eq] at hsafe
    obtain ⟨h1, _, h3⟩ := remove_size_ge (ih.fetch_node node) k
    have hmin : IxNodeHandle.get_min_size ih.file_hdr ≤
        ((ih.fetch_node node).remove k).1.get_size := by omega
    refine ⟨hmin, ?_⟩
    have hpg : ((ih.modify_node node (fun _ => ((ih.fetch_node node).remove k).1)).fetch_node
        node) = ((ih.fetch_node node).remove k).1 := by
      simp [fetch_node, modify_node]
    have hroot : ((ih.fetch_node node).remove k).1.is_root_page = false := by
      unfold is_root_page at hnr ⊢
      rw [h3]
      exact hnr
    unfold coalesce_or_redistribute
    rw [hpg, hroot]
    simp only [Bool.false_eq_true, if_false]
    rw [if_pos (by simpa [modify_node] using hmin)]

/-- Witness for C37 on the sample tree and key 35. -/
theorem is_safe_sound_witness :
    ∃ l flag ih1, sample_tree.find_leaf_page 1 35 Operation.INSERT false =
        Except.ok (l, flag, ih1) ∧
      ∀ value, ∃ m sz, (ih1.fetch_node l).insert 35 value = Except.ok (m, sz) ∧
        m.get_key 0 = (sample_tree.fetch_node l).get_key 0 ∧
        maintain_parent 1 (ih1.modify_node l (fun _ => m)) l =
          Except.ok (ih1.modify_node l (fun _ => m)) :=
  (is_safe_sound sample_tree 1 1 35 (by decide) (by decide) (by decide)).2.2

end RMDB

open RMDB RMDB.IxNodeHandle RMDB.IxIndexHandle

namespace RMDB

/-- C33: crab release on the write path. For every valid tree `ih` of height
`h`, key, `op` in {INSERT, DELETE} and either value of `find_first`, when
`find_leaf_page` is entered with an empty latch bag (and a loop budget of at
least `h`) it returns; the node returned is the last node of the descent path
that the routing rule draws from the root (child 0 at every level when
`find_first` is set, `internal_lookup` otherwise) and is a leaf of the tree;
the tree itself is as before; and the latch bag and the returned root-latched
flag are those of the crab rule: with `find_first` unset and a node below the
root that is `is_safe(op)`, the bag holds, in root-to-leaf order, exactly the
nodes of the path from the deepest such node down to the leaf and the flag is
false; otherwise the bag holds the whole root-to-leaf path and the flag is
true. -/
theorem crab_release (ih : IxIndexHandle) (h fuel : Nat) (key : Int) (op : Operation)
    (ff : Bool) (hv : Valid ih h) (hf : h ≤ fuel)
    (hop : op = Operation.INSERT ∨ op = Operation.DELETE) (hbag : ih.latch_page_set = []) :
    ∃ l flag ih1, ih.find_leaf_page fuel key op ff = Except.ok (l, flag, ih1) ∧
      (descent_path ih.pages key op ff fuel ih.file_hdr.root_page).getLast? = some l ∧
      (ih.pages l).is_leaf = true ∧ l ∈ tree_leaves ih h ∧ same_tree ih ih1 ∧
      (ih1.latch_page_set, flag) =
        latch_bag_spec (fun c => (ih.pages c).is_safe ih.file_hdr op) ff
          (descent_path ih.pages key op ff fuel ih.file_hdr.root_page) := by
  have hreach : ∃ l, leaf_reached ih.pages key op ff fuel ih.file_hdr.root_page = some l ∧
      l ∈ tree_leaves ih h := by
    cases ff with
    | true =>
      obtain ⟨l, B, hl, hs⟩ := descent_first ih h hv key op fuel hf
      exact ⟨l, hl, by rw [hs]; simp⟩
    | false =>
      obtain ⟨l, A, B, hl, hs, _⟩ := descent_write_leaf ih h hv key op hop fuel hf
      exact ⟨l, hl, by rw [hs]; simp⟩
  obtain ⟨l, hl, hmem⟩ := hreach
  obtain ⟨l2, hlast, hr⟩ := leaf_reached_path ih.pages key op ff fuel ih.file_hdr.root_page
  rw [hl] at hr
  have hleaf : (ih.pages l2).is_leaf = true := by
    by_contra hc
    rw [if_neg hc] at hr
    cases hr
  rw [if_pos hleaf] at hr
  have hll : l = l2 := Option.some.inj hr
  subst hll
  obtain ⟨t, ht⟩ := descent_path_head ih.pages key op ff fuel ih.file_hdr.root_page
  have hloop := find_leaf_loop_bag key op ff hop fuel
    (ih.append_index_latch_page_set ih.file_hdr.root_page) ih.file_hdr.root_page true l
    hlast hleaf
  obtain ⟨flag, ih1, hfl, hst, hb⟩ : ∃ flag ih1,
      find_leaf_loop key op ff fuel (ih.append_index_latch_page_set ih.file_hdr.root_page)
        ih.file_hdr.root_page true = Except.ok (l, flag, ih1) ∧ same_tree ih ih1 ∧
      (ih1.latch_page_set, flag) =
        latch_bag_from (fun c => (ih.pages c).is_safe ih.file_hdr op) ff
          (ih.append_index_latch_page_set ih.file_hdr.root_page).latch_page_set true
          (descent_path ih.pages key op ff fuel ih.file_hdr.root_page).tail :=
    ⟨_, _, hloop, ⟨rfl, rfl, rfl, rfl⟩, rfl⟩
  refine ⟨l, flag, ih1, ?_, hlast, hleaf, hmem, hst, ?_⟩
  · unfold find_leaf_page
    rw [if_pos hop]
    exact hfl
  · rw [hb, ht]
    unfold latch_bag_from latch_bag_spec
    simp only [append_index_latch_page_set, hbag, List.nil_append, List.tail_cons,
      List.singleton_append]

/-- Witness for C33 on the sample tree: the INSERT descent for key 35 releases
the root at the safe right leaf, the DELETE descent keeps the whole path. -/
theorem crab_release_witness :
    (Valid sample_tree 1 ∧
      sample_tree.find_leaf_page 1 35 Operation.INSERT false =
        Except.ok (3, false, { sample_tree with latch_page_set := [3] }) ∧
      sample_tree.find_leaf_page 1 35 Operation.DELETE false =
        Except.ok (3, true, { sample_tree with latch_page_set := [4, 3] })) ∧
    ∃ l flag ih1, sample_tree.find_leaf_page 1 35 Operation.INSERT false =
        Except.ok (l, flag, ih1) ∧
      (descent_path sample_tree.pages 35 Operation.INSERT false 1
        sample_tree.file_hdr.root_page).getLast? = some l ∧
      (sample_tree.pages l).is_leaf = true ∧ l ∈ tree_leaves sample_tree 1 ∧
      same_tree sample_tree ih1 ∧
      (ih1.latch_page_set, flag) =
        latch_bag_spec (fun c => (sample_tree.pages c).is_safe sample_tree.file_hdr
          Operation.INSERT) false
          (descent_path sample_tree.pages 35 Operation.INSERT false 1
            sample_tree.file_hdr.root_page) :=
  ⟨⟨by decide, rfl, rfl⟩,
    crab_release sample_tree 1 1 35 Operation.INSERT false (by decide) (by decide)
      (by decide) rfl⟩

end RMDB

open RMDB

namespace RMDB

/-- C40: column resolution in `Analyze::check_column`. For every list of
column metadata whose table names are non-empty and every target with a
non-empty column name: when the table name of the target is empty, the call
succeeds and sets the table name to the owning table if exactly one column of
the list has that name, raises `AmbiguousColumnError` if two or more do, and
raises `ColumnNotFoundError` if none does; when the table name is non-empty,
the call raises `ColumnNotFoundError` if and only if no column of the list
matches both the table name and the column name, and otherwise returns with
the target unchanged. -/
theorem check_column_resolves (all_cols : List ColMeta) (target : TabCol)
    (htab : ∀ c ∈ all_cols, c.tab_name ≠ "") (hcol : target.col_name ≠ "") :
    (target.tab_name = "" →
      (∀ c, all_cols.filter (fun c => decide (c.name = target.col_name)) = [c] →
        check_column all_cols target = Except.ok { target with tab_name := c.tab_name }) ∧
      (2 ≤ (all_cols.filter (fun c => decide (c.name = target.col_name))).length →
        check_column all_cols target =
          Except.error (AnalyzeError.AmbiguousColumnError target.col_name)) ∧
      (all_cols.filter (fun c => decide (c.name = target.col_name)) = [] →
        check_column all_cols target =
          Except.error (AnalyzeError.ColumnNotFoundError target.col_name))) ∧
    (target.tab_name ≠ "" →
      (check_column all_cols target =
          Except.error (AnalyzeError.ColumnNotFoundError target.col_name) ↔
        ¬ ∃ c ∈ all_cols, c.tab_name = target.tab_name ∧ c.name = target.col_name) ∧
      ((∃ c ∈ all_cols, c.tab_name = target.tab_name ∧ c.name = target.col_name) →
        check_column all_cols target = Except.ok target)) := by
  obtain ⟨i1, _, i3, i4⟩ := infer_tab_name_spec target.col_name all_cols "" htab
  have hboth : ¬ (target.tab_name = "" ∧ target.col_name = "") := fun h => hcol h.2
  constructor
  · intro ht
    refine ⟨?_, ?_, ?_⟩
    · intro c hc
      have hcm : c ∈ all_cols := by
        have : c ∈ all_cols.filter (fun c => decide (c.name = target.col_name)) := by
          rw [hc]; simp
        exact (List.mem_filter.mp this).1
      unfold check_column
      rw [if_neg hboth, if_pos ht, i3 rfl c hc]
      simp only
      rw [if_neg (htab c hcm)]
    · intro hlen
      unfold check_column
      rw [if_neg hboth, if_pos ht, i4 rfl hlen]
    · intro hnone
      unfold check_column
      rw [if_neg hboth, if_pos ht, i1 hnone]
      simp
  · intro ht
    have hspec := is_find_loop_spec target all_cols
    have hcc : check_column all_cols target =
        if is_find_loop target all_cols true then
          Except.error (AnalyzeError.ColumnNotFoundError target.col_name)
        else Except.ok target := by
      unfold check_column
      rw [if_neg hboth, if_neg ht]
    constructor
    · rw [hcc, ← hspec]
      cases is_find_loop target all_cols true <;> simp
    · intro hex
      rw [hcc]
      have : is_find_loop target all_cols true = false := by
        cases hb : is_find_loop target all_cols true with
        | false => rfl
        | true => exact absurd hex (hspec.mp hb)
      rw [this]
      simp

/-- Witness for C40 on the sample columns: `a` resolves to table `t`, `b` is
ambiguous, `z` is not found, `u.c` is kept and `t.c` is not found. -/
theorem check_column_resolves_witness :
    ((∀ c ∈ sample_cols, c.tab_name ≠ "") ∧
      check_column sample_cols ⟨"", "a"⟩ = Except.ok ⟨"t", "a"⟩ ∧
      check_column sample_cols ⟨"", "b"⟩ =
        Except.error (AnalyzeError.AmbiguousColumnError "b") ∧
      check_column sample_cols ⟨"", "z"⟩ =
        Except.error (AnalyzeError.ColumnNotFoundError "z") ∧
      check_column sample_cols ⟨"u", "c"⟩ = Except.ok ⟨"u", "c"⟩ ∧
      check_column sample_cols ⟨"t", "c"⟩ =
        Except.error (AnalyzeError.ColumnNotFoundError "c")) ∧
    (check_column sample_cols ⟨"t", "c"⟩ =
        Except.error (AnalyzeError.ColumnNotFoundError "c") ↔
      ¬ ∃ c ∈ sample_cols, c.tab_name = "t" ∧ c.name = "c") :=
  ⟨by decide,
    ((check_column_resolves sample_cols ⟨"t", "c"⟩ (by decide) (by decide)).2
      (by decide)).1⟩

end RMDB

open RMDB

namespace RMDB

/-- C39: the record scan enumerates the occupied slots in order. For every
record file (page count, slots per page, slot bitmaps), `Bitmap::next_bit`
being the smallest set bit index above the current one or the bit count when
there is none, and with a loop budget of the number of record pages: the
constructor of `RmScan` returns, and every call of `next` from a cursor on a
page from `RM_FIRST_RECORD_PAGE` on with a slot number from -1 on returns;
after each of them either `is_end` holds or the cursor designates a slot of
the page whose bitmap bit is set, and `next` moves the cursor strictly up in
(page_no, slot_no) order unless it ends the scan. The cursors of a whole scan
(the constructor, then `next` until `is_end` holds) are exactly the list of
the occupied slots of the pages from `RM_FIRST_RECORD_PAGE` on, which ascends
strictly in (page_no, slot_no) order: every occupied slot is visited exactly
once, and nothing else is. -/
theorem record_scan_enumerates (file : RmFileHandle) (fuel k : Nat)
    (hf : (file.file_hdr.num_pages - RM_FIRST_RECORD_PAGE).toNat ≤ fuel)
    (hk : (occupied file).length ≤ k) :
    (∃ r0, RmScan.init file fuel = some r0 ∧
      (RmScan.is_end file r0 = true ∨
        (file.bitmap r0.page_no r0.slot_no = true ∧ 0 ≤ r0.slot_no ∧
          r0.slot_no < file.file_hdr.num_records_per_page))) ∧
    (∀ rid : Rid, RM_FIRST_RECORD_PAGE ≤ rid.page_no → -1 ≤ rid.slot_no →
      ∃ r, RmScan.next file fuel rid = some r ∧
        (RmScan.is_end file r = true ∨
          (file.bitmap r.page_no r.slot_no = true ∧ 0 ≤ r.slot_no ∧
            r.slot_no < file.file_hdr.num_records_per_page ∧ rid_lt rid r))) ∧
    RmScan.rids file fuel k = some (occupied file) ∧
    (occupied file).Pairwise rid_lt ∧
    (∀ r : Rid, r ∈ occupied file ↔
      (RM_FIRST_RECORD_PAGE ≤ r.page_no ∧ r.page_no < file.file_hdr.num_pages ∧
        0 ≤ r.slot_no ∧ r.slot_no < file.file_hdr.num_records_per_page ∧
        file.bitmap r.page_no r.slot_no = true)) := by
  have hstep : ∀ rid : Rid, RM_FIRST_RECORD_PAGE ≤ rid.page_no → -1 ≤ rid.slot_no →
      ∃ r, RmScan.next file fuel rid = some r ∧
        (RmScan.is_end file r = true ∨
          (file.bitmap r.page_no r.slot_no = true ∧ 0 ≤ r.slot_no ∧
            r.slot_no < file.file_hdr.num_records_per_page ∧ rid_lt rid r)) := by
    intro rid hp hs
    have hn := next_spec file fuel rid.page_no rid.slot_no (by omega)
    refine ⟨_, hn, ?_⟩
    cases hl : occupied_after file (file.file_hdr.num_pages - rid.page_no).toNat rid.page_no
        rid.slot_no with
    | nil =>
      left
      simp [RmScan.is_end]
    | cons r rest =>
      right
      have hm : r ∈ occupied_after file (file.file_hdr.num_pages - rid.page_no).toNat
          rid.page_no rid.slot_no := by rw [hl]; simp
      obtain ⟨a1, _, a3, a4, a5, a6⟩ := (occupied_after_mem file _ _ _ r hs).mp hm
      simp only [List.head?_cons, Option.getD_some]
      refine ⟨a5, a3, a4, ?_⟩
      by_cases he : r.page_no = rid.page_no
      · exact Or.inr ⟨he.symm, a6 he⟩
      · exact Or.inl (by omega)
  have hmem : ∀ r : Rid, r ∈ occupied file ↔
      (RM_FIRST_RECORD_PAGE ≤ r.page_no ∧ r.page_no < file.file_hdr.num_pages ∧
        0 ≤ r.slot_no ∧ r.slot_no < file.file_hdr.num_records_per_page ∧
        file.bitmap r.page_no r.slot_no = true) := by
    intro r
    unfold occupied
    rw [occupied_after_mem file _ _ _ r le_rfl]
    constructor
    · rintro ⟨h1, h2, h3, h4, h5, _⟩
      exact ⟨h1, by omega, h3, h4, h5⟩
    · rintro ⟨h1, h2, h3, h4, h5⟩
      exact ⟨h1, by omega, h3, h4, h5, fun _ => by omega⟩
  refine ⟨?_, hstep, ?_, occupied_after_sorted file _ _ _, hmem⟩
  · obtain ⟨r, hr, hcase⟩ := hstep ⟨RM_FIRST_RECORD_PAGE, -1⟩ le_rfl le_rfl
    refine ⟨r, hr, ?_⟩
    rcases hcase with h | ⟨h1, h2, h3, _⟩
    · exact Or.inl h
    · exact Or.inr ⟨h1, h2, h3⟩
  · have hn := next_spec file fuel RM_FIRST_RECORD_PAGE (-1) hf
    unfold RmScan.rids RmScan.init
    rw [hn]
    simp only
    cases hl : occupied file with
    | nil =>
      unfold occupied at hl
      rw [hl]
      simp only [List.head?_nil, Option.getD_none]
      have he : ∀ s : Int, RmScan.is_end file
          ⟨max RM_FIRST_RECORD_PAGE file.file_hdr.num_pages, s⟩ = true := by
        intro s
        simp [RmScan.is_end]
      cases k with
      | zero => simp [RmScan.rids_from, he]
      | succ k => simp [RmScan.rids_from, he]
    | cons r rest =>
      have hl2 := hl
      unfold occupied at hl2
      rw [hl2]
      simp only [List.head?_cons, Option.getD_some]
      obtain ⟨h3, h4⟩ := occupied_after_tail file _ _ _ r rest rfl hl2
      have hr1 := ((hmem r).mp (by rw [hl]; simp)).1
      rw [hl] at hk
      exact rids_from_spec file fuel hf rest k r (by simpa using hk) hr1 h3 h4

/-- Witness for C39 on the sample file: the scan visits slot 1 of page 1 and
slots 0 and 2 of page 3. -/
theorem record_scan_enumerates_witness :
    occupied sample_file = [⟨1, 1⟩, ⟨3, 0⟩, ⟨3, 2⟩] ∧
    RmScan.rids sample_file 3 3 = some (occupied sample_file) :=
  ⟨by decide,
    (record_scan_enumerates sample_file 3 3 (by decide) (by decide)).2.2.1⟩

end RMDB

open RMDB RMDB.IxNodeHandle RMDB.IxIndexHandle

namespace RMDB

/-- C35: deferred deletion order and latch balance in `delete_entry`. For
every handle entered with an empty latch bag and an empty deferred-delete
bag, every key and every loop budget, when `delete_entry` returns true (a key
was removed) the events of the call are, in this order: the work `A` of the
descent and of the structure changes, in which no `delete_page` is issued;
for each page `p` of a list `bag` the `WUnlatch` of `p` followed by its
`unpin_page`, `bag` being exactly the pages whose write latch is held after
`A`; `delete_page` for each page of `D`, the pages appended to the
deferred-delete bag during `A` (by `coalesce` and by
`coalesce_or_redistribute` for the root that `adjust_root` gives up), in the
order appended; and `root_latch_.unlock()` when `root_latch_` is still held.
On return the latch bag and the deferred-delete bag of the handle are empty,
no write latch and no read latch taken by the call is held, `root_latch_` is
released, and the pages deleted are the pages deferred. -/
theorem delete_latch_balance (ih : IxIndexHandle) (fuel : Nat) (key : Int)
    (ih2 : IxIndexHandle)
    (hbag : ih.latch_page_set = []) (hdel : ih.deleted_page_set = [])
    (hd : ih.delete_entry fuel key = Except.ok (true, ih2)) :
    ∃ (A : List LatchEv) (bag D : List Int) (flag : Bool),
      ih.delete_entry_events fuel key =
        A ++ unlock_events bag ++ D.map LatchEv.delete_page ++
          (if flag then [LatchEv.root_unlock] else []) ∧
      (LatchState.init.run A).deleted = [] ∧
      (LatchState.init.run A).wheld.Perm bag ∧
      (LatchState.init.run A).deferred = D ∧
      (LatchState.init.run A).root = flag ∧
      ih2.latch_page_set = [] ∧ ih2.deleted_page_set = [] ∧
      (LatchState.init.run (ih.delete_entry_events fuel key)).wheld = [] ∧
      (LatchState.init.run (ih.delete_entry_events fuel key)).rheld = [] ∧
      (LatchState.init.run (ih.delete_entry_events fuel key)).root = false ∧
      (LatchState.init.run (ih.delete_entry_events fuel key)).deleted =
        (LatchState.init.run (ih.delete_entry_events fuel key)).deferred := by
  unfold delete_entry at hd
  by_cases he : ih.is_empty = true
  · rw [if_pos he] at hd
    simp at hd
  rw [if_neg he] at hd
  simp only at hd
  by_cases hcmp : ix_compare ((ih.fetch_node ih.file_hdr.first_leaf).get_key 0) key > 0
  · rw [if_pos hcmp] at hd
    simp at hd
  rw [if_neg hcmp] at hd
  cases hfl : ih.find_leaf_page fuel key Operation.DELETE
      (decide (ix_compare ((ih.fetch_node ih.file_hdr.first_leaf).get_key 0) key = 0)) with
  | error e =>
    rw [hfl] at hd
    cases hd
  | ok res =>
    obtain ⟨leaf, flag, ih1⟩ := res
    rw [hfl] at hd
    simp only at hd
    by_cases hpre : (ih1.fetch_node leaf).get_size = ((ih1.fetch_node leaf).remove key).2
    · rw [if_pos hpre] at hd
      simp at hd
    rw [if_neg hpre] at hd
    cases hmp : maintain_parent fuel
        (ih1.modify_node leaf (fun _ => ((ih1.fetch_node leaf).remove key).1)) leaf with
    | error e =>
      rw [hmp] at hd
      cases hd
    | ok ih3 =>
      rw [hmp] at hd
      simp only at hd
      cases hcor : coalesce_or_redistribute fuel ih3 leaf with
      | error e =>
        rw [hcor] at hd
        cases hd
      | ok res2 =>
        obtain ⟨x, ih4⟩ := res2
        rw [hcor] at hd
        simp only [Except.ok.injEq, Prod.mk.injEq, true_and] at hd
        -- the events
        obtain ⟨A, hAdef⟩ : ∃ A : List LatchEv, A =
            [LatchEv.rlatch ih.file_hdr.first_leaf, LatchEv.runlatch ih.file_hdr.first_leaf] ++
              ih.find_leaf_page_events fuel key Operation.DELETE
                (decide (ix_compare ((ih.fetch_node ih.file_hdr.first_leaf).get_key 0) key = 0)) ++
              (LatchEv.write leaf :: maintain_parent_events fuel
                (ih1.modify_node leaf (fun _ => ((ih1.fetch_node leaf).remove key).1)) leaf) ++
              coalesce_or_redistribute_events fuel ih3 leaf := ⟨_, rfl⟩
        have hev : ih.delete_entry_events fuel key =
            A ++ unlock_events ih4.latch_page_set ++ ih4.deleted_page_set.map LatchEv.delete_page ++
            (if flag then [LatchEv.root_unlock] else []) := by
          rw [hAdef]
          unfold delete_entry_events
          rw [if_neg he]
          simp only
          rw [if_neg hcmp, hfl]
          simp only
          rw [if_neg hpre, hmp]
          simp only
          rw [hcor]
          simp only [List.append_assoc, List.cons_append, List.nil_append]
        -- the latches along the work
        have ht0 : (LatchState.init.run [LatchEv.rlatch ih.file_hdr.first_leaf,
            LatchEv.runlatch ih.file_hdr.first_leaf]).tracks ih false := by
          refine ⟨by rw [hbag]; exact List.Perm.refl _, by rw [hdel]; rfl, rfl, ?_, rfl⟩
          simp [LatchState.run, LatchState.step, LatchState.init]
        have hop : Operation.DELETE = Operation.INSERT ∨ Operation.DELETE = Operation.DELETE :=
          Or.inr rfl
        have hfl2 := hfl
        unfold find_leaf_page at hfl2
        rw [if_pos hop] at hfl2
        have ht1 := tracks_wlatch _ ih true ih.file_hdr.root_page
          (show ((LatchState.init.run [LatchEv.rlatch ih.file_hdr.first_leaf,
            LatchEv.runlatch ih.file_hdr.first_leaf]).step LatchEv.root_lock).tracks ih true from
            ⟨ht0.1, ht0.2.1, rfl, ht0.2.2.2.1, ht0.2.2.2.2⟩)
        have ht2 := find_leaf_loop_tracks key Operation.DELETE _ hop fuel _ _ _ _ _ _ _ hfl2 ht1
        obtain ⟨m1, m2⟩ := maintain_parent_bags fuel _ leaf ih3 hmp
        have ht3 := tracks_writes (LatchEv.write leaf :: maintain_parent_events fuel
            (ih1.modify_node leaf (fun _ => ((ih1.fetch_node leaf).remove key).1)) leaf) _ ih1 ih3 flag
          (only_writes_cons _ _ (maintain_parent_events_writes _ _ _)) m1 m2 ht2
        have ht4 := coalesce_or_redistribute_tracks fuel ih3 leaf x ih4 _ flag hcor ht3
        have hA : LatchState.init.run A =
            LatchState.run (LatchState.run (LatchState.run
              (((LatchState.init.run [LatchEv.rlatch ih.file_hdr.first_leaf,
                LatchEv.runlatch ih.file_hdr.first_leaf]).step LatchEv.root_lock).step
                  (LatchEv.wlatch ih.file_hdr.root_page))
              (find_leaf_loop_events key Operation.DELETE
                (decide (ix_compare ((ih.fetch_node ih.file_hdr.first_leaf).get_key 0) key = 0))
                fuel (ih.append_index_latch_page_set ih.file_hdr.root_page)
                ih.file_hdr.root_page true))
              (LatchEv.write leaf :: maintain_parent_events fuel
                (ih1.modify_node leaf (fun _ => ((ih1.fetch_node leaf).remove key).1)) leaf))
              (coalesce_or_redistribute_events fuel ih3 leaf) := by
          rw [hAdef]
          unfold find_leaf_page_events
          rw [run_append, run_append, run_append, run_append]
          rfl
        rw [← hA] at ht4
        clear hA hAdef ht3 ht2 ht1 ht0
        obtain ⟨t1, t2, t3, t4, t5⟩ := ht4
        obtain ⟨u1, u2, u3, u4, u5⟩ := run_unlock ih4.latch_page_set (LatchState.init.run A) []
          (by rw [List.append_nil]; exact t1)
        obtain ⟨d1, d2, d3, d4, d5⟩ := run_delete_pages ih4.deleted_page_set
          ((LatchState.init.run A).run (unlock_events ih4.latch_page_set))
        have hnil := List.Perm.eq_nil u1
        refine ⟨A, ih4.latch_page_set, ih4.deleted_page_set, flag, hev, t5, t1, t2, t3, ?_, ?_,
          ?_, ?_, ?_, ?_⟩
        · rw [← hd]; rfl
        · rw [← hd]
        · rw [hev, run_append, run_append, run_append]
          cases flag with
          | true =>
            simp only [if_true, run_cons, run_nil]
            show LatchState.wheld (LatchState.run _ _) = []
            rw [d2]
            exact hnil
          | false =>
            simp only [Bool.false_eq_true, if_false, run_nil]
            rw [d2]
            exact hnil
        · rw [hev, run_append, run_append, run_append]
          cases flag with
          | true =>
            simp only [if_true, run_cons, run_nil]
            show LatchState.rheld (LatchState.run _ _) = []
            rw [d3, u3]
            exact t4
          | false =>
            simp only [Bool.false_eq_true, if_false, run_nil]
            rw [d3, u3]
            exact t4
        · rw [hev, run_append, run_append, run_append]
          cases flag with
          | true =>
            simp only [if_true, run_cons, run_nil]
            rfl
          | false =>
            simp only [Bool.false_eq_true, if_false, run_nil]
            rw [d4, u2]
            exact t3
        · rw [hev, run_append, run_append, run_append]
          cases flag with
          | true =>
            simp only [if_true, run_cons, run_nil]
            show LatchState.deleted (LatchState.run _ _) = LatchState.deferred (LatchState.run _ _)
            rw [d1, d5, u5, u4, t5, t2]
            rfl
          | false =>
            simp only [Bool.false_eq_true, if_false, run_nil]
            rw [d1, d5, u5, u4, t5, t2]
            rfl

/-- Witness for C35 on the sample tree with two keys in each leaf: the delete
of key 30 merges the two leaves and gives up the root, so pages 3 and 4 are
deferred, then deleted after the three latches of the bag are released. -/
theorem delete_latch_balance_witness :
    sample_tree_small.delete_entry_events 2 30 =
      [LatchEv.rlatch 2, LatchEv.runlatch 2, LatchEv.root_lock, LatchEv.wlatch 4,
        LatchEv.wlatch 3, LatchEv.write 3, LatchEv.write 4, LatchEv.wlatch 2, LatchEv.write 2,
        LatchEv.write 2, LatchEv.write 1, LatchEv.defer 3, LatchEv.write 4, LatchEv.write 4,
        LatchEv.write 2, LatchEv.defer 4, LatchEv.wunlatch 4, LatchEv.unpin 4,
        LatchEv.wunlatch 3, LatchEv.unpin 3, LatchEv.wunlatch 2, LatchEv.unpin 2,
        LatchEv.delete_page 3, LatchEv.delete_page 4, LatchEv.root_unlock] ∧
    ∃ ih2, sample_tree_small.delete_entry 2 30 = Except.ok (true, ih2) ∧
      ∃ (A : List LatchEv) (bag D : List Int) (flag : Bool),
        sample_tree_small.delete_entry_events 2 30 =
          A ++ unlock_events bag ++ D.map LatchEv.delete_page ++
            (if flag then [LatchEv.root_unlock] else []) ∧
        (LatchState.init.run A).deleted = [] ∧
        (LatchState.init.run A).wheld.Perm bag ∧
        (LatchState.init.run A).deferred = D ∧
        (LatchState.init.run A).root = flag ∧
        ih2.latch_page_set = [] ∧ ih2.deleted_page_set = [] :=
  ⟨by decide,
    match delete_entry_valid sample_tree_small 1 2 30 ⟨30, 0⟩ (by decide) (by decide)
      (by decide) (by decide) with
    | ⟨ih2, hd, _⟩ =>
      ⟨ih2, hd,
        match delete_latch_balance sample_tree_small 2 30 ih2 rfl rfl hd with
        | ⟨A, bag, D, flag, a1, a2, a3, a4, a5, a6, a7, _⟩ =>
          ⟨A, bag, D, flag, a1, a2, a3, a4, a5, a6, a7⟩⟩⟩

end RMDB

open RMDB RMDB.IxNodeHandle RMDB.IxIndexHandle

namespace RMDB

/-- C34, the code at two failing inputs. On the valid tree with root (page 4)
over the leaves `[5, 10, 20]` (page 2) and `[30, 40, 50]` (page 3),
`delete_entry(30)` returns true; its descent finds the right leaf
`is_safe(DELETE)` and releases the write latch of the root and `root_latch_`;
`remove` changes the first key of the leaf, and `maintain_parent` overwrites
the key of the root (page 4) while the only write latch held is that of
page 3. On the valid tree that is one leaf (page 2) with one key,
`delete_entry` of that key returns true, and `erase_leaf`, called by
`adjust_root`, writes `next_leaf` and `prev_leaf` of the leaf header (page 1),
on which no latch is taken. -/
theorem write_without_latch :
    Valid sample_tree_wide 1 ∧
    (sample_tree_wide.delete_entry 2 30).map (fun res => res.1) = Except.ok true ∧
    sample_tree_wide.delete_entry_events 2 30 =
      [LatchEv.rlatch 2, LatchEv.runlatch 2, LatchEv.root_lock, LatchEv.wlatch 4,
        LatchEv.wlatch 3, LatchEv.wunlatch 4, LatchEv.unpin 4, LatchEv.root_unlock,
        LatchEv.write 3, LatchEv.write 4, LatchEv.wunlatch 3, LatchEv.unpin 3] ∧
    (LatchState.init.run
      [LatchEv.rlatch 2, LatchEv.runlatch 2, LatchEv.root_lock, LatchEv.wlatch 4,
        LatchEv.wlatch 3, LatchEv.wunlatch 4, LatchEv.unpin 4, LatchEv.root_unlock,
        LatchEv.write 3]).wheld = [3] ∧
    (LatchState.init.run (sample_tree_wide.delete_entry_events 2 30)).unlatched_writes = [4] ∧
    Valid one_key_tree 0 ∧
    (one_key_tree.delete_entry 1 7).map (fun res => res.1) = Except.ok true ∧
    one_key_tree.delete_entry_events 1 7 =
      [LatchEv.rlatch 2, LatchEv.runlatch 2, LatchEv.root_lock, LatchEv.wlatch 2,
        LatchEv.write 2, LatchEv.write 1, LatchEv.write 1, LatchEv.defer 2,
        LatchEv.wunlatch 2, LatchEv.unpin 2, LatchEv.delete_page 2, LatchEv.root_unlock] ∧
    (LatchState.init.run (one_key_tree.delete_entry_events 1 7)).unlatched_writes = [1, 1] := by
  decide

end RMDB

open RMDB RMDB.IxNodeHandle RMDB.IxIndexHandle

namespace RMDB

/-- C36, the code at the failing inputs. `get_rid` with a slot number at or
beyond the size of the node throws `IndexEntryNotFoundError` between the
fetch of the page and its unpin, so the page stays pinned; with a slot number
below the size it unpins the page and then reads the rid of the slot through
the node handle. `get_value` on the sample tree for key 25, which the first
leaf (page 2) does not hold, fetches the next leaf (page 3), unpins it, and
then reads its first key. The sibling `leaf_end` reads the size and then
unpins; `lower_bound` and `upper_bound` on the sample tree read under a pin
and leave no page pinned. -/
theorem read_after_unpin :
    (∀ (ih : IxIndexHandle) (iid : Iid),
      (iid.slot_no ≥ (ih.fetch_node iid.page_no).get_size →
        ih.get_rid iid = Except.error IxError.IndexEntryNotFoundError ∧
        ih.get_rid_pins iid = [PinEv.fetch iid.page_no, PinEv.read iid.page_no] ∧
        (PinState.init.run (ih.get_rid_pins iid)).pinned = [iid.page_no]) ∧
      (iid.slot_no < (ih.fetch_node iid.page_no).get_size →
        ih.get_rid_pins iid = [PinEv.fetch iid.page_no, PinEv.read iid.page_no,
          PinEv.unpin iid.page_no, PinEv.read iid.page_no] ∧
        (PinState.init.run (ih.get_rid_pins iid)).unpinned_reads = [iid.page_no])) ∧
    sample_tree.get_value 1 25 [] = Except.ok (false, []) ∧
    sample_tree.get_value_pins 1 25 =
      [PinEv.fetch 4, PinEv.read 4, PinEv.read 4, PinEv.fetch 2, PinEv.unpin 4, PinEv.read 2,
        PinEv.read 2, PinEv.read 2, PinEv.fetch 3, PinEv.unpin 3, PinEv.read 3,
        PinEv.unpin 2] ∧
    (PinState.init.run (sample_tree.get_value_pins 1 25)).unpinned_reads = [3] ∧
    (∀ ih : IxIndexHandle, PinState.init.run ih.leaf_end_pins = PinState.init) ∧
    PinState.init.run (sample_tree.lower_bound_pins 1 45) = PinState.init ∧
    PinState.init.run (sample_tree.upper_bound_pins 1 20) = PinState.init := by
  refine ⟨?_, by decide, by decide, by decide, ?_, by decide, by decide⟩
  · intro ih iid
    constructor
    · intro h
      refine ⟨?_, ?_, ?_⟩
      · unfold IxIndexHandle.get_rid
        rw [if_pos h]
      · unfold get_rid_pins
        rw [if_pos h]
        rfl
      · unfold get_rid_pins
        rw [if_pos h]
        simp [PinState.run, PinState.step, PinState.init]
    · intro h
      have h2 : ¬ iid.slot_no ≥ (ih.fetch_node iid.page_no).get_size := by omega
      refine ⟨?_, ?_⟩
      · unfold get_rid_pins
        rw [if_neg h2]
        rfl
      · unfold get_rid_pins
        rw [if_neg h2]
        simp [PinState.run, PinState.step, PinState.init]
  · intro ih
    simp [leaf_end_pins, PinState.run, PinState.step, PinState.init]

end RMDB

open RMDB RMDB.IxNodeHandle RMDB.IxIndexHandle

namespace RMDB

/-- C6, the code at the failing input (`max_size = 5`, so `min_size = 3`).
The inserts of 1 to 9 into the empty index build a valid tree within
invariant 1, the leaves `[1, 2, 3]`, `[4, 5, 6]`, `[7, 8, 9]` under the root.
`delete_entry(5)` leaves the second leaf with two pairs and merges it into the
first (two and three pairs are fewer than `2 * min_size`), so that the first
leaf, page 2, holds `max_size` pairs; `lower_bound(5)` on it is slot 4.
`insert_entry(5, r)` then adds a sixth pair to page 2 and does not split it,
`num_key` being 6 and not `max_size`, and allocates no page. The pair is put
in at slot 4 of a page whose key and rid arrays have five slots: on the words
of the page the key moved up from slot 4 lands in the word of `page_no` of rid
slot 0, so that the rid stored with key 1 turns from `(1, 0)` into `(6, 0)`.
`insert_entry(5, r)` on the tree built by the inserts of 1, 2, 3, 4, 6, 7, 8,
9, which holds the same pairs and never held key 5, leaves no leaf with more
than four pairs. -/
theorem delete_insert_overrun :
    (run_ops 12 (empty_index 5) (insert_keys [1, 2, 3, 4, 5, 6, 7, 8, 9])).map
        (fun ih => (decide (Valid ih 1),
          decide (occupancy ih.file_hdr ih.pages 1 ih.file_hdr.root_page true),
          (tree_leaves ih 1).map (fun l => (ih.pages l).pairs.map Prod.fst))) =
      Except.ok (true, true, [[1, 2, 3], [4, 5, 6], [7, 8, 9]]) ∧
    (run_ops 12 (empty_index 5)
        (insert_keys [1, 2, 3, 4, 5, 6, 7, 8, 9] ++ [IndexOp.delete 5])).map
        (fun ih => (decide (Valid ih 1), (ih.pages 2).pairs.map Prod.fst,
          IxNodeHandle.get_max_size ih.file_hdr, (ih.pages 2).lower_bound 5,
          ih.next_page_no)) =
      Except.ok (true, [1, 2, 3, 4, 6], 5, 4, 6) ∧
    (run_ops 12 (empty_index 5)
        (insert_keys [1, 2, 3, 4, 5, 6, 7, 8, 9] ++ [IndexOp.delete 5])).map
        (fun ih => (words_rid 5 (page_words 5 (ih.pages 2)) 0,
          words_rid 5 (insert_pairs_words 5 5 4 5 ⟨5, 0⟩ (page_words 5 (ih.pages 2))) 0)) =
      Except.ok (⟨1, 0⟩, ⟨6, 0⟩) ∧
    (run_ops 12 (empty_index 5)
        (insert_keys [1, 2, 3, 4, 5, 6, 7, 8, 9] ++
          [IndexOp.delete 5, IndexOp.insert 5 ⟨5, 0⟩])).map
        (fun ih => ((ih.pages 2).get_size, (ih.pages 2).pairs.map Prod.fst,
          IxNodeHandle.get_max_size ih.file_hdr, ih.next_page_no)) =
      Except.ok (6, [1, 2, 3, 4, 5, 6], 5, 6) ∧
    (run_ops 12 (empty_index 5) (insert_keys [1, 2, 3, 4, 6, 7, 8, 9])).map
        (fun ih => (decide (Valid ih 1),
          (tree_leaves ih 1).map (fun l => (ih.pages l).pairs.map Prod.fst))) =
      Except.ok (true, [[1, 2, 3], [4, 6, 7], [8, 9]]) ∧
    (run_ops 12 (empty_index 5)
        (insert_keys [1, 2, 3, 4, 6, 7, 8, 9] ++ [IndexOp.insert 5 ⟨5, 0⟩])).map
        (fun ih => (decide (Valid ih 1),
          (tree_leaves ih 1).map (fun l => (ih.pages l).pairs.map Prod.fst))) =
      Except.ok (true, [[1, 2, 3], [4, 5, 6, 7], [8, 9]]) := by
  refine ⟨?_, ?_, ?_, ?_, ?_, ?_⟩ <;> decide!

end RMDB

open RMDB RMDB.IxNodeHandle RMDB.IxIndexHandle

namespace RMDB

/-- C11, the code at the failing input (`max_size = 5`, so `min_size = 3`).
From the empty index, the inserts of 1 to 17, `delete_entry(10)` and the
inserts of 18 and 19 end in a valid tree whose separators are the minima of
their subtrees and whose root, page 4, is internal and holds `max_size` pairs:
the delete has merged two leaves and then the two internal nodes of three and
two children (fewer than `2 * min_size`), and `adjust_root` has made the
merged node the root. The last leaf, page 10, is child 4 of the root.
`insert_entry(20)` fills and splits that leaf, and `insert_into_parent` puts
the pair of the new leaf (key 19, page 11) in at slot 5 of the root; the root
is not split, `num_key` being 6 and not `max_size`. The key and rid arrays of
the page have five slots: on the words of the page the key 19 is written to
the word of `page_no` of rid slot 0, so that `child[0]` of the root turns from
page 2 into 19, which is no page of the index (the pages end at 11), while
`key[0]` stays 1. -/
theorem separator_overrun :
    (run_ops 22 (empty_index 5)
        (insert_keys [1, 2, 3, 4, 5, 6, 7, 8, 9, 10, 11, 12, 13, 14, 15, 16, 17] ++
          [IndexOp.delete 10, IndexOp.insert 18 ⟨18, 0⟩, IndexOp.insert 19 ⟨19, 0⟩])).map
        (fun ih => (decide (Valid ih 1),
          decide (separators_min ih.pages 1 ih.file_hdr.root_page),
          ih.file_hdr.root_page, IxNodeHandle.get_max_size ih.file_hdr)) =
      Except.ok (true, true, 4, 5) ∧
    (run_ops 22 (empty_index 5)
        (insert_keys [1, 2, 3, 4, 5, 6, 7, 8, 9, 10, 11, 12, 13, 14, 15, 16, 17] ++
          [IndexOp.delete 10, IndexOp.insert 18 ⟨18, 0⟩, IndexOp.insert 19 ⟨19, 0⟩])).map
        (fun ih => ((ih.pages 4).is_leaf, (ih.pages 4).pairs)) =
      Except.ok (false,
        [(1, ⟨2, 0⟩), (4, ⟨3, 0⟩), (7, ⟨5, 0⟩), (11, ⟨6, 0⟩), (16, ⟨10, 0⟩)]) ∧
    (run_ops 22 (empty_index 5)
        (insert_keys [1, 2, 3, 4, 5, 6, 7, 8, 9, 10, 11, 12, 13, 14, 15, 16, 17] ++
          [IndexOp.delete 10, IndexOp.insert 18 ⟨18, 0⟩, IndexOp.insert 19 ⟨19, 0⟩])).map
        (fun ih => ((ih.pages 10).pairs.map Prod.fst, (ih.pages 4).find_child 10 + 1,
          ih.next_page_no)) =
      Except.ok ([16, 17, 18, 19], 5, 11) ∧
    (run_ops 22 (empty_index 5)
        (insert_keys [1, 2, 3, 4, 5, 6, 7, 8, 9, 10, 11, 12, 13, 14, 15, 16, 17] ++
          [IndexOp.delete 10, IndexOp.insert 18 ⟨18, 0⟩, IndexOp.insert 19 ⟨19, 0⟩,
            IndexOp.insert 20 ⟨20, 0⟩])).map
        (fun ih => (ih.file_hdr.root_page, (ih.pages 4).get_size,
          (ih.pages 10).pairs.map Prod.fst, (ih.pages 11).pairs.map Prod.fst,
          ih.next_page_no)) =
      Except.ok (4, 6, [16, 17, 18], [19, 20], 12) ∧
    (run_ops 22 (empty_index 5)
        (insert_keys [1, 2, 3, 4, 5, 6, 7, 8, 9, 10, 11, 12, 13, 14, 15, 16, 17] ++
          [IndexOp.delete 10, IndexOp.insert 18 ⟨18, 0⟩, IndexOp.insert 19 ⟨19, 0⟩])).map
        (fun ih => (words_rid 5 (page_words 5 (ih.pages 4)) 0,
          words_rid 5 (insert_pairs_words 5 5 5 19 ⟨11, 0⟩ (page_words 5 (ih.pages 4))) 0,
          words_key (insert_pairs_words 5 5 5 19 ⟨11, 0⟩ (page_words 5 (ih.pages 4))) 0)) =
      Except.ok (⟨2, 0⟩, ⟨19, 0⟩, 1) := by
  refine ⟨?_, ?_, ?_, ?_, ?_⟩ <;> decide!

end RMDB

open RMDB RMDB.IxNodeHandle RMDB.IxIndexHandle

namespace RMDB

/-- C13, the code at the failing input (`max_size = 5`, so `min_size = 3`).
From the empty index, the inserts of 10, 20, ..., 170, `delete_entry(100)` and
the insert of 41 end in a valid tree in which every listed child has its
parent as `parent` and whose root, page 4, is internal and holds `max_size`
pairs, the children 2, 3, 5, 6, 10: the delete has merged two leaves and then
the two internal nodes of three and two children (fewer than
`2 * min_size`), and `adjust_root` has made the merged node the root.
`insert_entry(42)` fills and splits the leaf page 3, child 1 of the root, and
`insert_into_parent` puts the pair of the new leaf (key 50, page 11) in at
slot 2 of the root; the root is not split, `num_key` being 6 and not
`max_size`. The key and rid arrays of the page have five slots: on the words
of the page the key 160, moved up from slot 4, is written to the word of
`page_no` of rid slot 0, so that the first child listed in the root turns from
page 2 into 160, which is no page of the index (the pages end at 11), while
page 2 keeps the root as its `parent`. -/
theorem parent_pointer_overrun :
    (run_ops 22 (empty_index 5)
        (insert_keys [10, 20, 30, 40, 50, 60, 70, 80, 90, 100, 110, 120, 130, 140, 150, 160,
            170] ++
          [IndexOp.delete 100, IndexOp.insert 41 ⟨41, 0⟩])).map
        (fun ih => (decide (Valid ih 1),
          decide (parents_hold ih.pages 1 ih.file_hdr.root_page),
          ih.file_hdr.root_page, (ih.pages 4).parent, IxNodeHandle.get_max_size ih.file_hdr)) =
      Except.ok (true, true, 4, -1, 5) ∧
    (run_ops 22 (empty_index 5)
        (insert_keys [10, 20, 30, 40, 50, 60, 70, 80, 90, 100, 110, 120, 130, 140, 150, 160,
            170] ++
          [IndexOp.delete 100, IndexOp.insert 41 ⟨41, 0⟩])).map
        (fun ih => ((ih.pages 4).is_leaf, (ih.pages 4).pairs)) =
      Except.ok (false,
        [(10, ⟨2, 0⟩), (40, ⟨3, 0⟩), (70, ⟨5, 0⟩), (110, ⟨6, 0⟩), (160, ⟨10, 0⟩)]) ∧
    (run_ops 22 (empty_index 5)
        (insert_keys [10, 20, 30, 40, 50, 60, 70, 80, 90, 100, 110, 120, 130, 140, 150, 160,
            170] ++
          [IndexOp.delete 100, IndexOp.insert 41 ⟨41, 0⟩])).map
        (fun ih => ((ih.pages 3).pairs.map Prod.fst, (ih.pages 4).find_child 3 + 1,
          ih.next_page_no)) =
      Except.ok ([40, 41, 50, 60], 2, 11) ∧
    (run_ops 22 (empty_index 5)
        (insert_keys [10, 20, 30, 40, 50, 60, 70, 80, 90, 100, 110, 120, 130, 140, 150, 160,
            170] ++
          [IndexOp.delete 100, IndexOp.insert 41 ⟨41, 0⟩, IndexOp.insert 42 ⟨42, 0⟩])).map
        (fun ih => (ih.file_hdr.root_page, (ih.pages 4).get_size,
          (ih.pages 3).pairs.map Prod.fst, (ih.pages 11).pairs.map Prod.fst,
          ih.next_page_no)) =
      Except.ok (4, 6, [40, 41, 42], [50, 60], 12) ∧
    (run_ops 22 (empty_index 5)
        (insert_keys [10, 20, 30, 40, 50, 60, 70, 80, 90, 100, 110, 120, 130, 140, 150, 160,
            170] ++
          [IndexOp.delete 100, IndexOp.insert 41 ⟨41, 0⟩])).map
        (fun ih => (words_rid 5 (page_words 5 (ih.pages 4)) 0,
          words_rid 5 (insert_pairs_words 5 5 2 50 ⟨11, 0⟩ (page_words 5 (ih.pages 4))) 0)) =
      Except.ok (⟨2, 0⟩, ⟨160, 0⟩) ∧
    (run_ops 22 (empty_index 5)
        (insert_keys [10, 20, 30, 40, 50, 60, 70, 80, 90, 100, 110, 120, 130, 140, 150, 160,
            170] ++
          [IndexOp.delete 100, IndexOp.insert 41 ⟨41, 0⟩, IndexOp.insert 42 ⟨42, 0⟩])).map
        (fun ih => ((ih.pages 2).parent, (ih.pages 2).is_leaf)) =
      Except.ok (4, true) := by
  refine ⟨?_, ?_, ?_, ?_, ?_, ?_⟩ <;> decide!

end RMDB
